import Mathlib

/-!
# Verification of the scudb buffer-pool structures

Shallow embedding of

* `Homework2/scudb/src/buffer/lru_replacer.cpp` (class `LRUReplacer<T>`),
* `Homework3/scudb/src/hash/extendible_hash.cpp` (class `ExtendibleHash<K, V>`).

Conventions of the embedding.

* A `shared_ptr<X>` is an optional address (`Option Nat`, `none` is `nullptr`) into a
  store of `X` objects; `make_shared` appends a fresh object to the store and its
  address is the store's previous length. Objects are never reclaimed in the model.
* Dereferencing `nullptr` or an address outside the store, and indexing a vector out
  of range, is undefined behaviour in C++; the embedded operation then returns `none`.
* A `std::map<K, V>` is an association list that holds every key at most once; the
  order of its entries is not observable through the embedded code.
* The latches (`mutex`, `lock_guard`) serialise the calls and have no sequential effect.
-/

/-! ## `std::map` -/

namespace StdMap

/-- The lookup `m.find(k)`: the mapped value, `none` standing for `m.end()`. -/
def find {K V : Type} [DecidableEq K] : List (K × V) → K → Option V
  | [], _ => none
  | (k1, v1) :: rest, k => if k1 = k then some v1 else find rest k

/-- The assignment `m[k] = v`: overwrite the entry of `k`, or add one. -/
def assign {K V : Type} [DecidableEq K] : List (K × V) → K → V → List (K × V)
  | [], k, v => [(k, v)]
  | (k1, v1) :: rest, k, v =>
    if k1 = k then (k, v) :: rest else (k1, v1) :: assign rest k v

/-- The removal `m.erase(k)`. -/
def erase {K V : Type} [DecidableEq K] : List (K × V) → K → List (K × V)
  | [], _ => []
  | (k1, v1) :: rest, k => if k1 = k then erase rest k else (k1, v1) :: erase rest k

/-- The count `m.size()`. -/
def size {K V : Type} (m : List (K × V)) : Nat := m.length

end StdMap

/-! ## `LRUReplacer<T>` -/

/-- The list node `struct DLinkedNode`. -/
structure LRUReplacer.DLinkedNode (T : Type) where
  value : T
  pre : Option Nat
  next : Option Nat
deriving DecidableEq

/-- The members of `LRUReplacer<T>` together with the store of its list nodes.
`size` is the `int` member; lists of `2^31` or more nodes are outside the model. -/
structure LRUReplacer (T : Type) where
  mem : List (LRUReplacer.DLinkedNode T)
  head : Option Nat
  tail : Option Nat
  size : Int
  index : List (T × Nat)
deriving DecidableEq

namespace LRUReplacer

variable {T : Type} [DecidableEq T]

/-- The replacer after the constructor `LRUReplacer()`: the member initialisers of the
header (`head = nullptr`, `tail = nullptr`, `size = 0`, an empty `index`). -/
def new : LRUReplacer T :=
  { mem := [], head := none, tail := none, size := 0, index := [] }

/-- Read through a node pointer, `*p`. -/
def rd (mem : List (DLinkedNode T)) (p : Option Nat) : Option (DLinkedNode T) :=
  match p with
  | none => none
  | some a => mem[a]?

/-- Write through a node pointer: `p->field = ...`, the new node being `f (*p)`. -/
def wr (mem : List (DLinkedNode T)) (p : Option Nat) (f : DLinkedNode T → DLinkedNode T) :
    Option (List (DLinkedNode T)) :=
  match p with
  | none => none
  | some a =>
    match mem[a]? with
    | none => none
    | some nd => some (mem.set a (f nd))

/-- The private `insertAtHead(node)`. -/
def insertAtHead (s : LRUReplacer T) (node : Option Nat) : Option (LRUReplacer T) :=
  match node with
  | none => some s
  | some n => do
    -- node->pre = nullptr; node->next = head;
    let mem1 ← wr s.mem (some n) (fun nd => { nd with pre := none })
    let mem2 ← wr mem1 (some n) (fun nd => { nd with next := s.head })
    -- if (head != nullptr) head->pre = node;
    let mem3 ← if s.head ≠ none then wr mem2 s.head (fun nd => { nd with pre := some n })
               else some mem2
    -- head = node;
    let head1 := some n
    -- if (tail == nullptr) tail = node;
    let tail1 := if s.tail = none then some n else s.tail
    -- index[node->value] = node; size++;
    let nd ← rd mem3 (some n)
    some { mem := mem3, head := head1, tail := tail1, size := s.size + 1,
           index := StdMap.assign s.index nd.value n }

/-- The private `erase(value)`: the returned flag and the state afterwards. -/
def erase (s : LRUReplacer T) (value : T) : Option (Bool × LRUReplacer T) :=
  match StdMap.find s.index value with
  | none => some (false, s)
  | some a => do
    let ptr : Option Nat := some a
    let (mem1, head1, tail1) ←
      if ptr = s.head ∧ ptr = s.tail then
        -- head = nullptr; tail = nullptr;
        some (s.mem, (none : Option Nat), (none : Option Nat))
      else if ptr = s.head then do
        -- ptr->next->pre = nullptr; head = ptr->next;
        let p0 ← rd s.mem ptr
        let m ← wr s.mem p0.next (fun nd => { nd with pre := none })
        let p1 ← rd m ptr
        some (m, p1.next, s.tail)
      else if ptr = s.tail then do
        -- ptr->pre->next = nullptr; tail = ptr->pre;
        let p0 ← rd s.mem ptr
        let m ← wr s.mem p0.pre (fun nd => { nd with next := none })
        let p1 ← rd m ptr
        some (m, s.head, p1.pre)
      else do
        -- ptr->pre->next = ptr->next; ptr->next->pre = ptr->pre;
        let p0 ← rd s.mem ptr
        let m ← wr s.mem p0.pre (fun nd => { nd with next := p0.next })
        let p1 ← rd m ptr
        let m1 ← wr m p1.next (fun nd => { nd with pre := p1.pre })
        some (m1, s.head, s.tail)
    -- ptr->pre = nullptr; ptr->next = nullptr;
    let mem2 ← wr mem1 ptr (fun nd => { nd with pre := none })
    let mem3 ← wr mem2 ptr (fun nd => { nd with next := none })
    -- index.erase(value); size--;
    some (true, { mem := mem3, head := head1, tail := tail1, size := s.size - 1,
                  index := StdMap.erase s.index value })

/-- The public `Insert(value)`: `erase(value)`, a fresh node from `make_shared`, then
`insertAtHead`. -/
def Insert (s : LRUReplacer T) (value : T) : Option (LRUReplacer T) := do
  let (_, s1) ← s.erase value
  let newNode : Option Nat := some s1.mem.length
  let s2 := { s1 with mem := s1.mem ++ [DLinkedNode.mk value none none] }
  s2.insertAtHead newNode

/-- The public `Victim(value)`. The first component is `some v` when the call returns
`true` having written `v` to the out-parameter, and `none` when it returns `false`
(the out-parameter is then not written). -/
def Victim (s : LRUReplacer T) : Option (Option T × LRUReplacer T) :=
  if s.size = 0 then
    some (none, s)
  else do
    let (value, mem1, head1, tail1) ←
      if s.head = s.tail then do
        -- value = head->value; head = nullptr; tail = nullptr;
        let h ← rd s.mem s.head
        some (h.value, s.mem, (none : Option Nat), (none : Option Nat))
      else do
        -- value = tail->value; discard = tail;
        let t ← rd s.mem s.tail
        let discard := s.tail
        -- discard->pre->next = nullptr;
        let d0 ← rd s.mem discard
        let m ← wr s.mem d0.pre (fun nd => { nd with next := none })
        -- tail = discard->pre;
        let d1 ← rd m discard
        -- discard->pre = nullptr;
        let m1 ← wr m discard (fun nd => { nd with pre := none })
        some (t.value, m1, s.head, d1.pre)
    -- index.erase(value); size--;
    some (some value, { mem := mem1, head := head1, tail := tail1, size := s.size - 1,
                        index := StdMap.erase s.index value })

/-- The public `Erase(value)`. -/
def Erase (s : LRUReplacer T) (value : T) : Option (Bool × LRUReplacer T) :=
  s.erase value

/-- The public `Size()`; the conversion of the `int` member to `size_t` is the identity
on the non-negative values the member takes. -/
def Size (s : LRUReplacer T) : Int := s.size

/-- The cells reached from `p` along the `next` pointers, as (address, value) pairs;
the walk visits at most `fuel` nodes. -/
def walk (mem : List (DLinkedNode T)) : Nat → Option Nat → List (Nat × T)
  | 0, _ => []
  | _ + 1, none => []
  | fuel + 1, some a =>
    match mem[a]? with
    | none => []
    | some nd => (a, nd.value) :: walk mem fuel nd.next

/-- The recency list as (address, value) pairs, head first. -/
def cells (s : LRUReplacer T) : List (Nat × T) := walk s.mem s.mem.length s.head

/-- The values of the recency list, most recent (head) first. -/
def toList (s : LRUReplacer T) : List T := (cells s).map Prod.snd

/-- The replacer states that the public interface produces from a new replacer. -/
inductive Reachable : LRUReplacer T → Prop
  | new : Reachable new
  | Insert (s s1 : LRUReplacer T) (v : T) :
      Reachable s → s.Insert v = some s1 → Reachable s1
  | Victim (s s1 : LRUReplacer T) (r : Option T) :
      Reachable s → s.Victim = some (r, s1) → Reachable s1
  | Erase (s s1 : LRUReplacer T) (v : T) (b : Bool) :
      Reachable s → s.Erase v = some (b, s1) → Reachable s1

/-- The replacer after `Insert(v)` for each `v` of a list, in order. -/
def insertAll (s : LRUReplacer T) : List T → Option (LRUReplacer T)
  | [] => some s
  | v :: vs => (s.Insert v).bind (fun s1 => insertAll s1 vs)

/-- The values written by successive `Victim` calls that return `true`, at most `n`
calls being made and the first call that returns `false` being the last. -/
def victims : Nat → LRUReplacer T → Option (List T)
  | 0, _ => some []
  | n + 1, s =>
    match s.Victim with
    | none => none
    | some (none, _) => some []
    | some (some v, s1) => (victims n s1).map (fun vs => v :: vs)

/-- The values of a sequence of `Insert` calls that are their own last occurrence, in
the order of the calls: each value once, ordered by its last `Insert`. -/
def lastInserts : List T → List T
  | [] => []
  | v :: vs => if v ∈ vs then lastInserts vs else v :: lastInserts vs

/-- The replacer after `Insert(1)`, `Insert(2)`, `Insert(3)`, `Insert(1)` on a new one. -/
def sample : LRUReplacer Nat :=
  { mem := [DLinkedNode.mk 1 none none, DLinkedNode.mk 2 (some 2) none,
            DLinkedNode.mk 3 (some 3) (some 1), DLinkedNode.mk 1 none (some 2)],
    head := some 3, tail := some 1, size := 3, index := [(2, 1), (3, 2), (1, 3)] }

/-- The address of the first cell of `l`, and `n` for an empty `l`. -/
def firstOr (l : List (Nat × T)) (n : Option Nat) : Option Nat :=
  match l with
  | [] => n
  | c :: _ => some c.1

/-- The address of the last cell of `l`, and `p` for an empty `l`. -/
def lastOr : List (Nat × T) → Option Nat → Option Nat
  | [], p => p
  | c :: rest, _ => lastOr rest (some c.1)

/-- The cells `l` form a doubly linked segment of the store: each cell holds its
value, its `pre` is the cell before it (`p` for the first) and its `next` the cell
after it (`n` for the last). -/
def Linked (mem : List (DLinkedNode T)) : Option Nat → List (Nat × T) → Option Nat → Prop
  | _, [], _ => True
  | p, c :: rest, n =>
    mem[c.1]? = some (DLinkedNode.mk c.2 p (firstOr rest n)) ∧ Linked mem (some c.1) rest n

/-- The representation invariant: the state `s` represents the cell list `l`. -/
structure Rep (s : LRUReplacer T) (l : List (Nat × T)) : Prop where
  linked : Linked s.mem none l none
  addrs : (l.map Prod.fst).Nodup
  vals : (l.map Prod.snd).Nodup
  head_eq : s.head = firstOr l none
  tail_eq : s.tail = lastOr l none
  size_eq : s.size = l.length
  index_iff : ∀ v a, StdMap.find s.index v = some a ↔ (a, v) ∈ l
  index_keys : (s.index.map Prod.fst).Nodup

end LRUReplacer

/-! ## `ExtendibleHash<K, V>` -/

/-- The bucket `struct Bucket`: its map and its local depth (the latch has no
sequential effect). -/
structure ExtendibleHash.Bucket (K V : Type) where
  kmap : List (K × V)
  localDepth : Nat
deriving DecidableEq

/-- The members of `ExtendibleHash<K, V>` together with the store of its buckets; an
entry of `directories` is the address of a bucket (the vector never holds `nullptr`,
only results of `make_shared` are stored in it). The depths are `int` members that
only ever grow from 0. -/
structure ExtendibleHash (K V : Type) where
  globalDepth : Nat
  bucketSize : Nat
  bucketNum : Nat
  directories : List Nat
  store : List (ExtendibleHash.Bucket K V)
deriving DecidableEq

namespace ExtendibleHash

variable {K V : Type} [DecidableEq K]

/-- The shift `1 << d` on the 32-bit `int`: for `d < 31` its value is `2 ^ d`; a larger
`d` leaves the range of `int` and the embedded operation fails. -/
def shl1 (d : Nat) : Option Nat :=
  if d < 31 then some (2 ^ d) else none

/-- The table after the constructor `ExtendibleHash(size)`. -/
def new (size : Nat) : ExtendibleHash K V :=
  { globalDepth := 0, bucketSize := size, bucketNum := 1, directories := [0],
    store := [Bucket.mk [] 0] }

/-- The accessor `GetGlobalDepth()`. -/
def GetGlobalDepth (s : ExtendibleHash K V) : Nat := s.globalDepth

/-- The accessor `GetLocalDepth(bucket_id)`: `directories[bucket_id]->localDepth`. -/
def GetLocalDepth (s : ExtendibleHash K V) (bucket_id : Nat) : Option Nat := do
  let a ← s.directories[bucket_id]?
  let b ← s.store[a]?
  some b.localDepth

/-- The accessor `GetNumBuckets()`. -/
def GetNumBuckets (s : ExtendibleHash K V) : Nat := s.bucketNum

/-- The private `getIdx(key)`: `HashKey(key) & ((1 << globalDepth) - 1)`. The hash
function `HashKey` (`std::hash<K>`) is a parameter of the embedding. -/
def getIdx (HashKey : K → Nat) (s : ExtendibleHash K V) (key : K) : Option Nat := do
  let m ← shl1 s.globalDepth
  some (HashKey key &&& (m - 1))

/-- The public `Find(key, value)`: `some v` when the call returns `true` having written
`v` to `value`, `none` when it returns `false`. -/
def Find (HashKey : K → Nat) (s : ExtendibleHash K V) (key : K) : Option (Option V) := do
  let index ← getIdx HashKey s key
  let a ← s.directories[index]?
  let b ← s.store[a]?
  some (StdMap.find b.kmap key)

/-- The public `Remove(key)`: the returned flag and the table afterwards. -/
def Remove (HashKey : K → Nat) (s : ExtendibleHash K V) (key : K) :
    Option (Bool × ExtendibleHash K V) := do
  let index ← getIdx HashKey s key
  let cur ← s.directories[index]?
  let b ← s.store[cur]?
  if (StdMap.find b.kmap key).isNone then
    some (false, s)
  else
    -- cur->kmap.erase(key);
    some (true, { s with store := s.store.set cur { b with kmap := StdMap.erase b.kmap key } })

/-- The rehash loop of `Insert` over the entries of the split bucket: an entry whose
hash has the `mask` bit is assigned to the map of the new bucket (`moved`) and erased,
the others are kept. The result is (kept, moved). -/
def rehash (HashKey : K → Nat) (mask : Nat) :
    List (K × V) → List (K × V) → List (K × V) × List (K × V)
  | [], moved => ([], moved)
  | (k, v) :: rest, moved =>
    if HashKey k &&& mask ≠ 0 then
      rehash HashKey mask rest (StdMap.assign moved k v)
    else
      ((k, v) :: (rehash HashKey mask rest moved).1, (rehash HashKey mask rest moved).2)

/-- The last loop of the split: every slot `i` (counted from `i0`) that references `cur`
and has `i & mask` non-zero is pointed to `newBuc`. -/
def repoint (cur newBuc mask : Nat) : Nat → List Nat → List Nat
  | _, [] => []
  | i, d :: rest =>
    (if d = cur ∧ i &&& mask ≠ 0 then newBuc else d) :: repoint cur newBuc mask (i + 1) rest

/-- One split step: the body of the `while` loop of `Insert` from the computation of
`mask` to the end of the block that holds the directory latch, for the full bucket at
address `cur`. -/
def split (HashKey : K → Nat) (s : ExtendibleHash K V) (cur : Nat) :
    Option (ExtendibleHash K V) := do
  let b ← s.store[cur]?
  -- int mask = (1 << (cur->localDepth)); cur->localDepth++;
  let mask ← shl1 b.localDepth
  let depth := b.localDepth + 1
  -- if (cur->localDepth > globalDepth) { append a copy of every slot; globalDepth++; }
  let dirs1 := if depth > s.globalDepth then s.directories ++ s.directories else s.directories
  let global1 := if depth > s.globalDepth then s.globalDepth + 1 else s.globalDepth
  -- bucketNum++; auto newBuc = make_shared<Bucket>(cur->localDepth);
  let newBuc := s.store.length
  let parts := rehash HashKey mask b.kmap []
  let store1 := s.store.set cur (Bucket.mk parts.1 depth) ++ [Bucket.mk parts.2 depth]
  some { globalDepth := global1, bucketSize := s.bucketSize, bucketNum := s.bucketNum + 1,
         directories := repoint cur newBuc mask 0 dirs1, store := store1 }

/-- The `while (true)` loop of `Insert`, entered with the bucket address `cur`; at most
`fuel` passes are made (`none` also when the passes run out). -/
def insertLoop (HashKey : K → Nat) (key : K) (value : V) :
    Nat → ExtendibleHash K V → Nat → Option (ExtendibleHash K V)
  | 0, _, _ => none
  | fuel + 1, s, cur => do
    let b ← s.store[cur]?
    if (StdMap.find b.kmap key).isSome ∨ StdMap.size b.kmap < s.bucketSize then
      -- cur->kmap[key] = value; break;
      some { s with store := s.store.set cur { b with kmap := StdMap.assign b.kmap key value } }
    else do
      let s1 ← split HashKey s cur
      -- idx = getIdx(key); cur = directories[idx];
      let idx ← getIdx HashKey s1 key
      let cur1 ← s1.directories[idx]?
      insertLoop HashKey key value fuel s1 cur1

/-- The public `Insert(key, value)`, its loop making at most `fuel` passes. -/
def Insert (HashKey : K → Nat) (fuel : Nat) (s : ExtendibleHash K V) (key : K) (value : V) :
    Option (ExtendibleHash K V) := do
  let idx ← getIdx HashKey s key
  let cur ← s.directories[idx]?
  insertLoop HashKey key value fuel s cur

/-- The table after `Insert(k, v)` for each pair of a list, in order. -/
def insertAll (HashKey : K → Nat) (fuel : Nat) (s : ExtendibleHash K V) :
    List (K × V) → Option (ExtendibleHash K V)
  | [] => some s
  | (k, v) :: rest => (Insert HashKey fuel s k v).bind (fun s1 => insertAll HashKey fuel s1 rest)

/-- The table `s1` is the result of the calls `Insert(k, v)` for the pairs of a list, in
order, on the table `s`, every call returning (its loop within some number of passes). -/
inductive Run (HashKey : K → Nat) :
    ExtendibleHash K V → List (K × V) → ExtendibleHash K V → Prop
  | nil (s : ExtendibleHash K V) : Run HashKey s [] s
  | cons (s s1 s2 : ExtendibleHash K V) (fuel : Nat) (k : K) (v : V) (rest : List (K × V)) :
      Insert HashKey fuel s k v = some s1 → Run HashKey s1 rest s2 →
      Run HashKey s ((k, v) :: rest) s2

/-- The value of the most recent `Insert(k, _)` in a sequence of calls, `none` when the
sequence has no `Insert` of `k`: a later call wins over an earlier one. -/
def lastValue : List (K × V) → K → Option V
  | [], _ => none
  | (k1, v1) :: rest, k =>
    match lastValue rest k with
    | some v => some v
    | none => if k1 = k then some v1 else none

/-- A sequence of `Insert` calls used as an example. -/
def sampleOps : List (Nat × Nat) := [(1, 10), (2, 20), (3, 30), (1, 11), (5, 50)]

/-- The table after the calls of `sampleOps` on a new table of bucket size 2, with the
identity as hash function. -/
def sampleTable : ExtendibleHash Nat Nat :=
  { globalDepth := 2, bucketSize := 2, bucketNum := 3, directories := [0, 1, 0, 2],
    store := [Bucket.mk [(2, 20)] 1, Bucket.mk [(1, 11), (5, 50)] 2, Bucket.mk [(3, 30)] 2] }

/-- The table states reached from a new table by `Insert` calls that return and `Remove`
calls. -/
inductive Reachable (HashKey : K → Nat) : ExtendibleHash K V → Prop
  | new (size : Nat) : Reachable HashKey (new size)
  | Insert (s s1 : ExtendibleHash K V) (fuel : Nat) (k : K) (v : V) :
      Reachable HashKey s → Insert HashKey fuel s k v = some s1 → Reachable HashKey s1
  | Remove (s s1 : ExtendibleHash K V) (k : K) (b : Bool) :
      Reachable HashKey s → Remove HashKey s k = some (b, s1) → Reachable HashKey s1

/-- The structural invariant of a table: the directory has `2 ^ globalDepth` slots and
every slot `i` references a bucket `b` of the store whose local depth is at most the
global depth, which is shared by exactly the slots that agree with `i` in the low
`localDepth` bits, whose keys each hash to those low bits, and whose map holds every
key once. -/
structure Inv (HashKey : K → Nat) (s : ExtendibleHash K V) : Prop where
  dir_len : s.directories.length = 2 ^ s.globalDepth
  slot : ∀ i, i < 2 ^ s.globalDepth →
    ∃ a b, s.directories[i]? = some a ∧ s.store[a]? = some b ∧
      b.localDepth ≤ s.globalDepth ∧
      (∀ j, j < 2 ^ s.globalDepth →
        (s.directories[j]? = some a ↔ j % 2 ^ b.localDepth = i % 2 ^ b.localDepth)) ∧
      (∀ k, k ∈ b.kmap.map Prod.fst → HashKey k % 2 ^ b.localDepth = i % 2 ^ b.localDepth) ∧
      (b.kmap.map Prod.fst).Nodup

end ExtendibleHash

namespace ExtendibleHash

variable {K V : Type} [DecidableEq K]

/-- The loop `for (size_t i = 0; i < len; i++) directories.push_back(directories[i]);`
of the directory doubling in `Insert`: `n` further passes, the next one for the slot
`i`. -/
def pushCopies : Nat → Nat → List Nat → Option (List Nat)
  | 0, _, dirs => some dirs
  | n + 1, i, dirs => do
    let d ← dirs[i]?
    pushCopies n (i + 1) (dirs ++ [d])

/-- The passes of the `while (true)` loop of `Insert` that split, `n` of them: each is
the body of the loop from the computation of `mask` to `cur = directories[idx]`, with
the bucket address `cur` at its start; the result is the table and the bucket address
at the start of the next pass. -/
def splitPasses (HashKey : K → Nat) (key : K) :
    Nat → ExtendibleHash K V → Nat → Option (ExtendibleHash K V × Nat)
  | 0, s, cur => some (s, cur)
  | n + 1, s, cur => do
    let s1 ← split HashKey s cur
    -- idx = getIdx(key); cur = directories[idx];
    let idx ← getIdx HashKey s1 key
    let cur1 ← s1.directories[idx]?
    splitPasses HashKey key n s1 cur1

/-- The table after `Insert(1, 10)`, `Insert(2, 20)` on a new table of bucket size 2:
one bucket of local depth 0, which is full. -/
def fullTable : ExtendibleHash Nat Nat :=
  { globalDepth := 0, bucketSize := 2, bucketNum := 1, directories := [0],
    store := [Bucket.mk [(1, 10), (2, 20)] 0] }

/-- The table after `Insert(0, 0)` on a new table of bucket size 1: one bucket of local
depth 0, which is full. -/
def oneTable : ExtendibleHash Nat Nat :=
  { globalDepth := 0, bucketSize := 1, bucketNum := 1, directories := [0],
    store := [Bucket.mk [(0, 0)] 0] }

/-- A hash function whose values differ in the bit 31 only: `HashKey(k) = k * 2^31`. -/
def highHash (k : Nat) : Nat := k * 2147483648

/-- A hash function with one value. -/
def constHash (_ : Nat) : Nat := 0

end ExtendibleHash

/-! ## B+ tree

Shallow embedding of

* `Homework3/scudb/src/page/b_plus_tree_page.cpp` (class `BPlusTreePage`),
* `Homework3/scudb/src/page/b_plus_tree_internal_page.cpp` (class `BPlusTreeInternalPage`),
* `Homework3/scudb/src/index/b_plus_tree.cpp` (class `BPlusTree`).

Conventions of the embedding.

* A page id (`page_id_t`) is an `Int`; `INVALID_PAGE_ID` is `-1`.
* A pointer to a tree page is the page id of the frame it points into; what is read or
  written through the pointer is read from or written to the page table of the buffer
  pool under that id.
* The header field `size_` of a page is the length of the list that holds its live
  pairs `array[0 .. size_)`; slots beyond `size_` are not represented. `page_type_` is
  the constructor of `BPlusTreePage`.
* The key comparator is a linear order on `K`: `comparator(a, b) <= 0` is `a ≤ b`.
* A failed `assert`, a null pointer dereference and an array access outside `[0, size_)`
  make the embedded operation return `none`.
* The values that `Init` gives `max_size_` depend on `PAGE_SIZE` and on `sizeof` of
  types that the sources at hand do not fix; they are the parameters `leaf_max_size`
  and `internal_max_size` of the tree.
* Latches, pin counts and the record of the header page have no effect on the pages of
  the tree in a sequential run and are not represented.
* The leaf page class (`b_plus_tree_leaf_page.cpp`) and the buffer pool manager are
  not among the sources at hand; their operations are modelled from the specification.
-/

/-- The operation kinds `enum class OpType`. -/
inductive OpType where
  | READ
  | INSERT
  | DELETE
  deriving DecidableEq

/-- The constant `INVALID_PAGE_ID`. -/
def INVALID_PAGE_ID : Int := -1

/-- A tree page: the header fields `page_id_`, `parent_page_id_`, `max_size_` and the
pair array; the constructor is the field `page_type_` (`LEAF_PAGE`, `INTERNAL_PAGE`). -/
inductive BPlusTreePage (K V : Type) where
  | leaf (page_id parent_page_id : Int) (max_size : Nat) (array : List (K × V))
  | internal (page_id parent_page_id : Int) (max_size : Nat) (array : List (K × Int))
  deriving DecidableEq

namespace BPlusTreePage

variable {K V : Type}

/-- The test `IsLeafPage()`. -/
def IsLeafPage : BPlusTreePage K V → Bool
  | leaf _ _ _ _ => true
  | internal _ _ _ _ => false

/-- The getter `GetPageId()`. -/
def GetPageId : BPlusTreePage K V → Int
  | leaf page_id _ _ _ => page_id
  | internal page_id _ _ _ => page_id

/-- The getter `GetParentPageId()`. -/
def GetParentPageId : BPlusTreePage K V → Int
  | leaf _ parent_page_id _ _ => parent_page_id
  | internal _ parent_page_id _ _ => parent_page_id

/-- The setter `SetParentPageId(parent_page_id)`. -/
def SetParentPageId : BPlusTreePage K V → Int → BPlusTreePage K V
  | leaf page_id _ max_size array, parent_page_id =>
    leaf page_id parent_page_id max_size array
  | internal page_id _ max_size array, parent_page_id =>
    internal page_id parent_page_id max_size array

/-- The test `IsRootPage()`: `parent_page_id_ == INVALID_PAGE_ID`. -/
def IsRootPage (p : BPlusTreePage K V) : Bool :=
  decide (p.GetParentPageId = INVALID_PAGE_ID)

/-- The getter `GetSize()`. -/
def GetSize : BPlusTreePage K V → Nat
  | leaf _ _ _ array => array.length
  | internal _ _ _ array => array.length

/-- The getter `GetMaxSize()`. -/
def GetMaxSize : BPlusTreePage K V → Nat
  | leaf _ _ max_size _ => max_size
  | internal _ _ max_size _ => max_size

/-- The minimum `GetMinSize()`: `max_size_ / 2` for a page that is not the root, 1 for
a root leaf and 2 for an internal root. -/
def GetMinSize (p : BPlusTreePage K V) : Nat :=
  if !p.IsRootPage then
    p.GetMaxSize / 2
  else if p.IsLeafPage then
    1
  else
    2

/-- The test `IsSafe(op)`; the call ends in `assert(false)` for `READ`. -/
def IsSafe (p : BPlusTreePage K V) (op : OpType) : Option Bool :=
  let size := p.GetSize
  match op with
  | OpType.INSERT => some (decide (size < p.GetMaxSize))
  | OpType.DELETE =>
    let minSize := p.GetMinSize + 1
    if p.IsLeafPage then
      some (decide (size ≥ minSize))
    else
      some (decide (size > minSize))
  | OpType.READ => none

end BPlusTreePage

/-- Modelled from the spec: the buffer pool manager (declared in
`buffer/buffer_pool_manager.h`, not among the sources). It is the table of the pages
that exist, keyed by page id, and the id that the next `NewPage` hands out; ids are
handed out in increasing order and not reused. -/
structure BufferPoolManager (K V : Type) where
  /-- The pages that exist. -/
  pages : List (Int × BPlusTreePage K V)
  /-- The id of the next new page. -/
  next_page_id : Int
  deriving DecidableEq

namespace BufferPoolManager

variable {K V : Type}

/-- Modelled from the spec: `NewPage(&out_id)`, the id of a fresh zeroed page. The page
enters the table when its `Init` is stored. -/
def NewPage (bpm : BufferPoolManager K V) : Int × BufferPoolManager K V :=
  (bpm.next_page_id, { bpm with next_page_id := bpm.next_page_id + 1 })

/-- Modelled from the spec: `FetchPage(id)`, the page stored under `id`. -/
def FetchPage (bpm : BufferPoolManager K V) (page_id : Int) : Option (BPlusTreePage K V) :=
  StdMap.find bpm.pages page_id

/-- Modelled from the spec: `DeletePage(id)`. -/
def DeletePage (bpm : BufferPoolManager K V) (page_id : Int) : BufferPoolManager K V :=
  { bpm with pages := StdMap.erase bpm.pages page_id }

/-- The effect of writing the page `page` through a pointer to the frame of `page_id`. -/
def store (bpm : BufferPoolManager K V) (page_id : Int) (page : BPlusTreePage K V) :
    BufferPoolManager K V :=
  { bpm with pages := StdMap.assign bpm.pages page_id page }

/-- The statements `FetchPage(child)`, `SetParentPageId(parent)`, `UnpinPage(child, true)`
that re-parent one child page. -/
def SetParentPageId (bpm : BufferPoolManager K V) (child parent : Int) :
    Option (BufferPoolManager K V) := do
  let childTreePage ← bpm.FetchPage child
  some (bpm.store child (childTreePage.SetParentPageId parent))

/-- The re-parenting of the children `children` in the order of the list, as the
loops of `MoveHalfTo` and `MoveAllTo` do it. -/
def SetParentPageIds (bpm : BufferPoolManager K V) :
    List Int → Int → Option (BufferPoolManager K V)
  | [], _ => some bpm
  | child :: rest, parent => do
    let bpm1 ← bpm.SetParentPageId child parent
    SetParentPageIds bpm1 rest parent

end BufferPoolManager

namespace BPlusTreeInternalPage

variable {K V : Type} [LinearOrder K] [Inhabited K]

/-- The method `Init(page_id, parent_id)`; `max_size` stands for
`(PAGE_SIZE - sizeof(BPlusTreeInternalPage)) / sizeof(MappingType) - 1`. -/
def Init (page_id parent_id : Int) (max_size : Nat) : BPlusTreePage K V :=
  BPlusTreePage.internal page_id parent_id max_size []

/-- The getter `KeyAt(index)`. -/
def KeyAt (array : List (K × Int)) (index : Nat) : Option K :=
  (array[index]?).map Prod.fst

/-- The setter `SetKeyAt(index, key)`. -/
def SetKeyAt (array : List (K × Int)) (index : Nat) (key : K) : Option (List (K × Int)) :=
  match array[index]? with
  | some e => some (array.set index (key, e.2))
  | none => none

/-- The search `ValueIndex(value)`; `none` stands for the result `-1`. -/
def ValueIndex : List (K × Int) → Int → Option Nat
  | [], _ => none
  | e :: rest, value =>
    if value = e.2 then some 0 else (ValueIndex rest value).map (fun i => i + 1)

/-- The getter `ValueAt(index)`. -/
def ValueAt (array : List (K × Int)) (index : Nat) : Option Int :=
  (array[index]?).map Prod.snd

/-- The `while (left <= right)` loop of `Lookup`; the result is the final `left`. The
first argument bounds the number of iterations. -/
def lookupLoop (array : List (K × Int)) (key : K) : Nat → Nat → Nat → Option Nat
  | 0, _, _ => none
  | fuel + 1, left, right =>
    if left ≤ right then
      let mid := (right - left) / 2 + left
      match array[mid]? with
      | none => none
      | some e =>
        if e.1 ≤ key then lookupLoop array key fuel (mid + 1) right
        else lookupLoop array key fuel left (mid - 1)
    else some left

/-- The method `Lookup(key, comparator)`: the child that the binary search over the
keys of the slots `1 .. size - 1` selects. -/
def Lookup (array : List (K × Int)) (key : K) : Option Int :=
  if array.length > 1 then
    match lookupLoop array key array.length 1 (array.length - 1) with
    | some left => ValueAt array (left - 1)
    | none => none
  else none

/-- The method `PopulateNewRoot(old_value, new_key, new_value)` on a page fresh from
`Init`. Slot 0 keeps the key bytes of the new page, which `NewPage` zeroes: the key
`default`. -/
def PopulateNewRoot (old_value : Int) (new_key : K) (new_value : Int) : List (K × Int) :=
  [(default, old_value), (new_key, new_value)]

/-- The method `InsertNodeAfter(old_value, new_key, new_value)`; the new size is the
length of the result. -/
def InsertNodeAfter (array : List (K × Int)) (old_value : Int) (new_key : K)
    (new_value : Int) : Option (List (K × Int)) :=
  match ValueIndex array old_value with
  | none => none
  | some i =>
    let index := i + 1
    some (array.take index ++ (new_key, new_value) :: array.drop index)

/-- The method `Remove(index)`. -/
def Remove (array : List (K × Int)) (index : Nat) : Option (List (K × Int)) :=
  if index < array.length then some (array.eraseIdx index) else none

/-- The method `RemoveAndReturnOnlyChild()`. -/
def RemoveAndReturnOnlyChild (array : List (K × Int)) : Option (Int × List (K × Int)) :=
  match array with
  | [e] => some (e.2, [])
  | _ => none

/-- The method `MoveHalfTo(recipient, buffer_pool_manager)` of the page `this`. -/
def MoveHalfTo (bpm : BufferPoolManager K V) (this recipient : Int) :
    Option (BufferPoolManager K V) := do
  match ← bpm.FetchPage this with
  | BPlusTreePage.leaf _ _ _ _ => none
  | BPlusTreePage.internal _ _ max_size array =>
    let total := max_size + 1
    if array.length ≠ total then none else
    let copyIdx := total / 2
    let recipPage ← bpm.FetchPage recipient
    let recipPageId := recipPage.GetPageId
    let bpm1 ← bpm.SetParentPageIds ((array.drop copyIdx).map Prod.snd) recipPageId
    match ← bpm1.FetchPage recipient with
    | BPlusTreePage.leaf _ _ _ _ => none
    | BPlusTreePage.internal rid rparent rmax _ =>
      let bpm2 := bpm1.store recipient
        (BPlusTreePage.internal rid rparent rmax (array.drop copyIdx))
      match ← bpm2.FetchPage this with
      | BPlusTreePage.leaf _ _ _ _ => none
      | BPlusTreePage.internal pid parent pmax _ =>
        some (bpm2.store this (BPlusTreePage.internal pid parent pmax (array.take copyIdx)))

/-- The method `MoveAllTo(recipient, index_in_parent, buffer_pool_manager)` of the page
`this`. -/
def MoveAllTo (bpm : BufferPoolManager K V) (this recipient : Int) (index_in_parent : Nat) :
    Option (BufferPoolManager K V) := do
  match ← bpm.FetchPage this with
  | BPlusTreePage.leaf _ _ _ _ => none
  | BPlusTreePage.internal _ parent_page_id max_size array0 =>
    match ← bpm.FetchPage recipient with
    | BPlusTreePage.leaf _ _ _ _ => none
    | BPlusTreePage.internal recipPageId _ _ rarray0 =>
      let start := rarray0.length
      match ← bpm.FetchPage parent_page_id with
      | BPlusTreePage.leaf _ _ _ _ => none
      | BPlusTreePage.internal _ _ _ parray =>
        let key ← KeyAt parray index_in_parent
        let array ← SetKeyAt array0 0 key
        let bpm1 ← bpm.SetParentPageIds (array.map Prod.snd) recipPageId
        match ← bpm1.FetchPage recipient with
        | BPlusTreePage.leaf _ _ _ _ => none
        | BPlusTreePage.internal rid rparent rmax rarray =>
          let bpm2 := bpm1.store recipient
            (BPlusTreePage.internal rid rparent rmax (rarray ++ array))
          if ¬ (start + array.length ≤ max_size) then none else
          match ← bpm2.FetchPage this with
          | BPlusTreePage.leaf _ _ _ _ => none
          | BPlusTreePage.internal pid parent pmax _ =>
            some (bpm2.store this (BPlusTreePage.internal pid parent pmax []))

/-- The method `CopyLastFrom(pair, buffer_pool_manager)` of the page `this`. -/
def CopyLastFrom (bpm : BufferPoolManager K V) (this : Int) (pair : K × Int) :
    Option (BufferPoolManager K V) := do
  match ← bpm.FetchPage this with
  | BPlusTreePage.leaf _ _ _ _ => none
  | BPlusTreePage.internal pid parent max_size array =>
    if ¬ (array.length + 1 ≤ max_size) then none else
    some (bpm.store this (BPlusTreePage.internal pid parent max_size (array ++ [pair])))

/-- The method `MoveFirstToEndOf(recipient, buffer_pool_manager)` of the page `this`. -/
def MoveFirstToEndOf (bpm : BufferPoolManager K V) (this recipient : Int) :
    Option (BufferPoolManager K V) := do
  match ← bpm.FetchPage this with
  | BPlusTreePage.leaf _ _ _ _ => none
  | BPlusTreePage.internal pid parent_page_id max_size array =>
    match array with
    | [] => none
    | pair :: rest =>
      let bpm1 := bpm.store this (BPlusTreePage.internal pid parent_page_id max_size rest)
      let bpm2 ← CopyLastFrom bpm1 recipient pair
      let rpage ← bpm2.FetchPage recipient
      let bpm3 ← bpm2.SetParentPageId pair.2 rpage.GetPageId
      match ← bpm3.FetchPage this with
      | BPlusTreePage.leaf _ _ _ _ => none
      | BPlusTreePage.internal pid1 parent1 _ array1 =>
        match ← bpm3.FetchPage parent1 with
        | BPlusTreePage.leaf _ _ _ _ => none
        | BPlusTreePage.internal ppid pparent pmax parray =>
          let index ← ValueIndex parray pid1
          let first := match array1 with
            | [] => pair.1
            | e :: _ => e.1
          let parray1 ← SetKeyAt parray index first
          some (bpm3.store parent1 (BPlusTreePage.internal ppid pparent pmax parray1))

/-- The method `CopyFirstFrom(pair, parent_index, buffer_pool_manager)` of the page
`this`. -/
def CopyFirstFrom (bpm : BufferPoolManager K V) (this : Int) (pair : K × Int)
    (parent_index : Nat) : Option (BufferPoolManager K V) := do
  match ← bpm.FetchPage this with
  | BPlusTreePage.leaf _ _ _ _ => none
  | BPlusTreePage.internal pid parent_page_id max_size array =>
    if ¬ (array.length + 1 < max_size) then none else
    let bpm1 := bpm.store this (BPlusTreePage.internal pid parent_page_id max_size (pair :: array))
    let bpm2 ← bpm1.SetParentPageId pair.2 pid
    match ← bpm2.FetchPage this with
    | BPlusTreePage.leaf _ _ _ _ => none
    | BPlusTreePage.internal _ parent1 _ array1 =>
      match ← bpm2.FetchPage parent1 with
      | BPlusTreePage.leaf _ _ _ _ => none
      | BPlusTreePage.internal ppid pparent pmax parray =>
        let first ← (array1.head?).map Prod.fst
        let parray1 ← SetKeyAt parray parent_index first
        some (bpm2.store parent1 (BPlusTreePage.internal ppid pparent pmax parray1))

/-- The method `MoveLastToFrontOf(recipient, parent_index, buffer_pool_manager)` of the
page `this`. -/
def MoveLastToFrontOf (bpm : BufferPoolManager K V) (this recipient : Int)
    (parent_index : Nat) : Option (BufferPoolManager K V) := do
  match ← bpm.FetchPage this with
  | BPlusTreePage.leaf _ _ _ _ => none
  | BPlusTreePage.internal pid parent_page_id max_size array =>
    let pair ← array.getLast?
    let bpm1 := bpm.store this
      (BPlusTreePage.internal pid parent_page_id max_size array.dropLast)
    CopyFirstFrom bpm1 recipient pair parent_index

end BPlusTreeInternalPage

namespace BPlusTreeLeafPage

variable {K V : Type} [LinearOrder K] [Inhabited K]

/-- Modelled from the spec: `BPlusTreeLeafPage::Init(page_id, parent_id)`, an empty
leaf; `max_size` stands for the capacity derived from `PAGE_SIZE`. The forward-sibling
id of a leaf serves the iterator only and is not represented. -/
def Init (page_id parent_id : Int) (max_size : Nat) : BPlusTreePage K V :=
  BPlusTreePage.leaf page_id parent_id max_size []

/-- Modelled from the spec: `BPlusTreeLeafPage::KeyAt(index)`. -/
def KeyAt (array : List (K × V)) (index : Nat) : Option K :=
  (array[index]?).map Prod.fst

/-- Modelled from the spec: `BPlusTreeLeafPage::Lookup(key, value, comparator)`, the
value stored with `key` in the leaf, `none` for the result `false`. -/
def Lookup : List (K × V) → K → Option V
  | [], _ => none
  | e :: rest, key => if e.1 = key then some e.2 else Lookup rest key

/-- Modelled from the spec: `BPlusTreeLeafPage::Insert(key, value, comparator)`, the
insertion of the pair in sorted order. -/
def Insert : List (K × V) → K → V → List (K × V)
  | [], key, value => [(key, value)]
  | e :: rest, key, value =>
    if key < e.1 then (key, value) :: e :: rest else e :: Insert rest key value

/-- Modelled from the spec: `BPlusTreeLeafPage::RemoveAndDeleteRecord(key, comparator)`,
the removal of the pair of `key` if there is one; the returned size is the length of
the result. -/
def RemoveAndDeleteRecord : List (K × V) → K → List (K × V)
  | [], _ => []
  | e :: rest, key => if e.1 = key then rest else e :: RemoveAndDeleteRecord rest key

/-- Modelled from the spec: `BPlusTreeLeafPage::MoveHalfTo(recipient, bpm)` of the leaf
`this`. The upper half of the pairs moves to the new leaf; of `size` pairs the leaf
keeps `size / 2` (a leaf of five pairs splits into two and three). -/
def MoveHalfTo (bpm : BufferPoolManager K V) (this recipient : Int) :
    Option (BufferPoolManager K V) := do
  match ← bpm.FetchPage this with
  | BPlusTreePage.internal _ _ _ _ => none
  | BPlusTreePage.leaf pid parent max_size array =>
    let copyIdx := array.length / 2
    match ← bpm.FetchPage recipient with
    | BPlusTreePage.internal _ _ _ _ => none
    | BPlusTreePage.leaf rid rparent rmax _ =>
      let bpm1 := bpm.store recipient
        (BPlusTreePage.leaf rid rparent rmax (array.drop copyIdx))
      some (bpm1.store this (BPlusTreePage.leaf pid parent max_size (array.take copyIdx)))

/-- Modelled from the spec: `BPlusTreeLeafPage::MoveAllTo(recipient, index, bpm)` of
the leaf `this`: all pairs move to the end of the left neighbour `recipient`. -/
def MoveAllTo (bpm : BufferPoolManager K V) (this recipient : Int) (_index_in_parent : Nat) :
    Option (BufferPoolManager K V) := do
  match ← bpm.FetchPage this with
  | BPlusTreePage.internal _ _ _ _ => none
  | BPlusTreePage.leaf pid parent max_size array =>
    match ← bpm.FetchPage recipient with
    | BPlusTreePage.internal _ _ _ _ => none
    | BPlusTreePage.leaf rid rparent rmax rarray =>
      let bpm1 := bpm.store recipient (BPlusTreePage.leaf rid rparent rmax (rarray ++ array))
      some (bpm1.store this (BPlusTreePage.leaf pid parent max_size []))

/-- Modelled from the spec: `BPlusTreeLeafPage::MoveFirstToEndOf(recipient, bpm)` of the
leaf `this`: the first pair of the right sibling `this` moves to the end of `recipient`
and the separator of `this` in the parent becomes the new first key of `this`. -/
def MoveFirstToEndOf (bpm : BufferPoolManager K V) (this recipient : Int) :
    Option (BufferPoolManager K V) := do
  match ← bpm.FetchPage this with
  | BPlusTreePage.internal _ _ _ _ => none
  | BPlusTreePage.leaf pid parent_page_id max_size array =>
    match array with
    | [] => none
    | pair :: rest =>
      let bpm1 := bpm.store this (BPlusTreePage.leaf pid parent_page_id max_size rest)
      match ← bpm1.FetchPage recipient with
      | BPlusTreePage.internal _ _ _ _ => none
      | BPlusTreePage.leaf rid rparent rmax rarray =>
        let bpm2 := bpm1.store recipient (BPlusTreePage.leaf rid rparent rmax (rarray ++ [pair]))
        match ← bpm2.FetchPage parent_page_id with
        | BPlusTreePage.leaf _ _ _ _ => none
        | BPlusTreePage.internal ppid pparent pmax parray =>
          let index ← BPlusTreeInternalPage.ValueIndex parray pid
          let first ← KeyAt rest 0
          let parray1 ← BPlusTreeInternalPage.SetKeyAt parray index first
          some (bpm2.store parent_page_id (BPlusTreePage.internal ppid pparent pmax parray1))

/-- Modelled from the spec: `BPlusTreeLeafPage::MoveLastToFrontOf(recipient,
parent_index, bpm)` of the leaf `this`: the last pair of the left sibling `this` moves
to the front of `recipient` and the separator of `recipient` in the parent, at
`parent_index`, becomes the key of the moved pair. -/
def MoveLastToFrontOf (bpm : BufferPoolManager K V) (this recipient : Int)
    (parent_index : Nat) : Option (BufferPoolManager K V) := do
  match ← bpm.FetchPage this with
  | BPlusTreePage.internal _ _ _ _ => none
  | BPlusTreePage.leaf pid parent_page_id max_size array =>
    let pair ← array.getLast?
    let bpm1 := bpm.store this (BPlusTreePage.leaf pid parent_page_id max_size array.dropLast)
    match ← bpm1.FetchPage recipient with
    | BPlusTreePage.internal _ _ _ _ => none
    | BPlusTreePage.leaf rid rparent rmax rarray =>
      let bpm2 := bpm1.store recipient (BPlusTreePage.leaf rid rparent rmax (pair :: rarray))
      match ← bpm2.FetchPage rparent with
      | BPlusTreePage.leaf _ _ _ _ => none
      | BPlusTreePage.internal ppid pparent pmax parray =>
        let parray1 ← BPlusTreeInternalPage.SetKeyAt parray parent_index pair.1
        some (bpm2.store rparent (BPlusTreePage.internal ppid pparent pmax parray1))

end BPlusTreeLeafPage

/-- Modelled from the spec: the transaction collaborator (declared in
`concurrency/transaction.h`, not among the sources): the ordered set of the pages
latched during the operation, by page id, and the set of page ids to delete. -/
structure Transaction where
  /-- The pages of `GetPageSet()`, oldest first. -/
  page_set : List Int
  /-- The ids of `GetDeletedPageSet()`. -/
  deleted_page_set : List Int
  deriving DecidableEq

namespace Transaction

/-- Modelled from the spec: `AddIntoPageSet(page)`. -/
def AddIntoPageSet (txn : Transaction) (page_id : Int) : Transaction :=
  { txn with page_set := txn.page_set ++ [page_id] }

/-- Modelled from the spec: `AddIntoDeletedPageSet(page_id)`, an insertion into a set. -/
def AddIntoDeletedPageSet (txn : Transaction) (page_id : Int) : Transaction :=
  if page_id ∈ txn.deleted_page_set then txn
  else { txn with deleted_page_set := txn.deleted_page_set ++ [page_id] }

end Transaction

/-- The tree object of class `BPlusTree`: the field `root_page_id_`, the buffer pool
behind `buffer_pool_manager_`, and the two capacities that `Init` gives the pages. -/
structure BPlusTree (K V : Type) where
  /-- The field `root_page_id_`. -/
  root_page_id : Int
  /-- The buffer pool behind `buffer_pool_manager_`. -/
  buffer_pool_manager : BufferPoolManager K V
  /-- The `max_size_` of a leaf page. -/
  leaf_max_size : Nat
  /-- The `max_size_` of an internal page. -/
  internal_max_size : Nat
  deriving DecidableEq

namespace BPlusTree

variable {K V : Type} [LinearOrder K] [Inhabited K]

/-- The constructor: a tree without root over an empty buffer pool whose first new page
gets the id `first_page_id`. -/
def new (leaf_max_size internal_max_size : Nat) (first_page_id : Int) : BPlusTree K V :=
  { root_page_id := INVALID_PAGE_ID
    buffer_pool_manager := { pages := [], next_page_id := first_page_id }
    leaf_max_size := leaf_max_size
    internal_max_size := internal_max_size }

/-- The test `IsEmpty()`. -/
def IsEmpty (t : BPlusTree K V) : Bool :=
  decide (t.root_page_id = INVALID_PAGE_ID)

/-- The helper `FetchPage(page_id)`. -/
def FetchPage (t : BPlusTree K V) (page_id : Int) : Option (BPlusTreePage K V) :=
  t.buffer_pool_manager.FetchPage page_id

/-- The loop of `FreePagesInTransaction` over the page set: a page whose id is in the
deleted set is deleted and its id leaves the set. -/
def freeLoop (bpm : BufferPoolManager K V) :
    List Int → List Int → BufferPoolManager K V × List Int
  | [], deleted => (bpm, deleted)
  | curPid :: rest, deleted =>
    if curPid ∈ deleted then freeLoop (bpm.DeletePage curPid) rest (deleted.erase curPid)
    else freeLoop bpm rest deleted

/-- The method `FreePagesInTransaction(exclusive, transaction, cur)`; `none` as the
transaction is `nullptr`. -/
def FreePagesInTransaction (t : BPlusTree K V) (exclusive : Bool)
    (transaction : Option Transaction) (cur : Int) :
    Option (BPlusTree K V × Option Transaction) :=
  match transaction with
  | none => if !exclusive ∧ cur ≥ 0 then some (t, none) else none
  | some txn =>
    match freeLoop t.buffer_pool_manager txn.page_set txn.deleted_page_set with
    | (bpm, deleted) =>
      if deleted = [] then
        some ({ t with buffer_pool_manager := bpm }, some { page_set := [], deleted_page_set := [] })
      else none

/-- The method `CrabingProtocalFetchPage(page_id, op, previous, transaction)`; the
pointer it returns is `page_id`. -/
def CrabingProtocalFetchPage (t : BPlusTree K V) (page_id : Int) (op : OpType)
    (previous : Int) (transaction : Option Transaction) :
    Option (BPlusTree K V × Option Transaction) := do
  let exclusive := decide (op ≠ OpType.READ)
  let treePage ← t.buffer_pool_manager.FetchPage page_id
  let free ← if previous > 0 then
      (if !exclusive then some true else treePage.IsSafe op)
    else some false
  let (t1, transaction1) ← if free then FreePagesInTransaction t exclusive transaction previous
    else some (t, transaction)
  some (t1, transaction1.map (fun txn => txn.AddIntoPageSet page_id))

/-- The `for` loop of `FindLeafPage`, entered with the pointer to the page `cur`; the
result is the leaf reached. The first argument bounds the number of iterations. -/
def findLeafLoop (key : K) (leftMost : Bool) (op : OpType) :
    Nat → BPlusTree K V → Option Transaction → Int →
      Option (Int × BPlusTree K V × Option Transaction)
  | 0, _, _, _ => none
  | fuel + 1, t, transaction, cur => do
    match ← FetchPage t cur with
    | BPlusTreePage.leaf _ _ _ _ => some (cur, t, transaction)
    | BPlusTreePage.internal _ _ _ array =>
      let next ← if leftMost then BPlusTreeInternalPage.ValueAt array 0
        else BPlusTreeInternalPage.Lookup array key
      let (t1, transaction1) ← CrabingProtocalFetchPage t next op cur transaction
      findLeafLoop key leftMost op fuel t1 transaction1 next

/-- The method `FindLeafPage(key, leftMost, op, transaction)`; the inner `none` is the
result `nullptr` on the empty tree. -/
def FindLeafPage (fuel : Nat) (t : BPlusTree K V) (key : K) (leftMost : Bool) (op : OpType)
    (transaction : Option Transaction) :
    Option (Option Int × BPlusTree K V × Option Transaction) :=
  if IsEmpty t then some (none, t, transaction)
  else do
    let (t1, transaction1) ← CrabingProtocalFetchPage t t.root_page_id op (-1) transaction
    let (tar, t2, transaction2) ← findLeafLoop key leftMost op fuel t1 transaction1 t.root_page_id
    some (some tar, t2, transaction2)

/-- The call `result.resize(1)` on a `std::vector`. -/
def resize1 {V : Type} [Inhabited V] : List V → List V
  | [] => [default]
  | v :: _ => [v]

/-- The method `GetValue(key, result, transaction)`: the returned flag, the vector
`result` after the call, and the state after the call. -/
def GetValue [Inhabited V] (fuel : Nat) (t : BPlusTree K V) (key : K) (result : List V)
    (transaction : Option Transaction) :
    Option (Bool × List V × BPlusTree K V × Option Transaction) := do
  match ← FindLeafPage fuel t key false OpType.READ transaction with
  | (none, t1, transaction1) => some (false, result, t1, transaction1)
  | (some tar, t1, transaction1) =>
    match ← FetchPage t1 tar with
    | BPlusTreePage.internal _ _ _ _ => none
    | BPlusTreePage.leaf page_id _ _ array =>
      let result1 := resize1 result
      let (ret, result2) := match BPlusTreeLeafPage.Lookup array key with
        | some v => (true, result1.set 0 v)
        | none => (false, result1)
      let (t2, transaction2) ← FreePagesInTransaction t1 false transaction1 page_id
      some (ret, result2, t2, transaction2)

/-- The method `StartNewTree(key, value)`. -/
def StartNewTree (t : BPlusTree K V) (key : K) (value : V) : BPlusTree K V :=
  match t.buffer_pool_manager.NewPage with
  | (newPageId, bpm) =>
    { t with
      root_page_id := newPageId
      buffer_pool_manager := bpm.store newPageId
        (BPlusTreePage.leaf newPageId INVALID_PAGE_ID t.leaf_max_size
          (BPlusTreeLeafPage.Insert [] key value)) }

/-- The method `Split(node, transaction)`; the result is the pointer to the new page. -/
def Split (t : BPlusTree K V) (node : Int) (transaction : Option Transaction) :
    Option (Int × BPlusTree K V × Option Transaction) := do
  match t.buffer_pool_manager.NewPage with
  | (newPageId, bpm) =>
    let txn ← transaction
    let txn1 := txn.AddIntoPageSet newPageId
    match ← bpm.FetchPage node with
    | BPlusTreePage.leaf _ parent _ _ =>
      let bpm1 := bpm.store newPageId (BPlusTreeLeafPage.Init newPageId parent t.leaf_max_size)
      let bpm2 ← BPlusTreeLeafPage.MoveHalfTo bpm1 node newPageId
      some (newPageId, { t with buffer_pool_manager := bpm2 }, some txn1)
    | BPlusTreePage.internal _ parent _ _ =>
      let bpm1 := bpm.store newPageId
        (BPlusTreeInternalPage.Init newPageId parent t.internal_max_size)
      let bpm2 ← BPlusTreeInternalPage.MoveHalfTo bpm1 node newPageId
      some (newPageId, { t with buffer_pool_manager := bpm2 }, some txn1)

/-- The call `KeyAt(0)` on the page `node`, leaf or internal. -/
def firstKey (t : BPlusTree K V) (node : Int) : Option K := do
  match ← FetchPage t node with
  | BPlusTreePage.leaf _ _ _ array => BPlusTreeLeafPage.KeyAt array 0
  | BPlusTreePage.internal _ _ _ array => BPlusTreeInternalPage.KeyAt array 0

/-- The method `InsertIntoParent(old_node, key, new_node, transaction)`. The first
argument bounds the depth of the recursion. -/
def InsertIntoParent : Nat → BPlusTree K V → Int → K → Int → Option Transaction →
    Option (BPlusTree K V × Option Transaction)
  | 0, _, _, _, _, _ => none
  | fuel + 1, t, old_node, key, new_node, transaction => do
    let oldPage ← FetchPage t old_node
    if oldPage.IsRootPage then
      match t.buffer_pool_manager.NewPage with
      | (root_page_id, bpm) =>
        let newPage ← bpm.FetchPage new_node
        let bpm1 := bpm.store root_page_id
          (BPlusTreePage.internal root_page_id INVALID_PAGE_ID t.internal_max_size
            (BPlusTreeInternalPage.PopulateNewRoot oldPage.GetPageId key newPage.GetPageId))
        let bpm2 ← bpm1.SetParentPageId old_node root_page_id
        let bpm3 ← bpm2.SetParentPageId new_node root_page_id
        some ({ t with root_page_id := root_page_id, buffer_pool_manager := bpm3 }, transaction)
    else
      let parentId := oldPage.GetParentPageId
      match ← FetchPage t parentId with
      | BPlusTreePage.leaf _ _ _ _ => none
      | BPlusTreePage.internal _ _ _ _ =>
        let bpm1 ← t.buffer_pool_manager.SetParentPageId new_node parentId
        let newPage ← bpm1.FetchPage new_node
        match ← bpm1.FetchPage parentId with
        | BPlusTreePage.leaf _ _ _ _ => none
        | BPlusTreePage.internal ppid pparent pmax parray =>
          let parray1 ← BPlusTreeInternalPage.InsertNodeAfter parray oldPage.GetPageId key
            newPage.GetPageId
          let bpm2 := bpm1.store parentId (BPlusTreePage.internal ppid pparent pmax parray1)
          let t1 := { t with buffer_pool_manager := bpm2 }
          if parray1.length > pmax then do
            let (newLeafPage, t2, transaction2) ← Split t1 parentId transaction
            let key1 ← firstKey t2 newLeafPage
            InsertIntoParent fuel t2 parentId key1 newLeafPage transaction2
          else some (t1, transaction)

/-- The method `InsertIntoLeaf(key, value, transaction)`. -/
def InsertIntoLeaf (fuel : Nat) (t : BPlusTree K V) (key : K) (value : V)
    (transaction : Option Transaction) :
    Option (Bool × BPlusTree K V × Option Transaction) := do
  let (tar, t1, transaction1) ← FindLeafPage fuel t key false OpType.INSERT transaction
  let leafPage ← tar
  match ← FetchPage t1 leafPage with
  | BPlusTreePage.internal _ _ _ _ => none
  | BPlusTreePage.leaf pid parent max_size array =>
    match BPlusTreeLeafPage.Lookup array key with
    | some _ =>
      let (t2, transaction2) ← FreePagesInTransaction t1 true transaction1 (-1)
      some (false, t2, transaction2)
    | none =>
      let array1 := BPlusTreeLeafPage.Insert array key value
      let t2 := { t1 with buffer_pool_manager :=
        t1.buffer_pool_manager.store leafPage (BPlusTreePage.leaf pid parent max_size array1) }
      let (t5, transaction5) ← if array1.length > max_size then do
          let (newLeafPage, t3, transaction3) ← Split t2 leafPage transaction1
          let key1 ← firstKey t3 newLeafPage
          InsertIntoParent fuel t3 leafPage key1 newLeafPage transaction3
        else some (t2, transaction1)
      let (t6, transaction6) ← FreePagesInTransaction t5 true transaction5 (-1)
      some (true, t6, transaction6)

/-- The method `Insert(key, value, transaction)`. The first argument bounds the height
of the tree that the call can handle. -/
def Insert (fuel : Nat) (t : BPlusTree K V) (key : K) (value : V)
    (transaction : Option Transaction) :
    Option (Bool × BPlusTree K V × Option Transaction) :=
  if IsEmpty t then some (true, StartNewTree t key value, transaction)
  else InsertIntoLeaf fuel t key value transaction

/-- The method `AdjustRoot(old_root_node)`. -/
def AdjustRoot (t : BPlusTree K V) (old_root_node : Int) : Option (Bool × BPlusTree K V) := do
  match ← FetchPage t old_root_node with
  | BPlusTreePage.leaf _ parent _ array =>
    if array.length ≠ 0 then none
    else if parent ≠ INVALID_PAGE_ID then none
    else some (true, { t with root_page_id := INVALID_PAGE_ID })
  | BPlusTreePage.internal pid parent max_size array =>
    if array.length = 1 then do
      let (newRootId, array1) ← BPlusTreeInternalPage.RemoveAndReturnOnlyChild array
      let bpm1 := t.buffer_pool_manager.store old_root_node
        (BPlusTreePage.internal pid parent max_size array1)
      let bpm2 ← bpm1.SetParentPageId newRootId INVALID_PAGE_ID
      some (true, { t with root_page_id := newRootId, buffer_pool_manager := bpm2 })
    else some (false, t)

/-- The method `FindLeftSibling(node, sibling, transaction)`: the flag returned and the
pointer stored in `sibling`. -/
def FindLeftSibling (t : BPlusTree K V) (node : Int) (transaction : Option Transaction) :
    Option (Bool × Int × BPlusTree K V × Option Transaction) := do
  let nodePage ← FetchPage t node
  match ← FetchPage t nodePage.GetParentPageId with
  | BPlusTreePage.leaf _ _ _ _ => none
  | BPlusTreePage.internal _ _ _ parray =>
    let index ← BPlusTreeInternalPage.ValueIndex parray nodePage.GetPageId
    let siblingIndex := if index = 0 then index + 1 else index - 1
    let sibling ← BPlusTreeInternalPage.ValueAt parray siblingIndex
    let (t1, transaction1) ← CrabingProtocalFetchPage t sibling OpType.DELETE (-1) transaction
    some (decide (index = 0), sibling, t1, transaction1)

/-- The method `Redistribute(neighbor_node, node, index)`. -/
def Redistribute (t : BPlusTree K V) (neighbor_node node : Int) (index : Nat) :
    Option (BPlusTree K V) := do
  match ← FetchPage t neighbor_node with
  | BPlusTreePage.leaf _ _ _ _ =>
    let bpm1 ← if index = 0 then
        BPlusTreeLeafPage.MoveFirstToEndOf t.buffer_pool_manager neighbor_node node
      else BPlusTreeLeafPage.MoveLastToFrontOf t.buffer_pool_manager neighbor_node node index
    some { t with buffer_pool_manager := bpm1 }
  | BPlusTreePage.internal _ _ _ _ =>
    let bpm1 ← if index = 0 then
        BPlusTreeInternalPage.MoveFirstToEndOf t.buffer_pool_manager neighbor_node node
      else BPlusTreeInternalPage.MoveLastToFrontOf t.buffer_pool_manager neighbor_node node index
    some { t with buffer_pool_manager := bpm1 }

/-- The method `Coalesce(neighbor_node, node, parent, index, transaction)`; its
recursive call of `CoalesceOrRedistribute` is the argument `recurse`. -/
def Coalesce
    (recurse : BPlusTree K V → Int → Option Transaction →
      Option (Bool × BPlusTree K V × Option Transaction))
    (t : BPlusTree K V) (neighbor_node node parent : Int) (index : Nat)
    (transaction : Option Transaction) :
    Option (Bool × BPlusTree K V × Option Transaction) := do
  let nodePage ← FetchPage t node
  let neighborPage ← FetchPage t neighbor_node
  if ¬ (nodePage.GetSize + neighborPage.GetSize ≤ nodePage.GetMaxSize) then none else
  let bpm1 ← if nodePage.IsLeafPage then
      BPlusTreeLeafPage.MoveAllTo t.buffer_pool_manager node neighbor_node index
    else BPlusTreeInternalPage.MoveAllTo t.buffer_pool_manager node neighbor_node index
  let txn ← transaction
  let transaction1 := some (txn.AddIntoDeletedPageSet nodePage.GetPageId)
  match ← bpm1.FetchPage parent with
  | BPlusTreePage.leaf _ _ _ _ => none
  | BPlusTreePage.internal ppid pparent pmax parray =>
    let parray1 ← BPlusTreeInternalPage.Remove parray index
    let parentPage := BPlusTreePage.internal ppid pparent pmax parray1
    let t1 := { t with buffer_pool_manager := bpm1.store parent parentPage }
    if parentPage.GetSize ≤ parentPage.GetMinSize then recurse t1 parent transaction1
    else some (false, t1, transaction1)

/-- The method `CoalesceOrRedistribute(node, transaction)`. The first argument bounds
the depth of the recursion through `Coalesce`. -/
def CoalesceOrRedistribute : Nat → BPlusTree K V → Int → Option Transaction →
    Option (Bool × BPlusTree K V × Option Transaction)
  | 0, _, _, _ => none
  | fuel + 1, t, node, transaction => do
    let nodePage ← FetchPage t node
    if nodePage.IsRootPage then
      let (res, t1) ← AdjustRoot t node
      if res then
        let txn ← transaction
        some (res, t1, some (txn.AddIntoDeletedPageSet nodePage.GetPageId))
      else some (res, t1, transaction)
    else
      let (isRightSib, node2, t1, transaction1) ← FindLeftSibling t node transaction
      let node2Page ← FetchPage t1 node2
      let parent := nodePage.GetParentPageId
      match ← FetchPage t1 parent with
      | BPlusTreePage.leaf _ _ _ _ => none
      | BPlusTreePage.internal _ _ _ parray =>
        if nodePage.GetSize + node2Page.GetSize ≤ nodePage.GetMaxSize then
          let (node3, node4) := if isRightSib then (node2, node) else (node, node2)
          let node3Page ← FetchPage t1 node3
          let removeIndex ← BPlusTreeInternalPage.ValueIndex parray node3Page.GetPageId
          let (_, t2, transaction2) ← Coalesce (CoalesceOrRedistribute fuel) t1 node4 node3
            parent removeIndex transaction1
          some (true, t2, transaction2)
        else
          let nodeInParentIndex ← BPlusTreeInternalPage.ValueIndex parray nodePage.GetPageId
          let t2 ← Redistribute t1 node2 node nodeInParentIndex
          some (false, t2, transaction1)

/-- The method `Remove(key, transaction)`. The first argument bounds the height of the
tree that the call can handle. -/
def Remove (fuel : Nat) (t : BPlusTree K V) (key : K) (transaction : Option Transaction) :
    Option (BPlusTree K V × Option Transaction) :=
  if IsEmpty t then some (t, transaction)
  else do
    let (tar0, t1, transaction1) ← FindLeafPage fuel t key false OpType.DELETE transaction
    let tar ← tar0
    match ← FetchPage t1 tar with
    | BPlusTreePage.internal _ _ _ _ => none
    | BPlusTreePage.leaf pid parent max_size array =>
      let array1 := BPlusTreeLeafPage.RemoveAndDeleteRecord array key
      let page1 := BPlusTreePage.leaf pid parent max_size array1
      let t2 := { t1 with buffer_pool_manager := t1.buffer_pool_manager.store tar page1 }
      let curSize := array1.length
      let (t3, transaction3) ← if curSize < page1.GetMinSize then do
          let (_, t3, transaction3) ← CoalesceOrRedistribute fuel t2 tar transaction1
          some (t3, transaction3)
        else some (t2, transaction1)
      FreePagesInTransaction t3 true transaction3 (-1)

/-- The loop of `isBalanced` over the children of an internal page, with the variables
`last` and `res`; `recurse` is the recursive call. -/
def balancedLoop (recurse : Int → Option Int) : List Int → Int → Int → Option Int
  | [], _, res => some res
  | child :: rest, last, res => do
    let cur ← recurse child
    if cur ≥ 0 ∧ last = -2 then balancedLoop recurse rest cur (cur + 1)
    else if last ≠ cur then some (-1)
    else balancedLoop recurse rest last res

/-- The method `isBalanced(pid)`; the result `true` on the empty tree is the `int` 1.
The first argument bounds the depth of the recursion. -/
def isBalanced : Nat → BPlusTree K V → Int → Option Int
  | 0, _, _ => none
  | fuel + 1, t, pid =>
    if IsEmpty t then some 1
    else do
      match ← FetchPage t pid with
      | BPlusTreePage.leaf _ _ _ _ => some 0
      | BPlusTreePage.internal _ _ _ array =>
        balancedLoop (isBalanced fuel t) (array.map Prod.snd) (-2) 0

end BPlusTree

namespace BPlusTree

variable {K V : Type} [LinearOrder K] [Inhabited K]

/-- A transaction as the caller passes it: both collections empty. -/
def emptyTxn : Option Transaction := some { page_set := [], deleted_page_set := [] }

/-- The calls `Insert(k, v, txn)` for the pairs of a list, in order. -/
def insertAll (fuel : Nat) : BPlusTree K V → List (K × V) → Option (BPlusTree K V)
  | t, [] => some t
  | t, (k, v) :: rest =>
    match Insert fuel t k v emptyTxn with
    | some (_, t1, _) => insertAll fuel t1 rest
    | none => none

/-- The calls `Remove(k, txn)` for the keys of a list, in order. -/
def removeAll (fuel : Nat) : BPlusTree K V → List K → Option (BPlusTree K V)
  | t, [] => some t
  | t, k :: rest =>
    match Remove fuel t k emptyTxn with
    | some (t1, _) => removeAll fuel t1 rest
    | none => none

/-- The tree of the split scenario (capacities 4, first page id 1): the root, page 3,
with separator 3 over the leaves page 1 and page 2. The value of key `k` is `10 * k`. -/
def tree5 : BPlusTree Nat Nat :=
  { root_page_id := 3
    buffer_pool_manager :=
      { pages := [(1, BPlusTreePage.leaf 1 3 4 [(1, 10), (2, 20)]),
                  (2, BPlusTreePage.leaf 2 3 4 [(3, 30), (4, 40), (5, 50)]),
                  (3, BPlusTreePage.internal 3 (-1) 4 [(0, 1), (3, 2)])]
        next_page_id := 4 }
    leaf_max_size := 4
    internal_max_size := 4 }

/-- The tree after the inserts of 1 .. 7 (capacities 4): the root, page 3, with the
separators 3 and 5 over the leaves page 1, page 2 and page 4. -/
def tree7 : BPlusTree Nat Nat :=
  { root_page_id := 3
    buffer_pool_manager :=
      { pages := [(1, BPlusTreePage.leaf 1 3 4 [(1, 10), (2, 20)]),
                  (2, BPlusTreePage.leaf 2 3 4 [(3, 30), (4, 40)]),
                  (3, BPlusTreePage.internal 3 (-1) 4 [(0, 1), (3, 2), (5, 4)]),
                  (4, BPlusTreePage.leaf 4 3 4 [(5, 50), (6, 60), (7, 70)])]
        next_page_id := 5 }
    leaf_max_size := 4
    internal_max_size := 4 }

/-- A tree that consists of the root leaf page 1 with the pairs `array` (capacities 4,
two or four pages handed out so far). -/
def rootLeaf (array : List (Nat × Nat)) (next_page_id : Int) : BPlusTree Nat Nat :=
  { root_page_id := 1
    buffer_pool_manager :=
      { pages := [(1, BPlusTreePage.leaf 1 (-1) 4 array)], next_page_id := next_page_id }
    leaf_max_size := 4
    internal_max_size := 4 }

end BPlusTree

namespace BPlusTree

variable {K V : Type} [LinearOrder K] [Inhabited K]

/-- The states of a tree that starts empty and goes through calls of `Insert` and
`Remove`, each with a transaction whose collections are empty and each returning. -/
inductive Reachable (leaf_max_size internal_max_size : Nat) (first_page_id : Int) :
    BPlusTree K V → Prop
  | new : Reachable leaf_max_size internal_max_size first_page_id
      (new leaf_max_size internal_max_size first_page_id)
  | insert (fuel : Nat) (t : BPlusTree K V) (key : K) (value : V) (res : Bool)
      (t1 : BPlusTree K V) (transaction1 : Option Transaction) :
      Reachable leaf_max_size internal_max_size first_page_id t →
      Insert fuel t key value emptyTxn = some (res, t1, transaction1) →
      Reachable leaf_max_size internal_max_size first_page_id t1
  | remove (fuel : Nat) (t : BPlusTree K V) (key : K)
      (t1 : BPlusTree K V) (transaction1 : Option Transaction) :
      Reachable leaf_max_size internal_max_size first_page_id t →
      Remove fuel t key emptyTxn = some (t1, transaction1) →
      Reachable leaf_max_size internal_max_size first_page_id t1

/-- The pages of the tree: the root page, and the children named in the array of an
internal page of the tree. -/
inductive InTree (t : BPlusTree K V) : Int → Prop
  | root : t.root_page_id ≠ INVALID_PAGE_ID → InTree t t.root_page_id
  | child (p : Int) (page_id parent_page_id : Int) (max_size : Nat) (array : List (K × Int))
      (e : K × Int) :
      InTree t p →
      FetchPage t p = some (BPlusTreePage.internal page_id parent_page_id max_size array) →
      e ∈ array → InTree t e.2

/-- The pair `(key, value)` is stored in the tree: it is in the array of a leaf page of
the tree. -/
def Stored (t : BPlusTree K V) (key : K) (value : V) : Prop :=
  ∃ p page_id parent_page_id max_size array, InTree t p ∧
    FetchPage t p = some (BPlusTreePage.leaf page_id parent_page_id max_size array) ∧
    (key, value) ∈ array

/-- A key bound: a key, or `⊥` below all keys, or `⊤` above all keys. -/
abbrev Bound (K : Type) := WithBot (WithTop K)

/-- The key `k` as a bound. -/
def bnd (k : K) : Bound K := ((k : WithTop K) : WithBot (WithTop K))

/-- The upper bound of the child in front of the slots `rest`: the lower bound of the
first of them, `hi` if there is none. -/
def ub : List (Bound K × Int) → Bound K → Bound K
  | [], hi => hi
  | (l, _) :: _, _ => l

/-- A run of children with their key ranges: `(l, c)` is the child `c` with the lower
bound `l`; the upper bound of a child is the lower bound of the next one, `hi` for the
last. `P c l u` is what is required of the child `c` with the range `[l, u)`. -/
def Seg (P : Int → Bound K → Bound K → Prop) : List (Bound K × Int) → Bound K → Prop
  | [], _ => True
  | (l, c) :: rest, hi => P c l (ub rest hi) ∧ Seg P rest hi

/-- The children of an internal page with their lower bounds: the child of slot 0 has
the lower bound `lo` of the page, the child of a later slot the key of its slot. -/
def slots (lo : Bound K) : List (K × Int) → List (Bound K × Int)
  | [] => []
  | (_, c0) :: rest => (lo, c0) :: rest.map (fun e => (bnd e.1, e.2))

/-- The least size of a page of height `h` that is not the root, as the operations
keep it: `max_size / 2` pairs for a leaf, `max_size / 2` but at least two children for
an internal page. -/
def minNonRoot (lm im : Nat) : Nat → Nat
  | 0 => lm / 2
  | _ + 1 => max 2 (im / 2)

/-- The least size of a root page of height `h`: one pair for a leaf, two children for
an internal page. -/
def minRoot : Nat → Nat
  | 0 => 1
  | _ + 1 => 2

/-- The subtree invariant. In the page table `f`, the page `pid` is the root of a
subtree of height `h` whose leaves are all `h` levels below it: the header of every
page of the subtree holds its own id, the id of its parent (`par` for `pid`) and the
capacity (`lm` for a leaf, `im` for an internal page); the keys of a leaf are strictly
increasing and lie in `[lo, hi)`; the child of slot `i` of an internal page holds keys
in `[K_i, K_(i+1))` only; the children of a page are distinct; the key of slot 0 of an
internal page whose range starts at a key is that key; `pid` has at least `m` pairs
and at most `x` more than its capacity, every other page at least `minNonRoot` and at
most its capacity. -/
def WF (f : Int → Option (BPlusTreePage K V)) (lm im : Nat) :
    Nat → Nat → Nat → Int → Int → Bound K → Bound K → Prop
  | m, x, 0, pid, par, lo, hi =>
    ∃ array, f pid = some (BPlusTreePage.leaf pid par lm array) ∧
      m ≤ array.length ∧ array.length ≤ lm + x ∧ lo < hi ∧
      (array.map Prod.fst).Pairwise (fun a b => a < b) ∧
      ∀ e ∈ array, lo ≤ bnd e.1 ∧ bnd e.1 < hi
  | m, x, h + 1, pid, par, lo, hi =>
    ∃ array, f pid = some (BPlusTreePage.internal pid par im array) ∧
      m ≤ array.length ∧ 1 ≤ array.length ∧ array.length ≤ im + x ∧ lo < hi ∧
      (∀ l, lo = bnd l → (array.head?).map Prod.fst = some l) ∧
      (array.map Prod.snd).Nodup ∧
      Seg (fun c l u => WF f lm im (minNonRoot lm im h) 0 h c pid l u) (slots lo array) hi

/-- The tree invariant: the capacities are at least 2 (leaf) and 3 (internal), the ids
of the pages in the buffer pool are not negative and below the id of the next new page,
which is not negative either, and the tree is empty or its root page is the root of a
subtree that satisfies `WF` with the whole key range. -/
structure Inv (t : BPlusTree K V) : Prop where
  /-- The leaf capacity. -/
  leaf_max : 2 ≤ t.leaf_max_size
  /-- The internal capacity. -/
  internal_max : 3 ≤ t.internal_max_size
  /-- The ids in use. -/
  ids : ∀ q p, FetchPage t q = some p → 0 ≤ q ∧ q < t.buffer_pool_manager.next_page_id
  /-- The id of the next new page. -/
  next_nonneg : 0 ≤ t.buffer_pool_manager.next_page_id
  /-- The tree. -/
  tree : t.root_page_id = INVALID_PAGE_ID ∨
    ∃ h, WF (FetchPage t) t.leaf_max_size t.internal_max_size (minRoot h) 0 h t.root_page_id
      INVALID_PAGE_ID ⊥ ⊤

/-- The child that a linear scan of the separator keys selects for `key`: the child of
the last slot whose key is not above `key`, the child `c` at the front if there is no
such slot. -/
def pick (key : K) : Int → List (K × Int) → Int
  | c, [] => c
  | c, (k, c1) :: rest => if key < k then c else pick key c1 rest

/-- The leaf that the descent for `key` from the page `pid` of height `h` reaches. -/
def leafOf (f : Int → Option (BPlusTreePage K V)) (key : K) : Nat → Int → Int
  | 0, pid => pid
  | h + 1, pid =>
    match f pid with
    | some (BPlusTreePage.internal _ _ _ ((_, c0) :: rest)) => leafOf f key h (pick key c0 rest)
    | _ => pid

end BPlusTree

namespace BPlusTree

variable {K V : Type} [LinearOrder K] [Inhabited K]

/-- The children named in the array of the page `pid`, none for a leaf. -/
def kidsOf (f : Int → Option (BPlusTreePage K V)) (pid : Int) : List Int :=
  match f pid with
  | some (BPlusTreePage.internal _ _ _ array) => array.map Prod.snd
  | _ => []

/-- The page `q` is one of the pages of the subtree of height `h` at `pid`. -/
def Under (f : Int → Option (BPlusTreePage K V)) : Nat → Int → Int → Prop
  | 0, pid, q => q = pid
  | h + 1, pid, q => q = pid ∨ ∃ c ∈ kidsOf f pid, Under f h c q

/-- The pair `(key, value)` is in a leaf of the subtree of height `h` at `pid`. -/
def Holds (f : Int → Option (BPlusTreePage K V)) : Nat → Int → K → V → Prop
  | 0, pid, key, value =>
    ∃ page_id parent_page_id max_size array,
      f pid = some (BPlusTreePage.leaf page_id parent_page_id max_size array) ∧
      (key, value) ∈ array
  | h + 1, pid, key, value => ∃ c ∈ kidsOf f pid, Holds f h c key value

/-- What the descent and the operations accept as transaction: `nullptr` for a read
only, else a transaction without pending deletions. -/
def TxnOk (op : OpType) : Option Transaction → Prop
  | none => op = OpType.READ
  | some txn => txn.deleted_page_set = []

/-- The lower bound of the child of the slot that follows the slots `A` in a page with
the lower bound `lo`: `lo` for slot 0, else the key `kc` of the slot. -/
def lbAt (lo : Bound K) (A : List (K × Int)) (kc : K) : Bound K :=
  match A with
  | [] => lo
  | _ :: _ => bnd kc

end BPlusTree

namespace BPlusTree

variable {K V : Type} [LinearOrder K] [Inhabited K]

/-- The overflow handling that `InsertIntoLeaf` and `InsertIntoParent` share: if the
page `node` holds more pairs than its capacity, the calls of `Split` and of
`InsertIntoParent` with the first key of the new page. -/
def splitUp (fuel : Nat) (t : BPlusTree K V) (node : Int) (transaction : Option Transaction) :
    Option (BPlusTree K V × Option Transaction) := do
  let page ← FetchPage t node
  if page.GetSize > page.GetMaxSize then do
    let (newNode, t1, transaction1) ← Split t node transaction
    let key1 ← firstKey t1 newNode
    InsertIntoParent fuel t1 node key1 newNode transaction1
  else some (t, transaction)

end BPlusTree

namespace BPlusTree

variable {K V : Type} [LinearOrder K] [Inhabited K]

/-- The side conditions on the tree object and its buffer pool: the capacities are `lm`
and `im`, and the ids of the pages in the pool are not negative and below the id of the
next new page. -/
structure PoolOk (lm im : Nat) (t : BPlusTree K V) : Prop where
  /-- The leaf capacity. -/
  lm_eq : t.leaf_max_size = lm
  /-- The internal capacity. -/
  im_eq : t.internal_max_size = im
  /-- The ids in use. -/
  ids : ∀ q p, FetchPage t q = some p → 0 ≤ q ∧ q < t.buffer_pool_manager.next_page_id

end BPlusTree

namespace BPlusTree

variable {K V : Type} [LinearOrder K] [Inhabited K]

/-- The child of the page `pid` that the descent for `key` goes to. -/
def childOf (f : Int → Option (BPlusTreePage K V)) (key : K) (pid : Int) : Int :=
  match f pid with
  | some (BPlusTreePage.internal _ _ _ ((_, c0) :: rest)) => pick key c0 rest
  | _ => pid

/-- The page `pid` passes the test `IsSafe(DELETE)`. -/
def SafeAt (f : Int → Option (BPlusTreePage K V)) (pid : Int) : Prop :=
  ∃ p, f pid = some p ∧ p.IsSafe OpType.DELETE = some true

/-- A page below `pid` on the way of the descent for `key` passes `IsSafe(DELETE)`. -/
def SafeUnder (f : Int → Option (BPlusTreePage K V)) (key : K) : Nat → Int → Prop
  | 0, _ => False
  | h + 1, pid => SafeAt f (childOf f key pid) ∨ SafeUnder f key h (childOf f key pid)

/-- What the page set `S` of a transaction holds after the descent for `key` with
`DELETE`: the leaf, and every page of the way below which no page passed
`IsSafe(DELETE)`. -/
def Cover (f : Int → Option (BPlusTreePage K V)) (key : K) (S : List Int) :
    Nat → Int → Prop
  | 0, pid => pid ∈ S
  | h + 1, pid => Cover f key S h (childOf f key pid) ∧ (pid ∈ S ∨ SafeUnder f key (h + 1) pid)

/-- The call `CoalesceOrRedistribute(node, transaction)` without the flag it returns,
as `Remove` and `Coalesce` use it. -/
def fixUp (fuel : Nat) (t : BPlusTree K V) (node : Int) (transaction : Option Transaction) :
    Option (BPlusTree K V × Option Transaction) :=
  (CoalesceOrRedistribute fuel t node transaction).map (fun r => r.2)

/-- The statements of `Remove` behind the deletion in the leaf `node`: the call of
`CoalesceOrRedistribute` if the leaf is below its minimum. -/
def fixLeaf (fuel : Nat) (t : BPlusTree K V) (node : Int) (transaction : Option Transaction) :
    Option (BPlusTree K V × Option Transaction) := do
  let page ← FetchPage t node
  if page.GetSize < page.GetMinSize then fixUp fuel t node transaction
  else some (t, transaction)

end BPlusTree

namespace BPlusTree

variable {K V : Type} [LinearOrder K] [Inhabited K]

/-- The key `k` occurs in the subtree of the page `p`: as the key of a pair of a leaf,
or as the key of a slot other than slot 0 of an internal page. -/
inductive KeyUnder (t : BPlusTree K V) : Int → K → Prop
  | leaf (p page_id parent_page_id : Int) (max_size : Nat) (array : List (K × V))
      (e : K × V) :
      FetchPage t p = some (BPlusTreePage.leaf page_id parent_page_id max_size array) →
      e ∈ array → KeyUnder t p e.1
  | slot (p page_id parent_page_id : Int) (max_size : Nat) (array : List (K × Int))
      (e : K × Int) :
      FetchPage t p = some (BPlusTreePage.internal page_id parent_page_id max_size array) →
      e ∈ array.tail → KeyUnder t p e.1
  | child (p page_id parent_page_id : Int) (max_size : Nat) (array : List (K × Int))
      (e : K × Int) (k : K) :
      FetchPage t p = some (BPlusTreePage.internal page_id parent_page_id max_size array) →
      e ∈ array → KeyUnder t e.2 k → KeyUnder t p k

/-- The page `p` is a page of the tree `d` levels below the root page. -/
inductive DepthOf (t : BPlusTree K V) : Int → Nat → Prop
  | root : t.root_page_id ≠ INVALID_PAGE_ID → DepthOf t t.root_page_id 0
  | child (p page_id parent_page_id : Int) (max_size : Nat) (array : List (K × Int))
      (e : K × Int) (d : Nat) :
      DepthOf t p d →
      FetchPage t p = some (BPlusTreePage.internal page_id parent_page_id max_size array) →
      e ∈ array → DepthOf t e.2 (d + 1)

/-- The tree with the capacities 3 after the inserts of 1 .. 4 and the removal of 1
(first page id 1): the root, page 3, with separator 3 over the leaves page 1, with one
pair, and page 2. -/
def oddTree : BPlusTree Nat Nat :=
  { root_page_id := 3
    buffer_pool_manager :=
      { pages := [(1, BPlusTreePage.leaf 1 3 3 [(2, 20)]),
                  (2, BPlusTreePage.leaf 2 3 3 [(3, 30), (4, 40)]),
                  (3, BPlusTreePage.internal 3 (-1) 3 [(0, 1), (3, 2)])]
        next_page_id := 4 }
    leaf_max_size := 3
    internal_max_size := 3 }

end BPlusTree

namespace BPlusTree

/-- The tree `tree7` in the middle of `Remove(1)`: the pair of key 1 has left the leaf
page 1, which holds one pair, and `CoalesceOrRedistribute` has not been called. -/
def tree7short : BPlusTree Nat Nat :=
  { tree7 with buffer_pool_manager :=
      tree7.buffer_pool_manager.store 1 (BPlusTreePage.leaf 1 3 4 [(2, 20)]) }

/-- The tree after the inserts of 1 .. 11 (capacities 4, first page id 1): the root,
page 8, over the internal pages 3 (leaves 1 and 2) and 7 (leaves 4, 5 and 6). -/
def tree11 : BPlusTree Nat Nat :=
  { root_page_id := 8
    buffer_pool_manager :=
      { pages := [(1, BPlusTreePage.leaf 1 3 4 [(1, 10), (2, 20)]),
                  (2, BPlusTreePage.leaf 2 3 4 [(3, 30), (4, 40)]),
                  (3, BPlusTreePage.internal 3 8 4 [(0, 1), (3, 2)]),
                  (4, BPlusTreePage.leaf 4 7 4 [(5, 50), (6, 60)]),
                  (5, BPlusTreePage.leaf 5 7 4 [(7, 70), (8, 80)]),
                  (6, BPlusTreePage.leaf 6 7 4 [(9, 90), (10, 100), (11, 110)]),
                  (7, BPlusTreePage.internal 7 8 4 [(5, 4), (7, 5), (9, 6)]),
                  (8, BPlusTreePage.internal 8 (-1) 4 [(0, 3), (5, 7)])]
        next_page_id := 9 }
    leaf_max_size := 4
    internal_max_size := 4 }

/-- The tree `tree11` in the middle of `Remove(5)`: the pair of key 5 has left the leaf
page 4, which holds one pair, and `CoalesceOrRedistribute` has not been called. -/
def tree11short : BPlusTree Nat Nat :=
  { tree11 with buffer_pool_manager :=
      tree11.buffer_pool_manager.store 4 (BPlusTreePage.leaf 4 7 4 [(6, 60)]) }

/-- The tree `tree11` after `Remove(5)`: the internal page 3 is the root, over the
leaves 1, 2, 4 and 6. -/
def tree11after : BPlusTree Nat Nat :=
  { root_page_id := 3
    buffer_pool_manager :=
      { pages := [(1, BPlusTreePage.leaf 1 3 4 [(1, 10), (2, 20)]),
                  (2, BPlusTreePage.leaf 2 3 4 [(3, 30), (4, 40)]),
                  (3, BPlusTreePage.internal 3 (-1) 4 [(0, 1), (3, 2), (5, 4), (9, 6)]),
                  (4, BPlusTreePage.leaf 4 3 4 [(6, 60), (7, 70), (8, 80)]),
                  (6, BPlusTreePage.leaf 6 3 4 [(9, 90), (10, 100), (11, 110)])]
        next_page_id := 9 }
    leaf_max_size := 4
    internal_max_size := 4 }

end BPlusTree

namespace BPlusTree

/-- The buffer pool in the middle of `Insert(11)` on the tree after the inserts of
1 .. 10 (capacities 4): the internal page 3 holds five pairs, one more than its
capacity, and `Split` has initialised the new page 7. -/
def splitPool : BufferPoolManager Nat Nat :=
  { pages := [(1, BPlusTreePage.leaf 1 3 4 [(1, 10), (2, 20)]),
              (2, BPlusTreePage.leaf 2 3 4 [(3, 30), (4, 40)]),
              (3, BPlusTreePage.internal 3 (-1) 4 [(0, 1), (3, 2), (5, 4), (7, 5), (9, 6)]),
              (4, BPlusTreePage.leaf 4 3 4 [(5, 50), (6, 60)]),
              (5, BPlusTreePage.leaf 5 3 4 [(7, 70), (8, 80)]),
              (6, BPlusTreePage.leaf 6 3 4 [(9, 90), (10, 100), (11, 110)]),
              (7, BPlusTreePage.internal 7 (-1) 4 [])]
    next_page_id := 8 }

/-- The buffer pool in the middle of `Remove(5)` on `tree11`: the leaf page 5 has been
merged into the leaf page 4, the internal page 7 is left with two children, and its
merge into its left sibling, page 3, is about to start. -/
def mergePool : BufferPoolManager Nat Nat :=
  { pages := [(1, BPlusTreePage.leaf 1 3 4 [(1, 10), (2, 20)]),
              (2, BPlusTreePage.leaf 2 3 4 [(3, 30), (4, 40)]),
              (3, BPlusTreePage.internal 3 8 4 [(0, 1), (3, 2)]),
              (4, BPlusTreePage.leaf 4 7 4 [(6, 60), (7, 70), (8, 80)]),
              (5, BPlusTreePage.leaf 5 7 4 []),
              (6, BPlusTreePage.leaf 6 7 4 [(9, 90), (10, 100), (11, 110)]),
              (7, BPlusTreePage.internal 7 8 4 [(5, 4), (9, 6)]),
              (8, BPlusTreePage.internal 8 (-1) 4 [(0, 3), (5, 7)])]
    next_page_id := 9 }

/-- The tree `tree5` in the middle of `Remove(4)`, after `Remove(5)`: the right leaf has
been merged into the left leaf and the root, page 3, is left with one child. -/
def tree5merged : BPlusTree Nat Nat :=
  { root_page_id := 3
    buffer_pool_manager :=
      { pages := [(1, BPlusTreePage.leaf 1 3 4 [(1, 10), (2, 20), (3, 30)]),
                  (2, BPlusTreePage.leaf 2 3 4 []),
                  (3, BPlusTreePage.internal 3 (-1) 4 [(0, 1)])]
        next_page_id := 4 }
    leaf_max_size := 4
    internal_max_size := 4 }

/-- A tree in the middle of a `Remove`: the root, page 3, with separator 5 over the
leaf page 1 with four pairs and the leaf page 2, which a removal has left with one
pair (capacities 4). -/
def borrowTree : BPlusTree Nat Nat :=
  { root_page_id := 3
    buffer_pool_manager :=
      { pages := [(1, BPlusTreePage.leaf 1 3 4 [(1, 10), (2, 20), (3, 30), (4, 40)]),
                  (2, BPlusTreePage.leaf 2 3 4 [(7, 70)]),
                  (3, BPlusTreePage.internal 3 (-1) 4 [(0, 1), (5, 2)])]
        next_page_id := 4 }
    leaf_max_size := 4
    internal_max_size := 4 }

end BPlusTree

namespace BPlusTree

/-- The buffer pool in the middle of `Remove(1)` on the tree after the inserts of
1 .. 13 (capacities 4): the leaf page 2 has been merged into the leaf page 1, the
internal page 3 is left with one child, and its right sibling, page 7, with four
children, is about to give it its first pair. -/
def rightPool : BufferPoolManager Nat Nat :=
  { pages := [(1, BPlusTreePage.leaf 1 3 4 [(2, 20), (3, 30), (4, 40)]),
              (2, BPlusTreePage.leaf 2 3 4 []),
              (3, BPlusTreePage.internal 3 8 4 [(0, 1)]),
              (4, BPlusTreePage.leaf 4 7 4 [(5, 50), (6, 60)]),
              (5, BPlusTreePage.leaf 5 7 4 [(7, 70), (8, 80)]),
              (6, BPlusTreePage.leaf 6 7 4 [(9, 90), (10, 100)]),
              (7, BPlusTreePage.internal 7 8 4 [(5, 4), (7, 5), (9, 6), (11, 9)]),
              (8, BPlusTreePage.internal 8 (-1) 4 [(0, 3), (5, 7)]),
              (9, BPlusTreePage.leaf 9 7 4 [(11, 110), (12, 120), (13, 130)])]
    next_page_id := 10 }

/-- The buffer pool in the middle of `Remove(50)` on the tree after the inserts of
10, 20, .., 110, 11, 12, 13, 31, 32, 33 (capacities 4, the value of a key is the key):
the leaf page 5 has been merged into the leaf page 4, the internal page 7 is left with
two children, and its left sibling, page 3, with four children, is about to give it its
last pair. -/
def leftPool : BufferPoolManager Nat Nat :=
  { pages := [(1, BPlusTreePage.leaf 1 3 4 [(10, 10), (11, 11)]),
              (2, BPlusTreePage.leaf 2 3 4 [(30, 30), (31, 31)]),
              (3, BPlusTreePage.internal 3 8 4 [(0, 1), (12, 9), (30, 2), (32, 10)]),
              (4, BPlusTreePage.leaf 4 7 4 [(60, 60), (70, 70), (80, 80)]),
              (5, BPlusTreePage.leaf 5 7 4 []),
              (6, BPlusTreePage.leaf 6 7 4 [(90, 90), (100, 100), (110, 110)]),
              (7, BPlusTreePage.internal 7 8 4 [(50, 4), (90, 6)]),
              (8, BPlusTreePage.internal 8 (-1) 4 [(0, 3), (50, 7)]),
              (9, BPlusTreePage.leaf 9 3 4 [(12, 12), (13, 13), (20, 20)]),
              (10, BPlusTreePage.leaf 10 3 4 [(32, 32), (33, 33), (40, 40)])]
    next_page_id := 11 }

end BPlusTree
/-! ## B+ tree: the pins and the latches of the frames -/

/-- Modelled from the spec: the pin count and the reader/writer latch that each frame
carries (class `Page` and the buffer pool manager, declared in `page/page.h` and
`buffer/buffer_pool_manager.h`, not among the sources), by page id, and the counter of
the holds of the root-id latch by the thread. -/
structure Frames where
  /-- The value of `GetPinCount()` of each page. -/
  pin_count : Int → Nat
  /-- The number of shared holds of the latch of each page. -/
  readers : Int → Nat
  /-- Whether the latch of each page is held exclusively. -/
  writer : Int → Bool
  /-- The number of holds of the root-id latch by the thread. -/
  root_locked_cnt : Nat

namespace Frames

/-- Modelled from the spec: the pin of `FetchPage(id)`, one pin more. -/
def FetchPage (fr : Frames) (page_id : Int) : Frames :=
  { fr with pin_count := fun q => if q = page_id then fr.pin_count q + 1 else fr.pin_count q }

/-- Modelled from the spec: `UnpinPage(id, dirty)`, one pin fewer; a page without a pin
stays without one. -/
def UnpinPage (fr : Frames) (page_id : Int) : Frames :=
  { fr with pin_count := fun q => if q = page_id then fr.pin_count q - 1 else fr.pin_count q }

/-- Modelled from the spec: `WLatch()` on the page; `none` as the call does not return
while the latch is held, shared or exclusively. -/
def WLatch (fr : Frames) (page_id : Int) : Option Frames :=
  if fr.writer page_id = false ∧ fr.readers page_id = 0 then
    some { fr with writer := fun q => if q = page_id then true else fr.writer q }
  else none

/-- Modelled from the spec: `RLatch()` on the page; `none` as the call does not return
while the latch is held exclusively. -/
def RLatch (fr : Frames) (page_id : Int) : Option Frames :=
  if fr.writer page_id = false then
    some { fr with readers := fun q => if q = page_id then fr.readers q + 1 else fr.readers q }
  else none

/-- Modelled from the spec: `WUnlatch()` on the page. -/
def WUnlatch (fr : Frames) (page_id : Int) : Frames :=
  { fr with writer := fun q => if q = page_id then false else fr.writer q }

/-- Modelled from the spec: `RUnlatch()` on the page, one shared hold fewer. -/
def RUnlatch (fr : Frames) (page_id : Int) : Frames :=
  { fr with readers := fun q => if q = page_id then fr.readers q - 1 else fr.readers q }

/-- Modelled from the spec: the helper `Lock(exclusive, page)` (declared in
`index/b_plus_tree.h`, not among the sources): the latch of the page, exclusive or
shared. -/
def Lock (fr : Frames) (exclusive : Bool) (page_id : Int) : Option Frames :=
  if exclusive then fr.WLatch page_id else fr.RLatch page_id

/-- Modelled from the spec: the helper `Unlock(exclusive, page)` (declared in
`index/b_plus_tree.h`, not among the sources): the release of the latch of the page. -/
def Unlock (fr : Frames) (exclusive : Bool) (page_id : Int) : Frames :=
  if exclusive then fr.WUnlatch page_id else fr.RUnlatch page_id

/-- Modelled from the spec: the helper `TryUnlockRootPageId(exclusive)` (declared in
`index/b_plus_tree.h`, not among the sources): one hold of the root-id latch fewer; the
latch is released as the counter reaches zero. -/
def TryUnlockRootPageId (fr : Frames) (_exclusive : Bool) : Frames :=
  { fr with root_locked_cnt := fr.root_locked_cnt - 1 }

end Frames

namespace BPlusTree

namespace Latched

variable {K V : Type}

/-- The loop of `FreePagesInTransaction` over the page set, with the latches and the
pins: each page is unlatched and unpinned; a page whose id is in the deleted set is
deleted and its id leaves the set. -/
def freeLoop (exclusive : Bool) :
    BufferPoolManager K V → Frames → List Int → List Int →
      BufferPoolManager K V × Frames × List Int
  | bpm, fr, [], deleted => (bpm, fr, deleted)
  | bpm, fr, curPid :: rest, deleted =>
    -- Unlock(exclusive,page); buffer_pool_manager_->UnpinPage(curPid,exclusive);
    let fr1 := (fr.Unlock exclusive curPid).UnpinPage curPid
    if curPid ∈ deleted then
      freeLoop exclusive (bpm.DeletePage curPid) fr1 rest (deleted.erase curPid)
    else freeLoop exclusive bpm fr1 rest deleted

/-- The method `FreePagesInTransaction(exclusive, transaction, cur)` with the latches and
the pins; `none` as the transaction is `nullptr`, and as the result for a failed
assertion. -/
def FreePagesInTransaction (t : BPlusTree K V) (fr : Frames) (exclusive : Bool)
    (transaction : Option Transaction) (cur : Int) :
    Option (BPlusTree K V × Frames × Option Transaction) :=
  let fr0 := fr.TryUnlockRootPageId exclusive
  match transaction with
  | none =>
    if !exclusive ∧ cur ≥ 0 then some (t, (fr0.Unlock false cur).UnpinPage cur, none)
    else none
  | some txn =>
    match freeLoop exclusive t.buffer_pool_manager fr0 txn.page_set txn.deleted_page_set with
    | (bpm, fr1, deleted) =>
      if deleted = [] then
        some ({ t with buffer_pool_manager := bpm }, fr1,
          some { page_set := [], deleted_page_set := [] })
      else none

/-- The method `CrabingProtocalFetchPage(page_id, op, previous, transaction)` with the
latches and the pins; the pointer it returns is `page_id`. -/
def CrabingProtocalFetchPage (t : BPlusTree K V) (fr : Frames) (page_id : Int) (op : OpType)
    (previous : Int) (transaction : Option Transaction) :
    Option (BPlusTree K V × Frames × Option Transaction) := do
  let exclusive := decide (op ≠ OpType.READ)
  let treePage ← t.buffer_pool_manager.FetchPage page_id
  let fr1 ← (fr.FetchPage page_id).Lock exclusive page_id
  let free ← if previous > 0 then
      (if !exclusive then some true else treePage.IsSafe op)
    else some false
  let (t1, fr2, transaction1) ← if free then
      FreePagesInTransaction t fr1 exclusive transaction previous
    else some (t, fr1, transaction)
  some (t1, fr2, transaction1.map (fun txn => txn.AddIntoPageSet page_id))

end Latched

/-- The frames in the descent of a writer through `tree7` as the root page 3 has been
fetched: the page is pinned once and latched exclusively, and the thread holds the
root-id latch once. -/
def frames7 : Frames :=
  { pin_count := fun q => if q = 3 then 1 else 0
    readers := fun _ => 0
    writer := fun q => decide (q = 3)
    root_locked_cnt := 1 }

end BPlusTree

set_option linter.unusedSectionVars false

/-! ## Lemmas on `std::map` -/

namespace StdMap

variable {K V : Type} [DecidableEq K]

theorem find_assign (m : List (K × V)) (k : K) (v : V) (k1 : K) :
    find (assign m k v) k1 = if k = k1 then some v else find m k1 := by
  induction m with
  | nil => simp [assign, find]
  | cons e rest ih =>
    obtain ⟨a, b⟩ := e
    by_cases h : a = k
    · subst h
      by_cases h1 : a = k1 <;> simp [assign, find, h1]
    · by_cases h1 : a = k1
      · subst h1
        have : ¬ k = a := fun e => h e.symm
        simp [assign, find, h, this]
      · simp [assign, find, h, h1, ih]

theorem find_erase (m : List (K × V)) (k k1 : K) :
    find (erase m k) k1 = if k = k1 then none else find m k1 := by
  induction m with
  | nil => simp [erase, find]
  | cons e rest ih =>
    obtain ⟨a, b⟩ := e
    by_cases h : a = k
    · subst h
      by_cases h1 : a = k1
      · subst h1
        simpa [erase, find] using ih
      · simp [erase, find, h1, ih]
    · by_cases h1 : a = k1
      · subst h1
        have : ¬ k = a := fun e => h e.symm
        simp [erase, find, h, this]
      · simp [erase, find, h, h1, ih]

theorem erase_sublist (m : List (K × V)) (k : K) : (erase m k).Sublist m := by
  induction m with
  | nil => simp [erase]
  | cons e rest ih =>
    obtain ⟨a, b⟩ := e
    by_cases h : a = k
    · simp only [erase, h, if_true]
      exact List.Sublist.cons _ ih
    · simp only [erase, h, if_false]
      exact List.Sublist.cons₂ _ ih

theorem find_eq_none_iff (m : List (K × V)) (k : K) :
    find m k = none ↔ k ∉ m.map Prod.fst := by
  induction m with
  | nil => simp [find]
  | cons e rest ih =>
    obtain ⟨a, b⟩ := e
    by_cases h : a = k
    · simp [find, h]
    · have : ¬ k = a := fun e => h e.symm
      simp [find, h, this, ih]

theorem keys_assign (m : List (K × V)) (k : K) (v : V) :
    (assign m k v).map Prod.fst = if k ∈ m.map Prod.fst then m.map Prod.fst
      else m.map Prod.fst ++ [k] := by
  induction m with
  | nil => simp [assign]
  | cons e rest ih =>
    obtain ⟨a, b⟩ := e
    by_cases h : a = k
    · simp [assign, h]
    · have : ¬ k = a := fun e => h e.symm
      simp only [assign, h, if_false, List.map_cons, ih, List.mem_cons, this, false_or]
      split <;> simp

theorem keys_nodup_assign (m : List (K × V)) (k : K) (v : V)
    (h : (m.map Prod.fst).Nodup) : ((assign m k v).map Prod.fst).Nodup := by
  rw [keys_assign]
  split
  · exact h
  · rename_i hk
    rw [List.nodup_append]
    refine ⟨h, List.nodup_singleton k, ?_⟩
    intro a ha hb
    simp at hb
    subst hb
    exact hk ha

theorem keys_nodup_erase (m : List (K × V)) (k : K)
    (h : (m.map Prod.fst).Nodup) : ((erase m k).map Prod.fst).Nodup := by
  exact List.Nodup.sublist ((erase_sublist m k).map Prod.fst) h

end StdMap

/-! ## Lemmas on the linked cells of the replacer -/

namespace LRUReplacer

variable {T : Type} [DecidableEq T]

@[simp] theorem firstOr_nil (n : Option Nat) : firstOr ([] : List (Nat × T)) n = n := rfl

@[simp] theorem firstOr_cons (c : Nat × T) (l : List (Nat × T)) (n : Option Nat) :
    firstOr (c :: l) n = some c.1 := rfl

theorem firstOr_append (l1 l2 : List (Nat × T)) (n : Option Nat) :
    firstOr (l1 ++ l2) n = firstOr l1 (firstOr l2 n) := by
  cases l1 <;> rfl

@[simp] theorem lastOr_nil (p : Option Nat) : lastOr ([] : List (Nat × T)) p = p := rfl

@[simp] theorem lastOr_cons (c : Nat × T) (l : List (Nat × T)) (p : Option Nat) :
    lastOr (c :: l) p = lastOr l (some c.1) := rfl

theorem lastOr_append (l1 l2 : List (Nat × T)) (p : Option Nat) :
    lastOr (l1 ++ l2) p = lastOr l2 (lastOr l1 p) := by
  induction l1 generalizing p with
  | nil => rfl
  | cons c r ih => simp [ih]

@[simp] theorem linked_nil (mem : List (DLinkedNode T)) (p n : Option Nat) :
    Linked mem p ([] : List (Nat × T)) n ↔ True := Iff.rfl

@[simp] theorem linked_cons (mem : List (DLinkedNode T)) (p n : Option Nat)
    (c : Nat × T) (r : List (Nat × T)) :
    Linked mem p (c :: r) n ↔
      mem[c.1]? = some (DLinkedNode.mk c.2 p (firstOr r n)) ∧ Linked mem (some c.1) r n :=
  Iff.rfl

theorem linked_append (mem : List (DLinkedNode T)) (p : Option Nat)
    (l1 l2 : List (Nat × T)) (n : Option Nat) :
    Linked mem p (l1 ++ l2) n ↔
      Linked mem p l1 (firstOr l2 n) ∧ Linked mem (lastOr l1 p) l2 n := by
  induction l1 generalizing p with
  | nil => simp
  | cons c r ih =>
    simp only [List.cons_append, linked_cons, ih, firstOr_append, lastOr_cons]
    tauto

theorem linked_set (mem : List (DLinkedNode T)) (a : Nat) (x : DLinkedNode T)
    (p : Option Nat) (l : List (Nat × T)) (n : Option Nat) (h : a ∉ l.map Prod.fst) :
    Linked (mem.set a x) p l n ↔ Linked mem p l n := by
  induction l generalizing p with
  | nil => simp
  | cons c r ih =>
    simp only [List.map_cons, List.mem_cons, not_or] at h
    simp only [linked_cons, ih _ h.2, List.getElem?_set_ne h.1]

theorem linked_grow (mem : List (DLinkedNode T)) (x : DLinkedNode T)
    (p : Option Nat) (l : List (Nat × T)) (n : Option Nat) (h : Linked mem p l n) :
    Linked (mem ++ [x]) p l n := by
  induction l generalizing p with
  | nil => simp
  | cons c r ih =>
    obtain ⟨h1, h2⟩ := h
    refine ⟨?_, ih _ h2⟩
    have hlt : c.1 < mem.length := by
      rcases List.getElem?_eq_some.mp h1 with ⟨hlt, _⟩
      exact hlt
    rw [List.getElem?_append_left hlt]
    exact h1

theorem linked_lt (mem : List (DLinkedNode T)) (p : Option Nat) (l : List (Nat × T))
    (n : Option Nat) (h : Linked mem p l n) : ∀ a ∈ l.map Prod.fst, a < mem.length := by
  induction l generalizing p with
  | nil => simp
  | cons c r ih =>
    obtain ⟨h1, h2⟩ := h
    intro a ha
    simp only [List.map_cons, List.mem_cons] at ha
    rcases ha with rfl | ha
    · rcases List.getElem?_eq_some.mp h1 with ⟨hlt, _⟩
      exact hlt
    · exact ih _ h2 a ha

theorem length_le_of_nodup (l : List Nat) (n : Nat) (hn : l.Nodup)
    (hb : ∀ a ∈ l, a < n) : l.length ≤ n := by
  have hsub : l.toFinset ⊆ Finset.range n := by
    intro a ha
    simp only [List.mem_toFinset] at ha
    simpa using hb a ha
  have := Finset.card_le_card hsub
  rwa [List.toFinset_card_of_nodup hn, Finset.card_range] at this

theorem walk_linked (mem : List (DLinkedNode T)) (p : Option Nat) (l : List (Nat × T))
    (fuel : Nat) (h : Linked mem p l none) (hf : l.length ≤ fuel) :
    walk mem fuel (firstOr l none) = l := by
  induction l generalizing p fuel with
  | nil => cases fuel <;> simp [walk]
  | cons c r ih =>
    obtain ⟨h1, h2⟩ := h
    cases fuel with
    | zero => simp at hf
    | succ f =>
      simp only [List.length_cons, Nat.add_le_add_iff_right] at hf
      simp [walk, h1, ih _ f h2 hf]

/-- A state that represents `l` has `l` as its cells. -/
theorem Rep.cells_eq {s : LRUReplacer T} {l : List (Nat × T)} (h : Rep s l) :
    cells s = l := by
  unfold cells
  rw [h.head_eq]
  exact walk_linked s.mem none l _ h.linked
    (by simpa using length_le_of_nodup _ _ h.addrs (linked_lt _ _ _ _ h.linked))

theorem Rep.toList_eq {s : LRUReplacer T} {l : List (Nat × T)} (h : Rep s l) :
    toList s = l.map Prod.snd := by
  unfold toList
  rw [h.cells_eq]

theorem rep_new : Rep (new : LRUReplacer T) [] := by
  constructor <;> simp [new, Linked, StdMap.find]

end LRUReplacer

namespace LRUReplacer

variable {T : Type} [DecidableEq T]

theorem lastOr_eq_some (l : List (Nat × T)) (a : Nat) :
    ∃ b, lastOr l (some a) = some b ∧ (b = a ∧ l = [] ∨ b ∈ l.map Prod.fst) := by
  induction l generalizing a with
  | nil => exact ⟨a, rfl, Or.inl ⟨rfl, rfl⟩⟩
  | cons c r ih =>
    obtain ⟨b, hb, hm⟩ := ih c.1
    refine ⟨b, by simpa using hb, Or.inr ?_⟩
    rcases hm with ⟨rfl, rfl⟩ | hm
    · simp
    · simp [hm]

theorem Rep.erase_absent {s : LRUReplacer T} {l : List (Nat × T)} (h : Rep s l)
    (v : T) (hv : v ∉ l.map Prod.snd) : s.erase v = some (false, s) := by
  have hf : StdMap.find s.index v = none := by
    cases hfa : StdMap.find s.index v with
    | none => rfl
    | some a =>
      exact absurd (List.mem_map.mpr ⟨(a, v), (h.index_iff v a).mp hfa, rfl⟩) hv
  simp [erase, hf]

theorem firstOr_mem (l : List (Nat × T)) (n : Option Nat) (hne : l ≠ []) :
    ∃ b, b ∈ l.map Prod.fst ∧ firstOr l n = some b := by
  cases l with
  | nil => exact absurd rfl hne
  | cons c r => exact ⟨c.1, by simp, rfl⟩

theorem lastOr_mem (l : List (Nat × T)) (p : Option Nat) (hne : l ≠ []) :
    ∃ b, b ∈ l.map Prod.fst ∧ lastOr l p = some b := by
  cases l with
  | nil => exact absurd rfl hne
  | cons c r =>
    obtain ⟨b, hb, hm⟩ := lastOr_eq_some r c.1
    refine ⟨b, ?_, by simpa using hb⟩
    rcases hm with ⟨rfl, rfl⟩ | hm
    · simp
    · simp [hm]

/-- What the bookkeeping of `erase` (the `index.erase(value); size--` part) leaves of
the representation invariant, for any relinking of the remaining cells. -/
theorem rep_of_unlink {mem : List (DLinkedNode T)} {head tail : Option Nat}
    {size : Int} {index : List (T × Nat)} {l1 l2 : List (Nat × T)} {a : Nat} {v : T}
    (mem1 : List (DLinkedNode T)) (head1 tail1 : Option Nat)
    (h : Rep (LRUReplacer.mk mem head tail size index) (l1 ++ (a, v) :: l2))
    (hl : Linked mem1 none (l1 ++ l2) none)
    (hh : head1 = firstOr (l1 ++ l2) none) (ht : tail1 = lastOr (l1 ++ l2) none) :
    Rep (LRUReplacer.mk mem1 head1 tail1 (size - 1) (StdMap.erase index v)) (l1 ++ l2) := by
  obtain ⟨_, ha, hv, _, _, hs, hi, hk⟩ := h
  simp only at hs hi hk
  simp only [List.map_append, List.map_cons, List.nodup_append, List.nodup_cons,
    List.disjoint_cons_right] at ha hv
  refine ⟨hl, ?_, ?_, hh, ht, ?_, ?_, StdMap.keys_nodup_erase _ _ hk⟩
  · simp only [List.map_append, List.nodup_append]
    exact ⟨ha.1, ha.2.1.2, ha.2.2.2⟩
  · simp only [List.map_append, List.nodup_append]
    exact ⟨hv.1, hv.2.1.2, hv.2.2.2⟩
  · simp only [hs, List.length_append, List.length_cons]
    push_cast
    ring
  · intro v1 a1
    simp only [StdMap.find_erase, hi]
    by_cases hvv : v = v1
    · subst hvv
      simp only [if_true, List.mem_append]
      constructor
      · intro hm
        cases hm
      · rintro (hm | hm)
        · exact absurd (List.mem_map.mpr ⟨(a1, v), hm, rfl⟩) hv.2.2.1
        · exact absurd (List.mem_map.mpr ⟨(a1, v), hm, rfl⟩) hv.2.1.1
    · have : ¬ v1 = v := fun e => hvv e.symm
      simp [hvv, this, hi]

theorem Rep.erase_present {s : LRUReplacer T} {l1 l2 : List (Nat × T)} {a : Nat} {v : T}
    (h : Rep s (l1 ++ (a, v) :: l2)) :
    ∃ s1, s.erase v = some (true, s1) ∧ Rep s1 (l1 ++ l2) ∧ s1.mem.length = s.mem.length := by
  obtain ⟨mem, head, tail, size, index⟩ := s
  have h0 := h
  obtain ⟨hl, ha, hv, hh, ht, hs, hi, hk⟩ := h
  simp only at hl hh ht hs hi hk
  have hf : StdMap.find index v = some a := (hi v a).mpr (by simp)
  rw [linked_append] at hl
  simp only [linked_cons, firstOr_cons] at hl
  obtain ⟨hl1, hma, hl2⟩ := hl
  simp only [List.map_append, List.map_cons, List.nodup_append, List.nodup_cons,
    List.disjoint_cons_right] at ha hv
  simp only [firstOr_append, lastOr_append, firstOr_cons, lastOr_cons] at hh ht
  obtain ⟨ha1, ⟨ha2, ha3⟩, ha4, ha5⟩ := ha
  have hlt : a < mem.length := (List.getElem?_eq_some.mp hma).1
  have hma1 := (List.getElem?_eq_some.mp hma).2
  rcases List.eq_nil_or_concat l1 with rfl | ⟨r1, c1, hr1⟩
  · cases l2 with
    | nil =>
      simp only [firstOr_nil, lastOr_nil] at hh ht hma
      subst hh ht
      simp [erase, hf, wr, hma, List.getElem?_set, hlt]
      exact rep_of_unlink _ _ _ h0 (by simp) rfl rfl
    | cons c2 r2 =>
      simp only [firstOr_nil, lastOr_nil, firstOr_cons, lastOr_cons, linked_cons] at hh ht hma hl2
      obtain ⟨hc2, hl2⟩ := hl2
      have hc2lt : c2.1 < mem.length := (List.getElem?_eq_some.mp hc2).1
      simp only [List.map_cons, List.mem_cons, not_or, List.nodup_cons] at ha2 ha3
      have hac : ¬ c2.1 = a := fun e => ha2.1 e.symm
      have hne : ¬ some a = tail := by
        obtain ⟨b, hb, hm⟩ := lastOr_eq_some r2 c2.1
        rw [ht, hb]
        rcases hm with ⟨rfl, _⟩ | hm
        · simpa using ha2.1
        · intro e
          simp only [Option.some.injEq] at e
          exact ha2.2 (e ▸ hm)
      subst hh
      simp [erase, hf, wr, rd, hma, hma1, hc2, List.getElem?_set, hlt, hc2lt, hne, hac]
      refine rep_of_unlink _ _ _ h0 ?_ rfl (by simpa using ht)
      simp only [List.nil_append, linked_cons]
      rw [linked_set _ _ _ _ _ _ ha2.2, linked_set _ _ _ _ _ _ ha3.1]
      simp [List.getElem?_set, List.getElem_set, hac, ha2.1, hc2lt, hl2]
  · rw [List.concat_eq_append] at hr1
    subst hr1
    rw [linked_append] at hl1
    simp only [linked_cons, linked_nil, and_true, firstOr_cons, firstOr_nil] at hl1
    obtain ⟨hl1, hc1⟩ := hl1
    simp only [lastOr_append, lastOr_cons, lastOr_nil] at hma hma1 ht
    have hc1lt : c1.1 < mem.length := (List.getElem?_eq_some.mp hc1).1
    have hc1g := (List.getElem?_eq_some.mp hc1).2
    simp only [List.map_append, List.map_cons, List.map_nil, List.mem_append, List.mem_cons,
      List.mem_singleton, List.nodup_append, List.nodup_cons, not_or, List.disjoint_append_left,
      List.disjoint_cons_left, List.disjoint_singleton, List.not_mem_nil, List.nodup_nil,
      List.singleton_disjoint, List.disjoint_nil_left, and_true, true_and, not_false_eq_true]
      at ha1 ha4 ha5
    have hnh : ¬ some a = head := by
      obtain ⟨b, hb, hm⟩ := firstOr_mem (r1 ++ [c1]) (some a) (by simp)
      rw [hh, hm]
      simp only [List.map_append, List.map_cons, List.map_nil, List.mem_append,
        List.mem_singleton] at hb
      intro e
      simp only [Option.some.injEq] at e
      subst e
      rcases hb with hb | hb
      · exact ha4.1 hb
      · exact ha4.2 hb
    have hca : ¬ c1.1 = a := fun e => ha4.2 e.symm
    cases l2 with
    | nil =>
      simp only [firstOr_nil, lastOr_nil] at ht hma hma1
      subst ht
      simp [erase, hf, wr, rd, hma, hma1, hc1, hc1g, List.getElem?_set, List.getElem_set, hlt,
        hc1lt, hnh, hca, ha4.2]
      have hr := rep_of_unlink ((mem.set c1.1 (DLinkedNode.mk c1.2 (lastOr r1 none) none)).set a
          (DLinkedNode.mk v none none)) (head) (some c1.1) h0 ?_ ?_ ?_
      · simpa using hr
      · simp only [List.append_nil, linked_append, linked_cons, linked_nil, firstOr_cons,
          firstOr_nil, and_true]
        rw [linked_set _ _ _ _ _ _ ha4.1, linked_set _ _ _ _ _ _ ha1.2]
        simp [List.getElem?_set, List.getElem_set, hca, ha4.2, hc1lt, hl1]
      · simp [hh, firstOr_append]
      · simp [lastOr_append]
    | cons c2 r2 =>
      simp only [firstOr_nil, lastOr_nil, firstOr_cons, lastOr_cons, linked_cons]
        at ht hma hma1 hl2
      obtain ⟨hc2, hl2⟩ := hl2
      have hc2lt : c2.1 < mem.length := (List.getElem?_eq_some.mp hc2).1
      have hc2g := (List.getElem?_eq_some.mp hc2).2
      simp only [List.map_cons, List.mem_cons, not_or, List.nodup_cons,
        List.disjoint_cons_right] at ha2 ha3 ha5
      have hac : ¬ c2.1 = a := fun e => ha2.1 e.symm
      have hcc : ¬ c2.1 = c1.1 := fun e => ha5.2.1 e.symm
      have hne : ¬ some a = tail := by
        obtain ⟨b, hb, hm⟩ := lastOr_eq_some r2 c2.1
        rw [ht, hb]
        rcases hm with ⟨rfl, _⟩ | hm
        · simpa using ha2.1
        · intro e
          simp only [Option.some.injEq] at e
          exact ha2.2 (e ▸ hm)
      simp [erase, hf, wr, rd, hma, hma1, hc1, hc1g, hc2, hc2g, List.getElem?_set,
        List.getElem_set, hlt, hc1lt, hc2lt, hnh, hne, hca, ha4.2, hac, ha2.1, hcc, ha5.2.1]
      have hr := rep_of_unlink (((mem.set c1.1 (DLinkedNode.mk c1.2 (lastOr r1 none) (some c2.1))).set c2.1
          (DLinkedNode.mk c2.2 (some c1.1) (firstOr r2 none))).set a
          (DLinkedNode.mk v none none)) (head) (tail) h0 ?_ ?_ ?_
      · simpa using hr
      · simp only [List.append_assoc, linked_append, linked_cons, linked_nil, firstOr_cons,
          firstOr_nil, and_true, List.singleton_append, lastOr_cons, lastOr_nil]
        rw [linked_set _ _ _ _ _ _ ha4.1, linked_set _ _ _ _ _ _ ha5.1.1,
          linked_set _ _ _ _ _ _ ha1.2, linked_set _ _ _ _ _ _ ha2.2,
          linked_set _ _ _ _ _ _ ha3.1, linked_set _ _ _ _ _ _ ha5.2.2]
        simp [List.getElem?_set, List.getElem_set, hca, ha4.2, hc1lt, hc2lt, hl1, hl2, hac,
          ha2.1, hcc, ha5.2.1]
      · simp [hh, firstOr_append]
      · simp [ht, lastOr_append]

theorem Rep.Victim_empty {s : LRUReplacer T} (h : Rep s []) :
    s.Victim = some (none, s) := by
  have hs := h.size_eq
  simp only [List.length_nil, Nat.cast_zero] at hs
  simp [Victim, hs]

theorem Rep.Victim_nonempty {s : LRUReplacer T} {l : List (Nat × T)} {a : Nat} {v : T}
    (h : Rep s (l ++ [(a, v)])) :
    ∃ s1, s.Victim = some (some v, s1) ∧ Rep s1 l ∧ s1.mem.length = s.mem.length := by
  obtain ⟨mem, head, tail, size, index⟩ := s
  have h0 := h
  obtain ⟨hl, ha, hv, hh, ht, hs, hi, hk⟩ := h
  simp only at hl hh ht hs hi hk
  rw [linked_append] at hl
  simp only [linked_cons, linked_nil, and_true, firstOr_cons, firstOr_nil] at hl
  obtain ⟨hl1, hma⟩ := hl
  simp only [firstOr_append, lastOr_append, firstOr_cons, lastOr_cons, lastOr_nil] at hh ht
  have hlt : a < mem.length := (List.getElem?_eq_some.mp hma).1
  have hma1 := (List.getElem?_eq_some.mp hma).2
  have hsz : ¬ size = 0 := by
    rw [hs]
    simp only [List.length_append, List.length_singleton]
    omega
  subst ht
  rcases List.eq_nil_or_concat l with rfl | ⟨r1, c1, hr1⟩
  · simp only [firstOr_nil, lastOr_nil] at hh hma hma1
    subst hh
    simp [Victim, rd, hsz, hma, hma1, hlt]
    have hr := rep_of_unlink (mem) (none) (none) h0
      (by simp) rfl rfl
    simpa using hr
  · rw [List.concat_eq_append] at hr1
    subst hr1
    rw [linked_append] at hl1
    simp only [linked_cons, linked_nil, and_true, firstOr_cons, firstOr_nil] at hl1
    obtain ⟨hl1, hc1⟩ := hl1
    simp only [lastOr_append, lastOr_cons, lastOr_nil] at hma hma1
    have hc1lt : c1.1 < mem.length := (List.getElem?_eq_some.mp hc1).1
    have hc1g := (List.getElem?_eq_some.mp hc1).2
    simp only [List.map_append, List.map_cons, List.map_nil, List.mem_append, List.mem_cons,
      List.mem_singleton, List.nodup_append, List.nodup_cons, not_or, List.disjoint_append_left,
      List.disjoint_cons_left, List.disjoint_singleton, List.not_mem_nil, List.nodup_nil,
      List.singleton_disjoint, List.disjoint_nil_left, and_true, true_and, not_false_eq_true]
      at ha
    obtain ⟨⟨ha1, ha2⟩, ha3, ha4⟩ := ha
    have hca : ¬ c1.1 = a := fun e => ha4 e.symm
    have hnh : ¬ head = some a := by
      obtain ⟨b, hb, hm⟩ := firstOr_mem (r1 ++ [c1]) (some a) (by simp)
      rw [hh, hm]
      simp only [List.map_append, List.map_cons, List.map_nil, List.mem_append,
        List.mem_singleton] at hb
      intro e
      simp only [Option.some.injEq] at e
      subst e
      rcases hb with hb | hb
      · exact ha3 hb
      · exact ha4 hb
    simp [Victim, rd, wr, hsz, hma, hma1, hc1, hc1g, hlt, hc1lt, hnh, List.getElem?_set,
      List.getElem_set, hca, ha4]
    have hr := rep_of_unlink ((mem.set c1.1 (DLinkedNode.mk c1.2 (lastOr r1 none) none)).set a
        (DLinkedNode.mk v none none)) (head) (some c1.1) h0 ?_ ?_ ?_
    · simpa using hr
    · simp only [List.append_nil, linked_append, linked_cons, linked_nil, firstOr_cons,
        firstOr_nil, and_true]
      rw [linked_set _ _ _ _ _ _ ha3, linked_set _ _ _ _ _ _ ha2]
      simp [List.getElem?_set, List.getElem_set, hca, ha4, hc1lt, hl1]
    · simp [hh, firstOr_append]
    · simp [lastOr_append]

/-- What the bookkeeping of `insertAtHead` (the `index[value] = node; size++` part)
leaves of the representation invariant. -/
theorem rep_of_link {mem mem1 : List (DLinkedNode T)} {head tail tail1 : Option Nat}
    {size : Int} {index : List (T × Nat)} {l : List (Nat × T)} {n : Nat} {v : T}
    (h : Rep (LRUReplacer.mk mem head tail size index) l)
    (hn : n ∉ l.map Prod.fst) (hv : v ∉ l.map Prod.snd)
    (hl : Linked mem1 none ((n, v) :: l) none) (ht : tail1 = lastOr l (some n)) :
    Rep (LRUReplacer.mk mem1 (some n) tail1 (size + 1) (StdMap.assign index v n))
      ((n, v) :: l) := by
  obtain ⟨_, ha, hvs, _, _, hs, hi, hk⟩ := h
  simp only at hs hi hk
  refine ⟨hl, ?_, ?_, rfl, by simpa using ht, ?_, ?_, StdMap.keys_nodup_assign _ _ _ hk⟩
  · simp only [List.map_cons, List.nodup_cons]
    exact ⟨hn, ha⟩
  · simp only [List.map_cons, List.nodup_cons]
    exact ⟨hv, hvs⟩
  · simp only [hs, List.length_cons]
    push_cast
    ring
  · intro v1 a1
    simp only [StdMap.find_assign, List.mem_cons, Prod.mk.injEq]
    by_cases hvv : v = v1
    · subst hvv
      simp only [if_true, Option.some.injEq, and_true]
      constructor
      · intro e
        exact Or.inl e.symm
      · rintro (e | hm)
        · exact e.symm
        · exact absurd (List.mem_map.mpr ⟨(a1, v), hm, rfl⟩) hv
    · have : ¬ v1 = v := fun e => hvv e.symm
      simp [hvv, this, hi]

theorem Rep.insertAtHead_rep {s : LRUReplacer T} {l : List (Nat × T)} {n : Nat} {v : T}
    {p0 n0 : Option Nat} (h : Rep s l) (hm : s.mem[n]? = some (DLinkedNode.mk v p0 n0))
    (hn : n ∉ l.map Prod.fst) (hv : v ∉ l.map Prod.snd) :
    ∃ s1, s.insertAtHead (some n) = some s1 ∧ Rep s1 ((n, v) :: l) ∧
      s1.mem.length = s.mem.length := by
  obtain ⟨mem, head, tail, size, index⟩ := s
  have h0 := h
  obtain ⟨hl, ha, hvs, hh, ht, hs, hi, hk⟩ := h
  simp only at hl hh ht hs hi hk hm
  have hlt : n < mem.length := (List.getElem?_eq_some.mp hm).1
  have hm1 := (List.getElem?_eq_some.mp hm).2
  cases l with
  | nil =>
    simp only [firstOr_nil, lastOr_nil] at hh ht
    subst hh ht
    simp [LRUReplacer.insertAtHead, wr, rd, hm, hm1, hlt, List.getElem?_set, List.getElem_set]
    exact rep_of_link h0 hn hv (by simp [hlt]) rfl
  | cons c r =>
    simp only [firstOr_cons, lastOr_cons, linked_cons] at hh ht hl
    obtain ⟨hc, hl⟩ := hl
    have hclt : c.1 < mem.length := (List.getElem?_eq_some.mp hc).1
    have hcg := (List.getElem?_eq_some.mp hc).2
    simp only [List.map_cons, List.mem_cons, not_or, List.nodup_cons] at hn ha
    have hcn : ¬ c.1 = n := fun e => hn.1 e.symm
    have htn : ¬ tail = none := by
      obtain ⟨b, hb, _⟩ := lastOr_eq_some r c.1
      rw [ht, hb]
      simp
    subst hh
    simp [LRUReplacer.insertAtHead, wr, rd, hm, hm1, hc, hcg, hlt, hclt, List.getElem?_set,
      List.getElem_set, hcn, hn.1, htn]
    refine rep_of_link h0 (by simp [hn]) hv ?_ (by simpa using ht)
    simp only [linked_cons, firstOr_cons]
    rw [linked_set _ _ _ _ _ _ ha.1, linked_set _ _ _ _ _ _ hn.2]
    simp [List.getElem?_set, List.getElem_set, hcn, hn.1, hlt, hclt, hl]

theorem Rep.grow {s : LRUReplacer T} {l : List (Nat × T)} (h : Rep s l)
    (x : DLinkedNode T) : Rep { s with mem := s.mem ++ [x] } l :=
  ⟨linked_grow _ _ _ _ _ h.linked, h.addrs, h.vals, h.head_eq, h.tail_eq, h.size_eq,
    h.index_iff, h.index_keys⟩

/-- The cell list after `Insert(v)`: a fresh cell of `v` in front of the other cells. -/
theorem Rep.Insert_rep {s : LRUReplacer T} {l : List (Nat × T)} (h : Rep s l) (v : T) :
    ∃ s1, s.Insert v = some s1 ∧
      Rep s1 ((s.mem.length, v) :: l.filter (fun c => !decide (c.2 = v))) := by
  have key : ∃ b s0, s.erase v = some (b, s0) ∧
      Rep s0 (l.filter (fun c => !decide (c.2 = v))) ∧ s0.mem.length = s.mem.length := by
    by_cases hv : v ∈ l.map Prod.snd
    · obtain ⟨c, hc, rfl⟩ := List.mem_map.mp hv
      obtain ⟨l1, l2, rfl⟩ := List.append_of_mem hc
      obtain ⟨s0, he, hr, hlen⟩ := h.erase_present
      refine ⟨true, s0, he, ?_, hlen⟩
      have hvs := h.vals
      simp only [List.map_append, List.map_cons, List.nodup_append, List.nodup_cons,
        List.disjoint_cons_right] at hvs
      have e1 : l1.filter (fun c1 => !decide (c1.2 = c.2)) = l1 := by
        rw [List.filter_eq_self]
        intro x hx
        have : x.2 ≠ c.2 := fun e => hvs.2.2.1 (List.mem_map.mpr ⟨x, hx, e⟩)
        simpa using this
      have e2 : l2.filter (fun c1 => !decide (c1.2 = c.2)) = l2 := by
        rw [List.filter_eq_self]
        intro x hx
        have : x.2 ≠ c.2 := fun e => hvs.2.1.1 (List.mem_map.mpr ⟨x, hx, e⟩)
        simpa using this
      rw [List.filter_append, List.filter_cons, e1, e2]
      simpa using hr
    · refine ⟨false, s, h.erase_absent v hv, ?_, rfl⟩
      have e1 : l.filter (fun c1 => !decide (c1.2 = v)) = l := by
        rw [List.filter_eq_self]
        intro x hx
        have : x.2 ≠ v := fun e => hv (List.mem_map.mpr ⟨x, hx, e⟩)
        simpa using this
      rw [e1]
      exact h
  obtain ⟨b, s0, he, hr, hlen⟩ := key
  have hg := hr.grow (DLinkedNode.mk v none none)
  have hm : ({ s0 with mem := s0.mem ++ [DLinkedNode.mk v none none] } : LRUReplacer T).mem[
      s0.mem.length]? = some (DLinkedNode.mk v none none) := by
    simp
  have hn : s0.mem.length ∉ (l.filter (fun c => !decide (c.2 = v))).map Prod.fst := by
    intro hmem
    exact absurd (linked_lt _ _ _ _ hr.linked _ hmem) (lt_irrefl _)
  have hv : v ∉ (l.filter (fun c => !decide (c.2 = v))).map Prod.snd := by
    intro hmem
    obtain ⟨c, hc, e⟩ := List.mem_map.mp hmem
    simp only [List.mem_filter, Bool.not_eq_true', decide_eq_false_iff_not] at hc
    exact hc.2 e
  obtain ⟨s1, hi, hr1, _⟩ := hg.insertAtHead_rep hm hn hv
  refine ⟨s1, ?_, by simpa [hlen] using hr1⟩
  simp only [LRUReplacer.Insert, he, Option.bind_eq_bind, Option.some_bind]
  exact hi

/-- Every reachable replacer state satisfies the representation invariant. -/
theorem Reachable.rep {s : LRUReplacer T} (h : Reachable s) : ∃ l, Rep s l := by
  induction h with
  | new => exact ⟨[], rep_new⟩
  | Insert s s1 v _ hi ih =>
    obtain ⟨l, hr⟩ := ih
    obtain ⟨s2, hi2, hr2⟩ := hr.Insert_rep v
    rw [hi] at hi2
    cases hi2
    exact ⟨_, hr2⟩
  | Victim s s1 r _ hv ih =>
    obtain ⟨l, hr⟩ := ih
    rcases List.eq_nil_or_concat l with rfl | ⟨l1, c, hl⟩
    · rw [hr.Victim_empty] at hv
      cases hv
      exact ⟨_, hr⟩
    · rw [List.concat_eq_append] at hl
      subst hl
      obtain ⟨s2, hv2, hr2, _⟩ := hr.Victim_nonempty
      rw [hv] at hv2
      cases hv2
      exact ⟨_, hr2⟩
  | Erase s s1 v b _ he ih =>
    obtain ⟨l, hr⟩ := ih
    by_cases hv : v ∈ l.map Prod.snd
    · obtain ⟨c, hc, rfl⟩ := List.mem_map.mp hv
      obtain ⟨l1, l2, rfl⟩ := List.append_of_mem hc
      obtain ⟨s2, he2, hr2, _⟩ := hr.erase_present
      rw [LRUReplacer.Erase, he2] at he
      cases he
      exact ⟨_, hr2⟩
    · rw [LRUReplacer.Erase, hr.erase_absent v hv] at he
      cases he
      exact ⟨_, hr⟩

theorem sample_reachable : Reachable sample := by
  have h1 := Reachable.Insert (new : LRUReplacer Nat) _ 1 Reachable.new rfl
  have h2 := Reachable.Insert _ _ 2 h1 rfl
  have h3 := Reachable.Insert _ _ 3 h2 rfl
  exact Reachable.Insert _ _ 1 h3 rfl

end LRUReplacer

/-! ## The contracts of `LRUReplacer` (claims C1 to C6) -/

namespace LRUReplacer

variable {T : Type} [DecidableEq T]

theorem Rep.size_toList {s : LRUReplacer T} {l : List (Nat × T)} (h : Rep s l) :
    Size s = (toList s).length := by
  rw [h.toList_eq, Size, h.size_eq]
  simp

theorem filter_snd (l : List (Nat × T)) (v : T) :
    (l.filter (fun c => !decide (c.2 = v))).map Prod.snd =
      (l.map Prod.snd).filter (fun x => !decide (x = v)) := by
  induction l with
  | nil => rfl
  | cons c r ih =>
    by_cases h : c.2 = v <;> simp [List.filter_cons, h, ih]

theorem filter_ne_self (l : List T) (v : T) (h : v ∉ l) :
    l.filter (fun x => !decide (x = v)) = l := by
  rw [List.filter_eq_self]
  intro x hx
  have : x ≠ v := fun e => h (e ▸ hx)
  simpa using this

theorem length_filter_ne (l : List T) (v : T) (hn : l.Nodup) :
    ((l.filter (fun x => !decide (x = v))).length : Int) =
      if v ∈ l then (l.length : Int) - 1 else l.length := by
  induction l with
  | nil => simp
  | cons c r ih =>
    simp only [List.nodup_cons] at hn
    have ih1 := ih hn.2
    by_cases h : c = v
    · subst h
      simp [List.filter_cons, filter_ne_self r c hn.1]
    · have h1 : ¬ v = c := fun e => h e.symm
      simp only [List.filter_cons, h, decide_False, Bool.not_false, if_true,
        List.length_cons, List.mem_cons, h1, false_or]
      split at ih1 <;> rename_i hm
      · simp only [hm, if_true]
        push_cast
        omega
      · simp only [hm, if_false]
        push_cast
        omega

theorem lastInserts_concat (vs : List T) (v : T) :
    lastInserts (vs ++ [v]) = (lastInserts vs).filter (fun x => !decide (x = v)) ++ [v] := by
  induction vs with
  | nil => simp [lastInserts]
  | cons x r ih =>
    by_cases hx : x = v
    · subst hx
      by_cases hm : x ∈ r <;> simp [lastInserts, hm, ih, List.filter_cons]
    · by_cases hm : x ∈ r <;> simp [lastInserts, hm, hx, ih, List.filter_cons]

theorem lastInserts_of_nodup (vs : List T) (h : vs.Nodup) : lastInserts vs = vs := by
  induction vs with
  | nil => rfl
  | cons x r ih =>
    simp only [List.nodup_cons] at h
    simp [lastInserts, h.1, ih h.2]

/-- The recency list after a run of `Insert` calls on a state that represents `l`. -/
theorem Rep.insertAll_rep {s : LRUReplacer T} {l : List (Nat × T)} (h : Rep s l)
    (vs : List T) :
    ∃ s1 l1, s.insertAll vs = some s1 ∧ Rep s1 l1 ∧
      l1.map Prod.snd =
        vs.foldl (fun acc v => v :: acc.filter (fun x => !decide (x = v))) (l.map Prod.snd) := by
  induction vs generalizing s l with
  | nil => exact ⟨s, l, rfl, h, rfl⟩
  | cons v r ih =>
    obtain ⟨s1, hi, hr1⟩ := h.Insert_rep v
    obtain ⟨s2, l2, hi2, hr2, hl2⟩ := ih hr1
    refine ⟨s2, l2, ?_, hr2, ?_⟩
    · simp only [LRUReplacer.insertAll, hi, Option.some_bind]
      exact hi2
    · rw [hl2, List.foldl_cons, List.map_cons, filter_snd]

theorem foldl_insert_eq (vs : List T) :
    vs.foldl (fun acc v => v :: acc.filter (fun x => !decide (x = v))) [] =
      (lastInserts vs).reverse := by
  induction vs using List.reverseRecOn with
  | nil => rfl
  | append_singleton r v ih =>
    rw [List.foldl_append, List.foldl_cons, List.foldl_nil, ih, lastInserts_concat,
      List.reverse_append, List.filter_reverse]
    rfl

/-- Successive `Victim` calls on a state that represents `l` write the values of `l`
from the tail on. -/
theorem Rep.victims_eq {s : LRUReplacer T} {l : List (Nat × T)} (h : Rep s l) (n : Nat) :
    victims n s = some (((l.map Prod.snd).reverse).take n) := by
  induction n generalizing s l with
  | zero => rfl
  | succ n ih =>
    rcases List.eq_nil_or_concat l with rfl | ⟨l1, c, hl⟩
    · simp [LRUReplacer.victims, h.Victim_empty]
    · rw [List.concat_eq_append] at hl
      subst hl
      obtain ⟨s1, hv, hr1, _⟩ := h.Victim_nonempty
      simp [LRUReplacer.victims, hv, ih hr1]

/-- The victims after a run of `Insert` calls on a new replacer. -/
theorem victims_insertAll (vs : List T) :
    ∃ s, (new : LRUReplacer T).insertAll vs = some s ∧
      ∀ n, victims n s = some ((lastInserts vs).take n) := by
  obtain ⟨s1, l1, hi, hr, hl⟩ := (rep_new : Rep (new : LRUReplacer T) []).insertAll_rep vs
  refine ⟨s1, hi, fun n => ?_⟩
  rw [hr.victims_eq, hl]
  simp only [List.map_nil]
  rw [foldl_insert_eq, List.reverse_reverse]

/-- C1. `Victim` on a reachable replacer. When the replacer holds no value the call
returns `false` and leaves the state unchanged. Otherwise it returns `true`, the value
written to the out-parameter is the one at the tail (the last of `toList`, the least
recently inserted), the values left are the former ones without the last and in their
former order, the victim is no longer among them, and `Size()` has decreased by one. -/
theorem Victim_contract (s : LRUReplacer T) (h : Reachable s) :
    (toList s = [] → s.Victim = some (none, s)) ∧
    (toList s ≠ [] → ∃ x s1, s.Victim = some (some x, s1) ∧
      (toList s).getLast? = some x ∧ toList s1 = (toList s).dropLast ∧
      x ∉ toList s1 ∧ Size s1 = Size s - 1) := by
  obtain ⟨l, hr⟩ := h.rep
  rcases List.eq_nil_or_concat l with rfl | ⟨l1, c, hl⟩
  · refine ⟨fun _ => hr.Victim_empty, fun hne => absurd ?_ hne⟩
    rw [hr.toList_eq]
    rfl
  · rw [List.concat_eq_append] at hl
    subst hl
    refine ⟨fun he => ?_, fun _ => ?_⟩
    · rw [hr.toList_eq] at he
      simp at he
    · obtain ⟨s1, hv, hr1, _⟩ := hr.Victim_nonempty
      refine ⟨c.2, s1, hv, ?_, ?_, ?_, ?_⟩
      · rw [hr.toList_eq]
        simp
      · rw [hr.toList_eq, hr1.toList_eq]
        simp
      · rw [hr1.toList_eq]
        have hvs := hr.vals
        simp only [List.map_append, List.map_cons, List.map_nil, List.nodup_append,
          List.disjoint_singleton] at hvs
        exact hvs.2.2
      · rw [hr.size_toList, hr1.size_toList, hr.toList_eq, hr1.toList_eq]
        simp

/-- The contract of `Victim` at the replacer after `Insert` of 1, 2, 3, 1. -/
theorem Victim_contract_witness :
    (toList sample = [] → sample.Victim = some (none, sample)) ∧
    (toList sample ≠ [] → ∃ x s1, sample.Victim = some (some x, s1) ∧
      (toList sample).getLast? = some x ∧ toList s1 = (toList sample).dropLast ∧
      x ∉ toList s1 ∧ Size s1 = Size sample - 1) :=
  Victim_contract sample sample_reachable

/-- C2. `Insert(v)` on a reachable replacer returns normally; afterwards `v` is at the
head of the recency list and occurs exactly once, the other values follow in their
former relative order, and `Size()` has grown by one when `v` was absent and is
unchanged when `v` was present. -/
theorem Insert_contract (s : LRUReplacer T) (h : Reachable s) (v : T) :
    ∃ s1, s.Insert v = some s1 ∧
      toList s1 = v :: (toList s).filter (fun x => !decide (x = v)) ∧
      (toList s1).count v = 1 ∧
      (v ∉ toList s → Size s1 = Size s + 1) ∧
      (v ∈ toList s → Size s1 = Size s) := by
  obtain ⟨l, hr⟩ := h.rep
  obtain ⟨s1, hi, hr1⟩ := hr.Insert_rep v
  have ht : toList s1 = v :: (toList s).filter (fun x => !decide (x = v)) := by
    rw [hr1.toList_eq, hr.toList_eq, List.map_cons, filter_snd]
  have hlen := length_filter_ne (toList s) v (by rw [hr.toList_eq]; exact hr.vals)
  refine ⟨s1, hi, ht, ?_, ?_, ?_⟩
  · rw [ht, List.count_cons_self, List.count_eq_zero_of_not_mem]
    simp
  · intro hv
    rw [hr1.size_toList, hr.size_toList, ht, List.length_cons]
    simp only [hv, if_false] at hlen
    push_cast
    omega
  · intro hv
    rw [hr1.size_toList, hr.size_toList, ht, List.length_cons]
    simp only [hv, if_true] at hlen
    push_cast
    omega

/-- The contract of `Insert` at the replacer after `Insert` of 1, 2, 3, 1, for the
value 3. -/
theorem Insert_contract_witness :
    ∃ s1, sample.Insert 3 = some s1 ∧
      toList s1 = 3 :: (toList sample).filter (fun x => !decide (x = 3)) ∧
      (toList s1).count 3 = 1 ∧
      (3 ∉ toList sample → Size s1 = Size sample + 1) ∧
      (3 ∈ toList sample → Size s1 = Size sample) :=
  Insert_contract sample sample_reachable 3

/-- C3. `Erase(v)` on a reachable replacer returns `true` exactly when `v` was present.
When it returns `true`, `v` is gone, the other values keep their order and `Size()` has
decreased by one; when it returns `false` the state is unchanged. -/
theorem Erase_contract (s : LRUReplacer T) (h : Reachable s) (v : T) :
    ∃ b s1, s.Erase v = some (b, s1) ∧ (b = true ↔ v ∈ toList s) ∧
      (b = true → toList s1 = (toList s).filter (fun x => !decide (x = v)) ∧
        v ∉ toList s1 ∧ Size s1 = Size s - 1) ∧
      (b = false → s1 = s) := by
  obtain ⟨l, hr⟩ := h.rep
  by_cases hv : v ∈ l.map Prod.snd
  · obtain ⟨c, hc, rfl⟩ := List.mem_map.mp hv
    obtain ⟨l1, l2, rfl⟩ := List.append_of_mem hc
    obtain ⟨s1, he, hr1, _⟩ := hr.erase_present
    have hvs := hr.vals
    have hlen := length_filter_ne (toList s) c.2 (by rw [hr.toList_eq]; exact hr.vals)
    have hin : c.2 ∈ toList s := by rw [hr.toList_eq]; exact hv
    simp only [hin, if_true] at hlen
    simp only [List.map_append, List.map_cons, List.nodup_append, List.nodup_cons,
      List.disjoint_cons_right] at hvs
    have ht : toList s1 = (toList s).filter (fun x => !decide (x = c.2)) := by
      rw [hr1.toList_eq, hr.toList_eq]
      simp only [List.map_append, List.map_cons, List.filter_append, List.filter_cons]
      have e1 : (l1.map Prod.snd).filter (fun x => !decide (x = c.2)) = l1.map Prod.snd := by
        rw [List.filter_eq_self]
        intro x hx
        have : x ≠ c.2 := fun e => hvs.2.2.1 (e ▸ hx)
        simpa using this
      have e2 : (l2.map Prod.snd).filter (fun x => !decide (x = c.2)) = l2.map Prod.snd := by
        rw [List.filter_eq_self]
        intro x hx
        have : x ≠ c.2 := fun e => hvs.2.1.1 (e ▸ hx)
        simpa using this
      rw [e1, e2]
      simp
    refine ⟨true, s1, he, by simp [hin], fun _ => ⟨ht, ?_, ?_⟩, fun hb => by simp at hb⟩
    · rw [ht]
      simp
    · rw [hr1.size_toList, hr.size_toList, ht, hlen]
  · refine ⟨false, s, hr.erase_absent v hv, ?_, fun hb => by simp at hb, fun _ => rfl⟩
    rw [hr.toList_eq]
    simpa using hv

/-- The contract of `Erase` at the replacer after `Insert` of 1, 2, 3, 1, for the
value 3. -/
theorem Erase_contract_witness :
    ∃ b s1, sample.Erase 3 = some (b, s1) ∧ (b = true ↔ 3 ∈ toList sample) ∧
      (b = true → toList s1 = (toList sample).filter (fun x => !decide (x = 3)) ∧
        3 ∉ toList s1 ∧ Size s1 = Size sample - 1) ∧
      (b = false → s1 = sample) :=
  Erase_contract sample sample_reachable 3

/-- C4. Recency refresh. After any sequence `vs` of `Insert` calls on a new replacer
(values may repeat), successive `Victim` calls write the distinct values of `vs` in the
order of their last `Insert`, earliest first, and the call after the last value
returns `false`: the first `n` calls yield the first `n` of them. For the calls
`Insert(1)`, `Insert(2)`, `Insert(3)`, `Insert(1)` the victims are 2, 3, 1. -/
theorem victims_by_last_insert (vs : List T) :
    (∃ s, (new : LRUReplacer T).insertAll vs = some s ∧
      ∀ n, victims n s = some ((lastInserts vs).take n)) ∧
    ((new : LRUReplacer Nat).insertAll [1, 2, 3, 1]).bind (victims 4) = some [2, 3, 1] :=
  ⟨victims_insertAll vs, by decide⟩

/-- C5, as stated, fails: after `Insert(1)`, `Insert(2)` the two victims are 1 then 2,
not the reverse of the insertion order. -/
theorem victims_reverse_counterexample :
    ((new : LRUReplacer Nat).insertAll [1, 2]).bind (victims 2) = some [1, 2] ∧
    ((new : LRUReplacer Nat).insertAll [1, 2]).bind (victims 2) ≠ some ([1, 2].reverse) := by
  decide

/-- C5, amended. After `Insert` of `N` distinct values `v1 .. vN` into a new replacer,
`N` successive `Victim` calls return `true` and write the values in the order of their
insertion (`v1` first, `vN` last). -/
theorem victims_in_insertion_order (vs : List T) (h : vs.Nodup) :
    ∃ s, (new : LRUReplacer T).insertAll vs = some s ∧ victims vs.length s = some vs := by
  obtain ⟨s, hi, hv⟩ := victims_insertAll vs
  refine ⟨s, hi, ?_⟩
  rw [hv, lastInserts_of_nodup vs h, List.take_length]

/-- The amended C5 for the insertions 1, 2, 3. -/
theorem victims_in_insertion_order_witness :
    ∃ s, (new : LRUReplacer Nat).insertAll [1, 2, 3] = some s ∧
      victims [1, 2, 3].length s = some [1, 2, 3] :=
  victims_in_insertion_order [1, 2, 3] (by decide)

/-- C6. Representation invariant. In every state reachable from a new replacer by
`Insert`, `Victim` and `Erase`: no value and no node occurs twice in the recency list;
the index maps a value to an address exactly when the list has the node of that address
holding that value (and holds each key once); `Size()` is the number of values in the
list; moreover the cells of the list are doubly linked from `head` to `tail`, with
`nullptr` before the first and after the last. -/
theorem representation_invariant (s : LRUReplacer T) (h : Reachable s) :
    (toList s).Nodup ∧ ((cells s).map Prod.fst).Nodup ∧
    (∀ v a, StdMap.find s.index v = some a ↔ (a, v) ∈ cells s) ∧
    (s.index.map Prod.fst).Nodup ∧
    Size s = (toList s).length ∧
    Linked s.mem none (cells s) none ∧
    s.head = firstOr (cells s) none ∧ s.tail = lastOr (cells s) none := by
  obtain ⟨l, hr⟩ := h.rep
  have hs := hr.size_toList
  rw [hr.toList_eq] at hs ⊢
  rw [hr.cells_eq]
  exact ⟨hr.vals, hr.addrs, hr.index_iff, hr.index_keys, hs, hr.linked, hr.head_eq,
    hr.tail_eq⟩

/-- The representation invariant at the replacer after `Insert` of 1, 2, 3, 1. -/
theorem representation_invariant_witness :
    (toList sample).Nodup ∧ ((cells sample).map Prod.fst).Nodup ∧
    (∀ v a, StdMap.find sample.index v = some a ↔ (a, v) ∈ cells sample) ∧
    (sample.index.map Prod.fst).Nodup ∧
    Size sample = (toList sample).length ∧
    Linked sample.mem none (cells sample) none ∧
    sample.head = firstOr (cells sample) none ∧ sample.tail = lastOr (cells sample) none :=
  representation_invariant sample sample_reachable

end LRUReplacer

/-! ## Lemmas on the mask arithmetic of the hash table -/

namespace ExtendibleHash

theorem and_two_pow_ne_zero_iff (x d : Nat) : x &&& 2 ^ d ≠ 0 ↔ x / 2 ^ d % 2 = 1 := by
  rw [Nat.and_two_pow]
  have hp : 0 < 2 ^ d := Nat.two_pow_pos d
  cases h : x.testBit d
  · simp only [Bool.toNat_false, zero_mul, ne_eq, not_true_eq_false, false_iff]
    rw [Nat.testBit_to_div_mod] at h
    simpa using h
  · simp only [Bool.toNat_true, one_mul]
    rw [Nat.testBit_to_div_mod] at h
    exact ⟨fun _ => by simpa using h, fun _ => Nat.pos_iff_ne_zero.mp hp⟩

theorem mod_two_pow_succ (x d : Nat) :
    x % 2 ^ (d + 1) = x % 2 ^ d + (if x &&& 2 ^ d ≠ 0 then 2 ^ d else 0) := by
  rw [Nat.mod_pow_succ]
  by_cases h : x &&& 2 ^ d ≠ 0
  · rw [if_pos h, (and_two_pow_ne_zero_iff x d).mp h, Nat.mul_one]
  · rw [if_neg h]
    have h1 : ¬ x / 2 ^ d % 2 = 1 := fun e => h ((and_two_pow_ne_zero_iff x d).mpr e)
    have h2 : x / 2 ^ d % 2 = 0 := by omega
    rw [h2, Nat.mul_zero]

theorem mod_succ_eq_iff (x y d : Nat) :
    x % 2 ^ (d + 1) = y % 2 ^ (d + 1) ↔
      x % 2 ^ d = y % 2 ^ d ∧ (x &&& 2 ^ d ≠ 0 ↔ y &&& 2 ^ d ≠ 0) := by
  rw [mod_two_pow_succ x d, mod_two_pow_succ y d]
  have hp : 0 < 2 ^ d := Nat.two_pow_pos d
  have hx : x % 2 ^ d < 2 ^ d := Nat.mod_lt _ hp
  have hy : y % 2 ^ d < 2 ^ d := Nat.mod_lt _ hp
  by_cases h1 : x &&& 2 ^ d ≠ 0 <;> by_cases h2 : y &&& 2 ^ d ≠ 0
  · rw [if_pos h1, if_pos h2]
    exact ⟨fun e => ⟨by omega, fun _ => h2, fun _ => h1⟩, fun e => by omega⟩
  · rw [if_pos h1, if_neg h2]
    exact ⟨fun e => by omega, fun e => absurd (e.2.mp h1) h2⟩
  · rw [if_neg h1, if_pos h2]
    exact ⟨fun e => by omega, fun e => absurd (e.2.mpr h2) h1⟩
  · rw [if_neg h1, if_neg h2]
    exact ⟨fun e => ⟨by omega, fun e1 => absurd e1 h1, fun e2 => absurd e2 h2⟩,
      fun e => by omega⟩

theorem and_two_pow_mod (x d g : Nat) (h : d < g) :
    (x % 2 ^ g) &&& 2 ^ d ≠ 0 ↔ x &&& 2 ^ d ≠ 0 := by
  rw [Nat.and_two_pow, Nat.and_two_pow, Nat.testBit_mod_two_pow]
  simp [h]

theorem mod_mod_two_pow (x d g : Nat) (h : d ≤ g) : x % 2 ^ g % 2 ^ d = x % 2 ^ d :=
  Nat.mod_mod_of_dvd x (Nat.pow_dvd_pow 2 h)

/-! ## Lemmas on the parts of `Insert` -/

variable {K V : Type} [DecidableEq K]

theorem getIdx_eq (HashKey : K → Nat) (s : ExtendibleHash K V) (key : K)
    (h : s.globalDepth ≤ 30) : getIdx HashKey s key = some (HashKey key % 2 ^ s.globalDepth) := by
  have h1 : s.globalDepth < 31 := by omega
  simp [getIdx, shl1, h1]

theorem getIdx_some (HashKey : K → Nat) (s : ExtendibleHash K V) (key : K) (idx : Nat)
    (h : getIdx HashKey s key = some idx) :
    s.globalDepth ≤ 30 ∧ idx = HashKey key % 2 ^ s.globalDepth := by
  by_cases h1 : s.globalDepth < 31
  · simp [getIdx, shl1, h1] at h
    exact ⟨by omega, h.symm⟩
  · simp [getIdx, shl1, h1] at h

theorem rehash_cons_pos (HashKey : K → Nat) (mask : Nat) (k : K) (v : V)
    (rest moved : List (K × V)) (hb : HashKey k &&& mask ≠ 0) :
    rehash HashKey mask ((k, v) :: rest) moved =
      rehash HashKey mask rest (StdMap.assign moved k v) := by
  simp [rehash, hb]

theorem rehash_cons_neg (HashKey : K → Nat) (mask : Nat) (k : K) (v : V)
    (rest moved : List (K × V)) (hb : ¬ HashKey k &&& mask ≠ 0) :
    rehash HashKey mask ((k, v) :: rest) moved =
      ((k, v) :: (rehash HashKey mask rest moved).1, (rehash HashKey mask rest moved).2) := by
  simp only [ne_eq, not_not] at hb
  simp [rehash, hb]

theorem rehash_kept_find (HashKey : K → Nat) (mask : Nat) (m moved : List (K × V)) (k : K) :
    StdMap.find (rehash HashKey mask m moved).1 k =
      if HashKey k &&& mask ≠ 0 then none else StdMap.find m k := by
  induction m generalizing moved with
  | nil => simp [rehash, StdMap.find]
  | cons e rest ih =>
    obtain ⟨k1, v1⟩ := e
    by_cases hb : HashKey k1 &&& mask ≠ 0
    · rw [rehash_cons_pos _ _ _ _ _ _ hb, ih]
      by_cases hk : k1 = k
      · subst hk
        rw [if_pos hb, if_pos hb]
      · simp only [StdMap.find, hk, if_false]
    · rw [rehash_cons_neg _ _ _ _ _ _ hb]
      by_cases hk : k1 = k
      · subst hk
        simp only [StdMap.find, if_true, if_neg hb]
      · simp only [StdMap.find, hk, if_false, ih]

theorem rehash_moved_find (HashKey : K → Nat) (mask : Nat) (m moved : List (K × V)) (k : K)
    (hn : (m.map Prod.fst).Nodup) :
    StdMap.find (rehash HashKey mask m moved).2 k =
      if HashKey k &&& mask ≠ 0 ∧ k ∈ m.map Prod.fst then StdMap.find m k
      else StdMap.find moved k := by
  induction m generalizing moved with
  | nil => simp [rehash]
  | cons e rest ih =>
    obtain ⟨k1, v1⟩ := e
    simp only [List.map_cons, List.nodup_cons] at hn
    by_cases hb : HashKey k1 &&& mask ≠ 0
    · rw [rehash_cons_pos _ _ _ _ _ _ hb, ih _ hn.2, StdMap.find_assign]
      by_cases hk : k1 = k
      · subst hk
        have h1 : ¬ (HashKey k1 &&& mask ≠ 0 ∧ k1 ∈ rest.map Prod.fst) := fun e => hn.1 e.2
        have h2 : HashKey k1 &&& mask ≠ 0 ∧ k1 ∈ ((k1, v1) :: rest).map Prod.fst :=
          ⟨hb, by simp⟩
        rw [if_neg h1, if_pos h2]
        simp [StdMap.find]
      · have hk1 : ¬ k = k1 := fun e => hk e.symm
        simp only [StdMap.find, hk, if_false, List.map_cons, List.mem_cons, hk1, false_or]
    · rw [rehash_cons_neg _ _ _ _ _ _ hb, ih _ hn.2]
      by_cases hk : k1 = k
      · subst hk
        have h1 : ¬ (HashKey k1 &&& mask ≠ 0 ∧ k1 ∈ rest.map Prod.fst) := fun e => hb e.1
        have h2 : ¬ (HashKey k1 &&& mask ≠ 0 ∧ k1 ∈ ((k1, v1) :: rest).map Prod.fst) :=
          fun e => hb e.1
        rw [if_neg h1, if_neg h2]
      · have hk1 : ¬ k = k1 := fun e => hk e.symm
        simp only [StdMap.find, hk, if_false, List.map_cons, List.mem_cons, hk1, false_or]

theorem rehash_kept_sublist (HashKey : K → Nat) (mask : Nat) (m moved : List (K × V)) :
    (rehash HashKey mask m moved).1.Sublist m := by
  induction m generalizing moved with
  | nil => simp [rehash]
  | cons e rest ih =>
    obtain ⟨k1, v1⟩ := e
    by_cases hb : HashKey k1 &&& mask ≠ 0
    · rw [rehash_cons_pos _ _ _ _ _ _ hb]
      exact List.Sublist.cons _ (ih _)
    · rw [rehash_cons_neg _ _ _ _ _ _ hb]
      exact List.Sublist.cons₂ _ (ih _)

theorem rehash_moved_nodup (HashKey : K → Nat) (mask : Nat) (m moved : List (K × V))
    (hn : (moved.map Prod.fst).Nodup) :
    ((rehash HashKey mask m moved).2.map Prod.fst).Nodup := by
  induction m generalizing moved with
  | nil => simpa [rehash] using hn
  | cons e rest ih =>
    obtain ⟨k1, v1⟩ := e
    by_cases hb : HashKey k1 &&& mask ≠ 0
    · rw [rehash_cons_pos _ _ _ _ _ _ hb]
      exact ih _ (StdMap.keys_nodup_assign _ _ _ hn)
    · rw [rehash_cons_neg _ _ _ _ _ _ hb]
      exact ih _ hn

theorem mem_keys_iff (m : List (K × V)) (k : K) :
    k ∈ m.map Prod.fst ↔ StdMap.find m k ≠ none := by
  rw [ne_eq, StdMap.find_eq_none_iff, not_not]

theorem rehash_kept_keys (HashKey : K → Nat) (mask : Nat) (m : List (K × V)) (k : K) :
    k ∈ (rehash HashKey mask m []).1.map Prod.fst ↔
      k ∈ m.map Prod.fst ∧ ¬ HashKey k &&& mask ≠ 0 := by
  rw [mem_keys_iff, mem_keys_iff, rehash_kept_find]
  by_cases hb : HashKey k &&& mask ≠ 0
  · rw [if_pos hb]
    exact ⟨fun e => absurd rfl e, fun e => absurd hb e.2⟩
  · rw [if_neg hb]
    exact ⟨fun e => ⟨e, hb⟩, fun e => e.1⟩

theorem rehash_moved_keys (HashKey : K → Nat) (mask : Nat) (m : List (K × V)) (k : K)
    (hn : (m.map Prod.fst).Nodup) :
    k ∈ (rehash HashKey mask m []).2.map Prod.fst ↔
      k ∈ m.map Prod.fst ∧ HashKey k &&& mask ≠ 0 := by
  rw [mem_keys_iff, rehash_moved_find _ _ _ _ _ hn]
  by_cases hc : HashKey k &&& mask ≠ 0 ∧ k ∈ m.map Prod.fst
  · rw [if_pos hc]
    exact ⟨fun _ => ⟨hc.2, hc.1⟩, fun _ => (mem_keys_iff m k).mp hc.2⟩
  · rw [if_neg hc]
    exact ⟨fun e => absurd rfl e, fun e => absurd ⟨e.2, e.1⟩ hc⟩

theorem repoint_getElem? (cur newBuc mask : Nat) (i0 : Nat) (l : List Nat) (j : Nat) :
    (repoint cur newBuc mask i0 l)[j]? =
      (l[j]?).map (fun d => if d = cur ∧ (i0 + j) &&& mask ≠ 0 then newBuc else d) := by
  induction l generalizing i0 j with
  | nil => simp [repoint]
  | cons d rest ih =>
    cases j with
    | zero => simp [repoint]
    | succ j =>
      simp only [repoint, List.getElem?_cons_succ, ih]
      have : i0 + 1 + j = i0 + (j + 1) := by omega
      rw [this]

theorem repoint_length (cur newBuc mask : Nat) (i0 : Nat) (l : List Nat) :
    (repoint cur newBuc mask i0 l).length = l.length := by
  induction l generalizing i0 with
  | nil => rfl
  | cons d rest ih => simp [repoint, ih]

/-! ## The invariant of the hash table -/

theorem inv_new (HashKey : K → Nat) (size : Nat) :
    Inv HashKey (new size : ExtendibleHash K V) := by
  refine ⟨rfl, fun i hi => ?_⟩
  simp only [new, pow_zero, Nat.lt_one_iff] at hi
  subst hi
  refine ⟨0, Bucket.mk [] 0, rfl, rfl, Nat.le_refl _, fun j hj => ?_, ?_, ?_⟩
  · simp only [new, pow_zero, Nat.lt_one_iff] at hj
    subst hj
    simp [new]
  · intro k hk
    simp at hk
  · simp

/-- A lookup in a table that satisfies the invariant reads the map of the bucket at
slot `HashKey k % 2 ^ globalDepth`. -/
theorem Inv.Find_eq {HashKey : K → Nat} {s : ExtendibleHash K V} (h : Inv HashKey s)
    (hg : s.globalDepth ≤ 30) (k : K) :
    ∃ a b, s.directories[HashKey k % 2 ^ s.globalDepth]? = some a ∧ s.store[a]? = some b ∧
      Find HashKey s k = some (StdMap.find b.kmap k) := by
  obtain ⟨a, b, hd, hs, _⟩ := h.slot (HashKey k % 2 ^ s.globalDepth)
    (Nat.mod_lt _ (Nat.two_pow_pos _))
  refine ⟨a, b, hd, hs, ?_⟩
  simp [Find, getIdx_eq HashKey s k hg, hd, hs]

/-- Replacing the map of one bucket keeps the invariant when the new map holds each key
once and every key of it is an old key of the bucket or hashes to the bucket. -/
theorem Inv.set_kmap {HashKey : K → Nat} {s : ExtendibleHash K V} (h : Inv HashKey s)
    {cur : Nat} {b : Bucket K V} (hb : s.store[cur]? = some b) (kmap1 : List (K × V))
    (hn : (kmap1.map Prod.fst).Nodup)
    (hk : ∀ k, k ∈ kmap1.map Prod.fst → k ∈ b.kmap.map Prod.fst ∨
      ∀ i, i < 2 ^ s.globalDepth → s.directories[i]? = some cur →
        HashKey k % 2 ^ b.localDepth = i % 2 ^ b.localDepth) :
    Inv HashKey { s with store := s.store.set cur (Bucket.mk kmap1 b.localDepth) } := by
  have hlt : cur < s.store.length := (List.getElem?_eq_some.mp hb).1
  refine ⟨h.dir_len, fun i hi => ?_⟩
  obtain ⟨a, b1, hd, hs, hle, hsh, hpl, hnd⟩ := h.slot i hi
  by_cases hac : a = cur
  · subst hac
    rw [hb] at hs
    cases hs
    refine ⟨a, Bucket.mk kmap1 b.localDepth, hd, ?_, hle, hsh, ?_, hn⟩
    · simp [List.getElem?_set, hlt]
    · intro k hkm
      rcases hk k hkm with hold | hnew
      · exact hpl k hold
      · exact hnew i hi hd
  · refine ⟨a, b1, hd, ?_, hle, hsh, hpl, hnd⟩
    have : ¬ cur = a := fun e => hac e.symm
    simp [List.getElem?_set, this, hs]

/-- The lookups after the map of the bucket of `key` has been replaced, in terms of the
lookups in the old and in the new map. -/
theorem Inv.Find_set_kmap {HashKey : K → Nat} {s : ExtendibleHash K V} (h : Inv HashKey s)
    (hg : s.globalDepth ≤ 30) {cur : Nat} {b : Bucket K V} (key : K)
    (hd : s.directories[HashKey key % 2 ^ s.globalDepth]? = some cur)
    (hb : s.store[cur]? = some b) (kmap1 : List (K × V))
    (hf : ∀ k, k ≠ key → StdMap.find kmap1 k = StdMap.find b.kmap k) (k : K) :
    Find HashKey { s with store := s.store.set cur (Bucket.mk kmap1 b.localDepth) } k =
      if k = key then some (StdMap.find kmap1 key) else Find HashKey s k := by
  have hlt : cur < s.store.length := (List.getElem?_eq_some.mp hb).1
  obtain ⟨a, b1, hd1, hs1, hF⟩ := h.Find_eq hg k
  rw [hF]
  by_cases hk : k = key
  · subst hk
    rw [hd] at hd1
    cases hd1
    simp [Find, getIdx, shl1, Nat.lt_succ_of_le hg, hd, List.getElem?_set, hlt]
  · rw [if_neg hk]
    by_cases hac : a = cur
    · subst hac
      rw [hb] at hs1
      cases hs1
      simp [Find, getIdx, shl1, Nat.lt_succ_of_le hg, hd1, List.getElem?_set, hlt, hf k hk]
    · have : ¬ cur = a := fun e => hac e.symm
      simp [Find, getIdx, shl1, Nat.lt_succ_of_le hg, hd1, List.getElem?_set, this, hs1]

end ExtendibleHash

namespace ExtendibleHash

variable {K V : Type} [DecidableEq K]

theorem doubled_getElem? (dirs : List Nat) (g d j : Nat) (hlen : dirs.length = 2 ^ g)
    (hj : j < 2 ^ (if d + 1 > g then g + 1 else g)) :
    (if d + 1 > g then dirs ++ dirs else dirs)[j]? = dirs[j % 2 ^ g]? := by
  by_cases hd : d + 1 > g
  · rw [if_pos hd] at hj ⊢
    rw [Nat.pow_succ] at hj
    by_cases hlt : j < 2 ^ g
    · rw [List.getElem?_append_left (by omega), Nat.mod_eq_of_lt hlt]
    · rw [List.getElem?_append_right (by omega), hlen, Nat.mod_eq_sub_mod (by omega),
        Nat.mod_eq_of_lt (by omega)]
  · rw [if_neg hd] at hj ⊢
    rw [Nat.mod_eq_of_lt hj]

theorem doubled_length (dirs : List Nat) (g d : Nat) (hlen : dirs.length = 2 ^ g) :
    (if d + 1 > g then dirs ++ dirs else dirs).length = 2 ^ (if d + 1 > g then g + 1 else g) := by
  by_cases hd : d + 1 > g
  · rw [if_pos hd, if_pos hd, List.length_append, hlen, Nat.pow_succ]
    omega
  · rw [if_neg hd, if_neg hd, hlen]

theorem split_fields {HashKey : K → Nat} {s s1 : ExtendibleHash K V} {cur : Nat}
    (h : split HashKey s cur = some s1) :
    ∃ b, s.store[cur]? = some b ∧ b.localDepth < 31 ∧
      s1.globalDepth =
        (if b.localDepth + 1 > s.globalDepth then s.globalDepth + 1 else s.globalDepth) ∧
      s1.directories = repoint cur s.store.length (2 ^ b.localDepth) 0
        (if b.localDepth + 1 > s.globalDepth then s.directories ++ s.directories
         else s.directories) ∧
      s1.store = s.store.set cur
          (Bucket.mk (rehash HashKey (2 ^ b.localDepth) b.kmap []).1 (b.localDepth + 1)) ++
        [Bucket.mk (rehash HashKey (2 ^ b.localDepth) b.kmap []).2 (b.localDepth + 1)] ∧
      s1.bucketSize = s.bucketSize ∧ s1.bucketNum = s.bucketNum + 1 := by
  cases hb : s.store[cur]? with
  | none => simp [split, hb] at h
  | some b =>
    by_cases hd : b.localDepth < 31
    · simp only [split, hb, shl1, hd, if_true, Option.bind_eq_bind, Option.some_bind,
        Option.some.injEq] at h
      subst h
      exact ⟨b, rfl, hd, rfl, rfl, rfl, rfl, rfl⟩
    · simp [split, hb, shl1, hd] at h

/-- The facts about the directory and the store after a split step that the proofs of
the invariant and of the lookups share. -/
theorem split_frame {HashKey : K → Nat} {s s1 : ExtendibleHash K V} {cur i0 : Nat}
    {b : Bucket K V} (h : Inv HashKey s) (hi0 : i0 < 2 ^ s.globalDepth)
    (hd0 : s.directories[i0]? = some cur) (hb : s.store[cur]? = some b)
    (hg : s1.globalDepth =
      (if b.localDepth + 1 > s.globalDepth then s.globalDepth + 1 else s.globalDepth))
    (hdir : s1.directories = repoint cur s.store.length (2 ^ b.localDepth) 0
      (if b.localDepth + 1 > s.globalDepth then s.directories ++ s.directories
       else s.directories))
    (hst : s1.store = s.store.set cur
        (Bucket.mk (rehash HashKey (2 ^ b.localDepth) b.kmap []).1 (b.localDepth + 1)) ++
      [Bucket.mk (rehash HashKey (2 ^ b.localDepth) b.kmap []).2 (b.localDepth + 1)]) :
    (s.globalDepth ≤ s1.globalDepth ∧ b.localDepth + 1 ≤ s1.globalDepth ∧
      b.localDepth ≤ s.globalDepth) ∧
    cur < s.store.length ∧
    (∀ j, j < 2 ^ s1.globalDepth → ∀ a, s.directories[j % 2 ^ s.globalDepth]? = some a →
      s1.directories[j]? =
        some (if a = cur ∧ j &&& 2 ^ b.localDepth ≠ 0 then s.store.length else a)) ∧
    s1.store[cur]? = some
      (Bucket.mk (rehash HashKey (2 ^ b.localDepth) b.kmap []).1 (b.localDepth + 1)) ∧
    s1.store[s.store.length]? = some
      (Bucket.mk (rehash HashKey (2 ^ b.localDepth) b.kmap []).2 (b.localDepth + 1)) ∧
    (∀ a x, a ≠ cur → s.store[a]? = some x → s1.store[a]? = some x) ∧
    (∀ j, s.directories[j % 2 ^ s.globalDepth]? = some cur ↔
      j % 2 ^ b.localDepth = i0 % 2 ^ b.localDepth) := by
  obtain ⟨a0, b0, hda, hsa, hle0, hsh0, hpl0, hnd0⟩ := h.slot i0 hi0
  rw [hd0] at hda
  cases hda
  rw [hb] at hsa
  cases hsa
  have hcur : cur < s.store.length := (List.getElem?_eq_some.mp hb).1
  refine ⟨?_, hcur, ?_, ?_, ?_, ?_, ?_⟩
  · rw [hg]
    split <;> omega
  · intro j hj a hja
    rw [hdir, repoint_getElem?, doubled_getElem? _ _ _ _ h.dir_len (by rw [← hg]; exact hj),
      hja]
    simp
  · rw [hst, List.getElem?_append_left (by simpa using hcur)]
    simp [List.getElem?_set, hcur]
  · rw [hst, List.getElem?_append_right (by simp)]
    simp
  · intro a x hne hx
    have hlt : a < s.store.length := (List.getElem?_eq_some.mp hx).1
    have : ¬ cur = a := fun e => hne e.symm
    rw [hst, List.getElem?_append_left (by simpa using hlt)]
    simp [List.getElem?_set, this, hx]
  · intro j
    rw [hsh0 (j % 2 ^ s.globalDepth) (Nat.mod_lt _ (Nat.two_pow_pos _)),
      mod_mod_two_pow _ _ _ hle0]

/-- A split step of a bucket that the directory references keeps the invariant. -/
theorem Inv.split_step {HashKey : K → Nat} {s s1 : ExtendibleHash K V} {cur i0 : Nat}
    (h : Inv HashKey s) (hi0 : i0 < 2 ^ s.globalDepth)
    (hd0 : s.directories[i0]? = some cur) (hsp : split HashKey s cur = some s1) :
    Inv HashKey s1 := by
  obtain ⟨b, hb, _, hg, hdir, hst, _, _⟩ := split_fields hsp
  obtain ⟨⟨hg1, hg2, hg3⟩, hcur, hD, hS1, hS2, hS3, hC⟩ :=
    split_frame h hi0 hd0 hb hg hdir hst
  obtain ⟨a0, b0, hda, hsa, hle0, hsh0, hpl0, hnd0⟩ := h.slot i0 hi0
  rw [hd0] at hda
  cases hda
  rw [hb] at hsa
  cases hsa
  have hlen : s1.directories.length = 2 ^ s1.globalDepth := by
    rw [hdir, repoint_length, doubled_length _ _ _ h.dir_len, hg]
  refine ⟨hlen, fun i hi => ?_⟩
  have hi1 : i % 2 ^ s.globalDepth < 2 ^ s.globalDepth := Nat.mod_lt _ (Nat.two_pow_pos _)
  obtain ⟨a, ba, hda, hsa, hlea, hsha, hpla, hnda⟩ := h.slot _ hi1
  have halt : a < s.store.length := (List.getElem?_eq_some.mp hsa).1
  by_cases hac : a = cur
  · subst hac
    rw [hb] at hsa
    cases hsa
    have hci : i % 2 ^ b.localDepth = i0 % 2 ^ b.localDepth := (hC i).mp hda
    by_cases hbit : i &&& 2 ^ b.localDepth ≠ 0
    · refine ⟨s.store.length, _, ?_, hS2, hg2, fun j hj => ?_, fun k hk => ?_, ?_⟩
      · rw [hD i hi a hda, if_pos ⟨rfl, hbit⟩]
      · have hj1 : j % 2 ^ s.globalDepth < 2 ^ s.globalDepth :=
          Nat.mod_lt _ (Nat.two_pow_pos _)
        obtain ⟨aj, bj, hdj, hsj, _⟩ := h.slot _ hj1
        have hajlt : aj < s.store.length := (List.getElem?_eq_some.mp hsj).1
        have hcj := hC j
        rw [hdj] at hcj
        rw [hD j hj aj hdj, mod_succ_eq_iff]
        simp only [Option.some.injEq] at hcj ⊢
        by_cases hajc : aj = a
        · by_cases hbj : j &&& 2 ^ b.localDepth ≠ 0
          · rw [if_pos ⟨hajc, hbj⟩]
            exact ⟨fun _ => ⟨by rw [hcj.mp hajc, hci], fun _ => hbit, fun _ => hbj⟩,
              fun _ => rfl⟩
          · rw [if_neg (fun e => hbj e.2)]
            exact ⟨fun e => absurd e (by omega), fun e => absurd (e.2.mpr hbit) hbj⟩
        · rw [if_neg (fun e => hajc e.1)]
          exact ⟨fun e => absurd e (by omega),
            fun e => absurd (hcj.mpr (by rw [e.1, hci])) hajc⟩
      · simp only at hk ⊢
        rw [rehash_moved_keys _ _ _ _ hnd0] at hk
        rw [mod_succ_eq_iff]
        exact ⟨by rw [hpl0 k hk.1, hci], fun _ => hbit, fun _ => hk.2⟩
      · exact rehash_moved_nodup _ _ _ _ (by simp)
    · refine ⟨a, _, ?_, hS1, hg2, fun j hj => ?_, fun k hk => ?_, ?_⟩
      · rw [hD i hi a hda, if_neg (fun e => hbit e.2)]
      · have hj1 : j % 2 ^ s.globalDepth < 2 ^ s.globalDepth :=
          Nat.mod_lt _ (Nat.two_pow_pos _)
        obtain ⟨aj, bj, hdj, hsj, _⟩ := h.slot _ hj1
        have hajlt : aj < s.store.length := (List.getElem?_eq_some.mp hsj).1
        have hcj := hC j
        rw [hdj] at hcj
        rw [hD j hj aj hdj, mod_succ_eq_iff]
        simp only [Option.some.injEq] at hcj ⊢
        by_cases hajc : aj = a
        · by_cases hbj : j &&& 2 ^ b.localDepth ≠ 0
          · rw [if_pos ⟨hajc, hbj⟩]
            exact ⟨fun e => absurd e (by omega), fun e => absurd (e.2.mp hbj) hbit⟩
          · rw [if_neg (fun e => hbj e.2)]
            exact ⟨fun _ => ⟨by rw [hcj.mp hajc, hci], fun e => absurd e hbj,
              fun e => absurd e hbit⟩, fun _ => hajc⟩
        · rw [if_neg (fun e => hajc e.1)]
          exact ⟨fun e => absurd e hajc,
            fun e => absurd (hcj.mpr (by rw [e.1, hci])) hajc⟩
      · simp only at hk ⊢
        rw [rehash_kept_keys] at hk
        rw [mod_succ_eq_iff]
        exact ⟨by rw [hpl0 k hk.1, hci], fun e => absurd e hk.2, fun e => absurd e hbit⟩
      · exact List.Nodup.sublist ((rehash_kept_sublist _ _ _ _).map Prod.fst) hnd0
  · refine ⟨a, ba, ?_, hS3 a ba hac hsa, Nat.le_trans hlea hg1, fun j hj => ?_,
      fun k hk => ?_, hnda⟩
    · rw [hD i hi a hda, if_neg (fun e => hac e.1)]
    · have hj1 : j % 2 ^ s.globalDepth < 2 ^ s.globalDepth :=
        Nat.mod_lt _ (Nat.two_pow_pos _)
      obtain ⟨aj, bj, hdj, hsj, _⟩ := h.slot _ hj1
      have hajlt : aj < s.store.length := (List.getElem?_eq_some.mp hsj).1
      have hsj1 := hsha _ hj1
      rw [hdj, mod_mod_two_pow _ _ _ hlea, mod_mod_two_pow _ _ _ hlea] at hsj1
      rw [hD j hj aj hdj, ← hsj1]
      simp only [Option.some.injEq]
      by_cases hajc : aj = cur ∧ j &&& 2 ^ b.localDepth ≠ 0
      · rw [if_pos hajc]
        exact ⟨fun e => absurd e (by omega), fun e => absurd (hajc.1 ▸ e.symm) hac⟩
      · rw [if_neg hajc]
    · rw [hpla k hk, mod_mod_two_pow _ _ _ hlea]

/-- A split step changes no lookup result. -/
theorem Inv.split_Find {HashKey : K → Nat} {s s1 : ExtendibleHash K V} {cur i0 : Nat}
    (h : Inv HashKey s) (hi0 : i0 < 2 ^ s.globalDepth)
    (hd0 : s.directories[i0]? = some cur) (hsp : split HashKey s cur = some s1)
    (hg30 : s1.globalDepth ≤ 30) (k : K) :
    Find HashKey s1 k = Find HashKey s k := by
  obtain ⟨b, hb, _, hg, hdir, hst, _, _⟩ := split_fields hsp
  obtain ⟨⟨hg1, hg2, hg3⟩, hcur, hD, hS1, hS2, hS3, hC⟩ :=
    split_frame h hi0 hd0 hb hg hdir hst
  obtain ⟨a0, b0, hda, hsa, hle0, hsh0, hpl0, hnd0⟩ := h.slot i0 hi0
  rw [hd0] at hda
  cases hda
  rw [hb] at hsa
  cases hsa
  obtain ⟨a, ba, hda, hsa, hF⟩ := h.Find_eq (Nat.le_trans hg1 hg30) k
  rw [hF]
  have hlt1 : HashKey k % 2 ^ s1.globalDepth < 2 ^ s1.globalDepth :=
    Nat.mod_lt _ (Nat.two_pow_pos _)
  have hda1 := hD _ hlt1 a (by rw [mod_mod_two_pow _ _ _ hg1]; exact hda)
  have hbit := and_two_pow_mod (HashKey k) b.localDepth s1.globalDepth (by omega)
  by_cases hac : a = cur
  · subst hac
    rw [hb] at hsa
    cases hsa
    by_cases hbk : HashKey k &&& 2 ^ b.localDepth ≠ 0
    · rw [if_pos ⟨rfl, hbit.mpr hbk⟩] at hda1
      simp only [Find, getIdx_eq HashKey s1 k hg30, Option.bind_eq_bind, Option.some_bind,
        hda1, hS2, rehash_moved_find _ _ _ _ _ hnd0]
      by_cases hm : k ∈ b.kmap.map Prod.fst
      · rw [if_pos ⟨hbk, hm⟩]
      · rw [if_neg (fun e => hm e.2), (StdMap.find_eq_none_iff _ _).mpr hm]
        rfl
    · rw [if_neg (fun e => hbk (hbit.mp e.2))] at hda1
      simp only [Find, getIdx_eq HashKey s1 k hg30, Option.bind_eq_bind, Option.some_bind,
        hda1, hS1, rehash_kept_find, if_neg hbk]
  · rw [if_neg (fun e => hac e.1)] at hda1
    simp only [Find, getIdx_eq HashKey s1 k hg30, Option.bind_eq_bind, Option.some_bind,
      hda1, hS3 a ba hac hsa]

/-- The `while` loop of `Insert`, entered at the bucket of `key`: when it returns, the
new table satisfies the invariant, `key` is found with `value` and every other lookup
is as before. -/
theorem Inv.insertLoop_spec {HashKey : K → Nat} (key : K) (value : V) (fuel : Nat) :
    ∀ {s s1 : ExtendibleHash K V} {cur : Nat}, Inv HashKey s → s.globalDepth ≤ 30 →
      s.directories[HashKey key % 2 ^ s.globalDepth]? = some cur →
      insertLoop HashKey key value fuel s cur = some s1 →
      Inv HashKey s1 ∧ s1.globalDepth ≤ 30 ∧ s1.bucketSize = s.bucketSize ∧
        ∀ k, Find HashKey s1 k = if k = key then some (some value) else Find HashKey s k := by
  induction fuel with
  | zero =>
    intro s s1 cur _ _ _ hl
    simp [ExtendibleHash.insertLoop] at hl
  | succ fuel ih =>
    intro s s1 cur h hg hd hl
    have hi0 : HashKey key % 2 ^ s.globalDepth < 2 ^ s.globalDepth :=
      Nat.mod_lt _ (Nat.two_pow_pos _)
    obtain ⟨a, b, hda, hb, hle, hsh, hpl, hnd⟩ := h.slot _ hi0
    rw [hd] at hda
    cases hda
    simp only [ExtendibleHash.insertLoop, hb, Option.bind_eq_bind, Option.some_bind] at hl
    split at hl
    · simp only [Option.some.injEq] at hl
      subst hl
      refine ⟨?_, hg, rfl, fun k => ?_⟩
      · refine h.set_kmap hb _ (StdMap.keys_nodup_assign _ _ _ hnd) (fun k hk => ?_)
        rw [StdMap.keys_assign] at hk
        split at hk
        · exact Or.inl hk
        · simp only [List.mem_append, List.mem_singleton] at hk
          rcases hk with hk | rfl
          · exact Or.inl hk
          · refine Or.inr (fun i hi hdi => ?_)
            have := (hsh i hi).mp hdi
            rw [mod_mod_two_pow _ _ _ hle] at this
            exact this.symm
      · rw [h.Find_set_kmap hg key hd hb _ (fun k1 hk1 => ?_) k, StdMap.find_assign]
        · simp
        · rw [StdMap.find_assign, if_neg (fun e => hk1 e.symm)]
    · cases hsp : ExtendibleHash.split HashKey s cur with
      | none => simp [hsp] at hl
      | some s2 =>
        simp only [hsp, Option.some_bind] at hl
        cases hidx : getIdx HashKey s2 key with
        | none => simp [hidx] at hl
        | some idx =>
          simp only [hidx, Option.some_bind] at hl
          obtain ⟨hg2, hidx2⟩ := getIdx_some _ _ _ _ hidx
          subst hidx2
          cases hc1 : s2.directories[HashKey key % 2 ^ s2.globalDepth]? with
          | none => simp [hc1] at hl
          | some cur1 =>
            simp only [hc1, Option.some_bind] at hl
            have h2 := h.split_step hi0 hd hsp
            obtain ⟨h3, hg3, hbs, hF⟩ := ih h2 hg2 hc1 hl
            obtain ⟨_, _, _, _, _, _, hbs2, _⟩ := split_fields hsp
            refine ⟨h3, hg3, by rw [hbs, hbs2], fun k => ?_⟩
            rw [hF k, h.split_Find hi0 hd hsp hg2 k]

/-- `Insert` on a table that satisfies the invariant: when it returns, the new table
satisfies the invariant, `key` is found with `value` and every other lookup is as
before. -/
theorem Inv.Insert_spec {HashKey : K → Nat} {s s1 : ExtendibleHash K V} {fuel : Nat}
    {key : K} {value : V} (h : Inv HashKey s)
    (hi : Insert HashKey fuel s key value = some s1) :
    Inv HashKey s1 ∧ s1.globalDepth ≤ 30 ∧ s1.bucketSize = s.bucketSize ∧
      ∀ k, Find HashKey s1 k = if k = key then some (some value) else Find HashKey s k := by
  cases hidx : getIdx HashKey s key with
  | none => simp [Insert, hidx] at hi
  | some idx =>
    obtain ⟨hg, hidx2⟩ := getIdx_some _ _ _ _ hidx
    subst hidx2
    obtain ⟨a, b, hda, _⟩ := h.slot (HashKey key % 2 ^ s.globalDepth)
      (Nat.mod_lt _ (Nat.two_pow_pos _))
    simp only [Insert, hidx, hda, Option.bind_eq_bind, Option.some_bind] at hi
    exact h.insertLoop_spec key value fuel hg hda hi

/-- `Remove` on a table that satisfies the invariant. -/
theorem Inv.Remove_spec {HashKey : K → Nat} {s : ExtendibleHash K V} (h : Inv HashKey s)
    (hg : s.globalDepth ≤ 30) (key : K) :
    ∃ r s1, Remove HashKey s key = some (r, s1) ∧ Inv HashKey s1 ∧
      (r = true ↔ ∃ v, Find HashKey s key = some (some v)) ∧
      Find HashKey s1 key = some none ∧
      (∀ k, k ≠ key → Find HashKey s1 k = Find HashKey s k) ∧
      s1.globalDepth = s.globalDepth ∧ s1.directories = s.directories ∧
      s1.bucketNum = s.bucketNum ∧ s1.bucketSize = s.bucketSize ∧
      s1.store.length = s.store.length ∧
      (∀ a : Nat, (s1.store[a]?).map Bucket.localDepth =
        (s.store[a]?).map Bucket.localDepth) := by
  obtain ⟨a, b, hda, hb, hF⟩ := h.Find_eq hg key
  have hlt : a < s.store.length := (List.getElem?_eq_some.mp hb).1
  obtain ⟨a1, b1, hda1, hb1, _, _, _, hnd⟩ := h.slot (HashKey key % 2 ^ s.globalDepth)
    (Nat.mod_lt _ (Nat.two_pow_pos _))
  rw [hda] at hda1
  cases hda1
  rw [hb] at hb1
  cases hb1
  cases hf : StdMap.find b.kmap key with
  | none =>
    refine ⟨false, s, ?_, h, ?_, ?_, fun _ _ => rfl, rfl, rfl, rfl, rfl, rfl, fun _ => rfl⟩
    · simp [Remove, getIdx_eq HashKey s key hg, hda, hb, hf]
    · rw [hF, hf]
      simp
    · rw [hF, hf]
  | some v =>
    refine ⟨true,
      { s with store := s.store.set a (Bucket.mk (StdMap.erase b.kmap key) b.localDepth) },
      ?_, ?_, ?_, ?_, ?_, rfl, rfl, rfl, rfl, ?_, ?_⟩
    · simp [Remove, getIdx_eq HashKey s key hg, hda, hb, hf]
    · exact h.set_kmap hb _ (StdMap.keys_nodup_erase _ _ hnd)
        (fun k hk => Or.inl (List.Sublist.subset ((StdMap.erase_sublist _ _).map Prod.fst) hk))
    · rw [hF, hf]
      simp
    · rw [h.Find_set_kmap hg key hda hb _ (fun k hk => ?_) key, if_pos rfl,
        StdMap.find_erase, if_pos rfl]
      rw [StdMap.find_erase, if_neg (fun e => hk e.symm)]
    · intro k hk
      rw [h.Find_set_kmap hg key hda hb _ (fun k1 hk1 => ?_) k, if_neg hk]
      rw [StdMap.find_erase, if_neg (fun e => hk1 e.symm)]
    · simp
    · intro a2
      by_cases ha : a = a2
      · subst ha
        simp [List.getElem?_set, hlt, hb]
      · simp [List.getElem?_set, ha]

/-- Every reachable table satisfies the invariant and has a global depth within the
range of the shifts. -/
theorem Reachable.inv {HashKey : K → Nat} {s : ExtendibleHash K V}
    (h : Reachable HashKey s) : Inv HashKey s ∧ s.globalDepth ≤ 30 := by
  induction h with
  | new size => exact ⟨inv_new HashKey size, Nat.zero_le _⟩
  | Insert s s1 fuel k v _ hi ih =>
    obtain ⟨h1, hg1, _⟩ := ih.1.Insert_spec hi
    exact ⟨h1, hg1⟩
  | Remove s s1 k b _ hr ih =>
    obtain ⟨r, s2, hr2, h2, _, _, _, hg2, _⟩ := ih.1.Remove_spec ih.2 k
    rw [hr] at hr2
    cases hr2
    exact ⟨h2, by rw [hg2]; exact ih.2⟩

end ExtendibleHash

/-! ## The contracts of `ExtendibleHash` (claims C7 to C10) -/

namespace ExtendibleHash

variable {K V : Type} [DecidableEq K]

theorem lastValue_of_not_mem (ops : List (K × V)) (k : K) (h : k ∉ ops.map Prod.fst) :
    lastValue ops k = none := by
  induction ops with
  | nil => rfl
  | cons e rest ih =>
    obtain ⟨k1, v1⟩ := e
    simp only [List.map_cons, List.mem_cons, not_or] at h
    have hk : ¬ k1 = k := fun e => h.1 e.symm
    simp [lastValue, ih h.2, hk]

theorem lastValue_of_last (l1 l2 : List (K × V)) (k : K) (v : V)
    (h : k ∉ l2.map Prod.fst) : lastValue (l1 ++ (k, v) :: l2) k = some v := by
  induction l1 with
  | nil => simp [lastValue, lastValue_of_not_mem l2 k h]
  | cons e rest ih =>
    obtain ⟨k1, v1⟩ := e
    simp [lastValue, ih]

theorem Find_new (HashKey : K → Nat) (size : Nat) (k : K) :
    Find HashKey (new size : ExtendibleHash K V) k = some none := by
  simp [Find, getIdx, shl1, new, StdMap.find]

/-- The lookups after a run of `Insert` calls that all return. -/
theorem Inv.run_spec {HashKey : K → Nat} {ops : List (K × V)} {s s1 : ExtendibleHash K V}
    (hr : Run HashKey s ops s1) (h : Inv HashKey s) :
    Inv HashKey s1 ∧ ∀ k, Find HashKey s1 k =
      match lastValue ops k with
      | some v => some (some v)
      | none => Find HashKey s k := by
  induction hr with
  | nil s => exact ⟨h, fun k => rfl⟩
  | cons s s2 s3 fuel k1 v1 rest h1 _ ih =>
    obtain ⟨h2, _, _, hF2⟩ := h.Insert_spec h1
    obtain ⟨h3, hF3⟩ := ih h2
    refine ⟨h3, fun k => ?_⟩
    rw [hF3 k, hF2 k]
    cases hl : lastValue rest k with
    | some v => simp [lastValue, hl]
    | none =>
      by_cases hk : k = k1
      · subst hk
        simp [lastValue, hl]
      · have : ¬ k1 = k := fun e => hk e.symm
        simp [lastValue, hl, hk, this]

theorem run_of_insertAll {HashKey : K → Nat} {fuel : Nat} (ops : List (K × V)) :
    ∀ {s s1 : ExtendibleHash K V},
      insertAll HashKey fuel s ops = some s1 → Run HashKey s ops s1 := by
  induction ops with
  | nil =>
    intro s s1 hi
    simp only [insertAll, Option.some.injEq] at hi
    subst hi
    exact Run.nil s
  | cons e rest ih =>
    intro s s1 hi
    obtain ⟨k1, v1⟩ := e
    cases h1 : Insert HashKey fuel s k1 v1 with
    | none => simp [insertAll, h1] at hi
    | some s2 =>
      simp only [insertAll, h1, Option.some_bind] at hi
      exact Run.cons s s2 s1 fuel k1 v1 rest h1 (ih hi)

theorem insertLoop_mono (HashKey : K → Nat) (key : K) (value : V) (fuel n : Nat) :
    ∀ (s s1 : ExtendibleHash K V) (cur : Nat),
      insertLoop HashKey key value fuel s cur = some s1 →
      insertLoop HashKey key value (fuel + n) s cur = some s1 := by
  induction fuel with
  | zero =>
    intro s s1 cur h
    simp [insertLoop] at h
  | succ fuel ih =>
    intro s s1 cur h
    rw [Nat.add_right_comm]
    cases hb : s.store[cur]? with
    | none => simp [insertLoop, hb] at h
    | some b =>
      simp only [insertLoop, hb, Option.bind_eq_bind, Option.some_bind] at h ⊢
      split
      · rename_i hc
        rw [if_pos hc] at h
        exact h
      · rename_i hc
        rw [if_neg hc] at h
        cases hsp : split HashKey s cur with
        | none => simp [hsp] at h
        | some s2 =>
          simp only [hsp, Option.some_bind] at h ⊢
          cases hidx : getIdx HashKey s2 key with
          | none => simp [hidx] at h
          | some idx =>
            simp only [hidx, Option.some_bind] at h ⊢
            cases hc1 : s2.directories[idx]? with
            | none => simp [hc1] at h
            | some cur1 =>
              simp only [hc1, Option.some_bind] at h ⊢
              exact ih _ _ _ h

/-- A call of `Insert` that returns with some bound on the passes of its loop returns
the same table with every larger bound. -/
theorem Insert_mono (HashKey : K → Nat) (fuel n : Nat) (s s1 : ExtendibleHash K V)
    (key : K) (value : V) (h : Insert HashKey fuel s key value = some s1) :
    Insert HashKey (fuel + n) s key value = some s1 := by
  cases hidx : getIdx HashKey s key with
  | none => simp [Insert, hidx] at h
  | some idx =>
    cases hc : s.directories[idx]? with
    | none => simp [Insert, hidx, hc] at h
    | some cur =>
      simp only [Insert, hidx, hc, Option.bind_eq_bind, Option.some_bind] at h ⊢
      exact insertLoop_mono _ _ _ _ _ _ _ _ h

theorem Reachable.of_insertAll {HashKey : K → Nat} {fuel : Nat} (ops : List (K × V)) :
    ∀ {s s1 : ExtendibleHash K V}, Reachable HashKey s →
      ExtendibleHash.insertAll HashKey fuel s ops = some s1 → Reachable HashKey s1 := by
  induction ops with
  | nil =>
    intro s s1 h hi
    simp only [ExtendibleHash.insertAll, Option.some.injEq] at hi
    subst hi
    exact h
  | cons e rest ih =>
    intro s s1 h hi
    obtain ⟨k1, v1⟩ := e
    cases h1 : ExtendibleHash.Insert HashKey fuel s k1 v1 with
    | none => simp [ExtendibleHash.insertAll, h1] at hi
    | some s2 =>
      simp only [ExtendibleHash.insertAll, h1, Option.some_bind] at hi
      exact ih (Reachable.Insert s s2 fuel k1 v1 h h1) hi

theorem sampleTable_insertAll :
    insertAll (fun k : Nat => k) 8 (new 2 : ExtendibleHash Nat Nat) sampleOps =
      some sampleTable := by
  decide

theorem sampleTable_reachable : Reachable (fun k : Nat => k) sampleTable :=
  Reachable.of_insertAll sampleOps (Reachable.new 2) sampleTable_insertAll

theorem Inv.GetLocalDepth_eq {HashKey : K → Nat} {s : ExtendibleHash K V}
    (h : Inv HashKey s) (i : Nat) (hi : i < s.directories.length) :
    ∃ a b, s.directories[i]? = some a ∧ s.store[a]? = some b ∧
      GetLocalDepth s i = some b.localDepth ∧ b.localDepth ≤ s.globalDepth ∧
      ∀ j, j < s.directories.length →
        (s.directories[j]? = some a ↔ j % 2 ^ b.localDepth = i % 2 ^ b.localDepth) := by
  rw [h.dir_len] at hi
  obtain ⟨a, b, hd, hs, hle, hsh, _⟩ := h.slot i hi
  refine ⟨a, b, hd, hs, by simp [GetLocalDepth, hd, hs], hle, fun j hj => ?_⟩
  rw [h.dir_len] at hj
  exact hsh j hj

/-- C7. Lookup correctness. For every bucket size, hash function and finite sequence
`ops` of `Insert` calls on a new table that all return, `Find(k)` afterwards yields the
value of the most recent `Insert(k, _)`: it returns `true` with the value `v` when the
last `Insert` of `k` in `ops` is `Insert(k, v)` (a duplicate key is overwritten, the
last writer wins), and returns `false` when `ops` has no `Insert` of `k`. A call whose
loop would shift `1` by 31 bits or more (see `shl1`) does not count as returning. -/
theorem Find_after_inserts (HashKey : K → Nat) (size : Nat) (ops : List (K × V))
    (s : ExtendibleHash K V) (h : Run HashKey (new size) ops s) (k : K) :
    Find HashKey s k = some (lastValue ops k) ∧
    (∀ l1 l2 v, ops = l1 ++ (k, v) :: l2 → k ∉ l2.map Prod.fst →
      Find HashKey s k = some (some v)) ∧
    (k ∉ ops.map Prod.fst → Find HashKey s k = some none) := by
  obtain ⟨_, hF⟩ := Inv.run_spec h (inv_new HashKey size)
  have hk : Find HashKey s k = some (lastValue ops k) := by
    rw [hF k, Find_new]
    cases lastValue ops k <;> rfl
  refine ⟨hk, fun l1 l2 v ho hn => ?_, fun hn => ?_⟩
  · rw [hk, ho, lastValue_of_last l1 l2 k v hn]
  · rw [hk, lastValue_of_not_mem ops k hn]

/-- The lookup of key 1 after the calls of `sampleOps`, the last of which for key 1 is
`Insert(1, 11)`. -/
theorem Find_after_inserts_witness :
    Run (fun k : Nat => k) (new 2) sampleOps sampleTable ∧
    Find (fun k : Nat => k) sampleTable 1 = some (lastValue sampleOps 1) ∧
    (∀ l1 l2 v, sampleOps = l1 ++ (1, v) :: l2 → 1 ∉ l2.map Prod.fst →
      Find (fun k : Nat => k) sampleTable 1 = some (some v)) ∧
    (1 ∉ sampleOps.map Prod.fst → Find (fun k : Nat => k) sampleTable 1 = some none) :=
  ⟨run_of_insertAll sampleOps sampleTable_insertAll,
    Find_after_inserts (fun k : Nat => k) 2 sampleOps sampleTable
      (run_of_insertAll sampleOps sampleTable_insertAll) 1⟩

/-- C8. `Remove(key)` on a reachable table returns normally, and it returns `true`
exactly when `Find(key)` succeeds on the table before the call. Afterwards `Find(key)`
fails, `Find` of every other key returns what it returned before, and the global depth,
the local depth of every slot and of every bucket, the directory and the bucket count
are unchanged. -/
theorem Remove_contract (HashKey : K → Nat) (s : ExtendibleHash K V)
    (h : Reachable HashKey s) (key : K) :
    ∃ r s1 f, Remove HashKey s key = some (r, s1) ∧ Find HashKey s key = some f ∧
      (r = true ↔ ∃ v, f = some v) ∧
      Find HashKey s1 key = some none ∧
      (∀ k, k ≠ key → Find HashKey s1 k = Find HashKey s k) ∧
      GetGlobalDepth s1 = GetGlobalDepth s ∧
      (∀ i, GetLocalDepth s1 i = GetLocalDepth s i) ∧
      (∀ a : Nat, (s1.store[a]?).map Bucket.localDepth =
        (s.store[a]?).map Bucket.localDepth) ∧
      s1.directories = s.directories ∧ GetNumBuckets s1 = GetNumBuckets s := by
  obtain ⟨hinv, hg⟩ := h.inv
  obtain ⟨r, s1, hr, _, hrt, hF1, hF2, hg1, hd1, hn1, _, _, hl1⟩ := hinv.Remove_spec hg key
  obtain ⟨a, b, _, _, hF⟩ := hinv.Find_eq hg key
  refine ⟨r, s1, _, hr, hF, ?_, hF1, hF2, hg1, fun i => ?_, hl1, hd1, hn1⟩
  · rw [hrt, hF]
    simp
  · simp only [GetLocalDepth, hd1, Option.bind_eq_bind]
    cases s.directories[i]? with
    | none => rfl
    | some a1 =>
      have := hl1 a1
      simp only [Option.some_bind]
      cases h1 : s1.store[a1]? <;> cases h2 : s.store[a1]? <;> simp_all

/-- The contract of `Remove` at the table after the calls of `sampleOps`, for key 5. -/
theorem Remove_contract_witness :
    ∃ r s1 f, Remove (fun k : Nat => k) sampleTable 5 = some (r, s1) ∧
      Find (fun k : Nat => k) sampleTable 5 = some f ∧
      (r = true ↔ ∃ v, f = some v) ∧
      Find (fun k : Nat => k) s1 5 = some none ∧
      (∀ k, k ≠ 5 → Find (fun k : Nat => k) s1 k = Find (fun k : Nat => k) sampleTable k) ∧
      GetGlobalDepth s1 = GetGlobalDepth sampleTable ∧
      (∀ i, GetLocalDepth s1 i = GetLocalDepth sampleTable i) ∧
      (∀ a : Nat, (s1.store[a]?).map Bucket.localDepth =
        (sampleTable.store[a]?).map Bucket.localDepth) ∧
      s1.directories = sampleTable.directories ∧
      GetNumBuckets s1 = GetNumBuckets sampleTable :=
  Remove_contract (fun k : Nat => k) sampleTable sampleTable_reachable 5

/-- C9. Depth invariant. A new table has global depth 0 and one slot, whose bucket has
local depth 0. In every state reachable from a new table by `Insert` and `Remove` the
directory has exactly `2 ^ globalDepth` slots, and every slot references a bucket whose
local depth is at most the global depth. -/
theorem depth_invariant (HashKey : K → Nat) (s : ExtendibleHash K V)
    (h : Reachable HashKey s) :
    (∀ size, GetGlobalDepth (new size : ExtendibleHash K V) = 0 ∧
      (new size : ExtendibleHash K V).directories.length = 1 ∧
      GetLocalDepth (new size : ExtendibleHash K V) 0 = some 0) ∧
    s.directories.length = 2 ^ GetGlobalDepth s ∧
    ∀ i, i < s.directories.length →
      ∃ d, GetLocalDepth s i = some d ∧ d ≤ GetGlobalDepth s := by
  obtain ⟨hinv, _⟩ := h.inv
  refine ⟨fun size => ⟨rfl, rfl, rfl⟩, hinv.dir_len, fun i hi => ?_⟩
  obtain ⟨a, b, _, _, hl, hle, _⟩ := hinv.GetLocalDepth_eq i hi
  exact ⟨b.localDepth, hl, hle⟩

/-- The depth invariant at the table after the calls of `sampleOps`. -/
theorem depth_invariant_witness :
    (∀ size, GetGlobalDepth (new size : ExtendibleHash Nat Nat) = 0 ∧
      (new size : ExtendibleHash Nat Nat).directories.length = 1 ∧
      GetLocalDepth (new size : ExtendibleHash Nat Nat) 0 = some 0) ∧
    sampleTable.directories.length = 2 ^ GetGlobalDepth sampleTable ∧
    ∀ i, i < sampleTable.directories.length →
      ∃ d, GetLocalDepth sampleTable i = some d ∧ d ≤ GetGlobalDepth sampleTable :=
  depth_invariant (fun k : Nat => k) sampleTable sampleTable_reachable

/-- C10. Directory sharing invariant. In every reachable table and for any two slots
`i` and `j` of the directory, the slots reference the same bucket exactly when `i` and
`j` agree in the low `d` bits, `d` being the local depth of the bucket of slot `i`. -/
theorem sharing_invariant (HashKey : K → Nat) (s : ExtendibleHash K V)
    (h : Reachable HashKey s) (i j : Nat) (hi : i < s.directories.length)
    (hj : j < s.directories.length) :
    ∃ d, GetLocalDepth s i = some d ∧
      (s.directories[i]? = s.directories[j]? ↔ i % 2 ^ d = j % 2 ^ d) := by
  obtain ⟨hinv, _⟩ := h.inv
  obtain ⟨a, b, hd, _, hl, _, hsh⟩ := hinv.GetLocalDepth_eq i hi
  refine ⟨b.localDepth, hl, ?_⟩
  rw [hd]
  constructor
  · intro e
    exact ((hsh j hj).mp e.symm).symm
  · intro e
    exact ((hsh j hj).mpr e.symm).symm

/-- The sharing invariant at the table after the calls of `sampleOps`, for the slots 0
and 2, which share a bucket of local depth 1. -/
theorem sharing_invariant_witness :
    ∃ d, GetLocalDepth sampleTable 0 = some d ∧
      (sampleTable.directories[0]? = sampleTable.directories[2]? ↔ 0 % 2 ^ d = 2 % 2 ^ d) :=
  sharing_invariant (fun k : Nat => k) sampleTable sampleTable_reachable 0 2
    (by decide) (by decide)

end ExtendibleHash

namespace ExtendibleHash

/-- C11, the scenario as stated fails. With `bucket_size = 2` and `hash(i) = i`, after
`Insert(1, a)`, `Insert(2, b)`, `Insert(3, c)` the call `GetGlobalDepth()` returns 1,
not 2. -/
theorem scenario_depth_counterexample :
    (insertAll (fun k : Nat => k) 2 (new 2) [(1, "a"), (2, "b"), (3, "c")]).map
        GetGlobalDepth = some 1 ∧
      (insertAll (fun k : Nat => k) 2 (new 2) [(1, "a"), (2, "b"), (3, "c")]).map
        GetGlobalDepth ≠ some 2 := by
  decide

/-- C11, amended. With `bucket_size = 2` and `hash(i) = i`, the calls `Insert(1, a)`,
`Insert(2, b)` fill the only bucket at global depth 0; `Insert(3, c)` then splits that
bucket once, which grows the global depth to 1 and moves key 1 to the new bucket, and
the new bucket accepts `(3, c)`. Afterwards `GetGlobalDepth()` is 1, there are two
buckets, and `Find(2)` returns `b`. -/
theorem scenario_single_split {V : Type} (a b c : V) :
    insertAll (fun k : Nat => k) 2 (new 2) [(1, a), (2, b)]
        = some ⟨0, 2, 1, [0], [⟨[(1, a), (2, b)], 0⟩]⟩ ∧
      Insert (fun k : Nat => k) 2 ⟨0, 2, 1, [0], [⟨[(1, a), (2, b)], 0⟩]⟩ 3 c
        = some ⟨1, 2, 2, [0, 1], [⟨[(2, b)], 1⟩, ⟨[(1, a), (3, c)], 1⟩]⟩ ∧
      GetGlobalDepth (⟨1, 2, 2, [0, 1], [⟨[(2, b)], 1⟩, ⟨[(1, a), (3, c)], 1⟩]⟩ :
        ExtendibleHash Nat V) = 1 ∧
      GetNumBuckets (⟨1, 2, 2, [0, 1], [⟨[(2, b)], 1⟩, ⟨[(1, a), (3, c)], 1⟩]⟩ :
        ExtendibleHash Nat V) = 2 ∧
      Find (fun k : Nat => k) ⟨1, 2, 2, [0, 1], [⟨[(2, b)], 1⟩, ⟨[(1, a), (3, c)], 1⟩]⟩ 2
        = some (some b) := by
  refine ⟨?_, ?_, rfl, rfl, ?_⟩ <;> with_unfolding_all rfl

end ExtendibleHash

/-! ## B+ tree: key bounds, the page table, the binary search -/

namespace BPlusTree

variable {K V : Type} [LinearOrder K] [Inhabited K]

@[simp] theorem bnd_lt_bnd {a b : K} : bnd a < bnd b ↔ a < b := by
  simp [bnd]

@[simp] theorem bnd_le_bnd {a b : K} : bnd a ≤ bnd b ↔ a ≤ b := by
  simp [bnd]

@[simp] theorem bot_lt_bnd {a : K} : (⊥ : Bound K) < bnd a := by
  simp [bnd]

@[simp] theorem bnd_lt_top {a : K} : bnd a < (⊤ : Bound K) := by
  simp only [bnd]
  exact WithBot.coe_lt_coe.mpr (WithTop.coe_lt_top a)

theorem bnd_inj {a b : K} (h : bnd a = bnd b) : a = b := by
  simpa [bnd] using h

theorem bot_lt_top : (⊥ : Bound K) < ⊤ := by
  exact WithBot.bot_lt_coe _

end BPlusTree

namespace BufferPoolManager

variable {K V : Type}

@[simp] theorem FetchPage_store (bpm : BufferPoolManager K V) (id : Int)
    (page : BPlusTreePage K V) (q : Int) :
    (bpm.store id page).FetchPage q = if id = q then some page else bpm.FetchPage q := by
  simp [FetchPage, store, StdMap.find_assign]

@[simp] theorem FetchPage_DeletePage (bpm : BufferPoolManager K V) (id q : Int) :
    (bpm.DeletePage id).FetchPage q = if id = q then none else bpm.FetchPage q := by
  simp [FetchPage, DeletePage, StdMap.find_erase]

@[simp] theorem next_page_id_store (bpm : BufferPoolManager K V) (id : Int)
    (page : BPlusTreePage K V) : (bpm.store id page).next_page_id = bpm.next_page_id := rfl

@[simp] theorem next_page_id_DeletePage (bpm : BufferPoolManager K V) (id : Int) :
    (bpm.DeletePage id).next_page_id = bpm.next_page_id := rfl

end BufferPoolManager

namespace BPlusTreeInternalPage

variable {K V : Type} [LinearOrder K] [Inhabited K]

/-- The loop of `Lookup` returns, within `right + 1 - left` iterations, an index that
splits the slots `left .. right` of a sorted array at `key`. -/
theorem lookupLoop_spec (array : List (K × Int)) (key : K)
    (hs : ∀ i j (hi : i < array.length) (hj : j < array.length), 1 ≤ i → i < j →
      array[i].1 < array[j].1) :
    ∀ fuel left right, 1 ≤ left → left ≤ right + 1 → right < array.length →
      right + 1 - left < fuel →
      (∀ i (hi : i < array.length), 1 ≤ i → i < left → array[i].1 ≤ key) →
      (∀ i (hi : i < array.length), right < i → key < array[i].1) →
      ∃ r, lookupLoop array key fuel left right = some r ∧ 1 ≤ r ∧ r ≤ array.length ∧
        (∀ i (hi : i < array.length), 1 ≤ i → i < r → array[i].1 ≤ key) ∧
        (∀ i (hi : i < array.length), r ≤ i → key < array[i].1) := by
  intro fuel
  induction fuel with
  | zero => intro left right _ _ _ hf; omega
  | succ fuel ih =>
    intro left right h1 h2 h3 hf hlo hhi
    unfold lookupLoop
    by_cases hlr : left ≤ right
    · rw [if_pos hlr]
      have hmid : (right - left) / 2 + left < array.length := by omega
      have hml : left ≤ (right - left) / 2 + left := by omega
      have hmr : (right - left) / 2 + left ≤ right := by omega
      simp only [List.getElem?_eq_getElem hmid]
      by_cases hc : (array[(right - left) / 2 + left]).1 ≤ key
      · rw [if_pos hc]
        apply ih _ _ (by omega) (by omega) h3 (by omega) _ hhi
        intro i hi h1i hil
        by_cases hie : i = (right - left) / 2 + left
        · subst hie; exact hc
        · exact le_trans (le_of_lt (hs i _ hi hmid h1i (by omega))) hc
      · rw [if_neg hc]
        have hc1 : key < (array[(right - left) / 2 + left]).1 := lt_of_not_le hc
        apply ih _ _ h1 (by omega) (by omega) (by omega) hlo
        intro i hi hri
        by_cases hie : i = (right - left) / 2 + left
        · subst hie; exact hc1
        · exact lt_trans hc1 (hs _ i hmid hi (by omega) (by omega))
    · rw [if_neg hlr]
      refine ⟨left, rfl, h1, by omega, hlo, ?_⟩
      intro i hi hli
      exact hhi i hi (by omega)

/-- An index that splits the separators at `key` is the slot that the linear scan
`pick` selects. -/
theorem pick_of_split (key : K) : ∀ (rest : List (K × Int)) (k0 : K) (c0 : Int) (j : Nat),
    j ≤ rest.length →
    (∀ i (hi : i < rest.length), i < j → rest[i].1 ≤ key) →
    (∀ i (hi : i < rest.length), j ≤ i → key < rest[i].1) →
    ValueAt ((k0, c0) :: rest) j = some (BPlusTree.pick key c0 rest) := by
  intro rest
  induction rest with
  | nil =>
    intro k0 c0 j hj _ _
    have : j = 0 := by simpa using hj
    subst this
    simp [ValueAt, BPlusTree.pick]
  | cons e rest ih =>
    obtain ⟨k, c1⟩ := e
    intro k0 c0 j hj hlo hhi
    cases j with
    | zero =>
      have := hhi 0 (by simp) (le_refl _)
      simp only [List.getElem_cons_zero] at this
      simp [ValueAt, BPlusTree.pick, this]
    | succ j =>
      have h0 := hlo 0 (by simp) (by omega)
      simp only [List.getElem_cons_zero] at h0
      have hn : ¬ key < k := not_lt_of_le h0
      have := ih k c1 j (by simpa using hj)
        (fun i hi hij => by simpa using hlo (i + 1) (by simpa using hi) (by omega))
        (fun i hi hij => by simpa using hhi (i + 1) (by simpa using hi) (by omega))
      simp only [ValueAt, List.getElem?_cons_succ] at this ⊢
      rw [this]
      simp [BPlusTree.pick, hn]

/-- On an array with at least two slots whose separator keys increase, `Lookup` returns
the child that the linear scan selects. -/
theorem Lookup_eq_pick (k0 : K) (c0 : Int) (rest : List (K × Int)) (key : K)
    (hne : rest ≠ [])
    (hs : (rest.map Prod.fst).Pairwise (fun a b => a < b)) :
    Lookup ((k0, c0) :: rest) key = some (BPlusTree.pick key c0 rest) := by
  have hlen : 1 ≤ rest.length := by
    cases rest with
    | nil => exact absurd rfl hne
    | cons _ _ => simp
  have hs1 : ∀ i j (hi : i < ((k0, c0) :: rest).length) (hj : j < ((k0, c0) :: rest).length),
      1 ≤ i → i < j → (((k0, c0) :: rest)[i]).1 < (((k0, c0) :: rest)[j]).1 := by
    intro i j hi hj h1 hij
    obtain ⟨i, rfl⟩ : ∃ i1, i = i1 + 1 := ⟨i - 1, by omega⟩
    obtain ⟨j, rfl⟩ : ∃ j1, j = j1 + 1 := ⟨j - 1, by omega⟩
    simp only [List.getElem_cons_succ]
    have hi1 : i < rest.length := by simpa using hi
    have hj1 : j < rest.length := by simpa using hj
    have := List.pairwise_iff_getElem.mp hs i j (by simpa using hi1) (by simpa using hj1)
      (by omega)
    simpa using this
  obtain ⟨r, hr, hr1, hr2, hlo, hhi⟩ := lookupLoop_spec ((k0, c0) :: rest) key hs1
    ((k0, c0) :: rest).length 1 (((k0, c0) :: rest).length - 1) (le_refl _)
    (by simp) (by simp) (by simp)
    (fun i hi h1 h2 => by omega) (fun i hi h => by simp at hi h; omega)
  unfold Lookup
  rw [if_pos (by simp; omega), hr]
  simp only
  obtain ⟨j, rfl⟩ : ∃ j, r = j + 1 := ⟨r - 1, by omega⟩
  simp only [Nat.add_sub_cancel]
  apply pick_of_split key rest k0 c0 j (by simpa using hr2)
  · intro i hi hij
    simpa using hlo (i + 1) (by simpa using hi) (by omega) (by omega)
  · intro i hi hji
    simpa using hhi (i + 1) (by simpa using hi) (by omega)

end BPlusTreeInternalPage

/-! ## B+ tree: runs of children, the subtree invariant -/

namespace BPlusTree

variable {K V : Type} [LinearOrder K] [Inhabited K]

theorem ub_append (l1 l2 : List (Bound K × Int)) (hi : Bound K) :
    ub (l1 ++ l2) hi = ub l1 (ub l2 hi) := by
  cases l1 <;> rfl

@[simp] theorem Seg_nil {P : Int → Bound K → Bound K → Prop} (hi : Bound K) :
    Seg P [] hi ↔ True := Iff.rfl

@[simp] theorem Seg_cons {P : Int → Bound K → Bound K → Prop} (l : Bound K) (c : Int)
    (rest : List (Bound K × Int)) (hi : Bound K) :
    Seg P ((l, c) :: rest) hi ↔ P c l (ub rest hi) ∧ Seg P rest hi := Iff.rfl

@[simp] theorem ub_nil (hi : Bound K) : ub ([] : List (Bound K × Int)) hi = hi := rfl

@[simp] theorem ub_cons (l : Bound K) (c : Int) (rest : List (Bound K × Int)) (hi : Bound K) :
    ub ((l, c) :: rest) hi = l := rfl

theorem Seg_append {P : Int → Bound K → Bound K → Prop} (l1 l2 : List (Bound K × Int))
    (hi : Bound K) : Seg P (l1 ++ l2) hi ↔ Seg P l1 (ub l2 hi) ∧ Seg P l2 hi := by
  induction l1 with
  | nil => simp [Seg]
  | cons e l1 ih =>
    obtain ⟨l, c⟩ := e
    simp only [List.cons_append, Seg_cons, ih, ub_append, and_assoc]

theorem Seg.imp {P Q : Int → Bound K → Bound K → Prop} {bl : List (Bound K × Int)}
    {hi : Bound K} (hpq : ∀ c l u, c ∈ bl.map Prod.snd → P c l u → Q c l u)
    (hs : Seg P bl hi) : Seg Q bl hi := by
  induction bl with
  | nil => trivial
  | cons e bl ih =>
    obtain ⟨l, c⟩ := e
    exact ⟨hpq c l _ (by simp) hs.1,
      ih (fun c1 l1 u1 hc => hpq c1 l1 u1 (by simp at hc ⊢; exact Or.inr hc)) hs.2⟩

theorem Seg.mem {P : Int → Bound K → Bound K → Prop} {bl : List (Bound K × Int)}
    {hi : Bound K} (hs : Seg P bl hi) {c : Int} (hc : c ∈ bl.map Prod.snd) :
    ∃ l u, P c l u := by
  induction bl with
  | nil => simp at hc
  | cons e bl ih =>
    obtain ⟨l, c1⟩ := e
    simp only [List.map_cons, List.mem_cons] at hc
    rcases hc with rfl | hc
    · exact ⟨l, _, hs.1⟩
    · exact ih hs.2 hc

/-- A run of children with non-empty ranges spans a non-empty range. -/
theorem Seg.ub_lt {P : Int → Bound K → Bound K → Prop} (hP : ∀ c l u, P c l u → l < u)
    {bl : List (Bound K × Int)} {hi : Bound K} (hs : Seg P bl hi) (hne : bl ≠ []) :
    ub bl hi < hi := by
  induction bl with
  | nil => exact absurd rfl hne
  | cons e bl ih =>
    obtain ⟨l, c⟩ := e
    have h1 := hP _ _ _ hs.1
    by_cases hb : bl = []
    · subst hb; exact h1
    · exact lt_trans h1 (ih hs.2 hb)

theorem slots_map_snd (lo : Bound K) (array : List (K × Int)) :
    (slots lo array).map Prod.snd = array.map Prod.snd := by
  cases array with
  | nil => rfl
  | cons e rest => simp [slots, Function.comp_def]

theorem slots_length (lo : Bound K) (array : List (K × Int)) :
    (slots lo array).length = array.length := by
  cases array with
  | nil => rfl
  | cons e rest => simp [slots]

theorem slots_cons_cons (lo : Bound K) (e e1 : K × Int) (rest : List (K × Int)) :
    slots lo (e :: e1 :: rest) = (lo, e.2) :: slots (bnd e1.1) (e1 :: rest) := by
  simp [slots]

theorem slots_append_cons (lo : Bound K) (A : List (K × Int)) (kc : K) (c : Int)
    (B : List (K × Int)) :
    slots lo (A ++ (kc, c) :: B)
      = slots lo A ++ (lbAt lo A kc, c) :: B.map (fun e => (bnd e.1, e.2)) := by
  cases A with
  | nil => simp [slots, lbAt]
  | cons a A => simp [slots, lbAt]

theorem slots_ne_nil (lo : Bound K) (A : List (K × Int)) (h : A ≠ []) : slots lo A ≠ [] := by
  cases A with
  | nil => exact absurd rfl h
  | cons a A => simp [slots]

theorem WF_zero (f : Int → Option (BPlusTreePage K V)) (lm im m x : Nat) (pid par : Int)
    (lo hi : Bound K) :
    WF f lm im m x 0 pid par lo hi ↔
      ∃ array, f pid = some (BPlusTreePage.leaf pid par lm array) ∧
        m ≤ array.length ∧ array.length ≤ lm + x ∧ lo < hi ∧
        (array.map Prod.fst).Pairwise (fun a b => a < b) ∧
        ∀ e ∈ array, lo ≤ bnd e.1 ∧ bnd e.1 < hi := Iff.rfl

theorem WF_succ (f : Int → Option (BPlusTreePage K V)) (lm im m x h : Nat) (pid par : Int)
    (lo hi : Bound K) :
    WF f lm im m x (h + 1) pid par lo hi ↔
      ∃ array, f pid = some (BPlusTreePage.internal pid par im array) ∧
        m ≤ array.length ∧ 1 ≤ array.length ∧ array.length ≤ im + x ∧ lo < hi ∧
        (∀ l, lo = bnd l → (array.head?).map Prod.fst = some l) ∧
        (array.map Prod.snd).Nodup ∧
        Seg (fun c l u => WF f lm im (minNonRoot lm im h) 0 h c pid l u) (slots lo array) hi :=
  Iff.rfl

theorem WF.lt {f : Int → Option (BPlusTreePage K V)} {lm im m x h : Nat} {pid par : Int}
    {lo hi : Bound K} (hw : WF f lm im m x h pid par lo hi) : lo < hi := by
  cases h with
  | zero => obtain ⟨_, _, _, _, h, _⟩ := hw; exact h
  | succ h => obtain ⟨_, _, _, _, _, h, _⟩ := hw; exact h

theorem WF.fetch {f : Int → Option (BPlusTreePage K V)} {lm im m x h : Nat} {pid par : Int}
    {lo hi : Bound K} (hw : WF f lm im m x h pid par lo hi) :
    ∃ p, f pid = some p ∧ p.GetPageId = pid ∧ p.GetParentPageId = par ∧
      (p.IsLeafPage = true ↔ h = 0) := by
  cases h with
  | zero =>
    obtain ⟨array, hf, _⟩ := hw
    exact ⟨_, hf, rfl, rfl, by simp [BPlusTreePage.IsLeafPage]⟩
  | succ h =>
    obtain ⟨array, hf, _⟩ := hw
    exact ⟨_, hf, rfl, rfl, by simp [BPlusTreePage.IsLeafPage]⟩

theorem WF.mono {f : Int → Option (BPlusTreePage K V)} {lm im m m1 x h : Nat} {pid par : Int}
    {lo hi : Bound K} (hw : WF f lm im m x h pid par lo hi) (hm : m1 ≤ m) :
    WF f lm im m1 x h pid par lo hi := by
  cases h with
  | zero =>
    obtain ⟨array, hf, h1, h2⟩ := hw
    exact ⟨array, hf, le_trans hm h1, h2⟩
  | succ h =>
    obtain ⟨array, hf, h1, h2⟩ := hw
    exact ⟨array, hf, le_trans hm h1, h2⟩

theorem kidsOf_internal {f : Int → Option (BPlusTreePage K V)} {pid a b : Int} {mx : Nat}
    {array : List (K × Int)} (hf : f pid = some (BPlusTreePage.internal a b mx array)) :
    kidsOf f pid = array.map Prod.snd := by
  simp [kidsOf, hf]

theorem kidsOf_leaf {f : Int → Option (BPlusTreePage K V)} {pid a b : Int} {mx : Nat}
    {array : List (K × V)} (hf : f pid = some (BPlusTreePage.leaf a b mx array)) :
    kidsOf f pid = [] := by
  simp [kidsOf, hf]

theorem Under.self (f : Int → Option (BPlusTreePage K V)) (h : Nat) (pid : Int) :
    Under f h pid pid := by
  cases h with
  | zero => rfl
  | succ h => exact Or.inl rfl

theorem Under.of_child {f : Int → Option (BPlusTreePage K V)} {h : Nat} {pid c q : Int}
    (hc : c ∈ kidsOf f pid) (hq : Under f h c q) : Under f (h + 1) pid q :=
  Or.inr ⟨c, hc, hq⟩

/-- Frame property of membership: it depends on the pages of the subtree only. -/
theorem Under.under_congr {f g : Int → Option (BPlusTreePage K V)} :
    ∀ (h : Nat) (pid : Int), (∀ q, Under f h pid q → g q = f q) →
      ∀ q, Under g h pid q ↔ Under f h pid q := by
  intro h
  induction h with
  | zero => intro pid _ q; exact Iff.rfl
  | succ h ih =>
    intro pid hag q
    have hk : kidsOf g pid = kidsOf f pid := by
      simp only [kidsOf, hag pid (Under.self f _ pid)]
    simp only [Under, hk]
    constructor
    · rintro (rfl | ⟨c, hc, hq⟩)
      · exact Or.inl rfl
      · exact Or.inr ⟨c, hc, (ih c (fun q1 hq1 => hag q1 (Under.of_child hc hq1)) q).mp hq⟩
    · rintro (rfl | ⟨c, hc, hq⟩)
      · exact Or.inl rfl
      · exact Or.inr ⟨c, hc, (ih c (fun q1 hq1 => hag q1 (Under.of_child hc hq1)) q).mpr hq⟩

/-- Frame property of the stored pairs. -/
theorem Holds.holds_congr {f g : Int → Option (BPlusTreePage K V)} :
    ∀ (h : Nat) (pid : Int), (∀ q, Under f h pid q → g q = f q) →
      ∀ key value, Holds g h pid key value ↔ Holds f h pid key value := by
  intro h
  induction h with
  | zero =>
    intro pid hag key value
    simp only [Holds, hag pid rfl]
  | succ h ih =>
    intro pid hag key value
    have hk : kidsOf g pid = kidsOf f pid := by
      simp only [kidsOf, hag pid (Under.self f _ pid)]
    simp only [Holds, hk]
    constructor
    · rintro ⟨c, hc, hq⟩
      exact ⟨c, hc, (ih c (fun q1 hq1 => hag q1 (Under.of_child hc hq1)) key value).mp hq⟩
    · rintro ⟨c, hc, hq⟩
      exact ⟨c, hc, (ih c (fun q1 hq1 => hag q1 (Under.of_child hc hq1)) key value).mpr hq⟩

/-- Frame property of the invariant. -/
theorem WF.congr {f g : Int → Option (BPlusTreePage K V)} {lm im : Nat} :
    ∀ (h m x : Nat) (pid par : Int) (lo hi : Bound K),
      (∀ q, Under f h pid q → g q = f q) →
      WF f lm im m x h pid par lo hi → WF g lm im m x h pid par lo hi := by
  intro h
  induction h with
  | zero =>
    intro m x pid par lo hi hag hw
    obtain ⟨array, hf, rest⟩ := hw
    exact ⟨array, by rw [hag pid rfl]; exact hf, rest⟩
  | succ h ih =>
    intro m x pid par lo hi hag hw
    obtain ⟨array, hf, h1, h2, h3, h4, h5, h6, hseg⟩ := hw
    refine ⟨array, by rw [hag pid (Under.self f _ pid)]; exact hf, h1, h2, h3, h4, h5, h6, ?_⟩
    refine hseg.imp ?_
    intro c l u hc hwc
    rw [slots_map_snd] at hc
    exact ih _ _ c pid l u
      (fun q hq => hag q (Under.of_child (by rw [kidsOf_internal hf]; exact hc) hq)) hwc

/-- The height of a page is determined by the page table. -/
theorem WF.height_unique {f : Int → Option (BPlusTreePage K V)} {lm im : Nat} :
    ∀ (h h1 m m1 x x1 : Nat) (pid par par1 : Int) (lo hi lo1 hi1 : Bound K),
      WF f lm im m x h pid par lo hi → WF f lm im m1 x1 h1 pid par1 lo1 hi1 → h = h1 := by
  intro h
  induction h with
  | zero =>
    intro h1 m m1 x x1 pid par par1 lo hi lo1 hi1 hw hw1
    cases h1 with
    | zero => rfl
    | succ h1 =>
      obtain ⟨_, hf, _⟩ := hw
      obtain ⟨_, hf1, _⟩ := hw1
      rw [hf] at hf1
      cases hf1
  | succ h ih =>
    intro h1 m m1 x x1 pid par par1 lo hi lo1 hi1 hw hw1
    cases h1 with
    | zero =>
      obtain ⟨_, hf, _⟩ := hw
      obtain ⟨_, hf1, _⟩ := hw1
      rw [hf] at hf1
      cases hf1
    | succ h1 =>
      obtain ⟨array, hf, _, hlen, _, _, _, _, hseg⟩ := hw
      obtain ⟨array1, hf1, _, _, _, _, _, _, hseg1⟩ := hw1
      rw [hf] at hf1
      cases hf1
      cases array with
      | nil => simp at hlen
      | cons e rest =>
        have := ih h1 _ _ _ _ e.2 pid pid _ _ _ _ hseg.1 hseg1.1
        omega

/-- Every page of a subtree that satisfies the invariant is the root of such a
subtree, of at most the same height. -/
theorem WF.under {f : Int → Option (BPlusTreePage K V)} {lm im : Nat} :
    ∀ (h m x : Nat) (pid par : Int) (lo hi : Bound K) (q : Int),
      WF f lm im m x h pid par lo hi → Under f h pid q →
      ∃ m1 x1 h1 par1 lo1 hi1, h1 ≤ h ∧ WF f lm im m1 x1 h1 q par1 lo1 hi1 := by
  intro h
  induction h with
  | zero =>
    intro m x pid par lo hi q hw hq
    cases hq
    exact ⟨m, x, 0, par, lo, hi, le_refl _, hw⟩
  | succ h ih =>
    intro m x pid par lo hi q hw hq
    rcases hq with rfl | ⟨c, hc, hq⟩
    · exact ⟨m, x, h + 1, par, lo, hi, le_refl _, hw⟩
    · obtain ⟨array, hf, _, _, _, _, _, _, hseg⟩ := hw
      rw [kidsOf_internal hf, ← slots_map_snd lo] at hc
      obtain ⟨l, u, hwc⟩ := hseg.mem hc
      obtain ⟨m1, x1, h1, par1, lo1, hi1, hle, hw1⟩ := ih _ _ c pid l u q hwc hq
      exact ⟨m1, x1, h1, par1, lo1, hi1, by omega, hw1⟩

/-- The children of a page that satisfies the invariant satisfy it one level lower. -/
theorem WF.child {f : Int → Option (BPlusTreePage K V)} {lm im m x h : Nat} {pid par : Int}
    {lo hi : Bound K} (hw : WF f lm im m x (h + 1) pid par lo hi) {c : Int}
    (hc : c ∈ kidsOf f pid) :
    ∃ l u, WF f lm im (minNonRoot lm im h) 0 h c pid l u := by
  obtain ⟨array, hf, _, _, _, _, _, _, hseg⟩ := hw
  rw [kidsOf_internal hf, ← slots_map_snd lo] at hc
  exact hseg.mem hc

/-- A page is not a page of the subtree of one of its children. -/
theorem WF.not_under_child {f : Int → Option (BPlusTreePage K V)} {lm im m x h : Nat}
    {pid par : Int} {lo hi : Bound K} (hw : WF f lm im m x (h + 1) pid par lo hi) {c : Int}
    (hc : c ∈ kidsOf f pid) : ¬ Under f h c pid := by
  intro hu
  obtain ⟨l, u, hwc⟩ := hw.child hc
  obtain ⟨m1, x1, h1, par1, lo1, hi1, hle, hw1⟩ := WF.under h _ _ c pid l u pid hwc hu
  have := WF.height_unique _ _ _ _ _ _ pid _ _ _ _ _ _ hw hw1
  omega

/-- The subtrees of two different pages of the same height share no page. -/
theorem WF.disjoint {f : Int → Option (BPlusTreePage K V)} {lm im : Nat} :
    ∀ (h m m1 x x1 : Nat) (a b para parb : Int) (lo hi lo1 hi1 : Bound K) (q : Int),
      WF f lm im m x h a para lo hi → WF f lm im m1 x1 h b parb lo1 hi1 → a ≠ b →
      Under f h a q → ¬ Under f h b q := by
  intro h
  induction h with
  | zero =>
    intro m m1 x x1 a b para parb lo hi lo1 hi1 q _ _ hab hqa hqb
    cases hqa
    cases hqb
    exact hab rfl
  | succ h ih =>
    intro m m1 x x1 a b para parb lo hi lo1 hi1 q hwa hwb hab hqa hqb
    rcases hqa with rfl | ⟨c, hc, hqc⟩
    · rcases hqb with rfl | ⟨d, hd, hqd⟩
      · exact hab rfl
      · obtain ⟨l, u, hwd⟩ := hwb.child hd
        obtain ⟨m2, x2, h2, par2, lo2, hi2, hle, hw2⟩ := WF.under h _ _ d b l u _ hwd hqd
        have := WF.height_unique _ _ _ _ _ _ _ _ _ _ _ _ _ hwa hw2
        omega
    · obtain ⟨l, u, hwc⟩ := hwa.child hc
      rcases hqb with rfl | ⟨d, hd, hqd⟩
      · obtain ⟨m2, x2, h2, par2, lo2, hi2, hle, hw2⟩ := WF.under h _ _ c a l u _ hwc hqc
        have := WF.height_unique _ _ _ _ _ _ _ _ _ _ _ _ _ hwb hw2
        omega
      · obtain ⟨l1, u1, hwd⟩ := hwb.child hd
        have hcd : c ≠ d := by
          rintro rfl
          obtain ⟨p, hp, _, hpar, _⟩ := hwc.fetch
          obtain ⟨p1, hp1, _, hpar1, _⟩ := hwd.fetch
          rw [hp] at hp1
          cases hp1
          exact hab (hpar.symm.trans hpar1)
        exact ih _ _ _ _ c d a b l u l1 u1 q hwc hwd hcd hqc hqd

end BPlusTree

/-! ## B+ tree: the descent and `GetValue` -/

namespace BPlusTree

variable {K V : Type} [LinearOrder K] [Inhabited K]

/-- Every child of a run lies within the range of the run. -/
theorem Seg.range {P : Int → Bound K → Bound K → Prop} (hP : ∀ c l u, P c l u → l < u)
    {bl : List (Bound K × Int)} {hi : Bound K} (hs : Seg P bl hi) {l : Bound K} {c : Int}
    (hc : (l, c) ∈ bl) : ∃ u, P c l u ∧ u ≤ hi ∧ ub bl hi ≤ l := by
  induction bl with
  | nil => simp at hc
  | cons e bl ih =>
    obtain ⟨l0, c0⟩ := e
    have hub : ub bl hi ≤ hi := by
      by_cases hb : bl = []
      · subst hb; exact le_refl _
      · exact le_of_lt (hs.2.ub_lt hP hb)
    simp only [List.mem_cons, Prod.mk.injEq] at hc
    rcases hc with ⟨rfl, rfl⟩ | hc
    · exact ⟨_, hs.1, hub, le_refl _⟩
    · obtain ⟨u, hu, hu1, hu2⟩ := ih hs.2 hc
      exact ⟨u, hu, hu1, le_trans (le_of_lt (hP _ _ _ hs.1)) hu2⟩

/-- The slot that the linear scan selects splits the slots of the page, and `key` lies
in the range of the selected child. -/
theorem pick_slots (key : K) : ∀ (rest : List (K × Int)) (lo : Bound K) (k0 : K) (c0 : Int)
    (hi : Bound K), lo ≤ bnd key → bnd key < hi →
    ∃ (A : List (K × Int)) (kc : K) (B : List (K × Int)),
      (k0, c0) :: rest = A ++ (kc, pick key c0 rest) :: B ∧
      lbAt lo A kc ≤ bnd key ∧ bnd key < ub (B.map (fun e => (bnd e.1, e.2))) hi := by
  intro rest
  induction rest with
  | nil =>
    intro lo k0 c0 hi h1 h2
    exact ⟨[], k0, [], rfl, h1, h2⟩
  | cons e rest ih =>
    obtain ⟨k, c1⟩ := e
    intro lo k0 c0 hi h1 h2
    by_cases hk : key < k
    · refine ⟨[], k0, (k, c1) :: rest, ?_, h1, ?_⟩
      · simp [pick, hk]
      · simpa using hk
    · obtain ⟨A, kc, B, hAB, hl, hu⟩ := ih (bnd k) k c1 hi (by simpa using hk) h2
      refine ⟨(k0, c0) :: A, kc, B, ?_, ?_, hu⟩
      · simp only [pick, if_neg hk, List.cons_append, hAB]
      · cases A with
        | nil =>
          simp only [List.nil_append, List.cons.injEq, Prod.mk.injEq] at hAB
          simp only [lbAt]
          rw [← hAB.1.1]
          simpa using hk
        | cons a A => exact hl

theorem freeLoop_nil (bpm : BufferPoolManager K V) (ps : List Int) :
    freeLoop bpm ps [] = (bpm, []) := by
  induction ps with
  | nil => rfl
  | cons p ps ih => simp [freeLoop, ih]

/-- Without pending deletions `FreePagesInTransaction` changes no page and leaves the
transaction with empty collections. -/
theorem FreePagesInTransaction_some (t : BPlusTree K V) (exclusive : Bool) (txn : Transaction)
    (cur : Int) (hd : txn.deleted_page_set = []) :
    FreePagesInTransaction t exclusive (some txn) cur = some (t, emptyTxn) := by
  simp [FreePagesInTransaction, hd, freeLoop_nil, emptyTxn]

theorem FreePagesInTransaction_none (t : BPlusTree K V) (cur : Int) (hc : 0 ≤ cur) :
    FreePagesInTransaction t false none cur = some (t, none) := by
  simp [FreePagesInTransaction, hc]

theorem IsSafe_some (p : BPlusTreePage K V) (op : OpType) (hop : op ≠ OpType.READ) :
    ∃ b, p.IsSafe op = some b := by
  cases op with
  | READ => exact absurd rfl hop
  | INSERT => exact ⟨_, rfl⟩
  | DELETE =>
    unfold BPlusTreePage.IsSafe
    by_cases hl : p.IsLeafPage = true
    · exact ⟨_, by simp only [hl, if_true]; rfl⟩
    · exact ⟨_, by simp only [hl]; rfl⟩

/-- The outcome of `CrabingProtocalFetchPage` on a page that exists: no page changes and
the transaction stays acceptable. -/
theorem CrabingProtocalFetchPage_spec (t : BPlusTree K V) (page_id : Int) (op : OpType)
    (previous : Int) (txn : Option Transaction) (p : BPlusTreePage K V)
    (hp : FetchPage t page_id = some p) (hok : TxnOk op txn) :
    ∃ txn1, CrabingProtocalFetchPage t page_id op previous txn = some (t, txn1) ∧
      TxnOk op txn1 := by
  unfold CrabingProtocalFetchPage
  have hp1 : t.buffer_pool_manager.FetchPage page_id = some p := hp
  simp only [hp1, Option.bind_eq_bind, Option.some_bind]
  cases txn with
  | none =>
    have hop : op = OpType.READ := hok
    subst hop
    by_cases hprev : previous > 0
    · simp [hprev, FreePagesInTransaction_none t previous (le_of_lt hprev), TxnOk]
    · simp [hprev, TxnOk]
  | some x =>
    have hd : x.deleted_page_set = [] := hok
    by_cases hprev : previous > 0
    · have hsafe : ∃ b, (if (!decide (op ≠ OpType.READ)) = true then some true
          else p.IsSafe op) = some b := by
        by_cases hop : op = OpType.READ
        · exact ⟨true, by simp [hop]⟩
        · obtain ⟨b, hb⟩ := IsSafe_some p op hop
          exact ⟨b, by simp [hop, hb]⟩
      obtain ⟨b, hb⟩ := hsafe
      simp only [hprev, if_true, hb, Option.some_bind]
      cases b with
      | true =>
        simp [FreePagesInTransaction_some t _ x previous hd, emptyTxn, TxnOk,
          Transaction.AddIntoPageSet]
      | false => simp [TxnOk, Transaction.AddIntoPageSet, hd]
    · simp [hprev, TxnOk, Transaction.AddIntoPageSet, hd]

/-- The lower bounds of a run of children with non-empty ranges increase. -/
theorem Seg.sorted {P : Int → Bound K → Bound K → Prop} (hP : ∀ c l u, P c l u → l < u)
    {bl : List (Bound K × Int)} {hi : Bound K} (hs : Seg P bl hi) :
    (bl.map Prod.fst).Pairwise (fun a b => a < b) := by
  induction bl with
  | nil => simp
  | cons e bl ih =>
    obtain ⟨l0, c0⟩ := e
    simp only [List.map_cons, List.pairwise_cons]
    refine ⟨?_, ih hs.2⟩
    intro l hl
    obtain ⟨⟨l1, c⟩, hmem, rfl⟩ := List.mem_map.mp hl
    obtain ⟨u, _, _, hu⟩ := hs.2.range hP hmem
    exact lt_of_lt_of_le (hP _ _ _ hs.1) hu

/-- The separator keys of an internal page that satisfies the invariant increase. -/
theorem slots_sorted {P : Int → Bound K → Bound K → Prop} (hP : ∀ c l u, P c l u → l < u)
    {lo hi : Bound K} {e : K × Int} {rest : List (K × Int)}
    (hs : Seg P (slots lo (e :: rest)) hi) :
    (rest.map Prod.fst).Pairwise (fun a b => a < b) := by
  have h := hs.sorted hP
  simp only [slots, List.map_cons, List.pairwise_cons, List.map_map] at h
  have h2 := h.2
  rw [List.pairwise_map] at h2 ⊢
  exact h2.imp (fun hab => by simpa using hab)

theorem leafOf_succ {f : Int → Option (BPlusTreePage K V)} {key : K} {h : Nat}
    {pid a b : Int} {mx : Nat} {k0 : K} {c0 : Int} {rest : List (K × Int)}
    (hf : f pid = some (BPlusTreePage.internal a b mx ((k0, c0) :: rest))) :
    leafOf f key (h + 1) pid = leafOf f key h (pick key c0 rest) := by
  simp [leafOf, hf]

theorem pick_mem (key : K) : ∀ (rest : List (K × Int)) (c0 : Int),
    pick key c0 rest ∈ c0 :: rest.map Prod.snd := by
  intro rest
  induction rest with
  | nil => intro c0; simp [pick]
  | cons e rest ih =>
    obtain ⟨k, c1⟩ := e
    intro c0
    by_cases hk : key < k
    · simp [pick, hk]
    · simp only [pick, if_neg hk, List.map_cons, List.mem_cons]
      exact Or.inr (by simpa using ih c1)

/-- The descent from a page that satisfies the invariant reaches the leaf `leafOf`
within `h + 1` iterations and changes no page. -/
theorem findLeafLoop_spec (t : BPlusTree K V) (key : K) (op : OpType) (lm im : Nat) :
    ∀ (h m x : Nat) (pid par : Int) (lo hi : Bound K) (txn : Option Transaction) (fuel : Nat),
      WF (FetchPage t) lm im m x h pid par lo hi → (h = 0 ∨ 2 ≤ m) → TxnOk op txn →
      h + 1 ≤ fuel →
      ∃ txn1, findLeafLoop key false op fuel t txn pid
          = some (leafOf (FetchPage t) key h pid, t, txn1) ∧ TxnOk op txn1 := by
  intro h
  induction h with
  | zero =>
    intro m x pid par lo hi txn fuel hw _ hok hfuel
    obtain ⟨fuel, rfl⟩ : ∃ n, fuel = n + 1 := ⟨fuel - 1, by omega⟩
    obtain ⟨array, hf, _⟩ := hw
    exact ⟨txn, by simp [findLeafLoop, hf, leafOf], hok⟩
  | succ h ih =>
    intro m x pid par lo hi txn fuel hw hm hok hfuel
    obtain ⟨fuel, rfl⟩ : ∃ n, fuel = n + 1 := ⟨fuel - 1, by omega⟩
    have hw0 := hw
    obtain ⟨array, hf, hm1, hlen, _, _, _, _, hseg⟩ := hw
    cases array with
    | nil => simp at hlen
    | cons e rest =>
      obtain ⟨k0, c0⟩ := e
      have hne : rest ≠ [] := by
        rintro rfl
        simp at hm1
        omega
      have hsorted := slots_sorted (fun c l u hc => WF.lt hc) hseg
      have hlk := BPlusTreeInternalPage.Lookup_eq_pick k0 c0 rest key hne hsorted
      have hmem : pick key c0 rest ∈ kidsOf (FetchPage t) pid := by
        rw [kidsOf_internal hf]
        exact pick_mem key rest c0
      obtain ⟨l, u, hwc⟩ := hw0.child hmem
      obtain ⟨p, hp, _⟩ := hwc.fetch
      obtain ⟨txn1, hcr, hok1⟩ := CrabingProtocalFetchPage_spec t (pick key c0 rest) op pid txn
        p hp hok
      have hmin : h = 0 ∨ 2 ≤ minNonRoot lm im h := by
        cases h with
        | zero => exact Or.inl rfl
        | succ h => exact Or.inr (by simp [minNonRoot])
      obtain ⟨txn2, hloop, hok2⟩ := ih _ _ _ pid l u txn1 fuel hwc hmin hok1 (by omega)
      refine ⟨txn2, ?_, hok2⟩
      simp only [findLeafLoop, hf, Option.bind_eq_bind, Option.some_bind, hlk, hcr,
        Bool.false_eq_true, if_false, leafOf_succ hf]
      exact hloop

theorem ub_slots (lo hi : Bound K) (e : K × Int) (rest : List (K × Int)) :
    ub (slots lo (e :: rest)) hi = lo := rfl

/-- The pairs of a subtree have their keys in the range of the subtree. -/
theorem Holds.bounds {f : Int → Option (BPlusTreePage K V)} {lm im : Nat} :
    ∀ (h m x : Nat) (pid par : Int) (lo hi : Bound K) (key : K) (value : V),
      WF f lm im m x h pid par lo hi → Holds f h pid key value →
      lo ≤ bnd key ∧ bnd key < hi := by
  intro h
  induction h with
  | zero =>
    intro m x pid par lo hi key value hw hh
    obtain ⟨array, hf, _, _, _, _, hb⟩ := hw
    obtain ⟨a, b, mx, array1, hf1, hmem⟩ := hh
    rw [hf] at hf1
    cases hf1
    exact hb _ hmem
  | succ h ih =>
    intro m x pid par lo hi key value hw hh
    obtain ⟨array, hf, _, hlen, _, _, _, _, hseg⟩ := hw
    obtain ⟨c, hc, hhc⟩ := hh
    rw [kidsOf_internal hf, ← slots_map_snd lo] at hc
    obtain ⟨⟨l, c1⟩, hmem, rfl⟩ := List.mem_map.mp hc
    obtain ⟨u, hwc, hu, hl⟩ := hseg.range (fun c l u hc => WF.lt hc) hmem
    obtain ⟨h1, h2⟩ := ih _ _ _ _ _ _ _ _ hwc hhc
    cases array with
    | nil => simp at hlen
    | cons e rest =>
      rw [ub_slots] at hl
      exact ⟨le_trans hl h1, lt_of_lt_of_le h2 hu⟩

/-- The leaf that the descent reaches satisfies the invariant with a range that holds
`key`, it is a page of the subtree, and it holds every pair of the subtree with the
key `key`. -/
theorem leafOf_spec {f : Int → Option (BPlusTreePage K V)} {lm im : Nat} (key : K) :
    ∀ (h m x : Nat) (pid par : Int) (lo hi : Bound K),
      WF f lm im m x h pid par lo hi → lo ≤ bnd key → bnd key < hi →
      ∃ par1 lo1 hi1,
        WF f lm im (if h = 0 then m else minNonRoot lm im 0) (if h = 0 then x else 0) 0
          (leafOf f key h pid)
          par1 lo1 hi1 ∧
        lo1 ≤ bnd key ∧ bnd key < hi1 ∧ Under f h pid (leafOf f key h pid) ∧
        ∀ value, Holds f h pid key value ↔ Holds f 0 (leafOf f key h pid) key value := by
  intro h
  induction h with
  | zero =>
    intro m x pid par lo hi hw h1 h2
    exact ⟨par, lo, hi, hw, h1, h2, rfl, fun _ => Iff.rfl⟩
  | succ h ih =>
    intro m x pid par lo hi hw h1 h2
    have hw0 := hw
    obtain ⟨array, hf, _, hlen, _, _, _, _, hseg⟩ := hw
    cases array with
    | nil => simp at hlen
    | cons e rest =>
      obtain ⟨k0, c0⟩ := e
      obtain ⟨A, kc, B, hAB, hl, hu⟩ := pick_slots key rest lo k0 c0 hi h1 h2
      rw [hAB, slots_append_cons, Seg_append] at hseg
      obtain ⟨hsA, hwc, hsB⟩ := hseg
      simp only [ub_cons] at hsA
      obtain ⟨par1, lo1, hi1, hwl, hl1, hu1, hun, hholds⟩ := ih _ _ _ _ _ _ hwc hl hu
      have hmem : pick key c0 rest ∈ kidsOf f pid := by
        rw [kidsOf_internal hf]
        exact pick_mem key rest c0
      refine ⟨par1, lo1, hi1, ?_, hl1, hu1, ?_, ?_⟩
      · rw [leafOf_succ hf]
        have : (if h = 0 then minNonRoot lm im h else minNonRoot lm im 0) = minNonRoot lm im 0 := by
          by_cases hh : h = 0
          · simp [hh]
          · simp [hh]
        rw [this] at hwl
        simpa using hwl
      · rw [leafOf_succ hf]
        exact Under.of_child hmem hun
      · intro value
        rw [leafOf_succ hf, ← hholds]
        constructor
        · rintro ⟨c, hc, hhc⟩
          rw [kidsOf_internal hf, hAB, ← slots_map_snd lo, slots_append_cons] at hc
          obtain ⟨⟨l, c1⟩, hmem1, rfl⟩ := List.mem_map.mp hc
          simp only [List.mem_append, List.mem_cons] at hmem1
          rcases hmem1 with hA | hc1 | hB
          · obtain ⟨u, hwc1, hu2, _⟩ := hsA.range (fun c l u hc => WF.lt hc) hA
            obtain ⟨_, hk2⟩ := Holds.bounds _ _ _ _ _ _ _ _ _ hwc1 hhc
            exact absurd (lt_of_lt_of_le hk2 (le_trans hu2 hl)) (lt_irrefl _)
          · cases hc1
            exact hhc
          · obtain ⟨u, hwc1, _, hl2⟩ := hsB.range (fun c l u hc => WF.lt hc) hB
            obtain ⟨hk1, _⟩ := Holds.bounds _ _ _ _ _ _ _ _ _ hwc1 hhc
            exact absurd (lt_of_lt_of_le hu (le_trans hl2 hk1)) (lt_irrefl _)
        · intro hh
          exact ⟨_, hmem, hh⟩

end BPlusTree

/-! ## B+ tree: the stored pairs and `GetValue` -/

namespace BPlusTree

variable {K V : Type} [LinearOrder K] [Inhabited K]

theorem Under.step {f : Int → Option (BPlusTreePage K V)} {lm im : Nat} :
    ∀ (h m x : Nat) (pid par : Int) (lo hi : Bound K) (p c : Int),
      WF f lm im m x h pid par lo hi → Under f h pid p → c ∈ kidsOf f p → Under f h pid c := by
  intro h
  induction h with
  | zero =>
    intro m x pid par lo hi p c hw hp hc
    cases hp
    obtain ⟨array, hf, _⟩ := hw
    rw [kidsOf_leaf hf] at hc
    simp at hc
  | succ h ih =>
    intro m x pid par lo hi p c hw hp hc
    rcases hp with rfl | ⟨d, hd, hpd⟩
    · exact Under.of_child hc (Under.self _ _ _)
    · obtain ⟨l, u, hwd⟩ := hw.child hd
      exact Under.of_child hd (ih _ _ _ _ _ _ _ _ hwd hpd hc)

theorem InTree.of_under {t : BPlusTree K V} :
    ∀ (h : Nat) (pid q : Int), InTree t pid → Under (FetchPage t) h pid q → InTree t q := by
  intro h
  induction h with
  | zero => intro pid q hp hq; cases hq; exact hp
  | succ h ih =>
    intro pid q hp hq
    rcases hq with rfl | ⟨c, hc, hqc⟩
    · exact hp
    · refine ih c q ?_ hqc
      unfold kidsOf at hc
      split at hc
      · next a b mx array hf =>
        obtain ⟨e, he, rfl⟩ := List.mem_map.mp hc
        exact InTree.child pid a b mx array e hp hf he
      · simp at hc

/-- The pages of a tree that satisfies the invariant are the pages of the subtree at
the root. -/
theorem InTree_iff_Under {t : BPlusTree K V} {lm im m x h : Nat} {lo hi : Bound K} {par : Int}
    (hroot : t.root_page_id ≠ INVALID_PAGE_ID)
    (hw : WF (FetchPage t) lm im m x h t.root_page_id par lo hi) (q : Int) :
    InTree t q ↔ Under (FetchPage t) h t.root_page_id q := by
  constructor
  · intro hq
    induction hq with
    | root _ => exact Under.self _ _ _
    | child p a b mx array e _ hf he ih =>
      exact Under.step _ _ _ _ _ _ _ _ _ hw ih
        (by rw [kidsOf_internal hf]; exact List.mem_map_of_mem _ he)
  · intro hq
    exact InTree.of_under h _ q (InTree.root hroot) hq

theorem Holds.of_leaf {f : Int → Option (BPlusTreePage K V)} {lm im : Nat} :
    ∀ (h m x : Nat) (pid par : Int) (lo hi : Bound K) (p a b : Int) (mx : Nat)
      (array : List (K × V)) (key : K) (value : V),
      WF f lm im m x h pid par lo hi → Under f h pid p →
      f p = some (BPlusTreePage.leaf a b mx array) → (key, value) ∈ array →
      Holds f h pid key value := by
  intro h
  induction h with
  | zero =>
    intro m x pid par lo hi p a b mx array key value _ hp hf hmem
    cases hp
    exact ⟨a, b, mx, array, hf, hmem⟩
  | succ h ih =>
    intro m x pid par lo hi p a b mx array key value hw hp hf hmem
    rcases hp with rfl | ⟨c, hc, hpc⟩
    · obtain ⟨array1, hf1, _⟩ := hw
      rw [hf] at hf1
      cases hf1
    · obtain ⟨l, u, hwc⟩ := hw.child hc
      exact ⟨c, hc, ih _ _ _ _ _ _ _ _ _ _ _ _ _ hwc hpc hf hmem⟩

theorem Holds.leaf {f : Int → Option (BPlusTreePage K V)} :
    ∀ (h : Nat) (pid : Int) (key : K) (value : V), Holds f h pid key value →
      ∃ p a b mx array, Under f h pid p ∧ f p = some (BPlusTreePage.leaf a b mx array) ∧
        (key, value) ∈ array := by
  intro h
  induction h with
  | zero =>
    intro pid key value hh
    obtain ⟨a, b, mx, array, hf, hmem⟩ := hh
    exact ⟨pid, a, b, mx, array, rfl, hf, hmem⟩
  | succ h ih =>
    intro pid key value hh
    obtain ⟨c, hc, hhc⟩ := hh
    obtain ⟨p, a, b, mx, array, hp, hf, hmem⟩ := ih c key value hhc
    exact ⟨p, a, b, mx, array, Under.of_child hc hp, hf, hmem⟩

/-- The pairs stored in a tree that satisfies the invariant are the pairs of the
subtree at the root. -/
theorem Stored_iff_Holds {t : BPlusTree K V} {lm im m x h : Nat} {lo hi : Bound K} {par : Int}
    (hroot : t.root_page_id ≠ INVALID_PAGE_ID)
    (hw : WF (FetchPage t) lm im m x h t.root_page_id par lo hi) (key : K) (value : V) :
    Stored t key value ↔ Holds (FetchPage t) h t.root_page_id key value := by
  constructor
  · rintro ⟨p, a, b, mx, array, hp, hf, hmem⟩
    exact Holds.of_leaf _ _ _ _ _ _ _ _ _ _ _ _ _ _ hw
      ((InTree_iff_Under hroot hw p).mp hp) hf hmem
  · intro hh
    obtain ⟨p, a, b, mx, array, hp, hf, hmem⟩ := Holds.leaf _ _ _ _ hh
    exact ⟨p, a, b, mx, array, (InTree_iff_Under hroot hw p).mpr hp, hf, hmem⟩

/-- Nothing is stored in the empty tree. -/
theorem not_Stored_of_empty {t : BPlusTree K V} (hroot : t.root_page_id = INVALID_PAGE_ID)
    (key : K) (value : V) : ¬ Stored t key value := by
  rintro ⟨p, a, b, mx, array, hp, hf, hmem⟩
  have : ∀ q, InTree t q → False := by
    intro q hq
    induction hq with
    | root h => exact h hroot
    | child _ _ _ _ _ _ _ _ _ ih => exact ih
  exact this p hp

end BPlusTree

namespace BPlusTreeLeafPage

variable {K V : Type} [LinearOrder K] [Inhabited K]

/-- In a leaf with increasing keys `Lookup` finds exactly the pairs of the leaf. -/
theorem Lookup_eq_some_iff (array : List (K × V)) (key : K) (value : V)
    (hs : (array.map Prod.fst).Pairwise (fun a b => a < b)) :
    Lookup array key = some value ↔ (key, value) ∈ array := by
  induction array with
  | nil => simp [Lookup]
  | cons e rest ih =>
    obtain ⟨k, v⟩ := e
    simp only [List.map_cons, List.pairwise_cons] at hs
    by_cases hk : k = key
    · subst hk
      simp only [Lookup, if_true, Option.some.injEq, List.mem_cons, Prod.mk.injEq, true_and]
      constructor
      · intro h; exact Or.inl h.symm
      · rintro (h | h)
        · exact h.symm
        · exact absurd (hs.1 k (List.mem_map_of_mem Prod.fst h)) (lt_irrefl _)
    · simp only [Lookup, if_neg hk, ih hs.2, List.mem_cons, Prod.mk.injEq]
      constructor
      · intro h; exact Or.inr h
      · rintro (h | h)
        · exact absurd h.1.symm hk
        · exact h

theorem Lookup_eq_none_iff (array : List (K × V)) (key : K) :
    Lookup array key = none ↔ ∀ value, (key, value) ∉ array := by
  induction array with
  | nil => simp [Lookup]
  | cons e rest ih =>
    obtain ⟨k, v⟩ := e
    by_cases hk : k = key
    · subst hk
      simp only [Lookup, if_true, List.mem_cons, Prod.mk.injEq, true_and, not_or, false_iff,
        not_forall, not_and, not_not, reduceCtorEq]
      exact ⟨v, fun h => absurd rfl h⟩
    · simp only [Lookup, if_neg hk, ih, List.mem_cons, Prod.mk.injEq, not_or, not_and]
      constructor
      · intro h value
        exact ⟨fun h1 => absurd h1.symm hk, h value⟩
      · intro h value
        exact (h value).2

end BPlusTreeLeafPage

namespace BPlusTree

variable {K V : Type} [LinearOrder K] [Inhabited K]

theorem resize1_set [Inhabited V] (result : List V) (value : V) :
    (resize1 result).set 0 value = [value] := by
  cases result <;> rfl

/-- The outcome of `FindLeafPage` on a tree that is not empty and satisfies the
invariant: the leaf `leafOf` of the root, and no page changes. -/
theorem FindLeafPage_spec {t : BPlusTree K V} {lm im h : Nat} (key : K) (op : OpType)
    (txn : Option Transaction) (hroot : t.root_page_id ≠ INVALID_PAGE_ID)
    (hw : WF (FetchPage t) lm im (minRoot h) 0 h t.root_page_id INVALID_PAGE_ID ⊥ ⊤)
    (hok : TxnOk op txn) (fuel : Nat) (hfuel : h + 1 ≤ fuel) :
    ∃ txn1, FindLeafPage fuel t key false op txn
        = some (some (leafOf (FetchPage t) key h t.root_page_id), t, txn1) ∧
      TxnOk op txn1 := by
  obtain ⟨p, hp, _⟩ := hw.fetch
  obtain ⟨txn1, hcr, hok1⟩ := CrabingProtocalFetchPage_spec t t.root_page_id op (-1) txn p hp hok
  have hmin : h = 0 ∨ 2 ≤ minRoot h := by
    cases h with
    | zero => exact Or.inl rfl
    | succ h => exact Or.inr (le_refl _)
  obtain ⟨txn2, hloop, hok2⟩ := findLeafLoop_spec t key op lm im h _ _ _ _ _ _ txn1 fuel hw hmin
    hok1 hfuel
  refine ⟨txn2, ?_, hok2⟩
  simp [FindLeafPage, IsEmpty, hroot, hcr, hloop]

/-- The call `GetValue(key, result, transaction)` on a tree that satisfies the
invariant. It returns for all fuel from some bound on and changes no page. If a pair
`(key, value)` is stored it returns `true` and `result` becomes the vector of the one
element `value`; else it returns `false`, and `result` is unchanged on the empty tree
and cut or filled to one element on another tree. -/
theorem Inv.GetValue_eq [Inhabited V] {t : BPlusTree K V} (hinv : Inv t) (key : K)
    (result : List V) (txn : Option Transaction) (hok : TxnOk OpType.READ txn) :
    ∃ n, ∀ fuel, n ≤ fuel → ∃ txn1, TxnOk OpType.READ txn1 ∧
      ((∃ value, Stored t key value ∧
          GetValue fuel t key result txn = some (true, [value], t, txn1)) ∨
       ((∀ value, ¬ Stored t key value) ∧
          GetValue fuel t key result txn = some (false,
            (if t.root_page_id = INVALID_PAGE_ID then result else resize1 result), t, txn1))) := by
  rcases hinv.tree with hroot | ⟨h, hw⟩
  · refine ⟨0, fun fuel _ => ⟨txn, hok, Or.inr ⟨fun v => not_Stored_of_empty hroot key v, ?_⟩⟩⟩
    simp [GetValue, FindLeafPage, IsEmpty, hroot]
  · by_cases hroot : t.root_page_id = INVALID_PAGE_ID
    · refine ⟨0, fun fuel _ => ⟨txn, hok, Or.inr ⟨fun v => not_Stored_of_empty hroot key v, ?_⟩⟩⟩
      simp [GetValue, FindLeafPage, IsEmpty, hroot]
    · refine ⟨h + 1, fun fuel hfuel => ?_⟩
      obtain ⟨txn1, hfind, hok1⟩ := FindLeafPage_spec key OpType.READ txn hroot hw hok fuel hfuel
      obtain ⟨par1, lo1, hi1, hwl, _, _, hun, hholds⟩ := leafOf_spec key h _ _ _ _ _ _ hw
        bot_le (lt_of_lt_of_le bnd_lt_top (le_refl _))
      obtain ⟨array, hf, _, _, _, hsorted, _⟩ := hwl
      have hge : 0 ≤ leafOf (FetchPage t) key h t.root_page_id := (hinv.ids _ _ hf).1
      obtain ⟨txn2, hfree, hok2⟩ : ∃ txn2, FreePagesInTransaction t false txn1
          (leafOf (FetchPage t) key h t.root_page_id) = some (t, txn2) ∧
          TxnOk OpType.READ txn2 := by
        cases txn1 with
        | none => exact ⟨none, FreePagesInTransaction_none t _ hge, rfl⟩
        | some x => exact ⟨emptyTxn, FreePagesInTransaction_some t _ x _ hok1, rfl⟩
      refine ⟨txn2, hok2, ?_⟩
      have hst : ∀ value, Stored t key value ↔ (key, value) ∈ array := by
        intro value
        rw [Stored_iff_Holds hroot hw, hholds]
        constructor
        · rintro ⟨a, b, mx, array1, hf1, hmem⟩
          rw [hf] at hf1
          cases hf1
          exact hmem
        · intro hmem
          exact ⟨_, _, _, _, hf, hmem⟩
      cases hlk : BPlusTreeLeafPage.Lookup array key with
      | none =>
        right
        refine ⟨fun value hs => ?_, ?_⟩
        · exact (BPlusTreeLeafPage.Lookup_eq_none_iff array key).mp hlk value ((hst value).mp hs)
        · simp [GetValue, hfind, hf, hlk, hfree, hroot]
      | some value =>
        left
        refine ⟨value, (hst value).mpr
          ((BPlusTreeLeafPage.Lookup_eq_some_iff array key value hsorted).mp hlk), ?_⟩
        simp [GetValue, hfind, hf, hlk, hfree, resize1_set]

/-- A key is stored with one value at most. -/
theorem Inv.Stored_unique {t : BPlusTree K V} (hinv : Inv t) {key : K} {v1 v2 : V}
    (h1 : Stored t key v1) (h2 : Stored t key v2) : v1 = v2 := by
  rcases hinv.tree with hroot | ⟨h, hw⟩
  · exact absurd h1 (not_Stored_of_empty hroot key v1)
  · by_cases hroot : t.root_page_id = INVALID_PAGE_ID
    · exact absurd h1 (not_Stored_of_empty hroot key v1)
    · obtain ⟨par1, lo1, hi1, hwl, _, _, hun, hholds⟩ := leafOf_spec key h _ _ _ _ _ _ hw
        bot_le (lt_of_lt_of_le bnd_lt_top (le_refl _))
      obtain ⟨array, hf, _, _, _, hsorted, _⟩ := hwl
      rw [Stored_iff_Holds hroot hw, hholds] at h1 h2
      obtain ⟨a, b, mx, array1, hf1, hm1⟩ := h1
      obtain ⟨a2, b2, mx2, array2, hf2, hm2⟩ := h2
      rw [hf] at hf1 hf2
      cases hf1
      cases hf2
      have e1 := (BPlusTreeLeafPage.Lookup_eq_some_iff array key v1 hsorted).mpr hm1
      have e2 := (BPlusTreeLeafPage.Lookup_eq_some_iff array key v2 hsorted).mpr hm2
      rw [e1] at e2
      exact Option.some.inj e2

end BPlusTree

/-! ## B+ tree: the page operations of the insertion -/

namespace BPlusTreeLeafPage

variable {K V : Type} [LinearOrder K] [Inhabited K]

theorem mem_Insert (array : List (K × V)) (key : K) (value : V) (e : K × V) :
    e ∈ Insert array key value ↔ e = (key, value) ∨ e ∈ array := by
  induction array with
  | nil => simp [Insert]
  | cons a rest ih =>
    by_cases hk : key < a.1
    · simp [Insert, hk]
    · simp only [Insert, if_neg hk, List.mem_cons, ih]
      tauto

theorem length_Insert (array : List (K × V)) (key : K) (value : V) :
    (Insert array key value).length = array.length + 1 := by
  induction array with
  | nil => simp [Insert]
  | cons a rest ih =>
    by_cases hk : key < a.1
    · simp [Insert, hk]
    · simp [Insert, hk, ih]

/-- The insertion of a key that the leaf does not hold keeps the keys increasing. -/
theorem sorted_Insert (array : List (K × V)) (key : K) (value : V)
    (hs : (array.map Prod.fst).Pairwise (fun a b => a < b))
    (hn : ∀ v, (key, v) ∉ array) :
    ((Insert array key value).map Prod.fst).Pairwise (fun a b => a < b) := by
  induction array with
  | nil => simp [Insert]
  | cons a rest ih =>
    obtain ⟨k, v⟩ := a
    simp only [List.map_cons, List.pairwise_cons] at hs
    by_cases hk : key < k
    · simp only [Insert, if_pos hk, List.map_cons, List.pairwise_cons, List.mem_cons,
        forall_eq_or_imp]
      exact ⟨⟨hk, fun b hb => lt_trans hk (hs.1 b hb)⟩, hs.1, hs.2⟩
    · have hne : k ≠ key := by
        rintro rfl
        exact hn v (by simp)
      have hlt : k < key := lt_of_le_of_ne (not_lt.mp hk) hne
      simp only [Insert, if_neg hk, List.map_cons, List.pairwise_cons]
      refine ⟨?_, ih hs.2 (fun v1 hv1 => hn v1 (List.mem_cons_of_mem _ hv1))⟩
      intro b hb
      obtain ⟨e, he, rfl⟩ := List.mem_map.mp hb
      rcases (mem_Insert rest key value e).mp he with rfl | he1
      · exact hlt
      · exact hs.1 _ (List.mem_map_of_mem Prod.fst he1)

end BPlusTreeLeafPage

namespace BPlusTree

variable {K V : Type} [LinearOrder K] [Inhabited K]

/-- In a list with increasing keys the keys of a front part are below the first key of
the rest. -/
theorem sorted_take_lt {A : Type} (l : List (K × A)) (n : Nat)
    (hs : (l.map Prod.fst).Pairwise (fun a b => a < b)) (e d : K × A)
    (he : e ∈ l.take n) (hd : d ∈ l.drop n) : e.1 < d.1 := by
  have h := hs
  rw [← List.take_append_drop n l, List.map_append, List.pairwise_append] at h
  exact h.2.2 _ (List.mem_map_of_mem Prod.fst he) _ (List.mem_map_of_mem Prod.fst hd)

theorem sorted_take {A : Type} (l : List (K × A)) (n : Nat)
    (hs : (l.map Prod.fst).Pairwise (fun a b => a < b)) :
    ((l.take n).map Prod.fst).Pairwise (fun a b => a < b) := by
  rw [← List.take_append_drop n l, List.map_append, List.pairwise_append] at hs
  exact hs.1

theorem sorted_drop {A : Type} (l : List (K × A)) (n : Nat)
    (hs : (l.map Prod.fst).Pairwise (fun a b => a < b)) :
    ((l.drop n).map Prod.fst).Pairwise (fun a b => a < b) := by
  rw [← List.take_append_drop n l, List.map_append, List.pairwise_append] at hs
  exact hs.2.1

/-- The first key of a list with increasing keys is the least. -/
theorem sorted_head_le {A : Type} (e : K × A) (l : List (K × A))
    (hs : ((e :: l).map Prod.fst).Pairwise (fun a b => a < b)) (d : K × A)
    (hd : d ∈ e :: l) : e.1 ≤ d.1 := by
  simp only [List.map_cons, List.pairwise_cons] at hs
  rcases List.mem_cons.mp hd with rfl | hd
  · exact le_refl _
  · exact le_of_lt (hs.1 _ (List.mem_map_of_mem Prod.fst hd))

end BPlusTree

namespace BufferPoolManager

variable {K V : Type}

/-- The re-parenting of children that exist: each of them gets the new parent id, the
other pages stay. -/
theorem SetParentPageIds_spec : ∀ (children : List Int) (bpm : BufferPoolManager K V)
    (parent : Int), (∀ c ∈ children, ∃ p, bpm.FetchPage c = some p) →
    ∃ bpm1, bpm.SetParentPageIds children parent = some bpm1 ∧
      bpm1.next_page_id = bpm.next_page_id ∧
      ∀ q, bpm1.FetchPage q = if q ∈ children then
        (bpm.FetchPage q).map (fun p => p.SetParentPageId parent) else bpm.FetchPage q := by
  intro children
  induction children with
  | nil =>
    intro bpm parent _
    exact ⟨bpm, rfl, rfl, fun q => by simp⟩
  | cons c rest ih =>
    intro bpm parent hex
    obtain ⟨p, hp⟩ := hex c (by simp)
    have hex1 : ∀ d ∈ rest, ∃ p1, (bpm.store c (p.SetParentPageId parent)).FetchPage d
        = some p1 := by
      intro d hd
      obtain ⟨p1, hp1⟩ := hex d (by simp [hd])
      by_cases hcd : c = d
      · exact ⟨p.SetParentPageId parent, by simp [hcd]⟩
      · exact ⟨p1, by simp [hcd, hp1]⟩
    obtain ⟨bpm1, h1, h2, h3⟩ := ih (bpm.store c (p.SetParentPageId parent)) parent hex1
    refine ⟨bpm1, ?_, ?_, ?_⟩
    · simp [SetParentPageIds, SetParentPageId, hp, h1]
    · rw [h2]; rfl
    · intro q
      rw [h3]
      by_cases hq : q ∈ rest
      · by_cases hcq : c = q
        · subst hcq
          simp only [hq, if_true, FetchPage_store, hp, Option.map_some', List.mem_cons,
            true_or]
          cases p <;> rfl
        · simp [hq, hcq]
      · by_cases hcq : c = q
        · subst hcq
          simp [hq, hp]
        · have : ¬ q = c := fun h => hcq h.symm
          simp [hq, hcq, this]

end BufferPoolManager

namespace BPlusTree

variable {K V : Type} [LinearOrder K] [Inhabited K]

theorem FetchPage_def (t : BPlusTree K V) (q : Int) :
    FetchPage t q = t.buffer_pool_manager.FetchPage q := rfl

/-- The call `Split` on a leaf: the leaf keeps the front half of its pairs, the rest
goes to a new leaf with the id of the next new page and with the same parent. -/
theorem Split_leaf (t : BPlusTree K V) (node par : Int) (mx : Nat) (array : List (K × V))
    (x : Transaction)
    (hf : FetchPage t node = some (BPlusTreePage.leaf node par mx array))
    (hfresh : node ≠ t.buffer_pool_manager.next_page_id) :
    ∃ t1, Split t node (some x) = some (t.buffer_pool_manager.next_page_id, t1,
        some (x.AddIntoPageSet t.buffer_pool_manager.next_page_id)) ∧
      t1.root_page_id = t.root_page_id ∧ t1.leaf_max_size = t.leaf_max_size ∧
      t1.internal_max_size = t.internal_max_size ∧
      t1.buffer_pool_manager.next_page_id = t.buffer_pool_manager.next_page_id + 1 ∧
      ∀ q, FetchPage t1 q =
        if q = node then some (BPlusTreePage.leaf node par mx (array.take (array.length / 2)))
        else if q = t.buffer_pool_manager.next_page_id then
          some (BPlusTreePage.leaf t.buffer_pool_manager.next_page_id par t.leaf_max_size
            (array.drop (array.length / 2)))
        else FetchPage t q := by
  have hf1 : t.buffer_pool_manager.FetchPage node
      = some (BPlusTreePage.leaf node par mx array) := hf
  have hf2 : ∀ n, BufferPoolManager.FetchPage
      { pages := t.buffer_pool_manager.pages, next_page_id := n } node
      = some (BPlusTreePage.leaf node par mx array) := fun n => hf
  have hne : ¬ t.buffer_pool_manager.next_page_id = node := fun h => hfresh h.symm
  refine ⟨{ t with buffer_pool_manager :=
      (((BufferPoolManager.store
        { pages := t.buffer_pool_manager.pages,
          next_page_id := t.buffer_pool_manager.next_page_id + 1 }
        t.buffer_pool_manager.next_page_id
        (BPlusTreePage.leaf t.buffer_pool_manager.next_page_id par t.leaf_max_size [])).store
        t.buffer_pool_manager.next_page_id
        (BPlusTreePage.leaf t.buffer_pool_manager.next_page_id par t.leaf_max_size
          (array.drop (array.length / 2)))).store node
        (BPlusTreePage.leaf node par mx (array.take (array.length / 2)))) },
    ?_, rfl, rfl, rfl, rfl, ?_⟩
  · simp only [Split, BufferPoolManager.NewPage, Option.bind_eq_bind, Option.some_bind, hf2,
      BPlusTreeLeafPage.MoveHalfTo, BPlusTreeLeafPage.Init,
      BufferPoolManager.FetchPage_store, hne, if_false, if_true]
  · intro q
    simp only [FetchPage_def, BufferPoolManager.FetchPage_store]
    by_cases hq : q = node
    · subst hq
      simp
    · have : ¬ node = q := fun h => hq h.symm
      simp only [this, hq, if_false]
      by_cases hq1 : q = t.buffer_pool_manager.next_page_id
      · subst hq1
        simp
      · have : ¬ t.buffer_pool_manager.next_page_id = q := fun h => hq1 h.symm
        simp only [this, hq1, if_false]
        rfl

/-- The call `Split` on an internal page that holds one pair more than its capacity:
the page keeps the front half of its pairs, the rest goes to a new internal page with
the id of the next new page and with the same parent, and the children that moved get
the new page as parent. -/
theorem Split_internal (t : BPlusTree K V) (node par : Int) (mx : Nat)
    (array : List (K × Int)) (x : Transaction)
    (hf : FetchPage t node = some (BPlusTreePage.internal node par mx array))
    (hlen : array.length = mx + 1)
    (hex : ∀ c ∈ (array.drop ((mx + 1) / 2)).map Prod.snd, ∃ p, FetchPage t c = some p)
    (hnode : node ∉ (array.drop ((mx + 1) / 2)).map Prod.snd)
    (hfresh : FetchPage t t.buffer_pool_manager.next_page_id = none) :
    ∃ t1, Split t node (some x) = some (t.buffer_pool_manager.next_page_id, t1,
        some (x.AddIntoPageSet t.buffer_pool_manager.next_page_id)) ∧
      t1.root_page_id = t.root_page_id ∧ t1.leaf_max_size = t.leaf_max_size ∧
      t1.internal_max_size = t.internal_max_size ∧
      t1.buffer_pool_manager.next_page_id = t.buffer_pool_manager.next_page_id + 1 ∧
      ∀ q, FetchPage t1 q =
        if q = node then
          some (BPlusTreePage.internal node par mx (array.take ((mx + 1) / 2)))
        else if q = t.buffer_pool_manager.next_page_id then
          some (BPlusTreePage.internal t.buffer_pool_manager.next_page_id par
            t.internal_max_size (array.drop ((mx + 1) / 2)))
        else if q ∈ (array.drop ((mx + 1) / 2)).map Prod.snd then
          (FetchPage t q).map
            (fun p => p.SetParentPageId t.buffer_pool_manager.next_page_id)
        else FetchPage t q := by
  have hnn : node ≠ t.buffer_pool_manager.next_page_id := by
    rintro h
    rw [← h, hf] at hfresh
    cases hfresh
  have hne : ¬ t.buffer_pool_manager.next_page_id = node := fun h => hnn h.symm
  have hnext : t.buffer_pool_manager.next_page_id ∉ (array.drop ((mx + 1) / 2)).map Prod.snd := by
    intro h
    obtain ⟨p, hp⟩ := hex _ h
    rw [hfresh] at hp
    cases hp
  let bpm0 : BufferPoolManager K V :=
    BufferPoolManager.store
      { pages := t.buffer_pool_manager.pages,
        next_page_id := t.buffer_pool_manager.next_page_id + 1 }
      t.buffer_pool_manager.next_page_id
      (BPlusTreePage.internal t.buffer_pool_manager.next_page_id par t.internal_max_size [])
  have h0 : ∀ q, bpm0.FetchPage q = if t.buffer_pool_manager.next_page_id = q then
      some (BPlusTreePage.internal t.buffer_pool_manager.next_page_id par
        t.internal_max_size []) else FetchPage t q := by
    intro q
    simp only [bpm0, BufferPoolManager.FetchPage_store]
    rfl
  have hex0 : ∀ c ∈ (array.drop ((mx + 1) / 2)).map Prod.snd, ∃ p, bpm0.FetchPage c = some p := by
    intro c hc
    obtain ⟨p, hp⟩ := hex c hc
    have : ¬ t.buffer_pool_manager.next_page_id = c := by
      rintro rfl
      exact hnext hc
    exact ⟨p, by rw [h0, if_neg this, hp]⟩
  obtain ⟨bpm1, hs1, hs2, hs3⟩ := BufferPoolManager.SetParentPageIds_spec
    ((array.drop ((mx + 1) / 2)).map Prod.snd) bpm0 t.buffer_pool_manager.next_page_id hex0
  have hf0 : bpm0.FetchPage node = some (BPlusTreePage.internal node par mx array) := by
    rw [h0, if_neg hne, hf]
  have hr1 : bpm1.FetchPage t.buffer_pool_manager.next_page_id
      = some (BPlusTreePage.internal t.buffer_pool_manager.next_page_id par
        t.internal_max_size []) := by
    rw [hs3, if_neg hnext, h0, if_pos rfl]
  have hn1 : bpm1.FetchPage node = some (BPlusTreePage.internal node par mx array) := by
    rw [hs3, if_neg hnode, hf0]
  refine ⟨{ t with buffer_pool_manager :=
      ((bpm1.store t.buffer_pool_manager.next_page_id
        (BPlusTreePage.internal t.buffer_pool_manager.next_page_id par t.internal_max_size
          (array.drop ((mx + 1) / 2)))).store node
        (BPlusTreePage.internal node par mx (array.take ((mx + 1) / 2)))) }, ?_, rfl, rfl, rfl,
      ?_, ?_⟩
  · have hf2 : BufferPoolManager.FetchPage
        { pages := t.buffer_pool_manager.pages,
          next_page_id := t.buffer_pool_manager.next_page_id + 1 } node
        = some (BPlusTreePage.internal node par mx array) := hf
    simp only [bpm0] at hs1
    simp only [Split, BufferPoolManager.NewPage, Option.bind_eq_bind, Option.some_bind, hf2,
      BPlusTreeInternalPage.MoveHalfTo, BPlusTreeInternalPage.Init,
      BufferPoolManager.FetchPage_store, hne, if_false, hlen, ne_eq, not_true_eq_false,
      if_true, BPlusTreePage.GetPageId, hs1, hr1, hn1]
  · simp only [BufferPoolManager.next_page_id_store, hs2]
    rfl
  · intro q
    simp only [FetchPage_def, BufferPoolManager.FetchPage_store]
    by_cases hq : q = node
    · subst hq
      simp
    · have : ¬ node = q := fun h => hq h.symm
      simp only [this, hq, if_false]
      by_cases hq1 : q = t.buffer_pool_manager.next_page_id
      · subst hq1
        simp
      · have hq2 : ¬ t.buffer_pool_manager.next_page_id = q := fun h => hq1 h.symm
        simp only [hq2, hq1, if_false]
        rw [hs3, h0, if_neg hq2]
        rfl

end BPlusTree

/-! ## B+ tree: the invariant across a split -/

namespace BPlusTree

variable {K V : Type} [LinearOrder K] [Inhabited K]

theorem kidsOf_congr_parent {f g : Int → Option (BPlusTreePage K V)} {q : Int}
    (h : (g q).map (fun p => p.SetParentPageId 0) = (f q).map (fun p => p.SetParentPageId 0)) :
    kidsOf g q = kidsOf f q := by
  unfold kidsOf
  cases hg : g q with
  | none =>
    cases hf : f q with
    | none => rfl
    | some p => rw [hg, hf] at h; cases h
  | some p1 =>
    cases hf : f q with
    | none => rw [hg, hf] at h; cases h
    | some p =>
      rw [hg, hf] at h
      cases p <;> cases p1 <;> simp [BPlusTreePage.SetParentPageId] at h ⊢
      exact congrArg _ h.2.2

/-- Membership in a subtree does not depend on the parent ids in the headers. -/
theorem Under.under_congr_parent {f g : Int → Option (BPlusTreePage K V)} :
    ∀ (h : Nat) (pid : Int),
      (∀ q, Under f h pid q → (g q).map (fun p => p.SetParentPageId 0)
        = (f q).map (fun p => p.SetParentPageId 0)) →
      ∀ q, Under g h pid q ↔ Under f h pid q := by
  intro h
  induction h with
  | zero => intro pid _ q; exact Iff.rfl
  | succ h ih =>
    intro pid hag q
    have hk : kidsOf g pid = kidsOf f pid := kidsOf_congr_parent (hag pid (Under.self f _ pid))
    simp only [Under, hk]
    constructor
    · rintro (rfl | ⟨c, hc, hq⟩)
      · exact Or.inl rfl
      · exact Or.inr ⟨c, hc, (ih c (fun q1 hq1 => hag q1 (Under.of_child hc hq1)) q).mp hq⟩
    · rintro (rfl | ⟨c, hc, hq⟩)
      · exact Or.inl rfl
      · exact Or.inr ⟨c, hc, (ih c (fun q1 hq1 => hag q1 (Under.of_child hc hq1)) q).mpr hq⟩

/-- The stored pairs of a subtree do not depend on the parent ids in the headers. -/
theorem Holds.holds_congr_parent {f g : Int → Option (BPlusTreePage K V)} :
    ∀ (h : Nat) (pid : Int),
      (∀ q, Under f h pid q → (g q).map (fun p => p.SetParentPageId 0)
        = (f q).map (fun p => p.SetParentPageId 0)) →
      ∀ key value, Holds g h pid key value ↔ Holds f h pid key value := by
  intro h
  induction h with
  | zero =>
    intro pid hag key value
    have h0 := hag pid rfl
    simp only [Holds]
    cases hg : g pid with
    | none =>
      cases hf : f pid with
      | none => simp
      | some p => rw [hg, hf] at h0; cases h0
    | some p1 =>
      cases hf : f pid with
      | none => rw [hg, hf] at h0; cases h0
      | some p =>
        rw [hg, hf] at h0
        cases p <;> cases p1 <;> simp [BPlusTreePage.SetParentPageId] at h0 ⊢
        obtain ⟨_, _, h3⟩ := h0
        subst h3
        constructor
        · rintro ⟨_, _, _, array, ⟨_, _, _, rfl⟩, hm⟩
          exact ⟨_, _, _, _, ⟨rfl, rfl, rfl, rfl⟩, hm⟩
        · rintro ⟨_, _, _, array, ⟨_, _, _, rfl⟩, hm⟩
          exact ⟨_, _, _, _, ⟨rfl, rfl, rfl, rfl⟩, hm⟩
  | succ h ih =>
    intro pid hag key value
    have hk : kidsOf g pid = kidsOf f pid := kidsOf_congr_parent (hag pid (Under.self f _ pid))
    simp only [Holds, hk]
    constructor
    · rintro ⟨c, hc, hq⟩
      exact ⟨c, hc, (ih c (fun q1 hq1 => hag q1 (Under.of_child hc hq1)) key value).mp hq⟩
    · rintro ⟨c, hc, hq⟩
      exact ⟨c, hc, (ih c (fun q1 hq1 => hag q1 (Under.of_child hc hq1)) key value).mpr hq⟩

/-- The invariant of a subtree whose root page gets another parent id. -/
theorem WF.reparent {f g : Int → Option (BPlusTreePage K V)} {lm im m x h : Nat}
    {c par : Int} {lo hi : Bound K} (hw : WF f lm im m x h c par lo hi) (par1 : Int)
    (hg : ∀ p, f c = some p → g c = some (p.SetParentPageId par1))
    (hag : ∀ q, Under f h c q → q ≠ c → g q = f q) :
    WF g lm im m x h c par1 lo hi := by
  cases h with
  | zero =>
    obtain ⟨array, hf, rest⟩ := hw
    exact ⟨array, by rw [hg _ hf]; rfl, rest⟩
  | succ h =>
    have hw0 := hw
    obtain ⟨array, hf, h1, h2, h3, h4, h5, h6, hseg⟩ := hw
    refine ⟨array, by rw [hg _ hf]; rfl, h1, h2, h3, h4, h5, h6, ?_⟩
    refine hseg.imp ?_
    intro d l u hd hwd
    rw [slots_map_snd] at hd
    have hd1 : d ∈ kidsOf f c := by rw [kidsOf_internal hf]; exact hd
    have hagd : ∀ q, Under f h d q → g q = f q := by
      intro q hq
      apply hag q (Under.of_child hd1 hq)
      rintro rfl
      exact hw0.not_under_child hd1 hq
    have hwd1 := WF.congr h _ _ d c l u hagd hwd
    obtain ⟨p, hp, _⟩ := hwd.fetch
    cases h with
    | zero =>
      obtain ⟨array1, hfd, rest1⟩ := hwd1
      exact ⟨array1, hfd, rest1⟩
    | succ h =>
      obtain ⟨array1, hfd, rest1⟩ := hwd1
      exact ⟨array1, hfd, rest1⟩

end BPlusTree

namespace BPlusTree

variable {K V : Type} [LinearOrder K] [Inhabited K]

theorem WF.under_exists {f : Int → Option (BPlusTreePage K V)} {lm im m x h : Nat}
    {pid par : Int} {lo hi : Bound K} (hw : WF f lm im m x h pid par lo hi) {q : Int}
    (hq : Under f h pid q) : ∃ p, f q = some p := by
  obtain ⟨m1, x1, h1, par1, lo1, hi1, _, hw1⟩ := WF.under _ _ _ _ _ _ _ _ hw hq
  obtain ⟨p, hp, _⟩ := hw1.fetch
  exact ⟨p, hp⟩

/-- A child of a page is not a page of the subtree of another child. -/
theorem WF.sibling_not_under {f : Int → Option (BPlusTreePage K V)} {lm im m x h : Nat}
    {pid par : Int} {lo hi : Bound K} (hw : WF f lm im m x (h + 1) pid par lo hi)
    {d d1 : Int} (hd : d ∈ kidsOf f pid) (hd1 : d1 ∈ kidsOf f pid) (hne : d ≠ d1) :
    ¬ Under f h d d1 := by
  intro hu
  obtain ⟨l, u, hwd⟩ := hw.child hd
  obtain ⟨l1, u1, hwd1⟩ := hw.child hd1
  exact WF.disjoint h _ _ _ _ d d1 pid pid l u l1 u1 d1 hwd hwd1 hne hu (Under.self _ _ _)

theorem Holds_succ_iff {f : Int → Option (BPlusTreePage K V)} {h : Nat} {pid a b : Int}
    {mx : Nat} {array : List (K × Int)}
    (hf : f pid = some (BPlusTreePage.internal a b mx array)) (key : K) (value : V) :
    Holds f (h + 1) pid key value ↔ ∃ d ∈ array.map Prod.snd, Holds f h d key value := by
  simp only [Holds, kidsOf_internal hf]

theorem Holds_zero_iff {f : Int → Option (BPlusTreePage K V)} {pid a b : Int}
    {mx : Nat} {array : List (K × V)}
    (hf : f pid = some (BPlusTreePage.leaf a b mx array)) (key : K) (value : V) :
    Holds f 0 pid key value ↔ (key, value) ∈ array := by
  simp only [Holds, hf, Option.some.injEq, BPlusTreePage.leaf.injEq]
  constructor
  · rintro ⟨_, _, _, _, ⟨_, _, _, rfl⟩, hm⟩
    exact hm
  · intro hm
    exact ⟨_, _, _, _, ⟨rfl, rfl, rfl, rfl⟩, hm⟩

/-- The split of a leaf that holds one pair more than its capacity gives two leaves
that satisfy the invariant, separated by the first key of the new leaf. -/
theorem WF.split_leaf {f g : Int → Option (BPlusTreePage K V)} {lm im m : Nat}
    {c par new : Int} {lo hi : Bound K} (hlm : 2 ≤ lm)
    (hw : WF f lm im m 1 0 c par lo hi) (array : List (K × V))
    (hf : f c = some (BPlusTreePage.leaf c par lm array)) (hlen : array.length = lm + 1)
    (hgc : g c = some (BPlusTreePage.leaf c par lm (array.take (array.length / 2))))
    (hgn : g new = some (BPlusTreePage.leaf new par lm (array.drop (array.length / 2)))) :
    ∃ key1 v1 rest, array.drop (array.length / 2) = (key1, v1) :: rest ∧
      WF g lm im (minNonRoot lm im 0) 0 0 c par lo (bnd key1) ∧
      WF g lm im (minNonRoot lm im 0) 0 0 new par (bnd key1) hi ∧
      ∀ k v, (Holds g 0 c k v ∨ Holds g 0 new k v) ↔ Holds f 0 c k v := by
  obtain ⟨array1, hf1, _, _, hlt, hsorted, hb⟩ := hw
  rw [hf] at hf1
  cases hf1
  have hn : array.length / 2 < array.length := by omega
  obtain ⟨e, rest, hdrop⟩ : ∃ e rest, array.drop (array.length / 2) = e :: rest := by
    cases hd : array.drop (array.length / 2) with
    | nil =>
      have := congrArg List.length hd
      simp at this
      omega
    | cons e rest => exact ⟨e, rest, rfl⟩
  obtain ⟨key1, v1⟩ := e
  have hmem1 : (key1, v1) ∈ array := List.mem_of_mem_drop (by rw [hdrop]; simp)
  have htl : (array.take (array.length / 2)).length = array.length / 2 := by
    simp; omega
  have hdl : (array.drop (array.length / 2)).length = array.length - array.length / 2 := by
    simp
  refine ⟨key1, v1, rest, hdrop, ?_, ?_, ?_⟩
  · refine ⟨_, hgc, ?_, ?_, ?_, sorted_take _ _ hsorted, ?_⟩
    · rw [htl]; simp only [minNonRoot]; omega
    · rw [htl]; omega
    · obtain ⟨e0, he0⟩ : ∃ e0, e0 ∈ array.take (array.length / 2) :=
        List.exists_mem_of_length_pos (by rw [htl]; omega)
      have h1 := (hb e0 (List.mem_of_mem_take he0)).1
      have h2 := sorted_take_lt array _ hsorted e0 (key1, v1) he0 (by rw [hdrop]; simp)
      exact lt_of_le_of_lt h1 (by simpa using h2)
    · intro e0 he0
      refine ⟨(hb e0 (List.mem_of_mem_take he0)).1, ?_⟩
      have h2 := sorted_take_lt array _ hsorted e0 (key1, v1) he0 (by rw [hdrop]; simp)
      simpa using h2
  · refine ⟨_, hgn, ?_, ?_, (hb _ hmem1).2, sorted_drop _ _ hsorted, ?_⟩
    · rw [hdl]; simp only [minNonRoot]; omega
    · rw [hdl]; omega
    · intro e0 he0
      refine ⟨?_, (hb e0 (List.mem_of_mem_drop he0)).2⟩
      have hs2 := sorted_drop array (array.length / 2) hsorted
      rw [hdrop] at hs2 he0
      simpa using sorted_head_le (key1, v1) rest hs2 e0 he0
  · intro k v
    rw [Holds_zero_iff hgc, Holds_zero_iff hgn, Holds_zero_iff hf, ← List.mem_append,
      List.take_append_drop]

end BPlusTree

namespace BPlusTree

variable {K V : Type} [LinearOrder K] [Inhabited K]

theorem slots_cons_eq (lo : Bound K) (k : K) (c : Int) (B : List (K × Int)) :
    slots lo ((k, c) :: B) = (lo, c) :: B.map (fun e => (bnd e.1, e.2)) := rfl

/-- The split of an internal page that holds one pair more than its capacity gives two
pages that satisfy the invariant, separated by the key of slot 0 of the new page. -/
theorem WF.split_internal {f g : Int → Option (BPlusTreePage K V)} {lm im m h : Nat}
    {c par new : Int} {lo hi : Bound K} (him : 3 ≤ im)
    (hw : WF f lm im m 1 (h + 1) c par lo hi) (array : List (K × Int))
    (hf : f c = some (BPlusTreePage.internal c par im array)) (hlen : array.length = im + 1)
    (hnew : f new = none)
    (hg : ∀ q, g q =
      if q = c then some (BPlusTreePage.internal c par im (array.take ((im + 1) / 2)))
      else if q = new then
        some (BPlusTreePage.internal new par im (array.drop ((im + 1) / 2)))
      else if q ∈ (array.drop ((im + 1) / 2)).map Prod.snd then
        (f q).map (fun p => p.SetParentPageId new)
      else f q) :
    ∃ key1 c1 rest, array.drop ((im + 1) / 2) = (key1, c1) :: rest ∧
      WF g lm im (minNonRoot lm im (h + 1)) 0 (h + 1) c par lo (bnd key1) ∧
      WF g lm im (minNonRoot lm im (h + 1)) 0 (h + 1) new par (bnd key1) hi ∧
      (∀ k v, (Holds g (h + 1) c k v ∨ Holds g (h + 1) new k v) ↔ Holds f (h + 1) c k v) ∧
      (∀ q, Under g (h + 1) c q ∨ Under g (h + 1) new q → Under f (h + 1) c q ∨ q = new) ∧
      ∀ q, ¬ Under f (h + 1) c q → q ≠ new → g q = f q := by
  have hw0 := hw
  obtain ⟨array1, hf1, _, _, _, hlt, hmirror, hnodup, hseg⟩ := hw
  rw [hf] at hf1
  cases hf1
  have hgc : g c = some (BPlusTreePage.internal c par im (array.take ((im + 1) / 2))) := by
    rw [hg, if_pos rfl]
  have hcn : c ≠ new := by
    rintro rfl
    rw [hf] at hnew
    cases hnew
  have hgn : g new = some (BPlusTreePage.internal new par im (array.drop ((im + 1) / 2))) := by
    rw [hg, if_neg (fun h => hcn h.symm), if_pos rfl]
  obtain ⟨e, rest, hdrop⟩ : ∃ e rest, array.drop ((im + 1) / 2) = e :: rest := by
    cases hd : array.drop ((im + 1) / 2) with
    | nil =>
      have := congrArg List.length hd
      simp at this
      omega
    | cons e rest => exact ⟨e, rest, rfl⟩
  obtain ⟨key1, c1⟩ := e
  have htl : (array.take ((im + 1) / 2)).length = (im + 1) / 2 := by
    simp; omega
  have hdl : (array.drop ((im + 1) / 2)).length = im + 1 - (im + 1) / 2 := by
    simp [hlen]
  obtain ⟨a0, A, hA⟩ : ∃ a0 A, array.take ((im + 1) / 2) = a0 :: A := by
    cases ht : array.take ((im + 1) / 2) with
    | nil =>
      rw [ht] at htl
      simp at htl
      omega
    | cons a0 A => exact ⟨a0, A, rfl⟩
  have harr : array = (a0 :: A) ++ (key1, c1) :: rest := by
    rw [← hA, ← hdrop, List.take_append_drop]
  have hkids : kidsOf f c = array.map Prod.snd := kidsOf_internal hf
  rw [harr, slots_append_cons, Seg_append] at hseg
  obtain ⟨hsA, hsB⟩ := hseg
  simp only [ub_cons, lbAt] at hsA hsB
  have hnd := hnodup
  rw [harr, List.map_append, List.nodup_append] at hnd
  obtain ⟨hndA, hndB, hdisj⟩ := hnd
  have hkA : ∀ d ∈ (a0 :: A).map Prod.snd, d ∈ kidsOf f c := by
    intro d hd
    rw [hkids, harr, List.map_append]
    exact List.mem_append_left _ hd
  have hkB : ∀ d ∈ ((key1, c1) :: rest).map Prod.snd, d ∈ kidsOf f c := by
    intro d hd
    rw [hkids, harr, List.map_append]
    exact List.mem_append_right _ hd
  have hkept : ∀ d ∈ (a0 :: A).map Prod.snd, ∀ q, Under f h d q → g q = f q := by
    intro d hd q hq
    have hdk : d ∈ kidsOf f c := hkA d hd
    have h1 : q ≠ c := by
      rintro rfl
      exact hw0.not_under_child hdk hq
    have h2 : q ≠ new := by
      rintro rfl
      obtain ⟨l, u, hwd⟩ := hw0.child hdk
      obtain ⟨p, hp⟩ := hwd.under_exists hq
      rw [hnew] at hp
      cases hp
    have h3 : q ∉ (array.drop ((im + 1) / 2)).map Prod.snd := by
      intro hq1
      rw [hdrop] at hq1
      have hqk : q ∈ kidsOf f c := hkB q hq1
      have hne : d ≠ q := by
        rintro rfl
        exact hdisj hd hq1
      exact hw0.sibling_not_under hdk hqk hne hq
    rw [hg, if_neg h1, if_neg h2, if_neg h3]
  have hmoved : ∀ d ∈ ((key1, c1) :: rest).map Prod.snd,
      (∀ p, f d = some p → g d = some (p.SetParentPageId new)) ∧
      ∀ q, Under f h d q → q ≠ d → g q = f q := by
    intro d hd
    have hdk : d ∈ kidsOf f c := hkB d hd
    obtain ⟨l, u, hwd⟩ := hw0.child hdk
    have hdc : d ≠ c := by
      rintro rfl
      exact hw0.not_under_child hdk (Under.self _ _ _)
    have hdn : d ≠ new := by
      rintro rfl
      obtain ⟨p, hp, _⟩ := hwd.fetch
      rw [hnew] at hp
      cases hp
    constructor
    · intro p hp
      rw [hg, if_neg hdc, if_neg hdn, if_pos (by rw [hdrop]; exact hd), hp]
      rfl
    · intro q hq hqd
      have h1 : q ≠ c := by
        rintro rfl
        exact hw0.not_under_child hdk hq
      have h2 : q ≠ new := by
        rintro rfl
        obtain ⟨p, hp⟩ := hwd.under_exists hq
        rw [hnew] at hp
        cases hp
      have h3 : q ∉ (array.drop ((im + 1) / 2)).map Prod.snd := by
        intro hq1
        rw [hdrop] at hq1
        have hqk : q ∈ kidsOf f c := hkB q hq1
        exact hw0.sibling_not_under hdk hqk (fun h => hqd h.symm) hq
      rw [hg, if_neg h1, if_neg h2, if_neg h3]
  have hltB : bnd key1 < hi := by
    have := hsB.ub_lt (fun c l u hc => WF.lt hc) (by simp)
    simpa using this
  have hltA : lo < bnd key1 := by
    have := hsA.ub_lt (fun c l u hc => WF.lt hc) (slots_ne_nil lo _ (by simp))
    obtain ⟨k0, c0⟩ := a0
    simpa [slots] using this
  have hmoved_strip : ∀ d ∈ ((key1, c1) :: rest).map Prod.snd, ∀ q, Under f h d q →
      (g q).map (fun p => p.SetParentPageId 0) = (f q).map (fun p => p.SetParentPageId 0) := by
    intro d hd q hq
    obtain ⟨hg1, hg2⟩ := hmoved d hd
    obtain ⟨l, u, hwd⟩ := hw0.child (hkB d hd)
    by_cases hqd : q = d
    · subst hqd
      obtain ⟨p, hp, _⟩ := hwd.fetch
      rw [hg1 p hp, hp]
      cases p <;> rfl
    · rw [hg2 q hq hqd]
  refine ⟨key1, c1, rest, hdrop, ?_, ?_, ?_, ?_, ?_⟩
  · refine ⟨_, hgc, ?_, ?_, ?_, hltA, ?_, ?_, ?_⟩
    · rw [htl]; simp only [minNonRoot]; omega
    · rw [htl]; omega
    · rw [htl]; omega
    · intro l hl
      have := hmirror l hl
      rw [harr] at this
      rw [hA]
      simpa using this
    · rw [hA]; exact hndA
    · rw [hA]
      refine hsA.imp ?_
      intro d l u hd hwd
      rw [slots_map_snd] at hd
      exact WF.congr _ _ _ _ _ _ _ (hkept d hd) hwd
  · refine ⟨_, hgn, ?_, ?_, ?_, hltB, ?_, ?_, ?_⟩
    · rw [hdl]; simp only [minNonRoot]; omega
    · rw [hdl]; omega
    · rw [hdl]; omega
    · intro l hl
      rw [hdrop]
      simp only [List.head?_cons, Option.map_some', Option.some.injEq]
      exact (bnd_inj hl).symm ▸ rfl
    · rw [hdrop]; exact hndB
    · rw [hdrop, slots_cons_eq]
      refine hsB.imp ?_
      intro d l u hd hwd
      have hd1 : d ∈ ((key1, c1) :: rest).map Prod.snd := by
        simpa [Function.comp_def] using hd
      obtain ⟨hg1, hg2⟩ := hmoved d hd1
      exact WF.reparent hwd new hg1 hg2
  · intro k v
    rw [Holds_succ_iff hgc, Holds_succ_iff hgn, Holds_succ_iff hf, hA, hdrop]
    have e1 : ∀ d ∈ (a0 :: A).map Prod.snd, (Holds g h d k v ↔ Holds f h d k v) := by
      intro d hd
      exact Holds.holds_congr h d (hkept d hd) k v
    have e2 : ∀ d ∈ ((key1, c1) :: rest).map Prod.snd, (Holds g h d k v ↔ Holds f h d k v) := by
      intro d hd
      exact Holds.holds_congr_parent h d (hmoved_strip d hd) k v
    rw [harr, List.map_append]
    constructor
    · rintro (⟨d, hd, hh⟩ | ⟨d, hd, hh⟩)
      · exact ⟨d, List.mem_append_left _ hd, (e1 d hd).mp hh⟩
      · exact ⟨d, List.mem_append_right _ hd, (e2 d hd).mp hh⟩
    · rintro ⟨d, hd, hh⟩
      rcases List.mem_append.mp hd with hd | hd
      · exact Or.inl ⟨d, hd, (e1 d hd).mpr hh⟩
      · exact Or.inr ⟨d, hd, (e2 d hd).mpr hh⟩
  · intro q hq
    rcases hq with hq | hq
    · rcases hq with rfl | ⟨d, hd, hqd⟩
      · exact Or.inl (Under.self _ _ _)
      · rw [kidsOf_internal hgc, hA] at hd
        exact Or.inl (Under.of_child (hkA d hd) ((Under.under_congr h d (hkept d hd) q).mp hqd))
    · rcases hq with rfl | ⟨d, hd, hqd⟩
      · exact Or.inr rfl
      · rw [kidsOf_internal hgn, hdrop] at hd
        exact Or.inl (Under.of_child (hkB d hd)
          ((Under.under_congr_parent h d (hmoved_strip d hd) q).mp hqd))
  · intro q hq hqn
    have h1 : q ≠ c := by
      rintro rfl
      exact hq (Under.self _ _ _)
    have h3 : q ∉ (array.drop ((im + 1) / 2)).map Prod.snd := by
      intro hq1
      rw [hdrop] at hq1
      exact hq (Under.of_child (hkB q hq1) (Under.self _ _ _))
    rw [hg, if_neg h1, if_neg hqn, if_neg h3]

end BPlusTree

/-! ## B+ tree: `Split` and `InsertIntoParent` on a tree that satisfies the invariant -/

namespace BPlusTree

variable {K V : Type} [LinearOrder K] [Inhabited K]

/-- The call `Split` on the root page of a subtree that satisfies the invariant but for
one pair too many in that page. -/
theorem Split_spec {lm im m h : Nat} (hlm : 2 ≤ lm) (him : 3 ≤ im) {t : BPlusTree K V}
    (hp : PoolOk lm im t) {c par : Int} {lo hi : Bound K}
    (hw : WF (FetchPage t) lm im m 1 h c par lo hi)
    (hover : ∀ p, FetchPage t c = some p → p.GetSize > p.GetMaxSize) (x : Transaction) :
    ∃ t1 key1, Split t c (some x) = some (t.buffer_pool_manager.next_page_id, t1,
        some (x.AddIntoPageSet t.buffer_pool_manager.next_page_id)) ∧
      firstKey t1 t.buffer_pool_manager.next_page_id = some key1 ∧
      PoolOk lm im t1 ∧ t1.root_page_id = t.root_page_id ∧
      t1.buffer_pool_manager.next_page_id = t.buffer_pool_manager.next_page_id + 1 ∧
      WF (FetchPage t1) lm im (minNonRoot lm im h) 0 h c par lo (bnd key1) ∧
      WF (FetchPage t1) lm im (minNonRoot lm im h) 0 h t.buffer_pool_manager.next_page_id par
        (bnd key1) hi ∧
      (∀ k v, (Holds (FetchPage t1) h c k v ∨
          Holds (FetchPage t1) h t.buffer_pool_manager.next_page_id k v) ↔
        Holds (FetchPage t) h c k v) ∧
      (∀ q, Under (FetchPage t1) h c q ∨
          Under (FetchPage t1) h t.buffer_pool_manager.next_page_id q →
        Under (FetchPage t) h c q ∨ q = t.buffer_pool_manager.next_page_id) ∧
      ∀ q, ¬ Under (FetchPage t) h c q → q ≠ t.buffer_pool_manager.next_page_id →
        FetchPage t1 q = FetchPage t q := by
  have hfresh : FetchPage t t.buffer_pool_manager.next_page_id = none := by
    cases hq : FetchPage t t.buffer_pool_manager.next_page_id with
    | none => rfl
    | some p => exact absurd (hp.ids _ _ hq).2 (lt_irrefl _)
  cases h with
  | zero =>
    have hw0 := hw
    obtain ⟨array, hf, _, hlen, _⟩ := hw
    have hov := hover _ hf
    simp only [BPlusTreePage.GetSize, BPlusTreePage.GetMaxSize] at hov
    have hlen1 : array.length = lm + 1 := by omega
    have hcn : c ≠ t.buffer_pool_manager.next_page_id := by
      rintro h
      rw [← h, hf] at hfresh
      cases hfresh
    obtain ⟨t1, hs, hr, hl, hi1, hn, hfq⟩ := Split_leaf t c par lm array x hf hcn
    have hgc := hfq c
    rw [if_pos rfl] at hgc
    have hgn := hfq t.buffer_pool_manager.next_page_id
    rw [if_neg (fun h => hcn h.symm), if_pos rfl, hp.lm_eq] at hgn
    obtain ⟨key1, v1, rest, hdrop, hw1, hw2, hholds⟩ :=
      WF.split_leaf hlm hw0 array hf hlen1 hgc hgn
    refine ⟨t1, key1, hs, ?_, ⟨hl.trans hp.lm_eq, hi1.trans hp.im_eq, ?_⟩, hr, hn, hw1, hw2,
      hholds, ?_, ?_⟩
    · simp [firstKey, hgn, hdrop, BPlusTreeLeafPage.KeyAt]
    · intro q p hq
      rw [hfq] at hq
      rw [hn]
      have hc0 := hp.ids _ _ hf
      by_cases h1 : q = c
      · subst h1; exact ⟨hc0.1, by omega⟩
      · by_cases h2 : q = t.buffer_pool_manager.next_page_id
        · subst h2; exact ⟨by omega, by omega⟩
        · rw [if_neg h1, if_neg h2] at hq
          have := hp.ids _ _ hq
          exact ⟨this.1, by omega⟩
    · intro q hq
      rcases hq with hq | hq
      · exact Or.inl hq
      · exact Or.inr hq
    · intro q hq hqn
      have hqc : ¬ q = c := fun h => hq h
      rw [hfq, if_neg hqc, if_neg hqn]
  | succ h =>
    have hw0 := hw
    obtain ⟨array, hf, _, _, hlen, _, _, hnodup, hseg⟩ := hw
    have hov := hover _ hf
    simp only [BPlusTreePage.GetSize, BPlusTreePage.GetMaxSize] at hov
    have hlen1 : array.length = im + 1 := by omega
    have hkids : kidsOf (FetchPage t) c = array.map Prod.snd := kidsOf_internal hf
    have hex : ∀ d ∈ (array.drop ((im + 1) / 2)).map Prod.snd, ∃ p, FetchPage t d = some p := by
      intro d hd
      have hd1 : d ∈ kidsOf (FetchPage t) c := by
        rw [hkids]
        obtain ⟨e, he, rfl⟩ := List.mem_map.mp hd
        exact List.mem_map_of_mem _ (List.mem_of_mem_drop he)
      obtain ⟨l, u, hwd⟩ := hw0.child hd1
      obtain ⟨p, hp1, _⟩ := hwd.fetch
      exact ⟨p, hp1⟩
    have hnode : c ∉ (array.drop ((im + 1) / 2)).map Prod.snd := by
      intro hd
      have hd1 : c ∈ kidsOf (FetchPage t) c := by
        rw [hkids]
        obtain ⟨e, he, he2⟩ := List.mem_map.mp hd
        rw [← he2]
        exact List.mem_map_of_mem _ (List.mem_of_mem_drop he)
      exact hw0.not_under_child hd1 (Under.self _ _ _)
    obtain ⟨t1, hs, hr, hl, hi1, hn, hfq⟩ := Split_internal t c par im array x hf hlen1 hex
      hnode hfresh
    rw [hp.im_eq] at hfq
    obtain ⟨key1, c1, rest, hdrop, hw1, hw2, hholds, hunder, hframe⟩ :=
      WF.split_internal him hw0 array hf hlen1 hfresh hfq
    have hcn : c ≠ t.buffer_pool_manager.next_page_id := by
      rintro h
      rw [← h, hf] at hfresh
      cases hfresh
    have hgn := hfq t.buffer_pool_manager.next_page_id
    rw [if_neg (fun h => hcn h.symm), if_pos rfl] at hgn
    refine ⟨t1, key1, hs, ?_, ⟨hl.trans hp.lm_eq, hi1.trans hp.im_eq, ?_⟩, hr, hn, hw1, hw2,
      hholds, hunder, hframe⟩
    · simp [firstKey, hgn, hdrop, BPlusTreeInternalPage.KeyAt]
    · intro q p hq
      rw [hfq] at hq
      rw [hn]
      have hc0 := hp.ids _ _ hf
      by_cases h1 : q = c
      · subst h1; exact ⟨hc0.1, by omega⟩
      · by_cases h2 : q = t.buffer_pool_manager.next_page_id
        · subst h2; exact ⟨by omega, by omega⟩
        · rw [if_neg h1, if_neg h2] at hq
          by_cases h3 : q ∈ (array.drop ((im + 1) / 2)).map Prod.snd
          · obtain ⟨p1, hp1⟩ := hex q h3
            have := hp.ids _ _ hp1
            exact ⟨this.1, by omega⟩
          · rw [if_neg h3] at hq
            have := hp.ids _ _ hq
            exact ⟨this.1, by omega⟩

end BPlusTree

namespace BPlusTreeInternalPage

variable {K V : Type} [LinearOrder K] [Inhabited K]

theorem ValueIndex_append (A : List (K × Int)) (kc : K) (c : Int) (B : List (K × Int))
    (hc : c ∉ A.map Prod.snd) : ValueIndex (A ++ (kc, c) :: B) c = some A.length := by
  induction A with
  | nil => simp [ValueIndex]
  | cons a A ih =>
    simp only [List.map_cons, List.mem_cons, not_or] at hc
    simp [ValueIndex, hc.1, ih hc.2]

theorem InsertNodeAfter_append (A : List (K × Int)) (kc : K) (c : Int) (B : List (K × Int))
    (hc : c ∉ A.map Prod.snd) (key1 : K) (new : Int) :
    InsertNodeAfter (A ++ (kc, c) :: B) c key1 new
      = some (A ++ (kc, c) :: (key1, new) :: B) := by
  have h1 : (A ++ (kc, c) :: B).take (A.length + 1) = A ++ [(kc, c)] := by
    rw [List.take_append_eq_append_take]
    simp
  have h2 : (A ++ (kc, c) :: B).drop (A.length + 1) = B := by
    rw [List.drop_append_eq_append_drop]
    simp
  simp [InsertNodeAfter, ValueIndex_append A kc c B hc, h1, h2]

end BPlusTreeInternalPage

namespace BPlusTree

variable {K V : Type} [LinearOrder K] [Inhabited K]

theorem SetParentPageId_self (p : BPlusTreePage K V) : p.SetParentPageId p.GetParentPageId = p := by
  cases p <;> rfl

theorem splitUp_of_le (fuel : Nat) (t : BPlusTree K V) (node : Int) (txn : Option Transaction)
    (p : BPlusTreePage K V) (hf : FetchPage t node = some p) (hle : p.GetSize ≤ p.GetMaxSize) :
    splitUp fuel t node txn = some (t, txn) := by
  simp [splitUp, hf, Nat.not_lt.mpr hle]

/-- The call `InsertIntoParent` for a page `c` that is not the root: the parent takes
the pair `(key1, new)` behind the slot of `c`, and the overflow handling goes on at the
parent. -/
theorem InsertIntoParent_nonroot (t : BPlusTree K V) (c pid new : Int) (key1 : K)
    (txn : Option Transaction) (pc pn : BPlusTreePage K V)
    (hc : FetchPage t c = some pc) (hcid : pc.GetPageId = c) (hcpar : pc.GetParentPageId = pid)
    (hpid : pid ≠ INVALID_PAGE_ID)
    (hn : FetchPage t new = some pn) (hnid : pn.GetPageId = new)
    (hnpar : pn.GetParentPageId = pid)
    (A B : List (K × Int)) (kc : K) (par : Int) (mx : Nat)
    (hp : FetchPage t pid = some (BPlusTreePage.internal pid par mx (A ++ (kc, c) :: B)))
    (hcA : c ∉ A.map Prod.snd) (hnp : new ≠ pid) :
    ∃ t1, (∀ fuel, InsertIntoParent (fuel + 1) t c key1 new txn = splitUp fuel t1 pid txn) ∧
      t1.root_page_id = t.root_page_id ∧ t1.leaf_max_size = t.leaf_max_size ∧
      t1.internal_max_size = t.internal_max_size ∧
      t1.buffer_pool_manager.next_page_id = t.buffer_pool_manager.next_page_id ∧
      ∀ q, FetchPage t1 q =
        if q = pid then
          some (BPlusTreePage.internal pid par mx (A ++ (kc, c) :: (key1, new) :: B))
        else FetchPage t q := by
  have hc1 : t.buffer_pool_manager.FetchPage c = some pc := hc
  have hn1 : t.buffer_pool_manager.FetchPage new = some pn := hn
  have hp1 : t.buffer_pool_manager.FetchPage pid
      = some (BPlusTreePage.internal pid par mx (A ++ (kc, c) :: B)) := hp
  have hroot : pc.IsRootPage = false := by
    simp [BPlusTreePage.IsRootPage, hcpar, hpid]
  have hset : pn.SetParentPageId pid = pn := by
    rw [← hnpar]; exact SetParentPageId_self pn
  refine ⟨{ t with buffer_pool_manager :=
      ((t.buffer_pool_manager.store new pn).store pid
        (BPlusTreePage.internal pid par mx (A ++ (kc, c) :: (key1, new) :: B))) },
    ?_, rfl, rfl, rfl, rfl, ?_⟩
  · intro fuel
    have hfetch : FetchPage ({ t with buffer_pool_manager :=
        ((t.buffer_pool_manager.store new pn).store pid
          (BPlusTreePage.internal pid par mx (A ++ (kc, c) :: (key1, new) :: B))) }) pid
        = some (BPlusTreePage.internal pid par mx (A ++ (kc, c) :: (key1, new) :: B)) := by
      simp [FetchPage_def]
    simp only [InsertIntoParent, FetchPage_def, hc1, Option.bind_eq_bind, Option.some_bind,
      hroot, Bool.false_eq_true, if_false, hcpar, hp1, BufferPoolManager.SetParentPageId, hn1,
      hset, BufferPoolManager.FetchPage_store, if_true, hnp, hcid, hnid,
      BPlusTreeInternalPage.InsertNodeAfter_append A kc c B hcA]
    simp only [splitUp, hfetch, Option.bind_eq_bind, Option.some_bind,
      BPlusTreePage.GetSize, BPlusTreePage.GetMaxSize]
  · intro q
    simp only [FetchPage_def, BufferPoolManager.FetchPage_store]
    by_cases h1 : q = pid
    · subst h1; simp
    · have : ¬ pid = q := fun h => h1 h.symm
      simp only [this, h1, if_false]
      by_cases h2 : new = q
      · subst h2; simp [hn1]
      · simp [h2]

/-- The call `InsertIntoParent` for the root page `c`: a new root with the two children
`c` and `new`, separated by `key1`. -/
theorem InsertIntoParent_root (t : BPlusTree K V) (c new : Int) (key1 : K)
    (txn : Option Transaction) (pc pn : BPlusTreePage K V)
    (hc : FetchPage t c = some pc) (hcid : pc.GetPageId = c)
    (hcpar : pc.GetParentPageId = INVALID_PAGE_ID)
    (hn : FetchPage t new = some pn) (hnid : pn.GetPageId = new)
    (hfresh : FetchPage t t.buffer_pool_manager.next_page_id = none) (hcn : c ≠ new) :
    ∃ t1, (∀ fuel, InsertIntoParent (fuel + 1) t c key1 new txn = some (t1, txn)) ∧
      t1.root_page_id = t.buffer_pool_manager.next_page_id ∧
      t1.leaf_max_size = t.leaf_max_size ∧
      t1.internal_max_size = t.internal_max_size ∧
      t1.buffer_pool_manager.next_page_id = t.buffer_pool_manager.next_page_id + 1 ∧
      ∀ q, FetchPage t1 q =
        if q = new then some (pn.SetParentPageId t.buffer_pool_manager.next_page_id)
        else if q = c then some (pc.SetParentPageId t.buffer_pool_manager.next_page_id)
        else if q = t.buffer_pool_manager.next_page_id then
          some (BPlusTreePage.internal t.buffer_pool_manager.next_page_id INVALID_PAGE_ID
            t.internal_max_size [(default, c), (key1, new)])
        else FetchPage t q := by
  have hc1 : t.buffer_pool_manager.FetchPage c = some pc := hc
  have hn1 : t.buffer_pool_manager.FetchPage new = some pn := hn
  have hc2 : BufferPoolManager.FetchPage
      { pages := t.buffer_pool_manager.pages,
        next_page_id := t.buffer_pool_manager.next_page_id + 1 } c = some pc := hc
  have hn2 : BufferPoolManager.FetchPage
      { pages := t.buffer_pool_manager.pages,
        next_page_id := t.buffer_pool_manager.next_page_id + 1 } new = some pn := hn
  have hroot : pc.IsRootPage = true := by
    simp [BPlusTreePage.IsRootPage, hcpar]
  have hRc : ¬ t.buffer_pool_manager.next_page_id = c := by
    intro h
    rw [h, hc] at hfresh
    cases hfresh
  have hRn : ¬ t.buffer_pool_manager.next_page_id = new := by
    intro h
    rw [h, hn] at hfresh
    cases hfresh
  refine ⟨{ t with
      root_page_id := t.buffer_pool_manager.next_page_id
      buffer_pool_manager :=
        (((BufferPoolManager.store
          { pages := t.buffer_pool_manager.pages,
            next_page_id := t.buffer_pool_manager.next_page_id + 1 }
          t.buffer_pool_manager.next_page_id
          (BPlusTreePage.internal t.buffer_pool_manager.next_page_id INVALID_PAGE_ID
            t.internal_max_size [(default, c), (key1, new)])).store c
          (pc.SetParentPageId t.buffer_pool_manager.next_page_id)).store new
          (pn.SetParentPageId t.buffer_pool_manager.next_page_id)) },
    ?_, rfl, rfl, rfl, rfl, ?_⟩
  · intro fuel
    simp only [InsertIntoParent, FetchPage_def, hc1, Option.bind_eq_bind, Option.some_bind,
      hroot, if_true, BufferPoolManager.NewPage, hn2, hc2,
      BufferPoolManager.SetParentPageId, BufferPoolManager.FetchPage_store, hRc, hRn, hcn,
      if_false, BPlusTreeInternalPage.PopulateNewRoot, hcid, hnid]
  · intro q
    simp only [FetchPage_def, BufferPoolManager.FetchPage_store]
    by_cases h1 : q = new
    · subst h1; simp
    · have : ¬ new = q := fun h => h1 h.symm
      simp only [this, h1, if_false]
      by_cases h2 : q = c
      · subst h2; simp
      · have : ¬ c = q := fun h => h2 h.symm
        simp only [this, h2, if_false]
        by_cases h3 : q = t.buffer_pool_manager.next_page_id
        · subst h3; simp
        · have : ¬ t.buffer_pool_manager.next_page_id = q := fun h => h3 h.symm
          simp only [this, h3, if_false]
          rfl

end BPlusTree

/-! ## B+ tree: the invariant of a page whose child is replaced -/

namespace BPlusTree

variable {K V : Type} [LinearOrder K] [Inhabited K]

/-- A page within its capacity needs no slack. -/
theorem WF.tighten {f : Int → Option (BPlusTreePage K V)} {lm im m x h : Nat}
    {c par : Int} {lo hi : Bound K} (hw : WF f lm im m x h c par lo hi)
    (hle : ∀ p, f c = some p → p.GetSize ≤ p.GetMaxSize) :
    WF f lm im m 0 h c par lo hi := by
  cases h with
  | zero =>
    obtain ⟨array, hf, h1, _, rest⟩ := hw
    exact ⟨array, hf, h1, by simpa using hle _ hf, rest⟩
  | succ h =>
    obtain ⟨array, hf, h1, h2, _, rest⟩ := hw
    exact ⟨array, hf, h1, h2, by simpa using hle _ hf, rest⟩

theorem WF.loosen {f : Int → Option (BPlusTreePage K V)} {lm im m x x1 h : Nat}
    {c par : Int} {lo hi : Bound K} (hw : WF f lm im m x h c par lo hi) (hx : x ≤ x1) :
    WF f lm im m x1 h c par lo hi := by
  cases h with
  | zero =>
    obtain ⟨array, hf, h1, h2, rest⟩ := hw
    exact ⟨array, hf, h1, by omega, rest⟩
  | succ h =>
    obtain ⟨array, hf, h1, h2, h3, rest⟩ := hw
    exact ⟨array, hf, h1, h2, by omega, rest⟩

/-- The invariant of an internal page after the run `N` of at most one new child is
put behind the child `c`, the subtrees of `c` and of the new child satisfying the
invariant with ranges that split the former range of `c`, and the other children
being as before. -/
theorem WF.replace_child {f g : Int → Option (BPlusTreePage K V)} {lm im m h : Nat}
    {pid par : Int} {lo hi : Bound K} {A B N : List (K × Int)} {kc : K} {c : Int}
    (hw : WF f lm im m 0 (h + 1) pid par lo hi)
    (hf : f pid = some (BPlusTreePage.internal pid par im (A ++ (kc, c) :: B)))
    (hg : g pid = some (BPlusTreePage.internal pid par im (A ++ (kc, c) :: (N ++ B))))
    (hN : N.length ≤ 1)
    (hsib : ∀ d ∈ A.map Prod.snd ++ B.map Prod.snd, ∀ q, Under f h d q → g q = f q)
    (hNew : ∀ d ∈ N.map Prod.snd, d ∉ (A ++ (kc, c) :: B).map Prod.snd)
    (hmid : Seg (fun d l u => WF g lm im (minNonRoot lm im h) 0 h d pid l u)
      ((lbAt lo A kc, c) :: N.map (fun e => (bnd e.1, e.2)))
      (ub (B.map (fun e => (bnd e.1, e.2))) hi)) :
    WF g lm im m 1 (h + 1) pid par lo hi := by
  obtain ⟨array, hf1, h1, h2, h3, h4, hmirror, hnodup, hseg⟩ := hw
  rw [hf] at hf1
  cases hf1
  rw [slots_append_cons, Seg_append] at hseg
  obtain ⟨hsA, hsB⟩ := hseg
  simp only [ub_cons, Seg_cons] at hsA hsB
  refine ⟨_, hg, ?_, ?_, ?_, h4, ?_, ?_, ?_⟩
  · simp only [List.length_append, List.length_cons] at h1 ⊢
    omega
  · simp only [List.length_append, List.length_cons]
    omega
  · simp only [List.length_append, List.length_cons] at h3 ⊢
    omega
  · intro l hl
    have := hmirror l hl
    cases A with
    | nil => simpa using this
    | cons a A => simpa using this
  · cases N with
    | nil => simpa using hnodup
    | cons e N =>
      have hN0 : N = [] := by
        cases N with
        | nil => rfl
        | cons _ _ => simp at hN
      subst hN0
      have hne := hNew e.2 (by simp)
      have hperm : ((A ++ (kc, c) :: ([e] ++ B)).map Prod.snd).Perm
          (e.2 :: (A ++ (kc, c) :: B).map Prod.snd) := by
        have := @List.perm_middle _ e.2 (A.map Prod.snd ++ [c]) (B.map Prod.snd)
        simpa using this
      rw [hperm.nodup_iff, List.nodup_cons]
      exact ⟨hne, hnodup⟩
  · rw [slots_append_cons, Seg_append]
    simp only [ub_cons, List.map_append, Seg_cons]
    have hA : Seg (fun d l u => WF g lm im (minNonRoot lm im h) 0 h d pid l u) (slots lo A)
        (lbAt lo A kc) := by
      refine hsA.imp ?_
      intro d l u hd hwd
      rw [slots_map_snd] at hd
      exact WF.congr _ _ _ _ _ _ _ (hsib d (List.mem_append_left _ hd)) hwd
    have hB : Seg (fun d l u => WF g lm im (minNonRoot lm im h) 0 h d pid l u)
        (B.map (fun e => (bnd e.1, e.2))) hi := by
      refine hsB.2.imp ?_
      intro d l u hd hwd
      have hd1 : d ∈ B.map Prod.snd := by simpa [Function.comp_def] using hd
      exact WF.congr _ _ _ _ _ _ _ (hsib d (List.mem_append_right _ hd1)) hwd
    refine ⟨hA, ?_⟩
    have := (Seg_append ((lbAt lo A kc, c) :: N.map (fun e => (bnd e.1, e.2)))
      (B.map (fun e => (bnd e.1, e.2))) hi).mpr ⟨hmid, hB⟩
    simpa using this

/-- The pairs of an internal page after the replacement of `WF.replace_child`. -/
theorem Holds.holds_replace_child {f g : Int → Option (BPlusTreePage K V)} {h : Nat}
    {pid par par1 : Int} {mx mx1 : Nat} {A B N : List (K × Int)} {kc : K} {c : Int}
    (X : K → V → Prop)
    (hf : f pid = some (BPlusTreePage.internal pid par mx (A ++ (kc, c) :: B)))
    (hg : g pid = some (BPlusTreePage.internal pid par1 mx1 (A ++ (kc, c) :: (N ++ B))))
    (hsib : ∀ d ∈ A.map Prod.snd ++ B.map Prod.snd, ∀ k v, Holds g h d k v ↔ Holds f h d k v)
    (hmid : ∀ k v, (∃ d ∈ c :: N.map Prod.snd, Holds g h d k v) ↔ X k v ∨ Holds f h c k v)
    (k : K) (v : V) :
    Holds g (h + 1) pid k v ↔ X k v ∨ Holds f (h + 1) pid k v := by
  rw [Holds_succ_iff hg, Holds_succ_iff hf]
  simp only [List.map_append, List.map_cons, List.mem_append, List.mem_cons]
  constructor
  · rintro ⟨d, hd, hh⟩
    rcases hd with hd | rfl | hd | hd
    · exact Or.inr ⟨d, Or.inl hd, (hsib d (List.mem_append_left _ hd) k v).mp hh⟩
    · rcases (hmid k v).mp ⟨d, by simp, hh⟩ with hx | hc
      · exact Or.inl hx
      · exact Or.inr ⟨d, Or.inr (Or.inl rfl), hc⟩
    · rcases (hmid k v).mp ⟨d, by simp [hd], hh⟩ with hx | hc
      · exact Or.inl hx
      · exact Or.inr ⟨c, Or.inr (Or.inl rfl), hc⟩
    · exact Or.inr ⟨d, Or.inr (Or.inr hd), (hsib d (List.mem_append_right _ hd) k v).mp hh⟩
  · rintro (hx | ⟨d, hd, hh⟩)
    · obtain ⟨d, hd, hh⟩ := (hmid k v).mpr (Or.inl hx)
      simp only [List.mem_cons] at hd
      rcases hd with rfl | hd
      · exact ⟨d, Or.inr (Or.inl rfl), hh⟩
      · exact ⟨d, Or.inr (Or.inr (Or.inl hd)), hh⟩
    · rcases hd with hd | rfl | hd
      · exact ⟨d, Or.inl hd, (hsib d (List.mem_append_left _ hd) k v).mpr hh⟩
      · obtain ⟨d1, hd1, hh1⟩ := (hmid k v).mpr (Or.inr hh)
        simp only [List.mem_cons] at hd1
        rcases hd1 with rfl | hd1
        · exact ⟨d1, Or.inr (Or.inl rfl), hh1⟩
        · exact ⟨d1, Or.inr (Or.inr (Or.inl hd1)), hh1⟩
      · exact ⟨d, Or.inr (Or.inr (Or.inr hd)),
          (hsib d (List.mem_append_right _ hd) k v).mpr hh⟩

/-- The pages of an internal page after the replacement of `WF.replace_child`. -/
theorem Under.under_replace_child {f g : Int → Option (BPlusTreePage K V)} {h : Nat}
    {pid par par1 : Int} {mx mx1 : Nat} {A B N : List (K × Int)} {kc : K} {c : Int}
    (Y : Int → Prop)
    (hf : f pid = some (BPlusTreePage.internal pid par mx (A ++ (kc, c) :: B)))
    (hg : g pid = some (BPlusTreePage.internal pid par1 mx1 (A ++ (kc, c) :: (N ++ B))))
    (hsib : ∀ d ∈ A.map Prod.snd ++ B.map Prod.snd, ∀ q, Under g h d q ↔ Under f h d q)
    (hmid : ∀ q, (∃ d ∈ c :: N.map Prod.snd, Under g h d q) → Under f h c q ∨ Y q)
    (q : Int) (hq : Under g (h + 1) pid q) : Under f (h + 1) pid q ∨ Y q := by
  have hkf : kidsOf f pid = (A ++ (kc, c) :: B).map Prod.snd := kidsOf_internal hf
  rcases hq with rfl | ⟨d, hd, hqd⟩
  · exact Or.inl (Under.self _ _ _)
  · rw [kidsOf_internal hg] at hd
    simp only [List.map_append, List.map_cons, List.mem_append, List.mem_cons] at hd
    rcases hd with hd | rfl | hd | hd
    · refine Or.inl (Under.of_child ?_ ((hsib d (List.mem_append_left _ hd) q).mp hqd))
      rw [hkf]; simp [hd]
    · rcases hmid q ⟨d, by simp, hqd⟩ with h1 | h1
      · refine Or.inl (Under.of_child ?_ h1)
        rw [hkf]; simp
      · exact Or.inr h1
    · rcases hmid q ⟨d, by simp [hd], hqd⟩ with h1 | h1
      · refine Or.inl (Under.of_child ?_ h1)
        rw [hkf]; simp
      · exact Or.inr h1
    · refine Or.inl (Under.of_child ?_ ((hsib d (List.mem_append_right _ hd) q).mp hqd))
      rw [hkf]; simp [hd]

end BPlusTree

/-! ## B+ tree: the insertion climbs from the leaf -/

namespace BPlusTree

variable {K V : Type} [LinearOrder K] [Inhabited K]

theorem PoolOk.store {lm im : Nat} {t : BPlusTree K V} (hp : PoolOk lm im t) (q : Int)
    (p p1 : BPlusTreePage K V) (hq : FetchPage t q = some p) :
    PoolOk lm im { t with buffer_pool_manager := t.buffer_pool_manager.store q p1 } := by
  refine ⟨hp.lm_eq, hp.im_eq, ?_⟩
  intro q1 p2 hq1
  simp only [FetchPage_def, BufferPoolManager.FetchPage_store] at hq1
  by_cases h : q = q1
  · subst h
    exact hp.ids _ _ hq
  · rw [if_neg h] at hq1
    exact hp.ids _ _ hq1

theorem splitUp_of_gt (fuel : Nat) (t t1 : BPlusTree K V) (node new : Int)
    (txn txn1 : Option Transaction) (p : BPlusTreePage K V) (key1 : K)
    (hf : FetchPage t node = some p) (hgt : p.GetSize > p.GetMaxSize)
    (hs : Split t node txn = some (new, t1, txn1)) (hk : firstKey t1 new = some key1) :
    splitUp fuel t node txn = InsertIntoParent fuel t1 node key1 new txn1 := by
  simp [splitUp, hf, hgt, hs, hk]

/-- The insertion below the page `pid`. After the leaf of `key` has taken the pair, the
overflow handling that starts at the leaf arrives at `pid` with a subtree that
satisfies the invariant but for one pair too many in `pid`, holds the new pair besides
the former ones, and consists of former pages of the subtree and of new pages; the
pages outside the subtree are as before. -/
theorem climb {lm im : Nat} (hlm : 2 ≤ lm) (him : 3 ≤ im) (key : K) (value : V) :
    ∀ (h m : Nat) (t : BPlusTree K V) (pid par : Int) (lo hi : Bound K) (x : Transaction)
      (a b : Int) (mx : Nat) (arrL : List (K × V)),
      PoolOk lm im t → WF (FetchPage t) lm im m 0 h pid par lo hi →
      lo ≤ bnd key → bnd key < hi →
      FetchPage t (leafOf (FetchPage t) key h pid) = some (BPlusTreePage.leaf a b mx arrL) →
      (∀ v, (key, v) ∉ arrL) →
      ∃ t1 x1,
        (∀ fuel, splitUp (fuel + h)
            { t with buffer_pool_manager := (t.buffer_pool_manager.store
                (leafOf (FetchPage t) key h pid)
                (BPlusTreePage.leaf a b mx (BPlusTreeLeafPage.Insert arrL key value))) }
            (leafOf (FetchPage t) key h pid) (some x)
          = splitUp fuel t1 pid (some x1)) ∧
        x1.deleted_page_set = x.deleted_page_set ∧
        PoolOk lm im t1 ∧ t1.root_page_id = t.root_page_id ∧
        t.buffer_pool_manager.next_page_id ≤ t1.buffer_pool_manager.next_page_id ∧
        WF (FetchPage t1) lm im m 1 h pid par lo hi ∧
        (∀ k v, Holds (FetchPage t1) h pid k v ↔
          (k = key ∧ v = value) ∨ Holds (FetchPage t) h pid k v) ∧
        (∀ q, Under (FetchPage t1) h pid q →
          Under (FetchPage t) h pid q ∨ t.buffer_pool_manager.next_page_id ≤ q) ∧
        (∀ q, ¬ Under (FetchPage t) h pid q → q < t.buffer_pool_manager.next_page_id →
          FetchPage t1 q = FetchPage t q) := by
  intro h
  induction h with
  | zero =>
    intro m t pid par lo hi x a b mx arrL hp hw hlo hhi hL hnot
    obtain ⟨array, hf, h1, h2, h3, hsorted, hb⟩ := hw
    simp only [leafOf] at hL ⊢
    rw [hf] at hL
    obtain ⟨rfl, rfl, rfl, rfl⟩ : pid = a ∧ par = b ∧ lm = mx ∧ array = arrL := by
      simpa only [Option.some.injEq, BPlusTreePage.leaf.injEq] using hL
    have hfetch : FetchPage { t with buffer_pool_manager := (t.buffer_pool_manager.store pid
        (BPlusTreePage.leaf pid par lm (BPlusTreeLeafPage.Insert array key value))) } pid
        = some (BPlusTreePage.leaf pid par lm (BPlusTreeLeafPage.Insert array key value)) := by
      simp [FetchPage_def]
    refine ⟨_, x, fun fuel => rfl, rfl, hp.store pid _ _ hf, rfl, le_refl _, ?_, ?_, ?_, ?_⟩
    · refine ⟨_, hfetch, ?_, ?_, h3, BPlusTreeLeafPage.sorted_Insert _ _ _ hsorted hnot, ?_⟩
      · rw [BPlusTreeLeafPage.length_Insert]; omega
      · rw [BPlusTreeLeafPage.length_Insert]; omega
      · intro e he
        rcases (BPlusTreeLeafPage.mem_Insert _ _ _ _).mp he with rfl | he
        · exact ⟨hlo, hhi⟩
        · exact hb e he
    · intro k v
      rw [Holds_zero_iff hfetch, Holds_zero_iff hf, BPlusTreeLeafPage.mem_Insert]
      simp
    · intro q hq
      exact Or.inl hq
    · intro q hq _
      have : ¬ pid = q := fun h => hq h.symm
      simp [FetchPage_def, this]
  | succ h ih =>
    intro m t pid par lo hi x a b mx arrL hp hw hlo hhi hL hnot
    have hw0 := hw
    obtain ⟨array, hf, hm, h1, hsz, hlt, hmirror, hnodup, hseg⟩ := hw
    obtain ⟨⟨k0, c0⟩, rest, rfl⟩ : ∃ e rest, array = e :: rest := by
      cases array with
      | nil => simp at h1
      | cons e rest => exact ⟨e, rest, rfl⟩
    obtain ⟨A, kc, B, harr, hl, hu⟩ := pick_slots key rest lo k0 c0 hi hlo hhi
    have hleaf : leafOf (FetchPage t) key (h + 1) pid
        = leafOf (FetchPage t) key h (pick key c0 rest) := leafOf_succ hf
    rw [hleaf] at hL
    simp only [hleaf]
    generalize pick key c0 rest = c at harr hL hleaf ⊢
    rw [harr] at hf hm h1 hsz hmirror hnodup hseg
    have hkids : kidsOf (FetchPage t) pid = (A ++ (kc, c) :: B).map Prod.snd :=
      kidsOf_internal hf
    have hcmem : c ∈ kidsOf (FetchPage t) pid := by rw [hkids]; simp
    rw [slots_append_cons, Seg_append, Seg_cons] at hseg
    obtain ⟨hsegA, hwc, hsegB⟩ := hseg
    obtain ⟨t1, x1, hrun, hdel, hp1, hroot1, hnext1, hwc1, hholds1, hunder1, hframe1⟩ :=
      ih _ t c pid _ _ x a b mx arrL hp hwc hl hu hL hnot
    have hpidr := hp.ids _ _ hf
    have hpidc : ¬ Under (FetchPage t) h c pid := hw0.not_under_child hcmem
    have hpid1 : FetchPage t1 pid = FetchPage t pid := hframe1 pid hpidc hpidr.2
    have hcA : c ∉ A.map Prod.snd := by
      intro hc
      rw [List.map_append, List.map_cons] at hnodup
      exact (List.nodup_append.mp hnodup).2.2 hc (List.mem_cons_self _ _)
    have hcB : c ∉ B.map Prod.snd := by
      intro hc
      rw [List.map_append, List.map_cons] at hnodup
      exact (List.nodup_cons.mp (List.nodup_append.mp hnodup).2.1).1 hc
    have hsibmem : ∀ d ∈ A.map Prod.snd ++ B.map Prod.snd,
        d ∈ kidsOf (FetchPage t) pid ∧ d ≠ c := by
      intro d hd
      rw [hkids, List.map_append, List.map_cons]
      rcases List.mem_append.mp hd with hd | hd
      · exact ⟨List.mem_append_left _ hd, fun e => hcA (e ▸ hd)⟩
      · exact ⟨List.mem_append_right _ (List.mem_cons_of_mem _ hd), fun e => hcB (e ▸ hd)⟩
    have hsib : ∀ d ∈ A.map Prod.snd ++ B.map Prod.snd, ∀ q, Under (FetchPage t) h d q →
        ¬ Under (FetchPage t) h c q ∧ q < t.buffer_pool_manager.next_page_id ∧ q ≠ pid := by
      intro d hd q hq
      obtain ⟨hdk, hdc⟩ := hsibmem d hd
      obtain ⟨l, u, hwd⟩ := hw0.child hdk
      refine ⟨WF.disjoint h _ _ _ _ d c _ _ _ _ _ _ q hwd hwc hdc hq, ?_, ?_⟩
      · obtain ⟨p, hpq⟩ := hwd.under_exists hq
        exact (hp.ids _ _ hpq).2
      · intro e
        exact hw0.not_under_child hdk (e ▸ hq)
    have hsib1 : ∀ d ∈ A.map Prod.snd ++ B.map Prod.snd, ∀ q, Under (FetchPage t) h d q →
        FetchPage t1 q = FetchPage t q := by
      intro d hd q hq
      obtain ⟨h1, h2, _⟩ := hsib d hd q hq
      exact hframe1 q h1 h2
    obtain ⟨pc, hpc, hpcid, hpcpar, _⟩ := hwc1.fetch
    by_cases hover : pc.GetSize ≤ pc.GetMaxSize
    · -- the child has room
      have hg : FetchPage t1 pid
          = some (BPlusTreePage.internal pid par im (A ++ (kc, c) :: ([] ++ B))) := by
        rw [hpid1, hf]; rfl
      refine ⟨t1, x1, ?_, hdel, hp1, hroot1, hnext1, ?_, ?_, ?_, ?_⟩
      · intro fuel
        rw [show fuel + (h + 1) = (fuel + 1) + h by omega, hrun,
          splitUp_of_le _ _ _ _ pc hpc hover]
        symm
        apply splitUp_of_le _ _ _ _ _ hg
        simp only [BPlusTreePage.GetSize, BPlusTreePage.GetMaxSize, List.nil_append]
        omega
      · refine WF.replace_child hw0 hf hg (by simp) hsib1 (by simp) ?_
        simp only [List.map_nil, Seg_cons, Seg_nil, ub_nil, and_true]
        exact hwc1.tighten (fun p hp2 => by rw [hpc] at hp2; cases hp2; exact hover)
      · intro k v
        refine Holds.holds_replace_child (fun k v => k = key ∧ v = value) hf hg ?_ ?_ k v
        · intro d hd k v
          exact Holds.holds_congr h d (hsib1 d hd) k v
        · intro k v
          simp only [List.map_nil, List.mem_singleton, exists_eq_left]
          exact hholds1 k v
      · intro q hq
        refine Under.under_replace_child (fun q => t.buffer_pool_manager.next_page_id ≤ q) hf hg
          ?_ ?_ q hq
        · intro d hd q
          exact Under.under_congr h d (hsib1 d hd) q
        · intro q
          simp only [List.map_nil, List.mem_singleton, exists_eq_left]
          exact hunder1 q
      · intro q hq hlt
        refine hframe1 q (fun hc => hq (Under.of_child hcmem hc)) hlt
    · -- the child is split
      have hgt : pc.GetSize > pc.GetMaxSize := Nat.lt_of_not_le hover
      obtain ⟨t2, key1, hsplit, hkey1, hp2, hroot2, hnext2, hwl, hwr, hholds2, hunder2,
          hframe2⟩ := Split_spec hlm him hp1 hwc1
        (fun p hp2 => by rw [hpc] at hp2; cases hp2; exact hgt) x1
      obtain ⟨pl, hpl, hplid, hplpar, _⟩ := hwl.fetch
      obtain ⟨pn, hpn, hpnid, hpnpar, _⟩ := hwr.fetch
      have hnotu1 : ∀ q, q < t.buffer_pool_manager.next_page_id →
          ¬ Under (FetchPage t) h c q → ¬ Under (FetchPage t1) h c q := by
        intro q hq hn hu
        rcases hunder1 q hu with hu | hu
        · exact hn hu
        · omega
      have hpid2 : FetchPage t2 pid = FetchPage t pid := by
        rw [hframe2 pid (hnotu1 pid hpidr.2 hpidc) (by omega), hpid1]
      have hpidne : pid ≠ INVALID_PAGE_ID := by
        intro e
        rw [e] at hpidr
        simp [INVALID_PAGE_ID] at hpidr
      obtain ⟨t3, hins, hroot3, hlm3, him3, hnext3, hfetch3⟩ :=
        InsertIntoParent_nonroot t2 c pid t1.buffer_pool_manager.next_page_id key1
          (some (x1.AddIntoPageSet t1.buffer_pool_manager.next_page_id)) pl pn hpl hplid hplpar
          hpidne hpn hpnid hpnpar A B kc par im (by rw [hpid2, hf]) hcA (by omega)
      have hg : FetchPage t3 pid = some (BPlusTreePage.internal pid par im
          (A ++ (kc, c) :: ([(key1, t1.buffer_pool_manager.next_page_id)] ++ B))) := by
        rw [hfetch3, if_pos rfl]; rfl
      have hne3 : ∀ q, q ≠ pid → FetchPage t3 q = FetchPage t2 q := by
        intro q hq
        rw [hfetch3, if_neg hq]
      -- the pages of the two halves are not the parent
      have hhalves : ∀ q, Under (FetchPage t2) h c q ∨
          Under (FetchPage t2) h t1.buffer_pool_manager.next_page_id q →
          (Under (FetchPage t) h c q ∨ t.buffer_pool_manager.next_page_id ≤ q) ∧ q ≠ pid := by
        intro q hq
        have hq1 : Under (FetchPage t) h c q ∨ t.buffer_pool_manager.next_page_id ≤ q := by
          rcases hunder2 q hq with hq | hq
          · exact hunder1 q hq
          · exact Or.inr (by omega)
        refine ⟨hq1, ?_⟩
        rintro rfl
        rcases hq1 with hq1 | hq1
        · exact hpidc hq1
        · omega
      have hsib3 : ∀ d ∈ A.map Prod.snd ++ B.map Prod.snd, ∀ q, Under (FetchPage t) h d q →
          FetchPage t3 q = FetchPage t q := by
        intro d hd q hq
        obtain ⟨h1, h2, h3⟩ := hsib d hd q hq
        rw [hne3 q h3, hframe2 q (hnotu1 q h2 h1) (by omega), hframe1 q h1 h2]
      have hwl3 : WF (FetchPage t3) lm im (minNonRoot lm im h) 0 h c pid
          (lbAt lo A kc) (bnd key1) :=
        WF.congr h _ _ _ _ _ _ (fun q hq => hne3 q (hhalves q (Or.inl hq)).2) hwl
      have hwr3 : WF (FetchPage t3) lm im (minNonRoot lm im h) 0 h
          t1.buffer_pool_manager.next_page_id pid (bnd key1)
          (ub (B.map (fun e => (bnd e.1, e.2))) hi) :=
        WF.congr h _ _ _ _ _ _ (fun q hq => hne3 q (hhalves q (Or.inr hq)).2) hwr
      refine ⟨t3, x1.AddIntoPageSet t1.buffer_pool_manager.next_page_id, ?_, hdel, ?_,
        by rw [hroot3, hroot2, hroot1], by omega, ?_, ?_, ?_, ?_⟩
      · intro fuel
        rw [show fuel + (h + 1) = (fuel + 1) + h by omega, hrun,
          splitUp_of_gt _ _ _ _ _ _ _ pc key1 hpc hgt hsplit hkey1, hins]
      · refine ⟨by rw [hlm3]; exact hp2.lm_eq, by rw [him3]; exact hp2.im_eq, ?_⟩
        intro q p hq
        rw [hnext3]
        by_cases hqp : q = pid
        · subst hqp
          rw [hnext2]
          exact ⟨hpidr.1, by omega⟩
        · rw [hne3 q hqp] at hq
          exact hp2.ids _ _ hq
      · refine WF.replace_child hw0 hf hg (by simp) hsib3 ?_ ?_
        · intro d hd
          simp only [List.map_cons, List.map_nil, List.mem_singleton] at hd
          subst hd
          intro hmem
          rw [← hkids] at hmem
          obtain ⟨l, u, hwd⟩ := hw0.child hmem
          obtain ⟨p, hpd, _⟩ := hwd.fetch
          have := (hp.ids _ _ hpd).2
          omega
        · simp only [List.map_cons, List.map_nil, Seg_cons, Seg_nil, ub_cons, ub_nil, and_true]
          exact ⟨hwl3, hwr3⟩
      · intro k v
        refine Holds.holds_replace_child (fun k v => k = key ∧ v = value) hf hg ?_ ?_ k v
        · intro d hd k v
          exact Holds.holds_congr h d (hsib3 d hd) k v
        · intro k v
          simp only [List.map_cons, List.map_nil, List.mem_cons, List.mem_singleton,
            exists_eq_or_imp, exists_eq_left, List.not_mem_nil, false_and, exists_false,
            or_false]
          rw [Holds.holds_congr h c (fun q hq => hne3 q (hhalves q (Or.inl hq)).2) k v,
            Holds.holds_congr h _ (fun q hq => hne3 q (hhalves q (Or.inr hq)).2) k v,
            hholds2 k v, hholds1 k v]
      · intro q hq
        refine Under.under_replace_child (fun q => t.buffer_pool_manager.next_page_id ≤ q) hf hg
          ?_ ?_ q hq
        · intro d hd q
          exact Under.under_congr h d (hsib3 d hd) q
        · intro q
          simp only [List.map_cons, List.map_nil, List.mem_cons, List.mem_singleton,
            exists_eq_or_imp, exists_eq_left, List.not_mem_nil, false_and, exists_false,
            or_false]
          rw [Under.under_congr h c (fun q hq => hne3 q (hhalves q (Or.inl hq)).2) q,
            Under.under_congr h _ (fun q hq => hne3 q (hhalves q (Or.inr hq)).2) q]
          intro hq
          exact (hhalves q hq).1
      · intro q hq hlt
        have hqp : q ≠ pid := fun e => hq (e ▸ Under.self _ _ _)
        have hqc : ¬ Under (FetchPage t) h c q := fun hc => hq (Under.of_child hcmem hc)
        rw [hne3 q hqp, hframe2 q (hnotu1 q hlt hqc) (by omega), hframe1 q hqc hlt]

end BPlusTree

/-! ## B+ tree: the results do not depend on the fuel -/

namespace BPlusTree

variable {K V : Type} [LinearOrder K] [Inhabited K]

theorem bind_mono {α β : Type} (x : Option α) (g g1 : α → Option β) (r : β)
    (hg : ∀ a, g a = some r → g1 a = some r) (h : x.bind g = some r) :
    x.bind g1 = some r := by
  cases x with
  | none => cases h
  | some a => exact hg a h

theorem findLeafLoop_mono (key : K) (leftMost : Bool) (op : OpType) :
    ∀ (fuel : Nat) (t : BPlusTree K V) (txn : Option Transaction) (cur : Int)
      (r : Int × BPlusTree K V × Option Transaction),
      findLeafLoop key leftMost op fuel t txn cur = some r →
      findLeafLoop key leftMost op (fuel + 1) t txn cur = some r := by
  intro fuel
  induction fuel with
  | zero => intro t txn cur r h; cases h
  | succ fuel ih =>
    intro t txn cur r h
    rw [findLeafLoop] at h ⊢
    refine bind_mono _ _ _ r ?_ h
    intro p hp
    cases p with
    | leaf a b mx arr => exact hp
    | internal a b mx arr =>
      have key1 : ∀ next, (CrabingProtocalFetchPage t next op cur txn).bind
            (fun r1 => findLeafLoop key leftMost op fuel r1.1 r1.2 next) = some r →
          (CrabingProtocalFetchPage t next op cur txn).bind
            (fun r1 => findLeafLoop key leftMost op (fuel + 1) r1.1 r1.2 next) = some r :=
        fun next hn => bind_mono _ _ _ r (fun r1 hr1 => ih _ _ _ _ hr1) hn
      cases leftMost
      · exact bind_mono (BPlusTreeInternalPage.Lookup arr key) _ _ r key1 hp
      · exact bind_mono (BPlusTreeInternalPage.ValueAt arr 0) _ _ r key1 hp

theorem FindLeafPage_mono (key : K) (leftMost : Bool) (op : OpType) (fuel : Nat)
    (t : BPlusTree K V) (txn : Option Transaction)
    (r : Option Int × BPlusTree K V × Option Transaction)
    (h : FindLeafPage fuel t key leftMost op txn = some r) :
    FindLeafPage (fuel + 1) t key leftMost op txn = some r := by
  unfold FindLeafPage at h ⊢
  split
  · rename_i he; rw [if_pos he] at h; exact h
  · rename_i he
    rw [if_neg he] at h
    refine bind_mono _ _ _ r ?_ h
    intro r1 hr1
    cases hl : findLeafLoop key leftMost op fuel r1.1 r1.2 t.root_page_id with
    | none => simp [hl] at hr1
    | some r2 =>
      have := findLeafLoop_mono key leftMost op fuel _ _ _ r2 hl
      simp only [hl, Option.bind_eq_bind, Option.some_bind] at hr1
      simp only [this, Option.bind_eq_bind, Option.some_bind]
      exact hr1

theorem InsertIntoParent_mono :
    ∀ (fuel : Nat) (t : BPlusTree K V) (old_node : Int) (key : K) (new_node : Int)
      (txn : Option Transaction) (r : BPlusTree K V × Option Transaction),
      InsertIntoParent fuel t old_node key new_node txn = some r →
      InsertIntoParent (fuel + 1) t old_node key new_node txn = some r := by
  intro fuel
  induction fuel with
  | zero => intro t old_node key new_node txn r h; cases h
  | succ fuel ih =>
    intro t old_node key new_node txn r h
    rw [InsertIntoParent] at h ⊢
    refine bind_mono _ _ _ r ?_ h
    intro oldPage hp
    cases hroot : oldPage.IsRootPage
    · simp only [hroot, Bool.false_eq_true, if_false] at hp ⊢
      refine bind_mono _ _ _ r ?_ hp
      intro pp hpp
      cases pp with
      | leaf a b c d => exact hpp
      | internal a b c d =>
        refine bind_mono _ _ _ r ?_ hpp
        intro bpm1 h1
        refine bind_mono _ _ _ r ?_ h1
        intro newPage h2
        refine bind_mono _ _ _ r ?_ h2
        intro pp2 h3
        cases pp2 with
        | leaf a b c d => exact h3
        | internal ppid pparent pmax parray =>
          refine bind_mono _ _ _ r ?_ h3
          intro parray1 h4
          by_cases hgt : parray1.length > pmax
          · simp only [hgt, if_true] at h4 ⊢
            refine bind_mono _ _ _ r ?_ h4
            intro r1 h5
            refine bind_mono _ _ _ r ?_ h5
            intro key1 h6
            exact ih _ _ _ _ _ _ h6
          · simp only [hgt, if_false] at h4 ⊢
            exact h4
    · simp only [hroot, if_true] at hp ⊢
      exact hp

theorem Insert_fuel (fuel : Nat) (t : BPlusTree K V) (key : K) (value : V)
    (txn : Option Transaction) (r : Bool × BPlusTree K V × Option Transaction)
    (h : Insert fuel t key value txn = some r) :
    Insert (fuel + 1) t key value txn = some r := by
  unfold Insert at h ⊢
  split
  · rename_i he; rw [if_pos he] at h; exact h
  · rename_i he
    rw [if_neg he] at h
    unfold InsertIntoLeaf at h ⊢
    cases hfl : FindLeafPage fuel t key false OpType.INSERT txn with
    | none => simp [hfl] at h
    | some r1 =>
      rw [FindLeafPage_mono key false OpType.INSERT fuel t txn r1 hfl]
      rw [hfl] at h
      refine bind_mono _ _ _ r ?_ h
      intro r2 h2
      refine bind_mono _ _ _ r ?_ h2
      intro L h3
      refine bind_mono _ _ _ r ?_ h3
      intro pg h4
      cases pg with
      | internal a b c d => exact h4
      | leaf a b c d =>
        cases hlk : BPlusTreeLeafPage.Lookup d key with
        | some v => simp only [hlk] at h4 ⊢; exact h4
        | none =>
          simp only [hlk] at h4 ⊢
          by_cases hgt : (BPlusTreeLeafPage.Insert d key value).length > c
          · simp only [hgt, if_true] at h4 ⊢
            refine bind_mono _ _ _ r ?_ h4
            intro r5 h5
            refine bind_mono _ _ _ r ?_ h5
            intro key1 h6
            cases hip : InsertIntoParent fuel r5.2.1 L key1 r5.1 r5.2.2 with
            | none => simp [hip] at h6
            | some r6 =>
              rw [InsertIntoParent_mono fuel _ _ _ _ _ r6 hip]
              rw [hip] at h6
              exact h6
          · simp only [hgt, if_false] at h4 ⊢
            exact h4

theorem Insert_fuel_le (fuel fuel1 : Nat) (hle : fuel ≤ fuel1) (t : BPlusTree K V) (key : K)
    (value : V) (txn : Option Transaction) (r : Bool × BPlusTree K V × Option Transaction)
    (h : Insert fuel t key value txn = some r) :
    Insert fuel1 t key value txn = some r := by
  induction fuel1, hle using Nat.le_induction with
  | base => exact h
  | succ n _ ih => exact Insert_fuel n t key value txn r ih

end BPlusTree

/-! ## B+ tree: `Insert` -/

namespace BPlusTree

variable {K V : Type} [LinearOrder K] [Inhabited K]

/-- The overflow handling at the root: a root within its capacity stays, a root with one
pair too many is split and a new root of two children is put above the halves. -/
theorem splitUp_root {lm im h : Nat} (hlm : 2 ≤ lm) (him : 3 ≤ im) {t : BPlusTree K V}
    (hp : PoolOk lm im t) (hnn : 0 ≤ t.buffer_pool_manager.next_page_id)
    (hroot : t.root_page_id ≠ INVALID_PAGE_ID)
    (hw : WF (FetchPage t) lm im (minRoot h) 1 h t.root_page_id INVALID_PAGE_ID ⊥ ⊤)
    (x : Transaction) :
    ∃ t1 x1 h1, (∀ fuel, splitUp (fuel + 1) t t.root_page_id (some x) = some (t1, some x1)) ∧
      x1.deleted_page_set = x.deleted_page_set ∧ PoolOk lm im t1 ∧
      t.buffer_pool_manager.next_page_id ≤ t1.buffer_pool_manager.next_page_id ∧
      t1.root_page_id ≠ INVALID_PAGE_ID ∧
      WF (FetchPage t1) lm im (minRoot h1) 0 h1 t1.root_page_id INVALID_PAGE_ID ⊥ ⊤ ∧
      ∀ k v, Holds (FetchPage t1) h1 t1.root_page_id k v ↔
        Holds (FetchPage t) h t.root_page_id k v := by
  obtain ⟨pr, hpr, hprid, hprpar, _⟩ := hw.fetch
  by_cases hover : pr.GetSize ≤ pr.GetMaxSize
  · refine ⟨t, x, h, fun fuel => splitUp_of_le _ _ _ _ pr hpr hover, rfl, hp, le_refl _, hroot,
      hw.tighten (fun p hp2 => by rw [hpr] at hp2; cases hp2; exact hover), fun k v => Iff.rfl⟩
  · have hgt : pr.GetSize > pr.GetMaxSize := Nat.lt_of_not_le hover
    obtain ⟨t2, key1, hsplit, hkey1, hp2, hroot2, hnext2, hwl, hwr, hholds2, hunder2,
        hframe2⟩ := Split_spec hlm him hp hw
      (fun p hp2 => by rw [hpr] at hp2; cases hp2; exact hgt) x
    obtain ⟨pl, hpl, hplid, hplpar, _⟩ := hwl.fetch
    obtain ⟨pn, hpn, hpnid, hpnpar, _⟩ := hwr.fetch
    have hcr := hp.ids _ _ hpr
    have hfresh : FetchPage t2 t2.buffer_pool_manager.next_page_id = none := by
      cases hq : FetchPage t2 t2.buffer_pool_manager.next_page_id with
      | none => rfl
      | some p => exact absurd (hp2.ids _ _ hq).2 (lt_irrefl _)
    have hcn : t.root_page_id ≠ t.buffer_pool_manager.next_page_id := by omega
    obtain ⟨t3, hins, hroot3, hlm3, him3, hnext3, hfetch3⟩ :=
      InsertIntoParent_root t2 t.root_page_id t.buffer_pool_manager.next_page_id key1
        (some (x.AddIntoPageSet t.buffer_pool_manager.next_page_id)) pl pn hpl hplid hplpar
        hpn hpnid hfresh hcn
    have hR : t2.buffer_pool_manager.next_page_id ≠ t.buffer_pool_manager.next_page_id := by
      omega
    have hRc : t2.buffer_pool_manager.next_page_id ≠ t.root_page_id := by omega
    have hg : FetchPage t3 t2.buffer_pool_manager.next_page_id
        = some (BPlusTreePage.internal t2.buffer_pool_manager.next_page_id INVALID_PAGE_ID im
            [(default, t.root_page_id), (key1, t.buffer_pool_manager.next_page_id)]) := by
      rw [hfetch3, if_neg hR, if_neg hRc, if_pos rfl, hp2.im_eq]
    -- the pages of the halves
    have hhalf : ∀ q, Under (FetchPage t2) h t.root_page_id q ∨
        Under (FetchPage t2) h t.buffer_pool_manager.next_page_id q →
        q ≠ t2.buffer_pool_manager.next_page_id := by
      intro q hq e
      have : ∃ p, FetchPage t2 q = some p := by
        rcases hq with hq | hq
        · exact hwl.under_exists hq
        · exact hwr.under_exists hq
      obtain ⟨p, hpq⟩ := this
      have := (hp2.ids _ _ hpq).2
      omega
    have hdisj := WF.disjoint h _ _ _ _ _ _ _ _ _ _ _ _ (t.buffer_pool_manager.next_page_id)
      hwr hwl (Ne.symm hcn) (Under.self _ _ _)
    have hagl : ∀ q, Under (FetchPage t2) h t.root_page_id q → q ≠ t.root_page_id →
        FetchPage t3 q = FetchPage t2 q := by
      intro q hq hne
      have h1 : q ≠ t.buffer_pool_manager.next_page_id := fun e => hdisj (e ▸ hq)
      rw [hfetch3, if_neg h1, if_neg hne, if_neg (hhalf q (Or.inl hq))]
    have hdisj2 := WF.disjoint h _ _ _ _ _ _ _ _ _ _ _ _ t.root_page_id
      hwl hwr hcn (Under.self _ _ _)
    have hagr : ∀ q, Under (FetchPage t2) h t.buffer_pool_manager.next_page_id q →
        q ≠ t.buffer_pool_manager.next_page_id → FetchPage t3 q = FetchPage t2 q := by
      intro q hq hne
      have h1 : q ≠ t.root_page_id := fun e => hdisj2 (e ▸ hq)
      rw [hfetch3, if_neg hne, if_neg h1, if_neg (hhalf q (Or.inr hq))]
    have hwl3 : WF (FetchPage t3) lm im (minNonRoot lm im h) 0 h t.root_page_id
        t2.buffer_pool_manager.next_page_id ⊥ (bnd key1) := by
      refine hwl.reparent _ ?_ hagl
      intro p hp3
      rw [hpl] at hp3
      cases hp3
      rw [hfetch3, if_neg hcn, if_pos rfl]
    have hwr3 : WF (FetchPage t3) lm im (minNonRoot lm im h) 0 h
        t.buffer_pool_manager.next_page_id t2.buffer_pool_manager.next_page_id (bnd key1) ⊤ := by
      refine hwr.reparent _ ?_ hagr
      intro p hp3
      rw [hpn] at hp3
      cases hp3
      rw [hfetch3, if_pos rfl]
    have hmapl : ∀ q, Under (FetchPage t2) h t.root_page_id q →
        (FetchPage t3 q).map (fun p => p.SetParentPageId 0)
          = (FetchPage t2 q).map (fun p => p.SetParentPageId 0) := by
      intro q hq
      by_cases hne : q = t.root_page_id
      · subst hne
        rw [hfetch3, if_neg hcn, if_pos rfl, hpl]
        cases pl <;> rfl
      · rw [hagl q hq hne]
    have hmapr : ∀ q, Under (FetchPage t2) h t.buffer_pool_manager.next_page_id q →
        (FetchPage t3 q).map (fun p => p.SetParentPageId 0)
          = (FetchPage t2 q).map (fun p => p.SetParentPageId 0) := by
      intro q hq
      by_cases hne : q = t.buffer_pool_manager.next_page_id
      · subst hne
        rw [hfetch3, if_pos rfl, hpn]
        cases pn <;> rfl
      · rw [hagr q hq hne]
    refine ⟨t3, x.AddIntoPageSet t.buffer_pool_manager.next_page_id, h + 1, ?_, rfl, ?_,
      by omega, ?_, ?_, ?_⟩
    · intro fuel
      rw [splitUp_of_gt _ _ _ _ _ _ _ pr key1 hpr hgt hsplit hkey1, hins]
    · refine ⟨by rw [hlm3]; exact hp2.lm_eq, by rw [him3]; exact hp2.im_eq, ?_⟩
      intro q p hq
      rw [hnext3]
      rw [hfetch3] at hq
      by_cases h1 : q = t.buffer_pool_manager.next_page_id
      · subst h1; omega
      · rw [if_neg h1] at hq
        by_cases h2 : q = t.root_page_id
        · subst h2; omega
        · rw [if_neg h2] at hq
          by_cases h3 : q = t2.buffer_pool_manager.next_page_id
          · rw [h3]; omega
          · rw [if_neg h3] at hq
            have := hp2.ids _ _ hq
            omega
    · rw [hroot3]
      intro e
      rw [e] at hnext2
      simp only [INVALID_PAGE_ID] at hnext2
      omega
    · rw [hroot3]
      refine ⟨_, hg, ?_, ?_, ?_, bot_lt_top, ?_, ?_, ?_⟩
      · simp [minRoot]
      · simp
      · simp only [List.length_cons, List.length_nil]; omega
      · intro l hl
        exact absurd hl (ne_of_lt bot_lt_bnd)
      · simp [hcn]
      · simp only [slots, List.map_cons, List.map_nil, Seg_cons, Seg_nil, ub_cons, ub_nil,
          and_true]
        exact ⟨hwl3, hwr3⟩
    · intro k v
      rw [hroot3, Holds_succ_iff hg, ← hholds2 k v, ← Holds.holds_congr_parent h _ hmapl k v,
        ← Holds.holds_congr_parent h _ hmapr k v]
      simp

theorem Inv.poolOk {t : BPlusTree K V} (hinv : Inv t) :
    PoolOk t.leaf_max_size t.internal_max_size t :=
  ⟨rfl, rfl, hinv.ids⟩

/-- The call `InsertIntoLeaf` after the descent has reached the leaf `L`, for a key that
is not in the leaf: the leaf takes the pair, the overflow handling runs, and the pages of
the transaction are released. -/
theorem InsertIntoLeaf_eq (fuel : Nat) (t : BPlusTree K V) (key : K) (value : V)
    (txn txn1 : Option Transaction) (L a b : Int) (mx : Nat) (arr : List (K × V))
    (hfind : FindLeafPage fuel t key false OpType.INSERT txn = some (some L, t, txn1))
    (hf : FetchPage t L = some (BPlusTreePage.leaf a b mx arr))
    (hlk : BPlusTreeLeafPage.Lookup arr key = none) :
    InsertIntoLeaf fuel t key value txn =
      (splitUp fuel { t with buffer_pool_manager := (t.buffer_pool_manager.store L
          (BPlusTreePage.leaf a b mx (BPlusTreeLeafPage.Insert arr key value))) } L txn1).bind
        (fun r => (FreePagesInTransaction r.1 true r.2 (-1)).bind
          (fun r1 => some (true, r1.1, r1.2))) := by
  have hf1 : t.buffer_pool_manager.FetchPage L = some (BPlusTreePage.leaf a b mx arr) := hf
  by_cases hgt : (BPlusTreeLeafPage.Insert arr key value).length > mx
  · simp only [InsertIntoLeaf, hfind, Option.bind_eq_bind, Option.some_bind, hf1, hlk, splitUp,
      FetchPage_def, BufferPoolManager.FetchPage_store, if_true, BPlusTreePage.GetSize,
      BPlusTreePage.GetMaxSize, hgt, Option.bind_assoc]
  · simp only [InsertIntoLeaf, hfind, Option.bind_eq_bind, Option.some_bind, hf1, hlk, splitUp,
      FetchPage_def, BufferPoolManager.FetchPage_store, if_true, BPlusTreePage.GetSize,
      BPlusTreePage.GetMaxSize, hgt, if_false, Option.bind_assoc]

/-- The call `Insert(key, value, transaction)` on a tree that satisfies the invariant,
with a transaction without pending deletions. It returns for all fuel from some bound
on; the tree that it leaves satisfies the invariant and has the same capacities; the
flag is `true` exactly if the key was not stored, and then the pair is stored besides
the former pairs; with the flag `false` the tree is the one before the call. -/
theorem Inv.Insert_eq {t : BPlusTree K V} (hinv : Inv t) (key : K) (value : V)
    (x : Transaction) (hd : x.deleted_page_set = []) :
    ∃ n res t1 txn1,
      (∀ fuel, n ≤ fuel → Insert fuel t key value (some x) = some (res, t1, txn1)) ∧
      TxnOk OpType.INSERT txn1 ∧ Inv t1 ∧
      t1.leaf_max_size = t.leaf_max_size ∧ t1.internal_max_size = t.internal_max_size ∧
      (res = true ↔ ∀ v, ¬ Stored t key v) ∧ (res = false → t1 = t) ∧
      ∀ k v, Stored t1 k v ↔ (res = true ∧ k = key ∧ v = value) ∨ Stored t k v := by
  by_cases hroot : t.root_page_id = INVALID_PAGE_ID
  · -- the empty tree
    have hnn := hinv.next_nonneg
    have hne : t.buffer_pool_manager.next_page_id ≠ INVALID_PAGE_ID := by
      intro e
      rw [e] at hnn
      simp [INVALID_PAGE_ID] at hnn
    have hfetch : ∀ q, FetchPage (StartNewTree t key value) q =
        if q = t.buffer_pool_manager.next_page_id then
          some (BPlusTreePage.leaf t.buffer_pool_manager.next_page_id INVALID_PAGE_ID
            t.leaf_max_size [(key, value)])
        else FetchPage t q := by
      intro q
      simp only [StartNewTree, BufferPoolManager.NewPage, FetchPage_def,
        BufferPoolManager.FetchPage_store, BPlusTreeLeafPage.Insert]
      by_cases hq : q = t.buffer_pool_manager.next_page_id
      · subst hq; simp
      · have : ¬ t.buffer_pool_manager.next_page_id = q := fun e => hq e.symm
        simp only [this, hq, if_false]
        rfl
    have hw : WF (FetchPage (StartNewTree t key value)) t.leaf_max_size t.internal_max_size
        (minRoot 0) 0 0 t.buffer_pool_manager.next_page_id INVALID_PAGE_ID ⊥ ⊤ := by
      refine ⟨[(key, value)], by rw [hfetch, if_pos rfl], by simp [minRoot], ?_, bot_lt_top,
        by simp, ?_⟩
      · have := hinv.leaf_max
        simp only [List.length_cons, List.length_nil]
        omega
      · intro e he
        exact ⟨bot_le, lt_of_lt_of_le bnd_lt_top (le_refl _)⟩
    have hroot1 : (StartNewTree t key value).root_page_id
        = t.buffer_pool_manager.next_page_id := rfl
    refine ⟨0, true, StartNewTree t key value, some x, ?_, hd, ?_, rfl, rfl, ?_, ?_, ?_⟩
    · intro fuel _
      simp [Insert, IsEmpty, hroot]
    · refine ⟨hinv.leaf_max, hinv.internal_max, ?_, ?_, Or.inr ⟨0, hw⟩⟩
      · intro q p hq
        rw [hfetch] at hq
        have hnext : (StartNewTree t key value).buffer_pool_manager.next_page_id
            = t.buffer_pool_manager.next_page_id + 1 := rfl
        rw [hnext]
        by_cases hqn : q = t.buffer_pool_manager.next_page_id
        · subst hqn; omega
        · rw [if_neg hqn] at hq
          have := hinv.ids _ _ hq
          omega
      · have hnext : (StartNewTree t key value).buffer_pool_manager.next_page_id
            = t.buffer_pool_manager.next_page_id + 1 := rfl
        rw [hnext]; omega
    · simp only [true_iff]
      exact fun v => not_Stored_of_empty hroot key v
    · intro e; cases e
    · intro k v
      have hroot2 : (StartNewTree t key value).root_page_id ≠ INVALID_PAGE_ID := by
        rw [hroot1]; exact hne
      rw [Stored_iff_Holds hroot2 (hroot1 ▸ hw), hroot1,
        Holds_zero_iff (show FetchPage (StartNewTree t key value)
          t.buffer_pool_manager.next_page_id = _ by rw [hfetch, if_pos rfl])]
      simp only [List.mem_singleton, Prod.mk.injEq, true_and]
      constructor
      · intro e; exact Or.inl e
      · rintro (e | e)
        · exact e
        · exact absurd e (not_Stored_of_empty hroot k v)
  · -- the descent
    obtain ⟨h, hw⟩ := hinv.tree.resolve_left hroot
    have hp := hinv.poolOk
    obtain ⟨par1, lo1, hi1, hwl, _, _, hun, hholds⟩ := leafOf_spec key h _ _ _ _ _ _ hw
      bot_le (lt_of_lt_of_le bnd_lt_top (le_refl _))
    obtain ⟨array, hf, _, _, _, hsorted, _⟩ := hwl
    have hst : ∀ value, Stored t key value ↔ (key, value) ∈ array := by
      intro value
      rw [Stored_iff_Holds hroot hw, hholds, Holds_zero_iff hf]
    cases hlk : BPlusTreeLeafPage.Lookup array key with
    | some v0 =>
      have hmem := (BPlusTreeLeafPage.Lookup_eq_some_iff array key v0 hsorted).mp hlk
      refine ⟨h + 1, false, t, emptyTxn, ?_, rfl, hinv, rfl, rfl, ?_, fun _ => rfl, ?_⟩
      · intro fuel hfuel
        obtain ⟨txn1, hfind, hok1⟩ := FindLeafPage_spec key OpType.INSERT (some x) hroot hw hd
          fuel hfuel
        cases txn1 with
        | none => cases hok1
        | some x1 =>
          have hfree := FreePagesInTransaction_some t true x1 (-1) hok1
          have hf1 : t.buffer_pool_manager.FetchPage (leafOf (FetchPage t) key h t.root_page_id)
              = some (BPlusTreePage.leaf (leafOf (FetchPage t) key h t.root_page_id) par1
                  t.leaf_max_size array) := hf
          simp [Insert, IsEmpty, hroot, InsertIntoLeaf, hfind, FetchPage_def, hf1, hlk, hfree]
      · simp only [Bool.false_eq_true, false_iff, not_forall, not_not]
        exact ⟨v0, (hst v0).mpr hmem⟩
      · intro k v
        simp
    | none =>
      have hnot := (BPlusTreeLeafPage.Lookup_eq_none_iff array key).mp hlk
      obtain ⟨txn1, hfind, hok1⟩ := FindLeafPage_spec key OpType.INSERT (some x) hroot hw hd
        (h + 1) (le_refl _)
      cases txn1 with
      | none => cases hok1
      | some x1 =>
        obtain ⟨t1, x2, hrun, hdel, hp1, hroot1, hnext1, hw1, hholds1, _, _⟩ :=
          climb hinv.leaf_max hinv.internal_max key value h _ t t.root_page_id INVALID_PAGE_ID
            ⊥ ⊤ x1 _ _ _ array hp hw bot_le (lt_of_lt_of_le bnd_lt_top (le_refl _)) hf hnot
        obtain ⟨t2, x3, h2, hrun2, hdel2, hp2, hnext2, hroot2, hw2, hholds2⟩ :=
          splitUp_root hinv.leaf_max hinv.internal_max hp1 (le_trans hinv.next_nonneg hnext1)
            (hroot1 ▸ hroot) (hroot1 ▸ hw1) x2
        have hfree := FreePagesInTransaction_some t2 true x3 (-1)
          (by rw [hdel2, hdel]; exact hok1)
        have hins : Insert (h + 1) t key value (some x) = some (true, t2, emptyTxn) := by
          have e1 := InsertIntoLeaf_eq (h + 1) t key value (some x) (some x1) _ _ _ _ array
            hfind hf hlk
          have e2 := hrun 1
          rw [Nat.add_comm 1 h] at e2
          rw [e2, hroot1.symm, hrun2 0] at e1
          simp only [Insert, IsEmpty, hroot, decide_False, Bool.false_eq_true, if_false, e1,
            Option.some_bind, Option.bind_eq_bind, hfree]
        refine ⟨h + 1, true, t2, emptyTxn, ?_, rfl, ?_, hp2.lm_eq, hp2.im_eq, ?_, ?_, ?_⟩
        · intro fuel hfuel
          exact Insert_fuel_le _ _ hfuel _ _ _ _ _ hins
        · exact ⟨by rw [hp2.lm_eq]; exact hinv.leaf_max,
            by rw [hp2.im_eq]; exact hinv.internal_max, hp2.ids,
            le_trans hinv.next_nonneg (le_trans hnext1 hnext2),
            Or.inr ⟨h2, by rw [hp2.lm_eq, hp2.im_eq]; exact hw2⟩⟩
        · simp only [true_iff]
          intro v hv
          exact hnot v ((hst v).mp hv)
        · intro e; cases e
        · intro k v
          rw [Stored_iff_Holds hroot2 hw2, hholds2, hroot1, hholds1,
            Stored_iff_Holds hroot hw]
          simp

end BPlusTree

/-! ## B+ tree: the invariant of a page some of whose children are replaced -/

namespace BPlusTree

variable {K V : Type} [LinearOrder K] [Inhabited K]

/-- The invariant of an internal page after the run `M` of children behind the child `c`
is replaced by the run `N`, the subtrees of `c` and of `N` satisfying the invariant with
ranges that fill the former range of `c` and `M`, and the other children being as
before. -/
theorem WF.replace_mid {f g : Int → Option (BPlusTreePage K V)} {lm im m m1 x1 h : Nat}
    {pid par : Int} {lo hi : Bound K} {A B M N : List (K × Int)} {kc : K} {c : Int}
    (hw : WF f lm im m 0 (h + 1) pid par lo hi)
    (hf : f pid = some (BPlusTreePage.internal pid par im (A ++ (kc, c) :: (M ++ B))))
    (hg : g pid = some (BPlusTreePage.internal pid par im (A ++ (kc, c) :: (N ++ B))))
    (hlow : m1 ≤ (A ++ (kc, c) :: (N ++ B)).length)
    (hhigh : (A ++ (kc, c) :: (N ++ B)).length ≤ im + x1)
    (hsib : ∀ d ∈ A.map Prod.snd ++ B.map Prod.snd, ∀ q, Under f h d q → g q = f q)
    (hnd : ((A ++ (kc, c) :: (N ++ B)).map Prod.snd).Nodup)
    (hmid : Seg (fun d l u => WF g lm im (minNonRoot lm im h) 0 h d pid l u)
      ((lbAt lo A kc, c) :: N.map (fun e => (bnd e.1, e.2)))
      (ub (B.map (fun e => (bnd e.1, e.2))) hi)) :
    WF g lm im m1 x1 (h + 1) pid par lo hi := by
  obtain ⟨array, hf1, h1, h2, h3, h4, hmirror, hnodup, hseg⟩ := hw
  rw [hf] at hf1
  cases hf1
  rw [slots_append_cons, Seg_append, List.map_append, ← List.cons_append, Seg_append] at hseg
  obtain ⟨hsA, _, hsB⟩ := hseg
  simp only [List.cons_append, ub_cons] at hsA
  refine ⟨_, hg, hlow, ?_, hhigh, h4, ?_, hnd, ?_⟩
  · simp only [List.length_append, List.length_cons]
    omega
  · intro l hl
    have := hmirror l hl
    cases A with
    | nil => simpa using this
    | cons a A => simpa using this
  · rw [slots_append_cons, Seg_append]
    simp only [ub_cons, List.map_append]
    have hA : Seg (fun d l u => WF g lm im (minNonRoot lm im h) 0 h d pid l u) (slots lo A)
        (lbAt lo A kc) := by
      refine hsA.imp ?_
      intro d l u hd hwd
      rw [slots_map_snd] at hd
      exact WF.congr _ _ _ _ _ _ _ (hsib d (List.mem_append_left _ hd)) hwd
    have hB : Seg (fun d l u => WF g lm im (minNonRoot lm im h) 0 h d pid l u)
        (B.map (fun e => (bnd e.1, e.2))) hi := by
      refine hsB.imp ?_
      intro d l u hd hwd
      have hd1 : d ∈ B.map Prod.snd := by simpa [Function.comp_def] using hd
      exact WF.congr _ _ _ _ _ _ _ (hsib d (List.mem_append_right _ hd1)) hwd
    refine ⟨hA, ?_⟩
    have := (Seg_append ((lbAt lo A kc, c) :: N.map (fun e => (bnd e.1, e.2)))
      (B.map (fun e => (bnd e.1, e.2))) hi).mpr ⟨hmid, hB⟩
    simpa using this

/-- The parts of the invariant of an internal page about the child `c` and the run `M`
of children behind it. -/
theorem WF.mid {f : Int → Option (BPlusTreePage K V)} {lm im m x h : Nat}
    {pid par : Int} {lo hi : Bound K} {A B M : List (K × Int)} {kc : K} {c : Int}
    (hw : WF f lm im m x (h + 1) pid par lo hi)
    (hf : f pid = some (BPlusTreePage.internal pid par im (A ++ (kc, c) :: (M ++ B)))) :
    Seg (fun d l u => WF f lm im (minNonRoot lm im h) 0 h d pid l u)
      ((lbAt lo A kc, c) :: M.map (fun e => (bnd e.1, e.2)))
      (ub (B.map (fun e => (bnd e.1, e.2))) hi) := by
  obtain ⟨array, hf1, h1, h2, h3, h4, hmirror, hnodup, hseg⟩ := hw
  rw [hf] at hf1
  cases hf1
  rw [slots_append_cons, Seg_append, List.map_append, ← List.cons_append, Seg_append] at hseg
  exact hseg.2.1

theorem Holds_mid_iff {f : Int → Option (BPlusTreePage K V)} {h : Nat} {pid a b : Int}
    {mx : Nat} {A B M : List (K × Int)} {kc : K} {c : Int}
    (hf : f pid = some (BPlusTreePage.internal a b mx (A ++ (kc, c) :: (M ++ B))))
    (k : K) (v : V) :
    Holds f (h + 1) pid k v ↔
      (∃ d ∈ A.map Prod.snd ++ B.map Prod.snd, Holds f h d k v) ∨
      (∃ d ∈ c :: M.map Prod.snd, Holds f h d k v) := by
  rw [Holds_succ_iff hf]
  simp only [List.map_append, List.map_cons, List.mem_append, List.mem_cons]
  constructor
  · rintro ⟨d, hd, hh⟩
    rcases hd with hd | rfl | hd | hd
    · exact Or.inl ⟨d, Or.inl hd, hh⟩
    · exact Or.inr ⟨d, Or.inl rfl, hh⟩
    · exact Or.inr ⟨d, Or.inr hd, hh⟩
    · exact Or.inl ⟨d, Or.inr hd, hh⟩
  · rintro (⟨d, hd, hh⟩ | ⟨d, hd, hh⟩)
    · rcases hd with hd | hd
      · exact ⟨d, Or.inl hd, hh⟩
      · exact ⟨d, Or.inr (Or.inr (Or.inr hd)), hh⟩
    · rcases hd with rfl | hd
      · exact ⟨d, Or.inr (Or.inl rfl), hh⟩
      · exact ⟨d, Or.inr (Or.inr (Or.inl hd)), hh⟩

theorem Under_mid_iff {f : Int → Option (BPlusTreePage K V)} {h : Nat} {pid a b : Int}
    {mx : Nat} {A B M : List (K × Int)} {kc : K} {c : Int}
    (hf : f pid = some (BPlusTreePage.internal a b mx (A ++ (kc, c) :: (M ++ B))))
    (q : Int) :
    Under f (h + 1) pid q ↔
      q = pid ∨ (∃ d ∈ A.map Prod.snd ++ B.map Prod.snd, Under f h d q) ∨
      (∃ d ∈ c :: M.map Prod.snd, Under f h d q) := by
  have hk : kidsOf f pid = (A ++ (kc, c) :: (M ++ B)).map Prod.snd := kidsOf_internal hf
  show (q = pid ∨ ∃ d ∈ kidsOf f pid, Under f h d q) ↔ _
  rw [hk]
  simp only [List.map_append, List.map_cons, List.mem_append, List.mem_cons]
  constructor
  · rintro (rfl | ⟨d, hd, hh⟩)
    · exact Or.inl rfl
    · rcases hd with hd | rfl | hd | hd
      · exact Or.inr (Or.inl ⟨d, Or.inl hd, hh⟩)
      · exact Or.inr (Or.inr ⟨d, Or.inl rfl, hh⟩)
      · exact Or.inr (Or.inr ⟨d, Or.inr hd, hh⟩)
      · exact Or.inr (Or.inl ⟨d, Or.inr hd, hh⟩)
  · rintro (rfl | ⟨d, hd, hh⟩ | ⟨d, hd, hh⟩)
    · exact Or.inl rfl
    · rcases hd with hd | hd
      · exact Or.inr ⟨d, Or.inl hd, hh⟩
      · exact Or.inr ⟨d, Or.inr (Or.inr (Or.inr hd)), hh⟩
    · rcases hd with rfl | hd
      · exact Or.inr ⟨d, Or.inr (Or.inl rfl), hh⟩
      · exact Or.inr ⟨d, Or.inr (Or.inr (Or.inl hd)), hh⟩

end BPlusTree

/-! ## B+ tree: the page operations of `Coalesce` and `Redistribute` -/

namespace BPlusTreeInternalPage

variable {K V : Type} [LinearOrder K] [Inhabited K]

theorem SetKeyAt_append (A : List (K × Int)) (kc : K) (c : Int) (B : List (K × Int))
    (key : K) : SetKeyAt (A ++ (kc, c) :: B) A.length key = some (A ++ (key, c) :: B) := by
  have h : (A ++ (kc, c) :: B)[A.length]? = some (kc, c) := by
    rw [List.getElem?_append_right (le_refl _)]
    simp
  simp [SetKeyAt, h]

theorem KeyAt_append (A : List (K × Int)) (kc : K) (c : Int) (B : List (K × Int)) :
    KeyAt (A ++ (kc, c) :: B) A.length = some kc := by
  have h : (A ++ (kc, c) :: B)[A.length]? = some (kc, c) := by
    rw [List.getElem?_append_right (le_refl _)]
    simp
  simp [KeyAt, h]

theorem ValueAt_append (A : List (K × Int)) (kc : K) (c : Int) (B : List (K × Int)) :
    ValueAt (A ++ (kc, c) :: B) A.length = some c := by
  have h : (A ++ (kc, c) :: B)[A.length]? = some (kc, c) := by
    rw [List.getElem?_append_right (le_refl _)]
    simp
  simp [ValueAt, h]

theorem Remove_append (A : List (K × Int)) (kc : K) (c : Int) (B : List (K × Int)) :
    Remove (A ++ (kc, c) :: B) A.length = some (A ++ B) := by
  have : A.length < (A ++ (kc, c) :: B).length := by simp
  rw [Remove, if_pos this, List.eraseIdx_append_of_length_le (le_refl _)]
  simp

/-- The call `MoveAllTo` on the internal page `r` with the page `l` as recipient: the
pairs of `r`, the first with the separator key `kr` of `r` in the parent, go behind the
pairs of `l`, and their children get `l` as parent. -/
theorem MoveAllTo_spec (bpm : BufferPoolManager K V) (r l pid pl : Int) (mxr mxl : Nat)
    (k0 : K) (c0 : Int) (restR arrL : List (K × Int)) (index : Nat)
    (parray : List (K × Int)) (a b : Int) (mxp : Nat) (kr : K)
    (hr : bpm.FetchPage r = some (BPlusTreePage.internal r pid mxr ((k0, c0) :: restR)))
    (hl : bpm.FetchPage l = some (BPlusTreePage.internal l pl mxl arrL))
    (hp : bpm.FetchPage pid = some (BPlusTreePage.internal a b mxp parray))
    (hk : KeyAt parray index = some kr)
    (hex : ∀ c ∈ c0 :: restR.map Prod.snd, ∃ p, bpm.FetchPage c = some p)
    (hrk : r ∉ c0 :: restR.map Prod.snd) (hlk : l ∉ c0 :: restR.map Prod.snd)
    (hne : r ≠ l) (hsz : arrL.length + (restR.length + 1) ≤ mxr) :
    ∃ bpm1, MoveAllTo bpm r l index = some bpm1 ∧ bpm1.next_page_id = bpm.next_page_id ∧
      ∀ q, bpm1.FetchPage q =
        if q = r then some (BPlusTreePage.internal r pid mxr [])
        else if q = l then some (BPlusTreePage.internal l pl mxl (arrL ++ (kr, c0) :: restR))
        else if q ∈ c0 :: restR.map Prod.snd then
          (bpm.FetchPage q).map (fun p => p.SetParentPageId l)
        else bpm.FetchPage q := by
  obtain ⟨bpm1, hs1, hs2, hs3⟩ := BufferPoolManager.SetParentPageIds_spec
    (c0 :: restR.map Prod.snd) bpm l hex
  have hl1 : bpm1.FetchPage l = some (BPlusTreePage.internal l pl mxl arrL) := by
    rw [hs3, if_neg hlk, hl]
  have hr1 : bpm1.FetchPage r = some (BPlusTreePage.internal r pid mxr ((k0, c0) :: restR)) := by
    rw [hs3, if_neg hrk, hr]
  have hlr : ¬ l = r := fun h => hne h.symm
  refine ⟨(bpm1.store l (BPlusTreePage.internal l pl mxl (arrL ++ (kr, c0) :: restR))).store r
    (BPlusTreePage.internal r pid mxr []), ?_, ?_, ?_⟩
  · simp only [MoveAllTo, hr, hl, hp, hk, Option.bind_eq_bind, Option.some_bind, SetKeyAt,
      List.getElem?_cons_zero, List.set_cons_zero, List.map_cons, hs1, hl1,
      BufferPoolManager.FetchPage_store, hlr, if_false, hr1, List.length_cons, hsz,
      not_true_eq_false]
  · simp only [BufferPoolManager.next_page_id_store, hs2]
  · intro q
    simp only [BufferPoolManager.FetchPage_store]
    by_cases h1 : q = r
    · subst h1; simp
    · have : ¬ r = q := fun h => h1 h.symm
      simp only [this, h1, if_false]
      by_cases h2 : q = l
      · subst h2; simp
      · have : ¬ l = q := fun h => h2 h.symm
        simp only [this, h2, if_false]
        rw [hs3]

/-- The call `MoveFirstToEndOf` on the internal page `d` with its left sibling `c` as
recipient: the first pair of `d` goes behind the pairs of `c`, its child gets `c` as
parent, and the separator key of `d` in the parent becomes the key of the next pair. -/
theorem MoveFirstToEndOf_spec (bpm : BufferPoolManager K V) (d c pid pc par : Int)
    (mxd mxc mxp : Nat) (pair e2 : K × Int) (rest arrC : List (K × Int))
    (P1 P2 : List (K × Int)) (kd : K) (pch : BPlusTreePage K V)
    (hd : bpm.FetchPage d = some (BPlusTreePage.internal d pid mxd (pair :: e2 :: rest)))
    (hc : bpm.FetchPage c = some (BPlusTreePage.internal c pc mxc arrC))
    (hp : bpm.FetchPage pid = some (BPlusTreePage.internal pid par mxp (P1 ++ (kd, d) :: P2)))
    (hch : bpm.FetchPage pair.2 = some pch)
    (hdP : d ∉ P1.map Prod.snd) (hdc : d ≠ c) (hdp : d ≠ pid) (hcp : c ≠ pid)
    (hhd : pair.2 ≠ d) (hhc : pair.2 ≠ c) (hhp : pair.2 ≠ pid)
    (hsz : arrC.length + 1 ≤ mxc) :
    ∃ bpm1, MoveFirstToEndOf bpm d c = some bpm1 ∧ bpm1.next_page_id = bpm.next_page_id ∧
      ∀ q, bpm1.FetchPage q =
        if q = pid then some (BPlusTreePage.internal pid par mxp (P1 ++ (e2.1, d) :: P2))
        else if q = pair.2 then some (pch.SetParentPageId c)
        else if q = c then some (BPlusTreePage.internal c pc mxc (arrC ++ [pair]))
        else if q = d then some (BPlusTreePage.internal d pid mxd (e2 :: rest))
        else bpm.FetchPage q := by
  refine ⟨((((bpm.store d (BPlusTreePage.internal d pid mxd (e2 :: rest))).store c
    (BPlusTreePage.internal c pc mxc (arrC ++ [pair]))).store pair.2
      (pch.SetParentPageId c)).store pid
    (BPlusTreePage.internal pid par mxp (P1 ++ (e2.1, d) :: P2))), ?_, rfl, ?_⟩
  · have h1 : ¬ c = pid := hcp
    have h2 : ¬ d = pid := hdp
    have h3 : ¬ c = pair.2 := fun h => hhc h.symm
    have h4 : ¬ d = pair.2 := fun h => hhd h.symm
    have h5 : ¬ pair.2 = d := hhd
    have h6 : ¬ pair.2 = pid := hhp
    have h7 : ¬ c = d := fun h => hdc h.symm
    simp only [MoveFirstToEndOf, CopyLastFrom, BufferPoolManager.SetParentPageId, hd, hc, hp,
      hch, Option.bind_eq_bind, Option.some_bind,
      BufferPoolManager.FetchPage_store, hdc, if_false, if_true, h1, h2, h3, h4, h5, h6, h7,
      hsz, not_true_eq_false, BPlusTreePage.GetPageId,
      ValueIndex_append P1 kd d P2 hdP, SetKeyAt_append]
  · intro q
    simp only [BufferPoolManager.FetchPage_store]
    by_cases h1 : q = pid
    · subst h1; simp
    · have : ¬ pid = q := fun h => h1 h.symm
      simp only [this, h1, if_false]
      by_cases h2 : q = pair.2
      · subst h2; simp
      · have : ¬ pair.2 = q := fun h => h2 h.symm
        simp only [this, h2, if_false]
        by_cases h3 : q = c
        · subst h3; simp
        · have : ¬ c = q := fun h => h3 h.symm
          simp only [this, h3, if_false]
          by_cases h4 : q = d
          · subst h4; simp
          · have : ¬ d = q := fun h => h4 h.symm
            simp only [this, h4, if_false]

/-- The call `MoveLastToFrontOf` on the internal page `d` with its right sibling `c` as
recipient: the last pair of `d` goes in front of the pairs of `c`, its child gets `c` as
parent, and the separator key of `c` in the parent becomes the key of the pair. -/
theorem MoveLastToFrontOf_spec (bpm : BufferPoolManager K V) (d c pid pd par : Int)
    (mxd mxc mxp : Nat) (pair : K × Int) (front arrC : List (K × Int))
    (P1 P2 : List (K × Int)) (kc : K) (pch : BPlusTreePage K V)
    (hd : bpm.FetchPage d = some (BPlusTreePage.internal d pd mxd (front ++ [pair])))
    (hc : bpm.FetchPage c = some (BPlusTreePage.internal c pid mxc arrC))
    (hp : bpm.FetchPage pid = some (BPlusTreePage.internal pid par mxp (P1 ++ (kc, c) :: P2)))
    (hch : bpm.FetchPage pair.2 = some pch)
    (hdc : d ≠ c) (hdp : d ≠ pid) (hcp : c ≠ pid)
    (hhd : pair.2 ≠ d) (hhc : pair.2 ≠ c) (hhp : pair.2 ≠ pid)
    (hsz : arrC.length + 1 < mxc) :
    ∃ bpm1, MoveLastToFrontOf bpm d c P1.length = some bpm1 ∧
      bpm1.next_page_id = bpm.next_page_id ∧
      ∀ q, bpm1.FetchPage q =
        if q = pid then some (BPlusTreePage.internal pid par mxp (P1 ++ (pair.1, c) :: P2))
        else if q = pair.2 then some (pch.SetParentPageId c)
        else if q = c then some (BPlusTreePage.internal c pid mxc (pair :: arrC))
        else if q = d then some (BPlusTreePage.internal d pd mxd front)
        else bpm.FetchPage q := by
  refine ⟨((((bpm.store d (BPlusTreePage.internal d pd mxd front)).store c
    (BPlusTreePage.internal c pid mxc (pair :: arrC))).store pair.2
      (pch.SetParentPageId c)).store pid
    (BPlusTreePage.internal pid par mxp (P1 ++ (pair.1, c) :: P2))), ?_, rfl, ?_⟩
  · have h1 : ¬ c = pid := hcp
    have h2 : ¬ d = pid := hdp
    have h3 : ¬ c = pair.2 := fun h => hhc h.symm
    have h4 : ¬ d = pair.2 := fun h => hhd h.symm
    have h5 : ¬ pair.2 = c := hhc
    have h6 : ¬ pair.2 = pid := hhp
    simp only [MoveLastToFrontOf, CopyFirstFrom, BufferPoolManager.SetParentPageId, hd, hc, hp,
      hch, Option.bind_eq_bind, Option.some_bind,
      BufferPoolManager.FetchPage_store, hdc, if_false, if_true, h1, h2, h3, h4, h5, h6,
      hsz, not_true_eq_false, List.getLast?_concat, List.dropLast_concat, List.head?_cons,
      Option.map_some', SetKeyAt_append]
  · intro q
    simp only [BufferPoolManager.FetchPage_store]
    by_cases h1 : q = pid
    · subst h1; simp
    · have : ¬ pid = q := fun h => h1 h.symm
      simp only [this, h1, if_false]
      by_cases h2 : q = pair.2
      · subst h2; simp
      · have : ¬ pair.2 = q := fun h => h2 h.symm
        simp only [this, h2, if_false]
        by_cases h3 : q = c
        · subst h3; simp
        · have : ¬ c = q := fun h => h3 h.symm
          simp only [this, h3, if_false]
          by_cases h4 : q = d
          · subst h4; simp
          · have : ¬ d = q := fun h => h4 h.symm
            simp only [this, h4, if_false]

end BPlusTreeInternalPage

namespace BPlusTreeLeafPage

variable {K V : Type} [LinearOrder K] [Inhabited K]

/-- The call `MoveAllTo` on the leaf `r` with the leaf `l` as recipient. -/
theorem MoveAllTo_leaf (bpm : BufferPoolManager K V) (r l pr pl : Int) (mxr mxl : Nat)
    (arrR arrL : List (K × V)) (index : Nat)
    (hr : bpm.FetchPage r = some (BPlusTreePage.leaf r pr mxr arrR))
    (hl : bpm.FetchPage l = some (BPlusTreePage.leaf l pl mxl arrL)) (hne : r ≠ l) :
    ∃ bpm1, MoveAllTo bpm r l index = some bpm1 ∧ bpm1.next_page_id = bpm.next_page_id ∧
      ∀ q, bpm1.FetchPage q =
        if q = r then some (BPlusTreePage.leaf r pr mxr [])
        else if q = l then some (BPlusTreePage.leaf l pl mxl (arrL ++ arrR))
        else bpm.FetchPage q := by
  refine ⟨(bpm.store l (BPlusTreePage.leaf l pl mxl (arrL ++ arrR))).store r
    (BPlusTreePage.leaf r pr mxr []), ?_, rfl, ?_⟩
  · simp only [MoveAllTo, hr, hl, Option.bind_eq_bind, Option.some_bind]
  · intro q
    simp only [BufferPoolManager.FetchPage_store]
    by_cases h1 : q = r
    · subst h1; simp
    · have : ¬ r = q := fun h => h1 h.symm
      simp only [this, h1, if_false]
      by_cases h2 : q = l
      · subst h2; simp
      · have : ¬ l = q := fun h => h2 h.symm
        simp only [this, h2, if_false]

/-- The call `MoveFirstToEndOf` on the leaf `d` with its left sibling `c` as recipient. -/
theorem MoveFirstToEndOf_leaf (bpm : BufferPoolManager K V) (d c pid pc par : Int)
    (mxd mxc mxp : Nat) (pair e2 : K × V) (rest arrC : List (K × V))
    (P1 P2 : List (K × Int)) (kd : K)
    (hd : bpm.FetchPage d = some (BPlusTreePage.leaf d pid mxd (pair :: e2 :: rest)))
    (hc : bpm.FetchPage c = some (BPlusTreePage.leaf c pc mxc arrC))
    (hp : bpm.FetchPage pid = some (BPlusTreePage.internal pid par mxp (P1 ++ (kd, d) :: P2)))
    (hdP : d ∉ P1.map Prod.snd) (hdc : d ≠ c) (hdp : d ≠ pid) (hcp : c ≠ pid) :
    ∃ bpm1, MoveFirstToEndOf bpm d c = some bpm1 ∧ bpm1.next_page_id = bpm.next_page_id ∧
      ∀ q, bpm1.FetchPage q =
        if q = pid then some (BPlusTreePage.internal pid par mxp (P1 ++ (e2.1, d) :: P2))
        else if q = c then some (BPlusTreePage.leaf c pc mxc (arrC ++ [pair]))
        else if q = d then some (BPlusTreePage.leaf d pid mxd (e2 :: rest))
        else bpm.FetchPage q := by
  refine ⟨((bpm.store d (BPlusTreePage.leaf d pid mxd (e2 :: rest))).store c
    (BPlusTreePage.leaf c pc mxc (arrC ++ [pair]))).store pid
    (BPlusTreePage.internal pid par mxp (P1 ++ (e2.1, d) :: P2)), ?_, rfl, ?_⟩
  · have h1 : ¬ c = pid := hcp
    have h2 : ¬ d = pid := hdp
    simp only [MoveFirstToEndOf, hd, hc, hp, Option.bind_eq_bind, Option.some_bind,
      BufferPoolManager.FetchPage_store, hdc, if_false, h1, h2,
      BPlusTreeInternalPage.ValueIndex_append P1 kd d P2 hdP, KeyAt, List.getElem?_cons_zero,
      Option.map_some', BPlusTreeInternalPage.SetKeyAt_append]
  · intro q
    simp only [BufferPoolManager.FetchPage_store]
    by_cases h1 : q = pid
    · subst h1; simp
    · have : ¬ pid = q := fun h => h1 h.symm
      simp only [this, h1, if_false]
      by_cases h2 : q = c
      · subst h2; simp
      · have : ¬ c = q := fun h => h2 h.symm
        simp only [this, h2, if_false]
        by_cases h3 : q = d
        · subst h3; simp
        · have : ¬ d = q := fun h => h3 h.symm
          simp only [this, h3, if_false]

/-- The call `MoveLastToFrontOf` on the leaf `d` with its right sibling `c` as
recipient. -/
theorem MoveLastToFrontOf_leaf (bpm : BufferPoolManager K V) (d c pid pd par : Int)
    (mxd mxc mxp : Nat) (pair : K × V) (front arrC : List (K × V))
    (P1 P2 : List (K × Int)) (kc : K)
    (hd : bpm.FetchPage d = some (BPlusTreePage.leaf d pd mxd (front ++ [pair])))
    (hc : bpm.FetchPage c = some (BPlusTreePage.leaf c pid mxc arrC))
    (hp : bpm.FetchPage pid = some (BPlusTreePage.internal pid par mxp (P1 ++ (kc, c) :: P2)))
    (hdc : d ≠ c) (hdp : d ≠ pid) (hcp : c ≠ pid) :
    ∃ bpm1, MoveLastToFrontOf bpm d c P1.length = some bpm1 ∧
      bpm1.next_page_id = bpm.next_page_id ∧
      ∀ q, bpm1.FetchPage q =
        if q = pid then some (BPlusTreePage.internal pid par mxp (P1 ++ (pair.1, c) :: P2))
        else if q = c then some (BPlusTreePage.leaf c pid mxc (pair :: arrC))
        else if q = d then some (BPlusTreePage.leaf d pd mxd front)
        else bpm.FetchPage q := by
  refine ⟨((bpm.store d (BPlusTreePage.leaf d pd mxd front)).store c
    (BPlusTreePage.leaf c pid mxc (pair :: arrC))).store pid
    (BPlusTreePage.internal pid par mxp (P1 ++ (pair.1, c) :: P2)), ?_, rfl, ?_⟩
  · have h1 : ¬ c = pid := hcp
    have h2 : ¬ d = pid := hdp
    simp only [MoveLastToFrontOf, hd, hc, hp, Option.bind_eq_bind, Option.some_bind,
      BufferPoolManager.FetchPage_store, hdc, if_false, h1, h2,
      List.getLast?_concat, List.dropLast_concat, BPlusTreeInternalPage.SetKeyAt_append]
  · intro q
    simp only [BufferPoolManager.FetchPage_store]
    by_cases h1 : q = pid
    · subst h1; simp
    · have : ¬ pid = q := fun h => h1 h.symm
      simp only [this, h1, if_false]
      by_cases h2 : q = c
      · subst h2; simp
      · have : ¬ c = q := fun h => h2 h.symm
        simp only [this, h2, if_false]
        by_cases h3 : q = d
        · subst h3; simp
        · have : ¬ d = q := fun h => h3 h.symm
          simp only [this, h3, if_false]

end BPlusTreeLeafPage

/-! ## B+ tree: the calls `Coalesce`, `Redistribute` and `FindLeftSibling` -/

namespace BPlusTree

variable {K V : Type} [LinearOrder K] [Inhabited K]

/-- The call `Coalesce` on two leaves: the pairs of the leaf `r` go behind the pairs of
its left sibling `l`, `r` enters the set of the deleted pages, and the parent loses the
pair of `r`; the call goes on at the parent if its size is at most its minimum. -/
theorem Coalesce_leaf (t : BPlusTree K V) (r l pid pr pl par : Int) (mxr mxl mxp : Nat)
    (arrR arrL : List (K × V)) (P1 P2 : List (K × Int)) (kr : K) (x : Transaction)
    (hr : FetchPage t r = some (BPlusTreePage.leaf r pr mxr arrR))
    (hl : FetchPage t l = some (BPlusTreePage.leaf l pl mxl arrL))
    (hp : FetchPage t pid = some (BPlusTreePage.internal pid par mxp (P1 ++ (kr, r) :: P2)))
    (hsz : arrR.length + arrL.length ≤ mxr) (hrl : r ≠ l) (hrp : r ≠ pid) (hlp : l ≠ pid) :
    ∃ t1, (∀ recurse, Coalesce recurse t l r pid P1.length (some x) =
        if (P1 ++ P2).length ≤ (BPlusTreePage.internal pid par mxp (P1 ++ P2) : BPlusTreePage K V).GetMinSize then
          recurse t1 pid (some (x.AddIntoDeletedPageSet r))
        else some (false, t1, some (x.AddIntoDeletedPageSet r))) ∧
      t1.root_page_id = t.root_page_id ∧ t1.leaf_max_size = t.leaf_max_size ∧
      t1.internal_max_size = t.internal_max_size ∧
      t1.buffer_pool_manager.next_page_id = t.buffer_pool_manager.next_page_id ∧
      ∀ q, FetchPage t1 q =
        if q = pid then some (BPlusTreePage.internal pid par mxp (P1 ++ P2))
        else if q = r then some (BPlusTreePage.leaf r pr mxr [])
        else if q = l then some (BPlusTreePage.leaf l pl mxl (arrL ++ arrR))
        else FetchPage t q := by
  obtain ⟨bpm1, hm1, hm2, hm3⟩ := BPlusTreeLeafPage.MoveAllTo_leaf t.buffer_pool_manager r l pr pl
    mxr mxl arrR arrL P1.length hr hl hrl
  have hr1 : t.buffer_pool_manager.FetchPage r = some (BPlusTreePage.leaf r pr mxr arrR) := hr
  have hl1 : t.buffer_pool_manager.FetchPage l = some (BPlusTreePage.leaf l pl mxl arrL) := hl
  have hp1 : bpm1.FetchPage pid
      = some (BPlusTreePage.internal pid par mxp (P1 ++ (kr, r) :: P2)) := by
    rw [hm3, if_neg (fun h => hrp h.symm), if_neg (fun h => hlp h.symm)]
    exact hp
  refine ⟨{ t with buffer_pool_manager :=
      (bpm1.store pid (BPlusTreePage.internal pid par mxp (P1 ++ P2))) }, ?_, rfl, rfl, rfl,
      hm2, ?_⟩
  · intro recurse
    simp only [Coalesce, FetchPage_def, hr1, hl1, Option.bind_eq_bind, Option.some_bind,
      BPlusTreePage.GetSize, BPlusTreePage.GetMaxSize, hsz, not_true_eq_false, if_false,
      BPlusTreePage.IsLeafPage, if_true, hm1, hp1, BPlusTreeInternalPage.Remove_append,
      BPlusTreePage.GetPageId]
  · intro q
    simp only [FetchPage_def, BufferPoolManager.FetchPage_store]
    by_cases h1 : q = pid
    · subst h1; simp
    · have : ¬ pid = q := fun h => h1 h.symm
      simp only [this, h1, if_false]
      rw [hm3]

/-- The call `Coalesce` on two internal pages: the pairs of the page `r`, the first
with the separator key `kr`, go behind the pairs of its left sibling `l`, their children
get `l` as parent, `r` enters the set of the deleted pages, and the parent loses the
pair of `r`; the call goes on at the parent if its size is at most its minimum. -/
theorem Coalesce_internal (t : BPlusTree K V) (r l pid pl par : Int) (mxr mxl mxp : Nat)
    (k0 : K) (c0 : Int) (restR arrL : List (K × Int)) (P1 P2 : List (K × Int)) (kr : K)
    (x : Transaction)
    (hr : FetchPage t r = some (BPlusTreePage.internal r pid mxr ((k0, c0) :: restR)))
    (hl : FetchPage t l = some (BPlusTreePage.internal l pl mxl arrL))
    (hp : FetchPage t pid = some (BPlusTreePage.internal pid par mxp (P1 ++ (kr, r) :: P2)))
    (hex : ∀ c ∈ c0 :: restR.map Prod.snd, ∃ p, FetchPage t c = some p)
    (hrk : r ∉ c0 :: restR.map Prod.snd) (hlk : l ∉ c0 :: restR.map Prod.snd)
    (hpk : pid ∉ c0 :: restR.map Prod.snd)
    (hsz : (restR.length + 1) + arrL.length ≤ mxr) (hrl : r ≠ l) (hrp : r ≠ pid)
    (hlp : l ≠ pid) :
    ∃ t1, (∀ recurse, Coalesce recurse t l r pid P1.length (some x) =
        if (P1 ++ P2).length ≤ (BPlusTreePage.internal pid par mxp (P1 ++ P2) : BPlusTreePage K V).GetMinSize then
          recurse t1 pid (some (x.AddIntoDeletedPageSet r))
        else some (false, t1, some (x.AddIntoDeletedPageSet r))) ∧
      t1.root_page_id = t.root_page_id ∧ t1.leaf_max_size = t.leaf_max_size ∧
      t1.internal_max_size = t.internal_max_size ∧
      t1.buffer_pool_manager.next_page_id = t.buffer_pool_manager.next_page_id ∧
      ∀ q, FetchPage t1 q =
        if q = pid then some (BPlusTreePage.internal pid par mxp (P1 ++ P2))
        else if q = r then some (BPlusTreePage.internal r pid mxr [])
        else if q = l then some (BPlusTreePage.internal l pl mxl (arrL ++ (kr, c0) :: restR))
        else if q ∈ c0 :: restR.map Prod.snd then
          (FetchPage t q).map (fun p => p.SetParentPageId l)
        else FetchPage t q := by
  obtain ⟨bpm1, hm1, hm2, hm3⟩ := BPlusTreeInternalPage.MoveAllTo_spec t.buffer_pool_manager
    r l pid pl mxr mxl k0 c0 restR arrL P1.length (P1 ++ (kr, r) :: P2) pid par mxp kr hr hl hp
    (BPlusTreeInternalPage.KeyAt_append P1 kr r P2) hex hrk hlk hrl (by omega)
  have hr1 : t.buffer_pool_manager.FetchPage r
      = some (BPlusTreePage.internal r pid mxr ((k0, c0) :: restR)) := hr
  have hl1 : t.buffer_pool_manager.FetchPage l
      = some (BPlusTreePage.internal l pl mxl arrL) := hl
  have hp1 : bpm1.FetchPage pid
      = some (BPlusTreePage.internal pid par mxp (P1 ++ (kr, r) :: P2)) := by
    rw [hm3, if_neg (fun h => hrp h.symm), if_neg (fun h => hlp h.symm), if_neg hpk]
    exact hp
  refine ⟨{ t with buffer_pool_manager :=
      (bpm1.store pid (BPlusTreePage.internal pid par mxp (P1 ++ P2))) }, ?_, rfl, rfl, rfl,
      hm2, ?_⟩
  · intro recurse
    simp only [Coalesce, FetchPage_def, hr1, hl1, Option.bind_eq_bind, Option.some_bind,
      BPlusTreePage.GetSize, BPlusTreePage.GetMaxSize, List.length_cons, hsz,
      not_true_eq_false, if_false,
      BPlusTreePage.IsLeafPage, Bool.false_eq_true, hm1, hp1,
      BPlusTreeInternalPage.Remove_append, BPlusTreePage.GetPageId]
  · intro q
    simp only [FetchPage_def, BufferPoolManager.FetchPage_store]
    by_cases h1 : q = pid
    · subst h1; simp
    · have : ¬ pid = q := fun h => h1 h.symm
      simp only [this, h1, if_false]
      rw [hm3]

/-- The call `CoalesceOrRedistribute` on the first child `c` of its parent: the sibling
is the second child `d`. -/
theorem CoalesceOrRedistribute_first (fuel : Nat) (t : BPlusTree K V) (c d pid a b : Int)
    (mx : Nat) (kc kd : K) (B : List (K × Int)) (pc pd : BPlusTreePage K V) (x : Transaction)
    (hc : FetchPage t c = some pc) (hcid : pc.GetPageId = c) (hcpar : pc.GetParentPageId = pid)
    (hpid : pid ≠ INVALID_PAGE_ID)
    (hd : FetchPage t d = some pd) (hdid : pd.GetPageId = d)
    (hp : FetchPage t pid = some (BPlusTreePage.internal a b mx ((kc, c) :: (kd, d) :: B)))
    (hcd : c ≠ d) :
    CoalesceOrRedistribute (fuel + 1) t c (some x) =
      if pc.GetSize + pd.GetSize ≤ pc.GetMaxSize then
        (Coalesce (CoalesceOrRedistribute fuel) t c d pid 1 (some (x.AddIntoPageSet d))).bind
          (fun r => some (true, r.2.1, r.2.2))
      else (Redistribute t d c 0).bind
        (fun t2 => some (false, t2, some (x.AddIntoPageSet d))) := by
  have hc1 : t.buffer_pool_manager.FetchPage c = some pc := hc
  have hd1 : t.buffer_pool_manager.FetchPage d = some pd := hd
  have hp1 : t.buffer_pool_manager.FetchPage pid
      = some (BPlusTreePage.internal a b mx ((kc, c) :: (kd, d) :: B)) := hp
  have hroot : pc.IsRootPage = false := by
    simp [BPlusTreePage.IsRootPage, hcpar, hpid]
  have hdc : ¬ d = c := fun h => hcd h.symm
  by_cases hsz : pc.GetSize + pd.GetSize ≤ pc.GetMaxSize
  · simp only [CoalesceOrRedistribute, FindLeftSibling, CrabingProtocalFetchPage, FetchPage_def,
      hc1, hd1, hp1, hcpar, hcid, hdid, hroot, Option.bind_eq_bind, Option.some_bind,
      Bool.false_eq_true, if_false, if_true, BPlusTreeInternalPage.ValueIndex,
      BPlusTreeInternalPage.ValueAt, List.getElem?_cons_succ, List.getElem?_cons_zero,
      Option.map_some', zero_add, decide_True, hsz, hdc, Option.map_eq_map,
      gt_iff_lt, Int.reduceNeg, Int.reduceLT, Nat.reduceAdd]
  · simp only [CoalesceOrRedistribute, FindLeftSibling, CrabingProtocalFetchPage, FetchPage_def,
      hc1, hd1, hp1, hcpar, hcid, hdid, hroot, Option.bind_eq_bind, Option.some_bind,
      Bool.false_eq_true, if_false, if_true, BPlusTreeInternalPage.ValueIndex,
      BPlusTreeInternalPage.ValueAt, List.getElem?_cons_succ, List.getElem?_cons_zero,
      Option.map_some', zero_add, decide_True, hsz, hdc, Option.map_eq_map,
      gt_iff_lt, Int.reduceNeg, Int.reduceLT, Nat.reduceAdd]

/-- The call `CoalesceOrRedistribute` on a child `c` that is not the first child of its
parent: the sibling is the child `d` in front of `c`. -/
theorem CoalesceOrRedistribute_later (fuel : Nat) (t : BPlusTree K V) (c d pid a b : Int)
    (mx : Nat) (kc kd : K) (A B : List (K × Int)) (pc pd : BPlusTreePage K V)
    (x : Transaction)
    (hc : FetchPage t c = some pc) (hcid : pc.GetPageId = c) (hcpar : pc.GetParentPageId = pid)
    (hpid : pid ≠ INVALID_PAGE_ID)
    (hd : FetchPage t d = some pd)
    (hp : FetchPage t pid
      = some (BPlusTreePage.internal a b mx (A ++ (kd, d) :: (kc, c) :: B)))
    (hcA : c ∉ A.map Prod.snd) (hcd : c ≠ d) :
    CoalesceOrRedistribute (fuel + 1) t c (some x) =
      if pc.GetSize + pd.GetSize ≤ pc.GetMaxSize then
        (Coalesce (CoalesceOrRedistribute fuel) t d c pid (A.length + 1)
          (some (x.AddIntoPageSet d))).bind (fun r => some (true, r.2.1, r.2.2))
      else (Redistribute t d c (A.length + 1)).bind
        (fun t2 => some (false, t2, some (x.AddIntoPageSet d))) := by
  have hc1 : t.buffer_pool_manager.FetchPage c = some pc := hc
  have hd1 : t.buffer_pool_manager.FetchPage d = some pd := hd
  have hp1 : t.buffer_pool_manager.FetchPage pid
      = some (BPlusTreePage.internal a b mx (A ++ (kd, d) :: (kc, c) :: B)) := hp
  have hroot : pc.IsRootPage = false := by
    simp [BPlusTreePage.IsRootPage, hcpar, hpid]
  have hidx : BPlusTreeInternalPage.ValueIndex (A ++ (kd, d) :: (kc, c) :: B) c
      = some (A.length + 1) := by
    have h1 : c ∉ (A ++ [(kd, d)]).map Prod.snd := by
      simp only [List.map_append, List.map_cons, List.map_nil, List.mem_append,
        List.mem_singleton, not_or]
      exact ⟨hcA, hcd⟩
    have := BPlusTreeInternalPage.ValueIndex_append (A ++ [(kd, d)]) kc c B h1
    simpa using this
  have hval : BPlusTreeInternalPage.ValueAt (A ++ (kd, d) :: (kc, c) :: B) A.length
      = some d := BPlusTreeInternalPage.ValueAt_append A kd d _
  by_cases hsz : pc.GetSize + pd.GetSize ≤ pc.GetMaxSize
  · simp only [CoalesceOrRedistribute, FindLeftSibling, CrabingProtocalFetchPage, FetchPage_def,
      hc1, hd1, hp1, hcpar, hcid, hroot, Option.bind_eq_bind, Option.some_bind,
      Bool.false_eq_true, if_false, if_true, hidx, hval, Nat.add_one_ne_zero,
      Nat.add_sub_cancel, decide_False,
      Option.map_some', hsz, Option.map_eq_map,
      gt_iff_lt, Int.reduceNeg, Int.reduceLT]
  · simp only [CoalesceOrRedistribute, FindLeftSibling, CrabingProtocalFetchPage, FetchPage_def,
      hc1, hd1, hp1, hcpar, hcid, hroot, Option.bind_eq_bind, Option.some_bind,
      Bool.false_eq_true, if_false, if_true, hidx, hval, Nat.add_one_ne_zero,
      Nat.add_sub_cancel, decide_False,
      Option.map_some', hsz, Option.map_eq_map,
      gt_iff_lt, Int.reduceNeg, Int.reduceLT]

end BPlusTree

/-! ## B+ tree: the invariant after two sibling pages are merged -/

namespace BPlusTree

variable {K V : Type} [LinearOrder K] [Inhabited K]

/-- The merge of two sibling leaves gives a leaf that satisfies the invariant with the
union of the ranges. -/
theorem WF.merge_leaf {f g : Int → Option (BPlusTreePage K V)} {lm im ml mr m : Nat}
    {l r pid : Int} {lo hi : Bound K} {kr : K}
    (hwl : WF f lm im ml 0 0 l pid lo (bnd kr)) (hwr : WF f lm im mr 0 0 r pid (bnd kr) hi)
    (arrL arrR : List (K × V))
    (hfl : f l = some (BPlusTreePage.leaf l pid lm arrL))
    (hfr : f r = some (BPlusTreePage.leaf r pid lm arrR))
    (hgl : g l = some (BPlusTreePage.leaf l pid lm (arrL ++ arrR)))
    (hsz : arrR.length + arrL.length ≤ lm) (hsum : m ≤ ml + mr) :
    WF g lm im m 0 0 l pid lo hi ∧
      ∀ k v, Holds g 0 l k v ↔ Holds f 0 l k v ∨ Holds f 0 r k v := by
  obtain ⟨a1, h1, hl1, _, hlt1, hs1, hb1⟩ := hwl
  rw [hfl] at h1
  cases h1
  obtain ⟨a2, h2, hr1, _, hlt2, hs2, hb2⟩ := hwr
  rw [hfr] at h2
  cases h2
  refine ⟨⟨_, hgl, ?_, ?_, lt_trans hlt1 hlt2, ?_, ?_⟩, ?_⟩
  · rw [List.length_append]; omega
  · rw [List.length_append]; omega
  · rw [List.map_append, List.pairwise_append]
    refine ⟨hs1, hs2, ?_⟩
    intro a ha b hb
    obtain ⟨e1, he1, rfl⟩ := List.mem_map.mp ha
    obtain ⟨e2, he2, rfl⟩ := List.mem_map.mp hb
    have h3 := (hb1 e1 he1).2
    have h4 := (hb2 e2 he2).1
    simpa using lt_of_lt_of_le h3 h4
  · intro e he
    rcases List.mem_append.mp he with he | he
    · exact ⟨(hb1 e he).1, lt_trans (hb1 e he).2 hlt2⟩
    · exact ⟨le_trans (le_of_lt hlt1) (hb2 e he).1, (hb2 e he).2⟩
  · intro k v
    rw [Holds_zero_iff hgl, Holds_zero_iff hfl, Holds_zero_iff hfr, List.mem_append]

/-- The merge of two sibling internal pages gives a page that satisfies the invariant
with the union of the ranges; its pages are those of the two subtrees but for the right
page. -/
theorem WF.merge_internal {f g : Int → Option (BPlusTreePage K V)} {lm im ml mr m h : Nat}
    {l r pid : Int} {lo hi : Bound K} {kr : K}
    (hwl : WF f lm im ml 0 (h + 1) l pid lo (bnd kr))
    (hwr : WF f lm im mr 0 (h + 1) r pid (bnd kr) hi)
    (arrL : List (K × Int)) (k0 : K) (c0 : Int) (restR : List (K × Int))
    (hfl : f l = some (BPlusTreePage.internal l pid im arrL))
    (hfr : f r = some (BPlusTreePage.internal r pid im ((k0, c0) :: restR)))
    (hrl : r ≠ l)
    (hg : ∀ q, q ≠ pid → g q =
      if q = r then some (BPlusTreePage.internal r pid im [])
      else if q = l then some (BPlusTreePage.internal l pid im (arrL ++ (kr, c0) :: restR))
      else if q ∈ c0 :: restR.map Prod.snd then (f q).map (fun p => p.SetParentPageId l)
      else f q)
    (hpl : ¬ Under f (h + 1) l pid) (hpr : ¬ Under f (h + 1) r pid)
    (hsz : (restR.length + 1) + arrL.length ≤ im) (hsum : m ≤ ml + mr) :
    WF g lm im m 0 (h + 1) l pid lo hi ∧
      (∀ k v, Holds g (h + 1) l k v ↔ Holds f (h + 1) l k v ∨ Holds f (h + 1) r k v) ∧
      ∀ q, Under g (h + 1) l q → (Under f (h + 1) l q ∨ Under f (h + 1) r q) ∧ q ≠ r := by
  have hwl0 := hwl
  have hwr0 := hwr
  obtain ⟨a1, h1, hl1, hl2, _, hlt1, hmirror1, hnd1, hseg1⟩ := hwl
  rw [hfl] at h1
  cases h1
  obtain ⟨a2, h2, hr1, _, _, hlt2, _, hnd2, hseg2⟩ := hwr
  rw [hfr] at h2
  cases h2
  have hlp : l ≠ pid := fun e => hpl (e ▸ Under.self _ _ _)
  have hrp : r ≠ pid := fun e => hpr (e ▸ Under.self _ _ _)
  have hgl : g l = some (BPlusTreePage.internal l pid im (arrL ++ (kr, c0) :: restR)) := by
    rw [hg l hlp, if_neg (fun e => hrl e.symm), if_pos rfl]
  have hdisj : ∀ q, Under f (h + 1) l q → ¬ Under f (h + 1) r q :=
    fun q => WF.disjoint (h + 1) _ _ _ _ l r pid pid _ _ _ _ q hwl0 hwr0 (fun e => hrl e.symm)
  have hkl : kidsOf f l = arrL.map Prod.snd := kidsOf_internal hfl
  have hkr : kidsOf f r = c0 :: restR.map Prod.snd := kidsOf_internal hfr
  have hkept : ∀ d ∈ arrL.map Prod.snd, ∀ q, Under f h d q → g q = f q ∧ q ≠ r := by
    intro d hd q hq
    have hdk : d ∈ kidsOf f l := hkl ▸ hd
    have hql : Under f (h + 1) l q := Under.of_child hdk hq
    have h1 : q ≠ pid := fun e => hpl (e ▸ hql)
    have h2 : q ≠ r := fun e => hdisj q hql (e ▸ Under.self _ _ _)
    have h3 : q ≠ l := fun e => hwl0.not_under_child hdk (e ▸ hq)
    have h4 : q ∉ c0 :: restR.map Prod.snd := by
      intro hq1
      exact hdisj q hql (Under.of_child (hkr ▸ hq1) (Under.self _ _ _))
    exact ⟨by rw [hg q h1, if_neg h2, if_neg h3, if_neg h4], h2⟩
  have hmoved : ∀ d ∈ c0 :: restR.map Prod.snd,
      (∀ p, f d = some p → g d = some (p.SetParentPageId l)) ∧
      ∀ q, Under f h d q → (q ≠ d → g q = f q) ∧ q ≠ r := by
    intro d hd
    have hdk : d ∈ kidsOf f r := hkr ▸ hd
    have hnot : ∀ q, Under f h d q → q ≠ pid ∧ q ≠ r ∧ q ≠ l := by
      intro q hq
      have hqr : Under f (h + 1) r q := Under.of_child hdk hq
      exact ⟨fun e => hpr (e ▸ hqr), fun e => hwr0.not_under_child hdk (e ▸ hq),
        fun e => hdisj q (e ▸ Under.self _ _ _) hqr⟩
    constructor
    · intro p hp
      obtain ⟨h1, h2, h3⟩ := hnot d (Under.self _ _ _)
      rw [hg d h1, if_neg h2, if_neg h3, if_pos hd, hp]
      rfl
    · intro q hq
      obtain ⟨h1, h2, h3⟩ := hnot q hq
      refine ⟨fun hqd => ?_, h2⟩
      have h4 : q ∉ c0 :: restR.map Prod.snd := by
        intro hq1
        exact hwr0.sibling_not_under hdk (hkr ▸ hq1) (fun e => hqd e.symm) hq
      rw [hg q h1, if_neg h2, if_neg h3, if_neg h4]
  have hmoved_strip : ∀ d ∈ c0 :: restR.map Prod.snd, ∀ q, Under f h d q →
      (g q).map (fun p => p.SetParentPageId 0) = (f q).map (fun p => p.SetParentPageId 0) := by
    intro d hd q hq
    obtain ⟨hg1, hg2⟩ := hmoved d hd
    obtain ⟨l1, u1, hwd⟩ := hwr0.child (hkr ▸ hd)
    by_cases hqd : q = d
    · subst hqd
      obtain ⟨p, hp, _⟩ := hwd.fetch
      rw [hg1 p hp, hp]
      cases p <;> rfl
    · rw [(hg2 q hq).1 hqd]
  obtain ⟨e0, A, rfl⟩ : ∃ e0 A, arrL = e0 :: A := by
    cases arrL with
    | nil => simp at hl2
    | cons e0 A => exact ⟨e0, A, rfl⟩
  refine ⟨⟨_, hgl, ?_, ?_, ?_, lt_trans hlt1 hlt2, ?_, ?_, ?_⟩, ?_, ?_⟩
  · simp only [List.length_append, List.length_cons] at hl1 hr1 ⊢
    omega
  · simp only [List.length_append, List.length_cons]
    omega
  · simp only [List.length_append, List.length_cons] at hsz ⊢
    omega
  · intro l1 hl
    simpa using hmirror1 l1 hl
  · rw [List.map_append, List.nodup_append]
    refine ⟨hnd1, hnd2, ?_⟩
    intro d hd1 hd2
    exact hdisj d (Under.of_child (hkl ▸ hd1) (Under.self _ _ _))
      (Under.of_child (hkr ▸ hd2) (Under.self _ _ _))
  · rw [slots_append_cons, Seg_append]
    simp only [ub_cons, lbAt]
    constructor
    · refine hseg1.imp ?_
      intro d l1 u1 hd hwd
      rw [slots_map_snd] at hd
      exact WF.congr _ _ _ _ _ _ _ (fun q hq => (hkept d hd q hq).1) hwd
    · rw [slots_cons_eq] at hseg2
      refine hseg2.imp ?_
      intro d l1 u1 hd hwd
      have hd1 : d ∈ c0 :: restR.map Prod.snd := by
        simpa [Function.comp_def] using hd
      obtain ⟨hg1, hg2⟩ := hmoved d hd1
      exact WF.reparent hwd l hg1 (fun q hq hqd => (hg2 q hq).1 hqd)
  · intro k v
    rw [Holds_succ_iff hgl, Holds_succ_iff hfl, Holds_succ_iff hfr, List.map_append]
    have e1 : ∀ d ∈ (e0 :: A).map Prod.snd, (Holds g h d k v ↔ Holds f h d k v) := by
      intro d hd
      exact Holds.holds_congr h d (fun q hq => (hkept d hd q hq).1) k v
    have e2 : ∀ d ∈ ((kr, c0) :: restR).map Prod.snd,
        (Holds g h d k v ↔ Holds f h d k v) := by
      intro d hd
      exact Holds.holds_congr_parent h d (hmoved_strip d hd) k v
    constructor
    · rintro ⟨d, hd, hh⟩
      rcases List.mem_append.mp hd with hd | hd
      · exact Or.inl ⟨d, hd, (e1 d hd).mp hh⟩
      · exact Or.inr ⟨d, hd, (e2 d hd).mp hh⟩
    · rintro (⟨d, hd, hh⟩ | ⟨d, hd, hh⟩)
      · exact ⟨d, List.mem_append_left _ hd, (e1 d hd).mpr hh⟩
      · exact ⟨d, List.mem_append_right _ hd, (e2 d hd).mpr hh⟩
  · intro q hq
    rcases hq with rfl | ⟨d, hd, hqd⟩
    · exact ⟨Or.inl (Under.self _ _ _), fun e => hrl e.symm⟩
    · rw [kidsOf_internal hgl, List.map_append] at hd
      rcases List.mem_append.mp hd with hd | hd
      · have hq1 := (Under.under_congr h d (fun q hq => (hkept d hd q hq).1) q).mp hqd
        exact ⟨Or.inl (Under.of_child (hkl ▸ hd) hq1), (hkept d hd q hq1).2⟩
      · have hd1 : d ∈ c0 :: restR.map Prod.snd := by simpa using hd
        have hq1 := (Under.under_congr_parent h d (hmoved_strip d hd1) q).mp hqd
        exact ⟨Or.inr (Under.of_child (hkr ▸ hd1) hq1), ((hmoved d hd1).2 q hq1).2⟩

end BPlusTree

/-! ## B+ tree: `Coalesce` on two sibling subtrees -/

namespace BPlusTree

variable {K V : Type} [LinearOrder K] [Inhabited K]

/-- The call `Coalesce` on two sibling pages whose subtrees satisfy the invariant and
whose pairs fit into one page: the left page takes all pairs and its subtree satisfies
the invariant with the union of the ranges, the right page is marked as deleted, and
the parent loses the pair of the right page. -/
theorem merge_spec {lm im h ml mr : Nat} {t : BPlusTree K V} (hp : PoolOk lm im t)
    {pid par l r : Int} {P1 P2 : List (K × Int)} {kr : K} {mxp : Nat} {lo hi : Bound K}
    (hpar : FetchPage t pid = some (BPlusTreePage.internal pid par mxp (P1 ++ (kr, r) :: P2)))
    (hwl : WF (FetchPage t) lm im ml 0 h l pid lo (bnd kr))
    (hwr : WF (FetchPage t) lm im mr 0 h r pid (bnd kr) hi)
    (hrl : r ≠ l) (hpl : ¬ Under (FetchPage t) h l pid) (hpr : ¬ Under (FetchPage t) h r pid)
    (hsz : ∀ pl pr, FetchPage t l = some pl → FetchPage t r = some pr →
      pr.GetSize + pl.GetSize ≤ pr.GetMaxSize)
    (hsum : minNonRoot lm im h ≤ ml + mr) (x : Transaction) :
    ∃ t1, (∀ recurse, Coalesce recurse t l r pid P1.length (some x) =
        if (P1 ++ P2).length
            ≤ (BPlusTreePage.internal pid par mxp (P1 ++ P2) : BPlusTreePage K V).GetMinSize then
          recurse t1 pid (some (x.AddIntoDeletedPageSet r))
        else some (false, t1, some (x.AddIntoDeletedPageSet r))) ∧
      PoolOk lm im t1 ∧ t1.root_page_id = t.root_page_id ∧
      t1.buffer_pool_manager.next_page_id = t.buffer_pool_manager.next_page_id ∧
      FetchPage t1 pid = some (BPlusTreePage.internal pid par mxp (P1 ++ P2)) ∧
      WF (FetchPage t1) lm im (minNonRoot lm im h) 0 h l pid lo hi ∧
      (∀ k v, Holds (FetchPage t1) h l k v ↔
        Holds (FetchPage t) h l k v ∨ Holds (FetchPage t) h r k v) ∧
      (∀ q, Under (FetchPage t1) h l q →
        (Under (FetchPage t) h l q ∨ Under (FetchPage t) h r q) ∧ q ≠ r) ∧
      ∀ q, q ≠ pid → ¬ Under (FetchPage t) h l q → ¬ Under (FetchPage t) h r q →
        FetchPage t1 q = FetchPage t q := by
  have hlp : l ≠ pid := fun e => hpl (e ▸ Under.self _ _ _)
  have hrp : r ≠ pid := fun e => hpr (e ▸ Under.self _ _ _)
  cases h with
  | zero =>
    obtain ⟨arrL, hfl, _⟩ := id hwl
    obtain ⟨arrR, hfr, _⟩ := id hwr
    have hsz1 := hsz _ _ hfl hfr
    simp only [BPlusTreePage.GetSize, BPlusTreePage.GetMaxSize] at hsz1
    obtain ⟨t1, hco, hroot, hlm1, him1, hnext, hfetch⟩ := Coalesce_leaf t r l pid pid pid par
      lm lm mxp arrR arrL P1 P2 kr x hfr hfl hpar hsz1 hrl hrp hlp
    have hgl : FetchPage t1 l = some (BPlusTreePage.leaf l pid lm (arrL ++ arrR)) := by
      rw [hfetch, if_neg hlp, if_neg (fun e => hrl e.symm), if_pos rfl]
    obtain ⟨hw1, hholds⟩ := WF.merge_leaf hwl hwr arrL arrR hfl hfr hgl hsz1 hsum
    refine ⟨t1, hco, ⟨by rw [hlm1]; exact hp.lm_eq, by rw [him1]; exact hp.im_eq, ?_⟩, hroot,
      hnext, by rw [hfetch, if_pos rfl], hw1, hholds, ?_, ?_⟩
    · intro q p hq
      rw [hnext]
      rw [hfetch] at hq
      by_cases h1 : q = pid
      · subst h1; exact hp.ids _ _ hpar
      · rw [if_neg h1] at hq
        by_cases h2 : q = r
        · subst h2; exact hp.ids _ _ hfr
        · rw [if_neg h2] at hq
          by_cases h3 : q = l
          · subst h3; exact hp.ids _ _ hfl
          · rw [if_neg h3] at hq
            exact hp.ids _ _ hq
    · intro q hq
      have : q = l := hq
      subst this
      exact ⟨Or.inl rfl, fun e => hrl e.symm⟩
    · intro q h1 h2 h3
      have h2a : q ≠ l := fun e => h2 e
      have h3a : q ≠ r := fun e => h3 e
      rw [hfetch, if_neg h1, if_neg h3a, if_neg h2a]
  | succ h =>
    obtain ⟨arrL, hfl, _⟩ := id hwl
    obtain ⟨arrR, hfr, _, hr1, _⟩ := id hwr
    obtain ⟨⟨k0, c0⟩, restR, rfl⟩ : ∃ e rest, arrR = e :: rest := by
      cases arrR with
      | nil => simp at hr1
      | cons e rest => exact ⟨e, rest, rfl⟩
    have hsz1 := hsz _ _ hfl hfr
    simp only [BPlusTreePage.GetSize, BPlusTreePage.GetMaxSize, List.length_cons] at hsz1
    have hkr : kidsOf (FetchPage t) r = c0 :: restR.map Prod.snd := kidsOf_internal hfr
    have hdisj : ∀ q, Under (FetchPage t) (h + 1) l q → ¬ Under (FetchPage t) (h + 1) r q :=
      fun q => WF.disjoint (h + 1) _ _ _ _ l r pid pid _ _ _ _ q hwl hwr (fun e => hrl e.symm)
    have hex : ∀ c ∈ c0 :: restR.map Prod.snd, ∃ p, FetchPage t c = some p := by
      intro c hc
      obtain ⟨l1, u1, hwc⟩ := hwr.child (hkr ▸ hc)
      obtain ⟨p, hpc, _⟩ := hwc.fetch
      exact ⟨p, hpc⟩
    have hrk : r ∉ c0 :: restR.map Prod.snd := by
      intro hc
      exact hwr.not_under_child (hkr ▸ hc) (Under.self _ _ _)
    have hlk : l ∉ c0 :: restR.map Prod.snd := by
      intro hc
      exact hdisj l (Under.self _ _ _) (Under.of_child (hkr ▸ hc) (Under.self _ _ _))
    have hpk : pid ∉ c0 :: restR.map Prod.snd := by
      intro hc
      exact hpr (Under.of_child (hkr ▸ hc) (Under.self _ _ _))
    obtain ⟨t1, hco, hroot, hlm1, him1, hnext, hfetch⟩ := Coalesce_internal t r l pid pid par
      im im mxp k0 c0 restR arrL P1 P2 kr x hfr hfl hpar hex hrk hlk hpk hsz1 hrl hrp hlp
    obtain ⟨hw1, hholds, hunder⟩ := WF.merge_internal (g := FetchPage t1) hwl hwr arrL k0 c0 restR hfl hfr hrl
      (fun q hq => by rw [hfetch, if_neg hq]) hpl hpr hsz1 hsum
    refine ⟨t1, hco, ⟨by rw [hlm1]; exact hp.lm_eq, by rw [him1]; exact hp.im_eq, ?_⟩, hroot,
      hnext, by rw [hfetch, if_pos rfl], hw1, hholds, hunder, ?_⟩
    · intro q p hq
      rw [hnext]
      rw [hfetch] at hq
      by_cases h1 : q = pid
      · subst h1; exact hp.ids _ _ hpar
      · rw [if_neg h1] at hq
        by_cases h2 : q = r
        · subst h2; exact hp.ids _ _ hfr
        · rw [if_neg h2] at hq
          by_cases h3 : q = l
          · subst h3; exact hp.ids _ _ hfl
          · rw [if_neg h3] at hq
            by_cases h4 : q ∈ c0 :: restR.map Prod.snd
            · obtain ⟨p1, hp1⟩ := hex q h4
              exact hp.ids _ _ hp1
            · rw [if_neg h4] at hq
              exact hp.ids _ _ hq
    · intro q h1 h2 h3
      have h2a : q ≠ l := fun e => h2 (e ▸ Under.self _ _ _)
      have h3a : q ≠ r := fun e => h3 (e ▸ Under.self _ _ _)
      have h4 : q ∉ c0 :: restR.map Prod.snd := by
        intro hc
        exact h3 (Under.of_child (hkr ▸ hc) (Under.self _ _ _))
      rw [hfetch, if_neg h1, if_neg h3a, if_neg h2a, if_neg h4]

end BPlusTree

/-! ## B+ tree: the invariant after a pair moves between two sibling pages -/

namespace BPlusTree

variable {K V : Type} [LinearOrder K] [Inhabited K]

/-- The first pair of a leaf moves to the end of its left sibling: both leaves satisfy
the invariant, separated by the key of the next pair. -/
theorem WF.borrow_right_leaf {f g : Int → Option (BPlusTreePage K V)} {lm im mc md m : Nat}
    {c d pid : Int} {lo hi : Bound K} {kd : K}
    (hwc : WF f lm im mc 0 0 c pid lo (bnd kd)) (hwd : WF f lm im md 0 0 d pid (bnd kd) hi)
    (arrC : List (K × V)) (pair e2 : K × V) (rest : List (K × V))
    (hfc : f c = some (BPlusTreePage.leaf c pid lm arrC))
    (hfd : f d = some (BPlusTreePage.leaf d pid lm (pair :: e2 :: rest)))
    (hgc : g c = some (BPlusTreePage.leaf c pid lm (arrC ++ [pair])))
    (hgd : g d = some (BPlusTreePage.leaf d pid lm (e2 :: rest)))
    (hm1 : m ≤ arrC.length + 1) (hm2 : m ≤ rest.length + 1) (hsz : arrC.length + 1 ≤ lm) :
    WF g lm im m 0 0 c pid lo (bnd e2.1) ∧ WF g lm im m 0 0 d pid (bnd e2.1) hi ∧
      ∀ k v, (Holds g 0 c k v ∨ Holds g 0 d k v) ↔ (Holds f 0 c k v ∨ Holds f 0 d k v) := by
  obtain ⟨a1, h1, _, _, hlt1, hs1, hb1⟩ := hwc
  rw [hfc] at h1
  cases h1
  obtain ⟨a2, h2, _, hd2, hlt2, hs2, hb2⟩ := hwd
  rw [hfd] at h2
  cases h2
  simp only [List.map_cons, List.pairwise_cons] at hs2
  have hp1 := hb2 pair (by simp)
  have he2 := hb2 e2 (by simp)
  have hpe : pair.1 < e2.1 := hs2.1 e2.1 (by simp)
  refine ⟨⟨_, hgc, ?_, ?_, ?_, ?_, ?_⟩, ⟨_, hgd, ?_, ?_, he2.2, ?_, ?_⟩, ?_⟩
  · simpa using hm1
  · simpa using hsz
  · exact lt_of_lt_of_le hlt1 (le_trans hp1.1 (le_of_lt (by simpa using hpe)))
  · rw [List.map_append, List.pairwise_append]
    refine ⟨hs1, by simp, ?_⟩
    intro a ha b hb
    obtain ⟨e1, he1, rfl⟩ := List.mem_map.mp ha
    simp only [List.map_cons, List.map_nil, List.mem_singleton] at hb
    subst hb
    simpa using lt_of_lt_of_le (hb1 e1 he1).2 hp1.1
  · intro e he
    rcases List.mem_append.mp he with he | he
    · refine ⟨(hb1 e he).1, lt_trans (hb1 e he).2 (lt_of_le_of_lt hp1.1 (by simpa using hpe))⟩
    · simp only [List.mem_singleton] at he
      subst he
      exact ⟨le_trans (le_of_lt hlt1) hp1.1, by simpa using hpe⟩
  · simpa using hm2
  · simp only [List.length_cons] at hd2 ⊢
    omega
  · simpa using hs2.2
  · intro e he
    refine ⟨?_, (hb2 e (List.mem_cons_of_mem _ he)).2⟩
    rcases List.mem_cons.mp he with rfl | he1
    · exact le_refl _
    · have := hs2.2.1 e.1 (List.mem_map_of_mem _ he1)
      exact le_of_lt (by simpa using this)
  · intro k v
    rw [Holds_zero_iff hgc, Holds_zero_iff hgd, Holds_zero_iff hfc, Holds_zero_iff hfd]
    simp only [List.mem_append, List.mem_singleton, List.mem_cons]
    tauto

/-- The last pair of a leaf moves to the front of its right sibling: both leaves satisfy
the invariant, separated by the key of the pair. -/
theorem WF.borrow_left_leaf {f g : Int → Option (BPlusTreePage K V)} {lm im mc md m : Nat}
    {c d pid : Int} {lo hi : Bound K} {kc : K}
    (hwd : WF f lm im md 0 0 d pid lo (bnd kc)) (hwc : WF f lm im mc 0 0 c pid (bnd kc) hi)
    (arrC : List (K × V)) (pair : K × V) (front : List (K × V))
    (hfc : f c = some (BPlusTreePage.leaf c pid lm arrC))
    (hfd : f d = some (BPlusTreePage.leaf d pid lm (front ++ [pair])))
    (hgc : g c = some (BPlusTreePage.leaf c pid lm (pair :: arrC)))
    (hgd : g d = some (BPlusTreePage.leaf d pid lm front))
    (hm1 : m ≤ arrC.length + 1) (hm2 : m ≤ front.length) (hne : 1 ≤ front.length)
    (hsz : arrC.length + 1 ≤ lm) :
    WF g lm im m 0 0 d pid lo (bnd pair.1) ∧ WF g lm im m 0 0 c pid (bnd pair.1) hi ∧
      ∀ k v, (Holds g 0 d k v ∨ Holds g 0 c k v) ↔ (Holds f 0 d k v ∨ Holds f 0 c k v) := by
  obtain ⟨a1, h1, _, _, hlt1, hs1, hb1⟩ := hwc
  rw [hfc] at h1
  cases h1
  obtain ⟨a2, h2, _, hd2, hlt2, hs2, hb2⟩ := hwd
  rw [hfd] at h2
  cases h2
  rw [List.map_append, List.pairwise_append] at hs2
  obtain ⟨hsf, _, hfp⟩ := hs2
  have hp1 := hb2 pair (by simp)
  have hfl : ∀ e ∈ front, bnd e.1 < bnd pair.1 := by
    intro e he
    have := hfp e.1 (List.mem_map_of_mem _ he) pair.1 (by simp)
    simpa using this
  obtain ⟨e0, he0⟩ : ∃ e0, e0 ∈ front := List.exists_mem_of_length_pos (by omega)
  refine ⟨⟨_, hgd, hm2, ?_, ?_, hsf, ?_⟩, ⟨_, hgc, ?_, ?_, ?_, ?_, ?_⟩, ?_⟩
  · simp only [List.length_append, List.length_cons, List.length_nil] at hd2
    omega
  · exact lt_of_le_of_lt (hb2 e0 (List.mem_append_left _ he0)).1 (hfl e0 he0)
  · intro e he
    exact ⟨(hb2 e (List.mem_append_left _ he)).1, hfl e he⟩
  · simpa using hm1
  · simpa using hsz
  · exact lt_trans hp1.2 hlt1
  · simp only [List.map_cons, List.pairwise_cons]
    refine ⟨?_, hs1⟩
    intro a ha
    obtain ⟨e1, he1, rfl⟩ := List.mem_map.mp ha
    simpa using lt_of_lt_of_le hp1.2 (hb1 e1 he1).1
  · intro e he
    rcases List.mem_cons.mp he with rfl | he1
    · exact ⟨le_refl _, lt_trans hp1.2 hlt1⟩
    · exact ⟨le_trans (le_of_lt hp1.2) (hb1 e he1).1, (hb1 e he1).2⟩
  · intro k v
    rw [Holds_zero_iff hgc, Holds_zero_iff hgd, Holds_zero_iff hfc, Holds_zero_iff hfd]
    simp only [List.mem_append, List.mem_singleton, List.mem_cons]
    tauto

/-- The first pair of an internal page moves to the end of its left sibling, and its
child with it: both pages satisfy the invariant, separated by the key of the next
pair. -/
theorem WF.borrow_right_internal {f g : Int → Option (BPlusTreePage K V)}
    {lm im mc md m h : Nat} {c d pid : Int} {lo hi : Bound K} {kd : K}
    (hwc : WF f lm im mc 0 (h + 1) c pid lo (bnd kd))
    (hwd : WF f lm im md 0 (h + 1) d pid (bnd kd) hi)
    (arrC : List (K × Int)) (pair e2 : K × Int) (rest : List (K × Int))
    (hfc : f c = some (BPlusTreePage.internal c pid im arrC))
    (hfd : f d = some (BPlusTreePage.internal d pid im (pair :: e2 :: rest)))
    (hcd : c ≠ d) (hpc : ¬ Under f (h + 1) c pid) (hpd : ¬ Under f (h + 1) d pid)
    (hg : ∀ q, q ≠ pid → g q =
      if q = pair.2 then (f q).map (fun p => p.SetParentPageId c)
      else if q = c then some (BPlusTreePage.internal c pid im (arrC ++ [pair]))
      else if q = d then some (BPlusTreePage.internal d pid im (e2 :: rest))
      else f q)
    (hm1 : m ≤ arrC.length + 1) (hm2 : m ≤ rest.length + 1) (hsz : arrC.length + 1 ≤ im) :
    WF g lm im m 0 (h + 1) c pid lo (bnd e2.1) ∧ WF g lm im m 0 (h + 1) d pid (bnd e2.1) hi ∧
      (∀ k v, (Holds g (h + 1) c k v ∨ Holds g (h + 1) d k v) ↔
        (Holds f (h + 1) c k v ∨ Holds f (h + 1) d k v)) ∧
      ∀ q, Under g (h + 1) c q ∨ Under g (h + 1) d q →
        Under f (h + 1) c q ∨ Under f (h + 1) d q := by
  have hwc0 := hwc
  have hwd0 := hwd
  obtain ⟨a1, h1, _, hc1, _, hlt1, hmirror1, hnd1, hseg1⟩ := hwc
  rw [hfc] at h1
  cases h1
  obtain ⟨a2, h2, _, _, hd2, hlt2, hmirror2, hnd2, hseg2⟩ := hwd
  rw [hfd] at h2
  cases h2
  obtain ⟨kp, ch⟩ := pair
  have hkp : kp = kd := by
    have := hmirror2 kd rfl
    simpa using this
  subst hkp
  have hcp : c ≠ pid := fun e => hpc (e ▸ Under.self _ _ _)
  have hdp : d ≠ pid := fun e => hpd (e ▸ Under.self _ _ _)
  have hdisj : ∀ q, Under f (h + 1) c q → ¬ Under f (h + 1) d q :=
    fun q => WF.disjoint (h + 1) _ _ _ _ c d pid pid _ _ _ _ q hwc0 hwd0 hcd
  have hkc : kidsOf f c = arrC.map Prod.snd := kidsOf_internal hfc
  have hkd : kidsOf f d = ch :: e2.2 :: rest.map Prod.snd := kidsOf_internal hfd
  have hchd : ch ∈ kidsOf f d := by rw [hkd]; simp
  simp only [List.map_cons, List.nodup_cons] at hnd2
  rw [slots_cons_eq] at hseg2
  simp only [List.map_cons, Seg_cons, ub_cons] at hseg2
  obtain ⟨hwch, hsegD⟩ := hseg2
  have hgc : g c = some (BPlusTreePage.internal c pid im (arrC ++ [(kp, ch)])) := by
    have hc2 : c ≠ ch := fun e => hdisj c (Under.self _ _ _)
      (Under.of_child hchd (e ▸ Under.self _ _ _))
    rw [hg c hcp, if_neg hc2, if_pos rfl]
  have hgd : g d = some (BPlusTreePage.internal d pid im (e2 :: rest)) := by
    have hd3 : d ≠ ch := fun e => hwd0.not_under_child hchd (e ▸ Under.self _ _ _)
    rw [hg d hdp, if_neg hd3, if_neg (fun e => hcd e.symm), if_pos rfl]
  have hkeptC : ∀ dd ∈ arrC.map Prod.snd, ∀ q, Under f h dd q → g q = f q := by
    intro dd hdd q hq
    have hql : Under f (h + 1) c q := Under.of_child (hkc ▸ hdd) hq
    have h1 : q ≠ pid := fun e => hpc (e ▸ hql)
    have h2 : q ≠ ch := fun e => hdisj q hql (Under.of_child hchd (e ▸ Under.self _ _ _))
    have h3 : q ≠ c := fun e => hwc0.not_under_child (hkc ▸ hdd) (e ▸ hq)
    have h4 : q ≠ d := fun e => hdisj q hql (e ▸ Under.self _ _ _)
    rw [hg q h1, if_neg h2, if_neg h3, if_neg h4]
  have hkeptD : ∀ dd ∈ e2.2 :: rest.map Prod.snd, ∀ q, Under f h dd q → g q = f q := by
    intro dd hdd q hq
    have hddk : dd ∈ kidsOf f d := by rw [hkd]; exact List.mem_cons_of_mem _ hdd
    have hqr : Under f (h + 1) d q := Under.of_child hddk hq
    have h1 : q ≠ pid := fun e => hpd (e ▸ hqr)
    have h2 : q ≠ ch := by
      intro e
      have hne : dd ≠ ch := fun e1 => hnd2.1 (e1 ▸ hdd)
      exact hwd0.sibling_not_under hddk hchd hne (e ▸ hq)
    have h3 : q ≠ c := fun e => hdisj q (e ▸ Under.self _ _ _) hqr
    have h4 : q ≠ d := fun e => hwd0.not_under_child hddk (e ▸ hq)
    rw [hg q h1, if_neg h2, if_neg h3, if_neg h4]
  have hmovedA : ∀ p, f ch = some p → g ch = some (p.SetParentPageId c) := by
    intro p hp
    have h1 : ch ≠ pid := fun e => hpd (Under.of_child hchd (e ▸ Under.self _ _ _))
    rw [hg ch h1, if_pos rfl, hp]
    rfl
  have hmovedB : ∀ q, Under f h ch q → q ≠ ch → g q = f q := by
    intro q hq hqd
    have hqr : Under f (h + 1) d q := Under.of_child hchd hq
    have h1 : q ≠ pid := fun e => hpd (e ▸ hqr)
    have h3 : q ≠ c := fun e => hdisj q (e ▸ Under.self _ _ _) hqr
    have h4 : q ≠ d := fun e => hwd0.not_under_child hchd (e ▸ hq)
    rw [hg q h1, if_neg hqd, if_neg h3, if_neg h4]
  have hmoved_strip : ∀ q, Under f h ch q →
      (g q).map (fun p => p.SetParentPageId 0) = (f q).map (fun p => p.SetParentPageId 0) := by
    intro q hq
    by_cases hqd : q = ch
    · subst hqd
      obtain ⟨p, hp, _⟩ := hwch.fetch
      rw [hmovedA p hp, hp]
      cases p <;> rfl
    · rw [hmovedB q hq hqd]
  obtain ⟨a0, A, rfl⟩ : ∃ a0 A, arrC = a0 :: A := by
    cases arrC with
    | nil => simp at hc1
    | cons a0 A => exact ⟨a0, A, rfl⟩
  have hlt3 : bnd kp < bnd e2.1 := hwch.lt
  have hsegD1 : Seg (fun c l u => WF f lm im (minNonRoot lm im h) 0 h c d l u)
      ((bnd e2.1, e2.2) :: rest.map (fun e => (bnd e.1, e.2))) hi := hsegD
  have hlt4 : bnd e2.1 < hi := by
    have := hsegD1.ub_lt (fun c l u hc => WF.lt hc) (by simp)
    simpa using this
  refine ⟨⟨_, hgc, ?_, ?_, ?_, lt_trans hlt1 hlt3, ?_, ?_, ?_⟩,
    ⟨_, hgd, ?_, ?_, ?_, hlt4, ?_, by simpa using hnd2.2, ?_⟩, ?_, ?_⟩
  · simpa using hm1
  · simp
  · simpa using hsz
  · intro l1 hl
    simpa using hmirror1 l1 hl
  · rw [List.map_append, List.nodup_append]
    refine ⟨hnd1, by simp, ?_⟩
    intro dd hd1 hd2
    simp only [List.map_cons, List.map_nil, List.mem_singleton] at hd2
    subst hd2
    exact hdisj dd (Under.of_child (hkc ▸ hd1) (Under.self _ _ _))
      (Under.of_child hchd (Under.self _ _ _))
  · rw [slots_append_cons, Seg_append]
    simp only [List.map_nil, ub_cons, ub_nil, lbAt, Seg_cons, Seg_nil, and_true]
    constructor
    · refine hseg1.imp ?_
      intro dd l1 u1 hdd hwdd
      rw [slots_map_snd] at hdd
      exact WF.congr _ _ _ _ _ _ _ (hkeptC dd hdd) hwdd
    · exact WF.reparent hwch c hmovedA hmovedB
  · simpa using hm2
  · simp
  · simp only [List.length_cons] at hd2 ⊢
    omega
  · intro l1 hl
    simp only [List.head?_cons, Option.map_some', Option.some.injEq]
    exact (bnd_inj hl).symm ▸ rfl
  · rw [slots_cons_eq]
    refine hsegD1.imp ?_
    intro dd l1 u1 hdd hwdd
    have hdd1 : dd ∈ e2.2 :: rest.map Prod.snd := by
      simpa [Function.comp_def] using hdd
    exact WF.congr _ _ _ _ _ _ _ (hkeptD dd hdd1) hwdd
  · intro k v
    rw [Holds_succ_iff hgc, Holds_succ_iff hgd, Holds_succ_iff hfc, Holds_succ_iff hfd]
    have e1 : ∀ dd ∈ (a0 :: A).map Prod.snd, (Holds g h dd k v ↔ Holds f h dd k v) :=
      fun dd hdd => Holds.holds_congr h dd (hkeptC dd hdd) k v
    have e2 : ∀ dd ∈ e2.2 :: rest.map Prod.snd, (Holds g h dd k v ↔ Holds f h dd k v) :=
      fun dd hdd => Holds.holds_congr h dd (hkeptD dd hdd) k v
    have e3 : Holds g h ch k v ↔ Holds f h ch k v := Holds.holds_congr_parent h ch hmoved_strip k v
    simp only [List.map_append, List.map_cons, List.map_nil, List.mem_append,
      List.mem_singleton]
    constructor
    · rintro (⟨dd, hdd, hh⟩ | ⟨dd, hdd, hh⟩)
      · rcases hdd with hdd | rfl
        · exact Or.inl ⟨dd, hdd, (e1 dd hdd).mp hh⟩
        · exact Or.inr ⟨dd, by simp, e3.mp hh⟩
      · exact Or.inr ⟨dd, List.mem_cons_of_mem _ hdd, (e2 dd hdd).mp hh⟩
    · rintro (⟨dd, hdd, hh⟩ | ⟨dd, hdd, hh⟩)
      · exact Or.inl ⟨dd, Or.inl hdd, (e1 dd hdd).mpr hh⟩
      · rcases List.mem_cons.mp hdd with rfl | hdd1
        · exact Or.inl ⟨dd, Or.inr rfl, e3.mpr hh⟩
        · exact Or.inr ⟨dd, hdd1, (e2 dd hdd1).mpr hh⟩
  · intro q hq
    rcases hq with hq | hq
    · rcases hq with rfl | ⟨dd, hdd, hqd⟩
      · exact Or.inl (Under.self _ _ _)
      · rw [kidsOf_internal hgc, List.map_append] at hdd
        rcases List.mem_append.mp hdd with hdd | hdd
        · exact Or.inl (Under.of_child (hkc ▸ hdd) ((Under.under_congr h dd (hkeptC dd hdd) q).mp hqd))
        · simp only [List.map_cons, List.map_nil, List.mem_singleton] at hdd
          subst hdd
          exact Or.inr (Under.of_child hchd ((Under.under_congr_parent h dd hmoved_strip q).mp hqd))
    · rcases hq with rfl | ⟨dd, hdd, hqd⟩
      · exact Or.inr (Under.self _ _ _)
      · rw [kidsOf_internal hgd] at hdd
        have hdd1 : dd ∈ e2.2 :: rest.map Prod.snd := by simpa using hdd
        refine Or.inr (Under.of_child ?_ ((Under.under_congr h dd (hkeptD dd hdd1) q).mp hqd))
        rw [hkd]
        exact List.mem_cons_of_mem _ hdd1

/-- The last pair of an internal page moves to the front of its right sibling, and its
child with it: both pages satisfy the invariant, separated by the key of the pair. -/
theorem WF.borrow_left_internal {f g : Int → Option (BPlusTreePage K V)}
    {lm im mc md m h : Nat} {c d pid : Int} {lo hi : Bound K} {kc : K}
    (hwd : WF f lm im md 0 (h + 1) d pid lo (bnd kc))
    (hwc : WF f lm im mc 0 (h + 1) c pid (bnd kc) hi)
    (arrC : List (K × Int)) (pair : K × Int) (front : List (K × Int))
    (hfc : f c = some (BPlusTreePage.internal c pid im arrC))
    (hfd : f d = some (BPlusTreePage.internal d pid im (front ++ [pair])))
    (hcd : c ≠ d) (hpc : ¬ Under f (h + 1) c pid) (hpd : ¬ Under f (h + 1) d pid)
    (hg : ∀ q, q ≠ pid → g q =
      if q = pair.2 then (f q).map (fun p => p.SetParentPageId c)
      else if q = c then some (BPlusTreePage.internal c pid im (pair :: arrC))
      else if q = d then some (BPlusTreePage.internal d pid im front)
      else f q)
    (hm1 : m ≤ arrC.length + 1) (hm2 : m ≤ front.length) (hne : 1 ≤ front.length)
    (hsz : arrC.length + 1 ≤ im) :
    WF g lm im m 0 (h + 1) d pid lo (bnd pair.1) ∧
      WF g lm im m 0 (h + 1) c pid (bnd pair.1) hi ∧
      (∀ k v, (Holds g (h + 1) d k v ∨ Holds g (h + 1) c k v) ↔
        (Holds f (h + 1) d k v ∨ Holds f (h + 1) c k v)) ∧
      ∀ q, Under g (h + 1) d q ∨ Under g (h + 1) c q →
        Under f (h + 1) d q ∨ Under f (h + 1) c q := by
  have hwc0 := hwc
  have hwd0 := hwd
  obtain ⟨a1, h1, _, hc1, _, hlt1, hmirror1, hnd1, hseg1⟩ := hwc
  rw [hfc] at h1
  cases h1
  obtain ⟨a2, h2, _, _, hd2, hlt2, hmirror2, hnd2, hseg2⟩ := hwd
  rw [hfd] at h2
  cases h2
  obtain ⟨kp, ch⟩ := pair
  obtain ⟨⟨k0, c0⟩, restC, rfl⟩ : ∃ e rest, arrC = e :: rest := by
    cases arrC with
    | nil => simp at hc1
    | cons e rest => exact ⟨e, rest, rfl⟩
  have hk0 : k0 = kc := by
    have := hmirror1 kc rfl
    simpa using this
  subst hk0
  obtain ⟨f0, F, rfl⟩ : ∃ f0 F, front = f0 :: F := by
    cases front with
    | nil => simp at hne
    | cons f0 F => exact ⟨f0, F, rfl⟩
  have hcp : c ≠ pid := fun e => hpc (e ▸ Under.self _ _ _)
  have hdp : d ≠ pid := fun e => hpd (e ▸ Under.self _ _ _)
  have hdisj : ∀ q, Under f (h + 1) c q → ¬ Under f (h + 1) d q :=
    fun q => WF.disjoint (h + 1) _ _ _ _ c d pid pid _ _ _ _ q hwc0 hwd0 hcd
  have hkc : kidsOf f c = c0 :: restC.map Prod.snd := kidsOf_internal hfc
  have hkd : kidsOf f d = (f0 :: F).map Prod.snd ++ [ch] := by
    rw [kidsOf_internal hfd]; simp
  have hchd : ch ∈ kidsOf f d := by rw [hkd]; simp
  rw [List.map_append, List.nodup_append] at hnd2
  obtain ⟨hndF, _, hndFc⟩ := hnd2
  rw [slots_append_cons, Seg_append] at hseg2
  simp only [List.map_nil, ub_cons, lbAt, Seg_cons, Seg_nil, ub_nil, and_true] at hseg2
  obtain ⟨hsegF, hwch⟩ := hseg2
  rw [slots_cons_eq] at hseg1
  have hgc : g c = some (BPlusTreePage.internal c pid im ((kp, ch) :: (k0, c0) :: restC)) := by
    have hc2 : c ≠ ch := fun e => hdisj c (Under.self _ _ _)
      (Under.of_child hchd (e ▸ Under.self _ _ _))
    rw [hg c hcp, if_neg hc2, if_pos rfl]
  have hgd : g d = some (BPlusTreePage.internal d pid im (f0 :: F)) := by
    have hd3 : d ≠ ch := fun e => hwd0.not_under_child hchd (e ▸ Under.self _ _ _)
    rw [hg d hdp, if_neg hd3, if_neg (fun e => hcd e.symm), if_pos rfl]
  have hkeptC : ∀ dd ∈ c0 :: restC.map Prod.snd, ∀ q, Under f h dd q → g q = f q := by
    intro dd hdd q hq
    have hql : Under f (h + 1) c q := Under.of_child (hkc ▸ hdd) hq
    have h1 : q ≠ pid := fun e => hpc (e ▸ hql)
    have h2 : q ≠ ch := fun e => hdisj q hql (Under.of_child hchd (e ▸ Under.self _ _ _))
    have h3 : q ≠ c := fun e => hwc0.not_under_child (hkc ▸ hdd) (e ▸ hq)
    have h4 : q ≠ d := fun e => hdisj q hql (e ▸ Under.self _ _ _)
    rw [hg q h1, if_neg h2, if_neg h3, if_neg h4]
  have hkeptD : ∀ dd ∈ (f0 :: F).map Prod.snd, ∀ q, Under f h dd q → g q = f q := by
    intro dd hdd q hq
    have hddk : dd ∈ kidsOf f d := by rw [hkd]; exact List.mem_append_left _ hdd
    have hqr : Under f (h + 1) d q := Under.of_child hddk hq
    have h1 : q ≠ pid := fun e => hpd (e ▸ hqr)
    have h2 : q ≠ ch := by
      intro e
      have hne : dd ≠ ch := fun e1 => hndFc hdd (by simp [e1])
      exact hwd0.sibling_not_under hddk hchd hne (e ▸ hq)
    have h3 : q ≠ c := fun e => hdisj q (e ▸ Under.self _ _ _) hqr
    have h4 : q ≠ d := fun e => hwd0.not_under_child hddk (e ▸ hq)
    rw [hg q h1, if_neg h2, if_neg h3, if_neg h4]
  have hmovedA : ∀ p, f ch = some p → g ch = some (p.SetParentPageId c) := by
    intro p hp
    have h1 : ch ≠ pid := fun e => hpd (Under.of_child hchd (e ▸ Under.self _ _ _))
    rw [hg ch h1, if_pos rfl, hp]
    rfl
  have hmovedB : ∀ q, Under f h ch q → q ≠ ch → g q = f q := by
    intro q hq hqd
    have hqr : Under f (h + 1) d q := Under.of_child hchd hq
    have h1 : q ≠ pid := fun e => hpd (e ▸ hqr)
    have h3 : q ≠ c := fun e => hdisj q (e ▸ Under.self _ _ _) hqr
    have h4 : q ≠ d := fun e => hwd0.not_under_child hchd (e ▸ hq)
    rw [hg q h1, if_neg hqd, if_neg h3, if_neg h4]
  have hmoved_strip : ∀ q, Under f h ch q →
      (g q).map (fun p => p.SetParentPageId 0) = (f q).map (fun p => p.SetParentPageId 0) := by
    intro q hq
    by_cases hqd : q = ch
    · subst hqd
      obtain ⟨p, hp, _⟩ := hwch.fetch
      rw [hmovedA p hp, hp]
      cases p <;> rfl
    · rw [hmovedB q hq hqd]
  have hlt3 : lo < bnd kp := by
    have := hsegF.ub_lt (fun c l u hc => WF.lt hc) (slots_ne_nil lo _ (by simp))
    obtain ⟨kf, cf⟩ := f0
    simpa [slots] using this
  refine ⟨⟨_, hgd, hm2, hne, ?_, hlt3, ?_, hndF, ?_⟩,
    ⟨_, hgc, ?_, ?_, ?_, lt_trans hwch.lt hlt1, ?_, ?_, ?_⟩, ?_, ?_⟩
  · simp only [List.length_append, List.length_cons, List.length_nil] at hd2 ⊢
    omega
  · intro l1 hl
    simpa using hmirror2 l1 hl
  · refine hsegF.imp ?_
    intro dd l1 u1 hdd hwdd
    rw [slots_map_snd] at hdd
    exact WF.congr _ _ _ _ _ _ _ (hkeptD dd hdd) hwdd
  · simpa using hm1
  · simp
  · simpa using hsz
  · intro l1 hl
    simp only [List.head?_cons, Option.map_some', Option.some.injEq]
    exact (bnd_inj hl).symm ▸ rfl
  · simp only [List.map_cons, List.nodup_cons]
    refine ⟨?_, by simpa using hnd1⟩
    intro hmem
    exact hdisj ch (Under.of_child (hkc ▸ hmem) (Under.self _ _ _))
      (Under.of_child hchd (Under.self _ _ _))
  · rw [slots_cons_eq]
    simp only [List.map_cons, Seg_cons, ub_cons]
    refine ⟨WF.reparent hwch c hmovedA hmovedB, ?_⟩
    have := hseg1.imp (Q := fun cc l u => WF g lm im (minNonRoot lm im h) 0 h cc c l u) (by
      intro dd l1 u1 hdd hwdd
      have hdd1 : dd ∈ c0 :: restC.map Prod.snd := by
        simpa [Function.comp_def] using hdd
      exact WF.congr _ _ _ _ _ _ _ (hkeptC dd hdd1) hwdd)
    simpa using this
  · intro k v
    rw [Holds_succ_iff hgc, Holds_succ_iff hgd, Holds_succ_iff hfc, Holds_succ_iff hfd]
    have e1 : ∀ dd ∈ c0 :: restC.map Prod.snd, (Holds g h dd k v ↔ Holds f h dd k v) :=
      fun dd hdd => Holds.holds_congr h dd (hkeptC dd hdd) k v
    have e2 : ∀ dd ∈ (f0 :: F).map Prod.snd, (Holds g h dd k v ↔ Holds f h dd k v) :=
      fun dd hdd => Holds.holds_congr h dd (hkeptD dd hdd) k v
    have e3 : Holds g h ch k v ↔ Holds f h ch k v := Holds.holds_congr_parent h ch hmoved_strip k v
    rw [List.map_append]
    constructor
    · rintro (⟨dd, hdd, hh⟩ | ⟨dd, hdd, hh⟩)
      · exact Or.inl ⟨dd, List.mem_append_left _ hdd, (e2 dd hdd).mp hh⟩
      · simp only [List.map_cons, List.mem_cons] at hdd
        rcases hdd with rfl | hdd
        · exact Or.inl ⟨dd, List.mem_append_right _ (by simp), e3.mp hh⟩
        · exact Or.inr ⟨dd, by simpa using hdd, (e1 dd (by simpa using hdd)).mp hh⟩
    · rintro (⟨dd, hdd, hh⟩ | ⟨dd, hdd, hh⟩)
      · rcases List.mem_append.mp hdd with hdd1 | hdd1
        · exact Or.inl ⟨dd, hdd1, (e2 dd hdd1).mpr hh⟩
        · simp only [List.map_cons, List.map_nil, List.mem_singleton] at hdd1
          subst hdd1
          exact Or.inr ⟨dd, by simp, e3.mpr hh⟩
      · have hdd1 : dd ∈ c0 :: restC.map Prod.snd := by simpa using hdd
        exact Or.inr ⟨dd, by simp only [List.map_cons]; exact List.mem_cons_of_mem _ hdd1,
          (e1 dd hdd1).mpr hh⟩
  · intro q hq
    rcases hq with hq | hq
    · rcases hq with rfl | ⟨dd, hdd, hqd⟩
      · exact Or.inl (Under.self _ _ _)
      · rw [kidsOf_internal hgd] at hdd
        refine Or.inl (Under.of_child ?_ ((Under.under_congr h dd (hkeptD dd hdd) q).mp hqd))
        rw [hkd]
        exact List.mem_append_left _ hdd
    · rcases hq with rfl | ⟨dd, hdd, hqd⟩
      · exact Or.inr (Under.self _ _ _)
      · rw [kidsOf_internal hgc] at hdd
        simp only [List.map_cons, List.mem_cons] at hdd
        rcases hdd with rfl | hdd
        · exact Or.inl (Under.of_child hchd ((Under.under_congr_parent h dd hmoved_strip q).mp hqd))
        · have hdd1 : dd ∈ c0 :: restC.map Prod.snd := by simpa using hdd
          exact Or.inr (Under.of_child (hkc ▸ hdd1)
            ((Under.under_congr h dd (hkeptC dd hdd1) q).mp hqd))

end BPlusTree

/-! ## B+ tree: `Redistribute` on two sibling subtrees -/

namespace BPlusTree

variable {K V : Type} [LinearOrder K] [Inhabited K]

theorem minNonRoot_pos {lm : Nat} (im : Nat) (hlm : 2 ≤ lm) (h : Nat) :
    1 ≤ minNonRoot lm im h := by
  cases h with
  | zero => simp only [minNonRoot]; omega
  | succ h => simp only [minNonRoot]; omega

/-- The call `Redistribute` for the first child `c` of its parent and its right sibling
`d`: the first pair of `d` moves to `c`, both subtrees satisfy the invariant with a new
separator key, and they hold the pairs and pages they held together before. -/
theorem borrow_first_spec {lm im h mc md : Nat} (hlm : 2 ≤ lm) {t : BPlusTree K V}
    (hp : PoolOk lm im t) {pid par c d : Int} {B : List (K × Int)} {kc kd : K} {mxp : Nat}
    {lo hi : Bound K}
    (hpar : FetchPage t pid
      = some (BPlusTreePage.internal pid par mxp ((kc, c) :: (kd, d) :: B)))
    (hwc : WF (FetchPage t) lm im mc 0 h c pid lo (bnd kd))
    (hwd : WF (FetchPage t) lm im md 0 h d pid (bnd kd) hi)
    (hcd : c ≠ d) (hpc : ¬ Under (FetchPage t) h c pid) (hpd : ¬ Under (FetchPage t) h d pid)
    (hszc : ∀ pc, FetchPage t c = some pc →
      pc.GetSize + 1 ≤ pc.GetMaxSize ∧ minNonRoot lm im h ≤ pc.GetSize + 1)
    (hszd : ∀ pd, FetchPage t d = some pd → minNonRoot lm im h + 1 ≤ pd.GetSize) :
    ∃ t1 kd1, Redistribute t d c 0 = some t1 ∧ PoolOk lm im t1 ∧
      t1.root_page_id = t.root_page_id ∧
      t1.buffer_pool_manager.next_page_id = t.buffer_pool_manager.next_page_id ∧
      FetchPage t1 pid
        = some (BPlusTreePage.internal pid par mxp ((kc, c) :: (kd1, d) :: B)) ∧
      WF (FetchPage t1) lm im (minNonRoot lm im h) 0 h c pid lo (bnd kd1) ∧
      WF (FetchPage t1) lm im (minNonRoot lm im h) 0 h d pid (bnd kd1) hi ∧
      (∀ k v, (Holds (FetchPage t1) h c k v ∨ Holds (FetchPage t1) h d k v) ↔
        (Holds (FetchPage t) h c k v ∨ Holds (FetchPage t) h d k v)) ∧
      (∀ q, Under (FetchPage t1) h c q ∨ Under (FetchPage t1) h d q →
        Under (FetchPage t) h c q ∨ Under (FetchPage t) h d q) ∧
      ∀ q, q ≠ pid → ¬ Under (FetchPage t) h c q → ¬ Under (FetchPage t) h d q →
        FetchPage t1 q = FetchPage t q := by
  have hcp : c ≠ pid := fun e => hpc (e ▸ Under.self _ _ _)
  have hdp : d ≠ pid := fun e => hpd (e ▸ Under.self _ _ _)
  have hmin := minNonRoot_pos im hlm h
  cases h with
  | zero =>
    obtain ⟨arrC, hfc, _⟩ := id hwc
    obtain ⟨arrD, hfd, _⟩ := id hwd
    obtain ⟨hc1, hc2⟩ := hszc _ hfc
    have hd1 := hszd _ hfd
    simp only [BPlusTreePage.GetSize, BPlusTreePage.GetMaxSize] at hc1 hc2 hd1
    obtain ⟨pair, e2, rest, rfl⟩ : ∃ pair e2 rest, arrD = pair :: e2 :: rest := by
      match arrD, hd1 with
      | [], h => simp at h
      | [_], h => simp at h; omega
      | pair :: e2 :: rest, _ => exact ⟨pair, e2, rest, rfl⟩
    obtain ⟨bpm1, hm1, hm2, hm3⟩ := BPlusTreeLeafPage.MoveFirstToEndOf_leaf
      t.buffer_pool_manager d c pid pid par lm lm mxp pair e2 rest arrC [(kc, c)] B kd
      hfd hfc hpar (by simpa using fun e => hcd e.symm) (fun e => hcd e.symm) hdp hcp
    have hfd1 : t.buffer_pool_manager.FetchPage d
        = some (BPlusTreePage.leaf d pid lm (pair :: e2 :: rest)) := hfd
    have hfetch : ∀ q, FetchPage { t with buffer_pool_manager := bpm1 } q =
        if q = pid then
          some (BPlusTreePage.internal pid par mxp ([(kc, c)] ++ (e2.1, d) :: B))
        else if q = c then some (BPlusTreePage.leaf c pid lm (arrC ++ [pair]))
        else if q = d then some (BPlusTreePage.leaf d pid lm (e2 :: rest))
        else FetchPage t q := hm3
    have hgc : FetchPage { t with buffer_pool_manager := bpm1 } c
        = some (BPlusTreePage.leaf c pid lm (arrC ++ [pair])) := by
      rw [hfetch, if_neg hcp, if_pos rfl]
    have hgd : FetchPage { t with buffer_pool_manager := bpm1 } d
        = some (BPlusTreePage.leaf d pid lm (e2 :: rest)) := by
      rw [hfetch, if_neg hdp, if_neg (fun e => hcd e.symm), if_pos rfl]
    obtain ⟨hw1, hw2, hholds⟩ := WF.borrow_right_leaf (m := minNonRoot lm im 0) hwc hwd arrC
      pair e2 rest hfc hfd hgc hgd hc2 (by simp only [List.length_cons] at hd1; omega) hc1
    refine ⟨{ t with buffer_pool_manager := bpm1 }, e2.1, ?_, ⟨hp.lm_eq, hp.im_eq, ?_⟩, rfl,
      hm2, by rw [hfetch, if_pos rfl]; rfl, hw1, hw2, hholds, ?_, ?_⟩
    · simp only [Redistribute, FetchPage_def, hfd1, Option.bind_eq_bind, Option.some_bind,
        if_true, hm1]
    · intro q p hq
      show 0 ≤ q ∧ q < bpm1.next_page_id
      rw [hm2]
      rw [hfetch] at hq
      by_cases h1 : q = pid
      · subst h1; exact hp.ids _ _ hpar
      · rw [if_neg h1] at hq
        by_cases h2 : q = c
        · subst h2; exact hp.ids _ _ hfc
        · rw [if_neg h2] at hq
          by_cases h3 : q = d
          · subst h3; exact hp.ids _ _ hfd
          · rw [if_neg h3] at hq
            exact hp.ids _ _ hq
    · intro q hq
      exact hq
    · intro q h1 h2 h3
      have h2a : q ≠ c := fun e => h2 e
      have h3a : q ≠ d := fun e => h3 e
      rw [hfetch, if_neg h1, if_neg h2a, if_neg h3a]
  | succ h =>
    obtain ⟨arrC, hfc, _⟩ := id hwc
    obtain ⟨arrD, hfd, _⟩ := id hwd
    obtain ⟨hc1, hc2⟩ := hszc _ hfc
    have hd1 := hszd _ hfd
    simp only [BPlusTreePage.GetSize, BPlusTreePage.GetMaxSize] at hc1 hc2 hd1
    obtain ⟨pair, e2, rest, rfl⟩ : ∃ pair e2 rest, arrD = pair :: e2 :: rest := by
      match arrD, hd1 with
      | [], h => simp at h
      | [_], h => simp at h; omega
      | pair :: e2 :: rest, _ => exact ⟨pair, e2, rest, rfl⟩
    have hkd : kidsOf (FetchPage t) d = pair.2 :: e2.2 :: rest.map Prod.snd :=
      kidsOf_internal hfd
    have hchd : pair.2 ∈ kidsOf (FetchPage t) d := by rw [hkd]; simp
    obtain ⟨l1, u1, hwch⟩ := hwd.child hchd
    obtain ⟨pch, hpch, _⟩ := hwch.fetch
    have hdisj : ∀ q, Under (FetchPage t) (h + 1) c q → ¬ Under (FetchPage t) (h + 1) d q :=
      fun q => WF.disjoint (h + 1) _ _ _ _ c d pid pid _ _ _ _ q hwc hwd hcd
    have hhd : pair.2 ≠ d := fun e => hwd.not_under_child hchd (e ▸ Under.self _ _ _)
    have hhc : pair.2 ≠ c := fun e => hdisj c (Under.self _ _ _)
      (Under.of_child hchd (e ▸ Under.self _ _ _))
    have hhp : pair.2 ≠ pid := fun e => hpd (Under.of_child hchd (e ▸ Under.self _ _ _))
    obtain ⟨bpm1, hm1, hm2, hm3⟩ := BPlusTreeInternalPage.MoveFirstToEndOf_spec
      t.buffer_pool_manager d c pid pid par im im mxp pair e2 rest arrC [(kc, c)] B kd pch
      hfd hfc hpar hpch (by simpa using fun e => hcd e.symm) (fun e => hcd e.symm) hdp hcp
      hhd hhc hhp hc1
    have hfd1 : t.buffer_pool_manager.FetchPage d
        = some (BPlusTreePage.internal d pid im (pair :: e2 :: rest)) := hfd
    have hfetch : ∀ q, FetchPage { t with buffer_pool_manager := bpm1 } q =
        if q = pid then
          some (BPlusTreePage.internal pid par mxp ([(kc, c)] ++ (e2.1, d) :: B))
        else if q = pair.2 then some (pch.SetParentPageId c)
        else if q = c then some (BPlusTreePage.internal c pid im (arrC ++ [pair]))
        else if q = d then some (BPlusTreePage.internal d pid im (e2 :: rest))
        else FetchPage t q := hm3
    obtain ⟨hw1, hw2, hholds, hunder⟩ := WF.borrow_right_internal
      (g := FetchPage { t with buffer_pool_manager := bpm1 }) (m := minNonRoot lm im (h + 1))
      hwc hwd arrC pair e2 rest hfc hfd hcd hpc hpd
      (fun q hq => by
        rw [hfetch, if_neg hq]
        by_cases h2 : q = pair.2
        · rw [if_pos h2, if_pos h2, h2, hpch]; rfl
        · rw [if_neg h2, if_neg h2])
      hc2 (by simp only [List.length_cons] at hd1; omega) hc1
    refine ⟨{ t with buffer_pool_manager := bpm1 }, e2.1, ?_, ⟨hp.lm_eq, hp.im_eq, ?_⟩, rfl,
      hm2, by rw [hfetch, if_pos rfl]; rfl, hw1, hw2, hholds, hunder, ?_⟩
    · simp only [Redistribute, FetchPage_def, hfd1, Option.bind_eq_bind, Option.some_bind,
        if_true, hm1]
    · intro q p hq
      show 0 ≤ q ∧ q < bpm1.next_page_id
      rw [hm2]
      rw [hfetch] at hq
      by_cases h1 : q = pid
      · subst h1; exact hp.ids _ _ hpar
      · rw [if_neg h1] at hq
        by_cases h4 : q = pair.2
        · rw [h4]; exact hp.ids _ _ hpch
        · rw [if_neg h4] at hq
          by_cases h2 : q = c
          · subst h2; exact hp.ids _ _ hfc
          · rw [if_neg h2] at hq
            by_cases h3 : q = d
            · subst h3; exact hp.ids _ _ hfd
            · rw [if_neg h3] at hq
              exact hp.ids _ _ hq
    · intro q h1 h2 h3
      have h2a : q ≠ c := fun e => h2 (e ▸ Under.self _ _ _)
      have h3a : q ≠ d := fun e => h3 (e ▸ Under.self _ _ _)
      have h4 : q ≠ pair.2 := fun e => h3 (Under.of_child hchd (e ▸ Under.self _ _ _))
      rw [hfetch, if_neg h1, if_neg h4, if_neg h2a, if_neg h3a]

theorem exists_concat {α : Type} (l : List α) (h : 1 ≤ l.length) :
    ∃ front last, l = front ++ [last] := by
  rcases List.eq_nil_or_concat l with rfl | ⟨front, last, rfl⟩
  · simp at h
  · exact ⟨front, last, by simp⟩

/-- The call `Redistribute` for a child `c` and its left sibling `d`: the last pair of
`d` moves to `c`, both subtrees satisfy the invariant with a new separator key, and they
hold the pairs and pages they held together before. -/
theorem borrow_later_spec {lm im h mc md : Nat} (hlm : 2 ≤ lm) {t : BPlusTree K V}
    (hp : PoolOk lm im t) {pid par c d : Int} {A B : List (K × Int)} {kc kd : K} {mxp : Nat}
    {lo hi : Bound K}
    (hpar : FetchPage t pid
      = some (BPlusTreePage.internal pid par mxp (A ++ (kd, d) :: (kc, c) :: B)))
    (hwd : WF (FetchPage t) lm im md 0 h d pid lo (bnd kc))
    (hwc : WF (FetchPage t) lm im mc 0 h c pid (bnd kc) hi)
    (hcd : c ≠ d) (hpc : ¬ Under (FetchPage t) h c pid) (hpd : ¬ Under (FetchPage t) h d pid)
    (hszc : ∀ pc, FetchPage t c = some pc →
      pc.GetSize + 1 < pc.GetMaxSize ∧ minNonRoot lm im h ≤ pc.GetSize + 1)
    (hszd : ∀ pd, FetchPage t d = some pd → minNonRoot lm im h + 1 ≤ pd.GetSize) :
    ∃ t1 kc1, Redistribute t d c (A.length + 1) = some t1 ∧ PoolOk lm im t1 ∧
      t1.root_page_id = t.root_page_id ∧
      t1.buffer_pool_manager.next_page_id = t.buffer_pool_manager.next_page_id ∧
      FetchPage t1 pid
        = some (BPlusTreePage.internal pid par mxp (A ++ (kd, d) :: (kc1, c) :: B)) ∧
      WF (FetchPage t1) lm im (minNonRoot lm im h) 0 h d pid lo (bnd kc1) ∧
      WF (FetchPage t1) lm im (minNonRoot lm im h) 0 h c pid (bnd kc1) hi ∧
      (∀ k v, (Holds (FetchPage t1) h d k v ∨ Holds (FetchPage t1) h c k v) ↔
        (Holds (FetchPage t) h d k v ∨ Holds (FetchPage t) h c k v)) ∧
      (∀ q, Under (FetchPage t1) h d q ∨ Under (FetchPage t1) h c q →
        Under (FetchPage t) h d q ∨ Under (FetchPage t) h c q) ∧
      ∀ q, q ≠ pid → ¬ Under (FetchPage t) h d q → ¬ Under (FetchPage t) h c q →
        FetchPage t1 q = FetchPage t q := by
  have hcp : c ≠ pid := fun e => hpc (e ▸ Under.self _ _ _)
  have hdp : d ≠ pid := fun e => hpd (e ▸ Under.self _ _ _)
  have hmin := minNonRoot_pos im hlm h
  have hpar1 : FetchPage t pid
      = some (BPlusTreePage.internal pid par mxp ((A ++ [(kd, d)]) ++ (kc, c) :: B)) := by
    rw [hpar]; simp
  have hlen : (A ++ [(kd, d)]).length = A.length + 1 := by simp
  cases h with
  | zero =>
    obtain ⟨arrC, hfc, _⟩ := id hwc
    obtain ⟨arrD, hfd, _⟩ := id hwd
    obtain ⟨hc1, hc2⟩ := hszc _ hfc
    have hd1 := hszd _ hfd
    simp only [BPlusTreePage.GetSize, BPlusTreePage.GetMaxSize] at hc1 hc2 hd1
    obtain ⟨front, pair, rfl⟩ := exists_concat arrD (by omega)
    obtain ⟨bpm1, hm1, hm2, hm3⟩ := BPlusTreeLeafPage.MoveLastToFrontOf_leaf
      t.buffer_pool_manager d c pid pid par lm lm mxp pair front arrC (A ++ [(kd, d)]) B kc
      hfd hfc hpar1 (fun e => hcd e.symm) hdp hcp
    rw [hlen] at hm1
    have hfd1 : t.buffer_pool_manager.FetchPage d
        = some (BPlusTreePage.leaf d pid lm (front ++ [pair])) := hfd
    have hfetch : ∀ q, FetchPage { t with buffer_pool_manager := bpm1 } q =
        if q = pid then
          some (BPlusTreePage.internal pid par mxp ((A ++ [(kd, d)]) ++ (pair.1, c) :: B))
        else if q = c then some (BPlusTreePage.leaf c pid lm (pair :: arrC))
        else if q = d then some (BPlusTreePage.leaf d pid lm front)
        else FetchPage t q := hm3
    have hgc : FetchPage { t with buffer_pool_manager := bpm1 } c
        = some (BPlusTreePage.leaf c pid lm (pair :: arrC)) := by
      rw [hfetch, if_neg hcp, if_pos rfl]
    have hgd : FetchPage { t with buffer_pool_manager := bpm1 } d
        = some (BPlusTreePage.leaf d pid lm front) := by
      rw [hfetch, if_neg hdp, if_neg (fun e => hcd e.symm), if_pos rfl]
    have hfl : minNonRoot lm im 0 ≤ front.length := by
      simp only [List.length_append, List.length_cons, List.length_nil] at hd1
      omega
    obtain ⟨hw1, hw2, hholds⟩ := WF.borrow_left_leaf (m := minNonRoot lm im 0) hwd hwc arrC
      pair front hfc hfd hgc hgd hc2 hfl (by omega) (by omega)
    refine ⟨{ t with buffer_pool_manager := bpm1 }, pair.1, ?_, ⟨hp.lm_eq, hp.im_eq, ?_⟩, rfl,
      hm2, by rw [hfetch, if_pos rfl]; simp, hw1, hw2, hholds, ?_, ?_⟩
    · simp only [Redistribute, FetchPage_def, hfd1, Option.bind_eq_bind, Option.some_bind,
        Nat.add_one_ne_zero, if_false, hm1]
    · intro q p hq
      show 0 ≤ q ∧ q < bpm1.next_page_id
      rw [hm2]
      rw [hfetch] at hq
      by_cases h1 : q = pid
      · subst h1; exact hp.ids _ _ hpar
      · rw [if_neg h1] at hq
        by_cases h2 : q = c
        · subst h2; exact hp.ids _ _ hfc
        · rw [if_neg h2] at hq
          by_cases h3 : q = d
          · subst h3; exact hp.ids _ _ hfd
          · rw [if_neg h3] at hq
            exact hp.ids _ _ hq
    · intro q hq
      exact hq
    · intro q h1 h2 h3
      have h2a : q ≠ d := fun e => h2 e
      have h3a : q ≠ c := fun e => h3 e
      rw [hfetch, if_neg h1, if_neg h3a, if_neg h2a]
  | succ h =>
    obtain ⟨arrC, hfc, _⟩ := id hwc
    obtain ⟨arrD, hfd, _⟩ := id hwd
    obtain ⟨hc1, hc2⟩ := hszc _ hfc
    have hd1 := hszd _ hfd
    simp only [BPlusTreePage.GetSize, BPlusTreePage.GetMaxSize] at hc1 hc2 hd1
    obtain ⟨front, pair, rfl⟩ := exists_concat arrD (by omega)
    have hkd : kidsOf (FetchPage t) d = front.map Prod.snd ++ [pair.2] := by
      rw [kidsOf_internal hfd]; simp
    have hchd : pair.2 ∈ kidsOf (FetchPage t) d := by rw [hkd]; simp
    obtain ⟨l1, u1, hwch⟩ := hwd.child hchd
    obtain ⟨pch, hpch, _⟩ := hwch.fetch
    have hdisj : ∀ q, Under (FetchPage t) (h + 1) c q → ¬ Under (FetchPage t) (h + 1) d q :=
      fun q => WF.disjoint (h + 1) _ _ _ _ c d pid pid _ _ _ _ q hwc hwd hcd
    have hhd : pair.2 ≠ d := fun e => hwd.not_under_child hchd (e ▸ Under.self _ _ _)
    have hhc : pair.2 ≠ c := fun e => hdisj c (Under.self _ _ _)
      (Under.of_child hchd (e ▸ Under.self _ _ _))
    have hhp : pair.2 ≠ pid := fun e => hpd (Under.of_child hchd (e ▸ Under.self _ _ _))
    obtain ⟨bpm1, hm1, hm2, hm3⟩ := BPlusTreeInternalPage.MoveLastToFrontOf_spec
      t.buffer_pool_manager d c pid pid par im im mxp pair front arrC (A ++ [(kd, d)]) B kc pch
      hfd hfc hpar1 hpch (fun e => hcd e.symm) hdp hcp hhd hhc hhp hc1
    rw [hlen] at hm1
    have hfd1 : t.buffer_pool_manager.FetchPage d
        = some (BPlusTreePage.internal d pid im (front ++ [pair])) := hfd
    have hfetch : ∀ q, FetchPage { t with buffer_pool_manager := bpm1 } q =
        if q = pid then
          some (BPlusTreePage.internal pid par mxp ((A ++ [(kd, d)]) ++ (pair.1, c) :: B))
        else if q = pair.2 then some (pch.SetParentPageId c)
        else if q = c then some (BPlusTreePage.internal c pid im (pair :: arrC))
        else if q = d then some (BPlusTreePage.internal d pid im front)
        else FetchPage t q := hm3
    have hfl : minNonRoot lm im (h + 1) ≤ front.length := by
      simp only [List.length_append, List.length_cons, List.length_nil] at hd1
      omega
    obtain ⟨hw1, hw2, hholds, hunder⟩ := WF.borrow_left_internal
      (g := FetchPage { t with buffer_pool_manager := bpm1 }) (m := minNonRoot lm im (h + 1))
      hwd hwc arrC pair front hfc hfd hcd hpc hpd
      (fun q hq => by
        rw [hfetch, if_neg hq]
        by_cases h2 : q = pair.2
        · rw [if_pos h2, if_pos h2, h2, hpch]; rfl
        · rw [if_neg h2, if_neg h2])
      hc2 hfl (by omega) (by omega)
    refine ⟨{ t with buffer_pool_manager := bpm1 }, pair.1, ?_, ⟨hp.lm_eq, hp.im_eq, ?_⟩, rfl,
      hm2, by rw [hfetch, if_pos rfl]; simp, hw1, hw2, hholds, hunder, ?_⟩
    · simp only [Redistribute, FetchPage_def, hfd1, Option.bind_eq_bind, Option.some_bind,
        Nat.add_one_ne_zero, if_false, hm1]
    · intro q p hq
      show 0 ≤ q ∧ q < bpm1.next_page_id
      rw [hm2]
      rw [hfetch] at hq
      by_cases h1 : q = pid
      · subst h1; exact hp.ids _ _ hpar
      · rw [if_neg h1] at hq
        by_cases h4 : q = pair.2
        · rw [h4]; exact hp.ids _ _ hpch
        · rw [if_neg h4] at hq
          by_cases h2 : q = c
          · subst h2; exact hp.ids _ _ hfc
          · rw [if_neg h2] at hq
            by_cases h3 : q = d
            · subst h3; exact hp.ids _ _ hfd
            · rw [if_neg h3] at hq
              exact hp.ids _ _ hq
    · intro q h1 h2 h3
      have h2a : q ≠ d := fun e => h2 (e ▸ Under.self _ _ _)
      have h3a : q ≠ c := fun e => h3 (e ▸ Under.self _ _ _)
      have h4 : q ≠ pair.2 := fun e => h2 (Under.of_child hchd (e ▸ Under.self _ _ _))
      rw [hfetch, if_neg h1, if_neg h4, if_neg h3a, if_neg h2a]

end BPlusTree

/-! ## B+ tree: the page set of the transaction after the descent with `DELETE` -/

namespace BPlusTree

variable {K V : Type} [LinearOrder K] [Inhabited K]

theorem childOf_internal {f : Int → Option (BPlusTreePage K V)} {key : K}
    {pid a b : Int} {mx : Nat} {k0 : K} {c0 : Int} {rest : List (K × Int)}
    (hf : f pid = some (BPlusTreePage.internal a b mx ((k0, c0) :: rest))) :
    childOf f key pid = pick key c0 rest := by
  simp [childOf, hf]

/-- The outcome of `CrabingProtocalFetchPage` with `DELETE`: the page fetched enters the
page set, which keeps its former pages unless the page fetched passes `IsSafe`. -/
theorem CrabingProtocalFetchPage_delete (t : BPlusTree K V) (page_id previous : Int)
    (x : Transaction) (p : BPlusTreePage K V) (hp : FetchPage t page_id = some p)
    (hd : x.deleted_page_set = []) :
    ∃ x1, CrabingProtocalFetchPage t page_id OpType.DELETE previous (some x)
        = some (t, some x1) ∧
      x1.deleted_page_set = [] ∧ page_id ∈ x1.page_set ∧
      ((∀ q ∈ x.page_set, q ∈ x1.page_set) ∨ p.IsSafe OpType.DELETE = some true) := by
  unfold CrabingProtocalFetchPage
  have hp1 : t.buffer_pool_manager.FetchPage page_id = some p := hp
  simp only [hp1, Option.bind_eq_bind, Option.some_bind]
  obtain ⟨b, hb⟩ := IsSafe_some p OpType.DELETE (by simp)
  by_cases hprev : previous > 0
  · cases b with
    | true =>
      refine ⟨{ page_set := [page_id], deleted_page_set := [] }, ?_, rfl, by simp, Or.inr hb⟩
      simp [hprev, hb, FreePagesInTransaction_some t _ x previous hd, emptyTxn,
        Transaction.AddIntoPageSet]
    | false =>
      refine ⟨x.AddIntoPageSet page_id, ?_, hd, by simp [Transaction.AddIntoPageSet],
        Or.inl (fun q hq => by simp [Transaction.AddIntoPageSet, hq])⟩
      simp [hprev, hb]
  · refine ⟨x.AddIntoPageSet page_id, ?_, hd, by simp [Transaction.AddIntoPageSet],
      Or.inl (fun q hq => by simp [Transaction.AddIntoPageSet, hq])⟩
    simp [hprev]

/-- The descent with `DELETE` from a page that satisfies the invariant: the leaf reached,
no page changed, and the page set of the transaction covers the way. -/
theorem findLeafLoop_cover (t : BPlusTree K V) (key : K) (lm im : Nat) :
    ∀ (h m x0 : Nat) (pid par : Int) (lo hi : Bound K) (x : Transaction) (fuel : Nat),
      WF (FetchPage t) lm im m x0 h pid par lo hi → (h = 0 ∨ 2 ≤ m) →
      x.deleted_page_set = [] → pid ∈ x.page_set → h + 1 ≤ fuel →
      ∃ x1, findLeafLoop key false OpType.DELETE fuel t (some x) pid
          = some (leafOf (FetchPage t) key h pid, t, some x1) ∧
        x1.deleted_page_set = [] ∧ Cover (FetchPage t) key x1.page_set h pid ∧
        ((∀ q ∈ x.page_set, q ∈ x1.page_set) ∨ SafeUnder (FetchPage t) key h pid) := by
  intro h
  induction h with
  | zero =>
    intro m x0 pid par lo hi x fuel hw _ hd hmem hfuel
    obtain ⟨fuel, rfl⟩ : ∃ n, fuel = n + 1 := ⟨fuel - 1, by omega⟩
    obtain ⟨array, hf, _⟩ := hw
    exact ⟨x, by simp [findLeafLoop, hf, leafOf], hd, hmem, Or.inl (fun q hq => hq)⟩
  | succ h ih =>
    intro m x0 pid par lo hi x fuel hw hm hd hmem hfuel
    obtain ⟨fuel, rfl⟩ : ∃ n, fuel = n + 1 := ⟨fuel - 1, by omega⟩
    have hw0 := hw
    obtain ⟨array, hf, hm1, hlen, _, _, _, _, hseg⟩ := hw
    cases array with
    | nil => simp at hlen
    | cons e rest =>
      obtain ⟨k0, c0⟩ := e
      have hne : rest ≠ [] := by
        rintro rfl
        simp at hm1
        omega
      have hsorted := slots_sorted (fun c l u hc => WF.lt hc) hseg
      have hlk := BPlusTreeInternalPage.Lookup_eq_pick k0 c0 rest key hne hsorted
      have hmemc : pick key c0 rest ∈ kidsOf (FetchPage t) pid := by
        rw [kidsOf_internal hf]
        exact pick_mem key rest c0
      obtain ⟨l, u, hwc⟩ := hw0.child hmemc
      obtain ⟨p, hp, _⟩ := hwc.fetch
      obtain ⟨x1, hcr, hd1, hmem1, hsub1⟩ := CrabingProtocalFetchPage_delete t
        (pick key c0 rest) pid x p hp hd
      have hmin : h = 0 ∨ 2 ≤ minNonRoot lm im h := by
        cases h with
        | zero => exact Or.inl rfl
        | succ h => exact Or.inr (by simp [minNonRoot])
      obtain ⟨x2, hloop, hd2, hcov, hsub2⟩ := ih _ _ _ pid l u x1 fuel hwc hmin hd1 hmem1
        (by omega)
      have hch : childOf (FetchPage t) key pid = pick key c0 rest := childOf_internal hf
      have hkey : (∀ q ∈ x.page_set, q ∈ x2.page_set) ∨
          SafeUnder (FetchPage t) key (h + 1) pid := by
        rcases hsub1 with hs1 | hs1
        · rcases hsub2 with hs2 | hs2
          · exact Or.inl (fun q hq => hs2 q (hs1 q hq))
          · refine Or.inr ?_
            show SafeAt _ _ ∨ SafeUnder _ _ _ _
            rw [hch]
            exact Or.inr hs2
        · refine Or.inr ?_
          show SafeAt _ _ ∨ SafeUnder _ _ _ _
          rw [hch]
          exact Or.inl ⟨p, hp, hs1⟩
      refine ⟨x2, ?_, hd2, ?_, hkey⟩
      · simp only [findLeafLoop, hf, Option.bind_eq_bind, Option.some_bind, hlk, hcr,
          Bool.false_eq_true, if_false, leafOf_succ hf]
        exact hloop
      · show Cover _ _ _ _ _ ∧ _
        rw [hch]
        refine ⟨hcov, ?_⟩
        rcases hkey with hk | hk
        · exact Or.inl (hk pid hmem)
        · exact Or.inr hk

/-- The call `FindLeafPage` with `DELETE` on a tree that satisfies the invariant. -/
theorem FindLeafPage_delete {t : BPlusTree K V} {lm im h : Nat} (key : K)
    (x : Transaction) (hroot : t.root_page_id ≠ INVALID_PAGE_ID)
    (hw : WF (FetchPage t) lm im (minRoot h) 0 h t.root_page_id INVALID_PAGE_ID ⊥ ⊤)
    (hd : x.deleted_page_set = []) (fuel : Nat) (hfuel : h + 1 ≤ fuel) :
    ∃ x1, FindLeafPage fuel t key false OpType.DELETE (some x)
        = some (some (leafOf (FetchPage t) key h t.root_page_id), t, some x1) ∧
      x1.deleted_page_set = [] ∧ Cover (FetchPage t) key x1.page_set h t.root_page_id := by
  obtain ⟨p, hp, _⟩ := hw.fetch
  obtain ⟨x1, hcr, hd1, hmem1, _⟩ := CrabingProtocalFetchPage_delete t t.root_page_id (-1) x
    p hp hd
  have hmin : h = 0 ∨ 2 ≤ minRoot h := by
    cases h with
    | zero => exact Or.inl rfl
    | succ h => exact Or.inr (by simp [minRoot])
  obtain ⟨x2, hloop, hd2, hcov, _⟩ := findLeafLoop_cover t key lm im h _ _ _ _ _ _ x1 fuel hw
    hmin hd1 hmem1 hfuel
  refine ⟨x2, ?_, hd2, hcov⟩
  simp [FindLeafPage, IsEmpty, hroot, hcr, hloop]

end BPlusTree

/-! ## B+ tree: auxiliary facts for `CoalesceOrRedistribute` -/

namespace BPlusTree

variable {K V : Type} [LinearOrder K] [Inhabited K]

theorem WF.size {f : Int → Option (BPlusTreePage K V)} {lm im m x h : Nat} {pid par : Int}
    {lo hi : Bound K} (hw : WF f lm im m x h pid par lo hi) (p : BPlusTreePage K V)
    (hp : f pid = some p) :
    m ≤ p.GetSize ∧ p.GetSize ≤ p.GetMaxSize + x ∧
      p.GetMaxSize = (if h = 0 then lm else im) ∧ p.GetParentPageId = par ∧
      p.GetPageId = pid ∧ (p.IsLeafPage = true ↔ h = 0) := by
  cases h with
  | zero =>
    obtain ⟨array, hf, h1, h2, _⟩ := hw
    rw [hf] at hp
    cases hp
    exact ⟨h1, h2, rfl, rfl, rfl, by simp [BPlusTreePage.IsLeafPage]⟩
  | succ h =>
    obtain ⟨array, hf, h1, _, h2, _⟩ := hw
    rw [hf] at hp
    cases hp
    exact ⟨h1, h2, rfl, rfl, rfl, by simp [BPlusTreePage.IsLeafPage]⟩

theorem GetMinSize_nonroot (p : BPlusTreePage K V) (h : p.GetParentPageId ≠ INVALID_PAGE_ID) :
    p.GetMinSize = p.GetMaxSize / 2 := by
  simp [BPlusTreePage.GetMinSize, BPlusTreePage.IsRootPage, h]

theorem lbAt_nil (lo : Bound K) (kc : K) : lbAt lo [] kc = lo := rfl

theorem lbAt_concat (lo : Bound K) (A : List (K × Int)) (e : K × Int) (kc : K) :
    lbAt lo (A ++ [e]) kc = bnd kc := by
  cases A <;> rfl

theorem page_set_AddIntoDeletedPageSet (x : Transaction) (r : Int) :
    (x.AddIntoDeletedPageSet r).page_set = x.page_set := by
  unfold Transaction.AddIntoDeletedPageSet
  split <;> rfl

theorem mem_AddIntoDeletedPageSet (x : Transaction) (r q : Int) :
    q ∈ (x.AddIntoDeletedPageSet r).deleted_page_set ↔ q ∈ x.deleted_page_set ∨ q = r := by
  unfold Transaction.AddIntoDeletedPageSet
  split
  · rename_i hr
    constructor
    · exact Or.inl
    · rintro (h | rfl)
      · exact h
      · exact hr
  · simp

theorem nodup_AddIntoDeletedPageSet (x : Transaction) (r : Int)
    (h : x.deleted_page_set.Nodup) : (x.AddIntoDeletedPageSet r).deleted_page_set.Nodup := by
  unfold Transaction.AddIntoDeletedPageSet
  split
  · exact h
  · rename_i hr
    show (x.deleted_page_set ++ [r]).Nodup
    rw [List.nodup_append]
    exact ⟨h, by simp, by
      intro a ha hb
      simp only [List.mem_singleton] at hb
      exact hr (hb ▸ ha)⟩

/-- The pairs of the subtrees beside the child that the descent for `key` selects have
other keys. -/
theorem Holds.sibling_ne {f : Int → Option (BPlusTreePage K V)} {lm im m x h : Nat}
    {pid par : Int} {lo hi : Bound K} {A B : List (K × Int)} {kc : K} {c : Int} {key : K}
    (hw : WF f lm im m x (h + 1) pid par lo hi)
    (hf : f pid = some (BPlusTreePage.internal pid par im (A ++ (kc, c) :: B)))
    (hl : lbAt lo A kc ≤ bnd key) (hu : bnd key < ub (B.map (fun e => (bnd e.1, e.2))) hi)
    {dd : Int} (hdd : dd ∈ A.map Prod.snd ++ B.map Prod.snd) {k : K} {v : V}
    (hh : Holds f h dd k v) : k ≠ key := by
  obtain ⟨array, hf1, _, _, _, _, _, _, hseg⟩ := hw
  rw [hf] at hf1
  cases hf1
  rw [slots_append_cons, Seg_append] at hseg
  obtain ⟨hsA, hwc, hsB⟩ := hseg
  simp only [ub_cons] at hsA
  rintro rfl
  rcases List.mem_append.mp hdd with hd | hd
  · rw [← slots_map_snd lo] at hd
    obtain ⟨⟨l, c1⟩, hmem1, rfl⟩ := List.mem_map.mp hd
    obtain ⟨u, hwc1, hu2, _⟩ := hsA.range (fun c l u hc => WF.lt hc) hmem1
    obtain ⟨_, hk2⟩ := Holds.bounds _ _ _ _ _ _ _ _ _ hwc1 hh
    exact absurd (lt_of_lt_of_le hk2 (le_trans hu2 hl)) (lt_irrefl _)
  · have hd1 : dd ∈ (B.map (fun e => (bnd e.1, e.2))).map Prod.snd := by
      simpa [Function.comp_def] using hd
    obtain ⟨⟨l, c1⟩, hmem1, rfl⟩ := List.mem_map.mp hd1
    obtain ⟨u, hwc1, _, hl2⟩ := hsB.range (fun c l u hc => WF.lt hc) hmem1
    obtain ⟨hk1, _⟩ := Holds.bounds _ _ _ _ _ _ _ _ _ hwc1 hh
    exact absurd (lt_of_lt_of_le hu (le_trans hl2 hk1)) (lt_irrefl _)

/-- The pairs of a page are those of the former state if the children beside a run of
children are as before and the run holds the same pairs. -/
theorem Holds.holds_mid_congr {f g : Int → Option (BPlusTreePage K V)} {h : Nat}
    {pid a b a1 b1 : Int} {mx mx1 : Nat} {A B M N : List (K × Int)} {kc : K} {c : Int}
    (hf : f pid = some (BPlusTreePage.internal a b mx (A ++ (kc, c) :: (M ++ B))))
    (hg : g pid = some (BPlusTreePage.internal a1 b1 mx1 (A ++ (kc, c) :: (N ++ B))))
    (hsib : ∀ dd ∈ A.map Prod.snd ++ B.map Prod.snd, ∀ q, Under f h dd q → g q = f q)
    (k : K) (v : V)
    (hmid : (∃ dd ∈ c :: N.map Prod.snd, Holds g h dd k v) ↔
      (∃ dd ∈ c :: M.map Prod.snd, Holds f h dd k v)) :
    Holds g (h + 1) pid k v ↔ Holds f (h + 1) pid k v := by
  rw [Holds_mid_iff hf, Holds_mid_iff hg, hmid]
  have : (∃ dd ∈ A.map Prod.snd ++ B.map Prod.snd, Holds g h dd k v) ↔
      (∃ dd ∈ A.map Prod.snd ++ B.map Prod.snd, Holds f h dd k v) := by
    constructor
    · rintro ⟨dd, hdd, hh⟩
      exact ⟨dd, hdd, (Holds.holds_congr h dd (hsib dd hdd) k v).mp hh⟩
    · rintro ⟨dd, hdd, hh⟩
      exact ⟨dd, hdd, (Holds.holds_congr h dd (hsib dd hdd) k v).mpr hh⟩
  rw [this]

/-- The pages of a page are among those of the former state if the children beside a run
of children are as before and the pages of the run are among the former ones. -/
theorem Under.under_mid_congr {f g : Int → Option (BPlusTreePage K V)} {h : Nat}
    {pid a b a1 b1 : Int} {mx mx1 : Nat} {A B M N : List (K × Int)} {kc : K} {c : Int}
    (hf : f pid = some (BPlusTreePage.internal a b mx (A ++ (kc, c) :: (M ++ B))))
    (hg : g pid = some (BPlusTreePage.internal a1 b1 mx1 (A ++ (kc, c) :: (N ++ B))))
    (hsib : ∀ dd ∈ A.map Prod.snd ++ B.map Prod.snd, ∀ q, Under f h dd q → g q = f q)
    (q : Int)
    (hmid : (∃ dd ∈ c :: N.map Prod.snd, Under g h dd q) →
      (∃ dd ∈ c :: M.map Prod.snd, Under f h dd q))
    (hq : Under g (h + 1) pid q) : Under f (h + 1) pid q := by
  rw [Under_mid_iff hf]
  rw [Under_mid_iff hg] at hq
  rcases hq with hq | ⟨dd, hdd, hh⟩ | hq
  · exact Or.inl hq
  · exact Or.inr (Or.inl ⟨dd, hdd, (Under.under_congr h dd (hsib dd hdd) q).mp hh⟩)
  · exact Or.inr (Or.inr (hmid hq))

theorem fixUp_first (fuel : Nat) (t : BPlusTree K V) (c d pid a b : Int)
    (mx : Nat) (kc kd : K) (B : List (K × Int)) (pc pd : BPlusTreePage K V) (x : Transaction)
    (hc : FetchPage t c = some pc) (hcid : pc.GetPageId = c) (hcpar : pc.GetParentPageId = pid)
    (hpid : pid ≠ INVALID_PAGE_ID)
    (hd : FetchPage t d = some pd) (hdid : pd.GetPageId = d)
    (hp : FetchPage t pid = some (BPlusTreePage.internal a b mx ((kc, c) :: (kd, d) :: B)))
    (hcd : c ≠ d) :
    fixUp (fuel + 1) t c (some x) =
      if pc.GetSize + pd.GetSize ≤ pc.GetMaxSize then
        (Coalesce (CoalesceOrRedistribute fuel) t c d pid 1 (some (x.AddIntoPageSet d))).map
          (fun r => r.2)
      else (Redistribute t d c 0).map (fun t2 => (t2, some (x.AddIntoPageSet d))) := by
  rw [fixUp, CoalesceOrRedistribute_first fuel t c d pid a b mx kc kd B pc pd x hc hcid hcpar
    hpid hd hdid hp hcd]
  split
  · cases Coalesce (CoalesceOrRedistribute fuel) t c d pid 1 (some (x.AddIntoPageSet d)) <;> rfl
  · cases Redistribute t d c 0 <;> rfl

theorem fixUp_later (fuel : Nat) (t : BPlusTree K V) (c d pid a b : Int)
    (mx : Nat) (kc kd : K) (A B : List (K × Int)) (pc pd : BPlusTreePage K V)
    (x : Transaction)
    (hc : FetchPage t c = some pc) (hcid : pc.GetPageId = c) (hcpar : pc.GetParentPageId = pid)
    (hpid : pid ≠ INVALID_PAGE_ID)
    (hd : FetchPage t d = some pd)
    (hp : FetchPage t pid
      = some (BPlusTreePage.internal a b mx (A ++ (kd, d) :: (kc, c) :: B)))
    (hcA : c ∉ A.map Prod.snd) (hcd : c ≠ d) :
    fixUp (fuel + 1) t c (some x) =
      if pc.GetSize + pd.GetSize ≤ pc.GetMaxSize then
        (Coalesce (CoalesceOrRedistribute fuel) t d c pid (A.length + 1)
          (some (x.AddIntoPageSet d))).map (fun r => r.2)
      else (Redistribute t d c (A.length + 1)).map
        (fun t2 => (t2, some (x.AddIntoPageSet d))) := by
  rw [fixUp, CoalesceOrRedistribute_later fuel t c d pid a b mx kc kd A B pc pd x hc hcid hcpar
    hpid hd hp hcA hcd]
  split
  · cases Coalesce (CoalesceOrRedistribute fuel) t d c pid (A.length + 1)
      (some (x.AddIntoPageSet d)) <;> rfl
  · cases Redistribute t d c (A.length + 1) <;> rfl

end BPlusTree

/-! ## B+ tree: `CoalesceOrRedistribute` on a child that is below its minimum -/

namespace BPlusTree

variable {K V : Type} [LinearOrder K] [Inhabited K]

/-- The call `CoalesceOrRedistribute` on the first child `c` of the page `pid`, the
subtree of `c` satisfying the invariant but for one pair missing in `c`: the subtree of
`pid` satisfies the invariant afterwards, but for one pair that may miss in `pid`, and
holds the same pairs. -/
theorem sink_step_first {lm im h m : Nat} (hlm : 2 ≤ lm) (him : 3 ≤ im)
    {t t1 : BPlusTree K V} (hp1 : PoolOk lm im t1) {pid par c d : Int} {kc kd : K}
    {B : List (K × Int)} {lo hi : Bound K}
    (hw : WF (FetchPage t) lm im m 0 (h + 1) pid par lo hi)
    (hmG : ∀ p, FetchPage t pid = some p → m ≤ p.GetMinSize + 1)
    (hf : FetchPage t pid = some (BPlusTreePage.internal pid par im ((kc, c) :: (kd, d) :: B)))
    (hpid : pid ≠ INVALID_PAGE_ID)
    (hwc1 : WF (FetchPage t1) lm im (minNonRoot lm im h - 1) 0 h c pid lo (bnd kd))
    (hunder : ∀ p, FetchPage t1 c = some p →
      if h = 0 then p.GetSize < p.GetMinSize else p.GetSize ≤ p.GetMinSize)
    (hU : ∀ q, Under (FetchPage t1) h c q → Under (FetchPage t) h c q)
    (hF : ∀ q, ¬ Under (FetchPage t) h c q → FetchPage t1 q = FetchPage t q)
    (x1 : Transaction) (hnd : x1.deleted_page_set.Nodup) :
    ∃ t2 x2, PoolOk lm im t2 ∧ t2.root_page_id = t1.root_page_id ∧
      t2.buffer_pool_manager.next_page_id = t1.buffer_pool_manager.next_page_id ∧
      (∀ k v, Holds (FetchPage t2) (h + 1) pid k v ↔ Holds (FetchPage t1) (h + 1) pid k v) ∧
      (∀ q, Under (FetchPage t2) (h + 1) pid q → Under (FetchPage t1) (h + 1) pid q) ∧
      (∀ q, ¬ Under (FetchPage t1) (h + 1) pid q → FetchPage t2 q = FetchPage t1 q) ∧
      (∀ q ∈ x1.page_set, q ∈ x2.page_set) ∧ x2.deleted_page_set.Nodup ∧
      (∀ q ∈ x2.deleted_page_set, q ∈ x1.deleted_page_set ∨
        (q ∈ c :: x2.page_set ∧ q ∈ kidsOf (FetchPage t) pid ∧
          ¬ Under (FetchPage t2) (h + 1) pid q)) ∧
      ((WF (FetchPage t2) lm im m 0 (h + 1) pid par lo hi ∧
          ∀ fuel, fixUp (fuel + 1) t1 c (some x1) = some (t2, some x2)) ∨
        (WF (FetchPage t2) lm im (m - 1) 0 (h + 1) pid par lo hi ∧
          (∀ p, FetchPage t2 pid = some p → p.GetSize ≤ p.GetMinSize) ∧
          ¬ SafeAt (FetchPage t) pid ∧
          ∀ fuel, fixUp (fuel + 1) t1 c (some x1) = fixUp fuel t2 pid (some x2))) := by
  have hfm : FetchPage t pid = some (BPlusTreePage.internal pid par im
      ([] ++ (kc, c) :: ([(kd, d)] ++ B))) := hf
  have hmid := hw.mid hfm
  simp only [List.map_cons, List.map_nil, Seg_cons, Seg_nil, ub_cons, ub_nil, lbAt_nil,
    and_true] at hmid
  obtain ⟨hwc, hwd⟩ := hmid
  have hkids : kidsOf (FetchPage t) pid = c :: d :: B.map Prod.snd := kidsOf_internal hf
  have hck : c ∈ kidsOf (FetchPage t) pid := by rw [hkids]; simp
  have hdk : d ∈ kidsOf (FetchPage t) pid := by rw [hkids]; simp
  have hnodup : (c :: d :: B.map Prod.snd).Nodup := by
    obtain ⟨array, hf1, _, _, _, _, _, hn, _⟩ := id hw
    rw [hf] at hf1
    cases hf1
    simpa using hn
  have hcd : c ≠ d := by
    intro e
    simp only [List.nodup_cons, List.mem_cons, not_or] at hnodup
    exact hnodup.1.1 e
  have hpidc : ¬ Under (FetchPage t) h c pid := hw.not_under_child hck
  have hpidd : ¬ Under (FetchPage t) h d pid := hw.not_under_child hdk
  have hdisj : ∀ q, Under (FetchPage t) h d q → ¬ Under (FetchPage t) h c q :=
    fun q => WF.disjoint h _ _ _ _ d c pid pid _ _ _ _ q hwd hwc (fun e => hcd e.symm)
  have hf1pid : FetchPage t1 pid
      = some (BPlusTreePage.internal pid par im ((kc, c) :: (kd, d) :: B)) := by
    rw [hF pid hpidc, hf]
  have hagd : ∀ q, Under (FetchPage t) h d q → FetchPage t1 q = FetchPage t q :=
    fun q hq => hF q (hdisj q hq)
  have hwd1 : WF (FetchPage t1) lm im (minNonRoot lm im h) 0 h d pid (bnd kd)
      (ub (B.map (fun e => (bnd e.1, e.2))) hi) := WF.congr h _ _ _ _ _ _ hagd hwd
  have hpc1 : ¬ Under (FetchPage t1) h c pid := fun hu => hpidc (hU _ hu)
  have hpd1 : ¬ Under (FetchPage t1) h d pid :=
    fun hu => hpidd ((Under.under_congr h d hagd pid).mp hu)
  have hkids1 : kidsOf (FetchPage t1) pid = c :: d :: B.map Prod.snd := kidsOf_internal hf1pid
  -- the other children
  have hsibB : ∀ dd ∈ B.map Prod.snd, ∀ q, Under (FetchPage t) h dd q →
      FetchPage t1 q = FetchPage t q ∧ q ≠ pid ∧ ¬ Under (FetchPage t1) h c q ∧
        ¬ Under (FetchPage t1) h d q := by
    intro dd hdd q hq
    have hddk : dd ∈ kidsOf (FetchPage t) pid := by
      rw [hkids]; exact List.mem_cons_of_mem _ (List.mem_cons_of_mem _ hdd)
    obtain ⟨l, u, hwdd⟩ := hw.child hddk
    have hne1 : dd ≠ c := by
      rintro rfl
      simp only [List.nodup_cons, List.mem_cons, not_or] at hnodup
      exact hnodup.1.2 hdd
    have hne2 : dd ≠ d := by
      rintro rfl
      simp only [List.nodup_cons, List.mem_cons, not_or] at hnodup
      exact hnodup.2.1 hdd
    have h1 : ¬ Under (FetchPage t) h c q :=
      WF.disjoint h _ _ _ _ dd c pid pid _ _ _ _ q hwdd hwc hne1 hq
    have h2 : ¬ Under (FetchPage t) h d q :=
      WF.disjoint h _ _ _ _ dd d pid pid _ _ _ _ q hwdd hwd hne2 hq
    exact ⟨hF q h1, fun e => hw.not_under_child hddk (e ▸ hq), fun hu => h1 (hU _ hu),
      fun hu => h2 ((Under.under_congr h d hagd q).mp hu)⟩
  have hsibB1 : ∀ dd ∈ B.map Prod.snd, ∀ q, Under (FetchPage t1) h dd q →
      Under (FetchPage t) h dd q :=
    fun dd hdd q hq => (Under.under_congr h dd (fun q hq => (hsibB dd hdd q hq).1) q).mp hq
  -- the sizes
  obtain ⟨pc, hpc, _⟩ := hwc1.fetch
  obtain ⟨pd, hpd, _⟩ := hwd1.fetch
  obtain ⟨hc1, hc2, hc3, hc4, hc5, _⟩ := hwc1.size pc hpc
  obtain ⟨hd1, hd2, hd3, hd4, hd5, _⟩ := hwd1.size pd hpd
  have hcmin : pc.GetMinSize = pc.GetMaxSize / 2 := GetMinSize_nonroot pc (hc4 ▸ hpid)
  have hcu := hunder pc hpc
  have hmin := minNonRoot_pos im hlm h
  have hfm1 : FetchPage t1 pid = some (BPlusTreePage.internal pid par im
      ([] ++ (kc, c) :: ([(kd, d)] ++ B))) := hf1pid
  by_cases hsz : pc.GetSize + pd.GetSize ≤ pc.GetMaxSize
  · -- the two pages are merged
    obtain ⟨t2, hco, hp2, hroot2, hnext2, hpar2, hw2, hholds2, hunder2, hframe2⟩ :=
      merge_spec hp1 (show FetchPage t1 pid = some (BPlusTreePage.internal pid par im
          ([(kc, c)] ++ (kd, d) :: B)) from hf1pid) hwc1 hwd1
        (fun e => hcd e.symm) hpc1 hpd1
        (fun pl pr hl hr => by
          rw [hpc] at hl; cases hl
          rw [hpd] at hr; cases hr
          rw [hd3, ← hc3]; omega)
        (by omega) (x1.AddIntoPageSet d)
    have hg2 : FetchPage t2 pid = some (BPlusTreePage.internal pid par im
        ([] ++ (kc, c) :: ([] ++ B))) := hpar2
    have hsib2 : ∀ dd ∈ ([] : List (K × Int)).map Prod.snd ++ B.map Prod.snd, ∀ q,
        Under (FetchPage t1) h dd q → FetchPage t2 q = FetchPage t1 q := by
      intro dd hdd q hq
      have hdd1 : dd ∈ B.map Prod.snd := by simpa using hdd
      obtain ⟨_, h2, h3, h4⟩ := hsibB dd hdd1 q (hsibB1 dd hdd1 q hq)
      exact hframe2 q h2 h3 h4
    have hsib : ∀ dd ∈ ([] : List (K × Int)).map Prod.snd ++ B.map Prod.snd, ∀ q,
        Under (FetchPage t) h dd q → FetchPage t2 q = FetchPage t q := by
      intro dd hdd q hq
      have hdd1 : dd ∈ B.map Prod.snd := by simpa using hdd
      obtain ⟨h1, h2, h3, h4⟩ := hsibB dd hdd1 q hq
      rw [hframe2 q h2 h3 h4, h1]
    have hnd2 : (([] ++ (kc, c) :: ([] ++ B) : List (K × Int)).map Prod.snd).Nodup := by
      simp only [List.nil_append, List.map_cons]
      simp only [List.nodup_cons, List.mem_cons, not_or] at hnodup ⊢
      exact ⟨hnodup.1.2, hnodup.2.2⟩
    have hHolds : ∀ k v, Holds (FetchPage t2) (h + 1) pid k v ↔
        Holds (FetchPage t1) (h + 1) pid k v := by
      intro k v
      refine Holds.holds_mid_congr hfm1 hg2 hsib2 k v ?_
      simp only [List.map_nil, List.map_cons, List.mem_singleton, List.mem_cons,
        exists_eq_left, exists_eq_or_imp, List.not_mem_nil, false_and, exists_false, or_false]
      exact hholds2 k v
    have hUnder : ∀ q, Under (FetchPage t2) (h + 1) pid q →
        Under (FetchPage t1) (h + 1) pid q := by
      intro q hq
      refine Under.under_mid_congr hfm1 hg2 hsib2 q ?_ hq
      simp only [List.map_nil, List.map_cons, List.mem_singleton, List.mem_cons,
        exists_eq_left, exists_eq_or_imp, List.not_mem_nil, false_and, exists_false, or_false]
      intro hq1
      exact (hunder2 q hq1).1
    have hFrame : ∀ q, ¬ Under (FetchPage t1) (h + 1) pid q →
        FetchPage t2 q = FetchPage t1 q := by
      intro q hq
      refine hframe2 q (fun e => hq (e ▸ Under.self _ _ _)) ?_ ?_
      · exact fun hu => hq (Under.of_child (by rw [hkids1]; simp) hu)
      · exact fun hu => hq (Under.of_child (by rw [hkids1]; simp) hu)
    have hdnot : ¬ Under (FetchPage t2) (h + 1) pid d := by
      rw [Under_mid_iff hg2]
      rintro (e | ⟨dd, hdd, hu⟩ | ⟨dd, hdd, hu⟩)
      · exact hpidd (e ▸ Under.self _ _ _)
      · have hdd1 : dd ∈ B.map Prod.snd := by simpa using hdd
        have hu1 := (Under.under_congr h dd (hsib dd hdd) d).mp hu
        exact (hsibB dd hdd1 d hu1).2.2.2 (Under.self _ _ _)
      · simp only [List.map_nil, List.mem_singleton] at hdd
        subst hdd
        exact (hunder2 d hu).2 rfl
    have hdeleted : ∀ q ∈ ((x1.AddIntoPageSet d).AddIntoDeletedPageSet d).deleted_page_set,
        q ∈ x1.deleted_page_set ∨
        (q ∈ c :: ((x1.AddIntoPageSet d).AddIntoDeletedPageSet d).page_set ∧
          q ∈ kidsOf (FetchPage t) pid ∧ ¬ Under (FetchPage t2) (h + 1) pid q) := by
      intro q hq
      rw [mem_AddIntoDeletedPageSet] at hq
      rcases hq with hq | rfl
      · exact Or.inl hq
      · refine Or.inr ⟨?_, hdk, hdnot⟩
        rw [page_set_AddIntoDeletedPageSet]
        simp [Transaction.AddIntoPageSet]
    have hrun : ∀ fuel, fixUp (fuel + 1) t1 c (some x1) =
        if ([(kc, c)] ++ B).length ≤ (BPlusTreePage.internal pid par im ([(kc, c)] ++ B)
            : BPlusTreePage K V).GetMinSize then
          fixUp fuel t2 pid (some ((x1.AddIntoPageSet d).AddIntoDeletedPageSet d))
        else some (t2, some ((x1.AddIntoPageSet d).AddIntoDeletedPageSet d)) := by
      intro fuel
      rw [fixUp_first fuel t1 c d pid pid par im kc kd B pc pd x1 hpc hc5 hc4 hpid hpd hd5
        hf1pid hcd, if_pos hsz]
      have := hco (CoalesceOrRedistribute fuel)
      simp only [List.length_singleton] at this
      rw [this]
      split <;> rfl
    have hsame : (BPlusTreePage.internal pid par im ([(kc, c)] ++ B)
        : BPlusTreePage K V).GetMinSize
        = (BPlusTreePage.internal pid par im ((kc, c) :: (kd, d) :: B)
          : BPlusTreePage K V).GetMinSize := rfl
    have hlen : m ≤ B.length + 2 := by
      obtain ⟨array, hf1, hm1, _⟩ := id hw
      rw [hf] at hf1
      cases hf1
      simpa using hm1
    have hlen2 : B.length + 2 ≤ im := by
      obtain ⟨array, hf1, _, _, hm2, _⟩ := id hw
      rw [hf] at hf1
      cases hf1
      simpa using hm2
    refine ⟨t2, (x1.AddIntoPageSet d).AddIntoDeletedPageSet d, hp2, hroot2, hnext2, hHolds,
      hUnder, hFrame, ?_, nodup_AddIntoDeletedPageSet _ _ hnd, hdeleted, ?_⟩
    · intro q hq
      rw [page_set_AddIntoDeletedPageSet]
      simp [Transaction.AddIntoPageSet, hq]
    · by_cases hcond : ([(kc, c)] ++ B).length ≤ (BPlusTreePage.internal pid par im
          ([(kc, c)] ++ B) : BPlusTreePage K V).GetMinSize
      · right
        refine ⟨?_, ?_, ?_, ?_⟩
        · refine WF.replace_mid hw hfm hg2 ?_ ?_ hsib hnd2 ?_
          · simp only [List.nil_append, List.length_cons]; omega
          · simp only [List.nil_append, List.length_cons]; omega
          · simp only [List.map_nil, Seg_cons, Seg_nil, ub_nil, lbAt_nil, and_true]
            exact hw2
        · intro p hp
          rw [hpar2] at hp
          cases hp
          exact hcond
        · rintro ⟨p, hp, hsafe⟩
          rw [hf] at hp
          cases hp
          rw [hsame] at hcond
          simp only [BPlusTreePage.IsSafe, BPlusTreePage.IsLeafPage, Bool.false_eq_true,
            if_false, Option.some.injEq, decide_eq_true_eq, BPlusTreePage.GetSize,
            List.length_cons] at hsafe
          simp only [List.length_append, List.length_cons, List.length_nil] at hcond
          omega
        · intro fuel
          rw [hrun fuel, if_pos hcond]
      · left
        refine ⟨?_, ?_⟩
        · refine WF.replace_mid hw hfm hg2 ?_ ?_ hsib hnd2 ?_
          · have := hmG _ hf
            rw [← hsame] at this
            simp only [List.length_append, List.length_cons, List.length_nil] at hcond
            simp only [List.nil_append, List.length_cons]
            omega
          · simp only [List.nil_append, List.length_cons]; omega
          · simp only [List.map_nil, Seg_cons, Seg_nil, ub_nil, lbAt_nil, and_true]
            exact hw2
        · intro fuel
          rw [hrun fuel, if_neg hcond]
  · -- a pair moves from the sibling
    have hszc : ∀ p, FetchPage t1 c = some p →
        p.GetSize + 1 ≤ p.GetMaxSize ∧ minNonRoot lm im h ≤ p.GetSize + 1 := by
      intro p hp
      rw [hpc] at hp
      cases hp
      refine ⟨?_, by omega⟩
      rw [hcmin] at hcu
      by_cases hh : h = 0
      · simp only [hh, if_true] at hcu hc3
        omega
      · simp only [hh, if_false] at hcu hc3
        omega
    have hszd : ∀ p, FetchPage t1 d = some p → minNonRoot lm im h + 1 ≤ p.GetSize := by
      intro p hp
      rw [hpd] at hp
      cases hp
      rw [hcmin] at hcu
      cases h with
      | zero =>
        simp only [if_true] at hcu hc3 hd3
        simp only [minNonRoot]
        omega
      | succ h =>
        simp only [Nat.add_one_ne_zero, if_false] at hcu hc3 hd3
        simp only [minNonRoot]
        omega
    obtain ⟨t2, kd1, hred, hp2, hroot2, hnext2, hpar2, hw2c, hw2d, hholds2, hunder2, hframe2⟩ :=
      borrow_first_spec hlm hp1 hf1pid hwc1 hwd1 hcd hpc1 hpd1 hszc hszd
    have hg2 : FetchPage t2 pid = some (BPlusTreePage.internal pid par im
        ([] ++ (kc, c) :: ([(kd1, d)] ++ B))) := hpar2
    have hsib2 : ∀ dd ∈ ([] : List (K × Int)).map Prod.snd ++ B.map Prod.snd, ∀ q,
        Under (FetchPage t1) h dd q → FetchPage t2 q = FetchPage t1 q := by
      intro dd hdd q hq
      have hdd1 : dd ∈ B.map Prod.snd := by simpa using hdd
      obtain ⟨_, h2, h3, h4⟩ := hsibB dd hdd1 q (hsibB1 dd hdd1 q hq)
      exact hframe2 q h2 h3 h4
    have hsib : ∀ dd ∈ ([] : List (K × Int)).map Prod.snd ++ B.map Prod.snd, ∀ q,
        Under (FetchPage t) h dd q → FetchPage t2 q = FetchPage t q := by
      intro dd hdd q hq
      have hdd1 : dd ∈ B.map Prod.snd := by simpa using hdd
      obtain ⟨h1, h2, h3, h4⟩ := hsibB dd hdd1 q hq
      rw [hframe2 q h2 h3 h4, h1]
    have hnd2 : (([] ++ (kc, c) :: ([(kd1, d)] ++ B) : List (K × Int)).map Prod.snd).Nodup := by
      simpa using hnodup
    have hHolds : ∀ k v, Holds (FetchPage t2) (h + 1) pid k v ↔
        Holds (FetchPage t1) (h + 1) pid k v := by
      intro k v
      refine Holds.holds_mid_congr hfm1 hg2 hsib2 k v ?_
      simp only [List.map_nil, List.map_cons, List.mem_singleton, List.mem_cons,
        exists_eq_left, exists_eq_or_imp, List.not_mem_nil, false_and, exists_false, or_false]
      exact hholds2 k v
    have hUnder : ∀ q, Under (FetchPage t2) (h + 1) pid q →
        Under (FetchPage t1) (h + 1) pid q := by
      intro q hq
      refine Under.under_mid_congr hfm1 hg2 hsib2 q ?_ hq
      simp only [List.map_nil, List.map_cons, List.mem_singleton, List.mem_cons,
        exists_eq_left, exists_eq_or_imp, List.not_mem_nil, false_and, exists_false, or_false]
      exact hunder2 q
    have hFrame : ∀ q, ¬ Under (FetchPage t1) (h + 1) pid q →
        FetchPage t2 q = FetchPage t1 q := by
      intro q hq
      refine hframe2 q (fun e => hq (e ▸ Under.self _ _ _)) ?_ ?_
      · exact fun hu => hq (Under.of_child (by rw [hkids1]; simp) hu)
      · exact fun hu => hq (Under.of_child (by rw [hkids1]; simp) hu)
    refine ⟨t2, x1.AddIntoPageSet d, hp2, hroot2, hnext2, hHolds, hUnder, hFrame, ?_, hnd,
      fun q hq => Or.inl hq, Or.inl ⟨?_, ?_⟩⟩
    · intro q hq
      simp [Transaction.AddIntoPageSet, hq]
    · obtain ⟨array, hf1, hm1, _, hm2, _⟩ := id hw
      rw [hf] at hf1
      cases hf1
      refine WF.replace_mid hw hfm hg2 ?_ ?_ hsib hnd2 ?_
      · simpa using hm1
      · simpa using hm2
      · simp only [List.map_nil, List.map_cons, Seg_cons, Seg_nil, ub_cons, ub_nil, lbAt_nil,
          and_true]
        exact ⟨hw2c, hw2d⟩
    · intro fuel
      rw [fixUp_first fuel t1 c d pid pid par im kc kd B pc pd x1 hpc hc5 hc4 hpid hpd hd5
        hf1pid hcd, if_neg hsz, hred]
      rfl

/-- The call `CoalesceOrRedistribute` on a child `c` of the page `pid` that has the left
sibling `d`, the subtree of `c` satisfying the invariant but for one pair missing in
`c`: the subtree of `pid` satisfies the invariant afterwards, but for one pair that may
miss in `pid`, and holds the same pairs. -/
theorem sink_step_later {lm im h m : Nat} (hlm : 2 ≤ lm) (him : 3 ≤ im)
    {t t1 : BPlusTree K V} (hp1 : PoolOk lm im t1) {pid par c d : Int} {kc kd : K}
    {A B : List (K × Int)} {lo hi : Bound K}
    (hw : WF (FetchPage t) lm im m 0 (h + 1) pid par lo hi)
    (hmG : ∀ p, FetchPage t pid = some p → m ≤ p.GetMinSize + 1)
    (hf : FetchPage t pid
      = some (BPlusTreePage.internal pid par im (A ++ (kd, d) :: (kc, c) :: B)))
    (hpid : pid ≠ INVALID_PAGE_ID)
    (hwc1 : WF (FetchPage t1) lm im (minNonRoot lm im h - 1) 0 h c pid (bnd kc)
      (ub (B.map (fun e => (bnd e.1, e.2))) hi))
    (hunder : ∀ p, FetchPage t1 c = some p →
      if h = 0 then p.GetSize < p.GetMinSize else p.GetSize ≤ p.GetMinSize)
    (hU : ∀ q, Under (FetchPage t1) h c q → Under (FetchPage t) h c q)
    (hF : ∀ q, ¬ Under (FetchPage t) h c q → FetchPage t1 q = FetchPage t q)
    (x1 : Transaction) (hnd : x1.deleted_page_set.Nodup) :
    ∃ t2 x2, PoolOk lm im t2 ∧ t2.root_page_id = t1.root_page_id ∧
      t2.buffer_pool_manager.next_page_id = t1.buffer_pool_manager.next_page_id ∧
      (∀ k v, Holds (FetchPage t2) (h + 1) pid k v ↔ Holds (FetchPage t1) (h + 1) pid k v) ∧
      (∀ q, Under (FetchPage t2) (h + 1) pid q → Under (FetchPage t1) (h + 1) pid q) ∧
      (∀ q, ¬ Under (FetchPage t1) (h + 1) pid q → FetchPage t2 q = FetchPage t1 q) ∧
      (∀ q ∈ x1.page_set, q ∈ x2.page_set) ∧ x2.deleted_page_set.Nodup ∧
      (∀ q ∈ x2.deleted_page_set, q ∈ x1.deleted_page_set ∨
        (q ∈ c :: x2.page_set ∧ q ∈ kidsOf (FetchPage t) pid ∧
          ¬ Under (FetchPage t2) (h + 1) pid q)) ∧
      ((WF (FetchPage t2) lm im m 0 (h + 1) pid par lo hi ∧
          ∀ fuel, fixUp (fuel + 1) t1 c (some x1) = some (t2, some x2)) ∨
        (WF (FetchPage t2) lm im (m - 1) 0 (h + 1) pid par lo hi ∧
          (∀ p, FetchPage t2 pid = some p → p.GetSize ≤ p.GetMinSize) ∧
          ¬ SafeAt (FetchPage t) pid ∧
          ∀ fuel, fixUp (fuel + 1) t1 c (some x1) = fixUp fuel t2 pid (some x2))) := by
  have hfm : FetchPage t pid = some (BPlusTreePage.internal pid par im
      (A ++ (kd, d) :: ([(kc, c)] ++ B))) := hf
  have hmid := hw.mid hfm
  simp only [List.map_cons, List.map_nil, Seg_cons, Seg_nil, ub_cons, ub_nil, and_true] at hmid
  obtain ⟨hwd, hwc⟩ := hmid
  have hkids : kidsOf (FetchPage t) pid = A.map Prod.snd ++ d :: c :: B.map Prod.snd := by
    rw [kidsOf_internal hf]; simp
  have hck : c ∈ kidsOf (FetchPage t) pid := by rw [hkids]; simp
  have hdk : d ∈ kidsOf (FetchPage t) pid := by rw [hkids]; simp
  have hnodup : (A.map Prod.snd ++ d :: c :: B.map Prod.snd).Nodup := by
    obtain ⟨array, hf1, _, _, _, _, _, hn, _⟩ := id hw
    rw [hf] at hf1
    cases hf1
    simpa using hn
  obtain ⟨hndA, hndB, hndAB⟩ := List.nodup_append.mp hnodup
  simp only [List.nodup_cons, List.mem_cons, not_or] at hndB
  have hcd : c ≠ d := fun e => hndB.1.1 e.symm
  have hcA : c ∉ A.map Prod.snd := fun hc => hndAB hc (by simp)
  have hpidc : ¬ Under (FetchPage t) h c pid := hw.not_under_child hck
  have hpidd : ¬ Under (FetchPage t) h d pid := hw.not_under_child hdk
  have hdisj : ∀ q, Under (FetchPage t) h d q → ¬ Under (FetchPage t) h c q :=
    fun q => WF.disjoint h _ _ _ _ d c pid pid _ _ _ _ q hwd hwc (fun e => hcd e.symm)
  have hf1pid : FetchPage t1 pid
      = some (BPlusTreePage.internal pid par im (A ++ (kd, d) :: (kc, c) :: B)) := by
    rw [hF pid hpidc, hf]
  have hagd : ∀ q, Under (FetchPage t) h d q → FetchPage t1 q = FetchPage t q :=
    fun q hq => hF q (hdisj q hq)
  have hwd1 : WF (FetchPage t1) lm im (minNonRoot lm im h) 0 h d pid (lbAt lo A kd) (bnd kc) :=
    WF.congr h _ _ _ _ _ _ hagd hwd
  have hpc1 : ¬ Under (FetchPage t1) h c pid := fun hu => hpidc (hU _ hu)
  have hpd1 : ¬ Under (FetchPage t1) h d pid :=
    fun hu => hpidd ((Under.under_congr h d hagd pid).mp hu)
  have hkids1 : kidsOf (FetchPage t1) pid = A.map Prod.snd ++ d :: c :: B.map Prod.snd := by
    rw [kidsOf_internal hf1pid]; simp
  -- the other children
  have hsibB : ∀ dd ∈ A.map Prod.snd ++ B.map Prod.snd, ∀ q, Under (FetchPage t) h dd q →
      FetchPage t1 q = FetchPage t q ∧ q ≠ pid ∧ ¬ Under (FetchPage t1) h c q ∧
        ¬ Under (FetchPage t1) h d q := by
    intro dd hdd q hq
    have hddk : dd ∈ kidsOf (FetchPage t) pid := by
      rw [hkids]
      rcases List.mem_append.mp hdd with hd | hd
      · exact List.mem_append_left _ hd
      · exact List.mem_append_right _ (List.mem_cons_of_mem _ (List.mem_cons_of_mem _ hd))
    obtain ⟨l, u, hwdd⟩ := hw.child hddk
    have hne1 : dd ≠ c := by
      rintro rfl
      rcases List.mem_append.mp hdd with hd | hd
      · exact hcA hd
      · exact hndB.2.1 hd
    have hne2 : dd ≠ d := by
      rintro rfl
      rcases List.mem_append.mp hdd with hd | hd
      · exact hndAB hd (by simp)
      · exact hndB.1.2 hd
    have h1 : ¬ Under (FetchPage t) h c q :=
      WF.disjoint h _ _ _ _ dd c pid pid _ _ _ _ q hwdd hwc hne1 hq
    have h2 : ¬ Under (FetchPage t) h d q :=
      WF.disjoint h _ _ _ _ dd d pid pid _ _ _ _ q hwdd hwd hne2 hq
    exact ⟨hF q h1, fun e => hw.not_under_child hddk (e ▸ hq), fun hu => h1 (hU _ hu),
      fun hu => h2 ((Under.under_congr h d hagd q).mp hu)⟩
  have hsibB1 : ∀ dd ∈ A.map Prod.snd ++ B.map Prod.snd, ∀ q, Under (FetchPage t1) h dd q →
      Under (FetchPage t) h dd q :=
    fun dd hdd q hq => (Under.under_congr h dd (fun q hq => (hsibB dd hdd q hq).1) q).mp hq
  -- the sizes
  obtain ⟨pc, hpc, _⟩ := hwc1.fetch
  obtain ⟨pd, hpd, _⟩ := hwd1.fetch
  obtain ⟨hc1, hc2, hc3, hc4, hc5, _⟩ := hwc1.size pc hpc
  obtain ⟨hd1, hd2, hd3, hd4, hd5, _⟩ := hwd1.size pd hpd
  have hcmin : pc.GetMinSize = pc.GetMaxSize / 2 := GetMinSize_nonroot pc (hc4 ▸ hpid)
  have hcu := hunder pc hpc
  have hmin := minNonRoot_pos im hlm h
  have hfm1 : FetchPage t1 pid = some (BPlusTreePage.internal pid par im
      (A ++ (kd, d) :: ([(kc, c)] ++ B))) := hf1pid
  have hlen : m ≤ A.length + B.length + 2 := by
    obtain ⟨array, hf1, hm1, _⟩ := id hw
    rw [hf] at hf1
    cases hf1
    simp only [List.length_append, List.length_cons] at hm1
    omega
  have hlen2 : A.length + B.length + 2 ≤ im := by
    obtain ⟨array, hf1, _, _, hm2, _⟩ := id hw
    rw [hf] at hf1
    cases hf1
    simp only [List.length_append, List.length_cons] at hm2
    omega
  have hsibs : ∀ (t2 : BPlusTree K V), (∀ q, q ≠ pid → ¬ Under (FetchPage t1) h d q →
      ¬ Under (FetchPage t1) h c q → FetchPage t2 q = FetchPage t1 q) →
      (∀ dd ∈ A.map Prod.snd ++ B.map Prod.snd, ∀ q,
        Under (FetchPage t1) h dd q → FetchPage t2 q = FetchPage t1 q) ∧
      (∀ dd ∈ A.map Prod.snd ++ B.map Prod.snd, ∀ q,
        Under (FetchPage t) h dd q → FetchPage t2 q = FetchPage t q) ∧
      ∀ q, ¬ Under (FetchPage t1) (h + 1) pid q → FetchPage t2 q = FetchPage t1 q := by
    intro t2 hframe2
    refine ⟨?_, ?_, ?_⟩
    · intro dd hdd q hq
      obtain ⟨_, h2, h3, h4⟩ := hsibB dd hdd q (hsibB1 dd hdd q hq)
      exact hframe2 q h2 h4 h3
    · intro dd hdd q hq
      obtain ⟨h1, h2, h3, h4⟩ := hsibB dd hdd q hq
      rw [hframe2 q h2 h4 h3, h1]
    · intro q hq
      refine hframe2 q (fun e => hq (e ▸ Under.self _ _ _)) ?_ ?_
      · exact fun hu => hq (Under.of_child (by rw [hkids1]; simp) hu)
      · exact fun hu => hq (Under.of_child (by rw [hkids1]; simp) hu)
  by_cases hsz : pc.GetSize + pd.GetSize ≤ pc.GetMaxSize
  · -- the two pages are merged
    have hf1pid2 : FetchPage t1 pid = some (BPlusTreePage.internal pid par im
        ((A ++ [(kd, d)]) ++ (kc, c) :: B)) := by
      rw [hf1pid]; simp
    obtain ⟨t2, hco, hp2, hroot2, hnext2, hpar2, hw2, hholds2, hunder2, hframe2⟩ :=
      merge_spec hp1 hf1pid2 hwd1 hwc1
        hcd hpd1 hpc1
        (fun pl pr hl hr => by
          rw [hpd] at hl; cases hl
          rw [hpc] at hr; cases hr
          exact hsz)
        (by omega) (x1.AddIntoPageSet d)
    have hg2 : FetchPage t2 pid = some (BPlusTreePage.internal pid par im
        (A ++ (kd, d) :: ([] ++ B))) := by
      rw [hpar2]; simp
    obtain ⟨hsib2, hsib, hFrame⟩ := hsibs t2 hframe2
    have hnd2 : ((A ++ (kd, d) :: ([] ++ B) : List (K × Int)).map Prod.snd).Nodup := by
      simp only [List.nil_append, List.map_append, List.map_cons]
      rw [List.nodup_append]
      refine ⟨hndA, ?_, ?_⟩
      · simp only [List.nodup_cons]
        exact ⟨hndB.1.2, hndB.2.2⟩
      · intro a ha hb
        refine hndAB ha ?_
        simp only [List.mem_cons] at hb ⊢
        rcases hb with hb | hb
        · exact Or.inl hb
        · exact Or.inr (Or.inr hb)
    have hHolds : ∀ k v, Holds (FetchPage t2) (h + 1) pid k v ↔
        Holds (FetchPage t1) (h + 1) pid k v := by
      intro k v
      refine Holds.holds_mid_congr hfm1 hg2 hsib2 k v ?_
      simp only [List.map_nil, List.map_cons, List.mem_singleton, List.mem_cons,
        exists_eq_left, exists_eq_or_imp, List.not_mem_nil, false_and, exists_false, or_false]
      exact hholds2 k v
    have hUnder : ∀ q, Under (FetchPage t2) (h + 1) pid q →
        Under (FetchPage t1) (h + 1) pid q := by
      intro q hq
      refine Under.under_mid_congr hfm1 hg2 hsib2 q ?_ hq
      simp only [List.map_nil, List.map_cons, List.mem_singleton, List.mem_cons,
        exists_eq_left, exists_eq_or_imp, List.not_mem_nil, false_and, exists_false, or_false]
      intro hq1
      exact (hunder2 q hq1).1
    have hcnot : ¬ Under (FetchPage t2) (h + 1) pid c := by
      rw [Under_mid_iff hg2]
      rintro (e | ⟨dd, hdd, hu⟩ | ⟨dd, hdd, hu⟩)
      · exact hpidc (e ▸ Under.self _ _ _)
      · have hu1 := (Under.under_congr h dd (hsib dd hdd) c).mp hu
        exact (hsibB dd hdd c hu1).2.2.1 (Under.self _ _ _)
      · simp only [List.map_nil, List.mem_singleton] at hdd
        subst hdd
        exact (hunder2 c hu).2 rfl
    have hdeleted : ∀ q ∈ ((x1.AddIntoPageSet d).AddIntoDeletedPageSet c).deleted_page_set,
        q ∈ x1.deleted_page_set ∨
        (q ∈ c :: ((x1.AddIntoPageSet d).AddIntoDeletedPageSet c).page_set ∧
          q ∈ kidsOf (FetchPage t) pid ∧ ¬ Under (FetchPage t2) (h + 1) pid q) := by
      intro q hq
      rw [mem_AddIntoDeletedPageSet] at hq
      rcases hq with hq | rfl
      · exact Or.inl hq
      · exact Or.inr ⟨by simp, hck, hcnot⟩
    have hrun : ∀ fuel, fixUp (fuel + 1) t1 c (some x1) =
        if ((A ++ [(kd, d)]) ++ B).length ≤ (BPlusTreePage.internal pid par im
            ((A ++ [(kd, d)]) ++ B) : BPlusTreePage K V).GetMinSize then
          fixUp fuel t2 pid (some ((x1.AddIntoPageSet d).AddIntoDeletedPageSet c))
        else some (t2, some ((x1.AddIntoPageSet d).AddIntoDeletedPageSet c)) := by
      intro fuel
      rw [fixUp_later fuel t1 c d pid pid par im kc kd A B pc pd x1 hpc hc5 hc4 hpid hpd
        hf1pid hcA hcd, if_pos hsz]
      have := hco (CoalesceOrRedistribute fuel)
      simp only [List.length_append, List.length_singleton] at this
      simp only [List.length_append, List.length_singleton]
      rw [this]
      split <;> rfl
    have hsame : (BPlusTreePage.internal pid par im ((A ++ [(kd, d)]) ++ B)
        : BPlusTreePage K V).GetMinSize
        = (BPlusTreePage.internal pid par im (A ++ (kd, d) :: (kc, c) :: B)
          : BPlusTreePage K V).GetMinSize := rfl
    refine ⟨t2, (x1.AddIntoPageSet d).AddIntoDeletedPageSet c, hp2, hroot2, hnext2, hHolds,
      hUnder, hFrame, ?_, nodup_AddIntoDeletedPageSet _ _ hnd, hdeleted, ?_⟩
    · intro q hq
      rw [page_set_AddIntoDeletedPageSet]
      simp [Transaction.AddIntoPageSet, hq]
    · by_cases hcond : ((A ++ [(kd, d)]) ++ B).length ≤ (BPlusTreePage.internal pid par im
          ((A ++ [(kd, d)]) ++ B) : BPlusTreePage K V).GetMinSize
      · right
        refine ⟨?_, ?_, ?_, ?_⟩
        · refine WF.replace_mid hw hfm hg2 ?_ ?_ hsib hnd2 ?_
          · simp only [List.nil_append, List.length_append, List.length_cons]; omega
          · simp only [List.nil_append, List.length_append, List.length_cons]; omega
          · simp only [List.map_nil, Seg_cons, Seg_nil, ub_nil, and_true]
            exact hw2
        · intro p hp
          rw [hpar2] at hp
          cases hp
          exact hcond
        · rintro ⟨p, hp, hsafe⟩
          rw [hf] at hp
          cases hp
          rw [hsame] at hcond
          simp only [BPlusTreePage.IsSafe, BPlusTreePage.IsLeafPage, Bool.false_eq_true,
            if_false, Option.some.injEq, decide_eq_true_eq, BPlusTreePage.GetSize,
            List.length_append, List.length_cons] at hsafe
          simp only [List.length_append, List.length_cons, List.length_nil] at hcond
          omega
        · intro fuel
          rw [hrun fuel, if_pos hcond]
      · left
        refine ⟨?_, ?_⟩
        · refine WF.replace_mid hw hfm hg2 ?_ ?_ hsib hnd2 ?_
          · have := hmG _ hf
            rw [← hsame] at this
            simp only [List.length_append, List.length_cons, List.length_nil] at hcond
            simp only [List.nil_append, List.length_append, List.length_cons]
            omega
          · simp only [List.nil_append, List.length_append, List.length_cons]; omega
          · simp only [List.map_nil, Seg_cons, Seg_nil, ub_nil, and_true]
            exact hw2
        · intro fuel
          rw [hrun fuel, if_neg hcond]
  · -- a pair moves from the sibling
    have hszc : ∀ p, FetchPage t1 c = some p →
        p.GetSize + 1 < p.GetMaxSize ∧ minNonRoot lm im h ≤ p.GetSize + 1 := by
      intro p hp
      rw [hpc] at hp
      cases hp
      refine ⟨?_, by omega⟩
      rw [hcmin] at hcu
      by_cases hh : h = 0
      · simp only [hh, if_true] at hcu hc3
        omega
      · simp only [hh, if_false] at hcu hc3
        omega
    have hszd : ∀ p, FetchPage t1 d = some p → minNonRoot lm im h + 1 ≤ p.GetSize := by
      intro p hp
      rw [hpd] at hp
      cases hp
      rw [hcmin] at hcu
      cases h with
      | zero =>
        simp only [if_true] at hcu hc3 hd3
        simp only [minNonRoot]
        omega
      | succ h =>
        simp only [Nat.add_one_ne_zero, if_false] at hcu hc3 hd3
        simp only [minNonRoot]
        omega
    obtain ⟨t2, kc1, hred, hp2, hroot2, hnext2, hpar2, hw2d, hw2c, hholds2, hunder2, hframe2⟩ :=
      borrow_later_spec hlm hp1 hf1pid hwd1 hwc1 hcd hpc1 hpd1 hszc hszd
    have hg2 : FetchPage t2 pid = some (BPlusTreePage.internal pid par im
        (A ++ (kd, d) :: ([(kc1, c)] ++ B))) := hpar2
    obtain ⟨hsib2, hsib, hFrame⟩ := hsibs t2 hframe2
    have hnd2 : ((A ++ (kd, d) :: ([(kc1, c)] ++ B) : List (K × Int)).map Prod.snd).Nodup := by
      simpa using hnodup
    have hHolds : ∀ k v, Holds (FetchPage t2) (h + 1) pid k v ↔
        Holds (FetchPage t1) (h + 1) pid k v := by
      intro k v
      refine Holds.holds_mid_congr hfm1 hg2 hsib2 k v ?_
      simp only [List.map_nil, List.map_cons, List.mem_singleton, List.mem_cons,
        exists_eq_left, exists_eq_or_imp, List.not_mem_nil, false_and, exists_false, or_false]
      exact hholds2 k v
    have hUnder : ∀ q, Under (FetchPage t2) (h + 1) pid q →
        Under (FetchPage t1) (h + 1) pid q := by
      intro q hq
      refine Under.under_mid_congr hfm1 hg2 hsib2 q ?_ hq
      simp only [List.map_nil, List.map_cons, List.mem_singleton, List.mem_cons,
        exists_eq_left, exists_eq_or_imp, List.not_mem_nil, false_and, exists_false, or_false]
      exact hunder2 q
    refine ⟨t2, x1.AddIntoPageSet d, hp2, hroot2, hnext2, hHolds, hUnder, hFrame, ?_, hnd,
      fun q hq => Or.inl hq, Or.inl ⟨?_, ?_⟩⟩
    · intro q hq
      simp [Transaction.AddIntoPageSet, hq]
    · obtain ⟨array, hf1, hm1, _, hm2, _⟩ := id hw
      rw [hf] at hf1
      cases hf1
      refine WF.replace_mid hw hfm hg2 ?_ ?_ hsib hnd2 ?_
      · simpa using hm1
      · simpa using hm2
      · simp only [List.map_nil, List.map_cons, Seg_cons, Seg_nil, ub_cons, ub_nil, and_true]
        exact ⟨hw2d, hw2c⟩
    · intro fuel
      rw [fixUp_later fuel t1 c d pid pid par im kc kd A B pc pd x1 hpc hc5 hc4 hpid hpd
        hf1pid hcA hcd, if_neg hsz, hred]
      rfl

/-- The call `CoalesceOrRedistribute` on a child `c` of the page `pid`, the subtree of
`c` satisfying the invariant but for one pair missing in `c`: the subtree of `pid`
satisfies the invariant afterwards, but for one pair that may miss in `pid`, and holds
the same pairs. -/
theorem sink_step {lm im h m : Nat} (hlm : 2 ≤ lm) (him : 3 ≤ im)
    {t t1 : BPlusTree K V} (hp1 : PoolOk lm im t1) {pid par c : Int} {kc : K}
    {A B : List (K × Int)} {lo hi : Bound K}
    (hw : WF (FetchPage t) lm im m 0 (h + 1) pid par lo hi)
    (hmG : ∀ p, FetchPage t pid = some p → m ≤ p.GetMinSize + 1)
    (hf : FetchPage t pid = some (BPlusTreePage.internal pid par im (A ++ (kc, c) :: B)))
    (hlen : 2 ≤ (A ++ (kc, c) :: B).length)
    (hpid : pid ≠ INVALID_PAGE_ID)
    (hwc1 : WF (FetchPage t1) lm im (minNonRoot lm im h - 1) 0 h c pid (lbAt lo A kc)
      (ub (B.map (fun e => (bnd e.1, e.2))) hi))
    (hunder : ∀ p, FetchPage t1 c = some p →
      if h = 0 then p.GetSize < p.GetMinSize else p.GetSize ≤ p.GetMinSize)
    (hU : ∀ q, Under (FetchPage t1) h c q → Under (FetchPage t) h c q)
    (hF : ∀ q, ¬ Under (FetchPage t) h c q → FetchPage t1 q = FetchPage t q)
    (x1 : Transaction) (hnd : x1.deleted_page_set.Nodup) :
    ∃ t2 x2, PoolOk lm im t2 ∧ t2.root_page_id = t1.root_page_id ∧
      t2.buffer_pool_manager.next_page_id = t1.buffer_pool_manager.next_page_id ∧
      (∀ k v, Holds (FetchPage t2) (h + 1) pid k v ↔ Holds (FetchPage t1) (h + 1) pid k v) ∧
      (∀ q, Under (FetchPage t2) (h + 1) pid q → Under (FetchPage t1) (h + 1) pid q) ∧
      (∀ q, ¬ Under (FetchPage t1) (h + 1) pid q → FetchPage t2 q = FetchPage t1 q) ∧
      (∀ q ∈ x1.page_set, q ∈ x2.page_set) ∧ x2.deleted_page_set.Nodup ∧
      (∀ q ∈ x2.deleted_page_set, q ∈ x1.deleted_page_set ∨
        (q ∈ c :: x2.page_set ∧ q ∈ kidsOf (FetchPage t) pid ∧
          ¬ Under (FetchPage t2) (h + 1) pid q)) ∧
      ((WF (FetchPage t2) lm im m 0 (h + 1) pid par lo hi ∧
          ∀ fuel, fixUp (fuel + 1) t1 c (some x1) = some (t2, some x2)) ∨
        (WF (FetchPage t2) lm im (m - 1) 0 (h + 1) pid par lo hi ∧
          (∀ p, FetchPage t2 pid = some p → p.GetSize ≤ p.GetMinSize) ∧
          ¬ SafeAt (FetchPage t) pid ∧
          ∀ fuel, fixUp (fuel + 1) t1 c (some x1) = fixUp fuel t2 pid (some x2))) := by
  rcases List.eq_nil_or_concat A with rfl | ⟨A1, ⟨kd, d⟩, rfl⟩
  · cases B with
    | nil => simp at hlen
    | cons e B1 =>
      obtain ⟨kd, d⟩ := e
      exact sink_step_first hlm him hp1 hw hmG hf hpid hwc1 hunder hU hF x1 hnd
  · have hf1 : FetchPage t pid
        = some (BPlusTreePage.internal pid par im (A1 ++ (kd, d) :: (kc, c) :: B)) := by
      rw [hf]; simp
    rw [List.concat_eq_append, lbAt_concat] at hwc1
    exact sink_step_later hlm him hp1 hw hmG hf1 hpid hwc1 hunder hU hF x1 hnd

end BPlusTree

/-! ## B+ tree: the deletion sinks in from the leaf -/

namespace BPlusTreeLeafPage

variable {K V : Type} [LinearOrder K] [Inhabited K]

theorem length_RemoveAndDeleteRecord (array : List (K × V)) (key : K) :
    (RemoveAndDeleteRecord array key).length ≤ array.length ∧
      array.length ≤ (RemoveAndDeleteRecord array key).length + 1 := by
  induction array with
  | nil => simp [RemoveAndDeleteRecord]
  | cons e rest ih =>
    by_cases hk : e.1 = key
    · simp [RemoveAndDeleteRecord, hk]
    · simp only [RemoveAndDeleteRecord, hk, if_false, List.length_cons]
      omega

theorem sublist_RemoveAndDeleteRecord (array : List (K × V)) (key : K) :
    (RemoveAndDeleteRecord array key).Sublist array := by
  induction array with
  | nil => simp [RemoveAndDeleteRecord]
  | cons e rest ih =>
    by_cases hk : e.1 = key
    · simp [RemoveAndDeleteRecord, hk]
    · simp only [RemoveAndDeleteRecord, hk, if_false]
      exact ih.cons₂ e

/-- In a leaf with increasing keys `RemoveAndDeleteRecord` removes exactly the pairs of
the key. -/
theorem mem_RemoveAndDeleteRecord (array : List (K × V)) (key : K)
    (hs : (array.map Prod.fst).Pairwise (fun a b => a < b)) (k : K) (v : V) :
    (k, v) ∈ RemoveAndDeleteRecord array key ↔ (k, v) ∈ array ∧ k ≠ key := by
  induction array with
  | nil => simp [RemoveAndDeleteRecord]
  | cons e rest ih =>
    obtain ⟨k0, v0⟩ := e
    simp only [List.map_cons, List.pairwise_cons] at hs
    by_cases hk : k0 = key
    · subst hk
      simp only [RemoveAndDeleteRecord, if_true, List.mem_cons, Prod.mk.injEq]
      constructor
      · intro hm
        have := hs.1 k (List.mem_map_of_mem Prod.fst hm)
        exact ⟨Or.inr hm, fun e => by rw [e] at this; exact lt_irrefl _ this⟩
      · rintro ⟨⟨rfl, _⟩ | hm, hne⟩
        · exact absurd rfl hne
        · exact hm
    · simp only [RemoveAndDeleteRecord, hk, if_false, List.mem_cons, Prod.mk.injEq, ih hs.2]
      constructor
      · rintro (⟨rfl, rfl⟩ | ⟨hm, hne⟩)
        · exact ⟨Or.inl ⟨rfl, rfl⟩, hk⟩
        · exact ⟨Or.inr hm, hne⟩
      · rintro ⟨⟨rfl, rfl⟩ | hm, hne⟩
        · exact Or.inl ⟨rfl, rfl⟩
        · exact Or.inr ⟨hm, hne⟩

end BPlusTreeLeafPage

namespace BPlusTree

variable {K V : Type} [LinearOrder K] [Inhabited K]

/-- The deletion in a leaf: the leaf satisfies the invariant afterwards, but for one pair
that may miss, and holds the former pairs with other keys. -/
theorem sink_leaf {lm im m : Nat} (key : K) (t : BPlusTree K V) (pid par : Int)
    (lo hi : Bound K) (x : Transaction) (a b : Int) (mx : Nat) (arrL : List (K × V))
    (hp : PoolOk lm im t) (hw : WF (FetchPage t) lm im m 0 0 pid par lo hi)
    (hmG : ∀ p, FetchPage t pid = some p → m ≤ p.GetMinSize)
    (hL : FetchPage t pid = some (BPlusTreePage.leaf a b mx arrL)) :
    ∃ t1, t1 = { t with buffer_pool_manager := (t.buffer_pool_manager.store pid
        (BPlusTreePage.leaf a b mx (BPlusTreeLeafPage.RemoveAndDeleteRecord arrL key))) } ∧
      PoolOk lm im t1 ∧
      (∀ k v, Holds (FetchPage t1) 0 pid k v ↔ Holds (FetchPage t) 0 pid k v ∧ k ≠ key) ∧
      (∀ q, ¬ Under (FetchPage t) 0 pid q → FetchPage t1 q = FetchPage t q) ∧
      ((WF (FetchPage t1) lm im m 0 0 pid par lo hi ∧
          ∀ fuel, fixLeaf fuel t1 pid (some x) = some (t1, some x)) ∨
        (WF (FetchPage t1) lm im (m - 1) 0 0 pid par lo hi ∧
          (∀ p, FetchPage t1 pid = some p → p.GetSize < p.GetMinSize) ∧
          ¬ SafeAt (FetchPage t) pid ∧
          ∀ fuel, fixLeaf fuel t1 pid (some x) = fixUp fuel t1 pid (some x))) := by
  obtain ⟨array, hf, h1, h2, hlt, hsorted, hb⟩ := hw
  rw [hf] at hL
  obtain ⟨rfl, rfl, rfl, rfl⟩ : pid = a ∧ par = b ∧ lm = mx ∧ array = arrL := by
    simpa only [Option.some.injEq, BPlusTreePage.leaf.injEq] using hL
  have hfetch : FetchPage { t with buffer_pool_manager := (t.buffer_pool_manager.store pid
      (BPlusTreePage.leaf pid par lm (BPlusTreeLeafPage.RemoveAndDeleteRecord array key))) } pid
      = some (BPlusTreePage.leaf pid par lm
        (BPlusTreeLeafPage.RemoveAndDeleteRecord array key)) := by
    simp [FetchPage_def]
  obtain ⟨hl1, hl2⟩ := BPlusTreeLeafPage.length_RemoveAndDeleteRecord array key
  have hsub := BPlusTreeLeafPage.sublist_RemoveAndDeleteRecord array key
  have hwf : ∀ m1, m1 ≤ (BPlusTreeLeafPage.RemoveAndDeleteRecord array key).length →
      WF (FetchPage { t with buffer_pool_manager := (t.buffer_pool_manager.store pid
        (BPlusTreePage.leaf pid par lm (BPlusTreeLeafPage.RemoveAndDeleteRecord array key))) })
        lm im m1 0 0 pid par lo hi := by
    intro m1 hm1
    refine ⟨_, hfetch, hm1, by omega, hlt, ?_, ?_⟩
    · exact hsorted.sublist (hsub.map Prod.fst)
    · intro e he
      exact hb e (hsub.subset he)
  have hmin : (BPlusTreePage.leaf pid par lm
      (BPlusTreeLeafPage.RemoveAndDeleteRecord array key) : BPlusTreePage K V).GetMinSize
      = (BPlusTreePage.leaf pid par lm array : BPlusTreePage K V).GetMinSize := rfl
  have hmG1 := hmG _ hf
  refine ⟨_, rfl, hp.store pid _ _ hf, ?_, ?_, ?_⟩
  · intro k v
    rw [Holds_zero_iff hfetch, Holds_zero_iff hf,
      BPlusTreeLeafPage.mem_RemoveAndDeleteRecord array key hsorted]
  · intro q hq
    have : ¬ pid = q := fun h => hq h.symm
    simp [FetchPage_def, this]
  · by_cases hcond : (BPlusTreeLeafPage.RemoveAndDeleteRecord array key).length
        < (BPlusTreePage.leaf pid par lm array : BPlusTreePage K V).GetMinSize
    · right
      refine ⟨hwf _ (by omega), ?_, ?_, ?_⟩
      · intro p hp1
        rw [hfetch] at hp1
        cases hp1
        exact hcond
      · rintro ⟨p, hp1, hsafe⟩
        rw [hf] at hp1
        cases hp1
        simp only [BPlusTreePage.IsSafe, BPlusTreePage.IsLeafPage, if_true,
          Option.some.injEq, decide_eq_true_eq, BPlusTreePage.GetSize] at hsafe
        omega
      · intro fuel
        simp only [fixLeaf, hfetch, Option.bind_eq_bind, Option.some_bind,
          BPlusTreePage.GetSize, hmin, hcond, if_true]
    · left
      refine ⟨hwf _ (by omega), ?_⟩
      intro fuel
      simp only [fixLeaf, hfetch, Option.bind_eq_bind, Option.some_bind,
        BPlusTreePage.GetSize, hmin, hcond, if_false]

/-- The deletion below the page `pid`. After the leaf of `key` has lost the pair of
`key`, the calls of `CoalesceOrRedistribute` that start at the leaf either end below
`pid`, whose subtree then satisfies the invariant, or go on at `pid`, whose subtree then
satisfies the invariant but for one pair missing in `pid`. The subtree holds the former
pairs with other keys, the pages outside the subtree are as before, and the pages marked
as deleted are in the page set of the transaction and not in the subtree. -/
theorem sink {lm im : Nat} (hlm : 2 ≤ lm) (him : 3 ≤ im) (key : K) :
    ∀ (h m : Nat) (t : BPlusTree K V) (pid par : Int) (lo hi : Bound K) (x : Transaction)
      (a b : Int) (mx : Nat) (arrL : List (K × V)),
      PoolOk lm im t → WF (FetchPage t) lm im m 0 h pid par lo hi → (h = 0 ∨ 2 ≤ m) →
      (∀ p, FetchPage t pid = some p → m ≤ p.GetMinSize + (if h = 0 then 0 else 1)) →
      lo ≤ bnd key → bnd key < hi →
      FetchPage t (leafOf (FetchPage t) key h pid) = some (BPlusTreePage.leaf a b mx arrL) →
      x.deleted_page_set = [] → Cover (FetchPage t) key x.page_set h pid →
      ∃ t1 x1,
        PoolOk lm im t1 ∧ t1.root_page_id = t.root_page_id ∧
        t1.buffer_pool_manager.next_page_id = t.buffer_pool_manager.next_page_id ∧
        (∀ k v, Holds (FetchPage t1) h pid k v ↔ Holds (FetchPage t) h pid k v ∧ k ≠ key) ∧
        (∀ q, Under (FetchPage t1) h pid q → Under (FetchPage t) h pid q) ∧
        (∀ q, ¬ Under (FetchPage t) h pid q → FetchPage t1 q = FetchPage t q) ∧
        (∀ q ∈ x.page_set, q ∈ x1.page_set) ∧ x1.deleted_page_set.Nodup ∧
        (∀ q ∈ x1.deleted_page_set, q ∈ x1.page_set ∧ Under (FetchPage t) h pid q ∧
          ¬ Under (FetchPage t1) h pid q) ∧
        ((WF (FetchPage t1) lm im m 0 h pid par lo hi ∧
            ∀ fuel, fixLeaf (fuel + h)
              { t with buffer_pool_manager := (t.buffer_pool_manager.store
                (leafOf (FetchPage t) key h pid)
                (BPlusTreePage.leaf a b mx (BPlusTreeLeafPage.RemoveAndDeleteRecord arrL key))) }
              (leafOf (FetchPage t) key h pid) (some x) = some (t1, some x1)) ∨
          (WF (FetchPage t1) lm im (m - 1) 0 h pid par lo hi ∧
            (∀ p, FetchPage t1 pid = some p →
              if h = 0 then p.GetSize < p.GetMinSize else p.GetSize ≤ p.GetMinSize) ∧
            pid ∈ x1.page_set ∧ ¬ SafeAt (FetchPage t) pid ∧
            ¬ SafeUnder (FetchPage t) key h pid ∧
            ∀ fuel, fixLeaf (fuel + h)
              { t with buffer_pool_manager := (t.buffer_pool_manager.store
                (leafOf (FetchPage t) key h pid)
                (BPlusTreePage.leaf a b mx (BPlusTreeLeafPage.RemoveAndDeleteRecord arrL key))) }
              (leafOf (FetchPage t) key h pid) (some x) = fixUp fuel t1 pid (some x1))) := by
  intro h
  induction h with
  | zero =>
    intro m t pid par lo hi x a b mx arrL hp hw _ hmG hlo hhi hL hd hcov
    simp only [leafOf] at hL ⊢
    obtain ⟨t1, ht1, hp1, hholds, hframe, hcase⟩ := sink_leaf key t pid par lo hi x a b mx arrL
      hp hw (fun p hp2 => by simpa using hmG p hp2) hL
    subst ht1
    refine ⟨_, x, hp1, rfl, rfl, hholds, ?_, hframe, fun q hq => hq, by rw [hd]; simp,
      by rw [hd]; simp, ?_⟩
    · intro q hq
      exact hq
    · rcases hcase with ⟨hw1, hrun⟩ | ⟨hw1, hsz, hsafe, hrun⟩
      · exact Or.inl ⟨hw1, hrun⟩
      · refine Or.inr ⟨hw1, ?_, hcov, hsafe, fun hs => hs, hrun⟩
        intro p hp2
        simpa using hsz p hp2
  | succ h ih =>
    intro m t pid par lo hi x a b mx arrL hp hw hm2 hmG hlo hhi hL hd hcov
    have hw0 := hw
    obtain ⟨array, hf, hm, h1, hsz, hlt, hmirror, hnodup, hseg⟩ := hw
    obtain ⟨⟨k0, c0⟩, rest, rfl⟩ : ∃ e rest, array = e :: rest := by
      cases array with
      | nil => simp at h1
      | cons e rest => exact ⟨e, rest, rfl⟩
    obtain ⟨A, kc, B, harr, hl, hu⟩ := pick_slots key rest lo k0 c0 hi hlo hhi
    have hleaf : leafOf (FetchPage t) key (h + 1) pid
        = leafOf (FetchPage t) key h (pick key c0 rest) := leafOf_succ hf
    have hch : childOf (FetchPage t) key pid = pick key c0 rest := childOf_internal hf
    obtain ⟨hcovc, hcovp⟩ : Cover (FetchPage t) key x.page_set h
        (childOf (FetchPage t) key pid) ∧
        (pid ∈ x.page_set ∨ SafeUnder (FetchPage t) key (h + 1) pid) := hcov
    have hsu : SafeUnder (FetchPage t) key (h + 1) pid ↔
        (SafeAt (FetchPage t) (pick key c0 rest) ∨
          SafeUnder (FetchPage t) key h (pick key c0 rest)) := by
      rw [← hch]; exact Iff.rfl
    rw [hch] at hcovc
    rw [hleaf] at hL
    simp only [hleaf]
    clear hch hleaf
    generalize pick key c0 rest = c at harr hL hcovc hsu ⊢
    rw [harr] at hf hm h1 hsz hmirror hnodup hseg
    have hkids : kidsOf (FetchPage t) pid = (A ++ (kc, c) :: B).map Prod.snd :=
      kidsOf_internal hf
    have hcmem : c ∈ kidsOf (FetchPage t) pid := by rw [hkids]; simp
    rw [slots_append_cons, Seg_append, Seg_cons] at hseg
    obtain ⟨hsegA, hwc, hsegB⟩ := hseg
    have hpidr := hp.ids _ _ hf
    have hpidne : pid ≠ INVALID_PAGE_ID := by
      intro e
      rw [e] at hpidr
      simp [INVALID_PAGE_ID] at hpidr
    have hmGc : ∀ p, FetchPage t c = some p →
        minNonRoot lm im h ≤ p.GetMinSize + (if h = 0 then 0 else 1) := by
      intro p hpc
      obtain ⟨_, _, h3, h4, _⟩ := hwc.size p hpc
      rw [GetMinSize_nonroot p (h4 ▸ hpidne), h3]
      cases h with
      | zero => simp [minNonRoot]
      | succ h =>
        simp only [minNonRoot, Nat.add_one_ne_zero, if_false]
        omega
    have hm2c : h = 0 ∨ 2 ≤ minNonRoot lm im h := by
      cases h with
      | zero => exact Or.inl rfl
      | succ h => exact Or.inr (by simp [minNonRoot])
    obtain ⟨t1, x1, hp1, hroot1, hnext1, hholds1, hunder1, hframe1, hps1, hnd1, hdel1, hcase⟩ :=
      ih _ t c pid _ _ x a b mx arrL hp hwc hm2c hmGc hl hu hL hd hcovc
    -- the state after the calls below `pid`
    have hpidc : ¬ Under (FetchPage t) h c pid := hw0.not_under_child hcmem
    have hpid1 : FetchPage t1 pid = FetchPage t pid := hframe1 pid hpidc
    have hcA : c ∉ A.map Prod.snd := by
      intro hc
      rw [List.map_append, List.map_cons] at hnodup
      exact (List.nodup_append.mp hnodup).2.2 hc (List.mem_cons_self _ _)
    have hcB : c ∉ B.map Prod.snd := by
      intro hc
      rw [List.map_append, List.map_cons] at hnodup
      exact (List.nodup_cons.mp (List.nodup_append.mp hnodup).2.1).1 hc
    have hsibmem : ∀ d ∈ A.map Prod.snd ++ B.map Prod.snd,
        d ∈ kidsOf (FetchPage t) pid ∧ d ≠ c := by
      intro d hd
      rw [hkids, List.map_append, List.map_cons]
      rcases List.mem_append.mp hd with hd | hd
      · exact ⟨List.mem_append_left _ hd, fun e => hcA (e ▸ hd)⟩
      · exact ⟨List.mem_append_right _ (List.mem_cons_of_mem _ hd), fun e => hcB (e ▸ hd)⟩
    have hsib : ∀ d ∈ A.map Prod.snd ++ B.map Prod.snd, ∀ q, Under (FetchPage t) h d q →
        ¬ Under (FetchPage t) h c q ∧ q ≠ pid := by
      intro d hd q hq
      obtain ⟨hdk, hdc⟩ := hsibmem d hd
      obtain ⟨l, u, hwd⟩ := hw0.child hdk
      exact ⟨WF.disjoint h _ _ _ _ d c _ _ _ _ _ _ q hwd hwc hdc hq,
        fun e => hw0.not_under_child hdk (e ▸ hq)⟩
    have hsib1 : ∀ d ∈ ([] : List (K × Int)).map Prod.snd ++ (A.map Prod.snd ++ B.map Prod.snd),
        ∀ q, Under (FetchPage t) h d q → FetchPage t1 q = FetchPage t q := by
      intro d hd q hq
      exact hframe1 q (hsib d (by simpa using hd) q hq).1
    have hfm : FetchPage t pid = some (BPlusTreePage.internal pid par im
        (A ++ (kc, c) :: ([] ++ B))) := hf
    have hfm1 : FetchPage t1 pid = some (BPlusTreePage.internal pid par im
        (A ++ (kc, c) :: ([] ++ B))) := by rw [hpid1]; exact hf
    have hsib2 : ∀ d ∈ A.map Prod.snd ++ B.map Prod.snd,
        ∀ q, Under (FetchPage t) h d q → FetchPage t1 q = FetchPage t q :=
      fun d hd q hq => hframe1 q (hsib d hd q hq).1
    have hH1 : ∀ k v, Holds (FetchPage t1) (h + 1) pid k v ↔
        Holds (FetchPage t) (h + 1) pid k v ∧ k ≠ key := by
      intro k v
      rw [Holds_mid_iff hfm1, Holds_mid_iff hfm]
      simp only [List.map_nil, List.mem_singleton, exists_eq_left]
      constructor
      · rintro (⟨dd, hdd, hh⟩ | hh)
        · have hh1 := (Holds.holds_congr h dd (hsib2 dd hdd) k v).mp hh
          exact ⟨Or.inl ⟨dd, hdd, hh1⟩, Holds.sibling_ne hw0 hf hl hu hdd hh1⟩
        · obtain ⟨h1, h2⟩ := (hholds1 k v).mp hh
          exact ⟨Or.inr h1, h2⟩
      · rintro ⟨⟨dd, hdd, hh⟩ | hh, hne⟩
        · exact Or.inl ⟨dd, hdd, (Holds.holds_congr h dd (hsib2 dd hdd) k v).mpr hh⟩
        · exact Or.inr ((hholds1 k v).mpr ⟨hh, hne⟩)
    have hU1 : ∀ q, Under (FetchPage t1) (h + 1) pid q → Under (FetchPage t) (h + 1) pid q := by
      intro q hq
      refine Under.under_mid_congr hfm hfm1 hsib2 q ?_ hq
      simp only [List.map_nil, List.mem_singleton, exists_eq_left]
      exact hunder1 q
    have hF1 : ∀ q, ¬ Under (FetchPage t) (h + 1) pid q → FetchPage t1 q = FetchPage t q :=
      fun q hq => hframe1 q (fun hc => hq (Under.of_child hcmem hc))
    have hD1 : ∀ q, Under (FetchPage t) h c q → ¬ Under (FetchPage t1) h c q →
        ¬ Under (FetchPage t1) (h + 1) pid q := by
      intro q hq hn
      rw [Under_mid_iff hfm1]
      simp only [List.map_nil, List.mem_singleton, exists_eq_left]
      rintro (e | ⟨dd, hdd, hu1⟩ | hu1)
      · exact hpidc (e ▸ hq)
      · have hu2 := (Under.under_congr h dd (hsib2 dd hdd) q).mp hu1
        exact (hsib dd hdd q hu2).1 hq
      · exact hn hu1
    rcases hcase with ⟨hw1, hrun⟩ | ⟨hw1, hsize, hcx, hsafe, hsafeu, hrun⟩
    · -- the calls have ended below `pid`
      refine ⟨t1, x1, hp1, hroot1, hnext1, hH1, hU1, hF1, hps1, hnd1, ?_, Or.inl ⟨?_, ?_⟩⟩
      · intro q hq
        obtain ⟨h2, h3, h4⟩ := hdel1 q hq
        exact ⟨h2, Under.of_child hcmem h3, hD1 q h3 h4⟩
      · refine WF.replace_mid hw0 hfm hfm1 (by simpa using hm) (by simpa using hsz) hsib2
          (by simpa using hnodup) ?_
        simp only [List.map_nil, Seg_cons, Seg_nil, ub_nil, and_true]
        exact hw1
      · intro fuel
        rw [show fuel + (h + 1) = (fuel + 1) + h by omega]
        exact hrun (fuel + 1)
    · -- the calls go on at the child `c`
      have hpx : pid ∈ x.page_set := by
        rcases hcovp with hpx | hpx
        · exact hpx
        · rcases hsu.mp hpx with h5 | h5
          · exact absurd h5 hsafe
          · exact absurd h5 hsafeu
      have hlen2 : 2 ≤ (A ++ (kc, c) :: B).length := by
        rcases hm2 with h5 | h5
        · omega
        · omega
      obtain ⟨t2, x2, hp2, hroot2, hnext2, hH2, hU2, hF2, hps2, hnd2, hdel2, hcase2⟩ :=
        sink_step hlm him hp1 hw0 (fun p hp5 => by simpa using hmG p hp5) hf hlen2 hpidne hw1
          hsize hunder1 hframe1 x1 hnd1
      refine ⟨t2, x2, hp2, by rw [hroot2, hroot1], by rw [hnext2, hnext1], ?_, ?_, ?_, ?_, hnd2,
        ?_, ?_⟩
      · intro k v
        rw [hH2 k v, hH1 k v]
      · exact fun q hq => hU1 q (hU2 q hq)
      · intro q hq
        rw [hF2 q (fun hu5 => hq (hU1 q hu5)), hF1 q hq]
      · exact fun q hq => hps2 q (hps1 q hq)
      · intro q hq
        rcases hdel2 q hq with h5 | ⟨h5, h6, h7⟩
        · obtain ⟨h2, h3, h4⟩ := hdel1 q h5
          exact ⟨hps2 q h2, Under.of_child hcmem h3, fun hu5 => hD1 q h3 h4 (hU2 q hu5)⟩
        · refine ⟨?_, Under.of_child h6 (Under.self _ _ _), h7⟩
          rcases List.mem_cons.mp h5 with rfl | h5
          · exact hps2 _ hcx
          · exact h5
      · rcases hcase2 with ⟨hw2, hrun2⟩ | ⟨hw2, hsize2, hsafe2, hrun2⟩
        · refine Or.inl ⟨hw2, ?_⟩
          intro fuel
          rw [show fuel + (h + 1) = (fuel + 1) + h by omega, hrun (fuel + 1), hrun2 fuel]
        · refine Or.inr ⟨hw2, ?_, hps2 _ (hps1 _ hpx), hsafe2, ?_, ?_⟩
          · intro p hp5
            simpa using hsize2 p hp5
          · rw [hsu]
            exact not_or.mpr ⟨hsafe, hsafeu⟩
          · intro fuel
            rw [show fuel + (h + 1) = (fuel + 1) + h by omega, hrun (fuel + 1), hrun2 fuel]

end BPlusTree

/-! ## B+ tree: `FreePagesInTransaction` with pending deletions, and `AdjustRoot` -/

namespace BPlusTree

variable {K V : Type} [LinearOrder K] [Inhabited K]

/-- The loop of `FreePagesInTransaction` deletes the pages of the page set that are
marked as deleted and removes their marks. -/
theorem freeLoop_spec : ∀ (S : List Int) (bpm : BufferPoolManager K V) (D : List Int),
    D.Nodup →
    (∀ q ∈ (freeLoop bpm S D).2, q ∈ D ∧ q ∉ S) ∧
    (freeLoop bpm S D).1.next_page_id = bpm.next_page_id ∧
    ∀ q, (freeLoop bpm S D).1.FetchPage q =
      if q ∈ D ∧ q ∈ S then none else bpm.FetchPage q := by
  intro S
  induction S with
  | nil =>
    intro bpm D _
    simp [freeLoop]
  | cons cur rest ih =>
    intro bpm D hD
    by_cases hc : cur ∈ D
    · simp only [freeLoop, hc, if_true]
      obtain ⟨h1, h2, h3⟩ := ih (bpm.DeletePage cur) (D.erase cur) (hD.erase cur)
      refine ⟨?_, by rw [h2]; rfl, ?_⟩
      · intro q hq
        obtain ⟨h4, h5⟩ := h1 q hq
        rw [hD.mem_erase_iff] at h4
        exact ⟨h4.2, by simp [h4.1, h5]⟩
      · intro q
        rw [h3, BufferPoolManager.FetchPage_DeletePage]
        have hiff : q ∈ D.erase cur ↔ q ≠ cur ∧ q ∈ D := hD.mem_erase_iff
        by_cases hq : cur = q
        · subst hq
          simp [hc]
        · have hq1 : ¬ q = cur := fun e => hq e.symm
          simp [hq, hq1, hiff]
    · simp only [freeLoop, hc, if_false]
      obtain ⟨h1, h2, h3⟩ := ih bpm D hD
      refine ⟨?_, h2, ?_⟩
      · intro q hq
        obtain ⟨h4, h5⟩ := h1 q hq
        refine ⟨h4, ?_⟩
        simp only [List.mem_cons, not_or]
        exact ⟨fun e => hc (e ▸ h4), h5⟩
      · intro q
        rw [h3]
        by_cases hq : q = cur
        · subst hq
          simp [hc]
        · simp [hq]

/-- The call `FreePagesInTransaction` at the end of `Remove`: the pages marked as deleted
leave the buffer pool, the other pages stay. -/
theorem FreePagesInTransaction_spec (t : BPlusTree K V) (exclusive : Bool) (x : Transaction)
    (cur : Int) (hnd : x.deleted_page_set.Nodup)
    (hsub : ∀ q ∈ x.deleted_page_set, q ∈ x.page_set) :
    ∃ t1, FreePagesInTransaction t exclusive (some x) cur = some (t1, emptyTxn) ∧
      t1.root_page_id = t.root_page_id ∧ t1.leaf_max_size = t.leaf_max_size ∧
      t1.internal_max_size = t.internal_max_size ∧
      t1.buffer_pool_manager.next_page_id = t.buffer_pool_manager.next_page_id ∧
      ∀ q, FetchPage t1 q = if q ∈ x.deleted_page_set then none else FetchPage t q := by
  obtain ⟨h1, h2, h3⟩ := freeLoop_spec x.page_set t.buffer_pool_manager x.deleted_page_set hnd
  have hnil : (freeLoop t.buffer_pool_manager x.page_set x.deleted_page_set).2 = [] := by
    rw [List.eq_nil_iff_forall_not_mem]
    intro q hq
    obtain ⟨h4, h5⟩ := h1 q hq
    exact h5 (hsub q h4)
  refine ⟨{ t with buffer_pool_manager :=
      (freeLoop t.buffer_pool_manager x.page_set x.deleted_page_set).1 }, ?_, rfl, rfl, rfl, h2,
    ?_⟩
  · simp only [FreePagesInTransaction]
    rw [if_pos hnil]
    rfl
  · intro q
    rw [FetchPage_def, h3]
    by_cases hq : q ∈ x.deleted_page_set
    · simp [hq, hsub q hq]
    · simp [hq]
      rfl

theorem WF.raise {f : Int → Option (BPlusTreePage K V)} {lm im m m1 x h : Nat}
    {pid par : Int} {lo hi : Bound K} (hw : WF f lm im m x h pid par lo hi)
    (hsz : ∀ p, f pid = some p → m1 ≤ p.GetSize) : WF f lm im m1 x h pid par lo hi := by
  cases h with
  | zero =>
    obtain ⟨array, hf, h1, h2⟩ := hw
    exact ⟨array, hf, by simpa using hsz _ hf, h2⟩
  | succ h =>
    obtain ⟨array, hf, h1, h2⟩ := hw
    exact ⟨array, hf, by simpa using hsz _ hf, h2⟩

theorem minRoot_le_minNonRoot {lm : Nat} (im : Nat) (hlm : 2 ≤ lm) (h : Nat) :
    minRoot h ≤ minNonRoot lm im h := by
  cases h with
  | zero => simp only [minRoot, minNonRoot]; omega
  | succ h => simp only [minRoot, minNonRoot]; omega

/-- The call `CoalesceOrRedistribute` on a root page below its minimum: an empty root
leaf leaves the empty tree, an internal root with one child hands the root over to the
child, and an internal root with two children stays. -/
theorem fixUp_root {lm im h : Nat} (hlm : 2 ≤ lm) {t1 : BPlusTree K V}
    (hp1 : PoolOk lm im t1) (hroot : t1.root_page_id ≠ INVALID_PAGE_ID)
    (hw : WF (FetchPage t1) lm im (minRoot h - 1) 0 h t1.root_page_id INVALID_PAGE_ID ⊥ ⊤)
    (hsize : ∀ p, FetchPage t1 t1.root_page_id = some p →
      if h = 0 then p.GetSize < p.GetMinSize else p.GetSize ≤ p.GetMinSize)
    (x1 : Transaction) (hnd : x1.deleted_page_set.Nodup) :
    ∃ t3 x3, (∀ fuel, fixUp (fuel + 1) t1 t1.root_page_id (some x1) = some (t3, some x3)) ∧
      PoolOk lm im t3 ∧
      t3.buffer_pool_manager.next_page_id = t1.buffer_pool_manager.next_page_id ∧
      x3.page_set = x1.page_set ∧ x3.deleted_page_set.Nodup ∧
      (∀ q ∈ x3.deleted_page_set, q ∈ x1.deleted_page_set ∨ q = t1.root_page_id) ∧
      ((t3.root_page_id = INVALID_PAGE_ID ∧
          ∀ k v, ¬ Holds (FetchPage t1) h t1.root_page_id k v) ∨
        (∃ h3, t3.root_page_id ≠ INVALID_PAGE_ID ∧
          WF (FetchPage t3) lm im (minRoot h3) 0 h3 t3.root_page_id INVALID_PAGE_ID ⊥ ⊤ ∧
          (∀ k v, Holds (FetchPage t3) h3 t3.root_page_id k v ↔
            Holds (FetchPage t1) h t1.root_page_id k v) ∧
          (∀ q ∈ x3.deleted_page_set, q ∉ x1.deleted_page_set →
            ¬ Under (FetchPage t3) h3 t3.root_page_id q) ∧
          ∀ q, Under (FetchPage t3) h3 t3.root_page_id q →
            Under (FetchPage t1) h t1.root_page_id q)) := by
  cases h with
  | zero =>
    obtain ⟨array, hf, _⟩ := id hw
    have h1 := hsize _ hf
    simp only [if_true, BPlusTreePage.GetSize, BPlusTreePage.GetMinSize,
      BPlusTreePage.IsRootPage, BPlusTreePage.GetParentPageId, decide_True, Bool.not_true,
      Bool.false_eq_true, if_false, BPlusTreePage.IsLeafPage] at h1
    have harr : array = [] := by
      cases array with
      | nil => rfl
      | cons e rest => simp at h1
    subst harr
    have hf1 : t1.buffer_pool_manager.FetchPage t1.root_page_id
        = some (BPlusTreePage.leaf t1.root_page_id INVALID_PAGE_ID lm []) := hf
    refine ⟨{ t1 with root_page_id := INVALID_PAGE_ID },
      x1.AddIntoDeletedPageSet t1.root_page_id, ?_, ⟨hp1.lm_eq, hp1.im_eq, hp1.ids⟩, rfl,
      page_set_AddIntoDeletedPageSet _ _, nodup_AddIntoDeletedPageSet _ _ hnd, ?_,
      Or.inl ⟨rfl, ?_⟩⟩
    · intro fuel
      simp [fixUp, CoalesceOrRedistribute, AdjustRoot, FetchPage_def, hf1,
        BPlusTreePage.IsRootPage, BPlusTreePage.GetParentPageId, BPlusTreePage.GetPageId]
    · intro q hq
      exact (mem_AddIntoDeletedPageSet _ _ _).mp hq
    · intro k v
      rw [Holds_zero_iff hf]
      simp
  | succ h =>
    have hw0 := hw
    obtain ⟨array, hf, _, hlen1, _, _, _, _, hseg⟩ := hw
    have h1 := hsize _ hf
    simp only [Nat.add_one_ne_zero, if_false, BPlusTreePage.GetSize, BPlusTreePage.GetMinSize,
      BPlusTreePage.IsRootPage, BPlusTreePage.GetParentPageId, decide_True, Bool.not_true,
      Bool.false_eq_true, BPlusTreePage.IsLeafPage] at h1
    have hf1 : t1.buffer_pool_manager.FetchPage t1.root_page_id
        = some (BPlusTreePage.internal t1.root_page_id INVALID_PAGE_ID im array) := hf
    by_cases hone : array.length = 1
    · -- the only child becomes the root
      obtain ⟨⟨k0, c0⟩, rfl⟩ : ∃ e, array = [e] := by
        match array, hone with
        | [e], _ => exact ⟨e, rfl⟩
      have hkids : kidsOf (FetchPage t1) t1.root_page_id = [c0] := by
        rw [kidsOf_internal hf]; rfl
      have hck : c0 ∈ kidsOf (FetchPage t1) t1.root_page_id := by rw [hkids]; simp
      have hwc : WF (FetchPage t1) lm im (minNonRoot lm im h) 0 h c0 t1.root_page_id ⊥ ⊤ := by
        simpa [slots, Seg, ub] using hseg
      obtain ⟨pc, hpc, _⟩ := hwc.fetch
      have hpc1 : t1.buffer_pool_manager.FetchPage c0 = some pc := hpc
      have hcr : c0 ≠ t1.root_page_id :=
        fun e => hw0.not_under_child hck (e ▸ Under.self _ _ _)
      have hrc : ¬ t1.root_page_id = c0 := fun e => hcr e.symm
      have hfetch : ∀ q, FetchPage ({ t1 with
          root_page_id := c0
          buffer_pool_manager := ((t1.buffer_pool_manager.store t1.root_page_id
            (BPlusTreePage.internal t1.root_page_id INVALID_PAGE_ID im [])).store c0
              (pc.SetParentPageId INVALID_PAGE_ID)) } : BPlusTree K V) q =
          if q = c0 then some (pc.SetParentPageId INVALID_PAGE_ID)
          else if q = t1.root_page_id then
            some (BPlusTreePage.internal t1.root_page_id INVALID_PAGE_ID im [])
          else FetchPage t1 q := by
        intro q
        simp only [FetchPage_def, BufferPoolManager.FetchPage_store]
        by_cases h2 : q = c0
        · subst h2; simp
        · have : ¬ c0 = q := fun e => h2 e.symm
          simp only [this, h2, if_false]
          by_cases h3 : q = t1.root_page_id
          · rw [h3]
          · have : ¬ t1.root_page_id = q := fun e => h3 e.symm
            simp only [this, h3, if_false]
      have hag : ∀ q, Under (FetchPage t1) h c0 q → q ≠ c0 →
          FetchPage ({ t1 with
          root_page_id := c0
          buffer_pool_manager := ((t1.buffer_pool_manager.store t1.root_page_id
            (BPlusTreePage.internal t1.root_page_id INVALID_PAGE_ID im [])).store c0
              (pc.SetParentPageId INVALID_PAGE_ID)) } : BPlusTree K V) q = FetchPage t1 q := by
        intro q hq hne
        have h3 : q ≠ t1.root_page_id := fun e => hw0.not_under_child hck (e ▸ hq)
        rw [hfetch, if_neg hne, if_neg h3]
      have hstrip : ∀ q, Under (FetchPage t1) h c0 q →
          (FetchPage ({ t1 with
          root_page_id := c0
          buffer_pool_manager := ((t1.buffer_pool_manager.store t1.root_page_id
            (BPlusTreePage.internal t1.root_page_id INVALID_PAGE_ID im [])).store c0
              (pc.SetParentPageId INVALID_PAGE_ID)) } : BPlusTree K V) q).map
            (fun p => p.SetParentPageId 0)
          = (FetchPage t1 q).map (fun p => p.SetParentPageId 0) := by
        intro q hq
        by_cases hqc : q = c0
        · subst hqc
          rw [hfetch, if_pos rfl, hpc]
          cases pc <;> rfl
        · rw [hag q hq hqc]
      refine ⟨({ t1 with
          root_page_id := c0
          buffer_pool_manager := ((t1.buffer_pool_manager.store t1.root_page_id
            (BPlusTreePage.internal t1.root_page_id INVALID_PAGE_ID im [])).store c0
              (pc.SetParentPageId INVALID_PAGE_ID)) } : BPlusTree K V),
        x1.AddIntoDeletedPageSet t1.root_page_id, ?_, ⟨hp1.lm_eq, hp1.im_eq, ?_⟩, rfl,
        page_set_AddIntoDeletedPageSet _ _, nodup_AddIntoDeletedPageSet _ _ hnd, ?_,
        Or.inr ⟨h, ?_, ?_, ?_, ?_, ?_⟩⟩
      · intro fuel
        simp [fixUp, CoalesceOrRedistribute, AdjustRoot, FetchPage_def, hf1,
          BPlusTreePage.IsRootPage, BPlusTreePage.GetParentPageId, BPlusTreePage.GetPageId,
          BPlusTreeInternalPage.RemoveAndReturnOnlyChild, BufferPoolManager.SetParentPageId,
          hrc, hpc1]
      · intro q p hq
        rw [hfetch] at hq
        show 0 ≤ q ∧ q < t1.buffer_pool_manager.next_page_id
        by_cases h2 : q = c0
        · subst h2; exact hp1.ids _ _ hpc
        · rw [if_neg h2] at hq
          by_cases h3 : q = t1.root_page_id
          · rw [h3]; exact hp1.ids _ _ hf
          · rw [if_neg h3] at hq
            exact hp1.ids _ _ hq
      · intro q hq
        exact (mem_AddIntoDeletedPageSet _ _ _).mp hq
      · show c0 ≠ INVALID_PAGE_ID
        intro e
        have := (hp1.ids _ _ hpc).1
        rw [e] at this
        simp [INVALID_PAGE_ID] at this
      · refine WF.mono (WF.reparent hwc INVALID_PAGE_ID ?_ hag) (minRoot_le_minNonRoot im hlm h)
        intro p hp
        rw [hpc] at hp
        cases hp
        rw [hfetch, if_pos rfl]
      · intro k v
        show Holds _ h c0 k v ↔ _
        rw [Holds.holds_congr_parent h c0 hstrip k v, Holds_succ_iff hf]
        simp
      · intro q hq hq1
        show ¬ Under _ h c0 q
        rcases (mem_AddIntoDeletedPageSet _ _ _).mp hq with hq2 | rfl
        · exact absurd hq2 hq1
        · intro hu
          exact hw0.not_under_child hck ((Under.under_congr_parent h c0 hstrip _).mp hu)
      · intro q hq
        exact Under.of_child hck ((Under.under_congr_parent h c0 hstrip q).mp hq)
    · -- the root keeps its two children
      refine ⟨t1, x1, ?_, hp1, rfl, rfl, hnd, fun q hq => Or.inl hq,
        Or.inr ⟨h + 1, hroot, ?_, fun k v => Iff.rfl, fun q hq hq1 => absurd hq hq1,
          fun q hq => hq⟩⟩
      · intro fuel
        simp [fixUp, CoalesceOrRedistribute, AdjustRoot, FetchPage_def, hf1,
          BPlusTreePage.IsRootPage, BPlusTreePage.GetParentPageId, hone]
      · refine hw0.raise ?_
        intro p hp
        rw [hf] at hp
        cases hp
        simp only [BPlusTreePage.GetSize, minRoot]
        omega

end BPlusTree

/-! ## B+ tree: `Remove` -/

namespace BPlusTree

variable {K V : Type} [LinearOrder K] [Inhabited K]

/-- The end of `Remove`: the pages marked as deleted, none of them a page of the tree,
leave the buffer pool, and the tree satisfies the invariant. -/
theorem Inv.of_free {lm im : Nat} (hlm : 2 ≤ lm) (him : 3 ≤ im) {t3 : BPlusTree K V}
    (hp3 : PoolOk lm im t3) (hnn : 0 ≤ t3.buffer_pool_manager.next_page_id)
    (x3 : Transaction) (hnd : x3.deleted_page_set.Nodup)
    (hsub : ∀ q ∈ x3.deleted_page_set, q ∈ x3.page_set) (P : K → V → Prop)
    (htree : (t3.root_page_id = INVALID_PAGE_ID ∧ ∀ k v, ¬ P k v) ∨
      ∃ h3, t3.root_page_id ≠ INVALID_PAGE_ID ∧
        WF (FetchPage t3) lm im (minRoot h3) 0 h3 t3.root_page_id INVALID_PAGE_ID ⊥ ⊤ ∧
        (∀ k v, Holds (FetchPage t3) h3 t3.root_page_id k v ↔ P k v) ∧
        ∀ q ∈ x3.deleted_page_set, ¬ Under (FetchPage t3) h3 t3.root_page_id q) :
    ∃ t4, FreePagesInTransaction t3 true (some x3) (-1) = some (t4, emptyTxn) ∧ Inv t4 ∧
      t4.leaf_max_size = lm ∧ t4.internal_max_size = im ∧
      ∀ k v, Stored t4 k v ↔ P k v := by
  obtain ⟨t4, hfree, hroot4, hlm4, him4, hnext4, hfetch4⟩ :=
    FreePagesInTransaction_spec t3 true x3 (-1) hnd hsub
  have hids : ∀ q p, FetchPage t4 q = some p →
      0 ≤ q ∧ q < t4.buffer_pool_manager.next_page_id := by
    intro q p hq
    rw [hnext4]
    rw [hfetch4] at hq
    by_cases hqd : q ∈ x3.deleted_page_set
    · rw [if_pos hqd] at hq
      cases hq
    · rw [if_neg hqd] at hq
      exact hp3.ids _ _ hq
  refine ⟨t4, hfree, ?_, by rw [hlm4]; exact hp3.lm_eq, by rw [him4]; exact hp3.im_eq, ?_⟩
  · refine ⟨by rw [hlm4, hp3.lm_eq]; exact hlm, by rw [him4, hp3.im_eq]; exact him, hids,
      by rw [hnext4]; exact hnn, ?_⟩
    rcases htree with ⟨hr, _⟩ | ⟨h3, hr, hw, _, hdel⟩
    · exact Or.inl (by rw [hroot4]; exact hr)
    · refine Or.inr ⟨h3, ?_⟩
      rw [hroot4, hlm4, him4, hp3.lm_eq, hp3.im_eq]
      refine WF.congr h3 _ _ _ _ _ _ ?_ hw
      intro q hq
      rw [hfetch4, if_neg (fun hqd => hdel q hqd hq)]
  · intro k v
    rcases htree with ⟨hr, hP⟩ | ⟨h3, hr, hw, hholds, hdel⟩
    · constructor
      · intro hs
        exact absurd hs (not_Stored_of_empty (by rw [hroot4]; exact hr) k v)
      · intro hs
        exact absurd hs (hP k v)
    · have hag : ∀ q, Under (FetchPage t3) h3 t3.root_page_id q →
          FetchPage t4 q = FetchPage t3 q := by
        intro q hq
        rw [hfetch4, if_neg (fun hqd => hdel q hqd hq)]
      have hw4 : WF (FetchPage t4) lm im (minRoot h3) 0 h3 t4.root_page_id INVALID_PAGE_ID
          ⊥ ⊤ := by
        rw [hroot4]
        exact WF.congr h3 _ _ _ _ _ _ hag hw
      rw [Stored_iff_Holds (by rw [hroot4]; exact hr) hw4, hroot4,
        Holds.holds_congr h3 _ hag k v, hholds]

/-- The statements of `Remove` behind the descent, for a key whose leaf is `L`. -/
theorem Remove_eq_fixLeaf (fuel : Nat) (t : BPlusTree K V) (key : K)
    (txn txn1 : Option Transaction) (L a b : Int) (mx : Nat) (arr : List (K × V))
    (hroot : t.root_page_id ≠ INVALID_PAGE_ID)
    (hfind : FindLeafPage fuel t key false OpType.DELETE txn = some (some L, t, txn1))
    (hf : FetchPage t L = some (BPlusTreePage.leaf a b mx arr)) :
    Remove fuel t key txn =
      (fixLeaf fuel { t with buffer_pool_manager := (t.buffer_pool_manager.store L
          (BPlusTreePage.leaf a b mx (BPlusTreeLeafPage.RemoveAndDeleteRecord arr key))) }
        L txn1).bind (fun r => FreePagesInTransaction r.1 true r.2 (-1)) := by
  have hf1 : t.buffer_pool_manager.FetchPage L = some (BPlusTreePage.leaf a b mx arr) := hf
  by_cases hlt : (BPlusTreeLeafPage.RemoveAndDeleteRecord arr key).length
      < (BPlusTreePage.leaf a b mx (BPlusTreeLeafPage.RemoveAndDeleteRecord arr key)
        : BPlusTreePage K V).GetMinSize
  · simp only [Remove, IsEmpty, hroot, decide_False, Bool.false_eq_true, if_false, hfind,
      Option.bind_eq_bind, Option.some_bind, FetchPage_def, hf1, hlt, if_true, fixLeaf,
      BufferPoolManager.FetchPage_store, BPlusTreePage.GetSize, fixUp]
    cases CoalesceOrRedistribute fuel _ L txn1 <;> rfl
  · simp only [Remove, IsEmpty, hroot, decide_False, Bool.false_eq_true, if_false, hfind,
      Option.bind_eq_bind, Option.some_bind, FetchPage_def, hf1, hlt, fixLeaf,
      BufferPoolManager.FetchPage_store, BPlusTreePage.GetSize, if_true]

end BPlusTree

/-! ## B+ tree: the result of `Remove` does not depend on the fuel -/

namespace BPlusTree

variable {K V : Type} [LinearOrder K] [Inhabited K]

theorem bind_mono_left {α β : Type} (x x1 : Option α) (g : α → Option β) (r : β)
    (hx : ∀ a, x = some a → x1 = some a) (h : x.bind g = some r) : x1.bind g = some r := by
  cases x with
  | none => cases h
  | some a => rw [hx a rfl]; exact h

theorem Coalesce_mono
    (rec1 rec2 : BPlusTree K V → Int → Option Transaction →
      Option (Bool × BPlusTree K V × Option Transaction))
    (hrec : ∀ t node txn r, rec1 t node txn = some r → rec2 t node txn = some r)
    (t : BPlusTree K V) (neighbor_node node parent : Int) (index : Nat)
    (txn : Option Transaction) (r : Bool × BPlusTree K V × Option Transaction)
    (h : Coalesce rec1 t neighbor_node node parent index txn = some r) :
    Coalesce rec2 t neighbor_node node parent index txn = some r := by
  unfold Coalesce at h ⊢
  refine bind_mono _ _ _ r ?_ h
  intro nodePage h1
  refine bind_mono _ _ _ r ?_ h1
  intro neighborPage h2
  by_cases hsz : nodePage.GetSize + neighborPage.GetSize ≤ nodePage.GetMaxSize
  · simp only [hsz, not_true_eq_false, if_false] at h2 ⊢
    have key : ∀ (o : Option (BufferPoolManager K V)),
        (o.bind fun bpm1 => txn.bind fun x =>
          (bpm1.FetchPage parent).bind fun pp =>
            match pp with
            | BPlusTreePage.leaf _ _ _ _ => none
            | BPlusTreePage.internal ppid pparent pmax parray =>
              (BPlusTreeInternalPage.Remove parray index).bind fun parray1 =>
                if (BPlusTreePage.internal ppid pparent pmax parray1 : BPlusTreePage K V).GetSize
                    ≤ (BPlusTreePage.internal ppid pparent pmax parray1
                      : BPlusTreePage K V).GetMinSize then
                  rec1 { t with buffer_pool_manager :=
                    (bpm1.store parent (BPlusTreePage.internal ppid pparent pmax parray1)) }
                    parent (some (x.AddIntoDeletedPageSet nodePage.GetPageId))
                else some (false, { t with buffer_pool_manager :=
                    (bpm1.store parent (BPlusTreePage.internal ppid pparent pmax parray1)) },
                  some (x.AddIntoDeletedPageSet nodePage.GetPageId))) = some r →
        (o.bind fun bpm1 => txn.bind fun x =>
          (bpm1.FetchPage parent).bind fun pp =>
            match pp with
            | BPlusTreePage.leaf _ _ _ _ => none
            | BPlusTreePage.internal ppid pparent pmax parray =>
              (BPlusTreeInternalPage.Remove parray index).bind fun parray1 =>
                if (BPlusTreePage.internal ppid pparent pmax parray1 : BPlusTreePage K V).GetSize
                    ≤ (BPlusTreePage.internal ppid pparent pmax parray1
                      : BPlusTreePage K V).GetMinSize then
                  rec2 { t with buffer_pool_manager :=
                    (bpm1.store parent (BPlusTreePage.internal ppid pparent pmax parray1)) }
                    parent (some (x.AddIntoDeletedPageSet nodePage.GetPageId))
                else some (false, { t with buffer_pool_manager :=
                    (bpm1.store parent (BPlusTreePage.internal ppid pparent pmax parray1)) },
                  some (x.AddIntoDeletedPageSet nodePage.GetPageId))) = some r := by
      intro o ho
      refine bind_mono _ _ _ r ?_ ho
      intro bpm1 h3
      refine bind_mono _ _ _ r ?_ h3
      intro x h4
      refine bind_mono _ _ _ r ?_ h4
      intro pp h5
      cases pp with
      | leaf a b c d => exact h5
      | internal a b c d =>
        refine bind_mono _ _ _ r ?_ h5
        intro parray1 h6
        by_cases hc : (BPlusTreePage.internal a b c parray1 : BPlusTreePage K V).GetSize
            ≤ (BPlusTreePage.internal a b c parray1 : BPlusTreePage K V).GetMinSize
        · simp only [hc, if_true] at h6 ⊢
          exact hrec _ _ _ _ h6
        · simp only [hc, if_false] at h6 ⊢
          exact h6
    cases hleaf : nodePage.IsLeafPage
    · simp only [hleaf, Bool.false_eq_true, if_false] at h2 ⊢
      exact key _ h2
    · simp only [hleaf, if_true] at h2 ⊢
      exact key _ h2
  · simp only [hsz, not_false_eq_true, if_true] at h2
    cases h2

theorem CoalesceOrRedistribute_mono :
    ∀ (fuel : Nat) (t : BPlusTree K V) (node : Int) (txn : Option Transaction)
      (r : Bool × BPlusTree K V × Option Transaction),
      CoalesceOrRedistribute fuel t node txn = some r →
      CoalesceOrRedistribute (fuel + 1) t node txn = some r := by
  intro fuel
  induction fuel with
  | zero => intro t node txn r h; cases h
  | succ fuel ih =>
    intro t node txn r h
    rw [CoalesceOrRedistribute] at h ⊢
    refine bind_mono _ _ _ r ?_ h
    intro nodePage h1
    cases hroot : nodePage.IsRootPage
    · simp only [hroot, Bool.false_eq_true, if_false] at h1 ⊢
      refine bind_mono _ _ _ r ?_ h1
      intro r1 h2
      refine bind_mono _ _ _ r ?_ h2
      intro node2Page h3
      refine bind_mono _ _ _ r ?_ h3
      intro pp h4
      cases pp with
      | leaf a b c d => exact h4
      | internal a b c parray =>
        by_cases hsz : nodePage.GetSize + node2Page.GetSize ≤ nodePage.GetMaxSize
        · simp only [hsz, if_true] at h4 ⊢
          refine bind_mono _ _ _ r ?_ h4
          intro node3Page h5
          refine bind_mono _ _ _ r ?_ h5
          intro removeIndex h6
          exact bind_mono_left _ _ _ r (fun r2 hr2 => Coalesce_mono
            (CoalesceOrRedistribute fuel) (CoalesceOrRedistribute (fuel + 1)) ih _ _ _ _ _ _
            r2 hr2) h6
        · simp only [hsz, if_false] at h4 ⊢
          exact h4
    · simp only [hroot, if_true] at h1 ⊢
      exact h1

theorem Remove_fuel (fuel : Nat) (t : BPlusTree K V) (key : K)
    (txn : Option Transaction) (r : BPlusTree K V × Option Transaction)
    (h : Remove fuel t key txn = some r) : Remove (fuel + 1) t key txn = some r := by
  unfold Remove at h ⊢
  split
  · rename_i he; rw [if_pos he] at h; exact h
  · rename_i he
    rw [if_neg he] at h
    cases hfl : FindLeafPage fuel t key false OpType.DELETE txn with
    | none => simp [hfl] at h
    | some r1 =>
      rw [FindLeafPage_mono key false OpType.DELETE fuel t txn r1 hfl]
      rw [hfl] at h
      refine bind_mono _ _ _ r ?_ h
      intro r2 h2
      refine bind_mono _ _ _ r ?_ h2
      intro L h3
      refine bind_mono _ _ _ r ?_ h3
      intro pg h4
      cases pg with
      | internal a b c d => exact h4
      | leaf a b c d =>
        by_cases hlt : (BPlusTreeLeafPage.RemoveAndDeleteRecord d key).length
            < (BPlusTreePage.leaf a b c (BPlusTreeLeafPage.RemoveAndDeleteRecord d key)
              : BPlusTreePage K V).GetMinSize
        · simp only [hlt, if_true] at h4 ⊢
          exact bind_mono_left _ _ _ r
            (fun r6 hr6 => CoalesceOrRedistribute_mono fuel _ _ _ r6 hr6) h4
        · simp only [hlt, if_false] at h4 ⊢
          exact h4

theorem Remove_fuel_le (t : BPlusTree K V) (key : K)
    (txn : Option Transaction) (r : BPlusTree K V × Option Transaction) (n : Nat)
    (h : Remove n t key txn = some r) :
    ∀ fuel, n ≤ fuel → Remove fuel t key txn = some r := by
  intro fuel hle
  induction fuel, hle using Nat.le_induction with
  | base => exact h
  | succ m _ ih => exact Remove_fuel m t key txn r ih

end BPlusTree
/-! ## B+ tree: `Remove` keeps the invariant -/

namespace BPlusTree

variable {K V : Type} [LinearOrder K] [Inhabited K]

/-- The call `Remove(key, txn)` on a tree that satisfies the invariant returns for
enough fuel, the tree satisfies the invariant afterwards, and the pairs stored in it
are the former ones without the pair of `key`. -/
theorem Inv.Remove_eq {t : BPlusTree K V} (hinv : Inv t) (key : K)
    (x : Transaction) (hd : x.deleted_page_set = []) :
    ∃ n t1 txn1,
      (∀ fuel, n ≤ fuel → Remove fuel t key (some x) = some (t1, txn1)) ∧
      TxnOk OpType.DELETE txn1 ∧ Inv t1 ∧
      t1.leaf_max_size = t.leaf_max_size ∧ t1.internal_max_size = t.internal_max_size ∧
      ∀ k v, Stored t1 k v ↔ Stored t k v ∧ k ≠ key := by
  by_cases hroot : t.root_page_id = INVALID_PAGE_ID
  · refine ⟨0, t, some x, ?_, hd, hinv, rfl, rfl, ?_⟩
    · intro fuel _
      simp [Remove, IsEmpty, hroot]
    · intro k v
      constructor
      · intro hs; exact absurd hs (not_Stored_of_empty hroot k v)
      · intro hs; exact hs.1
  · obtain ⟨h, hw⟩ := hinv.tree.resolve_left hroot
    have hp := hinv.poolOk
    have hlm := hinv.leaf_max
    have him := hinv.internal_max
    have hkey : bnd key < (⊤ : Bound K) := lt_of_lt_of_le bnd_lt_top (le_refl _)
    obtain ⟨par1, lo1, hi1, hwl, _, _, _, _⟩ := leafOf_spec key h _ _ _ _ _ _ hw bot_le hkey
    obtain ⟨array, hf, _⟩ := hwl
    obtain ⟨x1, hfind, hd1, hcover⟩ := FindLeafPage_delete key x hroot hw hd (h + 1) (le_refl _)
    have hmG : ∀ p, FetchPage t t.root_page_id = some p →
        minRoot h ≤ p.GetMinSize + (if h = 0 then 0 else 1) := by
      intro p hpf
      cases h with
      | zero =>
        obtain ⟨arr0, hf0, _⟩ := hw
        rw [hf0] at hpf
        cases hpf
        simp [minRoot, BPlusTreePage.GetMinSize, BPlusTreePage.IsRootPage,
          BPlusTreePage.GetParentPageId, BPlusTreePage.IsLeafPage]
      | succ h0 =>
        obtain ⟨arr0, hf0, _⟩ := hw
        rw [hf0] at hpf
        cases hpf
        simp [minRoot, BPlusTreePage.GetMinSize, BPlusTreePage.IsRootPage,
          BPlusTreePage.GetParentPageId, BPlusTreePage.IsLeafPage]
    have hm2 : h = 0 ∨ 2 ≤ minRoot h := by
      cases h with
      | zero => exact Or.inl rfl
      | succ h0 => exact Or.inr (le_refl _)
    obtain ⟨t1, x2, hp1, hroot1, hnext1, hholds1, hunder1, _, hps1, hnd1, hdel1, hcase⟩ :=
      sink hlm him key h (minRoot h) t t.root_page_id INVALID_PAGE_ID ⊥ ⊤ x1 _ _ _ array
        hp hw hm2 hmG bot_le hkey hf hd1 hcover
    have hrem := Remove_eq_fixLeaf (h + 1) t key (some x) (some x1) _ _ _ _ array hroot hfind hf
    have hnn1 : 0 ≤ t1.buffer_pool_manager.next_page_id := by
      rw [hnext1]; exact hinv.next_nonneg
    rcases hcase with ⟨hw1, hrun⟩ | ⟨hw1, hsize1, hrootin, _, _, hrun⟩
    · -- the pages below the root absorb the removal
      obtain ⟨t4, hfree, hinv4, hlm4, him4, hst4⟩ := Inv.of_free hlm him hp1 hnn1 x2 hnd1
        (fun q hq => (hdel1 q hq).1) (fun k v => Stored t k v ∧ k ≠ key)
        (Or.inr ⟨h, by rw [hroot1]; exact hroot, by rw [hroot1]; exact hw1, by
          intro k v
          show Holds _ _ _ k v ↔ Stored t k v ∧ k ≠ key
          rw [hroot1, hholds1, Stored_iff_Holds hroot hw], by
          intro q hq
          rw [hroot1]
          exact (hdel1 q hq).2.2⟩)
      have hr : Remove (h + 1) t key (some x) = some (t4, emptyTxn) := by
        have e := hrun 1
        rw [Nat.add_comm 1 h] at e
        rw [hrem, e]
        exact hfree
      exact ⟨h + 1, t4, emptyTxn, fun fuel hfuel => Remove_fuel_le _ _ _ _ _ hr fuel hfuel,
        rfl, hinv4, hlm4, him4, hst4⟩
    · -- the root page is adjusted
      have hroot1n : t1.root_page_id ≠ INVALID_PAGE_ID := by rw [hroot1]; exact hroot
      obtain ⟨t3, x3, hrun3, hp3, hnext3, hps3, hnd3, hdel3, hcase3⟩ :=
        fixUp_root hlm hp1 hroot1n (by rw [hroot1]; exact hw1)
          (by rw [hroot1]; exact hsize1) x2 hnd1
      have hnn3 : 0 ≤ t3.buffer_pool_manager.next_page_id := by
        rw [hnext3]; exact hnn1
      have hsub3 : ∀ q ∈ x3.deleted_page_set, q ∈ x3.page_set := by
        intro q hq
        rw [hps3]
        rcases hdel3 q hq with h1 | h1
        · exact (hdel1 q h1).1
        · rw [h1, hroot1]; exact hrootin
      obtain ⟨t4, hfree, hinv4, hlm4, him4, hst4⟩ := Inv.of_free hlm him hp3 hnn3 x3 hnd3
        hsub3 (fun k v => Stored t k v ∧ k ≠ key) (by
          rcases hcase3 with ⟨hr3, hnone⟩ | ⟨h3, hr3, hw3, hholds3, hnew3, hunder3⟩
          · refine Or.inl ⟨hr3, ?_⟩
            intro k v hs
            have hs : Stored t k v ∧ k ≠ key := hs
            rw [Stored_iff_Holds hroot hw, ← hholds1, ← hroot1] at hs
            exact hnone k v hs
          · refine Or.inr ⟨h3, hr3, hw3, ?_, ?_⟩
            · intro k v
              show Holds _ _ _ k v ↔ Stored t k v ∧ k ≠ key
              rw [hholds3, hroot1, hholds1, Stored_iff_Holds hroot hw]
            · intro q hq
              by_cases hq1 : q ∈ x2.deleted_page_set
              · intro hu
                have := hunder3 q hu
                rw [hroot1] at this
                exact (hdel1 q hq1).2.2 this
              · exact hnew3 q hq hq1)
      have hr : Remove (h + 1) t key (some x) = some (t4, emptyTxn) := by
        have e := hrun 1
        rw [Nat.add_comm 1 h] at e
        have e3 := hrun3 0
        rw [Nat.zero_add, hroot1] at e3
        rw [hrem, e, e3]
        exact hfree
      exact ⟨h + 1, t4, emptyTxn, fun fuel hfuel => Remove_fuel_le _ _ _ _ _ hr fuel hfuel,
        rfl, hinv4, hlm4, him4, hst4⟩

end BPlusTree
/-! ## B+ tree: the reachable states -/

namespace BPlusTree

variable {K V : Type} [LinearOrder K] [Inhabited K]

/-- A new tree satisfies the invariant. -/
theorem Inv.of_new (lm im : Nat) (first : Int) (hlm : 2 ≤ lm) (him : 3 ≤ im)
    (hfirst : 0 ≤ first) : Inv (new lm im first : BPlusTree K V) := by
  refine ⟨hlm, him, ?_, hfirst, Or.inl rfl⟩
  intro q p hq
  simp [FetchPage, new, BufferPoolManager.FetchPage, StdMap.find] at hq

/-- A call of `Insert` that returns, on a tree that satisfies the invariant. -/
theorem Inv.Insert_run {t : BPlusTree K V} (hinv : Inv t) {fuel : Nat} {key : K} {value : V}
    {res : Bool} {t1 : BPlusTree K V} {txn1 : Option Transaction}
    (hrun : Insert fuel t key value emptyTxn = some (res, t1, txn1)) :
    Inv t1 ∧ t1.leaf_max_size = t.leaf_max_size ∧
      t1.internal_max_size = t.internal_max_size ∧
      (res = true ↔ ∀ v, ¬ Stored t key v) ∧ (res = false → t1 = t) ∧
      ∀ k v, Stored t1 k v ↔ (res = true ∧ k = key ∧ v = value) ∨ Stored t k v := by
  obtain ⟨n, res0, t0, txn0, hall, _, hinv0, hlm0, him0, h1, h2, h3⟩ :=
    hinv.Insert_eq key value ⟨[], []⟩ rfl
  have e1 : Insert (max n fuel) t key value emptyTxn = some (res0, t0, txn0) :=
    hall (max n fuel) (le_max_left _ _)
  have e2 := Insert_fuel_le _ _ (le_max_right n fuel) _ _ _ _ _ hrun
  rw [e1] at e2
  simp only [Option.some.injEq, Prod.mk.injEq] at e2
  obtain ⟨rfl, rfl, rfl⟩ := e2
  exact ⟨hinv0, hlm0, him0, h1, h2, h3⟩

/-- A call of `Remove` that returns, on a tree that satisfies the invariant. -/
theorem Inv.Remove_run {t : BPlusTree K V} (hinv : Inv t) {fuel : Nat} {key : K}
    {t1 : BPlusTree K V} {txn1 : Option Transaction}
    (hrun : Remove fuel t key emptyTxn = some (t1, txn1)) :
    Inv t1 ∧ t1.leaf_max_size = t.leaf_max_size ∧
      t1.internal_max_size = t.internal_max_size ∧
      ∀ k v, Stored t1 k v ↔ Stored t k v ∧ k ≠ key := by
  obtain ⟨n, t0, txn0, hall, _, hinv0, hlm0, him0, h3⟩ := hinv.Remove_eq key ⟨[], []⟩ rfl
  have e1 : Remove (max n fuel) t key emptyTxn = some (t0, txn0) :=
    hall (max n fuel) (le_max_left _ _)
  have e2 := Remove_fuel_le _ _ _ _ _ hrun (max n fuel) (le_max_right n fuel)
  rw [e1] at e2
  simp only [Option.some.injEq, Prod.mk.injEq] at e2
  obtain ⟨rfl, rfl⟩ := e2
  exact ⟨hinv0, hlm0, him0, h3⟩

/-- Every reachable tree satisfies the invariant and keeps the capacities it was
constructed with. -/
theorem Reachable.tree_inv {lm im : Nat} {first : Int} (hlm : 2 ≤ lm) (him : 3 ≤ im)
    (hfirst : 0 ≤ first) {t : BPlusTree K V} (h : Reachable lm im first t) :
    Inv t ∧ t.leaf_max_size = lm ∧ t.internal_max_size = im := by
  induction h with
  | new => exact ⟨Inv.of_new lm im first hlm him hfirst, rfl, rfl⟩
  | insert fuel t key value res t1 txn1 _ hrun ih =>
    obtain ⟨h1, h2, h3, _⟩ := ih.1.Insert_run hrun
    exact ⟨h1, by rw [h2]; exact ih.2.1, by rw [h3]; exact ih.2.2⟩
  | remove fuel t key t1 txn1 _ hrun ih =>
    obtain ⟨h1, h2, h3, _⟩ := ih.1.Remove_run hrun
    exact ⟨h1, by rw [h2]; exact ih.2.1, by rw [h3]; exact ih.2.2⟩

/-- The trees after a list of inserts on a reachable tree are reachable. -/
theorem Reachable.after_insertAll {lm im : Nat} {first : Int} (fuel : Nat) :
    ∀ (l : List (K × V)) (t t1 : BPlusTree K V), Reachable lm im first t →
      insertAll fuel t l = some t1 → Reachable lm im first t1 := by
  intro l
  induction l with
  | nil =>
    intro t t1 hr h
    simp only [insertAll, Option.some.injEq] at h
    exact h ▸ hr
  | cons e rest ih =>
    intro t t1 hr h
    obtain ⟨k, v⟩ := e
    simp only [insertAll] at h
    cases hi : Insert fuel t k v emptyTxn with
    | none => rw [hi] at h; cases h
    | some r =>
      obtain ⟨res, t2, txn2⟩ := r
      rw [hi] at h
      exact ih t2 t1 (Reachable.insert fuel t k v res t2 txn2 hr hi) h

/-- The trees after a list of removals on a reachable tree are reachable. -/
theorem Reachable.after_removeAll {lm im : Nat} {first : Int} (fuel : Nat) :
    ∀ (l : List K) (t t1 : BPlusTree K V), Reachable lm im first t →
      removeAll fuel t l = some t1 → Reachable lm im first t1 := by
  intro l
  induction l with
  | nil =>
    intro t t1 hr h
    simp only [removeAll, Option.some.injEq] at h
    exact h ▸ hr
  | cons k rest ih =>
    intro t t1 hr h
    simp only [removeAll] at h
    cases hi : Remove fuel t k emptyTxn with
    | none => rw [hi] at h; cases h
    | some r =>
      obtain ⟨t2, txn2⟩ := r
      rw [hi] at h
      exact ih t2 t1 (Reachable.remove fuel t k t2 txn2 hr hi) h

/-- The tree `tree5` is the tree after the inserts of 1 .. 5. -/
theorem tree5_reachable : Reachable 4 4 1 tree5 :=
  Reachable.after_insertAll 2 [(1, 10), (2, 20), (3, 30), (4, 40), (5, 50)] _ _ Reachable.new
    (by decide)

/-- The tree `tree7` is the tree after the inserts of 1 .. 7. -/
theorem tree7_reachable : Reachable 4 4 1 tree7 :=
  Reachable.after_insertAll 2 [(1, 10), (2, 20), (3, 30), (4, 40), (5, 50), (6, 60), (7, 70)]
    _ _ Reachable.new (by decide)

/-- The tree `oddTree` is the tree after the inserts of 1 .. 4 and the removal of 1, with
the capacities 3. -/
theorem oddTree_reachable : Reachable 3 3 1 oddTree :=
  Reachable.after_removeAll 2 [1]
    ⟨3, ⟨[(1, BPlusTreePage.leaf 1 3 3 [(1, 10), (2, 20)]),
          (2, BPlusTreePage.leaf 2 3 3 [(3, 30), (4, 40)]),
          (3, BPlusTreePage.internal 3 (-1) 3 [(0, 1), (3, 2)])], 4⟩, 3, 3⟩ _
    (Reachable.after_insertAll 2 [(1, 10), (2, 20), (3, 30), (4, 40)] _ _ Reachable.new
      (by decide))
    (by decide)

end BPlusTree
/-! ## B+ tree: consequences of the invariant -/

namespace BPlusTree

variable {K V : Type} [LinearOrder K] [Inhabited K]

/-- The loop of `isBalanced` over children that all return `d`, once the first one has
set `last`. -/
theorem balancedLoop_const (recurse : Int → Option Int) (d : Nat) :
    ∀ (l : List Int), (∀ c ∈ l, recurse c = some (d : Int)) →
      balancedLoop recurse l (d : Int) ((d : Int) + 1) = some ((d : Int) + 1) := by
  intro l
  induction l with
  | nil => intro _; rfl
  | cons c rest ih =>
    intro hl
    have hc := hl c (List.mem_cons_self _ _)
    have hne : ¬ ((d : Int) = -2) := by omega
    simp only [balancedLoop, hc, Option.bind_eq_bind, Option.some_bind, hne, and_false,
      if_false, ne_eq, not_true_eq_false]
    exact ih (fun c1 hc1 => hl c1 (List.mem_cons_of_mem _ hc1))

/-- On a subtree of height `h` that satisfies the invariant `isBalanced` returns `h`. -/
theorem isBalanced_of_WF {t : BPlusTree K V} (hroot : t.root_page_id ≠ INVALID_PAGE_ID)
    {lm im : Nat} :
    ∀ (h m x : Nat) (pid par : Int) (lo hi : Bound K),
      WF (FetchPage t) lm im m x h pid par lo hi →
      ∀ fuel, h + 1 ≤ fuel → isBalanced fuel t pid = some (h : Int) := by
  intro h
  induction h with
  | zero =>
    intro m x pid par lo hi hw fuel hfuel
    obtain ⟨array, hf, _⟩ := hw
    obtain ⟨fuel1, rfl⟩ : ∃ fuel1, fuel = fuel1 + 1 := ⟨fuel - 1, by omega⟩
    simp [isBalanced, IsEmpty, hroot, hf]
  | succ h ih =>
    intro m x pid par lo hi hw fuel hfuel
    obtain ⟨fuel1, rfl⟩ : ∃ fuel1, fuel = fuel1 + 1 := ⟨fuel - 1, by omega⟩
    have hkids : ∀ c ∈ kidsOf (FetchPage t) pid, isBalanced fuel1 t c = some (h : Int) := by
      intro c hc
      obtain ⟨l, u, hwc⟩ := hw.child hc
      exact ih _ _ _ _ _ _ hwc fuel1 (by omega)
    obtain ⟨array, hf, _, hlen, _⟩ := hw
    rw [kidsOf_internal hf] at hkids
    cases array with
    | nil => simp at hlen
    | cons e rest =>
      have he := hkids e.2 (by simp)
      have hrest := balancedLoop_const (isBalanced fuel1 t) h (rest.map Prod.snd)
        (fun c hc => hkids c (by simp only [List.map_cons, List.mem_cons]; exact Or.inr hc))
      have hge : (h : Int) ≥ 0 := by omega
      simp only [isBalanced, IsEmpty, hroot, decide_False, Bool.false_eq_true, if_false, hf,
        Option.bind_eq_bind, Option.some_bind, List.map_cons, balancedLoop, he, hge,
        and_self, if_true, hrest]
      simp

/-- A page `d` levels below the root of a tree of height `h` is the root of a subtree
of height `h - d`. -/
theorem DepthOf.height {t : BPlusTree K V} {lm im m x h : Nat} {par : Int} {lo hi : Bound K}
    (hw : WF (FetchPage t) lm im m x h t.root_page_id par lo hi) {q : Int} {d : Nat}
    (hq : DepthOf t q d) :
    ∃ m1 x1 h1 par1 lo1 hi1, h1 + d = h ∧ WF (FetchPage t) lm im m1 x1 h1 q par1 lo1 hi1 := by
  induction hq with
  | root _ => exact ⟨m, x, h, par, lo, hi, rfl, hw⟩
  | child p a b mx array e d _ hf he ih =>
    obtain ⟨m1, x1, h1, par1, lo1, hi1, hh, hw1⟩ := ih
    cases h1 with
    | zero =>
      obtain ⟨arr, hf1, _⟩ := hw1
      rw [hf] at hf1
      cases hf1
    | succ h2 =>
      obtain ⟨l, u, hwc⟩ := hw1.child (c := e.2)
        (by rw [kidsOf_internal hf]; exact List.mem_map_of_mem _ he)
      exact ⟨_, _, h2, p, l, u, by omega, hwc⟩

/-- The leaves of a tree of height `h` are `h` levels below the root. -/
theorem DepthOf.leaf_depth {t : BPlusTree K V} {lm im m x h : Nat} {par : Int}
    {lo hi : Bound K} (hw : WF (FetchPage t) lm im m x h t.root_page_id par lo hi)
    {q : Int} {d : Nat} (hq : DepthOf t q d) {a b : Int} {mx : Nat} {arr : List (K × V)}
    (hf : FetchPage t q = some (BPlusTreePage.leaf a b mx arr)) : d = h := by
  obtain ⟨m1, x1, h1, par1, lo1, hi1, hh, hw1⟩ := hq.height hw
  cases h1 with
  | zero => omega
  | succ h2 =>
    obtain ⟨arr1, hf1, _⟩ := hw1
    rw [hf] at hf1
    cases hf1

/-- A page of a subtree other than its top page satisfies the invariant with the lower
size bound of a page that is not the root, and its parent is a page. -/
theorem WF.under_nonroot {f : Int → Option (BPlusTreePage K V)} {lm im : Nat} :
    ∀ (h m x : Nat) (pid par : Int) (lo hi : Bound K) (q : Int),
      WF f lm im m x h pid par lo hi → Under f h pid q → q ≠ pid →
      ∃ h1 par1 lo1 hi1, WF f lm im (minNonRoot lm im h1) 0 h1 q par1 lo1 hi1 ∧
        ∃ p, f par1 = some p := by
  intro h
  induction h with
  | zero =>
    intro m x pid par lo hi q _ hq hne
    exact absurd hq hne
  | succ h ih =>
    intro m x pid par lo hi q hw hq hne
    rcases hq with rfl | ⟨c, hc, hq⟩
    · exact absurd rfl hne
    · obtain ⟨l, u, hwc⟩ := hw.child hc
      by_cases hqc : q = c
      · subst hqc
        obtain ⟨p, hp, _⟩ := hw.fetch
        exact ⟨h, pid, l, u, hwc, p, hp⟩
      · exact ih _ _ c pid l u q hwc hq hqc

/-- The keys that occur in a subtree lie in the range of the subtree. -/
theorem KeyUnder.in_range {t : BPlusTree K V} {lm im : Nat} {p : Int} {k : K}
    (hk : KeyUnder t p k) :
    ∀ (h m x : Nat) (par : Int) (lo hi : Bound K),
      WF (FetchPage t) lm im m x h p par lo hi → lo ≤ bnd k ∧ bnd k < hi := by
  induction hk with
  | leaf p a b mx array e hf he =>
    intro h m x par lo hi hw
    cases h with
    | zero =>
      obtain ⟨arr, hf1, _, _, _, _, hb⟩ := hw
      rw [hf] at hf1
      cases hf1
      exact hb e he
    | succ h =>
      obtain ⟨arr, hf1, _⟩ := hw
      rw [hf] at hf1
      cases hf1
  | slot p a b mx array e hf he =>
    intro h m x par lo hi hw
    cases h with
    | zero =>
      obtain ⟨arr, hf1, _⟩ := hw
      rw [hf] at hf1
      cases hf1
    | succ h =>
      obtain ⟨arr, hf1, _, _, _, _, _, _, hseg⟩ := hw
      rw [hf] at hf1
      cases hf1
      cases array with
      | nil => simp at he
      | cons e0 rest =>
        have hmem : (bnd e.1, e.2) ∈ slots lo (e0 :: rest) := by
          simp only [slots, List.mem_cons, List.mem_map]
          exact Or.inr ⟨e, he, rfl⟩
        obtain ⟨u, hwc, hu, hl⟩ := hseg.range (fun c l u hc => WF.lt hc) hmem
        rw [ub_slots] at hl
        exact ⟨hl, lt_of_lt_of_le (WF.lt hwc) hu⟩
  | child p a b mx array e k hf he _ ih =>
    intro h m x par lo hi hw
    cases h with
    | zero =>
      obtain ⟨arr, hf1, _⟩ := hw
      rw [hf] at hf1
      cases hf1
    | succ h =>
      obtain ⟨arr, hf1, _, _, _, _, _, _, hseg⟩ := hw
      rw [hf] at hf1
      cases hf1
      have hc : e.2 ∈ (slots lo array).map Prod.snd := by
        rw [slots_map_snd]
        exact List.mem_map_of_mem _ he
      obtain ⟨⟨l, c1⟩, hmem, hc1⟩ := List.mem_map.mp hc
      simp only at hc1
      subst hc1
      obtain ⟨u, hwc, hu, hl⟩ := hseg.range (fun c l u hc => WF.lt hc) hmem
      obtain ⟨h1, h2⟩ := ih _ _ _ _ _ _ hwc
      cases array with
      | nil => simp at he
      | cons e0 rest =>
        rw [ub_slots] at hl
        exact ⟨le_trans hl h1, lt_of_lt_of_le h2 hu⟩

/-- Two neighbouring slots of an internal page that satisfies the invariant: the range
of the child of the first ends at the key of the second, where the range of the child
of the second starts. -/
theorem WF.adjacent {f : Int → Option (BPlusTreePage K V)} {lm im m x h : Nat}
    {pid par : Int} {lo hi : Bound K} (hw : WF f lm im m x (h + 1) pid par lo hi)
    {a b : Int} {mx : Nat} {A B : List (K × Int)} {e1 e2 : K × Int}
    (hf : f pid = some (BPlusTreePage.internal a b mx (A ++ e1 :: e2 :: B))) :
    ∃ l u, WF f lm im (minNonRoot lm im h) 0 h e1.2 pid l (bnd e2.1) ∧
      WF f lm im (minNonRoot lm im h) 0 h e2.2 pid (bnd e2.1) u := by
  obtain ⟨arr, hf1, _, _, _, _, _, _, hseg⟩ := hw
  rw [hf] at hf1
  cases hf1
  obtain ⟨k1, c1⟩ := e1
  obtain ⟨k2, c2⟩ := e2
  rw [slots_append_cons, Seg_append] at hseg
  have h2 := hseg.2
  simp only [List.map_cons, Seg_cons, ub_cons] at h2
  exact ⟨_, _, h2.1, h2.2.1⟩

/-- A tree with a page is not empty. -/
theorem InTree.root_ne {t : BPlusTree K V} {q : Int} (hq : InTree t q) :
    t.root_page_id ≠ INVALID_PAGE_ID := by
  induction hq with
  | root h => exact h
  | child _ _ _ _ _ _ _ _ _ ih => exact ih

/-- A call of `Insert` that returns `true` shows that the key was not stored. -/
theorem Inv.not_Stored_of_Insert {t : BPlusTree K V} (hinv : Inv t) (fuel : Nat) (key : K)
    (value : V) (hrun : (Insert fuel t key value emptyTxn).map Prod.fst = some true) :
    ∀ v, ¬ Stored t key v := by
  cases hi : Insert fuel t key value emptyTxn with
  | none => rw [hi] at hrun; cases hrun
  | some r =>
    obtain ⟨res, t1, txn1⟩ := r
    rw [hi] at hrun
    simp only [Option.map_some', Option.some.injEq] at hrun
    subst hrun
    exact (hinv.Insert_run hi).2.2.2.1.mp rfl

/-- The key 9 is not stored in `tree5`. -/
theorem tree5_no_9 : ∀ v, ¬ Stored tree5 9 v :=
  (tree5_reachable.tree_inv (by decide) (by decide) (by decide)).1.not_Stored_of_Insert
    2 9 90 (by decide)

end BPlusTree

namespace BPlusTree

/-- C15. Split-up-root scenario. With leaf capacity 4 the inserts of 1 .. 4 fill the root
leaf; the insert of 5 makes it hold five pairs, more than its capacity, and returns
with the tree `tree5`: `root_page_id` names the new internal root (page 3) of size 2
with the separator 3, the left leaf holds 1, 2, the right leaf holds 3, 4, 5, and the
parent of both leaves is the new root. -/
theorem split_up_root_scenario :
    insertAll 2 (new 4 4 1) [(1, 10), (2, 20), (3, 30), (4, 40)]
        = some (rootLeaf [(1, 10), (2, 20), (3, 30), (4, 40)] 2) ∧
      (BPlusTreeLeafPage.Insert [(1, 10), (2, 20), (3, 30), (4, 40)] 5 50).length > 4 ∧
      Insert 2 (rootLeaf [(1, 10), (2, 20), (3, 30), (4, 40)] 2) 5 50 emptyTxn
        = some (true, tree5, emptyTxn) ∧
      FetchPage tree5 tree5.root_page_id
        = some (BPlusTreePage.internal 3 INVALID_PAGE_ID 4 [(0, 1), (3, 2)]) ∧
      FetchPage tree5 1 = some (BPlusTreePage.leaf 1 tree5.root_page_id 4 [(1, 10), (2, 20)]) ∧
      FetchPage tree5 2
        = some (BPlusTreePage.leaf 2 tree5.root_page_id 4 [(3, 30), (4, 40), (5, 50)]) := by
  decide

/-- C16, the scenario as stated fails. On the tree after the inserts of 1 .. 7 (leaves
1, 2 / 3, 4 / 5, 6, 7), `Remove(1)` does not borrow from the right sibling: the page of
the right sibling (page 2) is deleted and the left leaf holds 2, 3, 4. -/
theorem redistribute_scenario_counterexample :
    ∃ t, insertAll 2 (new 4 4 1)
          [(1, 10), (2, 20), (3, 30), (4, 40), (5, 50), (6, 60), (7, 70)] = some tree7 ∧
      Remove 2 tree7 1 emptyTxn = some (t, emptyTxn) ∧
      FetchPage t 2 = none ∧
      FetchPage t 1 = some (BPlusTreePage.leaf 1 3 4 [(2, 20), (3, 30), (4, 40)]) :=
  ⟨⟨3, ⟨[(1, BPlusTreePage.leaf 1 3 4 [(2, 20), (3, 30), (4, 40)]),
          (3, BPlusTreePage.internal 3 (-1) 4 [(0, 1), (5, 4)]),
          (4, BPlusTreePage.leaf 4 3 4 [(5, 50), (6, 60), (7, 70)])], 5⟩, 4, 4⟩, by decide⟩

/-- C16, amended. On the tree after the inserts of 1 .. 7, `Remove(1)` leaves the left
leaf with one pair, less than its minimum 2; the sizes of the leaf and of its right
sibling sum to 3, not more than the capacity 4, so the tree coalesces:
`CoalesceOrRedistribute` moves the pairs of the right sibling into the left leaf, marks
the page of the right sibling for deletion and removes its separator from the parent.
After the call the left leaf holds 2, 3, 4, page 2 is deleted, and the root keeps the
separator 5 over the leaf 5, 6, 7. -/
theorem coalesce_in_redistribute_scenario :
    insertAll 2 (new 4 4 1)
        [(1, 10), (2, 20), (3, 30), (4, 40), (5, 50), (6, 60), (7, 70)] = some tree7 ∧
      (BPlusTreePage.leaf 1 3 4 [(2, 20)] : BPlusTreePage Nat Nat).GetSize
        < (BPlusTreePage.leaf 1 3 4 [(2, 20)] : BPlusTreePage Nat Nat).GetMinSize ∧
      CoalesceOrRedistribute 2
          { tree7 with buffer_pool_manager :=
              tree7.buffer_pool_manager.store 1 (BPlusTreePage.leaf 1 3 4 [(2, 20)]) }
          1 (some { page_set := [3, 1], deleted_page_set := [] })
        = some (true,
            ⟨3, ⟨[(1, BPlusTreePage.leaf 1 3 4 [(2, 20), (3, 30), (4, 40)]),
                (2, BPlusTreePage.leaf 2 3 4 []),
                (3, BPlusTreePage.internal 3 (-1) 4 [(0, 1), (5, 4)]),
                (4, BPlusTreePage.leaf 4 3 4 [(5, 50), (6, 60), (7, 70)])], 5⟩, 4, 4⟩,
            some { page_set := [3, 1, 2], deleted_page_set := [2] }) ∧
      Remove 2 tree7 1 emptyTxn
        = some (⟨3, ⟨[(1, BPlusTreePage.leaf 1 3 4 [(2, 20), (3, 30), (4, 40)]),
                (3, BPlusTreePage.internal 3 (-1) 4 [(0, 1), (5, 4)]),
                (4, BPlusTreePage.leaf 4 3 4 [(5, 50), (6, 60), (7, 70)])], 5⟩, 4, 4⟩,
            emptyTxn) := by
  decide

/-- C17. Coalesce-and-shrink-root scenario. On the tree `tree5` (root with separator 3
over the leaves 1, 2 and 3, 4, 5), `Remove(5)` leaves the right leaf with 3, 4. In
`Remove(4)` the right leaf keeps one pair; `CoalesceOrRedistribute` moves it into the
left leaf, the root is left with one child, that child becomes the root, and the
right leaf (page 2) and the old root (page 3) are in the deleted page set. After
`Remove(4)` and `Remove(3)` the tree is the single root leaf page 1, with parent
`INVALID_PAGE_ID`, holding 1, 2. -/
theorem coalesce_shrink_root_scenario :
    Remove 2 tree5 5 emptyTxn
        = some ({ tree5 with buffer_pool_manager :=
            tree5.buffer_pool_manager.store 2 (BPlusTreePage.leaf 2 3 4 [(3, 30), (4, 40)]) },
          emptyTxn) ∧
      CoalesceOrRedistribute 2
          { tree5 with buffer_pool_manager :=
              tree5.buffer_pool_manager.store 2 (BPlusTreePage.leaf 2 3 4 [(3, 30)]) }
          2 (some { page_set := [3, 2], deleted_page_set := [] })
        = some (true,
            ⟨1, ⟨[(1, BPlusTreePage.leaf 1 INVALID_PAGE_ID 4 [(1, 10), (2, 20), (3, 30)]),
                (2, BPlusTreePage.leaf 2 3 4 []),
                (3, BPlusTreePage.internal 3 (-1) 4 [])], 4⟩, 4, 4⟩,
            some { page_set := [3, 2, 1], deleted_page_set := [2, 3] }) ∧
      removeAll 2 tree5 [5, 4] = some (rootLeaf [(1, 10), (2, 20), (3, 30)] 4) ∧
      removeAll 2 tree5 [5, 4, 3] = some (rootLeaf [(1, 10), (2, 20)] 4) ∧
      FetchPage (rootLeaf [(1, 10), (2, 20)] 4) (rootLeaf [(1, 10), (2, 20)] 4).root_page_id
        = some (BPlusTreePage.leaf 1 INVALID_PAGE_ID 4 [(1, 10), (2, 20)]) := by
  decide

end BPlusTree
/-! ## The contracts and invariants of `BPlusTree` (claims C12 to C14, C18 to C20) -/

namespace BPlusTree

variable {K V : Type} [LinearOrder K] [Inhabited K]

/-- C12. `Insert` uniqueness. On every reachable tree (capacities at least 2 for leaves
and 3 for internal pages) the call `Insert(key, value)` returns for enough fuel; it
returns `true` exactly when `key` was not stored before the call; when it returns
`false` the stored pairs are unchanged; when it returns `true` a following
`GetValue(key)` returns `true` with the result `value`, and every other key is stored
with the values it was stored with before. -/
theorem Insert_uniqueness [Inhabited V] {lm im : Nat} {first : Int} (hlm : 2 ≤ lm)
    (him : 3 ≤ im) (hfirst : 0 ≤ first) (t : BPlusTree K V) (hr : Reachable lm im first t)
    (key : K) (value : V) :
    ∃ n res t1 txn1,
      (∀ fuel, n ≤ fuel → Insert fuel t key value emptyTxn = some (res, t1, txn1)) ∧
      (res = true ↔ ∀ v, ¬ Stored t key v) ∧
      (res = false → ∀ k v, Stored t1 k v ↔ Stored t k v) ∧
      (res = true →
        (∀ result txn, TxnOk OpType.READ txn → ∃ n1, ∀ fuel, n1 ≤ fuel → ∃ txn2,
          GetValue fuel t1 key result txn = some (true, [value], t1, txn2)) ∧
        ∀ k, k ≠ key → ∀ v, Stored t1 k v ↔ Stored t k v) := by
  obtain ⟨hinv, _, _⟩ := hr.tree_inv hlm him hfirst
  obtain ⟨n, res, t1, txn1, hall, _, hinv1, _, _, h1, h2, h3⟩ :=
    hinv.Insert_eq key value ⟨[], []⟩ rfl
  refine ⟨n, res, t1, txn1, hall, h1, ?_, ?_⟩
  · intro hres k v
    rw [h2 hres]
  · intro hres
    constructor
    · intro result txn hok
      obtain ⟨n1, hget⟩ := hinv1.GetValue_eq key result txn hok
      refine ⟨n1, fun fuel hfuel => ?_⟩
      obtain ⟨txn2, _, hcase⟩ := hget fuel hfuel
      have hst : Stored t1 key value := (h3 key value).mpr (Or.inl ⟨hres, rfl, rfl⟩)
      rcases hcase with ⟨v1, hs1, hg⟩ | ⟨hnone, _⟩
      · rw [hinv1.Stored_unique hst hs1]
        exact ⟨txn2, hg⟩
      · exact absurd hst (hnone value)
    · intro k hk v
      rw [h3 k v]
      constructor
      · rintro (⟨_, e, _⟩ | hs)
        · exact absurd e hk
        · exact hs
      · intro hs; exact Or.inr hs

/-- The contract of `Insert` at the tree after the inserts of 1 .. 5, for the key 9. -/
theorem Insert_uniqueness_witness :
    ∃ n res t1 txn1,
      (∀ fuel, n ≤ fuel → Insert fuel tree5 9 90 emptyTxn = some (res, t1, txn1)) ∧
      (res = true ↔ ∀ v, ¬ Stored tree5 9 v) ∧
      (res = false → ∀ k v, Stored t1 k v ↔ Stored tree5 k v) ∧
      (res = true →
        (∀ result txn, TxnOk OpType.READ txn → ∃ n1, ∀ fuel, n1 ≤ fuel → ∃ txn2,
          GetValue fuel t1 9 result txn = some (true, [90], t1, txn2)) ∧
        ∀ k, k ≠ 9 → ∀ v, Stored t1 k v ↔ Stored tree5 k v) :=
  Insert_uniqueness (by decide) (by decide) (by decide) tree5 tree5_reachable 9 90

/-- C13, the claim as stated fails. In the tree after the inserts of 1 .. 5 the key 3 is
stored with the value 30; `GetValue(3, results)` with the initial results 7, 8, 9
returns `true` and leaves the one element 30 in `results`, not 7, 8, 9, 30. -/
theorem GetValue_append_counterexample :
    Reachable 4 4 1 tree5 ∧ Stored tree5 3 30 ∧
      GetValue 2 tree5 3 [7, 8, 9] none = some (true, [30], tree5, none) ∧
      ([30] : List Nat) ≠ [7, 8, 9] ++ [30] :=
  ⟨tree5_reachable,
    ⟨2, 2, 3, 4, [(3, 30), (4, 40), (5, 50)],
      InTree.child 3 3 (-1) 4 [(0, 1), (3, 2)] (3, 2) (InTree.root (by decide)) (by decide)
        (by decide),
      by decide, by decide⟩,
    by decide, by decide⟩

/-- C13, amended. `GetValue(key, results)` on every reachable tree and for every initial
content of `results` returns for enough fuel and leaves the tree as it is; if `key` is
stored with the value `value` it returns `true` and `results` afterwards holds the one
element `value` (the vector is resized to one element and `value` is written to index
0); if `key` is not stored it returns `false`, with `results` unchanged on the empty
tree and resized to one element on another tree. -/
theorem GetValue_single_result [Inhabited V] {lm im : Nat} {first : Int} (hlm : 2 ≤ lm)
    (him : 3 ≤ im) (hfirst : 0 ≤ first) (t : BPlusTree K V) (hr : Reachable lm im first t)
    (key : K) (result : List V) (txn : Option Transaction) (hok : TxnOk OpType.READ txn) :
    ∃ n, ∀ fuel, n ≤ fuel → ∃ txn1,
      ((∃ value, Stored t key value ∧
          GetValue fuel t key result txn = some (true, [value], t, txn1)) ∨
       ((∀ value, ¬ Stored t key value) ∧
          GetValue fuel t key result txn = some (false,
            (if t.root_page_id = INVALID_PAGE_ID then result else resize1 result), t,
            txn1))) := by
  obtain ⟨hinv, _, _⟩ := hr.tree_inv hlm him hfirst
  obtain ⟨n, hget⟩ := hinv.GetValue_eq key result txn hok
  refine ⟨n, fun fuel hfuel => ?_⟩
  obtain ⟨txn1, _, hcase⟩ := hget fuel hfuel
  exact ⟨txn1, hcase⟩

/-- The contract of `GetValue` at the tree after the inserts of 1 .. 5, for the key 3 and
the initial results 7, 8, 9. -/
theorem GetValue_single_result_witness :
    TxnOk OpType.READ none ∧
    ∃ n, ∀ fuel, n ≤ fuel → ∃ txn1,
      ((∃ value, Stored tree5 3 value ∧
          GetValue fuel tree5 3 [7, 8, 9] none = some (true, [value], tree5, txn1)) ∨
       ((∀ value, ¬ Stored tree5 3 value) ∧
          GetValue fuel tree5 3 [7, 8, 9] none = some (false,
            (if tree5.root_page_id = INVALID_PAGE_ID then [7, 8, 9] else resize1 [7, 8, 9]),
            tree5, txn1))) :=
  ⟨rfl, GetValue_single_result (by decide) (by decide) (by decide) tree5 tree5_reachable 3
    [7, 8, 9] none rfl⟩

/-- C14. Round trip of `Insert` and `Remove`. On every reachable tree in which `key` is
not stored, `Insert(key, value)` followed by `Remove(key)` returns for enough fuel and
leaves the stored pairs as they were before; and `Remove(key)` alone returns and
leaves the stored pairs unchanged (also on the empty tree). -/
theorem Insert_Remove_round_trip {lm im : Nat} {first : Int} (hlm : 2 ≤ lm) (him : 3 ≤ im)
    (hfirst : 0 ≤ first) (t : BPlusTree K V) (hr : Reachable lm im first t)
    (key : K) (value : V) (hnot : ∀ v, ¬ Stored t key v) :
    (∃ n res t1 txn1 t2 txn2,
      (∀ fuel, n ≤ fuel → Insert fuel t key value emptyTxn = some (res, t1, txn1) ∧
        Remove fuel t1 key emptyTxn = some (t2, txn2)) ∧
      ∀ k v, Stored t2 k v ↔ Stored t k v) ∧
    (∃ n t3 txn3,
      (∀ fuel, n ≤ fuel → Remove fuel t key emptyTxn = some (t3, txn3)) ∧
      ∀ k v, Stored t3 k v ↔ Stored t k v) := by
  obtain ⟨hinv, _, _⟩ := hr.tree_inv hlm him hfirst
  have hne : ∀ k v, Stored t k v → k ≠ key := by
    intro k v hs e
    exact hnot v (e ▸ hs)
  constructor
  · obtain ⟨n1, res, t1, txn1, hall1, _, hinv1, _, _, _, _, h3⟩ :=
      hinv.Insert_eq key value ⟨[], []⟩ rfl
    obtain ⟨n2, t2, txn2, hall2, _, _, _, _, h4⟩ := hinv1.Remove_eq key ⟨[], []⟩ rfl
    refine ⟨max n1 n2, res, t1, txn1, t2, txn2, fun fuel hfuel =>
      ⟨hall1 fuel (le_trans (le_max_left _ _) hfuel),
        hall2 fuel (le_trans (le_max_right _ _) hfuel)⟩, ?_⟩
    intro k v
    rw [h4 k v, h3 k v]
    constructor
    · rintro ⟨⟨_, e, _⟩ | hs, hk⟩
      · exact absurd e hk
      · exact hs
    · intro hs
      exact ⟨Or.inr hs, hne k v hs⟩
  · obtain ⟨n, t3, txn3, hall, _, _, _, _, h4⟩ := hinv.Remove_eq key ⟨[], []⟩ rfl
    refine ⟨n, t3, txn3, hall, ?_⟩
    intro k v
    rw [h4 k v]
    exact ⟨fun hs => hs.1, fun hs => ⟨hs, hne k v hs⟩⟩

/-- The round trip at the tree after the inserts of 1 .. 5, for the key 9. -/
theorem Insert_Remove_round_trip_witness :
    (∀ v, ¬ Stored tree5 9 v) ∧
    (∃ n res t1 txn1 t2 txn2,
      (∀ fuel, n ≤ fuel → Insert fuel tree5 9 90 emptyTxn = some (res, t1, txn1) ∧
        Remove fuel t1 9 emptyTxn = some (t2, txn2)) ∧
      ∀ k v, Stored t2 k v ↔ Stored tree5 k v) ∧
    (∃ n t3 txn3,
      (∀ fuel, n ≤ fuel → Remove fuel tree5 9 emptyTxn = some (t3, txn3)) ∧
      ∀ k v, Stored t3 k v ↔ Stored tree5 k v) :=
  ⟨tree5_no_9, Insert_Remove_round_trip (by decide) (by decide) (by decide) tree5
    tree5_reachable 9 90 tree5_no_9⟩

/-- C18, the claim as stated fails. With the capacities 3, after the inserts of 1 .. 4
and the removal of 1, the leaf page 1 is not the root and holds one pair, less than
`ceil(3 / 2) = 2`. -/
theorem node_size_counterexample :
    Reachable 3 3 1 oddTree ∧ InTree oddTree 1 ∧ (1 : Int) ≠ oddTree.root_page_id ∧
      FetchPage oddTree 1 = some (BPlusTreePage.leaf 1 3 3 [(2, 20)]) ∧
      (BPlusTreePage.leaf 1 3 3 [(2, 20)] : BPlusTreePage Nat Nat).GetMaxSize = 3 ∧
      (BPlusTreePage.leaf 1 3 3 [(2, 20)] : BPlusTreePage Nat Nat).GetMinSize = 1 ∧
      ¬ ((3 + 1) / 2 ≤ (BPlusTreePage.leaf 1 3 3 [(2, 20)] : BPlusTreePage Nat Nat).GetSize) :=
  ⟨oddTree_reachable,
    InTree.child 3 3 (-1) 3 [(0, 1), (3, 2)] (0, 1) (InTree.root (by decide)) (by decide)
      (by decide),
    by decide, by decide, by decide, by decide, by decide⟩

/-- C18, amended. In every reachable tree (leaf capacity at least 2, internal capacity
at least 3, odd or even) every page of the tree other than the root, leaf or internal,
satisfies `min_size ≤ size ≤ max_size` with `min_size = floor(max_size / 2)`, the value
of `GetMinSize()`; `max_size` is the capacity the tree was constructed with. -/
theorem node_size_bounds_floor {lm im : Nat} {first : Int} (hlm : 2 ≤ lm) (him : 3 ≤ im)
    (hfirst : 0 ≤ first) (t : BPlusTree K V) (hr : Reachable lm im first t)
    (q : Int) (page : BPlusTreePage K V) (hq : InTree t q) (hne : q ≠ t.root_page_id)
    (hf : FetchPage t q = some page) :
    page.GetMinSize ≤ page.GetSize ∧ page.GetSize ≤ page.GetMaxSize ∧
      page.GetMinSize = page.GetMaxSize / 2 ∧
      page.GetMaxSize = (if page.IsLeafPage then lm else im) := by
  obtain ⟨hinv, hlm1, him1⟩ := hr.tree_inv hlm him hfirst
  have hroot := hq.root_ne
  obtain ⟨h, hw⟩ := hinv.tree.resolve_left hroot
  rw [hlm1, him1] at hw
  have hu := (InTree_iff_Under hroot hw q).mp hq
  obtain ⟨h1, par1, lo1, hi1, hw1, p, hp⟩ := WF.under_nonroot _ _ _ _ _ _ _ _ hw hu hne
  obtain ⟨s1, s2, s3, s4, _, s6⟩ := hw1.size page hf
  have hpar : page.GetParentPageId ≠ INVALID_PAGE_ID := by
    rw [s4]
    intro e
    have := (hinv.ids _ _ hp).1
    rw [e] at this
    simp [INVALID_PAGE_ID] at this
  have hmin := GetMinSize_nonroot page hpar
  refine ⟨?_, by omega, hmin, ?_⟩
  · rw [hmin, s3]
    cases h1 with
    | zero => simpa [minNonRoot] using s1
    | succ h2 =>
      simp only [minNonRoot] at s1
      simp only [Nat.succ_ne_zero, if_false]
      have := le_max_right 2 (im / 2)
      omega
  · rw [s3]
    cases h1 with
    | zero => simp [s6.mpr rfl]
    | succ h2 =>
      have : ¬ page.IsLeafPage = true := fun e => absurd (s6.mp e) (Nat.succ_ne_zero _)
      simp [this]

/-- The size bounds at the leaf page 1 of the tree with the capacities 3 after the
inserts of 1 .. 4 and the removal of 1. -/
theorem node_size_bounds_floor_witness :
    (BPlusTreePage.leaf 1 3 3 [(2, 20)] : BPlusTreePage Nat Nat).GetMinSize
        ≤ (BPlusTreePage.leaf 1 3 3 [(2, 20)] : BPlusTreePage Nat Nat).GetSize ∧
      (BPlusTreePage.leaf 1 3 3 [(2, 20)] : BPlusTreePage Nat Nat).GetSize
        ≤ (BPlusTreePage.leaf 1 3 3 [(2, 20)] : BPlusTreePage Nat Nat).GetMaxSize ∧
      (BPlusTreePage.leaf 1 3 3 [(2, 20)] : BPlusTreePage Nat Nat).GetMinSize
        = (BPlusTreePage.leaf 1 3 3 [(2, 20)] : BPlusTreePage Nat Nat).GetMaxSize / 2 ∧
      (BPlusTreePage.leaf 1 3 3 [(2, 20)] : BPlusTreePage Nat Nat).GetMaxSize
        = (if (BPlusTreePage.leaf 1 3 3 [(2, 20)] : BPlusTreePage Nat Nat).IsLeafPage
            then 3 else 3) :=
  node_size_bounds_floor (by decide) (by decide) (by decide) oddTree oddTree_reachable 1
    (BPlusTreePage.leaf 1 3 3 [(2, 20)])
    (InTree.child 3 3 (-1) 3 [(0, 1), (3, 2)] (0, 1) (InTree.root (by decide)) (by decide)
      (by decide))
    (by decide) (by decide)

/-- C19. Search-tree ordering invariant. In every page of every reachable tree the keys
are strictly increasing (from slot 1 on in an internal page), and for two neighbouring
slots `i - 1` and `i` of an internal page, with the key `K_i` in slot `i`, every key
that occurs in the subtree of the child of slot `i - 1` is less than `K_i` and every
key that occurs in the subtree of the child of slot `i` is at least `K_i`. The
reachable trees include those after an internal split, a coalesce and a redistribute
in either direction. -/
theorem ordering_invariant {lm im : Nat} {first : Int} (hlm : 2 ≤ lm) (him : 3 ≤ im)
    (hfirst : 0 ≤ first) (t : BPlusTree K V) (hr : Reachable lm im first t)
    (p : Int) (hp : InTree t p) :
    (∀ a b mx arr, FetchPage t p = some (BPlusTreePage.leaf a b mx arr) →
      (arr.map Prod.fst).Pairwise (fun k1 k2 => k1 < k2)) ∧
    (∀ a b mx arr, FetchPage t p = some (BPlusTreePage.internal a b mx arr) →
      (arr.tail.map Prod.fst).Pairwise (fun k1 k2 => k1 < k2) ∧
      ∀ A e1 e2 B, arr = A ++ e1 :: e2 :: B →
        ∀ k, (KeyUnder t e1.2 k → k < e2.1) ∧ (KeyUnder t e2.2 k → e2.1 ≤ k)) := by
  obtain ⟨hinv, hlm1, him1⟩ := hr.tree_inv hlm him hfirst
  have hroot := hp.root_ne
  obtain ⟨h, hw⟩ := hinv.tree.resolve_left hroot
  have hu := (InTree_iff_Under hroot hw p).mp hp
  obtain ⟨m1, x1, h1, par1, lo1, hi1, _, hw1⟩ := WF.under _ _ _ _ _ _ _ _ hw hu
  constructor
  · intro a b mx arr hf
    cases h1 with
    | zero =>
      obtain ⟨arr1, hf1, _, _, _, hs, _⟩ := hw1
      rw [hf] at hf1
      cases hf1
      exact hs
    | succ h2 =>
      obtain ⟨arr1, hf1, _⟩ := hw1
      rw [hf] at hf1
      cases hf1
  · intro a b mx arr hf
    cases h1 with
    | zero =>
      obtain ⟨arr1, hf1, _⟩ := hw1
      rw [hf] at hf1
      cases hf1
    | succ h2 =>
      constructor
      · obtain ⟨arr1, hf1, _, hlen, _, _, _, _, hseg⟩ := hw1
        rw [hf] at hf1
        cases hf1
        cases arr with
        | nil => simp
        | cons e rest => exact slots_sorted (fun c l u hc => WF.lt hc) hseg
      · intro A e1 e2 B harr k
        subst harr
        obtain ⟨l, u, hwa, hwb⟩ := hw1.adjacent hf
        constructor
        · intro hk
          exact bnd_lt_bnd.mp (hk.in_range _ _ _ _ _ _ hwa).2
        · intro hk
          exact bnd_le_bnd.mp (hk.in_range _ _ _ _ _ _ hwb).1

/-- The ordering invariant at the root of the tree after the inserts of 1 .. 7. -/
theorem ordering_invariant_witness :
    InTree tree7 3 ∧
    (∀ a b mx arr, FetchPage tree7 3 = some (BPlusTreePage.leaf a b mx arr) →
      (arr.map Prod.fst).Pairwise (fun k1 k2 => k1 < k2)) ∧
    (∀ a b mx arr, FetchPage tree7 3 = some (BPlusTreePage.internal a b mx arr) →
      (arr.tail.map Prod.fst).Pairwise (fun k1 k2 => k1 < k2) ∧
      ∀ A e1 e2 B, arr = A ++ e1 :: e2 :: B →
        ∀ k, (KeyUnder tree7 e1.2 k → k < e2.1) ∧ (KeyUnder tree7 e2.2 k → e2.1 ≤ k)) :=
  ⟨InTree.root (by decide),
    ordering_invariant (by decide) (by decide) (by decide) tree7 tree7_reachable 3
      (InTree.root (by decide))⟩

/-- C20. Balance invariant. After every call of `Insert` or `Remove` that returns, on a
reachable tree, `isBalanced(root_page_id)` returns for enough fuel a value `d ≥ 0`, and
in a tree that is not empty every leaf is `d` levels below the root. -/
theorem balance_invariant {lm im : Nat} {first : Int} (hlm : 2 ≤ lm) (him : 3 ≤ im)
    (hfirst : 0 ≤ first) (t : BPlusTree K V) (hr : Reachable lm im first t)
    (t1 : BPlusTree K V)
    (hstep : (∃ fuel key value res txn1,
        Insert fuel t key value emptyTxn = some (res, t1, txn1)) ∨
      (∃ fuel key txn1, Remove fuel t key emptyTxn = some (t1, txn1))) :
    ∃ n d, 0 ≤ d ∧ (∀ fuel, n ≤ fuel → isBalanced fuel t1 t1.root_page_id = some d) ∧
      (t1.root_page_id ≠ INVALID_PAGE_ID → ∀ q depth a b mx arr, DepthOf t1 q depth →
        FetchPage t1 q = some (BPlusTreePage.leaf a b mx arr) → (depth : Int) = d) := by
  have hr1 : Reachable lm im first t1 := by
    rcases hstep with ⟨fuel, key, value, res, txn1, hrun⟩ | ⟨fuel, key, txn1, hrun⟩
    · exact Reachable.insert fuel t key value res t1 txn1 hr hrun
    · exact Reachable.remove fuel t key t1 txn1 hr hrun
  obtain ⟨hinv, _, _⟩ := hr1.tree_inv hlm him hfirst
  by_cases hroot : t1.root_page_id = INVALID_PAGE_ID
  · refine ⟨1, 1, by decide, ?_, fun hne => absurd hroot hne⟩
    intro fuel hfuel
    obtain ⟨fuel1, rfl⟩ : ∃ fuel1, fuel = fuel1 + 1 := ⟨fuel - 1, by omega⟩
    simp [isBalanced, IsEmpty, hroot]
  · obtain ⟨h, hw⟩ := hinv.tree.resolve_left hroot
    refine ⟨h + 1, (h : Int), by omega, ?_, ?_⟩
    · intro fuel hfuel
      exact isBalanced_of_WF hroot _ _ _ _ _ _ _ hw fuel hfuel
    · intro _ q depth a b mx arr hq hf
      rw [hq.leaf_depth hw hf]

/-- The balance invariant at the tree `tree5` after `Remove(5)`. -/
theorem balance_invariant_witness :
    ∃ n d, 0 ≤ d ∧
      (∀ fuel, n ≤ fuel →
        isBalanced fuel
          ({ tree5 with buffer_pool_manager :=
              tree5.buffer_pool_manager.store 2 (BPlusTreePage.leaf 2 3 4 [(3, 30), (4, 40)]) })
          3 = some d) ∧
      ((3 : Int) ≠ INVALID_PAGE_ID → ∀ q depth a b mx arr,
        DepthOf ({ tree5 with buffer_pool_manager :=
              tree5.buffer_pool_manager.store 2 (BPlusTreePage.leaf 2 3 4 [(3, 30), (4, 40)]) })
          q depth →
        FetchPage ({ tree5 with buffer_pool_manager :=
              tree5.buffer_pool_manager.store 2 (BPlusTreePage.leaf 2 3 4 [(3, 30), (4, 40)]) })
          q = some (BPlusTreePage.leaf a b mx arr) → (depth : Int) = d) :=
  balance_invariant (by decide) (by decide) (by decide) tree5 tree5_reachable
    ({ tree5 with buffer_pool_manager :=
        tree5.buffer_pool_manager.store 2 (BPlusTreePage.leaf 2 3 4 [(3, 30), (4, 40)]) })
    (Or.inr ⟨2, 5, emptyTxn, by decide⟩)

end BPlusTree
/-! ## B+ tree: the choice of the sibling and the sizes after `Redistribute` -/

namespace BPlusTree

variable {K V : Type} [LinearOrder K] [Inhabited K]

/-- The call `FindLeftSibling` for the child `c` in slot 0 of its parent: the sibling is
the child `d` of slot 1, the flag is `true`, and `d` enters the page set. -/
theorem FindLeftSibling_first (t : BPlusTree K V) (c d pid a b : Int)
    (mx : Nat) (kc kd : K) (B : List (K × Int)) (pc pd : BPlusTreePage K V) (x : Transaction)
    (hc : FetchPage t c = some pc) (hcid : pc.GetPageId = c) (hcpar : pc.GetParentPageId = pid)
    (hd : FetchPage t d = some pd)
    (hp : FetchPage t pid = some (BPlusTreePage.internal a b mx ((kc, c) :: (kd, d) :: B))) :
    FindLeftSibling t c (some x) = some (true, d, t, some (x.AddIntoPageSet d)) := by
  have hc1 : t.buffer_pool_manager.FetchPage c = some pc := hc
  have hd1 : t.buffer_pool_manager.FetchPage d = some pd := hd
  have hp1 : t.buffer_pool_manager.FetchPage pid
      = some (BPlusTreePage.internal a b mx ((kc, c) :: (kd, d) :: B)) := hp
  simp only [FindLeftSibling, CrabingProtocalFetchPage, FetchPage_def,
    hc1, hd1, hp1, hcpar, hcid, Option.bind_eq_bind, Option.some_bind,
    Bool.false_eq_true, if_false, if_true, BPlusTreeInternalPage.ValueIndex,
    BPlusTreeInternalPage.ValueAt, List.getElem?_cons_succ, List.getElem?_cons_zero,
    Option.map_some', zero_add, decide_True, Option.map_eq_map,
    gt_iff_lt, Int.reduceNeg, Int.reduceLT, Nat.reduceAdd]

/-- The call `FindLeftSibling` for a child `c` in a later slot of its parent: the
sibling is the child `d` of the slot in front of it, the flag is `false`, and `d`
enters the page set. -/
theorem FindLeftSibling_later (t : BPlusTree K V) (c d pid a b : Int)
    (mx : Nat) (kc kd : K) (A B : List (K × Int)) (pc pd : BPlusTreePage K V)
    (x : Transaction)
    (hc : FetchPage t c = some pc) (hcid : pc.GetPageId = c) (hcpar : pc.GetParentPageId = pid)
    (hd : FetchPage t d = some pd)
    (hp : FetchPage t pid
      = some (BPlusTreePage.internal a b mx (A ++ (kd, d) :: (kc, c) :: B)))
    (hcA : c ∉ A.map Prod.snd) (hcd : c ≠ d) :
    FindLeftSibling t c (some x) = some (false, d, t, some (x.AddIntoPageSet d)) := by
  have hc1 : t.buffer_pool_manager.FetchPage c = some pc := hc
  have hd1 : t.buffer_pool_manager.FetchPage d = some pd := hd
  have hp1 : t.buffer_pool_manager.FetchPage pid
      = some (BPlusTreePage.internal a b mx (A ++ (kd, d) :: (kc, c) :: B)) := hp
  have hidx : BPlusTreeInternalPage.ValueIndex (A ++ (kd, d) :: (kc, c) :: B) c
      = some (A.length + 1) := by
    have h1 : c ∉ (A ++ [(kd, d)]).map Prod.snd := by
      simp only [List.map_append, List.map_cons, List.map_nil, List.mem_append,
        List.mem_singleton, not_or]
      exact ⟨hcA, hcd⟩
    have := BPlusTreeInternalPage.ValueIndex_append (A ++ [(kd, d)]) kc c B h1
    simpa using this
  have hval : BPlusTreeInternalPage.ValueAt (A ++ (kd, d) :: (kc, c) :: B) A.length
      = some d := BPlusTreeInternalPage.ValueAt_append A kd d _
  simp only [FindLeftSibling, CrabingProtocalFetchPage, FetchPage_def,
    hc1, hd1, hp1, hcpar, hcid, hidx, hval, Option.bind_eq_bind, Option.some_bind,
    Bool.false_eq_true, if_false, Nat.add_one_ne_zero, Nat.add_sub_cancel,
    Option.map_some', decide_False, gt_iff_lt, Int.reduceNeg, Int.reduceLT]

/-- The call `Redistribute` for the first child `c` of its parent and its right sibling
`d`: the call returns, `c` holds one pair more and `d` one pair less. -/
theorem Redistribute_first_sizes {lm im h mc md : Nat} {t : BPlusTree K V}
    {pid par c d : Int} {B : List (K × Int)} {kc kd : K} {mxp : Nat} {lo hi : Bound K}
    (hpar : FetchPage t pid
      = some (BPlusTreePage.internal pid par mxp ((kc, c) :: (kd, d) :: B)))
    (hwc : WF (FetchPage t) lm im mc 0 h c pid lo (bnd kd))
    (hwd : WF (FetchPage t) lm im md 0 h d pid (bnd kd) hi)
    (hcd : c ≠ d) (hpc : ¬ Under (FetchPage t) h c pid) (hpd : ¬ Under (FetchPage t) h d pid)
    (pc pd : BPlusTreePage K V) (hfc0 : FetchPage t c = some pc)
    (hfd0 : FetchPage t d = some pd)
    (hroom : pc.GetSize + 1 ≤ pc.GetMaxSize) (hsib : 2 ≤ pd.GetSize) :
    ∃ t1 pc1 pd1, Redistribute t d c 0 = some t1 ∧
      FetchPage t1 c = some pc1 ∧ FetchPage t1 d = some pd1 ∧
      pc1.GetSize = pc.GetSize + 1 ∧ pd1.GetSize + 1 = pd.GetSize := by
  have hcp : c ≠ pid := fun e => hpc (e ▸ Under.self _ _ _)
  have hdp : d ≠ pid := fun e => hpd (e ▸ Under.self _ _ _)
  cases h with
  | zero =>
    obtain ⟨arrC, hfc, _⟩ := id hwc
    obtain ⟨arrD, hfd, _⟩ := id hwd
    obtain rfl : pc = BPlusTreePage.leaf c pid lm arrC := by
      rw [hfc0] at hfc; exact Option.some.inj hfc
    obtain rfl : pd = BPlusTreePage.leaf d pid lm arrD := by
      rw [hfd0] at hfd; exact Option.some.inj hfd
    simp only [BPlusTreePage.GetSize, BPlusTreePage.GetMaxSize] at hroom hsib ⊢
    obtain ⟨pair, e2, rest, rfl⟩ : ∃ pair e2 rest, arrD = pair :: e2 :: rest := by
      match arrD, hsib with
      | [], h => simp at h
      | [_], h => simp at h
      | pair :: e2 :: rest, _ => exact ⟨pair, e2, rest, rfl⟩
    obtain ⟨bpm1, hm1, hm2, hm3⟩ := BPlusTreeLeafPage.MoveFirstToEndOf_leaf
      t.buffer_pool_manager d c pid pid par lm lm mxp pair e2 rest arrC [(kc, c)] B kd
      hfd hfc hpar (by simpa using fun e => hcd e.symm) (fun e => hcd e.symm) hdp hcp
    have hfd1 : t.buffer_pool_manager.FetchPage d
        = some (BPlusTreePage.leaf d pid lm (pair :: e2 :: rest)) := hfd
    refine ⟨{ t with buffer_pool_manager := bpm1 }, BPlusTreePage.leaf c pid lm (arrC ++ [pair]),
      BPlusTreePage.leaf d pid lm (e2 :: rest), ?_, ?_, ?_, ?_, ?_⟩
    · simp only [Redistribute, FetchPage_def, hfd1, Option.bind_eq_bind, Option.some_bind,
        if_true, hm1]
    · show bpm1.FetchPage c = _
      rw [hm3, if_neg hcp, if_pos rfl]
    · show bpm1.FetchPage d = _
      rw [hm3, if_neg hdp, if_neg (fun e => hcd e.symm), if_pos rfl]
    · simp [BPlusTreePage.GetSize]
    · simp [BPlusTreePage.GetSize]
  | succ h =>
    obtain ⟨arrC, hfc, _⟩ := id hwc
    obtain ⟨arrD, hfd, _⟩ := id hwd
    obtain rfl : pc = BPlusTreePage.internal c pid im arrC := by
      rw [hfc0] at hfc; exact Option.some.inj hfc
    obtain rfl : pd = BPlusTreePage.internal d pid im arrD := by
      rw [hfd0] at hfd; exact Option.some.inj hfd
    simp only [BPlusTreePage.GetSize, BPlusTreePage.GetMaxSize] at hroom hsib ⊢
    obtain ⟨pair, e2, rest, rfl⟩ : ∃ pair e2 rest, arrD = pair :: e2 :: rest := by
      match arrD, hsib with
      | [], h => simp at h
      | [_], h => simp at h
      | pair :: e2 :: rest, _ => exact ⟨pair, e2, rest, rfl⟩
    have hkd : kidsOf (FetchPage t) d = pair.2 :: e2.2 :: rest.map Prod.snd :=
      kidsOf_internal hfd
    have hchd : pair.2 ∈ kidsOf (FetchPage t) d := by rw [hkd]; simp
    obtain ⟨l1, u1, hwch⟩ := hwd.child hchd
    obtain ⟨pch, hpch, _⟩ := hwch.fetch
    have hdisj : ∀ q, Under (FetchPage t) (h + 1) c q → ¬ Under (FetchPage t) (h + 1) d q :=
      fun q => WF.disjoint (h + 1) _ _ _ _ c d pid pid _ _ _ _ q hwc hwd hcd
    have hhd : pair.2 ≠ d := fun e => hwd.not_under_child hchd (e ▸ Under.self _ _ _)
    have hhc : pair.2 ≠ c := fun e => hdisj c (Under.self _ _ _)
      (Under.of_child hchd (e ▸ Under.self _ _ _))
    have hhp : pair.2 ≠ pid := fun e => hpd (Under.of_child hchd (e ▸ Under.self _ _ _))
    obtain ⟨bpm1, hm1, hm2, hm3⟩ := BPlusTreeInternalPage.MoveFirstToEndOf_spec
      t.buffer_pool_manager d c pid pid par im im mxp pair e2 rest arrC [(kc, c)] B kd pch
      hfd hfc hpar hpch (by simpa using fun e => hcd e.symm) (fun e => hcd e.symm) hdp hcp
      hhd hhc hhp hroom
    have hfd1 : t.buffer_pool_manager.FetchPage d
        = some (BPlusTreePage.internal d pid im (pair :: e2 :: rest)) := hfd
    refine ⟨{ t with buffer_pool_manager := bpm1 },
      BPlusTreePage.internal c pid im (arrC ++ [pair]),
      BPlusTreePage.internal d pid im (e2 :: rest), ?_, ?_, ?_, ?_, ?_⟩
    · simp only [Redistribute, FetchPage_def, hfd1, Option.bind_eq_bind, Option.some_bind,
        if_true, hm1]
    · show bpm1.FetchPage c = _
      rw [hm3, if_neg hcp, if_neg (fun e => hhc e.symm), if_pos rfl]
    · show bpm1.FetchPage d = _
      rw [hm3, if_neg hdp, if_neg (fun e => hhd e.symm), if_neg (fun e => hcd e.symm),
        if_pos rfl]
    · simp [BPlusTreePage.GetSize]
    · simp [BPlusTreePage.GetSize]

/-- The call `Redistribute` for a child `c` and its left sibling `d`: the call returns,
`c` holds one pair more and `d` one pair less. -/
theorem Redistribute_later_sizes {lm im h mc md : Nat} {t : BPlusTree K V}
    {pid par c d : Int} {A B : List (K × Int)} {kc kd : K} {mxp : Nat} {lo hi : Bound K}
    (hpar : FetchPage t pid
      = some (BPlusTreePage.internal pid par mxp (A ++ (kd, d) :: (kc, c) :: B)))
    (hwd : WF (FetchPage t) lm im md 0 h d pid lo (bnd kc))
    (hwc : WF (FetchPage t) lm im mc 0 h c pid (bnd kc) hi)
    (hcd : c ≠ d) (hpc : ¬ Under (FetchPage t) h c pid) (hpd : ¬ Under (FetchPage t) h d pid)
    (pc pd : BPlusTreePage K V) (hfc0 : FetchPage t c = some pc)
    (hfd0 : FetchPage t d = some pd)
    (hroom : pc.GetSize + 1 < pc.GetMaxSize ∨ h = 0) (hsib : 1 ≤ pd.GetSize) :
    ∃ t1 pc1 pd1, Redistribute t d c (A.length + 1) = some t1 ∧
      FetchPage t1 c = some pc1 ∧ FetchPage t1 d = some pd1 ∧
      pc1.GetSize = pc.GetSize + 1 ∧ pd1.GetSize + 1 = pd.GetSize := by
  have hcp : c ≠ pid := fun e => hpc (e ▸ Under.self _ _ _)
  have hdp : d ≠ pid := fun e => hpd (e ▸ Under.self _ _ _)
  have hpar1 : FetchPage t pid
      = some (BPlusTreePage.internal pid par mxp ((A ++ [(kd, d)]) ++ (kc, c) :: B)) := by
    rw [hpar]; simp
  have hlen : (A ++ [(kd, d)]).length = A.length + 1 := by simp
  cases h with
  | zero =>
    obtain ⟨arrC, hfc, _⟩ := id hwc
    obtain ⟨arrD, hfd, _⟩ := id hwd
    obtain rfl : pc = BPlusTreePage.leaf c pid lm arrC := by
      rw [hfc0] at hfc; exact Option.some.inj hfc
    obtain rfl : pd = BPlusTreePage.leaf d pid lm arrD := by
      rw [hfd0] at hfd; exact Option.some.inj hfd
    simp only [BPlusTreePage.GetSize, BPlusTreePage.GetMaxSize] at hroom hsib ⊢
    obtain ⟨front, pair, rfl⟩ := exists_concat arrD hsib
    obtain ⟨bpm1, hm1, hm2, hm3⟩ := BPlusTreeLeafPage.MoveLastToFrontOf_leaf
      t.buffer_pool_manager d c pid pid par lm lm mxp pair front arrC (A ++ [(kd, d)]) B kc
      hfd hfc hpar1 (fun e => hcd e.symm) hdp hcp
    rw [hlen] at hm1
    have hfd1 : t.buffer_pool_manager.FetchPage d
        = some (BPlusTreePage.leaf d pid lm (front ++ [pair])) := hfd
    refine ⟨{ t with buffer_pool_manager := bpm1 }, BPlusTreePage.leaf c pid lm (pair :: arrC),
      BPlusTreePage.leaf d pid lm front, ?_, ?_, ?_, ?_, ?_⟩
    · simp only [Redistribute, FetchPage_def, hfd1, Option.bind_eq_bind, Option.some_bind,
        Nat.add_one_ne_zero, if_false, hm1]
    · show bpm1.FetchPage c = _
      rw [hm3, if_neg hcp, if_pos rfl]
    · show bpm1.FetchPage d = _
      rw [hm3, if_neg hdp, if_neg (fun e => hcd e.symm), if_pos rfl]
    · simp [BPlusTreePage.GetSize]
    · simp [BPlusTreePage.GetSize]
  | succ h =>
    obtain ⟨arrC, hfc, _⟩ := id hwc
    obtain ⟨arrD, hfd, _⟩ := id hwd
    obtain rfl : pc = BPlusTreePage.internal c pid im arrC := by
      rw [hfc0] at hfc; exact Option.some.inj hfc
    obtain rfl : pd = BPlusTreePage.internal d pid im arrD := by
      rw [hfd0] at hfd; exact Option.some.inj hfd
    simp only [BPlusTreePage.GetSize, BPlusTreePage.GetMaxSize] at hroom hsib ⊢
    have hroom1 : arrC.length + 1 < im := by
      rcases hroom with h1 | h1
      · exact h1
      · exact absurd h1 (Nat.succ_ne_zero _)
    obtain ⟨front, pair, rfl⟩ := exists_concat arrD hsib
    have hkd : kidsOf (FetchPage t) d = front.map Prod.snd ++ [pair.2] := by
      rw [kidsOf_internal hfd]; simp
    have hchd : pair.2 ∈ kidsOf (FetchPage t) d := by rw [hkd]; simp
    obtain ⟨l1, u1, hwch⟩ := hwd.child hchd
    obtain ⟨pch, hpch, _⟩ := hwch.fetch
    have hdisj : ∀ q, Under (FetchPage t) (h + 1) c q → ¬ Under (FetchPage t) (h + 1) d q :=
      fun q => WF.disjoint (h + 1) _ _ _ _ c d pid pid _ _ _ _ q hwc hwd hcd
    have hhd : pair.2 ≠ d := fun e => hwd.not_under_child hchd (e ▸ Under.self _ _ _)
    have hhc : pair.2 ≠ c := fun e => hdisj c (Under.self _ _ _)
      (Under.of_child hchd (e ▸ Under.self _ _ _))
    have hhp : pair.2 ≠ pid := fun e => hpd (Under.of_child hchd (e ▸ Under.self _ _ _))
    obtain ⟨bpm1, hm1, hm2, hm3⟩ := BPlusTreeInternalPage.MoveLastToFrontOf_spec
      t.buffer_pool_manager d c pid pid par im im mxp pair front arrC (A ++ [(kd, d)]) B kc pch
      hfd hfc hpar1 hpch (fun e => hcd e.symm) hdp hcp hhd hhc hhp hroom1
    rw [hlen] at hm1
    have hfd1 : t.buffer_pool_manager.FetchPage d
        = some (BPlusTreePage.internal d pid im (front ++ [pair])) := hfd
    refine ⟨{ t with buffer_pool_manager := bpm1 },
      BPlusTreePage.internal c pid im (pair :: arrC),
      BPlusTreePage.internal d pid im front, ?_, ?_, ?_, ?_, ?_⟩
    · simp only [Redistribute, FetchPage_def, hfd1, Option.bind_eq_bind, Option.some_bind,
        Nat.add_one_ne_zero, if_false, hm1]
    · show bpm1.FetchPage c = _
      rw [hm3, if_neg hcp, if_neg (fun e => hhc e.symm), if_pos rfl]
    · show bpm1.FetchPage d = _
      rw [hm3, if_neg hdp, if_neg (fun e => hhd e.symm), if_neg (fun e => hcd e.symm),
        if_pos rfl]
    · simp [BPlusTreePage.GetSize]
    · simp [BPlusTreePage.GetSize]

end BPlusTree
/-! ## The page contracts (claims C21, C29, C30) -/

namespace BPlusTreePage

variable {K V : Type}

/-- C21. `BPlusTreePage::IsSafe`. For every page, `IsSafe(INSERT)` returns `true` exactly
when `size < max_size`; `IsSafe(DELETE)` returns `true` exactly when
`size ≥ GetMinSize() + 1` for a leaf page and exactly when `size > GetMinSize() + 1` for
an internal page; in the other cases the calls return `false`. -/
theorem IsSafe_contract (p : BPlusTreePage K V) :
    (p.IsSafe OpType.INSERT = some true ↔ p.GetSize < p.GetMaxSize) ∧
    (p.IsSafe OpType.INSERT = some false ↔ ¬ p.GetSize < p.GetMaxSize) ∧
    (p.IsLeafPage = true →
      (p.IsSafe OpType.DELETE = some true ↔ p.GetSize ≥ p.GetMinSize + 1) ∧
      (p.IsSafe OpType.DELETE = some false ↔ ¬ p.GetSize ≥ p.GetMinSize + 1)) ∧
    (p.IsLeafPage = false →
      (p.IsSafe OpType.DELETE = some true ↔ p.GetSize > p.GetMinSize + 1) ∧
      (p.IsSafe OpType.DELETE = some false ↔ ¬ p.GetSize > p.GetMinSize + 1)) := by
  refine ⟨?_, ?_, ?_, ?_⟩
  · simp [IsSafe]
  · simp [IsSafe]
  · intro hl
    simp [IsSafe, hl]
  · intro hl
    simp [IsSafe, hl]

end BPlusTreePage

namespace BPlusTreeInternalPage

variable {K V : Type} [LinearOrder K] [Inhabited K]

/-- Two indices that split the separator keys of a page at `key` are equal. -/
theorem split_unique (array : List (K × Int)) (key : K) (r1 r2 : Nat)
    (h1 : 1 ≤ r1) (h2 : r2 ≤ array.length)
    (hlo : ∀ i (hi : i < array.length), 1 ≤ i → i < r2 → array[i].1 ≤ key)
    (hhi : ∀ i (hi : i < array.length), r1 ≤ i → key < array[i].1) : r2 ≤ r1 := by
  by_contra hlt
  have hr : r1 < array.length := by omega
  exact absurd (hlo r1 hr h1 (by omega)) (not_le_of_lt (hhi r1 hr (le_refl _)))

/-- C29. `BPlusTreeInternalPage::Lookup`. On an internal page with at least two pairs
whose keys in the slots `1 .. size - 1` are strictly increasing, `Lookup(key)` returns
the child of a slot `j` such that the keys of the slots `1 .. j` are at most `key` and
the keys of the slots behind `j` are above `key`: the largest slot with a key not above
`key`, and slot 0 exactly when `key` is below the key of slot 1. The binary search ends
within `size` iterations, with the same result for every larger bound, and reads no
slot outside `0 .. size - 1`. -/
theorem Lookup_contract (array : List (K × Int)) (key : K) (hlen : 2 ≤ array.length)
    (hs : (array.tail.map Prod.fst).Pairwise (fun a b => a < b)) :
    ∃ j, ∃ hj : j < array.length,
      Lookup array key = some (array[j]).2 ∧
      (∀ i (hi : i < array.length), 1 ≤ i → i ≤ j → array[i].1 ≤ key) ∧
      (∀ i (hi : i < array.length), j < i → key < array[i].1) ∧
      (j = 0 ↔ ∀ h1 : 1 < array.length, key < array[1].1) ∧
      ∀ fuel, array.length ≤ fuel →
        lookupLoop array key fuel 1 (array.length - 1) = some (j + 1) := by
  obtain ⟨e0, rest, rfl⟩ : ∃ e0 rest, array = e0 :: rest := by
    cases array with
    | nil => simp at hlen
    | cons e0 rest => exact ⟨e0, rest, rfl⟩
  simp only [List.tail_cons] at hs
  have hs1 : ∀ i j (hi : i < (e0 :: rest).length) (hj : j < (e0 :: rest).length),
      1 ≤ i → i < j → ((e0 :: rest)[i]).1 < ((e0 :: rest)[j]).1 := by
    intro i j hi hj h1 hij
    obtain ⟨i, rfl⟩ : ∃ i1, i = i1 + 1 := ⟨i - 1, by omega⟩
    obtain ⟨j, rfl⟩ : ∃ j1, j = j1 + 1 := ⟨j - 1, by omega⟩
    simp only [List.getElem_cons_succ]
    have hi1 : i < rest.length := by simpa using hi
    have hj1 : j < rest.length := by simpa using hj
    have := List.pairwise_iff_getElem.mp hs i j (by simpa using hi1) (by simpa using hj1)
      (by omega)
    simpa using this
  have hloop : ∀ fuel, (e0 :: rest).length ≤ fuel →
      ∃ r, lookupLoop (e0 :: rest) key fuel 1 ((e0 :: rest).length - 1) = some r ∧ 1 ≤ r ∧
        r ≤ (e0 :: rest).length ∧
        (∀ i (hi : i < (e0 :: rest).length), 1 ≤ i → i < r → ((e0 :: rest)[i]).1 ≤ key) ∧
        (∀ i (hi : i < (e0 :: rest).length), r ≤ i → key < ((e0 :: rest)[i]).1) := by
    intro fuel hfuel
    exact lookupLoop_spec (e0 :: rest) key hs1 fuel 1 ((e0 :: rest).length - 1) (le_refl _)
      (by simp) (by simp) (by simp at hfuel ⊢; omega)
      (fun i hi h1 h2 => by omega) (fun i hi h => by simp at hi h; omega)
  obtain ⟨r, hr, hr1, hr2, hlo, hhi⟩ := hloop (e0 :: rest).length (le_refl _)
  obtain ⟨j, rfl⟩ : ∃ j, r = j + 1 := ⟨r - 1, by omega⟩
  have hj : j < (e0 :: rest).length := by omega
  refine ⟨j, hj, ?_, ?_, ?_, ?_, ?_⟩
  · unfold Lookup
    rw [if_pos (by omega), hr]
    simp only [Nat.add_sub_cancel, ValueAt, List.getElem?_eq_getElem hj, Option.map_some']
  · intro i hi h1 hij
    exact hlo i hi h1 (by omega)
  · intro i hi hji
    exact hhi i hi (by omega)
  · constructor
    · intro h0 h1
      exact hhi 1 h1 (by omega)
    · intro h0
      by_contra hne
      have h1 : 1 < (e0 :: rest).length := by omega
      exact absurd (hlo 1 h1 (le_refl _) (by omega)) (not_le_of_lt (h0 h1))
  · intro fuel hfuel
    obtain ⟨r2, hr2e, hr21, hr22, hlo2, hhi2⟩ := hloop fuel hfuel
    have ha := split_unique (e0 :: rest) key r2 (j + 1) hr21 hr2 hlo hhi2
    have hb := split_unique (e0 :: rest) key (j + 1) r2 hr1 hr22 hlo2 hhi
    rw [hr2e, le_antisymm hb ha]

/-- The contract of `Lookup` on the root page of the tree after the inserts of 1 .. 7,
for the key 4. -/
theorem Lookup_contract_witness :
    ∃ j, ∃ hj : j < [((0 : Nat), (1 : Int)), (3, 2), (5, 4)].length,
      Lookup [((0 : Nat), (1 : Int)), (3, 2), (5, 4)] 4
        = some ([((0 : Nat), (1 : Int)), (3, 2), (5, 4)][j]).2 ∧
      (∀ i (hi : i < [((0 : Nat), (1 : Int)), (3, 2), (5, 4)].length), 1 ≤ i → i ≤ j →
        ([((0 : Nat), (1 : Int)), (3, 2), (5, 4)][i]).1 ≤ 4) ∧
      (∀ i (hi : i < [((0 : Nat), (1 : Int)), (3, 2), (5, 4)].length), j < i →
        4 < ([((0 : Nat), (1 : Int)), (3, 2), (5, 4)][i]).1) ∧
      (j = 0 ↔ ∀ h1 : 1 < [((0 : Nat), (1 : Int)), (3, 2), (5, 4)].length,
        4 < ([((0 : Nat), (1 : Int)), (3, 2), (5, 4)][1]).1) ∧
      ∀ fuel, [((0 : Nat), (1 : Int)), (3, 2), (5, 4)].length ≤ fuel →
        lookupLoop [((0 : Nat), (1 : Int)), (3, 2), (5, 4)] 4 fuel 1
          ([((0 : Nat), (1 : Int)), (3, 2), (5, 4)].length - 1) = some (j + 1) :=
  Lookup_contract [((0 : Nat), (1 : Int)), (3, 2), (5, 4)] 4 (by decide) (by decide)

end BPlusTreeInternalPage

namespace BPlusTreeInternalPage

variable {K V : Type} [LinearOrder K] [Inhabited K]

/-- The search `ValueIndex` returns the first slot that holds the value. -/
theorem ValueIndex_first : ∀ (array : List (K × Int)) (value : Int) (p : Nat)
    (hp : p < array.length), (array[p]).2 = value →
    (∀ i (hi : i < array.length), i < p → (array[i]).2 ≠ value) →
    ValueIndex array value = some p := by
  intro array
  induction array with
  | nil => intro value p hp; simp at hp
  | cons e rest ih =>
    intro value p hp hv hfirst
    cases p with
    | zero =>
      simp only [List.getElem_cons_zero] at hv
      simp [ValueIndex, hv]
    | succ p =>
      have h0 := hfirst 0 (by simp) (by omega)
      simp only [List.getElem_cons_zero] at h0
      have hp1 : p < rest.length := by simpa using hp
      have := ih value p hp1 (by simpa using hv)
        (fun i hi hip => by simpa using hfirst (i + 1) (by simpa using hi) (by omega))
      have hne : ¬ value = e.2 := fun e1 => h0 e1.symm
      simp [ValueIndex, hne, this]

/-- The search `ValueIndex` finds nothing in a page without the value. -/
theorem ValueIndex_absent : ∀ (array : List (K × Int)) (value : Int),
    (∀ e ∈ array, e.2 ≠ value) → ValueIndex array value = none := by
  intro array
  induction array with
  | nil => intro value _; rfl
  | cons e rest ih =>
    intro value h
    have h0 := h e (by simp)
    have hne : ¬ value = e.2 := fun e1 => h0 e1.symm
    simp [ValueIndex, hne, ih value (fun e1 he1 => h e1 (by simp [he1]))]

/-- C30. `BPlusTreeInternalPage::InsertNodeAfter(old_value, new_key, new_value)`. If
`old_value` occurs in the page, first in slot `p`, the call leaves the slots `0 .. p` as
they are, places `(new_key, new_value)` in slot `p + 1`, moves every former slot
`q > p` to `q + 1`, and the size, which it returns, grows by one. If `old_value` does
not occur in the page the call fails its assertion and inserts nothing. -/
theorem InsertNodeAfter_contract (array : List (K × Int)) (old_value : Int) (new_key : K)
    (new_value : Int) :
    (∀ p (hp : p < array.length), (array[p]).2 = old_value →
      (∀ i (hi : i < array.length), i < p → (array[i]).2 ≠ old_value) →
      ∃ array1, InsertNodeAfter array old_value new_key new_value = some array1 ∧
        array1 = array.take (p + 1) ++ (new_key, new_value) :: array.drop (p + 1) ∧
        array1.length = array.length + 1 ∧
        (∀ i, i ≤ p → array1[i]? = array[i]?) ∧
        array1[p + 1]? = some (new_key, new_value) ∧
        (∀ q, p < q → array1[q + 1]? = array[q]?)) ∧
    ((∀ e ∈ array, e.2 ≠ old_value) →
      InsertNodeAfter array old_value new_key new_value = none) := by
  constructor
  · intro p hp hv hfirst
    have hidx := ValueIndex_first array old_value p hp hv hfirst
    have hlt : (array.take (p + 1)).length = p + 1 := by
      rw [List.length_take]; omega
    refine ⟨_, by simp [InsertNodeAfter, hidx], rfl, ?_, ?_, ?_, ?_⟩
    · simp only [List.length_append, List.length_cons, List.length_take, List.length_drop]
      omega
    · intro i hi
      rw [List.getElem?_append_left (by omega)]
      rw [List.getElem?_take_of_lt (by omega)]
    · rw [List.getElem?_append_right (by omega), hlt]
      simp
    · intro q hq
      rw [List.getElem?_append_right (by omega), hlt]
      obtain ⟨n, rfl⟩ : ∃ n, q = p + 1 + n := ⟨q - (p + 1), by omega⟩
      have : p + 1 + n + 1 - (p + 1) = n + 1 := by omega
      rw [this, List.getElem?_cons_succ, List.getElem?_drop]
  · intro h
    simp [InsertNodeAfter, ValueIndex_absent array old_value h]

end BPlusTreeInternalPage

/-! ## The internal page operations of the split and the merge (claims C25, C26) -/

namespace BPlusTreeInternalPage

variable {K V : Type} [LinearOrder K] [Inhabited K]

/-- C25. Internal split (`MoveHalfTo`). For an internal page `this` that holds
`max_size + 1` pairs and an empty internal page `recipient`, with the children of the
upper half present in the buffer pool, `MoveHalfTo` returns; `this` keeps the first
`floor((max_size + 1) / 2)` pairs, `recipient` holds the other
`ceil((max_size + 1) / 2)` pairs, the pairs of `this` followed by those of `recipient`
are the pairs of `this` before the call, and every child named by `recipient` has the
page id of `recipient` as `parent_page_id`. -/
theorem MoveHalfTo_contract (bpm : BufferPoolManager K V) (this recipient pid par rid rpar : Int)
    (mx rmx : Nat) (array : List (K × Int))
    (hthis : bpm.FetchPage this = some (BPlusTreePage.internal pid par mx array))
    (hlen : array.length = mx + 1)
    (hrec : bpm.FetchPage recipient = some (BPlusTreePage.internal rid rpar rmx []))
    (hex : ∀ c ∈ (array.drop ((mx + 1) / 2)).map Prod.snd, (bpm.FetchPage c).isSome = true) :
    ∃ bpm1 par1 rpar1, MoveHalfTo bpm this recipient = some bpm1 ∧
      bpm1.FetchPage this
        = some (BPlusTreePage.internal pid par1 mx (array.take ((mx + 1) / 2))) ∧
      bpm1.FetchPage recipient
        = some (BPlusTreePage.internal rid rpar1 rmx (array.drop ((mx + 1) / 2))) ∧
      (array.take ((mx + 1) / 2)).length = (mx + 1) / 2 ∧
      (array.drop ((mx + 1) / 2)).length = (mx + 1 + 1) / 2 ∧
      array.take ((mx + 1) / 2) ++ array.drop ((mx + 1) / 2) = array ∧
      (this ∉ (array.drop ((mx + 1) / 2)).map Prod.snd → par1 = par) ∧
      (recipient ∉ (array.drop ((mx + 1) / 2)).map Prod.snd → rpar1 = rpar) ∧
      ∀ c ∈ (array.drop ((mx + 1) / 2)).map Prod.snd,
        ∃ p, bpm1.FetchPage c = some p ∧ p.GetParentPageId = rid := by
  have hex1 : ∀ c ∈ (array.drop ((mx + 1) / 2)).map Prod.snd, ∃ p, bpm.FetchPage c = some p :=
    fun c hc => Option.isSome_iff_exists.mp (hex c hc)
  obtain ⟨bpm1, hs1, _, hs3⟩ := BufferPoolManager.SetParentPageIds_spec
    ((array.drop ((mx + 1) / 2)).map Prod.snd) bpm rid hex1
  have hne : ¬ recipient = this := by
    intro e
    rw [e, hthis] at hrec
    simp only [Option.some.injEq, BPlusTreePage.internal.injEq] at hrec
    rw [hrec.2.2.2] at hlen
    simp at hlen
  have hr1 : bpm1.FetchPage recipient = some (BPlusTreePage.internal rid
      (if recipient ∈ (array.drop ((mx + 1) / 2)).map Prod.snd then rid else rpar) rmx []) := by
    rw [hs3]
    by_cases h : recipient ∈ (array.drop ((mx + 1) / 2)).map Prod.snd
    · rw [if_pos h, if_pos h, hrec]; rfl
    · rw [if_neg h, if_neg h, hrec]
  have ht1 : bpm1.FetchPage this = some (BPlusTreePage.internal pid
      (if this ∈ (array.drop ((mx + 1) / 2)).map Prod.snd then rid else par) mx array) := by
    rw [hs3]
    by_cases h : this ∈ (array.drop ((mx + 1) / 2)).map Prod.snd
    · rw [if_pos h, if_pos h, hthis]; rfl
    · rw [if_neg h, if_neg h, hthis]
  refine ⟨(bpm1.store recipient (BPlusTreePage.internal rid
      (if recipient ∈ (array.drop ((mx + 1) / 2)).map Prod.snd then rid else rpar) rmx
      (array.drop ((mx + 1) / 2)))).store this (BPlusTreePage.internal pid
      (if this ∈ (array.drop ((mx + 1) / 2)).map Prod.snd then rid else par) mx
      (array.take ((mx + 1) / 2))),
      (if this ∈ (array.drop ((mx + 1) / 2)).map Prod.snd then rid else par),
      (if recipient ∈ (array.drop ((mx + 1) / 2)).map Prod.snd then rid else rpar),
      ?_, ?_, ?_, ?_, ?_, ?_, ?_, ?_, ?_⟩
  · simp only [MoveHalfTo, hthis, hrec, hlen, Option.bind_eq_bind, Option.some_bind, ne_eq,
      not_true_eq_false, if_false, BPlusTreePage.GetPageId, hs1, hr1,
      BufferPoolManager.FetchPage_store, hne, ht1]
  · simp
  · rw [BufferPoolManager.FetchPage_store, if_neg (fun e => hne e.symm),
      BufferPoolManager.FetchPage_store, if_pos rfl]
  · rw [List.length_take, hlen]; omega
  · rw [List.length_drop, hlen]; omega
  · exact List.take_append_drop _ _
  · intro h; rw [if_neg h]
  · intro h; rw [if_neg h]
  · intro c hc
    simp only [BufferPoolManager.FetchPage_store]
    by_cases h1 : this = c
    · subst h1
      exact ⟨_, if_pos rfl, by rw [if_pos hc]; rfl⟩
    · rw [if_neg h1]
      by_cases h2 : recipient = c
      · subst h2
        exact ⟨_, if_pos rfl, by rw [if_pos hc]; rfl⟩
      · rw [if_neg h2, hs3, if_pos hc]
        obtain ⟨p, hp⟩ := hex1 c hc
        rw [hp]
        exact ⟨_, rfl, by cases p <;> rfl⟩

/-- C26. Internal coalesce (`MoveAllTo`). For an internal page `this` with at least the
pair of slot 0, another internal page `recipient` such that the two sizes sum to at most
`max_size`, the parent of `this` holding the key `kp` in slot `index_in_parent`, and the
children of `this` present in the buffer pool, `MoveAllTo` returns; `recipient` holds
its former pairs followed by the pairs of `this` in order, the key of the pair of slot 0
replaced by `kp`; its size is the sum of the two sizes, the size of `this` is 0, and
every child that moved has the page id of `recipient` as `parent_page_id`. -/
theorem MoveAllTo_contract (bpm : BufferPoolManager K V)
    (this recipient nid npar rid rpar a b : Int) (mxn mxr mxp : Nat)
    (k0 : K) (c0 : Int) (rest arrR parray : List (K × Int)) (index_in_parent : Nat) (kp : K)
    (hthis : bpm.FetchPage this = some (BPlusTreePage.internal nid npar mxn ((k0, c0) :: rest)))
    (hrec : bpm.FetchPage recipient = some (BPlusTreePage.internal rid rpar mxr arrR))
    (hne : this ≠ recipient)
    (hp : bpm.FetchPage npar = some (BPlusTreePage.internal a b mxp parray))
    (hk : KeyAt parray index_in_parent = some kp)
    (hex : ∀ c ∈ c0 :: rest.map Prod.snd, (bpm.FetchPage c).isSome = true)
    (hsz : arrR.length + (rest.length + 1) ≤ mxn) :
    ∃ bpm1 npar1 rpar1, MoveAllTo bpm this recipient index_in_parent = some bpm1 ∧
      bpm1.FetchPage recipient
        = some (BPlusTreePage.internal rid rpar1 mxr (arrR ++ (kp, c0) :: rest)) ∧
      bpm1.FetchPage this = some (BPlusTreePage.internal nid npar1 mxn []) ∧
      (arrR ++ (kp, c0) :: rest).length = arrR.length + ((k0, c0) :: rest).length ∧
      (this ∉ c0 :: rest.map Prod.snd → npar1 = npar) ∧
      (recipient ∉ c0 :: rest.map Prod.snd → rpar1 = rpar) ∧
      ∀ c ∈ c0 :: rest.map Prod.snd,
        ∃ p, bpm1.FetchPage c = some p ∧ p.GetParentPageId = rid := by
  have hex1 : ∀ c ∈ c0 :: rest.map Prod.snd, ∃ p, bpm.FetchPage c = some p :=
    fun c hc => Option.isSome_iff_exists.mp (hex c hc)
  obtain ⟨bpm1, hs1, _, hs3⟩ := BufferPoolManager.SetParentPageIds_spec
    (c0 :: rest.map Prod.snd) bpm rid hex1
  have hne1 : ¬ recipient = this := fun e => hne e.symm
  have hr1 : bpm1.FetchPage recipient = some (BPlusTreePage.internal rid
      (if recipient ∈ c0 :: rest.map Prod.snd then rid else rpar) mxr arrR) := by
    rw [hs3]
    by_cases h : recipient ∈ c0 :: rest.map Prod.snd
    · rw [if_pos h, if_pos h, hrec]; rfl
    · rw [if_neg h, if_neg h, hrec]
  have ht1 : bpm1.FetchPage this = some (BPlusTreePage.internal nid
      (if this ∈ c0 :: rest.map Prod.snd then rid else npar) mxn ((k0, c0) :: rest)) := by
    rw [hs3]
    by_cases h : this ∈ c0 :: rest.map Prod.snd
    · rw [if_pos h, if_pos h, hthis]; rfl
    · rw [if_neg h, if_neg h, hthis]
  refine ⟨(bpm1.store recipient (BPlusTreePage.internal rid
      (if recipient ∈ c0 :: rest.map Prod.snd then rid else rpar) mxr
      (arrR ++ (kp, c0) :: rest))).store this (BPlusTreePage.internal nid
      (if this ∈ c0 :: rest.map Prod.snd then rid else npar) mxn []),
      (if this ∈ c0 :: rest.map Prod.snd then rid else npar),
      (if recipient ∈ c0 :: rest.map Prod.snd then rid else rpar),
      ?_, ?_, ?_, ?_, ?_, ?_, ?_⟩
  · simp only [MoveAllTo, hthis, hrec, hp, hk, Option.bind_eq_bind, Option.some_bind, SetKeyAt,
      List.getElem?_cons_zero, List.set_cons_zero, List.map_cons, hs1, hr1,
      BufferPoolManager.FetchPage_store, hne1, if_false, ht1, List.length_cons, hsz,
      not_true_eq_false]
  · rw [BufferPoolManager.FetchPage_store, if_neg hne,
      BufferPoolManager.FetchPage_store, if_pos rfl]
  · simp
  · simp
  · intro h; rw [if_neg h]
  · intro h; rw [if_neg h]
  · intro c hc
    simp only [BufferPoolManager.FetchPage_store]
    by_cases h1 : this = c
    · subst h1
      exact ⟨_, if_pos rfl, by rw [if_pos hc]; rfl⟩
    · rw [if_neg h1]
      by_cases h2 : recipient = c
      · subst h2
        exact ⟨_, if_pos rfl, by rw [if_pos hc]; rfl⟩
      · rw [if_neg h2, hs3, if_pos hc]
        obtain ⟨p, hp1⟩ := hex1 c hc
        rw [hp1]
        exact ⟨_, rfl, by cases p <;> rfl⟩

/-- The split of the internal page 3 with five pairs into the pages 3 and 7. -/
theorem MoveHalfTo_contract_witness :
    ∃ bpm1 par1 rpar1, MoveHalfTo BPlusTree.splitPool 3 7 = some bpm1 ∧
      bpm1.FetchPage 3 = some (BPlusTreePage.internal 3 par1 4 [(0, 1), (3, 2)]) ∧
      bpm1.FetchPage 7 = some (BPlusTreePage.internal 7 rpar1 4 [(5, 4), (7, 5), (9, 6)]) ∧
      ([(0, 1), (3, 2)] : List (Nat × Int)).length = (4 + 1) / 2 ∧
      ([(5, 4), (7, 5), (9, 6)] : List (Nat × Int)).length = (4 + 1 + 1) / 2 ∧
      ([(0, 1), (3, 2)] : List (Nat × Int)) ++ [(5, 4), (7, 5), (9, 6)]
        = [(0, 1), (3, 2), (5, 4), (7, 5), (9, 6)] ∧
      ((3 : Int) ∉ ([4, 5, 6] : List Int) → par1 = -1) ∧
      ((7 : Int) ∉ ([4, 5, 6] : List Int) → rpar1 = -1) ∧
      ∀ c ∈ ([4, 5, 6] : List Int), ∃ p, bpm1.FetchPage c = some p ∧ p.GetParentPageId = 7 :=
  MoveHalfTo_contract BPlusTree.splitPool 3 7 3 (-1) 7 (-1) 4 4
    [(0, 1), (3, 2), (5, 4), (7, 5), (9, 6)] (by decide) (by decide) (by decide) (by decide)

/-- The merge of the internal page 7 into its left sibling, page 3, in `Remove(5)` on
the tree after the inserts of 1 .. 11. -/
theorem MoveAllTo_contract_witness :
    ∃ bpm1 npar1 rpar1, MoveAllTo BPlusTree.mergePool 7 3 1 = some bpm1 ∧
      bpm1.FetchPage 3
        = some (BPlusTreePage.internal 3 rpar1 4 [(0, 1), (3, 2), (5, 4), (9, 6)]) ∧
      bpm1.FetchPage 7 = some (BPlusTreePage.internal 7 npar1 4 []) ∧
      ([(0, 1), (3, 2), (5, 4), (9, 6)] : List (Nat × Int)).length
        = ([(0, 1), (3, 2)] : List (Nat × Int)).length
          + ([(5, 4), (9, 6)] : List (Nat × Int)).length ∧
      ((7 : Int) ∉ ([4, 6] : List Int) → npar1 = 8) ∧
      ((3 : Int) ∉ ([4, 6] : List Int) → rpar1 = 8) ∧
      ∀ c ∈ ([4, 6] : List Int), ∃ p, bpm1.FetchPage c = some p ∧ p.GetParentPageId = 3 :=
  MoveAllTo_contract BPlusTree.mergePool 7 3 7 8 3 8 8 (-1) 4 4 4 5 4 [(9, 6)]
    [(0, 1), (3, 2)] [(0, 3), (5, 7)] 1 5 (by decide) (by decide) (by decide) (by decide)
    (by decide) (by decide) (by decide)

end BPlusTreeInternalPage

/-! ## The tree operations (claim C22) -/

namespace BPlusTree

variable {K V : Type} [LinearOrder K] [Inhabited K]

/-- C22, the claim as stated fails. In the tree after `Insert(1)` the root is the leaf
page 1 with one pair; `AdjustRoot` on it fails the assertion on the size and does not
return `false`. -/
theorem AdjustRoot_leaf_counterexample :
    Reachable 4 4 1 (rootLeaf [(1, 10)] 2) ∧
      FetchPage (rootLeaf [(1, 10)] 2) (rootLeaf [(1, 10)] 2).root_page_id
        = some (BPlusTreePage.leaf 1 INVALID_PAGE_ID 4 [(1, 10)]) ∧
      (BPlusTreePage.leaf 1 INVALID_PAGE_ID 4 [(1, 10)] : BPlusTreePage Nat Nat).GetSize = 1 ∧
      AdjustRoot (rootLeaf [(1, 10)] 2) 1 = none ∧
      AdjustRoot (rootLeaf [(1, 10)] 2) 1 ≠ some (false, rootLeaf [(1, 10)] 2) :=
  ⟨Reachable.after_insertAll 2 [(1, 10)] _ _ Reachable.new (by decide),
    by decide, by decide, by decide, by decide⟩

/-- C22, amended. `AdjustRoot(root)` for a root page: if the root is a leaf with size 0
the call sets `root_page_id` to `INVALID_PAGE_ID` and returns `true`; if the root is a
leaf with another size the call fails its assertion; if the root is internal with size
1 and its child is present, the call makes the child the new root (`root_page_id` is
the child id, the `parent_page_id` of the child is `INVALID_PAGE_ID`, no page other than
the old root and the child changes) and returns `true`; if the root is internal with
another size the call returns `false` and changes nothing. -/
theorem AdjustRoot_contract (t : BPlusTree K V) (root : Int) (page : BPlusTreePage K V)
    (hf : FetchPage t root = some page) (hroot : page.IsRootPage = true) :
    (page.IsLeafPage = true → page.GetSize = 0 →
      AdjustRoot t root = some (true, { t with root_page_id := INVALID_PAGE_ID })) ∧
    (page.IsLeafPage = true → page.GetSize ≠ 0 → AdjustRoot t root = none) ∧
    (page.IsLeafPage = false → page.GetSize ≠ 1 → AdjustRoot t root = some (false, t)) ∧
    (page.IsLeafPage = false → page.GetSize = 1 →
      ∀ child, child ∈ kidsOf (FetchPage t) root → (FetchPage t child).isSome = true →
        ∃ t1 cpage, AdjustRoot t root = some (true, t1) ∧ t1.root_page_id = child ∧
          FetchPage t1 child = some cpage ∧ cpage.GetParentPageId = INVALID_PAGE_ID ∧
          ∀ q, q ≠ child → q ≠ root → FetchPage t1 q = FetchPage t q) := by
  have hf1 : t.buffer_pool_manager.FetchPage root = some page := hf
  cases page with
  | leaf a b mx arr =>
    have hb : b = INVALID_PAGE_ID := by
      simpa [BPlusTreePage.IsRootPage, BPlusTreePage.GetParentPageId] using hroot
    refine ⟨?_, ?_, ?_, ?_⟩
    · intro _ hs
      simp only [BPlusTreePage.GetSize] at hs
      simp [AdjustRoot, FetchPage_def, hf1, hs, hb]
    · intro _ hs
      simp only [BPlusTreePage.GetSize] at hs
      simp [AdjustRoot, FetchPage_def, hf1, hs]
    · intro hl; simp [BPlusTreePage.IsLeafPage] at hl
    · intro hl; simp [BPlusTreePage.IsLeafPage] at hl
  | internal a b mx arr =>
    refine ⟨?_, ?_, ?_, ?_⟩
    · intro hl; simp [BPlusTreePage.IsLeafPage] at hl
    · intro hl; simp [BPlusTreePage.IsLeafPage] at hl
    · intro _ hs
      simp only [BPlusTreePage.GetSize] at hs
      simp [AdjustRoot, FetchPage_def, hf1, hs]
    · intro _ hs child hchild hsome
      simp only [BPlusTreePage.GetSize] at hs
      obtain ⟨e, rfl⟩ : ∃ e, arr = [e] := by
        match arr, hs with
        | [e], _ => exact ⟨e, rfl⟩
      rw [kidsOf_internal hf] at hchild
      simp only [List.map_cons, List.map_nil, List.mem_singleton] at hchild
      subst hchild
      obtain ⟨cp, hcp⟩ := Option.isSome_iff_exists.mp hsome
      have hcp1 : t.buffer_pool_manager.FetchPage e.2 = some cp := hcp
      by_cases hrc : root = e.2
      · subst hrc
        refine ⟨{ t with root_page_id := e.2, buffer_pool_manager :=
            ((t.buffer_pool_manager.store e.2 (BPlusTreePage.internal a b mx [])).store e.2
              ((BPlusTreePage.internal a b mx [] : BPlusTreePage K V).SetParentPageId
                INVALID_PAGE_ID)) },
          (BPlusTreePage.internal a b mx [] : BPlusTreePage K V).SetParentPageId
          INVALID_PAGE_ID, ?_, rfl, ?_, rfl, ?_⟩
        · simp [AdjustRoot, FetchPage_def, hf1, BPlusTreeInternalPage.RemoveAndReturnOnlyChild,
            BufferPoolManager.SetParentPageId]
        · simp [FetchPage_def]
        · intro q hq _
          have : ¬ e.2 = q := fun h => hq h.symm
          simp [FetchPage_def, this]
      · refine ⟨{ t with root_page_id := e.2, buffer_pool_manager :=
            ((t.buffer_pool_manager.store root (BPlusTreePage.internal a b mx [])).store e.2
              (cp.SetParentPageId INVALID_PAGE_ID)) },
          cp.SetParentPageId INVALID_PAGE_ID, ?_, rfl, ?_, by cases cp <;> rfl, ?_⟩
        · simp [AdjustRoot, FetchPage_def, hf1, BPlusTreeInternalPage.RemoveAndReturnOnlyChild,
            BufferPoolManager.SetParentPageId, hrc, hcp1]
        · simp [FetchPage_def]
        · intro q hq hq1
          have h1 : ¬ e.2 = q := fun h => hq h.symm
          have h2 : ¬ root = q := fun h => hq1 h.symm
          simp [FetchPage_def, h1, h2]

/-- The contract of `AdjustRoot` at the root of `tree5merged`, an internal page with one
child. -/
theorem AdjustRoot_contract_witness :
    ((BPlusTreePage.internal 3 (-1) 4 [(0, 1)] : BPlusTreePage Nat Nat).IsLeafPage = true →
      (BPlusTreePage.internal 3 (-1) 4 [(0, 1)] : BPlusTreePage Nat Nat).GetSize = 0 →
      AdjustRoot tree5merged 3
        = some (true, { tree5merged with root_page_id := INVALID_PAGE_ID })) ∧
    ((BPlusTreePage.internal 3 (-1) 4 [(0, 1)] : BPlusTreePage Nat Nat).IsLeafPage = true →
      (BPlusTreePage.internal 3 (-1) 4 [(0, 1)] : BPlusTreePage Nat Nat).GetSize ≠ 0 →
      AdjustRoot tree5merged 3 = none) ∧
    ((BPlusTreePage.internal 3 (-1) 4 [(0, 1)] : BPlusTreePage Nat Nat).IsLeafPage = false →
      (BPlusTreePage.internal 3 (-1) 4 [(0, 1)] : BPlusTreePage Nat Nat).GetSize ≠ 1 →
      AdjustRoot tree5merged 3 = some (false, tree5merged)) ∧
    ((BPlusTreePage.internal 3 (-1) 4 [(0, 1)] : BPlusTreePage Nat Nat).IsLeafPage = false →
      (BPlusTreePage.internal 3 (-1) 4 [(0, 1)] : BPlusTreePage Nat Nat).GetSize = 1 →
      ∀ child, child ∈ kidsOf (FetchPage tree5merged) 3 →
        (FetchPage tree5merged child).isSome = true →
        ∃ t1 cpage, AdjustRoot tree5merged 3 = some (true, t1) ∧ t1.root_page_id = child ∧
          FetchPage t1 child = some cpage ∧ cpage.GetParentPageId = INVALID_PAGE_ID ∧
          ∀ q, q ≠ child → q ≠ 3 → FetchPage t1 q = FetchPage tree5merged q) :=
  AdjustRoot_contract tree5merged 3 (BPlusTreePage.internal 3 (-1) 4 [(0, 1)]) (by decide)
    (by decide)

end BPlusTree
/-! ## B+ tree: a node and its sibling under their parent -/

theorem StdMap.mem_of_find {K V : Type} [DecidableEq K] :
    ∀ (m : List (K × V)) (k : K) (v : V), StdMap.find m k = some v → (k, v) ∈ m
  | [], _, _, h => by simp [StdMap.find] at h
  | (k1, v1) :: rest, k, v, h => by
    simp only [StdMap.find] at h
    by_cases e : k1 = k
    · rw [if_pos e] at h
      cases h
      subst e
      exact List.mem_cons_self _ _
    · rw [if_neg e] at h
      exact List.mem_cons_of_mem _ (StdMap.mem_of_find rest k v h)

namespace BPlusTree

variable {K V : Type} [LinearOrder K] [Inhabited K]

/-- The side conditions `PoolOk` from a check of the ids in the page table. -/
theorem PoolOk.of_pages (t : BPlusTree K V)
    (h : ∀ e ∈ t.buffer_pool_manager.pages,
      0 ≤ e.1 ∧ e.1 < t.buffer_pool_manager.next_page_id) :
    PoolOk t.leaf_max_size t.internal_max_size t :=
  ⟨rfl, rfl, fun q p hq => h (q, p) (StdMap.mem_of_find _ _ _ hq)⟩

/-- The call `CoalesceOrRedistribute` on one of two neighbouring children `l`, `r` of a
page: on `l` if `l` is the first child, with the sibling `r`, and on `r` with the sibling
`l`. The test compares the sum of the sizes with the capacity; `Coalesce` gets the left
page as neighbour and the right page with its slot as node, `Redistribute` gets the
sibling, the node and the slot of the node. -/
theorem CoalesceOrRedistribute_pair {lm im h ml mr : Nat} {t : BPlusTree K V}
    {pid par l r : Int} {A B : List (K × Int)} {k1 k2 : K} {mxp : Nat} {lo hi : Bound K}
    (hpar : FetchPage t pid
      = some (BPlusTreePage.internal pid par mxp (A ++ (k1, l) :: (k2, r) :: B)))
    (hwl : WF (FetchPage t) lm im ml 0 h l pid lo (bnd k2))
    (hwr : WF (FetchPage t) lm im mr 0 h r pid (bnd k2) hi)
    (hlr : l ≠ r) (hpid : pid ≠ INVALID_PAGE_ID) (node sib : Int)
    (hcfg : (node = l ∧ sib = r ∧ A = []) ∨ (node = r ∧ sib = l ∧ r ∉ A.map Prod.snd))
    (pn ps : BPlusTreePage K V) (hn : FetchPage t node = some pn)
    (hs : FetchPage t sib = some ps) (fuel : Nat) (x : Transaction) :
    CoalesceOrRedistribute (fuel + 1) t node (some x) =
      if pn.GetSize + ps.GetSize ≤ pn.GetMaxSize then
        (Coalesce (CoalesceOrRedistribute fuel) t l r pid (A.length + 1)
          (some (x.AddIntoPageSet sib))).bind (fun res => some (true, res.2.1, res.2.2))
      else (Redistribute t sib node (if node = l then 0 else A.length + 1)).bind
        (fun t2 => some (false, t2, some (x.AddIntoPageSet sib))) := by
  rcases hcfg with ⟨h1, h2, h3⟩ | ⟨h1, h2, h3⟩
  · subst h1 h2 h3
    obtain ⟨-, -, -, hnp, hnid, -⟩ := hwl.size pn hn
    obtain ⟨-, -, -, -, hsid, -⟩ := hwr.size ps hs
    have := CoalesceOrRedistribute_first fuel t node sib pid pid par mxp k1 k2 B pn ps x
      hn hnid hnp hpid hs hsid hpar hlr
    simpa using this
  · subst h1 h2
    obtain ⟨-, -, -, hnp, hnid, -⟩ := hwr.size pn hn
    have := CoalesceOrRedistribute_later fuel t node sib pid pid par mxp k2 k1 A B pn ps x
      hn hnid hnp hpid hs hpar h3 (fun e => hlr e.symm)
    have hne : ¬ node = sib := fun e => hlr e.symm
    rw [this]
    simp only [hne, if_false]

/-- The call `Redistribute` for a node of at most its minimum size whose sibling does
not fit into one page with it: the call returns, the node holds one pair more and the
sibling one pair less. -/
theorem Redistribute_pair_sizes {lm im h ml mr : Nat} {t : BPlusTree K V}
    (hlm : 2 ≤ lm) (him : 3 ≤ im)
    {pid par l r : Int} {A B : List (K × Int)} {k1 k2 : K} {mxp : Nat} {lo hi : Bound K}
    (hpar : FetchPage t pid
      = some (BPlusTreePage.internal pid par mxp (A ++ (k1, l) :: (k2, r) :: B)))
    (hwl : WF (FetchPage t) lm im ml 0 h l pid lo (bnd k2))
    (hwr : WF (FetchPage t) lm im mr 0 h r pid (bnd k2) hi)
    (hlr : l ≠ r) (hpl : ¬ Under (FetchPage t) h l pid) (hpr : ¬ Under (FetchPage t) h r pid)
    (hpid : pid ≠ INVALID_PAGE_ID) (node sib : Int)
    (hcfg : (node = l ∧ sib = r ∧ A = []) ∨ (node = r ∧ sib = l ∧ r ∉ A.map Prod.snd))
    (pn ps : BPlusTreePage K V) (hn : FetchPage t node = some pn)
    (hs : FetchPage t sib = some ps)
    (hunder : pn.GetSize ≤ pn.GetMinSize)
    (hbig : ¬ pn.GetSize + ps.GetSize ≤ pn.GetMaxSize) :
    ∃ t2 pn2 ps2, Redistribute t sib node (if node = l then 0 else A.length + 1) = some t2 ∧
      FetchPage t2 node = some pn2 ∧ FetchPage t2 sib = some ps2 ∧
      pn2.GetSize = pn.GetSize + 1 ∧ ps2.GetSize + 1 = ps.GetSize := by
  have hmax : 2 ≤ (if h = 0 then lm else im) := by
    split <;> omega
  rcases hcfg with ⟨h1, h2, h3⟩ | ⟨h1, h2, h3⟩
  · subst h1 h2 h3
    obtain ⟨-, -, hnm, hnp, -, -⟩ := hwl.size pn hn
    rw [GetMinSize_nonroot pn (by rw [hnp]; exact hpid)] at hunder
    rw [if_pos rfl]
    exact Redistribute_first_sizes hpar hwl hwr hlr hpl hpr pn ps hn hs
      (by omega) (by omega)
  · subst h1 h2
    obtain ⟨-, -, hnm, hnp, -, -⟩ := hwr.size pn hn
    rw [GetMinSize_nonroot pn (by rw [hnp]; exact hpid)] at hunder
    rw [if_neg (fun e => hlr e.symm)]
    refine Redistribute_later_sizes hpar hwl hwr (fun e => hlr e.symm) hpr hpl pn ps hn hs
      ?_ (by omega)
    by_cases h0 : h = 0
    · exact Or.inr h0
    · rw [if_neg h0] at hnm
      exact Or.inl (by omega)

/-- The merge of the page `r` into its left neighbour `l` below their parent `pid`, with
both pages fitting into one: `Coalesce` leaves the parent without the pair of `r` and
the page `l` with the contents of both, adds `r` to the deleted pages, and goes on with
the parent if the parent holds no more pairs than its minimum. Pages outside the two
subtrees and the parent are not written. -/
theorem merge_pair {lm im h ml mr : Nat} {t : BPlusTree K V} (hp : PoolOk lm im t)
    {pid par l r : Int} {A B : List (K × Int)} {k1 k2 : K} {mxp : Nat} {lo hi : Bound K}
    (hpar : FetchPage t pid
      = some (BPlusTreePage.internal pid par mxp (A ++ (k1, l) :: (k2, r) :: B)))
    (hwl : WF (FetchPage t) lm im ml 0 h l pid lo (bnd k2))
    (hwr : WF (FetchPage t) lm im mr 0 h r pid (bnd k2) hi)
    (hlr : l ≠ r) (hpl : ¬ Under (FetchPage t) h l pid) (hpr : ¬ Under (FetchPage t) h r pid)
    (pl pr : BPlusTreePage K V) (hl : FetchPage t l = some pl) (hr : FetchPage t r = some pr)
    (hfit : pl.GetSize + pr.GetSize ≤ pr.GetMaxSize)
    (hsum : minNonRoot lm im h ≤ ml + mr) (x : Transaction) :
    ∃ t1, (∀ recurse, Coalesce recurse t l r pid (A.length + 1) (some x) =
        if (A ++ (k1, l) :: B).length
            ≤ (BPlusTreePage.internal pid par mxp (A ++ (k1, l) :: B)
                : BPlusTreePage K V).GetMinSize then
          recurse t1 pid (some (x.AddIntoDeletedPageSet r))
        else some (false, t1, some (x.AddIntoDeletedPageSet r))) ∧
      PoolOk lm im t1 ∧ t1.root_page_id = t.root_page_id ∧
      FetchPage t1 pid = some (BPlusTreePage.internal pid par mxp (A ++ (k1, l) :: B)) ∧
      WF (FetchPage t1) lm im (minNonRoot lm im h) 0 h l pid lo hi ∧
      (∀ k v, Holds (FetchPage t1) h l k v ↔
        Holds (FetchPage t) h l k v ∨ Holds (FetchPage t) h r k v) ∧
      ∀ q, q ≠ pid → ¬ Under (FetchPage t) h l q → ¬ Under (FetchPage t) h r q →
        FetchPage t1 q = FetchPage t q := by
  have hpar1 : FetchPage t pid
      = some (BPlusTreePage.internal pid par mxp ((A ++ [(k1, l)]) ++ (k2, r) :: B)) := by
    rw [hpar]; simp
  obtain ⟨t1, hco, hp1, hroot, -, hpar2, hw, hholds, -, hframe⟩ :=
    merge_spec hp hpar1 hwl hwr (fun e => hlr e.symm) hpl hpr
      (fun pl1 pr1 h1 h2 => by
        rw [hl] at h1; rw [hr] at h2; cases h1; cases h2; omega) hsum x
  have e1 : (A ++ [(k1, l)]) ++ B = A ++ (k1, l) :: B := by simp
  have e2 : (A ++ [(k1, l)]).length = A.length + 1 := by simp
  rw [e1] at hco hpar2
  rw [e2] at hco
  exact ⟨t1, hco, hp1, hroot, hpar2, hw, hholds, hframe⟩

end BPlusTree
/-! ## The choice between merge and redistribution (claims C23, C24, C28) -/

namespace BPlusTree

/-- The tree after the inserts of 1 .. 11 is a state of the tree. -/
theorem tree11_reachable : Reachable 4 4 1 tree11 :=
  Reachable.after_insertAll 4
    [(1, 10), (2, 20), (3, 30), (4, 40), (5, 50), (6, 60), (7, 70), (8, 80), (9, 90),
      (10, 100), (11, 110)] _ _ Reachable.new (by decide)

/-- The leaf page 1 of `borrowTree`, with the keys below 5. -/
theorem borrowTree_left : WF (FetchPage borrowTree) 4 4 2 0 0 1 3 ⊥ (bnd 5) :=
  ⟨[(1, 10), (2, 20), (3, 30), (4, 40)], by decide, by decide, by decide, bot_lt_bnd,
    by decide, by simp⟩

/-- The leaf page 2 of `borrowTree`, with the keys from 5 on. -/
theorem borrowTree_right : WF (FetchPage borrowTree) 4 4 1 0 0 2 3 (bnd 5) ⊤ :=
  ⟨[(7, 70)], by decide, by decide, by decide, bnd_lt_top, by decide, by simp⟩

/-- The leaf page 1 of `tree7short`, with the keys below 3. -/
theorem tree7short_left : WF (FetchPage tree7short) 4 4 1 0 0 1 3 ⊥ (bnd 3) :=
  ⟨[(2, 20)], by decide, by decide, by decide, bot_lt_bnd, by decide, by simp⟩

/-- The leaf page 2 of `tree7short`, with the keys from 3 to below 5. -/
theorem tree7short_right : WF (FetchPage tree7short) 4 4 2 0 0 2 3 (bnd 3) (bnd 5) :=
  ⟨[(3, 30), (4, 40)], by decide, by decide, by decide, by simp, by decide, by simp⟩

/-- The leaf page 4 of `tree11short`, with the keys from 5 to below 7. -/
theorem tree11short_left : WF (FetchPage tree11short) 4 4 1 0 0 4 7 (bnd 5) (bnd 7) :=
  ⟨[(6, 60)], by decide, by decide, by decide, by simp, by decide, by simp⟩

/-- The leaf page 5 of `tree11short`, with the keys from 7 to below 9. -/
theorem tree11short_right : WF (FetchPage tree11short) 4 4 2 0 0 5 7 (bnd 7) (bnd 9) :=
  ⟨[(7, 70), (8, 80)], by decide, by decide, by decide, by simp, by decide, by simp⟩

end BPlusTree

namespace BPlusTree

variable {K V : Type} [LinearOrder K] [Inhabited K]

/-- C23. `BPlusTree::CoalesceOrRedistribute` decision. Let `l` and `r` be neighbouring
children of the page `pid`, roots of well-formed subtrees of the same height, and let
the call be on `node` with the sibling `sib` that the code selects: `node = l` in slot 0
with `sib = r`, or `node = r` with `sib = l`. Let the node hold at most its minimum
number of pairs, as at every call of the method on a page that is not the root. If
`node.size + sibling.size <= node.max_size` the two pages are merged: the parent loses
the pair of `r`, the page `l` holds the pairs of both, `r` enters the deleted pages, and
the call returns `true` once the treatment of the parent returns. Otherwise the call
returns `false`, the node holds one pair more, the sibling one pair less, and the
deleted pages of the transaction are the ones from before the call. -/
theorem CoalesceOrRedistribute_decision {lm im h ml mr : Nat} {t : BPlusTree K V}
    (hp : PoolOk lm im t) (hlm : 2 ≤ lm) (him : 3 ≤ im)
    {pid par l r : Int} {A B : List (K × Int)} {k1 k2 : K} {mxp : Nat} {lo hi : Bound K}
    (hpar : FetchPage t pid
      = some (BPlusTreePage.internal pid par mxp (A ++ (k1, l) :: (k2, r) :: B)))
    (hwl : WF (FetchPage t) lm im ml 0 h l pid lo (bnd k2))
    (hwr : WF (FetchPage t) lm im mr 0 h r pid (bnd k2) hi)
    (hlr : l ≠ r) (hpl : ¬ Under (FetchPage t) h l pid) (hpr : ¬ Under (FetchPage t) h r pid)
    (hpid : pid ≠ INVALID_PAGE_ID) (node sib : Int)
    (hcfg : (node = l ∧ sib = r ∧ A = []) ∨ (node = r ∧ sib = l ∧ r ∉ A.map Prod.snd))
    (pn ps : BPlusTreePage K V) (hn : FetchPage t node = some pn)
    (hs : FetchPage t sib = some ps)
    (hunder : pn.GetSize ≤ pn.GetMinSize)
    (hsum : minNonRoot lm im h ≤ ml + mr) (fuel : Nat) (x : Transaction) :
    (pn.GetSize + ps.GetSize ≤ pn.GetMaxSize →
      ∃ t1, FetchPage t1 pid = some (BPlusTreePage.internal pid par mxp (A ++ (k1, l) :: B)) ∧
        (∀ k v, Holds (FetchPage t1) h l k v ↔
          Holds (FetchPage t) h l k v ∨ Holds (FetchPage t) h r k v) ∧
        r ∈ ((x.AddIntoPageSet sib).AddIntoDeletedPageSet r).deleted_page_set ∧
        CoalesceOrRedistribute (fuel + 1) t node (some x) =
          (if (A ++ (k1, l) :: B).length
              ≤ (BPlusTreePage.internal pid par mxp (A ++ (k1, l) :: B)
                  : BPlusTreePage K V).GetMinSize then
            CoalesceOrRedistribute fuel t1 pid
              (some ((x.AddIntoPageSet sib).AddIntoDeletedPageSet r))
          else some (false, t1, some ((x.AddIntoPageSet sib).AddIntoDeletedPageSet r))).bind
            (fun res => some (true, res.2.1, res.2.2))) ∧
    (¬ pn.GetSize + ps.GetSize ≤ pn.GetMaxSize →
      ∃ t2 pn2 ps2, CoalesceOrRedistribute (fuel + 1) t node (some x)
          = some (false, t2, some (x.AddIntoPageSet sib)) ∧
        FetchPage t2 node = some pn2 ∧ FetchPage t2 sib = some ps2 ∧
        pn2.GetSize = pn.GetSize + 1 ∧ ps2.GetSize + 1 = ps.GetSize ∧
        (x.AddIntoPageSet sib).deleted_page_set = x.deleted_page_set) := by
  have hcor := CoalesceOrRedistribute_pair hpar hwl hwr hlr hpid node sib hcfg pn ps hn hs
    fuel x
  constructor
  · intro hfit
    have hpages : ∃ pl pr, FetchPage t l = some pl ∧ FetchPage t r = some pr ∧
        pl.GetSize + pr.GetSize ≤ pr.GetMaxSize := by
      rcases hcfg with ⟨h1, h2, -⟩ | ⟨h1, h2, -⟩
      · subst h1 h2
        obtain ⟨-, -, hm1, -⟩ := hwl.size pn hn
        obtain ⟨-, -, hm2, -⟩ := hwr.size ps hs
        exact ⟨pn, ps, hn, hs, by rw [hm2, ← hm1]; exact hfit⟩
      · subst h1 h2
        exact ⟨ps, pn, hs, hn, by omega⟩
    obtain ⟨pl, pr, hl, hr, hfit1⟩ := hpages
    obtain ⟨t1, hco, -, -, hpar1, -, hholds, -⟩ :=
      merge_pair hp hpar hwl hwr hlr hpl hpr pl pr hl hr hfit1 hsum (x.AddIntoPageSet sib)
    refine ⟨t1, hpar1, hholds, (mem_AddIntoDeletedPageSet _ _ _).2 (Or.inr rfl), ?_⟩
    rw [hcor, if_pos hfit, hco]
  · intro hbig
    obtain ⟨t2, pn2, ps2, hre, h1, h2, h3, h4⟩ :=
      Redistribute_pair_sizes hlm him hpar hwl hwr hlr hpl hpr hpid node sib hcfg pn ps hn hs
        hunder hbig
    refine ⟨t2, pn2, ps2, ?_, h1, h2, h3, h4, rfl⟩
    rw [hcor, if_neg hbig, hre]
    rfl

/-- The decision for the leaf page 2 of `borrowTree`, which holds one pair: its left
sibling, page 1, holds four, so one pair moves. -/
theorem CoalesceOrRedistribute_decision_witness :
    ∃ t2 pn2 ps2, CoalesceOrRedistribute (0 + 1) borrowTree 2
          (some { page_set := [3, 2], deleted_page_set := [] })
          = some (false, t2, some (Transaction.AddIntoPageSet
              { page_set := [3, 2], deleted_page_set := [] } 1)) ∧
        FetchPage t2 2 = some pn2 ∧ FetchPage t2 1 = some ps2 ∧
        pn2.GetSize = (BPlusTreePage.leaf 2 3 4 [(7, 70)] : BPlusTreePage Nat Nat).GetSize + 1 ∧
        ps2.GetSize + 1 = (BPlusTreePage.leaf 1 3 4 [(1, 10), (2, 20), (3, 30), (4, 40)]
          : BPlusTreePage Nat Nat).GetSize ∧
        (Transaction.AddIntoPageSet { page_set := [3, 2], deleted_page_set := [] } 1
          ).deleted_page_set = [] :=
  (CoalesceOrRedistribute_decision (PoolOk.of_pages borrowTree (by decide)) (by decide)
    (by decide)
    (show FetchPage borrowTree 3
      = some (BPlusTreePage.internal 3 (-1) 4 ([] ++ (0, 1) :: (5, 2) :: [])) by decide)
    borrowTree_left borrowTree_right (by decide)
    (show ¬ ((3 : Int) = 1) by decide) (show ¬ ((3 : Int) = 2) by decide) (by decide) 2 1
    (Or.inr ⟨rfl, rfl, by simp⟩)
    (BPlusTreePage.leaf 2 3 4 [(7, 70)])
    (BPlusTreePage.leaf 1 3 4 [(1, 10), (2, 20), (3, 30), (4, 40)]) (by decide) (by decide)
    (by decide) (by decide) 0 { page_set := [3, 2], deleted_page_set := [] }).2 (by decide)

/-- C24. Coalesce direction. Let `l` and `r` be neighbouring children of the page `pid`,
`l` in the slot in front of `r`, roots of well-formed subtrees of the same height, and
let the call be on `node`: on `l` in slot 0, or on `r`. `FindLeftSibling` finds the node
in slot `i` of the parent and chooses the page of slot `i - 1`, the left sibling, unless
`i = 0`, in which case it chooses the page of slot 1, the right sibling, and returns
`true`. If the two pages fit into one, `CoalesceOrRedistribute` merges `r` into `l` in
both cases: the parent loses the pair at the slot of `r`, the page `l` survives as the
root of a well-formed subtree with the pairs of both, the page id that enters the
deleted pages is `r`, and `l` does not enter them. -/
theorem Coalesce_direction {lm im h ml mr : Nat} {t : BPlusTree K V}
    (hp : PoolOk lm im t)
    {pid par l r : Int} {A B : List (K × Int)} {k1 k2 : K} {mxp : Nat} {lo hi : Bound K}
    (hpar : FetchPage t pid
      = some (BPlusTreePage.internal pid par mxp (A ++ (k1, l) :: (k2, r) :: B)))
    (hwl : WF (FetchPage t) lm im ml 0 h l pid lo (bnd k2))
    (hwr : WF (FetchPage t) lm im mr 0 h r pid (bnd k2) hi)
    (hlr : l ≠ r) (hpl : ¬ Under (FetchPage t) h l pid) (hpr : ¬ Under (FetchPage t) h r pid)
    (hpid : pid ≠ INVALID_PAGE_ID) (node sib : Int)
    (hcfg : (node = l ∧ sib = r ∧ A = []) ∨ (node = r ∧ sib = l ∧ r ∉ A.map Prod.snd))
    (pn ps : BPlusTreePage K V) (hn : FetchPage t node = some pn)
    (hs : FetchPage t sib = some ps)
    (hfit : pn.GetSize + ps.GetSize ≤ pn.GetMaxSize)
    (hsum : minNonRoot lm im h ≤ ml + mr) (fuel : Nat) (x : Transaction) :
    (∃ i, BPlusTreeInternalPage.ValueIndex (A ++ (k1, l) :: (k2, r) :: B) node = some i ∧
      BPlusTreeInternalPage.ValueAt (A ++ (k1, l) :: (k2, r) :: B)
        (if i = 0 then 1 else i - 1) = some sib ∧
      FindLeftSibling t node (some x)
        = some (decide (i = 0), sib, t, some (x.AddIntoPageSet sib))) ∧
    BPlusTreeInternalPage.ValueIndex (A ++ (k1, l) :: (k2, r) :: B) r = some (A.length + 1) ∧
    ∃ t1, FetchPage t1 pid
        = some (BPlusTreePage.internal pid par mxp
            ((A ++ (k1, l) :: (k2, r) :: B).eraseIdx (A.length + 1))) ∧
      WF (FetchPage t1) lm im (minNonRoot lm im h) 0 h l pid lo hi ∧
      (∀ k v, Holds (FetchPage t1) h l k v ↔
        Holds (FetchPage t) h l k v ∨ Holds (FetchPage t) h r k v) ∧
      (∀ q, q ∈ ((x.AddIntoPageSet sib).AddIntoDeletedPageSet r).deleted_page_set ↔
        q ∈ x.deleted_page_set ∨ q = r) ∧
      CoalesceOrRedistribute (fuel + 1) t node (some x) =
        (if (A ++ (k1, l) :: B).length
            ≤ (BPlusTreePage.internal pid par mxp (A ++ (k1, l) :: B)
                : BPlusTreePage K V).GetMinSize then
          CoalesceOrRedistribute fuel t1 pid
            (some ((x.AddIntoPageSet sib).AddIntoDeletedPageSet r))
        else some (false, t1, some ((x.AddIntoPageSet sib).AddIntoDeletedPageSet r))).bind
          (fun res => some (true, res.2.1, res.2.2)) := by
  have hcor := CoalesceOrRedistribute_pair hpar hwl hwr hlr hpid node sib hcfg pn ps hn hs
    fuel x
  have hrl : ¬ r = l := fun e => hlr e.symm
  have hidx : ∀ A1 : List (K × Int), r ∉ A1.map Prod.snd →
      BPlusTreeInternalPage.ValueIndex (A1 ++ (k1, l) :: (k2, r) :: B) r
        = some (A1.length + 1) := by
    intro A1 hA1
    have h1 : r ∉ (A1 ++ [(k1, l)]).map Prod.snd := by
      simp only [List.map_append, List.map_cons, List.map_nil, List.mem_append,
        List.mem_singleton, not_or]
      exact ⟨hA1, hrl⟩
    have := BPlusTreeInternalPage.ValueIndex_append (A1 ++ [(k1, l)]) k2 r B h1
    simpa using this
  have herase : (A ++ (k1, l) :: (k2, r) :: B).eraseIdx (A.length + 1)
      = A ++ (k1, l) :: B := by
    rw [List.eraseIdx_append_of_length_le (by omega)]
    simp
  have hpages : ∃ pl pr, FetchPage t l = some pl ∧ FetchPage t r = some pr ∧
      pl.GetSize + pr.GetSize ≤ pr.GetMaxSize := by
    rcases hcfg with ⟨h1, h2, -⟩ | ⟨h1, h2, -⟩
    · subst h1 h2
      obtain ⟨-, -, hm1, -⟩ := hwl.size pn hn
      obtain ⟨-, -, hm2, -⟩ := hwr.size ps hs
      exact ⟨pn, ps, hn, hs, by rw [hm2, ← hm1]; exact hfit⟩
    · subst h1 h2
      exact ⟨ps, pn, hs, hn, by omega⟩
  obtain ⟨pl, pr, hl, hr, hfit1⟩ := hpages
  obtain ⟨t1, hco, -, -, hpar1, hw1, hholds, -⟩ :=
    merge_pair hp hpar hwl hwr hlr hpl hpr pl pr hl hr hfit1 hsum (x.AddIntoPageSet sib)
  have hrA : r ∉ A.map Prod.snd := by
    rcases hcfg with ⟨-, -, h3⟩ | ⟨-, -, h3⟩
    · subst h3; simp
    · exact h3
  refine ⟨?_, hidx A hrA, t1, by rw [herase]; exact hpar1, hw1, hholds, ?_, ?_⟩
  · rcases hcfg with ⟨h1, h2, h3⟩ | ⟨h1, h2, h3⟩
    · subst h1 h2 h3
      obtain ⟨-, -, -, hnp, hnid, -⟩ := hwl.size pn hn
      refine ⟨0, by simp [BPlusTreeInternalPage.ValueIndex], ?_, ?_⟩
      · simp [BPlusTreeInternalPage.ValueAt]
      · simpa using FindLeftSibling_first t node sib pid pid par mxp k1 k2 B pn ps x hn hnid
          hnp hs hpar
    · subst h1 h2
      obtain ⟨-, -, -, hnp, hnid, -⟩ := hwr.size pn hn
      refine ⟨A.length + 1, hidx A h3, ?_, ?_⟩
      · simpa using BPlusTreeInternalPage.ValueAt_append A k1 sib ((k2, node) :: B)
      · simpa using FindLeftSibling_later t node sib pid pid par mxp k2 k1 A B pn ps x hn
          hnid hnp hs hpar h3 hrl
  · intro q
    rw [mem_AddIntoDeletedPageSet]
    rfl
  · rw [hcor, if_pos hfit, hco]

/-- The direction of the merge in `Remove(1)` on the tree after the inserts of 1 .. 7:
the call is on the leaf page 1 in slot 0, the sibling is the leaf page 2 to its right,
and page 2 is merged into page 1. -/
theorem Coalesce_direction_witness :
    (∃ i, BPlusTreeInternalPage.ValueIndex
        (([] : List (Nat × Int)) ++ (0, 1) :: (3, 2) :: [(5, 4)]) 1 = some i ∧
      BPlusTreeInternalPage.ValueAt (([] : List (Nat × Int)) ++ (0, 1) :: (3, 2) :: [(5, 4)])
        (if i = 0 then 1 else i - 1) = some 2 ∧
      FindLeftSibling tree7short 1 (some { page_set := [3, 1], deleted_page_set := [] })
        = some (decide (i = 0), 2, tree7short,
            some (Transaction.AddIntoPageSet
              { page_set := [3, 1], deleted_page_set := [] } 2))) ∧
    BPlusTreeInternalPage.ValueIndex
      (([] : List (Nat × Int)) ++ (0, 1) :: (3, 2) :: [(5, 4)]) 2
        = some (([] : List (Nat × Int)).length + 1) ∧
    ∃ t1, FetchPage t1 3
        = some (BPlusTreePage.internal 3 (-1) 4
            ((([] : List (Nat × Int)) ++ (0, 1) :: (3, 2) :: [(5, 4)]).eraseIdx
              (([] : List (Nat × Int)).length + 1))) ∧
      WF (FetchPage t1) 4 4 (minNonRoot 4 4 0) 0 0 1 3 ⊥ (bnd 5) ∧
      (∀ k v, Holds (FetchPage t1) 0 1 k v ↔
        Holds (FetchPage tree7short) 0 1 k v ∨ Holds (FetchPage tree7short) 0 2 k v) ∧
      (∀ q, q ∈ (Transaction.AddIntoDeletedPageSet (Transaction.AddIntoPageSet
          { page_set := [3, 1], deleted_page_set := [] } 2) 2).deleted_page_set ↔
        q ∈ ([] : List Int) ∨ q = 2) ∧
      CoalesceOrRedistribute (1 + 1) tree7short 1
          (some { page_set := [3, 1], deleted_page_set := [] }) =
        (if (([] : List (Nat × Int)) ++ (0, 1) :: [(5, 4)]).length
            ≤ (BPlusTreePage.internal 3 (-1) 4 (([] : List (Nat × Int)) ++ (0, 1) :: [(5, 4)])
                : BPlusTreePage Nat Nat).GetMinSize then
          CoalesceOrRedistribute 1 t1 3
            (some (Transaction.AddIntoDeletedPageSet (Transaction.AddIntoPageSet
              { page_set := [3, 1], deleted_page_set := [] } 2) 2))
        else some (false, t1, some (Transaction.AddIntoDeletedPageSet
            (Transaction.AddIntoPageSet
              { page_set := [3, 1], deleted_page_set := [] } 2) 2))).bind
          (fun res => some (true, res.2.1, res.2.2)) :=
  Coalesce_direction (PoolOk.of_pages tree7short (by decide))
    (show FetchPage tree7short 3
      = some (BPlusTreePage.internal 3 (-1) 4 ([] ++ (0, 1) :: (3, 2) :: [(5, 4)]))
      by decide)
    tree7short_left tree7short_right (by decide)
    (show ¬ ((3 : Int) = 1) by decide) (show ¬ ((3 : Int) = 2) by decide) (by decide) 1 2
    (Or.inl ⟨rfl, rfl, rfl⟩)
    (BPlusTreePage.leaf 1 3 4 [(2, 20)])
    (BPlusTreePage.leaf 2 3 4 [(3, 30), (4, 40)]) (by decide) (by decide)
    (by decide) (by decide) 1 { page_set := [3, 1], deleted_page_set := [] }

/-- C28, the claim as stated fails. In `Remove(5)` on the tree after the inserts of
1 .. 11 (`tree11`, a state of the tree), `Coalesce` merges the leaf page 5 into the leaf
page 4 and removes the pair of page 5 from their parent, page 7. Page 7 is left with two
pairs, exactly its minimum size, and `Coalesce` calls `CoalesceOrRedistribute` on it:
a recursion that records its page argument is called on page 7, with a recursion that
fails the call fails, and with the recursion of the code the call returns `true`, not
`false`, with page 7 merged into page 3 and the pages 5, 7 and 8 among the deleted
pages. The whole `Remove(5)` ends in `tree11after`. -/
theorem Coalesce_recursion_counterexample :
    Reachable 4 4 1 tree11 ∧
    (FindLeafPage 4 tree11 5 false OpType.DELETE emptyTxn).map (fun res => (res.1, res.2.2))
      = some (some 4, some { page_set := [8, 7, 4], deleted_page_set := [] }) ∧
    (Coalesce (fun t1 q _ => some (false, t1, some { page_set := [q], deleted_page_set := [] }))
        tree11short 4 5 7 1 (some { page_set := [8, 7, 4, 5], deleted_page_set := [] })).map
      (fun res => (FetchPage res.2.1 7, res.2.2))
      = some (some (BPlusTreePage.internal 7 8 4 [(5, 4), (9, 6)]),
          some { page_set := [7], deleted_page_set := [] }) ∧
    (BPlusTreePage.internal 7 8 4 [(5, 4), (9, 6)] : BPlusTreePage Nat Nat).GetSize
      = (BPlusTreePage.internal 7 8 4 [(5, 4), (9, 6)] : BPlusTreePage Nat Nat).GetMinSize ∧
    Coalesce (fun _ _ _ => none) tree11short 4 5 7 1
      (some { page_set := [8, 7, 4, 5], deleted_page_set := [] }) = none ∧
    (Coalesce (CoalesceOrRedistribute 2) tree11short 4 5 7 1
        (some { page_set := [8, 7, 4, 5], deleted_page_set := [] })).map
      (fun res => (res.1, res.2.1.root_page_id, res.2.2))
      = some (true, 3,
          some { page_set := [8, 7, 4, 5, 3], deleted_page_set := [5, 7, 8] }) ∧
    (Coalesce (CoalesceOrRedistribute 2) tree11short 4 5 7 1
        (some { page_set := [8, 7, 4, 5], deleted_page_set := [] })).map
      (fun res => (FetchPage res.2.1 3, FetchPage res.2.1 7))
      = some (some (BPlusTreePage.internal 3 (-1) 4 [(0, 1), (3, 2), (5, 4), (9, 6)]),
          some (BPlusTreePage.internal 7 8 4 [])) ∧
    Remove 4 tree11 5 emptyTxn = some (tree11after, emptyTxn) :=
  ⟨Reachable.after_insertAll 4
    [(1, 10), (2, 20), (3, 30), (4, 40), (5, 50), (6, 60), (7, 70), (8, 80), (9, 90),
      (10, 100), (11, 110)] _ _ Reachable.new (by decide),
    by decide, by decide, by decide, by decide, by decide, by decide, by decide⟩

/-- C28, amended. Coalesce recursion condition. Let `l` and `r` be neighbouring children
of the page `pid`, roots of well-formed subtrees of the same height that fit into one
page. `Coalesce` merges `r` into `l` and removes the pair of `r` from the parent; it
then calls `CoalesceOrRedistribute` on the parent, and returns what that call returns,
exactly when `parent.size <= parent.GetMinSize()`, a parent whose size equals its
minimum size included; it returns `false` without that call exactly when
`parent.size > parent.GetMinSize()`. -/
theorem Coalesce_recursion {lm im h ml mr : Nat} {t : BPlusTree K V}
    (hp : PoolOk lm im t)
    {pid par l r : Int} {A B : List (K × Int)} {k1 k2 : K} {mxp : Nat} {lo hi : Bound K}
    (hpar : FetchPage t pid
      = some (BPlusTreePage.internal pid par mxp (A ++ (k1, l) :: (k2, r) :: B)))
    (hwl : WF (FetchPage t) lm im ml 0 h l pid lo (bnd k2))
    (hwr : WF (FetchPage t) lm im mr 0 h r pid (bnd k2) hi)
    (hlr : l ≠ r) (hpl : ¬ Under (FetchPage t) h l pid) (hpr : ¬ Under (FetchPage t) h r pid)
    (pl pr : BPlusTreePage K V) (hl : FetchPage t l = some pl) (hr : FetchPage t r = some pr)
    (hfit : pl.GetSize + pr.GetSize ≤ pr.GetMaxSize)
    (hsum : minNonRoot lm im h ≤ ml + mr) (x : Transaction) :
    ∃ t1 parent1, FetchPage t1 pid = some parent1 ∧
      parent1 = BPlusTreePage.internal pid par mxp (A ++ (k1, l) :: B) ∧
      parent1.GetSize + 1 = (A ++ (k1, l) :: (k2, r) :: B).length ∧
      (parent1.GetSize ≤ parent1.GetMinSize →
        ∀ recurse, Coalesce recurse t l r pid (A.length + 1) (some x)
          = recurse t1 pid (some (x.AddIntoDeletedPageSet r))) ∧
      (parent1.GetMinSize < parent1.GetSize →
        ∀ recurse, Coalesce recurse t l r pid (A.length + 1) (some x)
          = some (false, t1, some (x.AddIntoDeletedPageSet r))) := by
  obtain ⟨t1, hco, -, -, hpar1, -, -, -⟩ :=
    merge_pair hp hpar hwl hwr hlr hpl hpr pl pr hl hr hfit hsum x
  refine ⟨t1, _, hpar1, rfl, by simp [BPlusTreePage.GetSize]; omega, ?_, ?_⟩
  · intro hle recurse
    exact (hco recurse).trans (if_pos hle)
  · intro hgt recurse
    exact (hco recurse).trans (if_neg (not_le.2 hgt))

/-- The recursion condition at the merge of the leaf pages 4 and 5 in `Remove(5)` on the
tree after the inserts of 1 .. 11: their parent, page 7, is left with two pairs, its
minimum size, and the call goes on with page 7. -/
theorem Coalesce_recursion_witness :
    ∃ t1 parent1, FetchPage t1 7 = some parent1 ∧
      parent1 = BPlusTreePage.internal 7 8 4 (([] : List (Nat × Int)) ++ (5, 4) :: [(9, 6)]) ∧
      parent1.GetSize + 1
        = (([] : List (Nat × Int)) ++ (5, 4) :: (7, 5) :: [(9, 6)]).length ∧
      (parent1.GetSize ≤ parent1.GetMinSize →
        ∀ recurse, Coalesce recurse tree11short 4 5 7 (([] : List (Nat × Int)).length + 1)
            (some { page_set := [8, 7, 4, 5], deleted_page_set := [] })
          = recurse t1 7 (some (Transaction.AddIntoDeletedPageSet
              { page_set := [8, 7, 4, 5], deleted_page_set := [] } 5))) ∧
      (parent1.GetMinSize < parent1.GetSize →
        ∀ recurse, Coalesce recurse tree11short 4 5 7 (([] : List (Nat × Int)).length + 1)
            (some { page_set := [8, 7, 4, 5], deleted_page_set := [] })
          = some (false, t1, some (Transaction.AddIntoDeletedPageSet
              { page_set := [8, 7, 4, 5], deleted_page_set := [] } 5))) :=
  Coalesce_recursion (PoolOk.of_pages tree11short (by decide))
    (show FetchPage tree11short 7
      = some (BPlusTreePage.internal 7 8 4 ([] ++ (5, 4) :: (7, 5) :: [(9, 6)]))
      by decide)
    tree11short_left tree11short_right (by decide)
    (show ¬ ((7 : Int) = 4) by decide) (show ¬ ((7 : Int) = 5) by decide)
    (BPlusTreePage.leaf 4 7 4 [(6, 60)])
    (BPlusTreePage.leaf 5 7 4 [(7, 70), (8, 80)]) (by decide) (by decide)
    (by decide) (by decide) { page_set := [8, 7, 4, 5], deleted_page_set := [] }

end BPlusTree
/-! ## The minimum size and the redistribution between internal pages (claims C31, C32, C33) -/

namespace BPlusTreePage

variable {K V : Type}

/-- C33. `BPlusTreePage::GetMinSize`. For every page, `GetMinSize()` is `max_size / 2`,
rounded down, when the page is not the root (its `parent_page_id` is not
`INVALID_PAGE_ID`), 1 when it is a root leaf and 2 when it is an internal root. -/
theorem GetMinSize_contract (p : BPlusTreePage K V) :
    (p.IsRootPage = true ↔ p.GetParentPageId = INVALID_PAGE_ID) ∧
    (p.IsRootPage = false → p.GetMinSize = p.GetMaxSize / 2 ∧
      2 * p.GetMinSize ≤ p.GetMaxSize ∧ p.GetMaxSize < 2 * p.GetMinSize + 2) ∧
    (p.IsRootPage = true → p.IsLeafPage = true → p.GetMinSize = 1) ∧
    (p.IsRootPage = true → p.IsLeafPage = false → p.GetMinSize = 2) := by
  refine ⟨by simp [IsRootPage], fun h => ?_, fun h hl => ?_, fun h hl => ?_⟩
  · have : p.GetMinSize = p.GetMaxSize / 2 := by simp [GetMinSize, h]
    rw [this]
    omega
  · simp [GetMinSize, h, hl]
  · simp [GetMinSize, h, hl]

end BPlusTreePage

namespace BPlusTreeInternalPage

variable {K V : Type} [LinearOrder K] [Inhabited K]

/-- C31. Internal redistribute from the right sibling (`MoveFirstToEndOf`). Let the
donor `d`, an internal page with at least two pairs, the recipient `c`, an internal page
with room for one more pair, their parent `pid` and the child of the first pair of `d`
be four different pages, `pid` holding `d` first in the slot behind the slots `P1`.
`MoveFirstToEndOf` returns; `c` holds its former pairs followed by the former slot-0
pair of `d`, `d` holds its former slots 1 .. size-1 in order from slot 0, the child
moved has the page id of `c` as `parent_page_id`, the two pages together hold as many
pairs as before, and the key of `pid` at the slot of `d` is the former slot-1 key of
`d`, the rest of `pid` being as before. -/
theorem MoveFirstToEndOf_contract (bpm : BufferPoolManager K V) (d c pid par : Int)
    (mxd mxc mxp : Nat) (pair e2 : K × Int) (rest arrC : List (K × Int))
    (P1 P2 : List (K × Int)) (kd : K) (pch : BPlusTreePage K V)
    (hd : bpm.FetchPage d = some (BPlusTreePage.internal d pid mxd (pair :: e2 :: rest)))
    (hc : bpm.FetchPage c = some (BPlusTreePage.internal c pid mxc arrC))
    (hp : bpm.FetchPage pid = some (BPlusTreePage.internal pid par mxp (P1 ++ (kd, d) :: P2)))
    (hch : bpm.FetchPage pair.2 = some pch)
    (hdP : d ∉ P1.map Prod.snd) (hdc : d ≠ c) (hdp : d ≠ pid) (hcp : c ≠ pid)
    (hhd : pair.2 ≠ d) (hhc : pair.2 ≠ c) (hhp : pair.2 ≠ pid)
    (hsz : arrC.length < mxc) :
    ∃ bpm1 pch1, MoveFirstToEndOf bpm d c = some bpm1 ∧
      bpm1.FetchPage c = some (BPlusTreePage.internal c pid mxc (arrC ++ [pair])) ∧
      bpm1.FetchPage d = some (BPlusTreePage.internal d pid mxd (e2 :: rest)) ∧
      bpm1.FetchPage pair.2 = some pch1 ∧ pch1.GetParentPageId = c ∧
      (arrC ++ [pair]).length + (e2 :: rest).length
        = arrC.length + (pair :: e2 :: rest).length ∧
      ValueIndex (P1 ++ (kd, d) :: P2) d = some P1.length ∧
      bpm1.FetchPage pid
        = some (BPlusTreePage.internal pid par mxp (P1 ++ (e2.1, d) :: P2)) ∧
      KeyAt (P1 ++ (e2.1, d) :: P2) P1.length = some e2.1 := by
  obtain ⟨bpm1, hm, _, hf⟩ := MoveFirstToEndOf_spec bpm d c pid pid par mxd mxc mxp pair e2
    rest arrC P1 P2 kd pch hd hc hp hch hdP hdc hdp hcp hhd hhc hhp hsz
  have hcd : ¬ c = d := fun e => hdc e.symm
  have hch2 : ¬ c = pair.2 := fun e => hhc e.symm
  have hdh2 : ¬ d = pair.2 := fun e => hhd e.symm
  refine ⟨bpm1, pch.SetParentPageId c, hm, ?_, ?_, ?_, by cases pch <;> rfl, ?_,
    ValueIndex_append P1 kd d P2 hdP, ?_, KeyAt_append P1 e2.1 d P2⟩
  · rw [hf, if_neg hcp, if_neg hch2, if_pos rfl]
  · rw [hf, if_neg hdp, if_neg hdh2, if_neg hdc, if_pos rfl]
  · rw [hf, if_neg hhp, if_pos rfl]
  · simp only [List.length_append, List.length_cons, List.length_nil]
    omega
  · rw [hf, if_pos rfl]

/-- The redistribution in `Remove(1)` on the tree after the inserts of 1 .. 13: the
internal page 7 gives its first pair to the internal page 3. -/
theorem MoveFirstToEndOf_contract_witness :
    ∃ bpm1 pch1, MoveFirstToEndOf BPlusTree.rightPool 7 3 = some bpm1 ∧
      bpm1.FetchPage 3
        = some (BPlusTreePage.internal 3 8 4 (([(0, 1)] : List (Nat × Int)) ++ [(5, 4)])) ∧
      bpm1.FetchPage 7 = some (BPlusTreePage.internal 7 8 4 ((7, 5) :: [(9, 6), (11, 9)])) ∧
      bpm1.FetchPage ((5, 4) : Nat × Int).2 = some pch1 ∧ pch1.GetParentPageId = 3 ∧
      (([(0, 1)] : List (Nat × Int)) ++ [(5, 4)]).length
          + ((7, 5) :: ([(9, 6), (11, 9)] : List (Nat × Int))).length
        = ([(0, 1)] : List (Nat × Int)).length
          + ((5, 4) :: (7, 5) :: ([(9, 6), (11, 9)] : List (Nat × Int))).length ∧
      ValueIndex (([(0, 3)] : List (Nat × Int)) ++ (5, 7) :: []) 7
        = some ([(0, 3)] : List (Nat × Int)).length ∧
      bpm1.FetchPage 8
        = some (BPlusTreePage.internal 8 (-1) 4
            (([(0, 3)] : List (Nat × Int)) ++ (((7, 5) : Nat × Int).1, 7) :: [])) ∧
      KeyAt (([(0, 3)] : List (Nat × Int)) ++ (((7, 5) : Nat × Int).1, 7) :: [])
        ([(0, 3)] : List (Nat × Int)).length = some ((7, 5) : Nat × Int).1 :=
  MoveFirstToEndOf_contract BPlusTree.rightPool 7 3 8 (-1) 4 4 4 (5, 4) (7, 5)
    [(9, 6), (11, 9)] [(0, 1)] [(0, 3)] [] 5 (BPlusTreePage.leaf 4 7 4 [(5, 50), (6, 60)])
    (by decide) (by decide) (by decide) (by decide) (by decide) (by decide) (by decide)
    (by decide) (by decide) (by decide) (by decide) (by decide)

/-- C32. Internal redistribute from the left sibling (`MoveLastToFrontOf`). Let the
donor `d`, an internal page with at least one pair, the recipient `c`, an internal page
with `size + 1 < max_size`, the parent `pid` of `c` and the child of the last pair of
`d` be four different pages, `pid` holding `c` in the slot `parent_index` behind the
slots `P1`. `MoveLastToFrontOf` returns; `c` holds the former last pair of `d` followed
by its former pairs in order, `d` holds one pair less, the child moved has the page id
of `c` as `parent_page_id`, and the key of `pid` at `parent_index` is the key of the
pair moved, the rest of `pid` being as before. -/
theorem MoveLastToFrontOf_contract (bpm : BufferPoolManager K V) (d c pid pd par : Int)
    (mxd mxc mxp : Nat) (pair : K × Int) (front arrC : List (K × Int))
    (P1 P2 : List (K × Int)) (kc : K) (pch : BPlusTreePage K V)
    (hd : bpm.FetchPage d = some (BPlusTreePage.internal d pd mxd (front ++ [pair])))
    (hc : bpm.FetchPage c = some (BPlusTreePage.internal c pid mxc arrC))
    (hp : bpm.FetchPage pid = some (BPlusTreePage.internal pid par mxp (P1 ++ (kc, c) :: P2)))
    (hch : bpm.FetchPage pair.2 = some pch)
    (hdc : d ≠ c) (hdp : d ≠ pid) (hcp : c ≠ pid)
    (hhd : pair.2 ≠ d) (hhc : pair.2 ≠ c) (hhp : pair.2 ≠ pid)
    (hsz : arrC.length + 1 < mxc) :
    ∃ bpm1 pch1, MoveLastToFrontOf bpm d c P1.length = some bpm1 ∧
      bpm1.FetchPage c = some (BPlusTreePage.internal c pid mxc (pair :: arrC)) ∧
      bpm1.FetchPage d = some (BPlusTreePage.internal d pd mxd front) ∧
      front.length + 1 = (front ++ [pair]).length ∧
      bpm1.FetchPage pair.2 = some pch1 ∧ pch1.GetParentPageId = c ∧
      ValueAt (P1 ++ (kc, c) :: P2) P1.length = some c ∧
      bpm1.FetchPage pid
        = some (BPlusTreePage.internal pid par mxp (P1 ++ (pair.1, c) :: P2)) ∧
      KeyAt (P1 ++ (pair.1, c) :: P2) P1.length = some pair.1 := by
  obtain ⟨bpm1, hm, _, hf⟩ := MoveLastToFrontOf_spec bpm d c pid pd par mxd mxc mxp pair
    front arrC P1 P2 kc pch hd hc hp hch hdc hdp hcp hhd hhc hhp hsz
  have hch2 : ¬ c = pair.2 := fun e => hhc e.symm
  have hdh2 : ¬ d = pair.2 := fun e => hhd e.symm
  refine ⟨bpm1, pch.SetParentPageId c, hm, ?_, ?_, by simp, ?_, by cases pch <;> rfl,
    ValueAt_append P1 kc c P2, ?_, KeyAt_append P1 pair.1 c P2⟩
  · rw [hf, if_neg hcp, if_neg hch2, if_pos rfl]
  · rw [hf, if_neg hdp, if_neg hdh2, if_neg hdc, if_pos rfl]
  · rw [hf, if_neg hhp, if_pos rfl]
  · rw [hf, if_pos rfl]

/-- The redistribution in `Remove(50)` on the tree after the inserts of 10, 20, .., 110,
11, 12, 13, 31, 32, 33: the internal page 3 gives its last pair to the internal page 7,
which is in slot 1 of the root. -/
theorem MoveLastToFrontOf_contract_witness :
    ∃ bpm1 pch1, MoveLastToFrontOf BPlusTree.leftPool 3 7
        ([(0, 3)] : List (Nat × Int)).length = some bpm1 ∧
      bpm1.FetchPage 7
        = some (BPlusTreePage.internal 7 8 4 ((32, 10) :: [(50, 4), (90, 6)])) ∧
      bpm1.FetchPage 3 = some (BPlusTreePage.internal 3 8 4 [(0, 1), (12, 9), (30, 2)]) ∧
      ([(0, 1), (12, 9), (30, 2)] : List (Nat × Int)).length + 1
        = (([(0, 1), (12, 9), (30, 2)] : List (Nat × Int)) ++ [(32, 10)]).length ∧
      bpm1.FetchPage ((32, 10) : Nat × Int).2 = some pch1 ∧ pch1.GetParentPageId = 7 ∧
      ValueAt (([(0, 3)] : List (Nat × Int)) ++ (50, 7) :: [])
        ([(0, 3)] : List (Nat × Int)).length = some 7 ∧
      bpm1.FetchPage 8
        = some (BPlusTreePage.internal 8 (-1) 4
            (([(0, 3)] : List (Nat × Int)) ++ (((32, 10) : Nat × Int).1, 7) :: [])) ∧
      KeyAt (([(0, 3)] : List (Nat × Int)) ++ (((32, 10) : Nat × Int).1, 7) :: [])
        ([(0, 3)] : List (Nat × Int)).length = some ((32, 10) : Nat × Int).1 :=
  MoveLastToFrontOf_contract BPlusTree.leftPool 3 7 8 8 (-1) 4 4 4 (32, 10)
    [(0, 1), (12, 9), (30, 2)] [(50, 4), (90, 6)] [(0, 3)] [] 50
    (BPlusTreePage.leaf 10 3 4 [(32, 32), (33, 33), (40, 40)])
    (by decide) (by decide) (by decide) (by decide) (by decide) (by decide) (by decide)
    (by decide) (by decide) (by decide) (by decide)

end BPlusTreeInternalPage
/-! ## B+ tree: the latches and the pins at `CrabingProtocalFetchPage` (claim C27) -/

namespace BPlusTree

variable {K V : Type} [LinearOrder K] [Inhabited K]

/-- The ids that the loop of `FreePagesInTransaction` leaves in the deleted set are the
ids of the set that are not in the page set. -/
theorem freeLoop_rest : ∀ (S : List Int) (bpm : BufferPoolManager K V) (D : List Int),
    ∀ q, q ∈ D → q ∉ S → q ∈ (freeLoop bpm S D).2 := by
  intro S
  induction S with
  | nil =>
    intro bpm D q hq _
    simpa [freeLoop] using hq
  | cons cur rest ih =>
    intro bpm D q hq hqs
    simp only [List.mem_cons, not_or] at hqs
    by_cases hc : cur ∈ D
    · simp only [freeLoop, hc, if_true]
      exact ih _ _ q ((List.mem_erase_of_ne hqs.1).mpr hq) hqs.2
    · simp only [freeLoop, hc, if_false]
      exact ih _ _ q hq hqs.2

/-- The loop of `FreePagesInTransaction` with the latches and the pins: the pages and
the deleted set come out as without them; each page of the page set loses one pin for
each time it is recorded, and its latch is released in the mode of the operation. -/
theorem latched_freeLoop (exclusive : Bool) : ∀ (S : List Int) (bpm : BufferPoolManager K V)
    (fr : Frames) (D : List Int),
    (Latched.freeLoop exclusive bpm fr S D).1 = (freeLoop bpm S D).1 ∧
    (Latched.freeLoop exclusive bpm fr S D).2.2 = (freeLoop bpm S D).2 ∧
    (∀ q, (Latched.freeLoop exclusive bpm fr S D).2.1.pin_count q
      = fr.pin_count q - S.count q) ∧
    (∀ q, (Latched.freeLoop exclusive bpm fr S D).2.1.writer q
      = if exclusive = true ∧ q ∈ S then false else fr.writer q) ∧
    (∀ q, (Latched.freeLoop exclusive bpm fr S D).2.1.readers q
      = if exclusive = true then fr.readers q else fr.readers q - S.count q) ∧
    (Latched.freeLoop exclusive bpm fr S D).2.1.root_locked_cnt = fr.root_locked_cnt := by
  intro S
  induction S with
  | nil =>
    intro bpm fr D
    simp [Latched.freeLoop, freeLoop]
  | cons cur rest ih =>
    intro bpm fr D
    have hstep : ∀ (bpm1 : BufferPoolManager K V) (D1 : List Int),
        (∀ q, (Latched.freeLoop exclusive bpm1
            ((fr.Unlock exclusive cur).UnpinPage cur) rest D1).2.1.pin_count q
          = fr.pin_count q - (cur :: rest).count q) ∧
        (∀ q, (Latched.freeLoop exclusive bpm1
            ((fr.Unlock exclusive cur).UnpinPage cur) rest D1).2.1.writer q
          = if exclusive = true ∧ q ∈ cur :: rest then false else fr.writer q) ∧
        (∀ q, (Latched.freeLoop exclusive bpm1
            ((fr.Unlock exclusive cur).UnpinPage cur) rest D1).2.1.readers q
          = if exclusive = true then fr.readers q else fr.readers q - (cur :: rest).count q) ∧
        (Latched.freeLoop exclusive bpm1
            ((fr.Unlock exclusive cur).UnpinPage cur) rest D1).2.1.root_locked_cnt
          = fr.root_locked_cnt := by
      intro bpm1 D1
      obtain ⟨_, _, h3, h4, h5, h6⟩ := ih bpm1 ((fr.Unlock exclusive cur).UnpinPage cur) D1
      refine ⟨fun q => ?_, fun q => ?_, fun q => ?_, ?_⟩
      · rw [h3 q, List.count_cons]
        by_cases hq : q = cur
        · subst hq
          cases exclusive <;>
            simp [Frames.UnpinPage, Frames.Unlock, Frames.WUnlatch, Frames.RUnlatch] <;>
            omega
        · have hq2 : ¬ cur = q := fun e => hq e.symm
          cases exclusive <;>
            simp [Frames.UnpinPage, Frames.Unlock, Frames.WUnlatch, Frames.RUnlatch, hq, hq2]
      · rw [h4 q]
        cases exclusive <;>
          by_cases hq : q = cur <;>
          simp [Frames.UnpinPage, Frames.Unlock, Frames.WUnlatch, Frames.RUnlatch, hq]
      · rw [h5 q, List.count_cons]
        by_cases hq : q = cur
        · subst hq
          cases exclusive with
          | false =>
            simp [Frames.UnpinPage, Frames.Unlock, Frames.WUnlatch, Frames.RUnlatch]
            omega
          | true => simp [Frames.UnpinPage, Frames.Unlock, Frames.WUnlatch, Frames.RUnlatch]
        · have hq2 : ¬ cur = q := fun e => hq e.symm
          cases exclusive <;>
            simp [Frames.UnpinPage, Frames.Unlock, Frames.WUnlatch, Frames.RUnlatch, hq, hq2]
      · rw [h6]
        cases exclusive <;>
          simp [Frames.UnpinPage, Frames.Unlock, Frames.WUnlatch, Frames.RUnlatch]
    by_cases hc : cur ∈ D
    · simp only [Latched.freeLoop, freeLoop, hc, if_true]
      obtain ⟨h1, h2, _⟩ := ih (bpm.DeletePage cur) ((fr.Unlock exclusive cur).UnpinPage cur)
        (D.erase cur)
      exact ⟨h1, h2, hstep _ _⟩
    · simp only [Latched.freeLoop, freeLoop, hc, if_false]
      obtain ⟨h1, h2, _⟩ := ih bpm ((fr.Unlock exclusive cur).UnpinPage cur) D
      exact ⟨h1, h2, hstep _ _⟩

/-- The call `FreePagesInTransaction` with the latches and the pins, on a transaction
whose deleted pages are all in the page set: the call returns, the pages marked as
deleted leave the buffer pool, and each page of the page set loses one pin for each
time it is recorded and the hold of its latch. -/
theorem latched_FreePagesInTransaction (t : BPlusTree K V) (fr : Frames) (exclusive : Bool)
    (x : Transaction) (cur : Int) (hnd : x.deleted_page_set.Nodup)
    (hsub : ∀ q ∈ x.deleted_page_set, q ∈ x.page_set) :
    ∃ t1 fr1, Latched.FreePagesInTransaction t fr exclusive (some x) cur
        = some (t1, fr1, emptyTxn) ∧
      t1.root_page_id = t.root_page_id ∧ t1.leaf_max_size = t.leaf_max_size ∧
      t1.internal_max_size = t.internal_max_size ∧
      t1.buffer_pool_manager.next_page_id = t.buffer_pool_manager.next_page_id ∧
      (∀ q, FetchPage t1 q = if q ∈ x.deleted_page_set then none else FetchPage t q) ∧
      (∀ q, fr1.pin_count q = fr.pin_count q - x.page_set.count q) ∧
      (∀ q, fr1.writer q = if exclusive = true ∧ q ∈ x.page_set then false else fr.writer q) ∧
      (∀ q, fr1.readers q
        = if exclusive = true then fr.readers q else fr.readers q - x.page_set.count q) ∧
      fr1.root_locked_cnt = fr.root_locked_cnt - 1 := by
  obtain ⟨t1, h0, h1, h2, h3, h4, h5⟩ := FreePagesInTransaction_spec t exclusive x cur hnd hsub
  obtain ⟨g1, g2, g3, g4, g5, g6⟩ := latched_freeLoop exclusive x.page_set
    t.buffer_pool_manager (fr.TryUnlockRootPageId exclusive) x.deleted_page_set
  have hnil : (freeLoop t.buffer_pool_manager x.page_set x.deleted_page_set).2 = [] := by
    rw [List.eq_nil_iff_forall_not_mem]
    intro q hq
    obtain ⟨h6, h7⟩ := (freeLoop_spec x.page_set t.buffer_pool_manager x.deleted_page_set
      hnd).1 q hq
    exact h7 (hsub q h6)
  have ht1 : t1 = { t with buffer_pool_manager :=
      (freeLoop t.buffer_pool_manager x.page_set x.deleted_page_set).1 } := by
    simp only [FreePagesInTransaction] at h0
    rw [if_pos hnil] at h0
    simp only [Option.some.injEq, Prod.mk.injEq] at h0
    exact h0.1.symm
  refine ⟨t1, (Latched.freeLoop exclusive t.buffer_pool_manager
    (fr.TryUnlockRootPageId exclusive) x.page_set x.deleted_page_set).2.1, ?_, h1, h2, h3, h4,
    h5, g3, g4, g5, g6⟩
  simp only [Latched.FreePagesInTransaction]
  rw [if_pos (g2.trans hnil), g1, ht1]
  rfl

/-- The call `FreePagesInTransaction` with the latches and the pins, on a transaction
with a deleted page that is not in the page set: the assertion on the deleted set fails. -/
theorem latched_FreePagesInTransaction_abort (t : BPlusTree K V) (fr : Frames)
    (exclusive : Bool) (x : Transaction) (cur : Int)
    (hsub : ¬ ∀ q ∈ x.deleted_page_set, q ∈ x.page_set) :
    Latched.FreePagesInTransaction t fr exclusive (some x) cur = none := by
  obtain ⟨_, g2, _⟩ := latched_freeLoop exclusive x.page_set
    t.buffer_pool_manager (fr.TryUnlockRootPageId exclusive) x.deleted_page_set
  have hne : ¬ (freeLoop t.buffer_pool_manager x.page_set x.deleted_page_set).2 = [] := by
    intro e
    apply hsub
    intro q hq
    by_contra hqs
    have := freeLoop_rest x.page_set t.buffer_pool_manager x.deleted_page_set q hq hqs
    rw [e] at this
    exact absurd this (List.not_mem_nil q)
  simp only [Latched.FreePagesInTransaction]
  rw [if_neg (by rw [g2]; exact hne)]

/-- The statements `FetchPage(page_id)` and `Lock(exclusive, page)` on a page whose
latch is free for the mode of the operation: the page gets one pin more and the latch. -/
theorem Lock_FetchPage_some (fr : Frames) (page_id : Int) (op : OpType)
    (h : fr.writer page_id = false ∧ (op ≠ OpType.READ → fr.readers page_id = 0)) :
    ∃ fr1, (fr.FetchPage page_id).Lock (decide (op ≠ OpType.READ)) page_id = some fr1 ∧
      (∀ q, fr1.pin_count q = fr.pin_count q + (if q = page_id then 1 else 0)) ∧
      (∀ q, fr1.writer q = if op ≠ OpType.READ ∧ q = page_id then true else fr.writer q) ∧
      (∀ q, fr1.readers q
        = if op = OpType.READ ∧ q = page_id then fr.readers q + 1 else fr.readers q) ∧
      fr1.root_locked_cnt = fr.root_locked_cnt := by
  by_cases hop : op = OpType.READ
  · subst hop
    refine ⟨{ fr.FetchPage page_id with
        readers := fun q => if q = page_id then fr.readers q + 1 else fr.readers q },
      by simp [Frames.Lock, Frames.RLatch, Frames.FetchPage, h.1], ?_, ?_, ?_, rfl⟩
    · intro q
      by_cases hq : q = page_id <;> simp [Frames.FetchPage, hq]
    · intro q
      simp [Frames.FetchPage]
    · intro q
      simp [Frames.FetchPage]
  · refine ⟨{ fr.FetchPage page_id with
        writer := fun q => if q = page_id then true else fr.writer q },
      by simp [Frames.Lock, Frames.WLatch, Frames.FetchPage, h.1, h.2 hop, hop], ?_, ?_, ?_,
      rfl⟩
    · intro q
      by_cases hq : q = page_id <;> simp [Frames.FetchPage, hq]
    · intro q
      simp [Frames.FetchPage, hop]
    · intro q
      simp [Frames.FetchPage, hop]

/-- The statement `Lock(exclusive, page)` on a page whose latch is not free for the mode
of the operation does not return. -/
theorem Lock_FetchPage_none (fr : Frames) (page_id : Int) (op : OpType)
    (h : ¬ (fr.writer page_id = false ∧ (op ≠ OpType.READ → fr.readers page_id = 0))) :
    (fr.FetchPage page_id).Lock (decide (op ≠ OpType.READ)) page_id = none := by
  by_cases hop : op = OpType.READ
  · subst hop
    have hw : ¬ fr.writer page_id = false := fun e => h ⟨e, fun e1 => absurd rfl e1⟩
    simp [Frames.Lock, Frames.RLatch, Frames.FetchPage, hw]
  · have hw : ¬ (fr.writer page_id = false ∧ fr.readers page_id = 0) :=
      fun e => h ⟨e.1, fun _ => e.2⟩
    have hd : decide (op ≠ OpType.READ) = true := by simpa using hop
    simp only [Frames.Lock, hd, if_true, Frames.WLatch]
    exact if_neg hw

/-- The call `CrabingProtocalFetchPage` with the latches and the pins, after the page
is fetched and latched: the test and the release of the pages recorded. -/
theorem latched_CrabingProtocalFetchPage (t : BPlusTree K V) (fr frL : Frames)
    (page_id previous : Int) (op : OpType) (txn : Option Transaction) (p : BPlusTreePage K V)
    (hp : FetchPage t page_id = some p)
    (hL : (fr.FetchPage page_id).Lock (decide (op ≠ OpType.READ)) page_id = some frL) :
    Latched.CrabingProtocalFetchPage t fr page_id op previous txn
      = ((if 0 < previous ∧ (op = OpType.READ ∨ p.IsSafe op = some true) then
            Latched.FreePagesInTransaction t frL (decide (op ≠ OpType.READ)) txn previous
          else some (t, frL, txn)).bind
        (fun r => some (r.1, r.2.1, r.2.2.map (fun y => y.AddIntoPageSet page_id)))) := by
  have hp1 : t.buffer_pool_manager.FetchPage page_id = some p := hp
  simp only [Latched.CrabingProtocalFetchPage, hp1, hL, Option.bind_eq_bind, Option.some_bind]
  by_cases hprev : 0 < previous
  · by_cases hop : op = OpType.READ
    · simp [hprev, hop]
    · obtain ⟨b, hb⟩ := IsSafe_some p op hop
      cases b <;> simp [hprev, hop, hb]
  · simp [hprev]

/-- The pages and the transaction that `FreePagesInTransaction` leaves do not depend on
the latches and the pins. -/
theorem latched_FreePagesInTransaction_pages (t : BPlusTree K V) (fr : Frames)
    (exclusive : Bool) (txn : Option Transaction) (cur : Int) :
    (Latched.FreePagesInTransaction t fr exclusive txn cur).map (fun r => (r.1, r.2.2))
      = FreePagesInTransaction t exclusive txn cur := by
  cases txn with
  | none =>
    by_cases hc : (!exclusive) = true ∧ cur ≥ 0
    · simp only [Latched.FreePagesInTransaction, FreePagesInTransaction]
      rw [if_pos hc, if_pos hc]
      rfl
    · simp only [Latched.FreePagesInTransaction, FreePagesInTransaction]
      rw [if_neg hc, if_neg hc]
      rfl
  | some x =>
    obtain ⟨g1, g2, _⟩ := latched_freeLoop exclusive x.page_set
      t.buffer_pool_manager (fr.TryUnlockRootPageId exclusive) x.deleted_page_set
    simp only [Latched.FreePagesInTransaction, FreePagesInTransaction]
    rw [g1, g2]
    by_cases hd : (freeLoop t.buffer_pool_manager x.page_set x.deleted_page_set).2 = []
    · rw [if_pos hd, if_pos hd]
      rfl
    · rw [if_neg hd, if_neg hd]
      rfl

/-- The pages and the transaction that `CrabingProtocalFetchPage` leaves, as the latch
of the page fetched is free, do not depend on the latches and the pins. -/
theorem latched_CrabingProtocalFetchPage_pages (t : BPlusTree K V) (fr : Frames)
    (page_id previous : Int) (op : OpType) (txn : Option Transaction)
    (hlock : fr.writer page_id = false ∧ (op ≠ OpType.READ → fr.readers page_id = 0)) :
    (Latched.CrabingProtocalFetchPage t fr page_id op previous txn).map
        (fun r => (r.1, r.2.2))
      = CrabingProtocalFetchPage t page_id op previous txn := by
  obtain ⟨frL, hL, _⟩ := Lock_FetchPage_some fr page_id op hlock
  cases hp : t.buffer_pool_manager.FetchPage page_id with
  | none => simp [Latched.CrabingProtocalFetchPage, CrabingProtocalFetchPage, hp]
  | some p =>
    rw [latched_CrabingProtocalFetchPage t fr frL page_id previous op txn p hp hL]
    have hpages := latched_FreePagesInTransaction_pages t frL (decide (op ≠ OpType.READ)) txn
      previous
    simp only [CrabingProtocalFetchPage, hp, Option.bind_eq_bind, Option.some_bind]
    by_cases hprev : 0 < previous
    · by_cases hop : op = OpType.READ
      · subst hop
        simp only [hprev, true_and, true_or, if_true] at hpages ⊢
        rw [← hpages]
        cases Latched.FreePagesInTransaction t frL (decide (OpType.READ ≠ OpType.READ)) txn
          previous <;> simp
      · obtain ⟨b, hb⟩ := IsSafe_some p op hop
        cases b with
        | true =>
          simp only [hprev, hb, or_true, and_self, if_true] at hpages ⊢
          have hd : decide (op ≠ OpType.READ) = true := by simpa using hop
          rw [hd] at hpages ⊢
          rw [← hpages]
          cases Latched.FreePagesInTransaction t frL true txn previous <;> simp
        | false => simp [hprev, hop, hb]
    · simp [hprev]

/-- C27. Latch-crabbing release rule (`CrabingProtocalFetchPage`), with the pin counts
and the latches of the frames. For every operation kind, page `page_id` that exists,
id `previous`, state of the frames and transaction (its deleted set without repetition):

* as the latch of the page fetched is not free for the mode of the operation (held
  exclusively, or held shared against a writer), the call does not return;
* as there is a previous page (the test `previous > 0` of the code) and the operation is
  `READ` or the page fetched passes `IsSafe`: with a deleted page that is not in the
  page set the assertion of `FreePagesInTransaction` fails; otherwise the call returns,
  the page fetched has one pin more and is latched in the mode of the operation, and
  then every page recorded in the page set has lost one pin for each time it was
  recorded (`UnpinPage`) and the hold of its latch in the mode of the operation
  (`Unlock`), the hold count of the root-id latch is one lower, the pages marked as
  deleted have left the buffer pool, and the page set is the page fetched alone;
* otherwise the call returns, changes no page, the page fetched has one pin more and is
  latched in the mode of the operation, no other pin or latch changes, and the page set
  is the one before with the page fetched added at the end.

In both cases of return the page fetched is the last element of the page set. -/
theorem crabbing_release_rule (t : BPlusTree K V) (fr : Frames) (page_id previous : Int)
    (op : OpType) (x : Transaction) (p : BPlusTreePage K V)
    (hp : FetchPage t page_id = some p) (hnd : x.deleted_page_set.Nodup) :
    (¬ (fr.writer page_id = false ∧ (op ≠ OpType.READ → fr.readers page_id = 0)) →
      Latched.CrabingProtocalFetchPage t fr page_id op previous (some x) = none) ∧
    (fr.writer page_id = false ∧ (op ≠ OpType.READ → fr.readers page_id = 0) →
      0 < previous ∧ (op = OpType.READ ∨ p.IsSafe op = some true) →
      (¬ (∀ q ∈ x.deleted_page_set, q ∈ x.page_set) →
        Latched.CrabingProtocalFetchPage t fr page_id op previous (some x) = none) ∧
      ((∀ q ∈ x.deleted_page_set, q ∈ x.page_set) →
        ∃ t1 fr1 x1, Latched.CrabingProtocalFetchPage t fr page_id op previous (some x)
            = some (t1, fr1, some x1) ∧
          x1.page_set = [page_id] ∧ x1.page_set.getLast? = some page_id ∧
          x1.deleted_page_set = [] ∧
          (∀ q, fr1.pin_count q
            = fr.pin_count q + (if q = page_id then 1 else 0) - x.page_set.count q) ∧
          (∀ q, fr1.writer q = if op ≠ OpType.READ ∧ q ∈ x.page_set then false
            else if op ≠ OpType.READ ∧ q = page_id then true else fr.writer q) ∧
          (∀ q, fr1.readers q = if op = OpType.READ then
              fr.readers q + (if q = page_id then 1 else 0) - x.page_set.count q
            else fr.readers q) ∧
          fr1.root_locked_cnt = fr.root_locked_cnt - 1 ∧
          t1.root_page_id = t.root_page_id ∧
          ∀ q, FetchPage t1 q = if q ∈ x.deleted_page_set then none else FetchPage t q)) ∧
    (fr.writer page_id = false ∧ (op ≠ OpType.READ → fr.readers page_id = 0) →
      ¬ (0 < previous ∧ (op = OpType.READ ∨ p.IsSafe op = some true)) →
      ∃ fr1 x1, Latched.CrabingProtocalFetchPage t fr page_id op previous (some x)
          = some (t, fr1, some x1) ∧
        x1.page_set = x.page_set ++ [page_id] ∧ x1.page_set.getLast? = some page_id ∧
        x1.deleted_page_set = x.deleted_page_set ∧
        (∀ q, fr1.pin_count q = fr.pin_count q + (if q = page_id then 1 else 0)) ∧
        (∀ q, fr1.writer q
          = if op ≠ OpType.READ ∧ q = page_id then true else fr.writer q) ∧
        (∀ q, fr1.readers q
          = if op = OpType.READ ∧ q = page_id then fr.readers q + 1 else fr.readers q) ∧
        fr1.root_locked_cnt = fr.root_locked_cnt) := by
  have hp1 : t.buffer_pool_manager.FetchPage page_id = some p := hp
  refine ⟨fun hlock => ?_, fun hlock hc => ⟨fun hsub => ?_, fun hsub => ?_⟩,
    fun hlock hc => ?_⟩
  · simp only [Latched.CrabingProtocalFetchPage, hp1, Lock_FetchPage_none fr page_id op hlock,
      Option.bind_eq_bind, Option.some_bind, Option.none_bind]
  · obtain ⟨frL, hL, _⟩ := Lock_FetchPage_some fr page_id op hlock
    rw [latched_CrabingProtocalFetchPage t fr frL page_id previous op (some x) p hp hL,
      if_pos hc, latched_FreePagesInTransaction_abort t frL _ x previous hsub]
    rfl
  · obtain ⟨frL, hL, l1, l2, l3, l4⟩ := Lock_FetchPage_some fr page_id op hlock
    obtain ⟨t1, fr1, hfree, h1, _, _, _, h5, f1, f2, f3, f4⟩ :=
      latched_FreePagesInTransaction t frL (decide (op ≠ OpType.READ)) x previous hnd hsub
    refine ⟨t1, fr1, { page_set := [page_id], deleted_page_set := [] }, ?_, rfl, rfl, rfl,
      fun q => ?_, fun q => ?_, fun q => ?_, ?_, h1, h5⟩
    · rw [latched_CrabingProtocalFetchPage t fr frL page_id previous op (some x) p hp hL,
        if_pos hc, hfree]
      rfl
    · rw [f1 q, l1 q]
    · rw [f2 q, l2 q]
      by_cases hop : op = OpType.READ <;> simp [hop]
    · rw [f3 q, l3 q]
      by_cases hop : op = OpType.READ
      · by_cases hq : q = page_id <;> simp [hop, hq]
      · simp [hop]
    · rw [f4, l4]
  · obtain ⟨frL, hL, l1, l2, l3, l4⟩ := Lock_FetchPage_some fr page_id op hlock
    refine ⟨frL, x.AddIntoPageSet page_id, ?_, rfl, by simp [Transaction.AddIntoPageSet], rfl,
      l1, l2, l3, l4⟩
    rw [latched_CrabingProtocalFetchPage t fr frL page_id previous op (some x) p hp hL,
      if_neg hc]
    rfl

/-- The release rule in `tree7` with the frames `frames7`: the leaf page 1 is fetched
after the root page 3, which is recorded, pinned and latched exclusively. For `INSERT`
the leaf passes `IsSafe` and the root is unlatched, unpinned and leaves the page set; for
`DELETE` it does not pass and the root stays latched, pinned and recorded. -/
theorem crabbing_release_rule_witness :
    ((¬ (frames7.writer 1 = false ∧
          (OpType.INSERT ≠ OpType.READ → frames7.readers 1 = 0)) →
        Latched.CrabingProtocalFetchPage tree7 frames7 1 OpType.INSERT 3
          (some { page_set := [3], deleted_page_set := [] }) = none) ∧
      (frames7.writer 1 = false ∧ (OpType.INSERT ≠ OpType.READ → frames7.readers 1 = 0) →
        (0 : Int) < 3 ∧ (OpType.INSERT = OpType.READ ∨
          (BPlusTreePage.leaf 1 3 4 [(1, 10), (2, 20)] : BPlusTreePage Nat Nat).IsSafe
            OpType.INSERT = some true) →
        (¬ (∀ q ∈ ([] : List Int), q ∈ ([3] : List Int)) →
          Latched.CrabingProtocalFetchPage tree7 frames7 1 OpType.INSERT 3
            (some { page_set := [3], deleted_page_set := [] }) = none) ∧
        ((∀ q ∈ ([] : List Int), q ∈ ([3] : List Int)) →
          ∃ t1 fr1 x1, Latched.CrabingProtocalFetchPage tree7 frames7 1 OpType.INSERT 3
              (some { page_set := [3], deleted_page_set := [] }) = some (t1, fr1, some x1) ∧
            x1.page_set = [1] ∧ x1.page_set.getLast? = some 1 ∧
            x1.deleted_page_set = [] ∧
            (∀ q, fr1.pin_count q
              = frames7.pin_count q + (if q = 1 then 1 else 0) - ([3] : List Int).count q) ∧
            (∀ q, fr1.writer q = if OpType.INSERT ≠ OpType.READ ∧ q ∈ ([3] : List Int) then false
              else if OpType.INSERT ≠ OpType.READ ∧ q = 1 then true else frames7.writer q) ∧
            (∀ q, fr1.readers q = if OpType.INSERT = OpType.READ then
                frames7.readers q + (if q = 1 then 1 else 0) - ([3] : List Int).count q
              else frames7.readers q) ∧
            fr1.root_locked_cnt = frames7.root_locked_cnt - 1 ∧
            t1.root_page_id = tree7.root_page_id ∧
            ∀ q, FetchPage t1 q = if q ∈ ([] : List Int) then none else FetchPage tree7 q)) ∧
      (frames7.writer 1 = false ∧ (OpType.INSERT ≠ OpType.READ → frames7.readers 1 = 0) →
        ¬ ((0 : Int) < 3 ∧ (OpType.INSERT = OpType.READ ∨
          (BPlusTreePage.leaf 1 3 4 [(1, 10), (2, 20)] : BPlusTreePage Nat Nat).IsSafe
            OpType.INSERT = some true)) →
        ∃ fr1 x1, Latched.CrabingProtocalFetchPage tree7 frames7 1 OpType.INSERT 3
            (some { page_set := [3], deleted_page_set := [] }) = some (tree7, fr1, some x1) ∧
          x1.page_set = ([3] : List Int) ++ [1] ∧ x1.page_set.getLast? = some 1 ∧
          x1.deleted_page_set = [] ∧
          (∀ q, fr1.pin_count q = frames7.pin_count q + (if q = 1 then 1 else 0)) ∧
          (∀ q, fr1.writer q
            = if OpType.INSERT ≠ OpType.READ ∧ q = 1 then true else frames7.writer q) ∧
          (∀ q, fr1.readers q
            = if OpType.INSERT = OpType.READ ∧ q = 1 then frames7.readers q + 1
              else frames7.readers q) ∧
          fr1.root_locked_cnt = frames7.root_locked_cnt)) ∧
    (Latched.CrabingProtocalFetchPage tree7 frames7 1 OpType.INSERT 3
        (some { page_set := [3], deleted_page_set := [] })).map (fun r => (r.1, r.2.2))
      = some (tree7, some { page_set := [1], deleted_page_set := [] }) ∧
    (Latched.CrabingProtocalFetchPage tree7 frames7 1 OpType.INSERT 3
        (some { page_set := [3], deleted_page_set := [] })).map
      (fun r => (r.2.1.pin_count 3, r.2.1.writer 3, r.2.1.pin_count 1, r.2.1.writer 1,
        r.2.1.root_locked_cnt))
      = some (0, false, 1, true, 0) ∧
    (Latched.CrabingProtocalFetchPage tree7 frames7 1 OpType.DELETE 3
        (some { page_set := [3], deleted_page_set := [] })).map (fun r => (r.1, r.2.2))
      = some (tree7, some { page_set := [3, 1], deleted_page_set := [] }) ∧
    (Latched.CrabingProtocalFetchPage tree7 frames7 1 OpType.DELETE 3
        (some { page_set := [3], deleted_page_set := [] })).map
      (fun r => (r.2.1.pin_count 3, r.2.1.writer 3, r.2.1.pin_count 1, r.2.1.writer 1,
        r.2.1.root_locked_cnt))
      = some (1, true, 1, true, 1) :=
  ⟨crabbing_release_rule tree7 frames7 1 3 OpType.INSERT
    { page_set := [3], deleted_page_set := [] } (BPlusTreePage.leaf 1 3 4 [(1, 10), (2, 20)])
    (by decide) (by decide), by decide, by decide, by decide, by decide⟩

end BPlusTree
/-! ## Hash table: the doubling loop, the sizes after a rehash, and the passes of `Insert` -/

namespace ExtendibleHash

variable {K V : Type} [DecidableEq K]

theorem pushCopies_append (dirs : List Nat) :
    ∀ (n i : Nat) (acc : List Nat), i + n ≤ dirs.length →
      pushCopies n i (dirs ++ acc) = some (dirs ++ acc ++ (dirs.drop i).take n)
  | 0, i, acc, _ => by simp [pushCopies]
  | n + 1, i, acc, h => by
    have hi : i < dirs.length := by omega
    have hget : (dirs ++ acc)[i]? = some dirs[i] := by
      rw [List.getElem?_append_left hi, List.getElem?_eq_getElem hi]
    have hdrop : dirs.drop i = dirs[i] :: dirs.drop (i + 1) := List.drop_eq_getElem_cons hi
    simp only [pushCopies, hget, Option.bind_eq_bind, Option.some_bind]
    rw [List.append_assoc, pushCopies_append dirs n (i + 1) (acc ++ [dirs[i]]) (by omega), hdrop,
      List.take_succ_cons]
    simp

/-- The doubling loop appends a copy of every slot, in order. -/
theorem pushCopies_eq (dirs : List Nat) :
    pushCopies dirs.length 0 dirs = some (dirs ++ dirs) := by
  have := pushCopies_append dirs dirs.length 0 [] (by omega)
  simpa using this

theorem length_assign (m : List (K × V)) (k : K) (v : V) :
    (StdMap.assign m k v).length
      = if k ∈ m.map Prod.fst then m.length else m.length + 1 := by
  have h := congrArg List.length (StdMap.keys_assign m k v)
  rw [List.length_map] at h
  rw [h]
  split <;> simp

/-- The two parts of a rehash hold as many pairs as the map and the pairs moved before,
for a map that holds each key once and none of the keys moved before. -/
theorem rehash_length (HashKey : K → Nat) (mask : Nat) :
    ∀ (m moved : List (K × V)), (m.map Prod.fst).Nodup →
      (∀ k, k ∈ m.map Prod.fst → k ∉ moved.map Prod.fst) →
      (rehash HashKey mask m moved).1.length + (rehash HashKey mask m moved).2.length
        = m.length + moved.length
  | [], moved, _, _ => by simp [rehash]
  | (k1, v1) :: rest, moved, hn, hd => by
    simp only [List.map_cons, List.nodup_cons] at hn
    have hk1 : k1 ∉ moved.map Prod.fst := hd k1 (by simp)
    by_cases hb : HashKey k1 &&& mask ≠ 0
    · rw [rehash_cons_pos _ _ _ _ _ _ hb]
      have := rehash_length HashKey mask rest (StdMap.assign moved k1 v1) hn.2 (by
        intro k hk
        rw [StdMap.keys_assign, if_neg hk1]
        simp only [List.mem_append, List.mem_singleton, not_or]
        exact ⟨hd k (by simp [hk]), fun e => hn.1 (e ▸ hk)⟩)
      rw [this, length_assign, if_neg hk1]
      simp only [List.length_cons]
      omega
    · rw [rehash_cons_neg _ _ _ _ _ _ hb]
      have := rehash_length HashKey mask rest moved hn.2 (fun k hk => hd k (by simp [hk]))
      simp only [List.length_cons]
      omega

theorem length_pos_of_key (m : List (K × V)) (k : K) (h : k ∈ m.map Prod.fst) :
    0 < m.length := by
  cases m with
  | nil => simp at h
  | cons e rest => simp

theorem length_eq_zero_of_no_key (m : List (K × V)) (h : ∀ k, k ∉ m.map Prod.fst) :
    m.length = 0 := by
  cases m with
  | nil => rfl
  | cons e rest => exact absurd (by simp) (h e.1)

/-- The bucket of `key` after a split step of its bucket `cur`, in a table that
satisfies the invariant: the new table satisfies the invariant, and the slot of `key`
references the new bucket with the moved pairs if the hash of `key` has the mask bit,
and `cur` with the kept pairs if not; both have the local depth of `cur` plus one. -/
theorem Inv.split_target {HashKey : K → Nat} {s s1 : ExtendibleHash K V} {cur : Nat}
    {b : Bucket K V} (key : K) (h : Inv HashKey s)
    (hd0 : s.directories[HashKey key % 2 ^ s.globalDepth]? = some cur)
    (hb : s.store[cur]? = some b) (hsp : split HashKey s cur = some s1) :
    Inv HashKey s1 ∧ s1.bucketSize = s.bucketSize ∧ s1.bucketNum = s.bucketNum + 1 ∧
      b.localDepth < 31 ∧ b.localDepth ≤ s.globalDepth ∧
      s1.globalDepth =
        (if b.localDepth + 1 > s.globalDepth then s.globalDepth + 1 else s.globalDepth) ∧
      ∃ cur1 kmap1, s1.directories[HashKey key % 2 ^ s1.globalDepth]? = some cur1 ∧
        s1.store[cur1]? = some (Bucket.mk kmap1 (b.localDepth + 1)) ∧
        (cur1 = cur ∨ cur1 = s.store.length) ∧
        kmap1 = (if HashKey key &&& 2 ^ b.localDepth ≠ 0 then
          (rehash HashKey (2 ^ b.localDepth) b.kmap []).2
          else (rehash HashKey (2 ^ b.localDepth) b.kmap []).1) := by
  have hi0 : HashKey key % 2 ^ s.globalDepth < 2 ^ s.globalDepth :=
    Nat.mod_lt _ (Nat.two_pow_pos _)
  obtain ⟨b1, hb1, hd31, hg, hdir, hst, hbs, hbn⟩ := split_fields hsp
  rw [hb] at hb1
  cases hb1
  obtain ⟨⟨hg1, hg2, hg3⟩, hcur, hD, hS1, hS2, _, _⟩ := split_frame h hi0 hd0 hb hg hdir hst
  refine ⟨h.split_step hi0 hd0 hsp, hbs, hbn, hd31, hg3, hg, ?_⟩
  have hlt1 : HashKey key % 2 ^ s1.globalDepth < 2 ^ s1.globalDepth :=
    Nat.mod_lt _ (Nat.two_pow_pos _)
  have hda1 := hD _ hlt1 cur (by rw [mod_mod_two_pow _ _ _ hg1]; exact hd0)
  have hbit := and_two_pow_mod (HashKey key) b.localDepth s1.globalDepth (by omega)
  by_cases hbk : HashKey key &&& 2 ^ b.localDepth ≠ 0
  · rw [if_pos ⟨rfl, hbit.mpr hbk⟩] at hda1
    exact ⟨_, _, hda1, hS2, Or.inr rfl, by rw [if_pos hbk]⟩
  · rw [if_neg (fun e => hbk (hbit.mp e.2))] at hda1
    exact ⟨_, _, hda1, hS1, Or.inl rfl, by rw [if_neg hbk]⟩

/-- The bits below 31 of two hash values that agree in them. -/
theorem and_two_pow_congr (x y d : Nat) (hd : d < 31) (h : x % 2 ^ 31 = y % 2 ^ 31) :
    (x &&& 2 ^ d ≠ 0 ↔ y &&& 2 ^ d ≠ 0) := by
  rw [← and_two_pow_mod x d 31 hd, ← and_two_pow_mod y d 31 hd, h]

/-- The part of a rehash on the side of `key`: it holds the keys of the map whose hash
agrees with that of `key` in the mask bit, all pairs if all keys do, and fewer pairs if
one key does not. -/
theorem rehash_side (HashKey : K → Nat) (mask : Nat) (m : List (K × V)) (key : K)
    (hn : (m.map Prod.fst).Nodup) :
    (∀ k, k ∈ (if HashKey key &&& mask ≠ 0 then (rehash HashKey mask m []).2
          else (rehash HashKey mask m []).1).map Prod.fst ↔
        k ∈ m.map Prod.fst ∧ (HashKey k &&& mask ≠ 0 ↔ HashKey key &&& mask ≠ 0)) ∧
    (if HashKey key &&& mask ≠ 0 then (rehash HashKey mask m []).2
      else (rehash HashKey mask m []).1).length ≤ m.length ∧
    ((∀ k, k ∈ m.map Prod.fst → (HashKey k &&& mask ≠ 0 ↔ HashKey key &&& mask ≠ 0)) →
      (if HashKey key &&& mask ≠ 0 then (rehash HashKey mask m []).2
        else (rehash HashKey mask m []).1).length = m.length) ∧
    ((∃ k, k ∈ m.map Prod.fst ∧ ¬ (HashKey k &&& mask ≠ 0 ↔ HashKey key &&& mask ≠ 0)) →
      (if HashKey key &&& mask ≠ 0 then (rehash HashKey mask m []).2
        else (rehash HashKey mask m []).1).length < m.length) := by
  have hlen := rehash_length HashKey mask m [] hn (fun k _ => by simp)
  simp only [List.length_nil, Nat.add_zero] at hlen
  by_cases hbk : HashKey key &&& mask ≠ 0
  · simp only [if_pos hbk]
    refine ⟨fun k => ?_, by omega, fun hall => ?_, fun hex => ?_⟩
    · rw [rehash_moved_keys _ _ _ _ hn]
      exact ⟨fun e => ⟨e.1, fun _ => hbk, fun _ => e.2⟩, fun e => ⟨e.1, e.2.mpr hbk⟩⟩
    · have h0 : (rehash HashKey mask m []).1.length = 0 :=
        length_eq_zero_of_no_key _ (fun k hk => by
          rw [rehash_kept_keys] at hk
          exact hk.2 ((hall k hk.1).mpr hbk))
      omega
    · obtain ⟨k, hk, hne⟩ := hex
      have hkb : ¬ HashKey k &&& mask ≠ 0 := fun e => hne ⟨fun _ => hbk, fun _ => e⟩
      have := length_pos_of_key (rehash HashKey mask m []).1 k
        ((rehash_kept_keys _ _ _ _).mpr ⟨hk, hkb⟩)
      omega
  · simp only [if_neg hbk]
    refine ⟨fun k => ?_, by omega, fun hall => ?_, fun hex => ?_⟩
    · rw [rehash_kept_keys]
      exact ⟨fun e => ⟨e.1, fun e1 => absurd e1 e.2, fun e1 => absurd e1 hbk⟩,
        fun e => ⟨e.1, fun e1 => hbk (e.2.mp e1)⟩⟩
    · have h0 : (rehash HashKey mask m []).2.length = 0 :=
        length_eq_zero_of_no_key _ (fun k hk => by
          rw [rehash_moved_keys _ _ _ _ hn] at hk
          exact hbk ((hall k hk.1).mp hk.2))
      omega
    · obtain ⟨k, hk, hne⟩ := hex
      have hkb : HashKey k &&& mask ≠ 0 :=
        fun e => hne ⟨fun e1 => absurd e e1, fun e1 => absurd e1 hbk⟩
      have := length_pos_of_key (rehash HashKey mask m []).2 k
        ((rehash_moved_keys _ _ _ _ hn).mpr ⟨hk, hkb⟩)
      omega

/-- The loop of `Insert` does not return when the bucket of `key` is full, does not hold
`key`, and all its keys agree with `key` in the 31 low bits of the hash: every split
step leaves all pairs in the bucket of `key`, until the shift of the mask leaves the
range of `int`. -/
theorem Inv.insertLoop_stuck {HashKey : K → Nat} (key : K) (value : V) (fuel : Nat) :
    ∀ {s : ExtendibleHash K V} {cur : Nat} {b : Bucket K V}, Inv HashKey s →
      s.directories[HashKey key % 2 ^ s.globalDepth]? = some cur →
      s.store[cur]? = some b → s.bucketSize ≤ b.kmap.length →
      key ∉ b.kmap.map Prod.fst →
      (∀ k, k ∈ b.kmap.map Prod.fst → HashKey k % 2 ^ 31 = HashKey key % 2 ^ 31) →
      insertLoop HashKey key value fuel s cur = none := by
  induction fuel with
  | zero =>
    intro s cur b _ _ _ _ _ _
    rfl
  | succ fuel ih =>
    intro s cur b h hd hb hfull hk hall
    have hfind : StdMap.find b.kmap key = none := (StdMap.find_eq_none_iff _ _).mpr hk
    have hcond : ¬ ((StdMap.find b.kmap key).isSome = true ∨
        StdMap.size b.kmap < s.bucketSize) := by
      rw [hfind]
      simp only [Option.isSome_none, Bool.false_eq_true, false_or, StdMap.size]
      omega
    simp only [ExtendibleHash.insertLoop, hb, Option.bind_eq_bind, Option.some_bind,
      if_neg hcond]
    cases hsp : ExtendibleHash.split HashKey s cur with
    | none => rfl
    | some s1 =>
      simp only [Option.some_bind]
      cases hidx : getIdx HashKey s1 key with
      | none => rfl
      | some idx =>
        simp only [Option.some_bind]
        obtain ⟨_, hidx2⟩ := getIdx_some _ _ _ _ hidx
        subst hidx2
        obtain ⟨h1, hbs, _, hd31, _, _, cur1, kmap1, hdir1, hst1, _, hkm⟩ :=
          h.split_target key hd hb hsp
        rw [hdir1]
        simp only [Option.some_bind]
        obtain ⟨a0, b0, hda, hsa, _, _, _, hnd⟩ := h.slot (HashKey key % 2 ^ s.globalDepth)
          (Nat.mod_lt _ (Nat.two_pow_pos _))
        rw [hd] at hda
        cases hda
        rw [hb] at hsa
        cases hsa
        obtain ⟨hmem, _, hsame, _⟩ := rehash_side HashKey (2 ^ b.localDepth) b.kmap key hnd
        rw [← hkm] at hmem hsame
        have hbits : ∀ k, k ∈ b.kmap.map Prod.fst →
            (HashKey k &&& 2 ^ b.localDepth ≠ 0 ↔ HashKey key &&& 2 ^ b.localDepth ≠ 0) :=
          fun k hk1 => and_two_pow_congr _ _ _ hd31 (hall k hk1)
        refine ih h1 hdir1 hst1 ?_ ?_ ?_
        · rw [hbs]
          show s.bucketSize ≤ kmap1.length
          rw [hsame hbits]
          exact hfull
        · intro e
          exact hk ((hmem key).mp e).1
        · intro k hk1
          exact hall k ((hmem k).mp hk1).1

/-- A pass of the loop of `Insert` at a bucket that holds the key or has room: the pair
is assigned and the loop ends. -/
theorem insertLoop_accept {HashKey : K → Nat} (key : K) (value : V) (fuel : Nat)
    {s : ExtendibleHash K V} {cur : Nat} {b : Bucket K V} (hb : s.store[cur]? = some b)
    (hcond : (StdMap.find b.kmap key).isSome = true ∨ StdMap.size b.kmap < s.bucketSize) :
    insertLoop HashKey key value (fuel + 1) s cur =
      some { s with
        store := s.store.set cur (Bucket.mk (StdMap.assign b.kmap key value) b.localDepth) } := by
  simp only [ExtendibleHash.insertLoop, hb, Option.bind_eq_bind, Option.some_bind,
    if_pos hcond]

/-- The loop of `Insert` returns within `n + 1` passes, after at most `n` split steps,
when the bucket of `key` holds at most `bucketSize` pairs and either has room, or holds
`key`, or holds a key whose hash differs from that of `key` in the `p + 1` low bits,
with `p` below 30 and below the local depth plus `n`. -/
theorem Inv.insertLoop_done {HashKey : K → Nat} (key : K) (value : V) (p : Nat)
    (hp : p ≤ 29) (n : Nat) :
    ∀ {s : ExtendibleHash K V} {cur : Nat} {b : Bucket K V}, Inv HashKey s →
      s.globalDepth ≤ 30 →
      s.directories[HashKey key % 2 ^ s.globalDepth]? = some cur →
      s.store[cur]? = some b → b.kmap.length ≤ s.bucketSize →
      (b.kmap.length < s.bucketSize ∨ key ∈ b.kmap.map Prod.fst ∨
        ∃ k, k ∈ b.kmap.map Prod.fst ∧
          HashKey k % 2 ^ (p + 1) ≠ HashKey key % 2 ^ (p + 1)) →
      p + 1 ≤ b.localDepth + n →
      ∃ s1, insertLoop HashKey key value (n + 1) s cur = some s1 ∧
        s1.bucketNum ≤ s.bucketNum + n := by
  induction n with
  | zero =>
    intro s cur b h hg hd hb hsmall hcase hpn
    by_cases hcond : (StdMap.find b.kmap key).isSome = true ∨
        StdMap.size b.kmap < s.bucketSize
    · exact ⟨_, insertLoop_accept key value 0 hb hcond, Nat.le_refl _⟩
    · exfalso
      rcases hcase with h1 | h1 | ⟨k, hk, hne⟩
      · exact hcond (Or.inr h1)
      · refine hcond (Or.inl ?_)
        rw [Option.isSome_iff_ne_none, ne_eq, StdMap.find_eq_none_iff]
        exact fun e => e h1
      · obtain ⟨a0, b0, hda, hsa, hle, _, hpl, _⟩ :=
          h.slot (HashKey key % 2 ^ s.globalDepth) (Nat.mod_lt _ (Nat.two_pow_pos _))
        rw [hd] at hda
        cases hda
        rw [hb] at hsa
        cases hsa
        have h1 := hpl k hk
        rw [mod_mod_two_pow _ _ _ hle] at h1
        apply hne
        rw [← mod_mod_two_pow (HashKey k) (p + 1) b.localDepth (by omega),
          ← mod_mod_two_pow (HashKey key) (p + 1) b.localDepth (by omega), h1]
  | succ n ih =>
    intro s cur b h hg hd hb hsmall hcase hpn
    by_cases hcond : (StdMap.find b.kmap key).isSome = true ∨
        StdMap.size b.kmap < s.bucketSize
    · exact ⟨_, insertLoop_accept key value (n + 1) hb hcond, Nat.le_add_right _ _⟩
    · have hkey : key ∉ b.kmap.map Prod.fst := by
        intro e
        refine hcond (Or.inl ?_)
        rw [Option.isSome_iff_ne_none, ne_eq, StdMap.find_eq_none_iff]
        exact fun e1 => e1 e
      have hfull : ¬ b.kmap.length < s.bucketSize := fun e => hcond (Or.inr e)
      obtain ⟨k, hk, hne⟩ : ∃ k, k ∈ b.kmap.map Prod.fst ∧
          HashKey k % 2 ^ (p + 1) ≠ HashKey key % 2 ^ (p + 1) := by
        rcases hcase with h1 | h1 | h1
        · exact absurd h1 hfull
        · exact absurd h1 hkey
        · exact h1
      obtain ⟨a0, b0, hda, hsa, hle, _, hpl, hnd⟩ :=
        h.slot (HashKey key % 2 ^ s.globalDepth) (Nat.mod_lt _ (Nat.two_pow_pos _))
      rw [hd] at hda
      cases hda
      rw [hb] at hsa
      cases hsa
      have hdp : b.localDepth ≤ p := by
        by_contra e
        have h1 := hpl k hk
        rw [mod_mod_two_pow _ _ _ hle] at h1
        apply hne
        rw [← mod_mod_two_pow (HashKey k) (p + 1) b.localDepth (by omega),
          ← mod_mod_two_pow (HashKey key) (p + 1) b.localDepth (by omega), h1]
      have hd31 : b.localDepth < 31 := by omega
      obtain ⟨s1, hsp⟩ : ∃ s1, ExtendibleHash.split HashKey s cur = some s1 := by
        simp [ExtendibleHash.split, hb, shl1, hd31]
      obtain ⟨h1, hbs, hbn, _, _, hg1, cur1, kmap1, hdir1, hst1, _, hkm⟩ :=
        h.split_target key hd hb hsp
      have hg30 : s1.globalDepth ≤ 30 := by
        rw [hg1]
        split <;> omega
      obtain ⟨hmem, hle1, hsame, hless⟩ :=
        rehash_side HashKey (2 ^ b.localDepth) b.kmap key hnd
      rw [← hkm] at hmem hle1 hsame hless
      have hstep : ∃ s2, insertLoop HashKey key value (n + 1) s1 cur1 = some s2 ∧
          s2.bucketNum ≤ s1.bucketNum + n := by
        refine ih h1 hg30 hdir1 hst1 (by rw [hbs]; exact Nat.le_trans hle1 hsmall) ?_
          (by show p + 1 ≤ b.localDepth + 1 + n; omega)
        by_cases hall : ∀ k1, k1 ∈ b.kmap.map Prod.fst →
            (HashKey k1 &&& 2 ^ b.localDepth ≠ 0 ↔ HashKey key &&& 2 ^ b.localDepth ≠ 0)
        · exact Or.inr (Or.inr ⟨k, (hmem k).mpr ⟨hk, hall k hk⟩, hne⟩)
        · refine Or.inl ?_
          rw [hbs]
          have hex : ∃ k1, k1 ∈ b.kmap.map Prod.fst ∧
              ¬ (HashKey k1 &&& 2 ^ b.localDepth ≠ 0 ↔
                HashKey key &&& 2 ^ b.localDepth ≠ 0) := by
            by_contra e
            exact hall (fun k1 hk1 => by
              by_contra e1
              exact e ⟨k1, hk1, e1⟩)
          exact Nat.lt_of_lt_of_le (hless hex) hsmall
      obtain ⟨s2, hl2, hn2⟩ := hstep
      refine ⟨s2, ?_, by omega⟩
      simp only [ExtendibleHash.insertLoop, hb, Option.bind_eq_bind, Option.some_bind,
        if_neg hcond, hsp, getIdx_eq HashKey s1 key hg30, hdir1]
      exact hl2

/-! ## Hash table: the sizes of the buckets and the number of buckets -/

theorem rehash_moved_length_le (HashKey : K → Nat) (mask : Nat) :
    ∀ (m moved : List (K × V)),
      (rehash HashKey mask m moved).2.length ≤ m.length + moved.length
  | [], moved => by simp [rehash]
  | (k1, v1) :: rest, moved => by
    by_cases hb : HashKey k1 &&& mask ≠ 0
    · rw [rehash_cons_pos _ _ _ _ _ _ hb]
      have h1 := rehash_moved_length_le HashKey mask rest (StdMap.assign moved k1 v1)
      have h2 : (StdMap.assign moved k1 v1).length ≤ moved.length + 1 := by
        rw [length_assign]
        split <;> omega
      simp only [List.length_cons]
      omega
    · rw [rehash_cons_neg _ _ _ _ _ _ hb]
      have h1 := rehash_moved_length_le HashKey mask rest moved
      simp only [List.length_cons]
      omega

/-- A split step leaves no bucket with more pairs than the bucket size, if there was
none before. -/
theorem split_small {HashKey : K → Nat} {s s1 : ExtendibleHash K V} {cur : Nat}
    (hs : ∀ (a : Nat) (b : Bucket K V), s.store[a]? = some b → b.kmap.length ≤ s.bucketSize)
    (hsp : split HashKey s cur = some s1) :
    ∀ (a : Nat) (b : Bucket K V), s1.store[a]? = some b → b.kmap.length ≤ s1.bucketSize := by
  obtain ⟨b0, hb0, _, _, _, hst, hbs, _⟩ := split_fields hsp
  have hcur : cur < s.store.length := (List.getElem?_eq_some.mp hb0).1
  have h0 := hs cur b0 hb0
  intro a b hab
  rw [hbs]
  rw [hst] at hab
  by_cases ha : a < s.store.length
  · rw [List.getElem?_append_left (by simpa using ha)] at hab
    by_cases hac : cur = a
    · subst hac
      simp only [List.getElem?_set, hcur, if_true, Option.some.injEq] at hab
      subst hab
      exact Nat.le_trans (rehash_kept_sublist _ _ _ _).length_le h0
    · simp only [List.getElem?_set, hac, if_false] at hab
      exact hs a b hab
  · have hlen : (s.store.set cur
        (Bucket.mk (rehash HashKey (2 ^ b0.localDepth) b0.kmap []).1
          (b0.localDepth + 1))).length ≤ a := by
      simp only [List.length_set]
      omega
    rw [List.getElem?_append_right hlen] at hab
    simp only [List.length_set] at hab
    cases hi : a - s.store.length with
    | zero =>
      rw [hi] at hab
      simp only [List.getElem?_cons_zero, Option.some.injEq] at hab
      subst hab
      have := rehash_moved_length_le HashKey (2 ^ b0.localDepth) b0.kmap []
      simp only [List.length_nil, Nat.add_zero] at this
      exact Nat.le_trans this h0
    | succ j =>
      rw [hi] at hab
      simp at hab

/-- The loop of `Insert` leaves no bucket with more pairs than the bucket size, if there
was none before. -/
theorem insertLoop_small {HashKey : K → Nat} (key : K) (value : V) (fuel : Nat) :
    ∀ {s s1 : ExtendibleHash K V} {cur : Nat},
      (∀ (a : Nat) (b : Bucket K V), s.store[a]? = some b → b.kmap.length ≤ s.bucketSize) →
      insertLoop HashKey key value fuel s cur = some s1 →
      ∀ (a : Nat) (b : Bucket K V), s1.store[a]? = some b → b.kmap.length ≤ s1.bucketSize := by
  induction fuel with
  | zero =>
    intro s s1 cur _ hl
    simp [ExtendibleHash.insertLoop] at hl
  | succ fuel ih =>
    intro s s1 cur hs hl
    cases hb : s.store[cur]? with
    | none => simp [ExtendibleHash.insertLoop, hb] at hl
    | some b =>
      have hcur : cur < s.store.length := (List.getElem?_eq_some.mp hb).1
      simp only [ExtendibleHash.insertLoop, hb, Option.bind_eq_bind, Option.some_bind] at hl
      split at hl
      · rename_i hcond
        simp only [Option.some.injEq] at hl
        subst hl
        intro a b1 hab
        show b1.kmap.length ≤ s.bucketSize
        by_cases hac : cur = a
        · subst hac
          simp only [List.getElem?_set, hcur, if_true, Option.some.injEq] at hab
          subst hab
          show (StdMap.assign b.kmap key value).length ≤ s.bucketSize
          rw [length_assign]
          have h0 := hs cur b hb
          split
          · exact h0
          · rename_i hk
            rcases hcond with h1 | h1
            · rw [Option.isSome_iff_ne_none, ne_eq, StdMap.find_eq_none_iff] at h1
              exact absurd hk h1
            · simp only [StdMap.size] at h1
              omega
        · simp only [List.getElem?_set, hac, if_false] at hab
          exact hs a b1 hab
      · cases hsp : ExtendibleHash.split HashKey s cur with
        | none => simp [hsp] at hl
        | some s2 =>
          simp only [hsp, Option.some_bind] at hl
          cases hidx : getIdx HashKey s2 key with
          | none => simp [hidx] at hl
          | some idx =>
            simp only [hidx, Option.some_bind] at hl
            cases hc1 : s2.directories[idx]? with
            | none => simp [hc1] at hl
            | some cur1 =>
              simp only [hc1, Option.some_bind] at hl
              exact ih (split_small hs hsp) hl

/-- In every reachable table no bucket holds more pairs than the bucket size. -/
theorem Reachable.small {HashKey : K → Nat} {s : ExtendibleHash K V}
    (h : Reachable HashKey s) :
    ∀ (a : Nat) (b : Bucket K V), s.store[a]? = some b → b.kmap.length ≤ s.bucketSize := by
  induction h with
  | new size =>
    intro a b hab
    cases a with
    | zero =>
      have hab1 : some (Bucket.mk ([] : List (K × V)) 0) = some b := hab
      cases hab1
      exact Nat.zero_le _
    | succ a =>
      have hab1 : (none : Option (Bucket K V)) = some b := hab
      cases hab1
  | Insert s s1 fuel k v _ hi ih =>
    cases hidx : getIdx HashKey s k with
    | none => simp [ExtendibleHash.Insert, hidx] at hi
    | some idx =>
      cases hc : s.directories[idx]? with
      | none => simp [ExtendibleHash.Insert, hidx, hc] at hi
      | some cur =>
        simp only [ExtendibleHash.Insert, hidx, hc, Option.bind_eq_bind,
          Option.some_bind] at hi
        exact insertLoop_small k v fuel ih hi
  | Remove s s1 k r hs hr ih =>
    obtain ⟨hinv, hg⟩ := hs.inv
    obtain ⟨a0, b0, hda, hb0, _⟩ := hinv.Find_eq hg k
    have hcur : a0 < s.store.length := (List.getElem?_eq_some.mp hb0).1
    simp only [ExtendibleHash.Remove, getIdx_eq HashKey s k hg, hda, hb0,
      Option.bind_eq_bind, Option.some_bind] at hr
    split at hr
    · simp only [Option.some.injEq, Prod.mk.injEq] at hr
      rw [← hr.2]
      exact ih
    · simp only [Option.some.injEq, Prod.mk.injEq] at hr
      rw [← hr.2]
      intro a b hab
      show b.kmap.length ≤ s.bucketSize
      by_cases hac : a0 = a
      · subst hac
        simp only [List.getElem?_set, hcur, if_true, Option.some.injEq] at hab
        subst hab
        exact Nat.le_trans (StdMap.erase_sublist _ _).length_le (ih a0 b0 hb0)
      · simp only [List.getElem?_set, hac, if_false] at hab
        exact ih a b hab

/-- The buckets that the directory references after a split step: the ones referenced
before and the new bucket, whose address was not in the directory. -/
theorem Inv.split_dirs {HashKey : K → Nat} {s s1 : ExtendibleHash K V} {cur i0 : Nat}
    (h : Inv HashKey s) (hi0 : i0 < 2 ^ s.globalDepth)
    (hd0 : s.directories[i0]? = some cur) (hsp : split HashKey s cur = some s1) :
    s.store.length ∉ s.directories ∧
      ∀ x, x ∈ s1.directories ↔ x = s.store.length ∨ x ∈ s.directories := by
  obtain ⟨b, hb, _, hg, hdir, hst, _, _⟩ := split_fields hsp
  obtain ⟨⟨hg1, hg2, hg3⟩, hcur, hD, _, _, _, hC⟩ := split_frame h hi0 hd0 hb hg hdir hst
  have h1 := h.split_step hi0 hd0 hsp
  have hold : ∀ x, x ∈ s.directories → x < s.store.length := by
    intro x hx
    obtain ⟨i, hi, hxi⟩ := List.mem_iff_getElem?.mp hx |> fun ⟨i, e⟩ =>
      (⟨i, (List.getElem?_eq_some.mp e).1, e⟩ : ∃ i, i < s.directories.length ∧
        s.directories[i]? = some x)
    rw [h.dir_len] at hi
    obtain ⟨a, ba, hda, hsa, _⟩ := h.slot i hi
    rw [hxi] at hda
    cases hda
    exact (List.getElem?_eq_some.mp hsa).1
  have hpow : 2 ^ s.globalDepth ≤ 2 ^ s1.globalDepth := Nat.pow_le_pow_right (by omega) hg1
  refine ⟨fun e => Nat.lt_irrefl _ (hold _ e), fun x => ⟨fun hx => ?_, fun hx => ?_⟩⟩
  · obtain ⟨j, hxj⟩ := List.mem_iff_getElem?.mp hx
    have hj : j < 2 ^ s1.globalDepth := by
      rw [← h1.dir_len]
      exact (List.getElem?_eq_some.mp hxj).1
    obtain ⟨a, ba, hda, _⟩ := h.slot (j % 2 ^ s.globalDepth) (Nat.mod_lt _ (Nat.two_pow_pos _))
    rw [hD j hj a hda] at hxj
    simp only [Option.some.injEq] at hxj
    rw [← hxj]
    split
    · exact Or.inl rfl
    · exact Or.inr (List.mem_iff_getElem?.mpr ⟨_, hda⟩)
  · have hdlt : 2 ^ b.localDepth ≤ 2 ^ s.globalDepth := Nat.pow_le_pow_right (by omega) hg3
    have hr : i0 % 2 ^ b.localDepth < 2 ^ b.localDepth := Nat.mod_lt _ (Nat.two_pow_pos _)
    rcases hx with hx | hx
    · subst hx
      have hj : i0 % 2 ^ b.localDepth + 2 ^ b.localDepth < 2 ^ s1.globalDepth := by
        have : 2 ^ (b.localDepth + 1) ≤ 2 ^ s1.globalDepth :=
          Nat.pow_le_pow_right (by omega) hg2
        rw [Nat.pow_succ] at this
        omega
      have hc : s.directories[(i0 % 2 ^ b.localDepth + 2 ^ b.localDepth)
          % 2 ^ s.globalDepth]? = some cur := by
        rw [hC]
        rw [Nat.add_mod_right, Nat.mod_mod]
      have hbit : (i0 % 2 ^ b.localDepth + 2 ^ b.localDepth) &&& 2 ^ b.localDepth ≠ 0 := by
        rw [and_two_pow_ne_zero_iff, Nat.add_div_right _ (Nat.two_pow_pos _),
          Nat.div_eq_of_lt hr]
      have := hD _ hj cur hc
      rw [if_pos ⟨rfl, hbit⟩] at this
      exact List.mem_iff_getElem?.mpr ⟨_, this⟩
    · by_cases hxc : x = cur
      · subst hxc
        have hj : i0 % 2 ^ b.localDepth < 2 ^ s1.globalDepth := by omega
        have hc : s.directories[(i0 % 2 ^ b.localDepth) % 2 ^ s.globalDepth]? = some x := by
          rw [hC, Nat.mod_mod]
        have hbit : ¬ ((i0 % 2 ^ b.localDepth) &&& 2 ^ b.localDepth ≠ 0) := by
          rw [and_two_pow_ne_zero_iff, Nat.div_eq_of_lt hr]
          simp
        have := hD _ hj x hc
        rw [if_neg (fun e => hbit e.2)] at this
        exact List.mem_iff_getElem?.mpr ⟨_, this⟩
      · obtain ⟨i, hxi⟩ := List.mem_iff_getElem?.mp hx
        have hi : i < 2 ^ s.globalDepth := by
          rw [← h.dir_len]
          exact (List.getElem?_eq_some.mp hxi).1
        have := hD i (by omega) x (by rw [Nat.mod_eq_of_lt hi]; exact hxi)
        rw [if_neg (fun e => hxc e.1)] at this
        exact List.mem_iff_getElem?.mpr ⟨_, this⟩

/-- A split step adds one to the number of distinct buckets in the directory. -/
theorem Inv.split_count {HashKey : K → Nat} {s s1 : ExtendibleHash K V} {cur i0 : Nat}
    (h : Inv HashKey s) (hi0 : i0 < 2 ^ s.globalDepth)
    (hd0 : s.directories[i0]? = some cur) (hsp : split HashKey s cur = some s1) :
    s1.directories.dedup.length = s.directories.dedup.length + 1 := by
  obtain ⟨hnew, hmem⟩ := h.split_dirs hi0 hd0 hsp
  rw [← List.card_toFinset, ← List.card_toFinset]
  have : s1.directories.toFinset = insert s.store.length s.directories.toFinset := by
    ext x
    simp only [List.mem_toFinset, Finset.mem_insert]
    exact hmem x
  rw [this, Finset.card_insert_of_not_mem (by simpa using hnew)]

/-- The loop of `Insert` keeps the counter `bucketNum` equal to the number of distinct
buckets in the directory, and does not lower it. -/
theorem Inv.insertLoop_count {HashKey : K → Nat} (key : K) (value : V) (fuel : Nat) :
    ∀ {s s1 : ExtendibleHash K V} {cur : Nat}, Inv HashKey s →
      s.directories[HashKey key % 2 ^ s.globalDepth]? = some cur →
      s.bucketNum = s.directories.dedup.length →
      insertLoop HashKey key value fuel s cur = some s1 →
      s1.bucketNum = s1.directories.dedup.length ∧ s.bucketNum ≤ s1.bucketNum := by
  induction fuel with
  | zero =>
    intro s s1 cur _ _ _ hl
    simp [ExtendibleHash.insertLoop] at hl
  | succ fuel ih =>
    intro s s1 cur h hd hc hl
    have hi0 : HashKey key % 2 ^ s.globalDepth < 2 ^ s.globalDepth :=
      Nat.mod_lt _ (Nat.two_pow_pos _)
    obtain ⟨a, b, hda, hb, _⟩ := h.slot _ hi0
    rw [hd] at hda
    cases hda
    simp only [ExtendibleHash.insertLoop, hb, Option.bind_eq_bind, Option.some_bind] at hl
    split at hl
    · simp only [Option.some.injEq] at hl
      subst hl
      exact ⟨hc, Nat.le_refl _⟩
    · cases hsp : ExtendibleHash.split HashKey s cur with
      | none => simp [hsp] at hl
      | some s2 =>
        simp only [hsp, Option.some_bind] at hl
        cases hidx : getIdx HashKey s2 key with
        | none => simp [hidx] at hl
        | some idx =>
          simp only [hidx, Option.some_bind] at hl
          obtain ⟨_, hidx2⟩ := getIdx_some _ _ _ _ hidx
          subst hidx2
          cases hc1 : s2.directories[HashKey key % 2 ^ s2.globalDepth]? with
          | none => simp [hc1] at hl
          | some cur1 =>
            simp only [hc1, Option.some_bind] at hl
            obtain ⟨_, _, _, _, _, _, _, hbn⟩ := split_fields hsp
            have hcnt := h.split_count hi0 hd hsp
            obtain ⟨h3, h4⟩ := ih (h.split_step hi0 hd hsp) hc1
              (by rw [hbn, hcnt, hc]) hl
            exact ⟨h3, by omega⟩

/-- A call of `Insert` that returns keeps the counter `bucketNum` equal to the number of
distinct buckets in the directory, and does not lower it. -/
theorem Inv.Insert_count {HashKey : K → Nat} {s s1 : ExtendibleHash K V} {fuel : Nat}
    {key : K} {value : V} (h : Inv HashKey s)
    (hc : s.bucketNum = s.directories.dedup.length)
    (hi : Insert HashKey fuel s key value = some s1) :
    s1.bucketNum = s1.directories.dedup.length ∧ s.bucketNum ≤ s1.bucketNum := by
  cases hidx : getIdx HashKey s key with
  | none => simp [ExtendibleHash.Insert, hidx] at hi
  | some idx =>
    obtain ⟨_, hidx2⟩ := getIdx_some _ _ _ _ hidx
    subst hidx2
    obtain ⟨a, b, hda, _⟩ := h.slot (HashKey key % 2 ^ s.globalDepth)
      (Nat.mod_lt _ (Nat.two_pow_pos _))
    simp only [ExtendibleHash.Insert, hidx, hda, Option.bind_eq_bind,
      Option.some_bind] at hi
    exact h.insertLoop_count key value fuel hda hc hi

/-- In every reachable table the counter `bucketNum` is the number of distinct buckets
in the directory. -/
theorem Reachable.count {HashKey : K → Nat} {s : ExtendibleHash K V}
    (h : Reachable HashKey s) : s.bucketNum = s.directories.dedup.length := by
  induction h with
  | new size => rfl
  | Insert s s1 fuel k v hs hi ih => exact (hs.inv.1.Insert_count ih hi).1
  | Remove s s1 k r hs hr ih =>
    obtain ⟨r2, s2, hr2, _, _, _, _, _, hdir, hbn, _⟩ := hs.inv.1.Remove_spec hs.inv.2 k
    rw [hr] at hr2
    cases hr2
    rw [hbn, hdir]
    exact ih

/-! ## Hash table: the calls of `Insert` that return and those that do not -/

/-- The call `Insert(key, value)` does not return when the bucket of `key` is full, does
not hold `key`, and all its keys agree with `key` in the 31 low bits of the hash. -/
theorem Inv.Insert_stuck {HashKey : K → Nat} {s : ExtendibleHash K V} (h : Inv HashKey s)
    (key : K) {cur : Nat} {b : Bucket K V}
    (hd : s.directories[HashKey key % 2 ^ s.globalDepth]? = some cur)
    (hb : s.store[cur]? = some b) (hfull : ¬ b.kmap.length < s.bucketSize)
    (hk : key ∉ b.kmap.map Prod.fst)
    (hall : ∀ k, k ∈ b.kmap.map Prod.fst → HashKey k % 2 ^ 31 = HashKey key % 2 ^ 31)
    (fuel : Nat) (value : V) : Insert HashKey fuel s key value = none := by
  cases hidx : getIdx HashKey s key with
  | none => simp [ExtendibleHash.Insert, hidx]
  | some idx =>
    obtain ⟨_, hidx2⟩ := getIdx_some _ _ _ _ hidx
    subst hidx2
    simp only [ExtendibleHash.Insert, hidx, hd, Option.bind_eq_bind, Option.some_bind]
    exact h.insertLoop_stuck key value fuel hd hb (by omega) hk hall

/-- The call `Insert(key, value)` returns, after at most `p + 1 - localDepth` split
steps, when the bucket of `key` holds at most `bucketSize` pairs, one of them with a key
whose hash differs from that of `key` in the `p + 1` low bits, for `p` below 30. -/
theorem Inv.Insert_done {HashKey : K → Nat} {s : ExtendibleHash K V} (h : Inv HashKey s)
    (hg : s.globalDepth ≤ 30) (key : K) (value : V) {cur : Nat} {b : Bucket K V}
    (hd : s.directories[HashKey key % 2 ^ s.globalDepth]? = some cur)
    (hb : s.store[cur]? = some b) (hsmall : b.kmap.length ≤ s.bucketSize)
    (p : Nat) (hp : p ≤ 29)
    (hdiff : ∃ k, k ∈ b.kmap.map Prod.fst ∧
      HashKey k % 2 ^ (p + 1) ≠ HashKey key % 2 ^ (p + 1)) :
    ∃ s1, (∀ fuel, p + 2 ≤ fuel → Insert HashKey fuel s key value = some s1) ∧
      s1.bucketNum ≤ s.bucketNum + (p + 1 - b.localDepth) := by
  obtain ⟨s1, hl, hn⟩ := h.insertLoop_done key value p hp (p + 1 - b.localDepth) hg hd hb
    hsmall (Or.inr (Or.inr hdiff)) (by omega)
  refine ⟨s1, fun fuel hf => ?_, hn⟩
  have hm := insertLoop_mono HashKey key value (p + 1 - b.localDepth + 1)
    (fuel - (p + 1 - b.localDepth + 1)) s s1 cur hl
  have he : p + 1 - b.localDepth + 1 + (fuel - (p + 1 - b.localDepth + 1)) = fuel := by omega
  rw [he] at hm
  simp only [ExtendibleHash.Insert, getIdx_eq HashKey s key hg, hd, Option.bind_eq_bind,
    Option.some_bind]
  exact hm

/-- The bucket on the other side after a split step of the bucket `cur` of `key`: `cur`
with the kept pairs if the hash of `key` has the mask bit, and the new bucket with the
moved pairs if not. -/
theorem Inv.split_other {HashKey : K → Nat} {s s1 : ExtendibleHash K V} {cur : Nat}
    {b : Bucket K V} (key : K) (h : Inv HashKey s)
    (hd0 : s.directories[HashKey key % 2 ^ s.globalDepth]? = some cur)
    (hb : s.store[cur]? = some b) (hsp : split HashKey s cur = some s1) :
    cur ≠ s.store.length ∧
      s1.store[if HashKey key &&& 2 ^ b.localDepth ≠ 0 then cur else s.store.length]? =
        some (Bucket.mk (if HashKey key &&& 2 ^ b.localDepth ≠ 0 then
          (rehash HashKey (2 ^ b.localDepth) b.kmap []).1
          else (rehash HashKey (2 ^ b.localDepth) b.kmap []).2) (b.localDepth + 1)) ∧
      s1.directories[HashKey key % 2 ^ s1.globalDepth]? =
        some (if HashKey key &&& 2 ^ b.localDepth ≠ 0 then s.store.length else cur) := by
  have hi0 : HashKey key % 2 ^ s.globalDepth < 2 ^ s.globalDepth :=
    Nat.mod_lt _ (Nat.two_pow_pos _)
  obtain ⟨b1, hb1, _, hg, hdir, hst, _, _⟩ := split_fields hsp
  rw [hb] at hb1
  cases hb1
  obtain ⟨⟨hg1, hg2, _⟩, hcur, hD, hS1, hS2, _, _⟩ := split_frame h hi0 hd0 hb hg hdir hst
  have hlt1 : HashKey key % 2 ^ s1.globalDepth < 2 ^ s1.globalDepth :=
    Nat.mod_lt _ (Nat.two_pow_pos _)
  have hda1 := hD _ hlt1 cur (by rw [mod_mod_two_pow _ _ _ hg1]; exact hd0)
  have hbit := and_two_pow_mod (HashKey key) b.localDepth s1.globalDepth (by omega)
  refine ⟨by omega, ?_, ?_⟩
  · by_cases hbk : HashKey key &&& 2 ^ b.localDepth ≠ 0
    · rw [if_pos hbk, if_pos hbk]
      exact hS1
    · rw [if_neg hbk, if_neg hbk]
      exact hS2
  · by_cases hbk : HashKey key &&& 2 ^ b.localDepth ≠ 0
    · rw [if_pos ⟨rfl, hbit.mpr hbk⟩] at hda1
      rw [if_pos hbk]
      exact hda1
    · rw [if_neg (fun e => hbk (hbit.mp e.2))] at hda1
      rw [if_neg hbk]
      exact hda1

/-- A split step of the full bucket `cur` of `key` whose keys all have the hash of `key`:
the step exists while the local depth is at most 30, and it leaves the bucket of `key`
with the same keys, as many pairs and a local depth one larger. -/
theorem Inv.split_same {HashKey : K → Nat} {s : ExtendibleHash K V} {cur : Nat}
    {b : Bucket K V} (key : K) (h : Inv HashKey s)
    (hd : s.directories[HashKey key % 2 ^ s.globalDepth]? = some cur)
    (hb : s.store[cur]? = some b)
    (hsame : ∀ k, k ∈ b.kmap.map Prod.fst → HashKey k = HashKey key)
    (hd30 : b.localDepth ≤ 30) :
    ∃ s1 cur1 kmap1, split HashKey s cur = some s1 ∧ Inv HashKey s1 ∧
      s1.bucketSize = s.bucketSize ∧ s1.bucketNum = s.bucketNum + 1 ∧
      s1.store.length = s.store.length + 1 ∧
      s1.globalDepth =
        (if b.localDepth + 1 > s.globalDepth then s.globalDepth + 1 else s.globalDepth) ∧
      s1.directories[HashKey key % 2 ^ s1.globalDepth]? = some cur1 ∧
      s1.store[cur1]? = some (Bucket.mk kmap1 (b.localDepth + 1)) ∧
      (∀ k, k ∈ kmap1.map Prod.fst ↔ k ∈ b.kmap.map Prod.fst) ∧
      kmap1.length = b.kmap.length := by
  have hd31 : b.localDepth < 31 := by omega
  obtain ⟨s1, hsp⟩ : ∃ s1, ExtendibleHash.split HashKey s cur = some s1 := by
    simp [ExtendibleHash.split, hb, shl1, hd31]
  obtain ⟨h1, hbs, hbn, _, _, hg1, cur1, kmap1, hdir1, hst1, _, hkm⟩ :=
    h.split_target key hd hb hsp
  obtain ⟨_, _, _, _, _, hst, _, _⟩ := split_fields hsp
  obtain ⟨a0, b0, hda, hsa, _, _, _, hnd⟩ := h.slot (HashKey key % 2 ^ s.globalDepth)
    (Nat.mod_lt _ (Nat.two_pow_pos _))
  rw [hd] at hda
  cases hda
  rw [hb] at hsa
  cases hsa
  have hbits : ∀ k, k ∈ b.kmap.map Prod.fst →
      (HashKey k &&& 2 ^ b.localDepth ≠ 0 ↔ HashKey key &&& 2 ^ b.localDepth ≠ 0) :=
    fun k hk2 => by rw [hsame k hk2]
  obtain ⟨hmem, _, hlen, _⟩ := rehash_side HashKey (2 ^ b.localDepth) b.kmap key hnd
  rw [← hkm] at hmem hlen
  refine ⟨s1, cur1, kmap1, hsp, h1, hbs, hbn, ?_, hg1, hdir1, hst1,
    fun k => ⟨fun e => ((hmem k).mp e).1, fun e => (hmem k).mpr ⟨e, hbits k e⟩⟩, hlen hbits⟩
  rw [hst]
  simp

/-- The loop of `Insert` at the full bucket `cur` of `key`, whose keys all have the hash
of `key` and do not include `key`: it makes `n` split passes while the local depth plus
`n` is at most 30, each adding one bucket and one to the local depth of the bucket of
`key`, which keeps its keys, and goes on from the table after them. -/
theorem Inv.splitPasses_same {HashKey : K → Nat} (key : K) (n : Nat) :
    ∀ {s : ExtendibleHash K V} {cur : Nat} {b : Bucket K V}, Inv HashKey s →
      s.globalDepth ≤ 30 →
      s.directories[HashKey key % 2 ^ s.globalDepth]? = some cur →
      s.store[cur]? = some b → ¬ b.kmap.length < s.bucketSize →
      key ∉ b.kmap.map Prod.fst →
      (∀ k, k ∈ b.kmap.map Prod.fst → HashKey k = HashKey key) →
      b.localDepth + n ≤ 30 →
      ∃ sn curn bn, splitPasses HashKey key n s cur = some (sn, curn) ∧ Inv HashKey sn ∧
        sn.globalDepth ≤ 30 ∧ sn.bucketSize = s.bucketSize ∧
        sn.bucketNum = s.bucketNum + n ∧ sn.store.length = s.store.length + n ∧
        sn.directories[HashKey key % 2 ^ sn.globalDepth]? = some curn ∧
        sn.store[curn]? = some bn ∧ bn.localDepth = b.localDepth + n ∧
        (∀ k, k ∈ bn.kmap.map Prod.fst ↔ k ∈ b.kmap.map Prod.fst) ∧
        bn.kmap.length = b.kmap.length ∧
        ∀ fuel value, insertLoop HashKey key value (fuel + n) s cur
          = insertLoop HashKey key value fuel sn curn := by
  induction n with
  | zero =>
    intro s cur b h hg hd hb _ _ _ _
    exact ⟨s, cur, b, rfl, h, hg, rfl, rfl, rfl, hd, hb, rfl, fun _ => Iff.rfl, rfl,
      fun _ _ => rfl⟩
  | succ n ih =>
    intro s cur b h hg hd hb hfull hk hsame hn
    obtain ⟨s1, cur1, kmap1, hsp, h1, hbs, hbn, hsl, hg1, hdir1, hst1, hmem, hlen⟩ :=
      h.split_same key hd hb hsame (by omega)
    have hg30 : s1.globalDepth ≤ 30 := by
      rw [hg1]
      split <;> omega
    obtain ⟨sn, curn, bn, hpass, hin, hgn, hbsn, hbnn, hsln, hdirn, hstn, hldn, hmemn, hlenn,
        hloop⟩ := ih h1 hg30 hdir1 hst1
      (by rw [hbs]; show ¬ kmap1.length < s.bucketSize; rw [hlen]; exact hfull)
      (fun e => hk ((hmem key).mp e))
      (fun k hk1 => hsame k ((hmem k).mp hk1))
      (by show b.localDepth + 1 + n ≤ 30; omega)
    refine ⟨sn, curn, bn, ?_, hin, hgn, by rw [hbsn, hbs], by rw [hbnn, hbn]; omega,
      by rw [hsln, hsl]; omega, hdirn, hstn, by rw [hldn]; show b.localDepth + 1 + n = _; omega,
      fun k => (hmemn k).trans (hmem k), by rw [hlenn]; exact hlen, fun fuel value => ?_⟩
    · simp only [splitPasses, hsp, getIdx_eq HashKey s1 key hg30, hdir1, Option.bind_eq_bind,
        Option.some_bind]
      exact hpass
    · have hfind : StdMap.find b.kmap key = none := (StdMap.find_eq_none_iff _ _).mpr hk
      have hcond : ¬ ((StdMap.find b.kmap key).isSome = true ∨
          StdMap.size b.kmap < s.bucketSize) := by
        rw [hfind]
        simpa using hfull
      have he : fuel + (n + 1) = fuel + n + 1 := rfl
      rw [he]
      simp only [ExtendibleHash.insertLoop, hb, Option.bind_eq_bind, Option.some_bind,
        if_neg hcond, hsp, getIdx_eq HashKey s1 key hg30, hdir1]
      exact hloop fuel value

/-- The table `fullTable` is reached by two inserts, with the identity as hash. -/
theorem fullTable_reachable : Reachable (fun k : Nat => k) fullTable :=
  Reachable.of_insertAll [(1, 10), (2, 20)] (Reachable.new 2)
    (by decide : insertAll (fun k : Nat => k) 1 (new 2) [(1, 10), (2, 20)] = some fullTable)

/-- The table `oneTable` is reached by one insert, with the hash `highHash`. -/
theorem oneTable_reachable_highHash : Reachable highHash oneTable :=
  Reachable.of_insertAll [(0, 0)] (Reachable.new 1)
    (by decide : insertAll highHash 1 (new 1) [(0, 0)] = some oneTable)

/-- The table `oneTable` is reached by one insert, with the hash `constHash`. -/
theorem oneTable_reachable_constHash : Reachable constHash oneTable :=
  Reachable.of_insertAll [(0, 0)] (Reachable.new 1)
    (by decide : insertAll constHash 1 (new 1) [(0, 0)] = some oneTable)

end ExtendibleHash
/-! ## The split step and the loop of `Insert` (claims C34 .. C38) -/

namespace ExtendibleHash

variable {K V : Type} [DecidableEq K]

/-- C34. Hash split transparency. One split step of `Insert` on a bucket `cur` that the
directory of a reachable table references, with the global depth afterwards within the
range of the shifts, changes no lookup: for every key, `Find` returns the same flag and
value after the step as before it. The directory after the step is the directory after
the doubling loop, if the new local depth exceeds the global depth, with the slots of
`cur` that have the mask bit re-pointed; after the doubling from `n` to `2n` slots, and
before the re-pointing, the slots `i` and `i + n` reference the bucket that slot `i`
referenced, for every `i < n`. -/
theorem split_transparency (HashKey : K → Nat) (s s1 : ExtendibleHash K V) (i0 cur : Nat)
    (h : Reachable HashKey s) (hd0 : s.directories[i0]? = some cur)
    (hsp : split HashKey s cur = some s1) (hg30 : s1.globalDepth ≤ 30) :
    (∀ k, ∃ r, Find HashKey s k = some r ∧ Find HashKey s1 k = some r) ∧
    ∃ b dirs1, s.store[cur]? = some b ∧
      (if b.localDepth + 1 > s.globalDepth then
          pushCopies s.directories.length 0 s.directories
        else some s.directories) = some dirs1 ∧
      s1.directories = repoint cur s.store.length (2 ^ b.localDepth) 0 dirs1 ∧
      (b.localDepth + 1 > s.globalDepth →
        s1.globalDepth = s.globalDepth + 1 ∧ dirs1.length = 2 * s.directories.length ∧
        ∀ i, i < s.directories.length →
          dirs1[i]? = s.directories[i]? ∧
          dirs1[i + s.directories.length]? = s.directories[i]?) := by
  obtain ⟨hinv, hg⟩ := h.inv
  have hi0 : i0 < 2 ^ s.globalDepth := by
    rw [← hinv.dir_len]
    exact (List.getElem?_eq_some.mp hd0).1
  obtain ⟨b, hb, _, hg1, hdir, _, _, _⟩ := split_fields hsp
  refine ⟨fun k => ?_, b, if b.localDepth + 1 > s.globalDepth
    then s.directories ++ s.directories else s.directories, hb, ?_, hdir, fun hgt => ?_⟩
  · obtain ⟨a, ba, _, _, hF⟩ := hinv.Find_eq hg k
    exact ⟨_, hF, by rw [hinv.split_Find hi0 hd0 hsp hg30 k, hF]⟩
  · by_cases hgt : b.localDepth + 1 > s.globalDepth
    · rw [if_pos hgt, if_pos hgt, pushCopies_eq]
    · rw [if_neg hgt, if_neg hgt]
  · rw [if_pos hgt] at hg1 ⊢
    refine ⟨hg1, by rw [List.length_append]; omega, fun i hi => ⟨?_, ?_⟩⟩
    · rw [List.getElem?_append_left hi]
    · rw [List.getElem?_append_right (by omega)]
      simp

/-- The split step of the full bucket of `fullTable`, with the identity as hash: the
directory doubles from one slot to two. -/
theorem split_transparency_witness :
    (∀ k, ∃ r, Find (fun k : Nat => k) fullTable k = some r ∧
      Find (fun k : Nat => k)
        ⟨1, 2, 2, [0, 1], [⟨[(2, 20)], 1⟩, ⟨[(1, 10)], 1⟩]⟩ k = some r) ∧
    ∃ b dirs1, fullTable.store[0]? = some b ∧
      (if b.localDepth + 1 > fullTable.globalDepth then
          pushCopies fullTable.directories.length 0 fullTable.directories
        else some fullTable.directories) = some dirs1 ∧
      (⟨1, 2, 2, [0, 1], [⟨[(2, 20)], 1⟩, ⟨[(1, 10)], 1⟩]⟩ : ExtendibleHash Nat Nat).directories
        = repoint 0 fullTable.store.length (2 ^ b.localDepth) 0 dirs1 ∧
      (b.localDepth + 1 > fullTable.globalDepth →
        (⟨1, 2, 2, [0, 1], [⟨[(2, 20)], 1⟩, ⟨[(1, 10)], 1⟩]⟩ : ExtendibleHash Nat Nat).globalDepth
          = fullTable.globalDepth + 1 ∧
        dirs1.length = 2 * fullTable.directories.length ∧
        ∀ i, i < fullTable.directories.length →
          dirs1[i]? = fullTable.directories[i]? ∧
          dirs1[i + fullTable.directories.length]? = fullTable.directories[i]?) :=
  split_transparency (fun k : Nat => k) fullTable
    ⟨1, 2, 2, [0, 1], [⟨[(2, 20)], 1⟩, ⟨[(1, 10)], 1⟩]⟩ 0 0 fullTable_reachable
    (by decide) (by decide) (by decide)

/-- C35, the claim as stated fails. With bucket size 1 and `HashKey(k) = k * 2^31`, the
table after `Insert(0, 0)` is reachable, the bucket of key 1 is full and holds key 0
only, whose hash 0 differs from the hash `2^31` of key 1, and `Insert(1, v)` does not
return: every split leaves key 0 in the bucket of key 1, since the two hashes agree in
the bits 0 .. 30, until the local depth is 31 and `1 << localDepth` leaves the range of
`int`. -/
theorem Insert_high_bit_counterexample :
    Reachable highHash oneTable ∧
    1 ≤ oneTable.bucketSize ∧
    getIdx highHash oneTable 1 = some 0 ∧
    oneTable.directories[0]? = some 0 ∧
    oneTable.store[0]? = some (Bucket.mk [(0, 0)] 0) ∧
    ¬ StdMap.size [(0, 0)] < oneTable.bucketSize ∧
    StdMap.find [(0, 0)] 1 = (none : Option Nat) ∧
    highHash 0 ≠ highHash 1 ∧
    ∀ fuel v, Insert highHash fuel oneTable 1 v = none :=
  ⟨oneTable_reachable_highHash, by decide, by decide, by decide, by decide, by decide,
    by decide, by decide,
    fun fuel v => oneTable_reachable_highHash.inv.1.Insert_stuck 1
      (by decide : oneTable.directories[highHash 1 % 2 ^ oneTable.globalDepth]? = some 0)
      (by decide : oneTable.store[0]? = some (Bucket.mk [(0, 0)] 0)) (by decide) (by decide)
      (by decide) fuel v⟩

/-- C35, amended. Hash Insert termination. In a reachable table, let the bucket of `key`
be full and not hold `key`, and let one of its keys have a hash that differs from the
hash of `key` in one of the bits 0 .. `p`, for a `p` below 30. Then `Insert(key, value)`
returns within `p + 2` passes of its loop, after at least one and at most
`p + 1 - localDepth` split steps (one per bit position from the local depth of the
bucket up to `p`); afterwards `key` is found with `value` and every other lookup is as
before. -/
theorem Insert_terminates (HashKey : K → Nat) (s : ExtendibleHash K V)
    (h : Reachable HashKey s) (key : K) (value : V) (idx cur : Nat) (b : Bucket K V)
    (hidx : getIdx HashKey s key = some idx) (hd : s.directories[idx]? = some cur)
    (hb : s.store[cur]? = some b) (hfull : ¬ StdMap.size b.kmap < s.bucketSize)
    (hk : StdMap.find b.kmap key = none)
    (p : Nat) (hp : p ≤ 29)
    (hdiff : ∃ k, k ∈ b.kmap.map Prod.fst ∧
      HashKey k % 2 ^ (p + 1) ≠ HashKey key % 2 ^ (p + 1)) :
    ∃ s1, (∀ fuel, p + 2 ≤ fuel → Insert HashKey fuel s key value = some s1) ∧
      Find HashKey s1 key = some (some value) ∧
      (∀ k, k ≠ key → Find HashKey s1 k = Find HashKey s k) ∧
      GetNumBuckets s < GetNumBuckets s1 ∧
      GetNumBuckets s1 ≤ GetNumBuckets s + (p + 1 - b.localDepth) := by
  obtain ⟨hinv, hg⟩ := h.inv
  have hd1 : s.directories[HashKey key % 2 ^ s.globalDepth]? = some cur := by
    rw [← (getIdx_some _ _ _ _ hidx).2]
    exact hd
  obtain ⟨s1, hins, hn⟩ := hinv.Insert_done hg key value hd1 hb (h.small cur b hb) p hp hdiff
  have hi := hins (p + 2) (Nat.le_refl _)
  obtain ⟨_, _, _, hF⟩ := hinv.Insert_spec hi
  refine ⟨s1, hins, by rw [hF key, if_pos rfl], fun k hk1 => by rw [hF k, if_neg hk1], ?_, hn⟩
  show s.bucketNum < s1.bucketNum
  have hcond : ¬ ((StdMap.find b.kmap key).isSome = true ∨
      StdMap.size b.kmap < s.bucketSize) := by
    rw [hk]
    simpa using hfull
  have hd31 : b.localDepth < 31 := by
    obtain ⟨a0, b0, hda, hsa, hle, _⟩ := hinv.slot (HashKey key % 2 ^ s.globalDepth)
      (Nat.mod_lt _ (Nat.two_pow_pos _))
    rw [hd1] at hda
    cases hda
    rw [hb] at hsa
    cases hsa
    omega
  obtain ⟨s2, hsp⟩ : ∃ s2, split HashKey s cur = some s2 := by
    simp [split, hb, shl1, hd31]
  obtain ⟨h2, _, hbn, _, _, _, cur1, kmap1, hdir1, _, _, _⟩ :=
    hinv.split_target key hd1 hb hsp
  simp only [Insert, getIdx_eq HashKey s key hg, hd1, Option.bind_eq_bind,
    Option.some_bind, insertLoop, hb, if_neg hcond, hsp] at hi
  cases hidx : getIdx HashKey s2 key with
  | none => simp [hidx] at hi
  | some idx =>
    obtain ⟨_, hidx2⟩ := getIdx_some _ _ _ _ hidx
    subst hidx2
    simp only [hidx, Option.some_bind, hdir1] at hi
    have hc2 : s2.bucketNum = s2.directories.dedup.length := by
      rw [hbn, hinv.split_count (Nat.mod_lt _ (Nat.two_pow_pos _)) hd1 hsp, h.count]
    have := (h2.insertLoop_count key value (p + 1) hdir1 hc2 hi).2
    omega

/-- The call `Insert(3, 30)` on `fullTable`, with the identity as hash: the bucket of
key 3 holds the keys 1 and 2, and the hash of 2 differs from that of 3 in bit 0. -/
theorem Insert_terminates_witness :
    ∃ s1, (∀ fuel, 0 + 2 ≤ fuel → Insert (fun k : Nat => k) fuel fullTable 3 30 = some s1) ∧
      Find (fun k : Nat => k) s1 3 = some (some 30) ∧
      (∀ k, k ≠ 3 → Find (fun k : Nat => k) s1 k = Find (fun k : Nat => k) fullTable k) ∧
      GetNumBuckets fullTable < GetNumBuckets s1 ∧
      GetNumBuckets s1 ≤ GetNumBuckets fullTable
        + (0 + 1 - (Bucket.mk [(1, 10), (2, 20)] 0 : Bucket Nat Nat).localDepth) :=
  Insert_terminates (fun k : Nat => k) fullTable fullTable_reachable 3 30 0 0
    (Bucket.mk [(1, 10), (2, 20)] 0) (by decide) (by decide) (by decide) (by decide)
    (by decide) 0 (by decide) ⟨2, by decide, by decide⟩

/-- C36. Hash Insert repeated split. In a table that satisfies the invariant of the
reachable tables, let the bucket `cur` of `key` be full and not hold `key`, and let
every key in it have the hash of `key`. Then the loop of `Insert` splits: while the
local depth of `cur` is at most 30 the split step returns a table with one bucket more.
A split step that leaves the global depth within the range of the shifts puts all pairs
on the side of `key`: the bucket of `key` afterwards holds the same keys, as many pairs,
is full, does not hold `key`, has the local depth of `cur` plus one, and the other
bucket of the split is empty; the table again satisfies the invariant. Hence the loop
makes `n` split passes in a row for every `n` with `localDepth + n <= 30`: they return,
each adds a bucket, the bucket of `key` after them has the local depth of `cur` plus
`n`, the same keys and is full, and the loop goes on from there as it started. The call
`Insert(key, value)` does not return, for any bound on the passes of its loop. -/
theorem Insert_repeated_split (HashKey : K → Nat) (s : ExtendibleHash K V)
    (h : Inv HashKey s) (key : K) (idx cur : Nat) (b : Bucket K V)
    (hidx : getIdx HashKey s key = some idx) (hd0 : s.directories[idx]? = some cur)
    (hb : s.store[cur]? = some b) (hfull : ¬ StdMap.size b.kmap < s.bucketSize)
    (hk : StdMap.find b.kmap key = none)
    (hsame : ∀ k, k ∈ b.kmap.map Prod.fst → HashKey k = HashKey key) :
    (b.localDepth ≤ 30 → ∃ s1, split HashKey s cur = some s1 ∧
      GetNumBuckets s1 = GetNumBuckets s + 1 ∧ s1.store.length = s.store.length + 1) ∧
    (∀ s1, split HashKey s cur = some s1 → s1.globalDepth ≤ 30 →
      Inv HashKey s1 ∧ s1.bucketSize = s.bucketSize ∧
      ∃ cur1 b1 other, getIdx HashKey s1 key = some (HashKey key % 2 ^ s1.globalDepth) ∧
        s1.directories[HashKey key % 2 ^ s1.globalDepth]? = some cur1 ∧
        s1.store[cur1]? = some b1 ∧
        b1.localDepth = b.localDepth + 1 ∧
        (∀ k, k ∈ b1.kmap.map Prod.fst ↔ k ∈ b.kmap.map Prod.fst) ∧
        StdMap.size b1.kmap = StdMap.size b.kmap ∧
        ¬ StdMap.size b1.kmap < s1.bucketSize ∧
        StdMap.find b1.kmap key = none ∧
        (∀ k, k ∈ b1.kmap.map Prod.fst → HashKey k = HashKey key) ∧
        other ≠ cur1 ∧ (other = cur ∨ other = s.store.length) ∧
        (cur1 = cur ∨ cur1 = s.store.length) ∧
        s1.store[other]? = some (Bucket.mk [] (b.localDepth + 1))) ∧
    (∀ n, b.localDepth + n ≤ 30 →
      ∃ sn curn bn, splitPasses HashKey key n s cur = some (sn, curn) ∧ Inv HashKey sn ∧
        GetNumBuckets sn = GetNumBuckets s + n ∧ sn.store.length = s.store.length + n ∧
        getIdx HashKey sn key = some (HashKey key % 2 ^ sn.globalDepth) ∧
        sn.directories[HashKey key % 2 ^ sn.globalDepth]? = some curn ∧
        sn.store[curn]? = some bn ∧ bn.localDepth = b.localDepth + n ∧
        (∀ k, k ∈ bn.kmap.map Prod.fst ↔ k ∈ b.kmap.map Prod.fst) ∧
        StdMap.size bn.kmap = StdMap.size b.kmap ∧
        ¬ StdMap.size bn.kmap < sn.bucketSize ∧
        StdMap.find bn.kmap key = none ∧
        ∀ fuel value, insertLoop HashKey key value (fuel + n) s cur
          = insertLoop HashKey key value fuel sn curn) ∧
    ∀ fuel value, Insert HashKey fuel s key value = none := by
  have hk1 : key ∉ b.kmap.map Prod.fst := (StdMap.find_eq_none_iff _ _).mp hk
  have hg : s.globalDepth ≤ 30 := (getIdx_some _ _ _ _ hidx).1
  have hd : s.directories[HashKey key % 2 ^ s.globalDepth]? = some cur := by
    rw [← (getIdx_some _ _ _ _ hidx).2]
    exact hd0
  refine ⟨fun hd30 => ?_, fun s1 hsp hg30 => ?_, fun n hn => ?_, fun fuel value =>
    h.Insert_stuck key hd hb hfull hk1 (fun k hk2 => by rw [hsame k hk2]) fuel value⟩
  · obtain ⟨s1, _, _, hsp, _, _, hbn, hsl, _⟩ := h.split_same key hd hb hsame hd30
    exact ⟨s1, hsp, hbn, hsl⟩
  · obtain ⟨h1, hbs, _, hd31, _, _, cur1, kmap1, hdir1, hst1, hc1, hkm⟩ :=
      h.split_target key hd hb hsp
    obtain ⟨hne, hoth, hdir2⟩ := h.split_other key hd hb hsp
    obtain ⟨a0, b0, hda, hsa, _, _, _, hnd⟩ := h.slot (HashKey key % 2 ^ s.globalDepth)
      (Nat.mod_lt _ (Nat.two_pow_pos _))
    rw [hd] at hda
    cases hda
    rw [hb] at hsa
    cases hsa
    have hbits : ∀ k, k ∈ b.kmap.map Prod.fst →
        (HashKey k &&& 2 ^ b.localDepth ≠ 0 ↔ HashKey key &&& 2 ^ b.localDepth ≠ 0) :=
      fun k hk2 => by rw [hsame k hk2]
    obtain ⟨hmem, _, hlen, _⟩ := rehash_side HashKey (2 ^ b.localDepth) b.kmap key hnd
    rw [← hkm] at hmem hlen
    have hmem1 : ∀ k, k ∈ kmap1.map Prod.fst ↔ k ∈ b.kmap.map Prod.fst :=
      fun k => ⟨fun e => ((hmem k).mp e).1, fun e => (hmem k).mpr ⟨e, hbits k e⟩⟩
    have hlen1 : kmap1.length = b.kmap.length := hlen hbits
    have hsum := rehash_length HashKey (2 ^ b.localDepth) b.kmap [] hnd (fun k _ => by simp)
    simp only [List.length_nil, Nat.add_zero] at hsum
    rw [hdir1] at hdir2
    simp only [Option.some.injEq] at hdir2
    refine ⟨h1, hbs, cur1, Bucket.mk kmap1 (b.localDepth + 1),
      if HashKey key &&& 2 ^ b.localDepth ≠ 0 then cur else s.store.length,
      getIdx_eq HashKey s1 key hg30, hdir1, hst1, rfl, hmem1, hlen1, ?_, ?_, ?_, ?_, ?_, hc1,
      ?_⟩
    · rw [hbs]
      show ¬ kmap1.length < s.bucketSize
      rw [hlen1]
      exact hfull
    · rw [StdMap.find_eq_none_iff]
      exact fun e => hk1 ((hmem1 key).mp e)
    · exact fun k hk2 => hsame k ((hmem1 k).mp hk2)
    · rw [hdir2]
      by_cases hbk : HashKey key &&& 2 ^ b.localDepth ≠ 0
      · rw [if_pos hbk, if_pos hbk]
        exact hne
      · rw [if_neg hbk, if_neg hbk]
        exact fun e => hne e.symm
    · by_cases hbk : HashKey key &&& 2 ^ b.localDepth ≠ 0
      · rw [if_pos hbk]
        exact Or.inl rfl
      · rw [if_neg hbk]
        exact Or.inr rfl
    · rw [hoth]
      have hempty : (if HashKey key &&& 2 ^ b.localDepth ≠ 0 then
          (rehash HashKey (2 ^ b.localDepth) b.kmap []).1
          else (rehash HashKey (2 ^ b.localDepth) b.kmap []).2) = [] := by
        apply List.eq_nil_of_length_eq_zero
        rw [hkm] at hlen1
        by_cases hbk : HashKey key &&& 2 ^ b.localDepth ≠ 0
        · rw [if_pos hbk] at hlen1 ⊢
          omega
        · rw [if_neg hbk] at hlen1 ⊢
          omega
      rw [hempty]
  · obtain ⟨sn, curn, bn, hpass, hin, hgn, hbsn, hbnn, hsln, hdirn, hstn, hldn, hmemn, hlenn,
      hloop⟩ := h.splitPasses_same key n hg hd hb hfull hk1 hsame hn
    refine ⟨sn, curn, bn, hpass, hin, hbnn, hsln, getIdx_eq HashKey sn key hgn, hdirn, hstn,
      hldn, hmemn, hlenn, ?_, ?_, hloop⟩
    · rw [hbsn]
      show ¬ bn.kmap.length < s.bucketSize
      rw [hlenn]
      exact hfull
    · rw [StdMap.find_eq_none_iff]
      exact fun e => hk1 ((hmemn key).mp e)

/-- The call `Insert(1, v)` on `oneTable` with a constant hash: the bucket of key 1 is
full with key 0, which has the hash of key 1. The first split step doubles the directory
and leaves key 0 in bucket 0, the new bucket 1 empty; the second does the same with the
new bucket 2; 30 split passes in a row return, and the call does not. -/
theorem Insert_repeated_split_witness :
    ((((Bucket.mk [(0, 0)] 0 : Bucket Nat Nat).localDepth ≤ 30 →
        ∃ s1, split constHash oneTable 0 = some s1 ∧
          GetNumBuckets s1 = GetNumBuckets oneTable + 1 ∧
          s1.store.length = oneTable.store.length + 1) ∧
      (∀ s1, split constHash oneTable 0 = some s1 → s1.globalDepth ≤ 30 →
        Inv constHash s1 ∧ s1.bucketSize = oneTable.bucketSize ∧
        ∃ cur1 b1 other, getIdx constHash s1 1 = some (constHash 1 % 2 ^ s1.globalDepth) ∧
          s1.directories[constHash 1 % 2 ^ s1.globalDepth]? = some cur1 ∧
          s1.store[cur1]? = some b1 ∧
          b1.localDepth = (Bucket.mk [(0, 0)] 0 : Bucket Nat Nat).localDepth + 1 ∧
          (∀ k, k ∈ b1.kmap.map Prod.fst ↔
            k ∈ (Bucket.mk [(0, 0)] 0 : Bucket Nat Nat).kmap.map Prod.fst) ∧
          StdMap.size b1.kmap = StdMap.size (Bucket.mk [(0, 0)] 0 : Bucket Nat Nat).kmap ∧
          ¬ StdMap.size b1.kmap < s1.bucketSize ∧
          StdMap.find b1.kmap 1 = none ∧
          (∀ k, k ∈ b1.kmap.map Prod.fst → constHash k = constHash 1) ∧
          other ≠ cur1 ∧ (other = 0 ∨ other = oneTable.store.length) ∧
          (cur1 = 0 ∨ cur1 = oneTable.store.length) ∧
          s1.store[other]? = some (Bucket.mk []
            ((Bucket.mk [(0, 0)] 0 : Bucket Nat Nat).localDepth + 1))) ∧
      (∀ n, (Bucket.mk [(0, 0)] 0 : Bucket Nat Nat).localDepth + n ≤ 30 →
        ∃ sn curn bn, splitPasses constHash 1 n oneTable 0 = some (sn, curn) ∧
          Inv constHash sn ∧
          GetNumBuckets sn = GetNumBuckets oneTable + n ∧
          sn.store.length = oneTable.store.length + n ∧
          getIdx constHash sn 1 = some (constHash 1 % 2 ^ sn.globalDepth) ∧
          sn.directories[constHash 1 % 2 ^ sn.globalDepth]? = some curn ∧
          sn.store[curn]? = some bn ∧
          bn.localDepth = (Bucket.mk [(0, 0)] 0 : Bucket Nat Nat).localDepth + n ∧
          (∀ k, k ∈ bn.kmap.map Prod.fst ↔
            k ∈ (Bucket.mk [(0, 0)] 0 : Bucket Nat Nat).kmap.map Prod.fst) ∧
          StdMap.size bn.kmap = StdMap.size (Bucket.mk [(0, 0)] 0 : Bucket Nat Nat).kmap ∧
          ¬ StdMap.size bn.kmap < sn.bucketSize ∧
          StdMap.find bn.kmap 1 = none ∧
          ∀ fuel value, insertLoop constHash 1 value (fuel + n) oneTable 0
            = insertLoop constHash 1 value fuel sn curn) ∧
      ∀ fuel value, Insert constHash fuel oneTable 1 value = none)) ∧
    split constHash oneTable 0
      = some ⟨1, 1, 2, [0, 1], [⟨[(0, 0)], 1⟩, ⟨[], 1⟩]⟩ ∧
    splitPasses constHash 1 2 oneTable 0
      = some (⟨2, 1, 3, [0, 1, 2, 1], [⟨[(0, 0)], 2⟩, ⟨[], 1⟩, ⟨[], 2⟩]⟩, 0) :=
  ⟨Insert_repeated_split constHash oneTable oneTable_reachable_constHash.inv.1 1 0 0
    (Bucket.mk [(0, 0)] 0) (by decide) (by decide) (by decide) (by decide) (by decide)
    (fun _ _ => rfl), by decide, by decide⟩

/-- C37. Hash placement invariant. In every reachable table, every key `k` stored in a
bucket `B` agrees with every directory slot `i` that references `B` in the low
`local_depth(B)` bits of its hash; the index `getIdx(k)` of every key is within the
directory; every key stored in a bucket of the directory is stored in the bucket that
slot `getIdx(k)` references; no key is stored in two buckets of the directory, and none
twice in one bucket. -/
theorem placement_invariant (HashKey : K → Nat) (s : ExtendibleHash K V)
    (h : Reachable HashKey s) :
    (∀ (i a : Nat) (b : Bucket K V) (k : K), s.directories[i]? = some a →
      s.store[a]? = some b → k ∈ b.kmap.map Prod.fst →
      HashKey k % 2 ^ b.localDepth = i % 2 ^ b.localDepth) ∧
    (∀ k, ∃ idx, getIdx HashKey s k = some idx ∧
      idx = HashKey k % 2 ^ GetGlobalDepth s ∧ idx < s.directories.length) ∧
    (∀ (i a : Nat) (b : Bucket K V) (k : K), s.directories[i]? = some a →
      s.store[a]? = some b → k ∈ b.kmap.map Prod.fst →
      ∃ idx, getIdx HashKey s k = some idx ∧ s.directories[idx]? = some a) ∧
    (∀ (i j a a1 : Nat) (b b1 : Bucket K V) (k : K), s.directories[i]? = some a →
      s.directories[j]? = some a1 → s.store[a]? = some b → s.store[a1]? = some b1 →
      k ∈ b.kmap.map Prod.fst → k ∈ b1.kmap.map Prod.fst → a = a1) ∧
    (∀ (i a : Nat) (b : Bucket K V), s.directories[i]? = some a → s.store[a]? = some b →
      (b.kmap.map Prod.fst).Nodup) := by
  obtain ⟨hinv, hg⟩ := h.inv
  have key : ∀ (i a : Nat) (b : Bucket K V), s.directories[i]? = some a →
      s.store[a]? = some b →
      b.localDepth ≤ s.globalDepth ∧
      (∀ j, j < 2 ^ s.globalDepth →
        (s.directories[j]? = some a ↔ j % 2 ^ b.localDepth = i % 2 ^ b.localDepth)) ∧
      (∀ k, k ∈ b.kmap.map Prod.fst → HashKey k % 2 ^ b.localDepth = i % 2 ^ b.localDepth) ∧
      (b.kmap.map Prod.fst).Nodup := by
    intro i a b hi ha
    have hlt : i < 2 ^ s.globalDepth := by
      rw [← hinv.dir_len]
      exact (List.getElem?_eq_some.mp hi).1
    obtain ⟨a0, b0, hda, hsa, hle, hsh, hpl, hnd⟩ := hinv.slot i hlt
    rw [hi] at hda
    cases hda
    rw [ha] at hsa
    cases hsa
    exact ⟨hle, hsh, hpl, hnd⟩
  have target : ∀ (i a : Nat) (b : Bucket K V) (k : K), s.directories[i]? = some a →
      s.store[a]? = some b → k ∈ b.kmap.map Prod.fst →
      s.directories[HashKey k % 2 ^ s.globalDepth]? = some a := by
    intro i a b k hi ha hk
    obtain ⟨hle, hsh, hpl, _⟩ := key i a b hi ha
    rw [hsh _ (Nat.mod_lt _ (Nat.two_pow_pos _)), mod_mod_two_pow _ _ _ hle]
    exact hpl k hk
  refine ⟨fun i a b k hi ha hk => (key i a b hi ha).2.2.1 k hk, fun k => ?_,
    fun i a b k hi ha hk => ?_, fun i j a a1 b b1 k hi hj ha ha1 hk hk1 => ?_,
    fun i a b hi ha => (key i a b hi ha).2.2.2⟩
  · refine ⟨_, getIdx_eq HashKey s k hg, rfl, ?_⟩
    rw [hinv.dir_len]
    exact Nat.mod_lt _ (Nat.two_pow_pos _)
  · exact ⟨_, getIdx_eq HashKey s k hg, target i a b k hi ha hk⟩
  · have h1 := target i a b k hi ha hk
    have h2 := target j a1 b1 k hj ha1 hk1
    rw [h1] at h2
    exact Option.some.inj h2

/-- The placement invariant in the table after the calls of `sampleOps`. -/
theorem placement_invariant_witness :
    (∀ (i a : Nat) (b : Bucket Nat Nat) (k : Nat), sampleTable.directories[i]? = some a →
      sampleTable.store[a]? = some b → k ∈ b.kmap.map Prod.fst →
      (fun k : Nat => k) k % 2 ^ b.localDepth = i % 2 ^ b.localDepth) ∧
    (∀ k, ∃ idx, getIdx (fun k : Nat => k) sampleTable k = some idx ∧
      idx = (fun k : Nat => k) k % 2 ^ GetGlobalDepth sampleTable ∧
      idx < sampleTable.directories.length) ∧
    (∀ (i a : Nat) (b : Bucket Nat Nat) (k : Nat), sampleTable.directories[i]? = some a →
      sampleTable.store[a]? = some b → k ∈ b.kmap.map Prod.fst →
      ∃ idx, getIdx (fun k : Nat => k) sampleTable k = some idx ∧
        sampleTable.directories[idx]? = some a) ∧
    (∀ (i j a a1 : Nat) (b b1 : Bucket Nat Nat) (k : Nat),
      sampleTable.directories[i]? = some a →
      sampleTable.directories[j]? = some a1 → sampleTable.store[a]? = some b →
      sampleTable.store[a1]? = some b1 →
      k ∈ b.kmap.map Prod.fst → k ∈ b1.kmap.map Prod.fst → a = a1) ∧
    (∀ (i a : Nat) (b : Bucket Nat Nat), sampleTable.directories[i]? = some a →
      sampleTable.store[a]? = some b → (b.kmap.map Prod.fst).Nodup) :=
  placement_invariant (fun k : Nat => k) sampleTable sampleTable_reachable

/-- C38. Hash bucket count. A new table has one bucket. In every reachable table
`GetNumBuckets()` is the number of distinct buckets that the directory references, and
at least 1. A split step, in any table that satisfies the invariant of the reachable
tables, adds exactly one to `GetNumBuckets()` and to the number of distinct buckets in
the directory: the new bucket was not referenced before and is referenced afterwards,
and the split bucket is still referenced. A call of `Insert` that returns does not lower
`GetNumBuckets()`, and `Remove` leaves it as it is. -/
theorem bucket_count (HashKey : K → Nat) (s : ExtendibleHash K V)
    (h : Reachable HashKey s) :
    (∀ size, GetNumBuckets (new size : ExtendibleHash K V) = 1) ∧
    GetNumBuckets s = s.directories.dedup.length ∧ 1 ≤ GetNumBuckets s ∧
    (∀ (s0 s1 : ExtendibleHash K V) (i cur : Nat), Inv HashKey s0 →
      s0.directories[i]? = some cur → split HashKey s0 cur = some s1 →
      GetNumBuckets s1 = GetNumBuckets s0 + 1 ∧
      s1.directories.dedup.length = s0.directories.dedup.length + 1 ∧
      s0.store.length ∉ s0.directories ∧ s0.store.length ∈ s1.directories ∧
      cur ∈ s1.directories) ∧
    (∀ fuel k v s1, Insert HashKey fuel s k v = some s1 →
      GetNumBuckets s ≤ GetNumBuckets s1) ∧
    (∀ k r s1, Remove HashKey s k = some (r, s1) → GetNumBuckets s1 = GetNumBuckets s) := by
  obtain ⟨hinv, hg⟩ := h.inv
  have hc := h.count
  refine ⟨fun _ => rfl, hc, ?_, fun s0 s1 i cur h0 hd0 hsp => ?_,
    fun fuel k v s1 hi => (hinv.Insert_count hc hi).2, fun k r s1 hr => ?_⟩
  · show 1 ≤ s.bucketNum
    rw [hc]
    have hne : s.directories ≠ [] := by
      intro e
      have := hinv.dir_len
      rw [e] at this
      have hpos := Nat.two_pow_pos s.globalDepth
      simp at this
      omega
    have : s.directories.dedup ≠ [] := fun e => hne (List.dedup_eq_nil _ |>.mp e)
    exact List.length_pos.mpr this
  · have hi0 : i < 2 ^ s0.globalDepth := by
      rw [← h0.dir_len]
      exact (List.getElem?_eq_some.mp hd0).1
    obtain ⟨_, _, _, _, _, _, _, hbn⟩ := split_fields hsp
    obtain ⟨hnew, hmem⟩ := h0.split_dirs hi0 hd0 hsp
    exact ⟨hbn, h0.split_count hi0 hd0 hsp, hnew, (hmem _).mpr (Or.inl rfl),
      (hmem _).mpr (Or.inr (List.mem_iff_getElem?.mpr ⟨i, hd0⟩))⟩
  · obtain ⟨r2, s2, hr2, _, _, _, _, _, _, hbn, _⟩ := hinv.Remove_spec hg k
    rw [hr] at hr2
    cases hr2
    exact hbn

/-- The bucket count in the table after the calls of `sampleOps`: three buckets. -/
theorem bucket_count_witness :
    (∀ size, GetNumBuckets (new size : ExtendibleHash Nat Nat) = 1) ∧
    GetNumBuckets sampleTable = sampleTable.directories.dedup.length ∧
    1 ≤ GetNumBuckets sampleTable ∧
    (∀ (s0 s1 : ExtendibleHash Nat Nat) (i cur : Nat), Inv (fun k : Nat => k) s0 →
      s0.directories[i]? = some cur → split (fun k : Nat => k) s0 cur = some s1 →
      GetNumBuckets s1 = GetNumBuckets s0 + 1 ∧
      s1.directories.dedup.length = s0.directories.dedup.length + 1 ∧
      s0.store.length ∉ s0.directories ∧ s0.store.length ∈ s1.directories ∧
      cur ∈ s1.directories) ∧
    (∀ fuel k v s1, Insert (fun k : Nat => k) fuel sampleTable k v = some s1 →
      GetNumBuckets sampleTable ≤ GetNumBuckets s1) ∧
    (∀ k r s1, Remove (fun k : Nat => k) sampleTable k = some (r, s1) →
      GetNumBuckets s1 = GetNumBuckets sampleTable) :=
  bucket_count (fun k : Nat => k) sampleTable sampleTable_reachable

end ExtendibleHash
